import Mathlib

/-!
# ChampSim: out-of-order core and page-table walker

A shallow embedding of `src/ooo_cpu.cc` (`O3_CPU::init_instruction`, the fetch-stall
bookkeeping of `O3_CPU::operate` / `O3_CPU::fetch_instruction`, the trace-feeding loop of
`main.cc`, and the pipeline stages from `check_dib` to `retire_rob`) and of `src/ptw.cc`
(`PageTableWalker`, `PagingStructureCache`).

Conventions.
* C++ objects become structures, member functions become functions on them.
* `uint64_t` values are naturals; every operation that can leave the 64-bit range is
  reduced with `% 2 ^ 64` where the source wraps. The counters `instr_unique_id` and
  `current_cycle` of the core are incremented without reduction: the runs of the core
  considered stay below `2 ^ 64` instructions.
* A failing `assert` makes the embedded function return `none`; the pipeline stages return
  the line of the assertion that failed.
* Collaborators that are defined elsewhere (branch predictor,
  BTB, prefetcher, virtual memory, the lower-level cache) are parameters.
-/

namespace ChampSim

/-! ## Instructions -/

/-- Branch kinds (`instruction.h`); the data model names eight of them. -/
inductive BranchType where
  | NOT_BRANCH
  | BRANCH_DIRECT_JUMP
  | BRANCH_INDIRECT
  | BRANCH_CONDITIONAL
  | BRANCH_DIRECT_CALL
  | BRANCH_INDIRECT_CALL
  | BRANCH_RETURN
  | BRANCH_OTHER
  deriving DecidableEq, Repr

open BranchType

/-- Constants of `champsim.h`, `instruction.h` and `ooo_cpu.h` that `ooo_cpu.cc` reads.
Their declarations are not part of the sources, so they are parameters. -/
structure CoreConfig where
  REG_STACK_POINTER : Nat
  REG_FLAGS : Nat
  REG_INSTRUCTION_POINTER : Nat
  FETCH_WIDTH : Nat
  IFETCH_SIZE : Nat
  ROB_SIZE : Nat
  NUM_INSTR_DESTINATIONS_SPARC : Nat
  deriving Repr

/-- Modelled from the spec: a memory operand of an instruction (`ooo_model_instr::lsq_info`
of `instruction.h`): its address, whether it has been added to the load or store queue,
whether a store of the ROB will forward it, and the slot of the queue that holds it. -/
structure lsq_info where
  address : Nat := 0
  added : Bool := false
  will_forward : Bool := false
  q_it : Option Nat := none
  deriving DecidableEq, Repr

/-- The fields of `ooo_model_instr` that `ooo_cpu.cc` reads or writes. The two lists of
dependents hold ROB iterators, which are positions in the ROB. -/
structure ooo_model_instr where
  instr_id : Nat := 0
  ip : Nat := 0
  event_cycle : Nat := 0
  is_branch : Nat := 0
  is_memory : Nat := 0
  branch_taken : Nat := 0
  branch_mispredicted : Nat := 0
  branch_type : BranchType := NOT_BRANCH
  branch_target : Nat := 0
  translated : Nat := 0
  fetched : Nat := 0
  decoded : Nat := 0
  scheduled : Nat := 0
  executed : Nat := 0
  num_reg_ops : Nat := 0
  num_mem_ops : Nat := 0
  num_reg_dependent : Nat := 0
  instruction_pa : Nat := 0
  destination_registers : List Nat := []
  source_registers : List Nat := []
  destination_memory : List lsq_info := []
  source_memory : List lsq_info := []
  registers_instrs_depend_on_me : List Nat := []
  memory_instrs_depend_on_me : List Nat := []
  deriving DecidableEq, Repr

/-- The plug-in hooks called by `init_instruction`, over an abstract plug-in state `β`
(branch predictor, BTB and instruction prefetcher). -/
structure BranchHooks (β : Type) where
  impl_btb_prediction : β → Nat → BranchType → (Nat × Nat) × β
  impl_predict_branch : β → Nat → Nat → Nat → BranchType → Nat × β
  impl_prefetcher_branch_operate : β → Nat → BranchType → Nat → β
  impl_update_btb : β → Nat → Nat → Nat → BranchType → β
  impl_last_branch_result : β → Nat → Nat → Nat → BranchType → β

/-- The members of `O3_CPU` used by the front end. Statistics counters are declared in
`ooo_cpu.h`; they are naturals here. `instrs_to_read_this_cycle` is an unsigned 64-bit
count. -/
structure O3_CPU (β : Type) where
  cpu : Nat := 0
  operated : Bool := false
  current_cycle : Nat := 0
  instr_unique_id : Nat := 0
  instrs_to_read_this_cycle : Nat := 0
  fetch_stall : Nat := 0
  fetch_resume_cycle : Nat := 0
  num_branch : Nat := 0
  branch_mispredictions : Nat := 0
  total_rob_occupancy_at_branch_mispredict : Nat := 0
  total_branch_types : BranchType → Nat := fun _ => 0
  branch_type_misses : BranchType → Nat := fun _ => 0
  STA : List Nat := []
  IFETCH_BUFFER : List ooo_model_instr := []
  ROB : List ooo_model_instr := []
  plugin : β

/-- The operand predicates of lines 54-59. -/
structure RegFlags where
  writes_sp : Bool
  writes_ip : Bool
  reads_sp : Bool
  reads_flags : Bool
  reads_ip : Bool
  reads_other : Bool
  deriving DecidableEq, Repr

/-- Lines 54-59: `std::find` over the register vectors, `std::any_of` for `reads_other`. -/
def reg_flags (cfg : CoreConfig) (arch_instr : ooo_model_instr) : RegFlags :=
  { writes_sp := decide (cfg.REG_STACK_POINTER ∈ arch_instr.destination_registers)
    writes_ip := decide (cfg.REG_INSTRUCTION_POINTER ∈ arch_instr.destination_registers)
    reads_sp := decide (cfg.REG_STACK_POINTER ∈ arch_instr.source_registers)
    reads_flags := decide (cfg.REG_FLAGS ∈ arch_instr.source_registers)
    reads_ip := decide (cfg.REG_INSTRUCTION_POINTER ∈ arch_instr.source_registers)
    reads_other := arch_instr.source_registers.any (fun sreg =>
      sreg != cfg.REG_STACK_POINTER && sreg != cfg.REG_FLAGS
        && sreg != cfg.REG_INSTRUCTION_POINTER) }

/-- Lines 64-68: operand counts and the `is_memory` flag. -/
def count_ops (arch_instr : ooo_model_instr) : ooo_model_instr :=
  let a1 := { arch_instr with
    num_reg_ops := arch_instr.source_registers.length + arch_instr.destination_registers.length
    num_mem_ops := arch_instr.source_memory.length + arch_instr.destination_memory.length }
  if a1.num_mem_ops > 0 then { a1 with is_memory := 1 } else a1

/-- Lines 70-119: the `if / else if` chain that determines the kind of branch. -/
def classify_branch (f : RegFlags) (arch_instr : ooo_model_instr) : ooo_model_instr :=
  if !f.reads_sp && !f.reads_flags && f.writes_ip && !f.reads_other then
    { arch_instr with is_branch := 1, branch_taken := 1, branch_type := BRANCH_DIRECT_JUMP }
  else if !f.reads_sp && !f.reads_flags && f.writes_ip && f.reads_other then
    { arch_instr with is_branch := 1, branch_taken := 1, branch_type := BRANCH_INDIRECT }
  else if !f.reads_sp && f.reads_ip && !f.writes_sp && f.writes_ip && f.reads_flags
      && !f.reads_other then
    { arch_instr with is_branch := 1, branch_taken := arch_instr.branch_taken,
                      branch_type := BRANCH_CONDITIONAL }
  else if f.reads_sp && f.reads_ip && f.writes_sp && f.writes_ip && !f.reads_flags
      && !f.reads_other then
    { arch_instr with is_branch := 1, branch_taken := 1, branch_type := BRANCH_DIRECT_CALL }
  else if f.reads_sp && f.reads_ip && f.writes_sp && f.writes_ip && !f.reads_flags
      && f.reads_other then
    { arch_instr with is_branch := 1, branch_taken := 1, branch_type := BRANCH_INDIRECT_CALL }
  else if f.reads_sp && !f.reads_ip && f.writes_sp && f.writes_ip then
    { arch_instr with is_branch := 1, branch_taken := 1, branch_type := BRANCH_RETURN }
  else if f.writes_ip then
    { arch_instr with is_branch := 1, branch_taken := arch_instr.branch_taken,
                      branch_type := BRANCH_OTHER }
  else arch_instr

/-- Lines 123-127: the target of anything but a taken branch is cleared. -/
def clear_target (arch_instr : ooo_model_instr) : ooo_model_instr :=
  if arch_instr.is_branch != 1 || arch_instr.branch_taken != 1 then
    { arch_instr with branch_target := 0 }
  else arch_instr

/-- Lines 135-150: stack pointer folding. `std::find` yields the first occurrence of the
stack pointer and `erase` removes that one element. -/
def fold_stack_pointer (cfg : CoreConfig) (f : RegFlags) (arch_instr : ooo_model_instr) :
    ooo_model_instr :=
  if f.writes_sp then
    if arch_instr.is_branch != 0 || arch_instr.num_mem_ops > 0 || !f.reads_other then
      if cfg.REG_STACK_POINTER ∈ arch_instr.destination_registers then
        { arch_instr with
          destination_registers := arch_instr.destination_registers.erase cfg.REG_STACK_POINTER
          num_reg_ops := arch_instr.num_reg_ops - 1 }
      else arch_instr
    else arch_instr
  else arch_instr

/-- Decrement of an unsigned 64-bit counter (`instrs_to_read_this_cycle--`): zero wraps to
`2 ^ 64 - 1`. For `n < 2 ^ 64` this is `(n + (2 ^ 64 - 1)) % 2 ^ 64`. -/
def dec64 (n : Nat) : Nat := if n = 0 then 2 ^ 64 - 1 else n - 1

/-- Lines 162-167: the predicted target after consulting BTB and direction predictor; it is
zeroed when the branch is predicted not taken and is not always taken. Returns the target and
the plug-in state after the two calls. -/
def predicted_target {β : Type} (hooks : BranchHooks β) (p : β) (arch_instr : ooo_model_instr) :
    Nat × β :=
  let r := hooks.impl_btb_prediction p arch_instr.ip arch_instr.branch_type
  let predicted_branch_target := r.1.1
  let always_taken := r.1.2
  let q := hooks.impl_predict_branch r.2 arch_instr.ip predicted_branch_target always_taken
    arch_instr.branch_type
  let branch_prediction := q.1
  if branch_prediction == 0 && always_taken == 0 then (0, q.2) else (predicted_branch_target, q.2)

/-- Lines 155-195: branch prediction bookkeeping. Returns the core and the instruction. -/
def handle_branch_prediction {β : Type} (hooks : BranchHooks β) (warmup_complete : Bool)
    (s : O3_CPU β) (arch_instr : ooo_model_instr) : O3_CPU β × ooo_model_instr :=
  if arch_instr.is_branch != 0 then
    let s1 := { s with num_branch := s.num_branch + 1 }
    let pt := predicted_target hooks s1.plugin arch_instr
    let predicted_branch_target := pt.1
    let p3 := hooks.impl_prefetcher_branch_operate pt.2 arch_instr.ip arch_instr.branch_type
      predicted_branch_target
    let s2 := { s1 with plugin := p3 }
    let r : O3_CPU β × ooo_model_instr :=
      if predicted_branch_target != arch_instr.branch_target then
        let s3 := { s2 with
          branch_mispredictions := s2.branch_mispredictions + 1
          total_rob_occupancy_at_branch_mispredict :=
            s2.total_rob_occupancy_at_branch_mispredict + s2.ROB.length
          branch_type_misses := Function.update s2.branch_type_misses arch_instr.branch_type
            (s2.branch_type_misses arch_instr.branch_type + 1) }
        if warmup_complete then
          ({ s3 with fetch_stall := 1, instrs_to_read_this_cycle := 0 },
           { arch_instr with branch_mispredicted := 1 })
        else (s3, arch_instr)
      else if arch_instr.branch_taken == 1 then
        ({ s2 with instrs_to_read_this_cycle := 0 }, arch_instr)
      else (s2, arch_instr)
    let p4 := hooks.impl_update_btb r.1.plugin arch_instr.ip arch_instr.branch_target
      arch_instr.branch_taken arch_instr.branch_type
    let p5 := hooks.impl_last_branch_result p4 arch_instr.ip arch_instr.branch_target
      arch_instr.branch_taken arch_instr.branch_type
    ({ r.1 with plugin := p5 }, r.2)
  else (s, arch_instr)

/-- Lines 199-206: fast warmup drops the register operands. -/
def warmup_strip (warmup_complete : Bool) (arch_instr : ooo_model_instr) : ooo_model_instr :=
  if !warmup_complete then
    { arch_instr with source_registers := [], destination_registers := [], num_reg_ops := 0 }
  else arch_instr

/-- The instruction that `init_instruction` has built when it reaches line 152 (before branch
prediction): id, operand counts, branch kind, target clearing and stack pointer folding. -/
def decoded_instr (cfg : CoreConfig) (instr_unique_id : Nat) (arch_instr : ooo_model_instr) :
    ooo_model_instr :=
  let f := reg_flags cfg arch_instr
  let a0 := { arch_instr with instr_id := instr_unique_id }
  fold_stack_pointer cfg f (clear_target (classify_branch f (count_ops a0)))

/-- The core when `init_instruction` reaches line 152: the read budget is decremented
(line 48), `STA` has one copy of the id per destination memory operand (line 61) and the
branch kind is tallied (line 121). -/
def tallied_core {β : Type} (cfg : CoreConfig) (s : O3_CPU β) (arch_instr : ooo_model_instr) :
    O3_CPU β :=
  let a := decoded_instr cfg s.instr_unique_id arch_instr
  { s with
    instrs_to_read_this_cycle := dec64 s.instrs_to_read_this_cycle
    STA := s.STA ++ List.replicate arch_instr.destination_memory.length s.instr_unique_id
    total_branch_types := Function.update s.total_branch_types a.branch_type
      (s.total_branch_types a.branch_type + 1) }

/-- Lines 197-211: stamp the event cycle, strip registers during warmup, append to
`IFETCH_BUFFER` and advance the id counter. -/
def push_instr {β : Type} (warmup_complete : Bool) (r : O3_CPU β × ooo_model_instr) :
    O3_CPU β :=
  let a1 := warmup_strip warmup_complete { r.2 with event_cycle := r.1.current_cycle }
  { r.1 with
    IFETCH_BUFFER := r.1.IFETCH_BUFFER ++ [a1]
    instr_unique_id := r.1.instr_unique_id + 1 }

/-- `O3_CPU::init_instruction` (lines 43-212). The result is `none` when the assertion on
the size of `STA` (line 62) fails. -/
def init_instruction {β : Type} (cfg : CoreConfig) (hooks : BranchHooks β)
    (warmup_complete : Bool) (s : O3_CPU β) (arch_instr : ooo_model_instr) :
    Option (O3_CPU β) :=
  let s2 := tallied_core cfg s arch_instr
  if s2.STA.length ≤ cfg.ROB_SIZE * cfg.NUM_INSTR_DESTINATIONS_SPARC then
    some (push_instr warmup_complete
      (handle_branch_prediction hooks warmup_complete s2
        (decoded_instr cfg s.instr_unique_id arch_instr)))
  else none


/-! ## The priority table of the data model -/

/-- How a row of the table treats `branch_taken`. -/
inductive TakenRule where
  | forced
  | keep
  deriving DecidableEq, Repr

/-- The priority table of the specification, row by row: predicate over the operand flags,
branch type, and whether `branch_taken` is forced to 1 or kept. -/
def branch_table : List ((RegFlags → Bool) × BranchType × TakenRule) :=
  [ (fun f => !f.reads_sp && !f.reads_flags && f.writes_ip && !f.reads_other,
      BRANCH_DIRECT_JUMP, TakenRule.forced),
    (fun f => !f.reads_sp && !f.reads_flags && f.writes_ip && f.reads_other,
      BRANCH_INDIRECT, TakenRule.forced),
    (fun f => !f.reads_sp && f.reads_ip && !f.writes_sp && f.writes_ip && f.reads_flags
        && !f.reads_other, BRANCH_CONDITIONAL, TakenRule.keep),
    (fun f => f.reads_sp && f.reads_ip && f.writes_sp && f.writes_ip && !f.reads_flags
        && !f.reads_other, BRANCH_DIRECT_CALL, TakenRule.forced),
    (fun f => f.reads_sp && f.reads_ip && f.writes_sp && f.writes_ip && !f.reads_flags
        && f.reads_other, BRANCH_INDIRECT_CALL, TakenRule.forced),
    (fun f => f.reads_sp && !f.reads_ip && f.writes_sp && f.writes_ip,
      BRANCH_RETURN, TakenRule.forced),
    (fun f => f.writes_ip, BRANCH_OTHER, TakenRule.keep) ]

/-- The first row of the table whose predicate holds, if any. -/
def table_lookup (f : RegFlags) : Option (BranchType × TakenRule) :=
  (branch_table.find? (fun row => row.1 f)).map (fun row => row.2)

/-- What the table prescribes for the instruction `x` built from the trace entry
`arch_instr`: the row's type with `is_branch = 1` and `branch_taken` forced or kept; with no
row, the three fields are those of the trace entry. -/
def table_outcome (f : RegFlags) (arch_instr x : ooo_model_instr) : Prop :=
  match table_lookup f with
  | some (ty, TakenRule.forced) => x.branch_type = ty ∧ x.is_branch = 1 ∧ x.branch_taken = 1
  | some (ty, TakenRule.keep) =>
      x.branch_type = ty ∧ x.is_branch = 1 ∧ x.branch_taken = arch_instr.branch_taken
  | none => x.branch_type = arch_instr.branch_type ∧ x.is_branch = arch_instr.is_branch
      ∧ x.branch_taken = arch_instr.branch_taken

/-- The register numbering used in the examples (stack pointer 6, flags 25, instruction
pointer 26) with small buffers. -/
def cfg0 : CoreConfig :=
  { REG_STACK_POINTER := 6, REG_FLAGS := 25, REG_INSTRUCTION_POINTER := 26,
    FETCH_WIDTH := 6, IFETCH_SIZE := 64, ROB_SIZE := 352, NUM_INSTR_DESTINATIONS_SPARC := 4 }

/-- Hooks of a stateless predictor: the BTB answers `(target, always_taken)` and the
direction predictor answers `taken`, whatever the branch. -/
def const_hooks (target always_taken taken : Nat) : BranchHooks Unit :=
  { impl_btb_prediction := fun p _ _ => ((target, always_taken), p)
    impl_predict_branch := fun p _ _ _ _ => (taken, p)
    impl_prefetcher_branch_operate := fun p _ _ _ => p
    impl_update_btb := fun p _ _ _ _ => p
    impl_last_branch_result := fun p _ _ _ _ => p }

/-- An idle core with nothing in flight. -/
def core0 : O3_CPU Unit := { plugin := (), instrs_to_read_this_cycle := 6 }

/-- The direct jump of the first end-to-end scenario: `ip = 0x1000`, writes only the
instruction pointer, target `0x2000`. -/
def jmp0 : ooo_model_instr :=
  { ip := 0x1000, destination_registers := [26], is_branch := 1, branch_taken := 1,
    branch_target := 0x2000 }

/-- The conditional branch of the second scenario: reads the instruction pointer and the
flags, writes the instruction pointer, target `0x3000`, taken. -/
def cond0 : ooo_model_instr :=
  { ip := 0x1000, source_registers := [26, 25], destination_registers := [26], is_branch := 1,
    branch_taken := 1, branch_target := 0x3000 }

/-- The call of the third scenario: sources `[SP, IP]`, destinations `[SP, IP]`. -/
def call0 : ooo_model_instr :=
  { ip := 0x1000, source_registers := [6, 26], destination_registers := [6, 26], is_branch := 1,
    branch_taken := 1, branch_target := 0x5000 }

/-- An instruction whose destination vector lists the stack pointer twice. -/
def dup_sp : ooo_model_instr :=
  { ip := 0x1000, destination_registers := [6, 6] }

/-! ## The read budget, the fetch stall and the feed loop (`operate`, `fetch_instruction`,
`main`) -/

/-- Lines 14-15 of `O3_CPU::operate`: the read budget of the cycle is the fetch width or the
room left in `IFETCH_BUFFER`, whichever is smaller. -/
def set_read_budget {β : Type} (cfg : CoreConfig) (s : O3_CPU β) : O3_CPU β :=
  { s with
    operated := true
    instrs_to_read_this_cycle := min cfg.FETCH_WIDTH (cfg.IFETCH_SIZE - s.IFETCH_BUFFER.length) }

/-- Lines 293-298 of `O3_CPU::fetch_instruction`: "turn fetching back on after the branch
mispredict penalty". -/
def resume_fetch {β : Type} (s : O3_CPU β) : O3_CPU β :=
  if s.fetch_stall = 1 ∧ s.current_cycle ≥ s.fetch_resume_cycle ∧ s.fetch_resume_cycle ≠ 0 then
    { s with fetch_stall := 0, fetch_resume_cycle := 0 }
  else s

/-- What `O3_CPU::operate` does to `instrs_to_read_this_cycle` and `fetch_stall`: the budget
of line 15 and the resume test of `fetch_instruction`. No other statement of `ooo_cpu.cc`
writes either member outside `init_instruction`. -/
def operate_fetch_control {β : Type} (cfg : CoreConfig) (s : O3_CPU β) : O3_CPU β :=
  resume_fetch (set_read_budget cfg s)

/-- Lines 481-482 of `main.cc`: `while (cpu->instrs_to_read_this_cycle > 0)
cpu->init_instruction(traces[cpu->cpu]->get())`, the trace being the list of the entries to
come. `none` when an assertion of `init_instruction` fails or the list runs out. -/
def feed_instructions {β : Type} (cfg : CoreConfig) (hooks : BranchHooks β)
    (warmup_complete : Bool) : List ooo_model_instr → O3_CPU β → Option (O3_CPU β)
  | [], s => if s.instrs_to_read_this_cycle > 0 then none else some s
  | arch_instr :: trace, s =>
    if s.instrs_to_read_this_cycle > 0 then
      match init_instruction cfg hooks warmup_complete s arch_instr with
      | none => none
      | some s1 => feed_instructions cfg hooks warmup_complete trace s1
    else some s

/-- The cycle after `s`: the clock has advanced, `operate` has run and `main` has fed the
core from the trace. Modelled from the spec: the clock is advanced by `_operate` of
`operable.h`. -/
def next_cycle_feed {β : Type} (cfg : CoreConfig) (hooks : BranchHooks β)
    (warmup_complete : Bool) (trace : List ooo_model_instr) (s : O3_CPU β) :
    Option (O3_CPU β) :=
  feed_instructions cfg hooks warmup_complete trace
    (operate_fetch_control cfg { s with current_cycle := s.current_cycle + 1 })

/-- An instruction that is no branch: it reads register 1 and writes register 2. -/
def add0 : ooo_model_instr :=
  { ip := 0x1004, source_registers := [1], destination_registers := [2] }

/-! ## Packets, blocks and paging-structure caches (`memory_class.h`, `ptw.cc`) -/

/-- The largest `uint64_t`, used as the "no value" sentinel throughout `ptw.cc`. -/
def UINT64_MAX : Nat := 2 ^ 64 - 1

/-- The largest `uint32_t`, the initial `lru` of a `BLOCK`. -/
def UINT32_MAX : Nat := 2 ^ 32 - 1

/-- Modelled from the spec: `LOG2_PAGE_SIZE` of `champsim.h` (the spec's PAGE_BITS), the 12
in "shift `12 + 9·(level-1)`". -/
def LOG2_PAGE_SIZE : Nat := 12

/-- Access type `PREFETCH` (`memory_class.h`, line 12). -/
def PREFETCH : Nat := 2

/-- Access type `TRANSLATION` (`memory_class.h`, line 14). -/
def TRANSLATION : Nat := 4

/-- A return sink of a packet (`MemoryRequestProducer*`): the walker itself (`this`) or a
producer of the upper level, known by a number. -/
inductive ReturnSink where
  | this_ptw
  | producer (id : Nat)
  deriving DecidableEq, Repr

/-- The fields of `PACKET` that `ptw.cc`, the `BLOCK` constructor and `ooo_cpu.cc` read or
write. `instr_depend_on_me` holds iterators of `IFETCH_BUFFER`, which are positions in that
buffer; `lq_index_depend_on_me` and `sq_index_depend_on_me` hold iterators of the load and
store queues, which are slot indices. -/
structure PACKET where
  address : Nat := 0
  v_address : Nat := 0
  full_addr : Nat := 0
  full_v_addr : Nat := 0
  data : Nat := 0
  type : Nat := 0
  fill_level : Nat := 0
  instr_id : Nat := 0
  ip : Nat := 0
  cpu : Nat := 0
  translation_level : Nat := 0
  init_translation_level : Nat := 0
  delta : Int := 0
  depth : Int := 0
  signature : Int := 0
  confidence : Int := 0
  to_return : List ReturnSink := []
  event_cycle : Nat := 0
  cycle_enqueued : Nat := 0
  instr_depend_on_me : List Nat := []
  lq_index_depend_on_me : List Nat := []
  sq_index_depend_on_me : List Nat := []
  deriving DecidableEq, Repr

/-- `class BLOCK` (`memory_class.h`, lines 18-64), with the default member initialisers. -/
structure BLOCK where
  valid : Nat := 0
  prefetch : Nat := 0
  dirty : Nat := 0
  used : Nat := 0
  delta : Int := 0
  depth : Int := 0
  signature : Int := 0
  confidence : Int := 0
  address : Nat := 0
  full_addr : Nat := 0
  v_address : Nat := 0
  full_v_addr : Nat := 0
  tag : Nat := 0
  data : Nat := 0
  ip : Nat := 0
  cpu : Nat := 0
  instr_id : Nat := 0
  lru : Nat := UINT32_MAX
  deriving DecidableEq, Repr

/-- The constructor `BLOCK(const PACKET &packet)` (lines 45-63); `lru` keeps its default. -/
def BLOCK.of_packet (packet : PACKET) : BLOCK :=
  { valid := 1
    prefetch := if packet.type = PREFETCH then 1 else 0
    dirty := 0
    used := 0
    delta := packet.delta
    depth := packet.depth
    signature := packet.signature
    confidence := packet.confidence
    address := packet.address
    full_addr := packet.full_addr
    v_address := packet.v_address
    full_v_addr := packet.full_v_addr
    tag := packet.address
    data := packet.data
    ip := packet.ip
    cpu := packet.cpu
    instr_id := packet.instr_id }

/-- `PageTableWalker::get_offset` (lines 246-267): nine bits of the low 57 bits of the
address, at shift 12 for level 1 (and any level without a `case`) up to 48 for level 5.
Modelled from the spec: `IS_PTL1 … IS_PTL5` of `ptw.h` are 1 … 5. -/
def get_offset (full_virtual_addr pt_level : Nat) : Nat :=
  let a := full_virtual_addr &&& (2 ^ 57 - 1)
  let shift :=
    if pt_level = 5 then 12 + (9 + 9 + 9 + 9)
    else if pt_level = 4 then 12 + (9 + 9 + 9)
    else if pt_level = 3 then 12 + (9 + 9)
    else if pt_level = 2 then 12 + 9
    else 12
  (a >>> shift) &&& 0x1ff

/-- The recursion `n < 2 ? 0 : 1 + lg2(n / 2)` with at most `fuel` halvings. -/
def lg2_aux : Nat → Nat → Nat
  | 0, _ => 0
  | fuel + 1, n => if n < 2 then 0 else 1 + lg2_aux fuel (n / 2)

/-- Modelled from the spec: `lg2` of `util.h`, the integer base-2 logarithm of a `uint64_t`
(64 halvings exhaust it). -/
def lg2 (n : Nat) : Nat := lg2_aux 64 n

/-- Modelled from the spec: `bitmask` of `util.h`, the mask of the low `b` bits. -/
def bitmask (b : Nat) : Nat := 2 ^ b - 1

/-- `class PagingStructureCache`: its level (`cache_type`; modelled from the spec:
`IS_PSCL2 … IS_PSCL5` of `ptw.h` are 2 … 5), its geometry and its blocks, set by set. -/
structure PagingStructureCache where
  cache_type : Nat
  NUM_SET : Nat
  NUM_WAY : Nat
  block : List BLOCK
  deriving DecidableEq, Repr

/-- `PagingStructureCache::get_index` (lines 389-409). -/
def PagingStructureCache.get_index (c : PagingStructureCache) (address : Nat) : Nat :=
  let a := address &&& (2 ^ 57 - 1)
  let shift :=
    if c.cache_type = 5 then 12 + (9 + 9 + 9 + 9)
    else if c.cache_type = 4 then 12 + (9 + 9 + 9)
    else if c.cache_type = 3 then 12 + (9 + 9)
    else if c.cache_type = 2 then 12 + 9
    else 12
  a >>> shift

/-- `PagingStructureCache::get_set` (lines 356-359); the result is a `uint32_t`. -/
def PagingStructureCache.get_set (c : PagingStructureCache) (address : Nat) : Nat :=
  ((address >>> LOG2_PAGE_SIZE) &&& bitmask (lg2 c.NUM_SET)) % 2 ^ 32

/-- The block at a position of the `block` vector. -/
def PagingStructureCache.at (c : PagingStructureCache) (i : Nat) : BLOCK :=
  c.block.getD i {}

/-- The scan over the ways of a set in `check_hit` (lines 422-426): the data of the first
valid way whose tag is `address`. -/
def PagingStructureCache.scan_ways (c : PagingStructureCache) (set address : Nat) :
    Nat → Nat → Nat
  | 0, _ => UINT64_MAX
  | n + 1, way =>
    if (c.at (set * c.NUM_WAY + way)).valid ≠ 0 ∧ (c.at (set * c.NUM_WAY + way)).tag = address
    then (c.at (set * c.NUM_WAY + way)).data
    else PagingStructureCache.scan_ways c set address n (way + 1)

/-- `PagingStructureCache::check_hit` (lines 411-429); `none` when `assert(0)` is reached. -/
def PagingStructureCache.check_hit (c : PagingStructureCache) (address : Nat) : Option Nat :=
  let index := c.get_index address
  let set := c.get_set index
  if c.NUM_SET < set then none
  else some (c.scan_ways set index c.NUM_WAY 0)

/-- The value that `check_hit` yields when the set index is in range: the data of the hitting
way, or `UINT64_MAX` on a miss. -/
def PagingStructureCache.probe (c : PagingStructureCache) (address : Nat) : Nat :=
  c.scan_ways (c.get_set (c.get_index address)) (c.get_index address) c.NUM_WAY 0

/-- Modelled from the spec: `std::max_element` with `lru_comparator` of `util.h` over the
ways of a set ("Victim = max-LRU way"): the first way whose `lru` is largest. `best` is the
candidate so far, `way` the next way to look at, `n` the ways left. -/
def PagingStructureCache.max_lru_way (c : PagingStructureCache) (set : Nat) :
    Nat → Nat → Nat → Nat
  | 0, _, best => best
  | n + 1, way, best =>
    if (c.at (set * c.NUM_WAY + best)).lru < (c.at (set * c.NUM_WAY + way)).lru
    then PagingStructureCache.max_lru_way c set n (way + 1) way
    else PagingStructureCache.max_lru_way c set n (way + 1) best

/-- `PagingStructureCache::fill_cache` (lines 361-387). -/
def PagingStructureCache.fill_cache (c : PagingStructureCache) (next_level_base_addr : Nat)
    (packet : PACKET) : PagingStructureCache :=
  let address := c.get_index packet.v_address
  let set := c.get_set address
  let way := c.max_lru_way set (c.NUM_WAY - 1) 1 0
  let new_packet := { packet with address := address, data := next_level_base_addr }
  let lru := (c.at (set * c.NUM_WAY + way)).lru
  let fill_block := { BLOCK.of_packet new_packet with lru := lru }
  let block1 := c.block.set (set * c.NUM_WAY + way) fill_block
  let hit_lru := lru
  let block2 := block1.mapIdx (fun i x =>
    if set * c.NUM_WAY ≤ i ∧ i < set * c.NUM_WAY + c.NUM_WAY then
      (if x.lru ≤ hit_lru then { x with lru := (x.lru + 1) % 2 ^ 32 } else x)
    else x)
  let block3 := block2.set (set * c.NUM_WAY + way)
    { (block2.getD (set * c.NUM_WAY + way) {}) with lru := 0 }
  { c with block := block3 }

/-- A freshly constructed cache: every block default-constructed. -/
def PagingStructureCache.fresh (cache_type num_set num_way : Nat) : PagingStructureCache :=
  { cache_type := cache_type, NUM_SET := num_set, NUM_WAY := num_way
    block := List.replicate (num_set * num_way) {} }

/-! ## The page-table walker (`ptw.cc`) -/

/-- Modelled from the spec: `vmem.va_to_pa(cpu, v)` of `vmem.h`, taken as a stable function
returning a `uint64_t`. -/
structure VirtualMemory where
  va_to_pa : Nat → Nat → Nat
  va_to_pa_lt : ∀ cpu v, va_to_pa cpu v < 2 ^ 64

/-- Modelled from the spec: a `PageTablePage` node of `ptw.h`: per entry a pointer to a child
page (`none` is `NULL`; a page is known by its number in the walker's store of pages) and a
base-address cell whose sentinel is `UINT64_MAX`. -/
structure PageTablePage where
  entry : Nat → Option Nat
  next_level_base_addr : Nat → Nat

/-- A page as `new PageTablePage()` leaves it: no child, every cell `UINT64_MAX`. -/
def PageTablePage.fresh : PageTablePage :=
  { entry := fun _ => none, next_level_base_addr := fun _ => UINT64_MAX }

/-- Modelled from the spec: an entry of the `champsim::delay_queue` that holds the walker's
read queue: the packet and the cycles it still has to wait; it is ready at 0. -/
structure DelayEntry where
  pkt : PACKET
  delay : Nat
  deriving DecidableEq, Repr

/-- The members of `PageTableWalker` used by `ptw.cc`, the page-table pages it has allocated
(`pages`, `num_pages` of them, `L5` the root), and the two neighbours it talks to: the read
queue of the lower level (`lower_RQ`, the L1D) and the packets handed to upper-level sinks
through `return_data` (`returned`, oldest first). Statistics counters are naturals. -/
structure PageTableWalker where
  cpu : Nat := 0
  current_cycle : Nat := 0
  MSHR_SIZE : Nat
  MAX_READ : Nat
  MAX_FILL : Nat
  RQ_SIZE : Nat
  LATENCY : Nat := 0
  lower_fill_level : Nat := 0
  lower_RQ_SIZE : Nat
  CR3_addr : Nat
  next_translation_virtual_address : Nat
  pages : Nat → PageTablePage
  num_pages : Nat
  L5 : Nat
  PSCL5 : PagingStructureCache
  PSCL4 : PagingStructureCache
  PSCL3 : PagingStructureCache
  PSCL2 : PagingStructureCache
  RQ : List DelayEntry := []
  MSHR : List PACKET := []
  lower_RQ : List PACKET := []
  returned : List (ReturnSink × PACKET) := []
  total_miss_latency : Nat := 0
  RQ_FULL : Nat := 0
  RQ_TO_CACHE : Nat := 0
  RQ_ACCESS : Nat := 0
  WQ_FULL : Nat := 0

/-- `RQ.has_ready()`. -/
def PageTableWalker.RQ_has_ready (s : PageTableWalker) : Bool :=
  match s.RQ with
  | [] => false
  | e :: _ => e.delay == 0

/-- Modelled from the spec: `lower_level->add_rq(&packet)` followed by
`assert(rq_index > -2)`: the lower level takes the packet unless its read queue is full, in
which case it answers -2 and the assertion fails. -/
def PageTableWalker.lower_add_rq (s : PageTableWalker) (packet : PACKET) :
    Option PageTableWalker :=
  if s.lower_RQ.length < s.lower_RQ_SIZE then
    some { s with lower_RQ := s.lower_RQ ++ [packet] }
  else none

/-- `uint64_t` subtraction `a - b`. -/
def sub64 (a b : Nat) : Nat := if b ≤ a then a - b else 2 ^ 64 - (b - a)

/-- `uint64_t` left shift by `LOG2_PAGE_SIZE`. -/
def shl_page (base : Nat) : Nat := (base <<< LOG2_PAGE_SIZE) % 2 ^ 64

/-- The address `base << LOG2_PAGE_SIZE | (get_offset(v, level) << 3)` of lines 45-65
and 175. -/
def next_address (base v level : Nat) : Nat :=
  shl_page base ||| (get_offset v level <<< 3)

/-- The level and address chosen by the `if / else if` chain of lines 43-67 from the four
probe results. -/
def start_level (s : PageTableWalker) (v a5 a4 a3 a2 : Nat) : Nat × Nat :=
  if a2 ≠ UINT64_MAX then (next_address a2 v 1, 1)
  else if a3 ≠ UINT64_MAX then (next_address a3 v 2, 2)
  else if a4 ≠ UINT64_MAX then (next_address a4 v 3, 3)
  else if a5 ≠ UINT64_MAX then (next_address a5 v 4, 4)
  else (next_address s.CR3_addr v 5, 5)

/-- Lines 32-73: the `TRANSLATION` packet that `handle_read` sends to the lower level for the
request `handle_pkt`, given the four probe results. -/
def PageTableWalker.read_request (s : PageTableWalker) (handle_pkt : PACKET)
    (address_pscl5 address_pscl4 address_pscl3 address_pscl2 : Nat) : PACKET :=
  let lv := start_level s handle_pkt.address address_pscl5 address_pscl4 address_pscl3
    address_pscl2
  { handle_pkt with
    fill_level := s.lower_fill_level, cpu := s.cpu, type := TRANSLATION,
    v_address := handle_pkt.address,
    translation_level := lv.2, init_translation_level := lv.2, address := lv.1,
    to_return := [ReturnSink.this_ptw] }

/-- Lines 78-83: the MSHR entry made from the packet just sent: the return path and the type
are those of the request, it was enqueued now and is not due yet. -/
def PageTableWalker.read_entry (s : PageTableWalker) (handle_pkt packet : PACKET) : PACKET :=
  { packet with
    to_return := handle_pkt.to_return, type := handle_pkt.type,
    cycle_enqueued := s.current_cycle, event_cycle := UINT64_MAX }

/-- One iteration of the loop of `PageTableWalker::handle_read` (lines 21-86), entered when
the guard of line 18 has not left the loop. `none` when an assertion fails. -/
def PageTableWalker.handle_read_step (s : PageTableWalker) : Option PageTableWalker :=
  match s.RQ with
  | [] => none
  | e :: rq_rest =>
    let handle_pkt := e.pkt
    if (handle_pkt.address >>> 32) = 0xf000000f then none
    else if handle_pkt.v_address = 0 then none
    else
      match s.PSCL5.check_hit handle_pkt.address, s.PSCL4.check_hit handle_pkt.address,
        s.PSCL3.check_hit handle_pkt.address, s.PSCL2.check_hit handle_pkt.address with
      | some address_pscl5, some address_pscl4, some address_pscl3, some address_pscl2 =>
        let packet := s.read_request handle_pkt address_pscl5 address_pscl4 address_pscl3
          address_pscl2
        match s.lower_add_rq packet with
        | none => none
        | some s1 =>
          some { s1 with MSHR := s1.MSHR ++ [s.read_entry handle_pkt packet], RQ := rq_rest }
      | _, _, _, _ => none

/-- The guard of line 18: the loop of `handle_read` goes on only while the read queue has a
ready packet, the MSHR has room and the read queue of the lower level has room. -/
def PageTableWalker.handle_read_guard (s : PageTableWalker) : Bool :=
  s.RQ_has_ready && !(s.MSHR.length == s.MSHR_SIZE)
    && !(s.lower_RQ.length == s.lower_RQ_SIZE)

/-- The `while` loop of `handle_read` with `reads_this_cycle` iterations left. -/
def PageTableWalker.handle_read_loop : Nat → PageTableWalker → Option PageTableWalker
  | 0, s => some s
  | n + 1, s =>
    if s.handle_read_guard then
      match s.handle_read_step with
      | none => none
      | some s1 => PageTableWalker.handle_read_loop n s1
    else some s

/-- `PageTableWalker::handle_read` (lines 10-88). -/
def PageTableWalker.handle_read (s : PageTableWalker) : Option PageTableWalker :=
  PageTableWalker.handle_read_loop s.MAX_READ s

/-- The cursor advance `((a >> LOG2_PAGE_SIZE) + 1) << LOG2_PAGE_SIZE` of line 231, in
`uint64_t`. -/
def next_page_address (a : Nat) : Nat :=
  (((a >>> LOG2_PAGE_SIZE) + 1) <<< LOG2_PAGE_SIZE) % 2 ^ 64

/-- `PageTableWalker::map_translation_page` (lines 228-234): the frame of the next
page-table page and the walker with the cursor advanced by one page. -/
def PageTableWalker.map_translation_page (vm : VirtualMemory) (s : PageTableWalker) :
    Nat × PageTableWalker :=
  let physical_address := vm.va_to_pa s.cpu s.next_translation_virtual_address
  (physical_address >>> LOG2_PAGE_SIZE,
   { s with next_translation_virtual_address :=
      next_page_address s.next_translation_virtual_address })

/-- `PageTableWalker::map_data_page` (lines 236-240). -/
def PageTableWalker.map_data_page (vm : VirtualMemory) (s : PageTableWalker)
    (full_v_addr : Nat) : Nat :=
  vm.va_to_pa s.cpu full_v_addr >>> LOG2_PAGE_SIZE

/-- Assignment to `page->entry[offset]` and `page->next_level_base_addr[offset]`. -/
def PageTableWalker.set_cell (s : PageTableWalker) (page offset : Nat) (child : Option Nat)
    (base : Nat) : PageTableWalker :=
  let updated : PageTablePage :=
    { entry := Function.update (s.pages page).entry offset child
      next_level_base_addr := Function.update (s.pages page).next_level_base_addr offset base }
  { s with pages := Function.update s.pages page updated }

/-- Lines 214-215 of `handle_page_fault`: `page->entry[offset] = new PageTablePage()`, the
new page getting the next free number, and `page->next_level_base_addr[offset] =
map_translation_page(...)`. -/
def PageTableWalker.alloc_child (vm : VirtualMemory) (s : PageTableWalker)
    (page offset : Nat) : PageTableWalker :=
  let child := s.num_pages
  let s1 := { s with num_pages := s.num_pages + 1,
                     pages := Function.update s.pages child PageTablePage.fresh }
  let m := s1.map_translation_page vm
  m.2.set_cell page offset (some child) m.1

/-- `PageTableWalker::handle_page_fault` (lines 204-226) from level `pt_level` at the page
`page`: the `while (pt_level > 1)` loop allocates the missing pages, the last level gets the
data page. `none` when an assertion fails. -/
def PageTableWalker.handle_page_fault_from (vm : VirtualMemory) (v_address : Nat) :
    Nat → PageTableWalker → Nat → Option PageTableWalker
  | 0, s, page =>
    let offset := get_offset v_address 0
    if (s.pages page).next_level_base_addr offset ≠ UINT64_MAX then none
    else some (s.set_cell page offset ((s.pages page).entry offset)
      (s.map_data_page vm v_address))
  | 1, s, page =>
    let offset := get_offset v_address 1
    if (s.pages page).next_level_base_addr offset ≠ UINT64_MAX then none
    else some (s.set_cell page offset ((s.pages page).entry offset)
      (s.map_data_page vm v_address))
  | l + 2, s, page =>
    let offset := get_offset v_address (l + 2)
    if (s.pages page).entry offset ≠ none then none
    else
      PageTableWalker.handle_page_fault_from vm v_address (l + 1)
        (s.alloc_child vm page offset) s.num_pages

/-- `PageTableWalker::handle_page_fault` with its leading `assert(pt_level <= 5)`. -/
def PageTableWalker.handle_page_fault (vm : VirtualMemory) (s : PageTableWalker) (page : Nat)
    (packet : PACKET) (pt_level : Nat) : Option PageTableWalker :=
  if pt_level ≤ 5 then
    PageTableWalker.handle_page_fault_from vm packet.v_address pt_level s page
  else none

/-- What the loop of lines 105-118 leaves behind: the walker, the MSHR entry (its
`translation_level` is zeroed by a page fault), `curr_page`, `next_level_base_addr` and
`page_fault`. -/
structure WalkResult where
  ptw : PageTableWalker
  mshr : PACKET
  curr_page : Option Nat
  next_level_base_addr : Nat
  page_fault : Bool

/-- The loop `for (int i = 5; i > fill_mshr->translation_level; i--)` of lines 105-118,
about to test its condition for `i`. -/
def PageTableWalker.walk_loop (vm : VirtualMemory) :
    Nat → PageTableWalker → PACKET → Option Nat → Nat → Option WalkResult
  | 0, s, fill_mshr, curr_page, nlba =>
    some { ptw := s, mshr := fill_mshr, curr_page := curr_page,
           next_level_base_addr := nlba, page_fault := false }
  | i + 1, s, fill_mshr, curr_page, nlba =>
    if i + 1 > fill_mshr.translation_level then
      let offset := get_offset fill_mshr.v_address (i + 1)
      match curr_page with
      | none => none
      | some page =>
        let nlba1 := (s.pages page).next_level_base_addr offset
        if nlba1 = UINT64_MAX then
          match s.handle_page_fault vm page fill_mshr (i + 1) with
          | none => none
          | some s1 =>
            some { ptw := s1, mshr := { fill_mshr with translation_level := 0 },
                   curr_page := some page, next_level_base_addr := nlba1, page_fault := true }
        else
          PageTableWalker.walk_loop vm i s fill_mshr ((s.pages page).entry offset) nlba1
    else
      some { ptw := s, mshr := fill_mshr, curr_page := curr_page,
             next_level_base_addr := nlba, page_fault := false }

/-- The `switch (i)` of lines 134-144: `fill_cache` on the cache of level `i`. -/
def PageTableWalker.fill_pscl (s : PageTableWalker) (i next_level_base_addr : Nat)
    (fill_mshr : PACKET) : PageTableWalker :=
  if i = 5 then { s with PSCL5 := s.PSCL5.fill_cache next_level_base_addr fill_mshr }
  else if i = 4 then { s with PSCL4 := s.PSCL4.fill_cache next_level_base_addr fill_mshr }
  else if i = 3 then { s with PSCL3 := s.PSCL3.fill_cache next_level_base_addr fill_mshr }
  else if i = 2 then { s with PSCL2 := s.PSCL2.fill_cache next_level_base_addr fill_mshr }
  else s

/-- Lines 132-145: the cache of level `i` is filled when
`init_translation_level - i >= 0`. -/
def PageTableWalker.fill_if (s : PageTableWalker) (i next_level_base_addr : Nat)
    (fill_mshr : PACKET) : PageTableWalker :=
  if i ≤ fill_mshr.init_translation_level then s.fill_pscl i next_level_base_addr fill_mshr
  else s

/-- The loop `for (int i = 5; i > 1; i--)` of lines 124-146 with `n` iterations left, that
is, about to run for `i = n + 1`. Returns the walker and the final `curr_page`. -/
def PageTableWalker.fill_loop :
    Nat → PageTableWalker → PACKET → Option Nat → Option (PageTableWalker × Option Nat)
  | 0, s, _, curr_page => some (s, curr_page)
  | n + 1, s, fill_mshr, curr_page =>
    let offset := get_offset fill_mshr.v_address (n + 2)
    match curr_page with
    | none => none
    | some page =>
      let nlba := (s.pages page).next_level_base_addr offset
      if nlba = UINT64_MAX then none
      else
        PageTableWalker.fill_loop n (s.fill_if (n + 2) nlba fill_mshr) fill_mshr
          ((s.pages page).entry offset)

/-- Lines 120-165: the translation of the front MSHR entry is complete. The caches are
filled, the leaf is read, every sink of `to_return` gets the packet and the entry is erased.
A sink that is the walker itself would run `return_data` on an entry of level 0, whose
assertion fails. -/
def PageTableWalker.complete_translation (warmup_complete : Bool) (s : PageTableWalker)
    (fill_mshr : PACKET) (mshr_rest : List PACKET) : Option PageTableWalker :=
  match PageTableWalker.fill_loop 4 s fill_mshr (some s.L5) with
  | none => none
  | some (s1, curr_page) =>
    match curr_page with
    | none => none
    | some page =>
      let offset := get_offset fill_mshr.v_address 1
      let nlba := (s1.pages page).next_level_base_addr offset
      let done := { fill_mshr with data := nlba, address := fill_mshr.v_address }
      if ReturnSink.this_ptw ∈ done.to_return then none
      else
        let s2 := { s1 with returned := s1.returned ++ done.to_return.map (fun ret => (ret, done)) }
        let s3 :=
          if warmup_complete then
            { s2 with total_miss_latency :=
                s2.total_miss_latency + sub64 s2.current_cycle done.cycle_enqueued }
          else s2
        some { s3 with MSHR := mshr_rest }

/-- Lines 172-178: the `TRANSLATION` packet for the next level of the walk. -/
def PageTableWalker.fill_request (s : PageTableWalker) (fill_mshr : PACKET)
    (next_level_base_addr : Nat) : PACKET :=
  { fill_mshr with
    cpu := s.cpu, type := TRANSLATION,
    address := next_address next_level_base_addr fill_mshr.v_address
      fill_mshr.translation_level,
    to_return := [ReturnSink.this_ptw] }

/-- Lines 166-191: more levels are left. When the read queue of the lower level has room
the next request goes out and the entry, waiting again and carrying the address of that
request, moves to the tail of the MSHR; otherwise `RQ_FULL` is counted. -/
def PageTableWalker.next_level_request (w : WalkResult) (mshr_rest : List PACKET) :
    Option PageTableWalker :=
  if w.page_fault then none
  else if w.ptw.lower_RQ.length < w.ptw.lower_RQ_SIZE then
    let packet := w.ptw.fill_request w.mshr w.next_level_base_addr
    match w.ptw.lower_add_rq packet with
    | none => none
    | some s1 =>
      let fill_mshr := { w.mshr with event_cycle := UINT64_MAX, address := packet.address }
      some { s1 with MSHR := mshr_rest ++ [fill_mshr] }
  else some { w.ptw with RQ_FULL := w.ptw.RQ_FULL + 1 }

/-- One iteration of the loop of `PageTableWalker::handle_fill` (lines 100-193) on the front
MSHR entry, entered when the test of line 97 has not left the loop. -/
def PageTableWalker.handle_fill_step (vm : VirtualMemory) (warmup_complete : Bool)
    (s : PageTableWalker) : Option PageTableWalker :=
  match s.MSHR with
  | [] => none
  | fill_mshr :: mshr_rest =>
    if s.CR3_addr = UINT64_MAX then none
    else
      match PageTableWalker.walk_loop vm 5 s fill_mshr (some s.L5) UINT64_MAX with
      | none => none
      | some w =>
        if w.mshr.translation_level = 0 then
          w.ptw.complete_translation warmup_complete w.mshr mshr_rest
        else
          PageTableWalker.next_level_request w mshr_rest

/-- The test of line 97: the loop of `handle_fill` goes on only while the front MSHR entry
exists and its `event_cycle` has been reached. -/
def PageTableWalker.handle_fill_guard (s : PageTableWalker) : Bool :=
  match s.MSHR with
  | [] => false
  | fill_mshr :: _ => !(decide (fill_mshr.event_cycle > s.current_cycle))

/-- The `while` loop of `handle_fill` with `fill_this_cycle` iterations left. -/
def PageTableWalker.handle_fill_loop (vm : VirtualMemory) (warmup_complete : Bool) :
    Nat → PageTableWalker → Option PageTableWalker
  | 0, s => some s
  | n + 1, s =>
    if s.handle_fill_guard then
      match s.handle_fill_step vm warmup_complete with
      | none => none
      | some s1 => PageTableWalker.handle_fill_loop vm warmup_complete n s1
    else some s

/-- `PageTableWalker::handle_fill` (lines 90-195). -/
def PageTableWalker.handle_fill (vm : VirtualMemory) (warmup_complete : Bool)
    (s : PageTableWalker) : Option PageTableWalker :=
  PageTableWalker.handle_fill_loop vm warmup_complete s.MAX_FILL s

/-- Modelled from the spec: the order `ord_event_cycle` of `util.h` used by `MSHR.sort`
("re-sort MSHR by event_cycle (completions first)"); `std::list::sort` is stable. -/
def insert_by_event_cycle (p : PACKET) : List PACKET → List PACKET
  | [] => [p]
  | q :: l => if p.event_cycle ≤ q.event_cycle then p :: q :: l
              else q :: insert_by_event_cycle p l

/-- The stable sort of the MSHR by `event_cycle`. -/
def sort_by_event_cycle : List PACKET → List PACKET
  | [] => []
  | p :: l => insert_by_event_cycle p (sort_by_event_cycle l)

/-- `PageTableWalker::return_data` (lines 302-323): every MSHR entry with the address and
the level of the returned packet steps one level down and becomes due now; then the MSHR is
sorted. `none` when the assertion of line 308 fails. -/
def PageTableWalker.return_data (s : PageTableWalker) (packet : PACKET) :
    Option PageTableWalker :=
  if s.MSHR.any (fun mshr_entry => mshr_entry.address == packet.address
      && mshr_entry.translation_level == packet.translation_level
      && mshr_entry.translation_level == 0) then none
  else
    some { s with MSHR := sort_by_event_cycle (s.MSHR.map (fun mshr_entry =>
      if mshr_entry.address = packet.address
          ∧ mshr_entry.translation_level = packet.translation_level then
        { mshr_entry with translation_level := mshr_entry.translation_level - 1,
                          event_cycle := s.current_cycle }
      else mshr_entry)) }

/-- Modelled from the spec: the lower level answers the oldest request in its read queue by
calling `return_data` on the walker with that packet. -/
def PageTableWalker.lower_answer (s : PageTableWalker) : Option PageTableWalker :=
  match s.lower_RQ with
  | [] => none
  | packet :: rest => ({ s with lower_RQ := rest }).return_data packet

/-- `PageTableWalker::add_rq` (lines 269-290): the return code and the walker; `none` when
an assertion fails. Modelled from the spec: `eq_addr<PACKET>(address, shamt)` of `util.h`
compares addresses shifted right by `shamt`. -/
def PageTableWalker.add_rq (s : PageTableWalker) (packet : PACKET) :
    Option (Int × PageTableWalker) :=
  if packet.address = 0 then none
  else if s.RQ.any (fun e => (e.pkt.address >>> LOG2_PAGE_SIZE)
      == (packet.address >>> LOG2_PAGE_SIZE)) then none
  else if s.RQ.length = s.RQ_SIZE then
    some (-2, { s with RQ_FULL := s.RQ_FULL + 1 })
  else
    some (-1, { s with RQ := s.RQ ++ [{ pkt := packet, delay := s.LATENCY }],
                       RQ_TO_CACHE := s.RQ_TO_CACHE + 1, RQ_ACCESS := s.RQ_ACCESS + 1 })

/-- Modelled from the spec: a walker as constructed (the constructor is in `ptw.h`), with no
page-table page but the root, empty caches and empty queues. `CR3_addr`, the allocation
cursor and the geometry of the caches are arguments; the queue sizes and the read and fill
bandwidths are those of a small configuration. -/
def PageTableWalker.init (cr3 cursor num_set num_way : Nat) : PageTableWalker :=
  { MSHR_SIZE := 5, MAX_READ := 2, MAX_FILL := 2, RQ_SIZE := 16, lower_RQ_SIZE := 64
    CR3_addr := cr3
    next_translation_virtual_address := cursor
    pages := fun _ => PageTablePage.fresh
    num_pages := 1
    L5 := 0
    PSCL5 := PagingStructureCache.fresh 5 num_set num_way
    PSCL4 := PagingStructureCache.fresh 4 num_set num_way
    PSCL3 := PagingStructureCache.fresh 3 num_set num_way
    PSCL2 := PagingStructureCache.fresh 2 num_set num_way }

/-! ## Reading the page table along the path of an address -/

/-- The page reached from the root `L5` after descending `d` levels along the offsets of
`v` (levels 5, 4, …); `none` when a child pointer on the way is `NULL`. -/
def PageTableWalker.page_at (s : PageTableWalker) (v : Nat) : Nat → Option Nat
  | 0 => some s.L5
  | d + 1 =>
    match PageTableWalker.page_at s v d with
    | none => none
    | some page => (s.pages page).entry (get_offset v (5 - d))

/-- The cell `next_level_base_addr[get_offset(v, i)]` of the level-`i` page on the path
of `v`. -/
def PageTableWalker.cell (s : PageTableWalker) (v i : Nat) : Option Nat :=
  (s.page_at v (5 - i)).map (fun page => (s.pages page).next_level_base_addr (get_offset v i))

/-- The offsets of `v` at the levels 5, 4, …: the first `d` of them, the way from the root to
the page of depth `d` on the path of `v`. -/
def path_of (v : Nat) : Nat → List Nat
  | 0 => []
  | d + 1 => path_of v d ++ [get_offset v (5 - d)]

/-- The page table holds the path of `v` down to depth `d`: the pages of depth `0` to `d - 1`
exist and their cells for `v` are not the sentinel. -/
def PageTableWalker.mapped_upto (s : PageTableWalker) (v : Nat) : Nat → Bool
  | 0 => true
  | d + 1 =>
    PageTableWalker.mapped_upto s v d &&
      match s.page_at v d with
      | none => false
      | some page => (s.pages page).next_level_base_addr (get_offset v (5 - d)) != UINT64_MAX

/-- The page table holds the whole path of `v`: the cells of levels 5 to 1 exist and none is
the sentinel. -/
def PageTableWalker.mapped (s : PageTableWalker) (v : Nat) : Bool :=
  s.mapped_upto v 5

/-- The page-table pages allocated so far form a tree below `L5`: `pth p` is the list of
offsets that leads from the root to the page `p`. Every child pointer leads to an allocated
page one step further down, no page lies deeper than the level-1 pages, and above level 1 a
cell is the sentinel exactly when its child pointer is `NULL`. -/
structure PageTableWalker.tree (s : PageTableWalker) (pth : Nat → List Nat) : Prop where
  root_lt : s.L5 < s.num_pages
  root : pth s.L5 = []
  depth : ∀ p, p < s.num_pages → (pth p).length ≤ 4
  child : ∀ p off c, p < s.num_pages → (s.pages p).entry off = some c →
    c < s.num_pages ∧ pth c = pth p ++ [off]
  paired : ∀ p off, p < s.num_pages → (pth p).length < 4 →
    ((s.pages p).next_level_base_addr off = UINT64_MAX ↔ (s.pages p).entry off = none)

/-- Every level-1 cell that is set holds the frame that `va_to_pa` gives to the addresses
below `2^57` that lead to it. -/
def PageTableWalker.coherent (vm : VirtualMemory) (s : PageTableWalker)
    (pth : Nat → List Nat) : Prop :=
  ∀ p v, p < s.num_pages → v < 2 ^ 57 → pth p = path_of v 4 →
    (s.pages p).next_level_base_addr (get_offset v 1) ≠ UINT64_MAX →
    (s.pages p).next_level_base_addr (get_offset v 1)
      = vm.va_to_pa s.cpu v >>> LOG2_PAGE_SIZE

/-- The page table is a tree. -/
def PageTableWalker.table_ok (s : PageTableWalker) : Prop :=
  ∃ pth, s.tree pth

/-- The page table is a tree whose leaves agree with `va_to_pa` below `2^57`. -/
def PageTableWalker.table_coherent (vm : VirtualMemory) (s : PageTableWalker) : Prop :=
  ∃ pth, s.tree pth ∧ s.coherent vm pth

/-- The assumption that `va_to_pa` is a stable function of the cpu and the page of the
address: two addresses of one page get the same frame. -/
def VirtualMemory.page_stable (vm : VirtualMemory) : Prop :=
  ∀ cpu v w, v >>> LOG2_PAGE_SIZE = w >>> LOG2_PAGE_SIZE →
    vm.va_to_pa cpu v >>> LOG2_PAGE_SIZE = vm.va_to_pa cpu w >>> LOG2_PAGE_SIZE

/-- Only the page table (its pages, their number and the allocation cursor) differs between
`s` and `t`. -/
def PageTableWalker.table_only (s t : PageTableWalker) : Prop :=
  t = { s with pages := t.pages, num_pages := t.num_pages,
               next_translation_virtual_address := t.next_translation_virtual_address }

/-- Only the MSHR and the read queue of the lower level differ between `s` and `t`. -/
def PageTableWalker.queues_only (s t : PageTableWalker) : Prop :=
  t = { s with MSHR := t.MSHR, lower_RQ := t.lower_RQ }

/-- The walker is in the middle of a walk of `v` that started at level 5: its MSHR holds one
entry, for `v`, at level `k` and waiting, and the read queue of the lower level holds the one
request of that level, a `TRANSLATION` packet to be returned to the walker, for the cell of
`v` in the page with base `base`. -/
def PageTableWalker.walking (s : PageTableWalker) (v k base : Nat) : Bool :=
  match s.MSHR, s.lower_RQ with
  | [m], [r] =>
    m.v_address == v && m.translation_level == k && m.init_translation_level == 5
      && m.address == next_address base v k && m.event_cycle == UINT64_MAX
      && r.v_address == v && r.translation_level == k && r.address == next_address base v k
      && r.type == TRANSLATION && r.to_return == [ReturnSink.this_ptw]
  | _, _ => false

/-- The invariant of the walker when it is asked for addresses below `2^57` only: the page
table is a tree with coherent leaves, and the addresses waiting in the read queue and walked
in the MSHR are below `2^57`. -/
def PageTableWalker.inv (vm : VirtualMemory) (s : PageTableWalker) : Prop :=
  s.table_coherent vm ∧ (∀ m, m ∈ s.MSHR → m.v_address < 2 ^ 57)
    ∧ (∀ e, e ∈ s.RQ → e.pkt.address < 2 ^ 57)

/-- The states that the walker reaches from its construction through its own operations
(`add_rq` for addresses below `2^57`, `handle_read`, `handle_fill`, `return_data`), the
advance of the clock and the lower level taking a request from its read queue. -/
inductive PageTableWalker.reachable (vm : VirtualMemory) (warmup_complete : Bool) :
    PageTableWalker → Prop
  | init (cr3 cursor num_set num_way : Nat) :
    PageTableWalker.reachable vm warmup_complete
      (PageTableWalker.init cr3 cursor num_set num_way)
  | add_rq (s t : PageTableWalker) (packet : PACKET) (code : Int) :
    PageTableWalker.reachable vm warmup_complete s → packet.address < 2 ^ 57 →
    s.add_rq packet = some (code, t) → PageTableWalker.reachable vm warmup_complete t
  | handle_read (s t : PageTableWalker) :
    PageTableWalker.reachable vm warmup_complete s → s.handle_read = some t →
    PageTableWalker.reachable vm warmup_complete t
  | handle_fill (s t : PageTableWalker) :
    PageTableWalker.reachable vm warmup_complete s →
    s.handle_fill vm warmup_complete = some t → PageTableWalker.reachable vm warmup_complete t
  | return_data (s t : PageTableWalker) (packet : PACKET) :
    PageTableWalker.reachable vm warmup_complete s → s.return_data packet = some t →
    PageTableWalker.reachable vm warmup_complete t
  | clock (s : PageTableWalker) :
    PageTableWalker.reachable vm warmup_complete s →
    PageTableWalker.reachable vm warmup_complete
      { s with current_cycle := s.current_cycle + 1 }
  | lower_take (s : PageTableWalker) :
    PageTableWalker.reachable vm warmup_complete s →
    PageTableWalker.reachable vm warmup_complete { s with lower_RQ := s.lower_RQ.tail }

/-- The request of the cold-walk scenario, `v = 0x1122334455678`, asked for by an upper-level
producer. -/
def req0 : PACKET :=
  { address := 0x1122334455678, v_address := 0x1122334455678,
    to_return := [ReturnSink.producer 0] }

/-- A virtual memory that maps every address to itself. -/
def vm0 : VirtualMemory :=
  { va_to_pa := fun _ v => v % 2 ^ 64, va_to_pa_lt := fun _ v => Nat.mod_lt v (by decide) }

/-- The walker of the cold-walk scenario: `CR3 = 0x100`, nothing cached, no page-table page
but the root, and the request at the head of the read queue. -/
def ptw_cold : PageTableWalker :=
  { PageTableWalker.init 0x100 0xf000000f00000000 2 4 with RQ := [{ pkt := req0, delay := 0 }] }

/-- The walker of the "hit in PSCL3" scenario: as `ptw_cold`, but PSCL3 holds the base `0xB`
for the address of the request. -/
def ptw_pscl3_hit : PageTableWalker :=
  { ptw_cold with PSCL3 := (PagingStructureCache.fresh 3 2 4).fill_cache 0xB req0 }

/-- The entry of the cold-walk scenario as `handle_read` and the answer of the lower level
to the level-5 request leave it: one level done, due now. -/
def entry_cold : PACKET :=
  { req0 with
    address := next_address 0x100 0x1122334455678 5, translation_level := 4,
    init_translation_level := 5, event_cycle := 0 }

/-- The walker of the cold-walk scenario with `entry_cold` at the front of the MSHR. -/
def ptw_cold_answered : PageTableWalker :=
  { PageTableWalker.init 0x100 0xf000000f00000000 2 4 with MSHR := [entry_cold] }

/-- The entry of the "hit in PSCL3" scenario after the answer to its level-2 request: it
started at level 2 and is at level 1, due now. -/
def entry_pscl3_hit : PACKET :=
  { req0 with
    address := next_address 0xB 0x1122334455678 2, translation_level := 1,
    init_translation_level := 2, event_cycle := 0 }

/-- The walker of the "hit in PSCL3" scenario with `entry_pscl3_hit` at the front of the
MSHR. -/
def ptw_pscl3_answered : PageTableWalker :=
  { PageTableWalker.init 0x100 0xf000000f00000000 2 4 with
    PSCL3 := (PagingStructureCache.fresh 3 2 4).fill_cache 0xB req0
    MSHR := [entry_pscl3_hit] }

/-- One round trip: the lower level answers the oldest request and `handle_fill` runs. -/
def PageTableWalker.round (vm : VirtualMemory) (warmup_complete : Bool)
    (s : PageTableWalker) : Option PageTableWalker :=
  s.lower_answer.bind (PageTableWalker.handle_fill vm warmup_complete)

/-- A request for the address of `req0` plus `2^57`: another page with the same low 57
bits. -/
def req_alias : PACKET :=
  { address := 0x1122334455678 + 2 ^ 57, v_address := 0x1122334455678 + 2 ^ 57,
    to_return := [ReturnSink.producer 1] }

/-- The cold walk of `req0` followed by the walk of `req_alias`, each taken to its end: the
second one starts at level 1, the caches being indexed by the low 57 bits as well. -/
def run_alias : Option PageTableWalker :=
  (((ptw_cold.handle_read.bind (PageTableWalker.round vm0 true)).bind
    (fun s => (s.add_rq req_alias).map Prod.snd)).bind PageTableWalker.handle_read).bind
    (PageTableWalker.round vm0 true)

/-- A walker whose page table holds the path of `v = 0x1122334455678`, built by the cold walk
of `ptw_cold_answered`, whose caches are empty again and whose read queue holds the request
for `v`. -/
def ptw_mapped : PageTableWalker :=
  match ptw_cold_answered.handle_fill_step vm0 true with
  | some t =>
    { t with
      PSCL5 := PagingStructureCache.fresh 5 2 4, PSCL4 := PagingStructureCache.fresh 4 2 4
      PSCL3 := PagingStructureCache.fresh 3 2 4, PSCL2 := PagingStructureCache.fresh 2 2 4
      RQ := [{ pkt := req0, delay := 0 }], returned := [] }
  | none => ptw_cold

/-! ## The walker: request addresses, levels and queues -/

/-- The base that `handle_read` shifts into the address of its request: the data of the first
hitting cache, deepest first, or `CR3_addr` (lines 43-67). -/
def start_base (s : PageTableWalker) (a5 a4 a3 a2 : Nat) : Nat :=
  if a2 ≠ UINT64_MAX then a2
  else if a3 ≠ UINT64_MAX then a3
  else if a4 ≠ UINT64_MAX then a4
  else if a5 ≠ UINT64_MAX then a5
  else s.CR3_addr

/-- A walker as constructed whose `CR3_addr` is `2^52`, a value that does not fit in the 52
bits left of the page offset, with the request for `v = 0x1122334455678` in its read
queue. -/
def ptw_wide_cr3 : PageTableWalker :=
  { PageTableWalker.init (2 ^ 52) 0xf000000f00000000 2 4 with
    RQ := [{ pkt := req0, delay := 0 }] }

/-- Only the caches, the log of returned packets, the latency statistic and the MSHR differ
between `s` and `t`: what the completion of a translation may change. -/
def PageTableWalker.completion_only (s t : PageTableWalker) : Prop :=
  t = { s with PSCL5 := t.PSCL5, PSCL4 := t.PSCL4, PSCL3 := t.PSCL3, PSCL2 := t.PSCL2,
               returned := t.returned, total_miss_latency := t.total_miss_latency,
               MSHR := t.MSHR }

/-- The entry `n` is the entry `o` up to the three members that the walker rewrites in an
MSHR entry: `translation_level`, `event_cycle` and `address`. -/
def PACKET.same_entry (o n : PACKET) : Prop :=
  n = { o with translation_level := n.translation_level, event_cycle := n.event_cycle,
               address := n.address }

/-- The elementary changes of the MSHR that keep the level of every entry where it is or
below: a new entry is appended at its initial level, an entry is erased, an entry is rewritten
in place without its level going up, or the entries are reordered. -/
inductive MSHR_change : List PACKET → List PACKET → Prop
  | push (l : List PACKET) (e : PACKET) :
    e.translation_level = e.init_translation_level → MSHR_change l (l ++ [e])
  | erase (l1 : List PACKET) (m : PACKET) (l2 : List PACKET) :
    MSHR_change (l1 ++ m :: l2) (l1 ++ l2)
  | update (l1 : List PACKET) (m n : PACKET) (l2 : List PACKET) :
    m.same_entry n → n.translation_level ≤ m.translation_level →
    MSHR_change (l1 ++ m :: l2) (l1 ++ n :: l2)
  | reorder (l1 l2 : List PACKET) : l1.Perm l2 → MSHR_change l1 l2

/-- The level of every MSHR entry is at most its initial level, which is at most 5, and every
request waiting in the read queue of the lower level is for a level from 1 to 5. -/
def PageTableWalker.levels_ok (s : PageTableWalker) : Prop :=
  (∀ m, m ∈ s.MSHR → m.translation_level ≤ m.init_translation_level
      ∧ m.init_translation_level ≤ 5)
    ∧ (∀ r, r ∈ s.lower_RQ → 1 ≤ r.translation_level ∧ r.translation_level ≤ 5)

/-- The walker as constructed, after a request for `req0` has come in through `add_rq`. -/
def ptw_requested : PageTableWalker :=
  (((PageTableWalker.init 0x100 0xf000000f00000000 2 4).add_rq req0).map Prod.snd).getD
    (PageTableWalker.init 0x100 0xf000000f00000000 2 4)

/-- The walker `ptw_requested` after `handle_read` has sent the first request of the walk. -/
def ptw_walking : PageTableWalker :=
  ptw_requested.handle_read.getD ptw_requested

/-- The number of MSHR entries that wait for an answer of the lower level: those whose
`event_cycle` is the maximum `uint64_t`. -/
def PageTableWalker.num_waiting (s : PageTableWalker) : Nat :=
  s.MSHR.countP (fun m => m.event_cycle == UINT64_MAX)

/-- The packet has the address and the level of exactly one MSHR entry, and that entry waits
for an answer. -/
def PageTableWalker.answers_one (s : PageTableWalker) (packet : PACKET) : Bool :=
  match s.MSHR.filter (fun m => m.address == packet.address
      && m.translation_level == packet.translation_level) with
  | [m] => m.event_cycle == UINT64_MAX
  | _ => false

/-- The runs of the walker together with the requests it has issued to the lower level and
that have not been answered: `handle_read` and `handle_fill` issue the packets they append to
the read queue of the lower level, `return_data` answers one of the requests issued, and the
clock stays below the maximum `uint64_t`. In an `exact` run every answer has the address and
the level of exactly one MSHR entry, which waits. -/
inductive PageTableWalker.serves (vm : VirtualMemory) (warmup_complete : Bool)
    (exact : Bool) : PageTableWalker → List PACKET → Prop
  | init (cr3 cursor num_set num_way : Nat) :
    PageTableWalker.serves vm warmup_complete exact
      (PageTableWalker.init cr3 cursor num_set num_way) []
  | add_rq (s t : PageTableWalker) (out : List PACKET) (packet : PACKET) (code : Int) :
    PageTableWalker.serves vm warmup_complete exact s out →
    s.add_rq packet = some (code, t) → PageTableWalker.serves vm warmup_complete exact t out
  | handle_read (s t : PageTableWalker) (out : List PACKET) :
    PageTableWalker.serves vm warmup_complete exact s out → s.handle_read = some t →
    PageTableWalker.serves vm warmup_complete exact t
      (out ++ t.lower_RQ.drop s.lower_RQ.length)
  | handle_fill (s t : PageTableWalker) (out : List PACKET) :
    PageTableWalker.serves vm warmup_complete exact s out →
    s.handle_fill vm warmup_complete = some t →
    PageTableWalker.serves vm warmup_complete exact t
      (out ++ t.lower_RQ.drop s.lower_RQ.length)
  | return_data (s t : PageTableWalker) (out : List PACKET) (packet : PACKET) :
    PageTableWalker.serves vm warmup_complete exact s out → packet ∈ out →
    (exact = true → s.answers_one packet = true) → s.return_data packet = some t →
    PageTableWalker.serves vm warmup_complete exact t (out.erase packet)
  | clock (s : PageTableWalker) (out : List PACKET) :
    PageTableWalker.serves vm warmup_complete exact s out →
    s.current_cycle + 1 < UINT64_MAX →
    PageTableWalker.serves vm warmup_complete exact
      { s with current_cycle := s.current_cycle + 1 } out
  | lower_take (s : PageTableWalker) (out : List PACKET) :
    PageTableWalker.serves vm warmup_complete exact s out →
    PageTableWalker.serves vm warmup_complete exact
      { s with lower_RQ := s.lower_RQ.tail } out

/-- A request for the page that follows the page of `req0`: the two addresses have the same
offsets at the levels 5 to 2. -/
def req_next : PACKET :=
  { address := 0x1122334456678, v_address := 0x1122334456678,
    to_return := [ReturnSink.producer 1] }

/-- The walker `ptw_requested` after the request `req_next` has come in as well. -/
def ptw_requested_twice : PageTableWalker :=
  ((ptw_requested.add_rq req_next).map Prod.snd).getD ptw_requested

/-- The walker `ptw_requested_twice` after `handle_read` has started the two walks. -/
def ptw_walking_twice : PageTableWalker :=
  ptw_requested_twice.handle_read.getD ptw_requested_twice

/-- The level-5 request of the walk of `req0`, as `handle_read` sends it. -/
def first_request : PACKET :=
  ptw_walking_twice.lower_RQ.headD req0

/-- The walker `ptw_walking_twice` after the lower level has answered `first_request`. -/
def ptw_answered_once : PageTableWalker :=
  (ptw_walking_twice.return_data first_request).getD ptw_walking_twice

/-- From one state to a later one of the same cycle: the read queue of the lower level has
grown at its tail by as many requests as there are more entries waiting. -/
def PageTableWalker.issued_between (s t : PageTableWalker) : Prop :=
  t.current_cycle = s.current_cycle
    ∧ ∃ new, t.lower_RQ = s.lower_RQ ++ new ∧ t.num_waiting = s.num_waiting + new.length

/-- The level-5 request of the walk of `req_next`, as `handle_read` sends it. -/
def second_request : PACKET :=
  (ptw_walking_twice.lower_RQ.drop 1).headD req_next

/-- A walker whose page table holds the path of `req0`, with the entry of the walk of `req0`
at level 4 and due at the front of the MSHR, and whose lower level has a read queue of one
slot that is taken. -/
def ptw_blocked : PageTableWalker :=
  { ptw_mapped with MSHR := [entry_cold], RQ := [], lower_RQ := [req_next],
                    lower_RQ_SIZE := 1 }

/-- The walk of lines 105-118 for the front entry of `ptw_blocked`. -/
def walk_blocked : WalkResult :=
  (PageTableWalker.walk_loop vm0 5 ptw_blocked entry_cold (some ptw_blocked.L5)
    UINT64_MAX).getD
    { ptw := ptw_blocked, mshr := entry_cold, curr_page := none,
      next_level_base_addr := UINT64_MAX, page_fault := false }

/-- The walker `ptw_cold` with a read queue of one slot, which the request `req0` takes. -/
def ptw_full : PageTableWalker :=
  { ptw_cold with RQ_SIZE := 1 }

/-! ## The pipeline stages of the core (`ooo_cpu.cc`, lines 214-1059) -/

/-- Modelled from the spec: the value of a stage field (`translated`, `fetched`, `decoded`,
`scheduled`, `executed`) while the stage is under way; 0 is pending. -/
def INFLIGHT : Nat := 1

/-- Modelled from the spec: the value of a stage field when the stage is done. -/
def COMPLETED : Nat := 2

/-- Modelled from the spec: `LOG2_BLOCK_SIZE` of `champsim.h`, cache blocks of 64 bytes. -/
def LOG2_BLOCK_SIZE : Nat := 6

/-- Access type `LOAD` (`memory_class.h`, line 10). -/
def LOAD : Nat := 0

/-- Access type `RFO` (`memory_class.h`, line 11). -/
def RFO : Nat := 1

/-- Constants of `ooo_cpu.h` that the stages read, on top of those of the front end. Their
declarations are not part of the sources, so they are parameters. `ITLB_MAX_READ` and
`L1I_MAX_READ` are the `MAX_READ` of the two caches below the instruction buses. -/
structure StageConfig extends CoreConfig where
  DECODE_WIDTH : Nat
  DISPATCH_WIDTH : Nat
  SCHEDULER_SIZE : Nat
  EXEC_WIDTH : Nat
  RETIRE_WIDTH : Nat
  DECODE_SIZE : Nat
  DISPATCH_SIZE : Nat
  DECODE_LATENCY : Nat
  DISPATCH_LATENCY : Nat
  SCHEDULING_LATENCY : Nat
  EXEC_LATENCY : Nat
  BRANCH_MISPREDICT_PENALTY : Nat
  dib_set : Nat
  dib_way : Nat
  dib_window : Nat
  ITLB_MAX_READ : Nat
  L1I_MAX_READ : Nat
  deriving Repr

/-- Modelled from the spec: an entry of a `champsim::delay_queue`: the item and the cycles it
still has to wait; it is ready at 0. -/
structure Delayed (α : Type) where
  item : α
  delay : Nat
  deriving DecidableEq, Repr

/-- Modelled from the spec: `delay_queue::has_ready`: the front entry is ready. -/
def has_ready {α : Type} : List (Delayed α) → Bool
  | [] => false
  | e :: _ => e.delay == 0

/-- Modelled from the spec: `delay_queue::operate`: every entry that waits has one cycle
less to wait. -/
def delay_operate {α : Type} (q : List (Delayed α)) : List (Delayed α) :=
  q.map (fun e => { e with delay := e.delay - 1 })

/-- Modelled from the spec: an entry of the DIB (`dib_entry_t` of `ooo_cpu.h`). -/
structure dib_entry_t where
  valid : Bool := false
  lru : Nat := 999999
  address : Nat := 0
  deriving DecidableEq, Repr

/-- Modelled from the spec: an entry of the load or store queue (`LSQ_ENTRY` of
`instruction.h`); `rob_index` is a ROB iterator, a position in the ROB. An entry is valid
when its `virtual_address` is not 0. -/
structure LSQ_ENTRY where
  instr_id : Nat := 0
  virtual_address : Nat := 0
  physical_address : Nat := 0
  ip : Nat := 0
  event_cycle : Nat := 0
  rob_index : Nat := 0
  translated : Nat := 0
  fetched : Nat := 0
  deriving DecidableEq, Repr

/-- The members of `O3_CPU` used by the pipeline stages, on top of those of the front end.
`IFETCH_BUFFER` and `ROB` are circular buffers whose iterators stay valid when the front is
popped: modelled from the spec, an iterator is the position of its entry counted from the
first entry ever pushed, `IFETCH_front` and `ROB_front` being the positions of the two
fronts. `ready_to_execute` holds ROB iterators, `RTS0` and `RTS1` hold iterators of `SQ`,
`RTL0` and `RTL1` iterators of `LQ`. `ITLB_RQ`, `L1I_RQ`, `DTLB_RQ`, `L1D_RQ` and `L1D_WQ`
hold the packets that the lower levels have accepted, the `PROCESSED` members are the
`PROCESSED` queues of the four buses. -/
structure Core (β : Type) extends O3_CPU β where
  IFETCH_front : Nat := 0
  ROB_front : Nat := 0
  DECODE_BUFFER : List (Delayed ooo_model_instr) := []
  DISPATCH_BUFFER : List (Delayed ooo_model_instr) := []
  DIB : List dib_entry_t := []
  ready_to_execute : List Nat := []
  SQ : List LSQ_ENTRY := []
  LQ : List LSQ_ENTRY := []
  RTS0 : List Nat := []
  RTL0 : List Nat := []
  ITLB_RQ : List PACKET := []
  L1I_RQ : List PACKET := []
  ITLB_PROCESSED : List PACKET := []
  L1I_PROCESSED : List PACKET := []
  num_retired : Nat := 0
  RTS1 : List Nat := []
  RTL1 : List Nat := []
  DTLB_RQ : List PACKET := []
  L1D_RQ : List PACKET := []
  DTLB_PROCESSED : List PACKET := []
  L1D_PROCESSED : List PACKET := []
  L1D_WQ : List PACKET := []

/-- The ways in which a stage can stop: an assertion of the given line of `ooo_cpu.cc`
fails, or an iterator that points to no entry is dereferenced, or the statement of the given
line decrements a signed counter that is 0 where no assertion guards it (the counter is a
natural here, and the model follows the code no further). -/
inductive Abort where
  | assertion (line : Nat)
  | dangling
  | negative (line : Nat)
  deriving DecidableEq, Repr

/-! ### The DIB -/

/-- Modelled from the spec: `eq_addr<dib_entry_t>(ip, shamt)` of `util.h`: a valid entry
whose address agrees with `ip` above the low `shamt` bits. -/
def dib_match (ip shamt : Nat) (e : dib_entry_t) : Bool :=
  e.valid && (e.address >>> shamt == ip >>> shamt)

/-- Modelled from the spec: `lru_updater<dib_entry_t>(way)` of `util.h` over a set: "for a
hit on way `w`, increment every other way's lru counter that is ≤ w.lru, and set w.lru=0". -/
def lru_update (set : List dib_entry_t) (way : Nat) : List dib_entry_t :=
  match set[way]? with
  | none => set
  | some w =>
    (set.enum).map (fun p =>
      if p.1 = way then { p.2 with lru := 0 }
      else if p.2.lru ≤ w.lru then { p.2 with lru := p.2.lru + 1 } else p.2)

/-- The first way of the set of `ip` that holds the line of `ip` (lines 225-227 and
394-396): the set begins at `((ip >> lg2(dib_window)) % dib_set) * dib_way` and has
`dib_way` ways. -/
def dib_find (cfg : StageConfig) (dib : List dib_entry_t) (ip : Nat) : Option Nat :=
  let set := (dib.drop (((ip >>> lg2 cfg.dib_window) % cfg.dib_set) * cfg.dib_way)).take
    cfg.dib_way
  let way := set.findIdx (dib_match ip (lg2 cfg.dib_window))
  if way < set.length then some way else none

/-- The DIB with the set of `ip` replaced by `set`. -/
def dib_put (cfg : StageConfig) (dib : List dib_entry_t) (ip : Nat)
    (set : List dib_entry_t) : List dib_entry_t :=
  let b := ((ip >>> lg2 cfg.dib_window) % cfg.dib_set) * cfg.dib_way
  dib.take b ++ set ++ dib.drop (b + cfg.dib_way)

/-- `O3_CPU::do_check_dib` (lines 222-244) for the entry at index `i` of `IFETCH_BUFFER`: on
a hit the instruction is marked translated, fetched and decoded and the LRU state of the set
is updated. -/
def do_check_dib {β : Type} (cfg : StageConfig) (s : Core β) (i : Nat) : Core β :=
  match s.IFETCH_BUFFER[i]? with
  | none => s
  | some instr =>
    match dib_find cfg s.DIB instr.ip with
    | none => s
    | some way =>
      let set := (s.DIB.drop (((instr.ip >>> lg2 cfg.dib_window) % cfg.dib_set)
        * cfg.dib_way)).take cfg.dib_way
      { s with
        IFETCH_BUFFER := (s.IFETCH_BUFFER.set i
          { instr with translated := COMPLETED, fetched := COMPLETED, decoded := COMPLETED,
                       event_cycle := s.current_cycle })
        DIB := dib_put cfg s.DIB instr.ip (lru_update set way) }

/-- `O3_CPU::check_dib` (lines 214-220): `do_check_dib` on the first `FETCH_WIDTH` entries
of `IFETCH_BUFFER`. -/
def check_dib {β : Type} (cfg : StageConfig) (s : Core β) : Core β :=
  (List.range (min s.IFETCH_BUFFER.length cfg.FETCH_WIDTH)).foldl (do_check_dib cfg) s

/-! ### Translation and fetch of instructions -/

/-- The end of the range of lines 254 and 308: the index of the first entry from `b` on
whose key differs from that of the entry at `b`, or the length of the buffer. -/
def range_end (buffer : List ooo_model_instr) (key : ooo_model_instr → Nat) (b : Nat) :
    Nat :=
  match buffer[b]? with
  | none => buffer.length
  | some first => b + (buffer.drop b).findIdx (fun x => key first != key x)

/-- `O3_CPU::do_translate_fetch` (lines 261-289) on the entries at the indices `b` to
`e - 1` of `IFETCH_BUFFER`; `rq_index` is the answer of the ITLB to `add_rq`. -/
def do_translate_fetch {β : Type} (s : Core β) (b e : Nat) (rq_index : Int) : Core β :=
  match s.IFETCH_BUFFER[b]? with
  | none => s
  | some first =>
    let trace_packet : PACKET :=
      { cpu := s.cpu, address := first.ip, v_address := first.ip, instr_id := first.instr_id,
        ip := first.ip, type := LOAD,
        instr_depend_on_me := (List.range' b (e - b)).map (fun i => s.IFETCH_front + i) }
    if rq_index ≠ -2 then
      { s with
        ITLB_RQ := s.ITLB_RQ ++ [trace_packet]
        IFETCH_BUFFER := (List.range' b (e - b)).foldl
          (fun buffer i =>
            match buffer[i]? with
            | none => buffer
            | some x => buffer.set i { x with translated := INFLIGHT })
          s.IFETCH_BUFFER }
    else s

/-- `O3_CPU::translate_fetch` (lines 246-259). When no entry is untranslated the first
`find_if` returns the end of the buffer and neither disjunct of line 255 holds. -/
def translate_fetch {β : Type} (s : Core β) (rq_index : Int) : Core β :=
  if s.IFETCH_BUFFER = [] then s
  else
    let itlb_req_begin := s.IFETCH_BUFFER.findIdx (fun x => x.translated == 0)
    if itlb_req_begin < s.IFETCH_BUFFER.length then
      let itlb_req_end := range_end s.IFETCH_BUFFER (fun x => x.ip >>> LOG2_PAGE_SIZE)
        itlb_req_begin
      if itlb_req_end ≠ s.IFETCH_BUFFER.length ∨ itlb_req_begin = 0 then
        do_translate_fetch s itlb_req_begin itlb_req_end rq_index
      else s
    else s

/-- `O3_CPU::do_fetch_instruction` (lines 317-344) on the entries at the indices `b` to
`e - 1` of `IFETCH_BUFFER`; `rq_index` is the answer of the L1I to `add_rq`. -/
def do_fetch_instruction {β : Type} (s : Core β) (b e : Nat) (rq_index : Int) : Core β :=
  match s.IFETCH_BUFFER[b]? with
  | none => s
  | some first =>
    let fetch_packet : PACKET :=
      { cpu := s.cpu, address := first.instruction_pa, data := first.instruction_pa,
        v_address := first.ip, instr_id := first.instr_id, ip := first.ip, type := LOAD,
        instr_depend_on_me := (List.range' b (e - b)).map (fun i => s.IFETCH_front + i) }
    if rq_index ≠ -2 then
      { s with
        L1I_RQ := s.L1I_RQ ++ [fetch_packet]
        IFETCH_BUFFER := (List.range' b (e - b)).foldl
          (fun buffer i =>
            match buffer[i]? with
            | none => buffer
            | some x => buffer.set i { x with fetched := INFLIGHT })
          s.IFETCH_BUFFER }
    else s

/-- `O3_CPU::fetch_instruction` (lines 291-315) after the resume test of lines 293-298,
which is `resume_fetch`. -/
def fetch_instruction {β : Type} (s0 : Core β) (rq_index : Int) : Core β :=
  let s : Core β := { s0 with toO3_CPU := resume_fetch s0.toO3_CPU }
  if s.IFETCH_BUFFER = [] then s
  else
    let l1i_req_begin := s.IFETCH_BUFFER.findIdx
      (fun x => x.translated == COMPLETED && x.fetched == 0)
    if l1i_req_begin < s.IFETCH_BUFFER.length then
      let l1i_req_end := range_end s.IFETCH_BUFFER
        (fun x => x.instruction_pa >>> LOG2_BLOCK_SIZE) l1i_req_begin
      if l1i_req_end ≠ s.IFETCH_BUFFER.length ∨ l1i_req_begin = 0 then
        do_fetch_instruction s l1i_req_begin l1i_req_end rq_index
      else s
    else s

/-- Modelled from the spec: `splice_bits(upper, lower, bits)` of `util.h`: the bits of
`upper` above the low `bits` ones and the low `bits` bits of `lower`. -/
def splice_bits (upper lower bits : Nat) : Nat :=
  (upper / 2 ^ bits) * 2 ^ bits + lower % 2 ^ bits

/-- The inner loop of lines 907-921 of `handle_memory_return` on the dependents of the front
packet of `ITLB_bus.PROCESSED`: the buffer, the dependents left and the fetch bandwidth
left. A dependent that points to no entry of the buffer is skipped. -/
def itlb_return_loop (front : Nat) (itlb_entry : PACKET) :
    List Nat → List ooo_model_instr → Nat → List ooo_model_instr × List Nat × Nat
  | [], buffer, bw => (buffer, [], bw)
  | it :: rest, buffer, bw =>
    if bw = 0 then (buffer, it :: rest, bw)
    else
      match (if front ≤ it then buffer[it - front]? else none) with
      | none => itlb_return_loop front itlb_entry rest buffer bw
      | some x =>
        if (x.ip >>> LOG2_PAGE_SIZE) = (itlb_entry.address >>> LOG2_PAGE_SIZE)
            ∧ x.translated ≠ 0 then
          itlb_return_loop front itlb_entry rest
            (buffer.set (it - front)
              { x with translated := COMPLETED,
                       instruction_pa := splice_bits
                         ((itlb_entry.data <<< LOG2_PAGE_SIZE) % 2 ^ 64) x.ip LOG2_PAGE_SIZE })
            (bw - 1)
        else itlb_return_loop front itlb_entry rest buffer bw

/-- The loop of lines 902-931 of `handle_memory_return` with `to_read` packets left to read
and the fetch bandwidth `bw`. -/
def itlb_return {β : Type} : Nat → Nat → Core β → Core β × Nat
  | 0, bw, s => (s, bw)
  | to_read + 1, bw, s =>
    if bw = 0 then (s, bw)
    else
      match s.ITLB_PROCESSED with
      | [] => (s, bw)
      | itlb_entry :: processed =>
        let r := itlb_return_loop s.IFETCH_front itlb_entry itlb_entry.instr_depend_on_me
          s.IFETCH_BUFFER bw
        let s1 : Core β :=
          { s with
            IFETCH_BUFFER := r.1
            ITLB_PROCESSED :=
              if r.2.1 = [] then processed
              else { itlb_entry with instr_depend_on_me := r.2.1 } :: processed }
        itlb_return to_read r.2.2 s1

/-- The inner loop of lines 942-952 of `handle_memory_return` on the dependents of the front
packet of `L1I_bus.PROCESSED`. -/
def l1i_return_loop (front : Nat) (l1i_entry : PACKET) :
    List Nat → List ooo_model_instr → Nat → List ooo_model_instr × List Nat × Nat
  | [], buffer, bw => (buffer, [], bw)
  | it :: rest, buffer, bw =>
    if bw = 0 then (buffer, it :: rest, bw)
    else
      match (if front ≤ it then buffer[it - front]? else none) with
      | none => l1i_return_loop front l1i_entry rest buffer bw
      | some x =>
        if (x.instruction_pa >>> LOG2_BLOCK_SIZE) = (l1i_entry.address >>> LOG2_BLOCK_SIZE)
            ∧ x.fetched ≠ 0 ∧ x.translated = COMPLETED then
          l1i_return_loop front l1i_entry rest
            (buffer.set (it - front) { x with fetched := COMPLETED }) (bw - 1)
        else l1i_return_loop front l1i_entry rest buffer bw

/-- The loop of lines 937-958 of `handle_memory_return`. -/
def l1i_return {β : Type} : Nat → Nat → Core β → Core β × Nat
  | 0, bw, s => (s, bw)
  | to_read + 1, bw, s =>
    if bw = 0 then (s, bw)
    else
      match s.L1I_PROCESSED with
      | [] => (s, bw)
      | l1i_entry :: processed =>
        let r := l1i_return_loop s.IFETCH_front l1i_entry l1i_entry.instr_depend_on_me
          s.IFETCH_BUFFER bw
        let s1 : Core β :=
          { s with
            IFETCH_BUFFER := r.1
            L1I_PROCESSED :=
              if r.2.1 = [] then processed
              else { l1i_entry with instr_depend_on_me := r.2.1 } :: processed }
        l1i_return to_read r.2.2 s1

/-- The instruction side of `O3_CPU::handle_memory_return` (lines 895-960): the answers of
the ITLB, then those of the L1I, each with a fetch bandwidth of `FETCH_WIDTH`. -/
def handle_memory_return_instr {β : Type} (cfg : StageConfig) (s : Core β) : Core β :=
  (l1i_return cfg.L1I_MAX_READ cfg.FETCH_WIDTH
    (itlb_return cfg.ITLB_MAX_READ cfg.FETCH_WIDTH s).1).1

/-! ### Decode and dispatch -/

/-- One iteration of the loop of `O3_CPU::promote_to_decode` (lines 349-360), entered when
the condition of the `while` holds; `none` when it does not. -/
def promote_step {β : Type} (cfg : StageConfig) (warmup_complete : Bool) (s : Core β) :
    Option (Core β) :=
  match s.IFETCH_BUFFER with
  | [] => none
  | front :: rest =>
    if s.DECODE_BUFFER.length ≠ cfg.DECODE_SIZE ∧ front.translated = COMPLETED
        ∧ front.fetched = COMPLETED then
      some { s with
        DECODE_BUFFER := s.DECODE_BUFFER ++
          [{ item := front
             delay := if !warmup_complete || front.decoded != 0 then 0
                      else cfg.DECODE_LATENCY }]
        IFETCH_BUFFER := rest
        IFETCH_front := s.IFETCH_front + 1 }
    else none

/-- The `while` loop of `promote_to_decode` with the fetch bandwidth left. -/
def promote_loop {β : Type} (cfg : StageConfig) (warmup_complete : Bool) :
    Nat → Core β → Core β
  | 0, s => s
  | bw + 1, s =>
    match promote_step cfg warmup_complete s with
    | none => s
    | some s1 => promote_loop cfg warmup_complete bw s1

/-- `O3_CPU::promote_to_decode` (lines 346-361). -/
def promote_to_decode {β : Type} (cfg : StageConfig) (warmup_complete : Bool) (s : Core β) :
    Core β :=
  promote_loop cfg warmup_complete cfg.FETCH_WIDTH s

/-- `O3_CPU::do_dib_update` (lines 399-418): the line of `ip` is looked up in its set; when
it is missing the way of largest `lru` (the first such way, as `std::max_element` returns)
takes it; the LRU state of the set is updated. `none` when the assertion of line 410 fails,
the set having no way. -/
def do_dib_update (cfg : StageConfig) (dib : List dib_entry_t) (ip : Nat) :
    Option (List dib_entry_t) :=
  let set := (dib.drop (((ip >>> lg2 cfg.dib_window) % cfg.dib_set) * cfg.dib_way)).take
    cfg.dib_way
  match dib_find cfg dib ip with
  | some way => some (dib_put cfg dib ip (lru_update set way))
  | none =>
    match set with
    | [] => none
    | first :: others =>
      let top := others.foldl (fun m e => max m e.lru) first.lru
      let way := set.findIdx (fun e => e.lru == top)
      match set[way]? with
      | none => none
      | some e =>
        some (dib_put cfg dib ip
          (lru_update (set.set way { e with valid := true, address := ip }) way))

/-- One iteration of the loop of `O3_CPU::decode_instruction` (lines 368-394), entered when
the condition of the `while` holds; `none` when it does not. -/
def decode_step {β : Type} (cfg : StageConfig) (warmup_complete : Bool) (s : Core β) :
    Option (Except Abort (Core β)) :=
  if has_ready s.DECODE_BUFFER ∧ s.DISPATCH_BUFFER.length ≠ cfg.DISPATCH_SIZE then
    match s.DECODE_BUFFER with
    | [] => none
    | front :: rest =>
      match do_dib_update cfg s.DIB front.item.ip with
      | none => some (.error (Abort.assertion 410))
      | some dib =>
        let resume := front.item.branch_mispredicted ≠ 0
          ∧ (front.item.branch_type = BRANCH_DIRECT_JUMP
            ∨ front.item.branch_type = BRANCH_DIRECT_CALL)
        let db_entry : ooo_model_instr :=
          if resume then { front.item with branch_mispredicted := 0 } else front.item
        some (.ok { s with
          DIB := dib
          fetch_resume_cycle :=
            if resume then s.current_cycle + cfg.BRANCH_MISPREDICT_PENALTY
            else s.fetch_resume_cycle
          DISPATCH_BUFFER := s.DISPATCH_BUFFER ++
            [{ item := db_entry
               delay := if warmup_complete then cfg.DISPATCH_LATENCY else 0 }]
          DECODE_BUFFER := rest })
  else none

/-- The `while` loop of `decode_instruction` with the decode bandwidth left. -/
def decode_loop {β : Type} (cfg : StageConfig) (warmup_complete : Bool) :
    Nat → Core β → Except Abort (Core β)
  | 0, s => .ok s
  | bw + 1, s =>
    match decode_step cfg warmup_complete s with
    | none => .ok s
    | some (.error a) => .error a
    | some (.ok s1) => decode_loop cfg warmup_complete bw s1

/-- `O3_CPU::decode_instruction` (lines 363-397). -/
def decode_instruction {β : Type} (cfg : StageConfig) (warmup_complete : Bool)
    (s : Core β) : Except Abort (Core β) :=
  match decode_loop cfg warmup_complete cfg.DECODE_WIDTH s with
  | .error a => .error a
  | .ok s1 => .ok { s1 with DECODE_BUFFER := delay_operate s1.DECODE_BUFFER }

/-- The `while` loop of `O3_CPU::dispatch_instruction` (lines 428-434) with the dispatch
bandwidth left. -/
def dispatch_loop {β : Type} (cfg : StageConfig) : Nat → Core β → Core β
  | 0, s => s
  | bw + 1, s =>
    if has_ready s.DISPATCH_BUFFER ∧ s.ROB.length ≠ cfg.ROB_SIZE then
      match s.DISPATCH_BUFFER with
      | [] => s
      | front :: rest =>
        dispatch_loop cfg bw { s with ROB := s.ROB ++ [front.item], DISPATCH_BUFFER := rest }
    else s

/-- `O3_CPU::dispatch_instruction` (lines 420-437). -/
def dispatch_instruction {β : Type} (cfg : StageConfig) (s : Core β) : Core β :=
  if s.DISPATCH_BUFFER = [] then s
  else
    let s1 := dispatch_loop cfg cfg.DISPATCH_WIDTH s
    { s1 with DISPATCH_BUFFER := delay_operate s1.DISPATCH_BUFFER }

/-! ### Scheduling, execution and completion -/

/-- The entry of the ROB at the iterator `it`, if it points to one. -/
def Core.rob_at {β : Type} (s : Core β) (it : Nat) : Option ooo_model_instr :=
  if s.ROB_front ≤ it then s.ROB[it - s.ROB_front]? else none

/-- `std::find_if(std::reverse_iterator{rob_it}, ROB.rend(), pred)`: the index of the
nearest entry before the index `i` that satisfies `pred`. -/
def find_prior (rob : List ooo_model_instr) (pred : ooo_model_instr → Bool) :
    Nat → Option Nat
  | 0 => none
  | j + 1 =>
    match rob[j]? with
    | some e => if pred e then some j else find_prior rob pred j
    | none => find_prior rob pred j

/-- `instr_reg_will_produce(reg)` (lines 469-480). -/
def instr_reg_will_produce (match_reg : Nat) (test : ooo_model_instr) : Bool :=
  test.executed != COMPLETED && decide (match_reg ∈ test.destination_registers)

/-- The body of the loop of lines 485-492 of `do_scheduling` for the source register
`src_reg` of the entry at index `i` of the ROB. -/
def mark_register_dependency {β : Type} (i : Nat) (s : Core β) (src_reg : Nat) : Core β :=
  match find_prior s.ROB (instr_reg_will_produce src_reg) i with
  | none => s
  | some j =>
    match s.ROB[j]?, s.ROB[i]? with
    | some prior, some rob_it =>
      if prior.registers_instrs_depend_on_me = []
          ∨ prior.registers_instrs_depend_on_me.getLast? ≠ some (s.ROB_front + i) then
        { s with ROB := ((s.ROB.set j
            { prior with registers_instrs_depend_on_me :=
                prior.registers_instrs_depend_on_me ++ [s.ROB_front + i] }).set i
            { rob_it with num_reg_dependent := rob_it.num_reg_dependent + 1 }) }
      else s
    | _, _ => s

/-- `O3_CPU::do_scheduling` (lines 481-501) for the entry at index `i` of the ROB. -/
def do_scheduling {β : Type} (cfg : StageConfig) (warmup_complete : Bool) (s : Core β)
    (i : Nat) : Core β :=
  match s.ROB[i]? with
  | none => s
  | some rob_it =>
    let s1 := rob_it.source_registers.foldl (mark_register_dependency i) s
    match s1.ROB[i]? with
    | none => s1
    | some e =>
      if e.is_memory ≠ 0 then { s1 with ROB := s1.ROB.set i { e with scheduled := INFLIGHT } }
      else
        { s1 with ROB := (s1.ROB.set i
            { e with scheduled := COMPLETED,
                     event_cycle := s1.current_cycle
                       + (if warmup_complete then cfg.SCHEDULING_LATENCY else 0) }) }

/-- The body of the loop of `O3_CPU::schedule_instruction` (lines 447-466) for the entry at
index `i` of the ROB: the core and whether the entry counts against the search bandwidth. -/
def schedule_step {β : Type} (cfg : StageConfig) (warmup_complete : Bool) (s : Core β)
    (i : Nat) : Except Abort (Core β × Bool) :=
  match s.ROB[i]? with
  | none => .error Abort.dangling
  | some rob_it =>
    let r : Except Abort (Core β) :=
      if rob_it.scheduled = 0 then
        let s1 := do_scheduling cfg warmup_complete s i
        match s1.ROB[i]? with
        | none => .error Abort.dangling
        | some e =>
          if e.scheduled = COMPLETED ∧ e.num_reg_dependent = 0 then
            if s1.ready_to_execute.length < cfg.ROB_SIZE then
              .ok { s1 with ready_to_execute := s1.ready_to_execute ++ [s1.ROB_front + i] }
            else .error (Abort.assertion 456)
          else .ok s1
      else .ok s
    match r with
    | .error a => .error a
    | .ok s2 =>
      match s2.ROB[i]? with
      | none => .error Abort.dangling
      | some e => .ok (s2, e.executed == 0)

/-- The `for` loop of `schedule_instruction` from the index `i` on, with `n` entries of the
ROB left and the search bandwidth `search_bw`. -/
def schedule_loop {β : Type} (cfg : StageConfig) (warmup_complete : Bool) :
    Nat → Nat → Nat → Core β → Except Abort (Core β)
  | 0, _, _, s => .ok s
  | n + 1, i, search_bw, s =>
    if search_bw = 0 then .ok s
    else
      match schedule_step cfg warmup_complete s i with
      | .error a => .error a
      | .ok (s1, counts) =>
        schedule_loop cfg warmup_complete n (i + 1)
          (if counts then search_bw - 1 else search_bw) s1

/-- `O3_CPU::schedule_instruction` (lines 444-467). -/
def schedule_instruction {β : Type} (cfg : StageConfig) (warmup_complete : Bool)
    (s : Core β) : Except Abort (Core β) :=
  schedule_loop cfg warmup_complete s.ROB.length 0 cfg.SCHEDULER_SIZE s

/-- `O3_CPU::do_execution` (lines 516-525) on the ROB iterator `it`. -/
def do_execution {β : Type} (cfg : StageConfig) (warmup_complete : Bool) (s : Core β)
    (it : Nat) : Except Abort (Core β) :=
  match s.rob_at it with
  | none => .error Abort.dangling
  | some rob_it =>
    .ok { s with ROB := (s.ROB.set (it - s.ROB_front)
      { rob_it with executed := INFLIGHT,
                    event_cycle := s.current_cycle
                      + (if warmup_complete then cfg.EXEC_LATENCY else 0) }) }

/-- The `while` loop of `O3_CPU::execute_instruction` (lines 508-513) with
`EXEC_WIDTH - exec_issued` iterations left. -/
def execute_loop {β : Type} (cfg : StageConfig) (warmup_complete : Bool) :
    Nat → Core β → Except Abort (Core β)
  | 0, s => .ok s
  | n + 1, s =>
    match s.ready_to_execute with
    | [] => .ok s
    | it :: rest =>
      match do_execution cfg warmup_complete s it with
      | .error a => .error a
      | .ok s1 => execute_loop cfg warmup_complete n { s1 with ready_to_execute := rest }

/-- `O3_CPU::execute_instruction` (lines 503-514). -/
def execute_instruction {β : Type} (cfg : StageConfig) (warmup_complete : Bool)
    (s : Core β) : Except Abort (Core β) :=
  execute_loop cfg warmup_complete cfg.EXEC_WIDTH s

/-- Lines 852-861 of `do_complete_execution`: the count of producers of a dependent goes down
by one and, at 0, its `scheduled` is set. -/
def released (d : ooo_model_instr) : ooo_model_instr :=
  let d1 := { d with num_reg_dependent := d.num_reg_dependent - 1 }
  if d1.num_reg_dependent = 0 then
    if d1.is_memory ≠ 0 then { d1 with scheduled := INFLIGHT }
    else { d1 with scheduled := COMPLETED }
  else d1

/-- The body of the loop of lines 850-862 of `do_complete_execution` for one dependent.
Modelled from the spec: `num_reg_dependent` is a signed counter, so that the decrement of 0
fails the assertion of line 853. -/
def release_dependent {β : Type} (s : Core β) (dependent : Nat) : Except Abort (Core β) :=
  match s.rob_at dependent with
  | none => .error Abort.dangling
  | some d =>
    if d.num_reg_dependent = 0 then .error (Abort.assertion 853)
    else .ok { s with ROB := s.ROB.set (dependent - s.ROB_front) (released d) }

/-- The loop of lines 850-862 over the dependents listed. -/
def release_dependents {β : Type} : List Nat → Core β → Except Abort (Core β)
  | [], s => .ok s
  | dependent :: rest, s =>
    match release_dependent s dependent with
    | .error a => .error a
    | .ok s1 => release_dependents rest s1

/-- `O3_CPU::do_complete_execution` (lines 846-866) for the entry at index `i` of the ROB. -/
def do_complete_execution {β : Type} (cfg : StageConfig) (s : Core β) (i : Nat) :
    Except Abort (Core β) :=
  match s.ROB[i]? with
  | none => .error Abort.dangling
  | some rob_it =>
    let s1 : Core β := { s with ROB := s.ROB.set i { rob_it with executed := COMPLETED } }
    match release_dependents rob_it.registers_instrs_depend_on_me s1 with
    | .error a => .error a
    | .ok s2 =>
      match s2.ROB[i]? with
      | none => .error Abort.dangling
      | some e =>
        if e.branch_mispredicted ≠ 0 then
          .ok { s2 with
            fetch_resume_cycle := s2.current_cycle + cfg.BRANCH_MISPREDICT_PENALTY }
        else .ok s2

/-- The loop of lines 879-889 of `complete_inflight_instruction` over the dependents
listed: those that are scheduled and wait for no producer join `ready_to_execute`. -/
def wake_dependents {β : Type} (cfg : StageConfig) : List Nat → Core β → Except Abort (Core β)
  | [], s => .ok s
  | dependent :: rest, s =>
    match s.rob_at dependent with
    | none => .error Abort.dangling
    | some d =>
      if d.scheduled = COMPLETED ∧ d.num_reg_dependent = 0 then
        if s.ready_to_execute.length < cfg.ROB_SIZE then
          wake_dependents cfg rest
            { s with ready_to_execute := s.ready_to_execute ++ [dependent] }
        else .error (Abort.assertion 883)
      else wake_dependents cfg rest s

/-- The body of the loop of `O3_CPU::complete_inflight_instruction` (lines 872-891) for the
entry at index `i` of the ROB: the core and whether an execution was completed. -/
def complete_step {β : Type} (cfg : StageConfig) (s : Core β) (i : Nat) :
    Except Abort (Core β × Bool) :=
  match s.ROB[i]? with
  | none => .error Abort.dangling
  | some rob_it =>
    if rob_it.executed = INFLIGHT ∧ rob_it.event_cycle ≤ s.current_cycle
        ∧ rob_it.num_mem_ops = 0 then
      match do_complete_execution cfg s i with
      | .error a => .error a
      | .ok s1 =>
        match s1.ROB[i]? with
        | none => .error Abort.dangling
        | some e =>
          match wake_dependents cfg e.registers_instrs_depend_on_me s1 with
          | .error a => .error a
          | .ok s2 => .ok (s2, true)
    else .ok (s, false)

/-- The `for` loop of `complete_inflight_instruction` from the index `i` on, with `n`
entries of the ROB left and the bandwidth `complete_bw`. -/
def complete_loop {β : Type} (cfg : StageConfig) :
    Nat → Nat → Nat → Core β → Except Abort (Core β)
  | 0, _, _, s => .ok s
  | n + 1, i, complete_bw, s =>
    if complete_bw = 0 then .ok s
    else
      match complete_step cfg s i with
      | .error a => .error a
      | .ok (s1, completed) =>
        complete_loop cfg n (i + 1) (if completed then complete_bw - 1 else complete_bw) s1

/-- `O3_CPU::complete_inflight_instruction` (lines 868-893). -/
def complete_inflight_instruction {β : Type} (cfg : StageConfig) (s : Core β) :
    Except Abort (Core β) :=
  complete_loop cfg s.ROB.length 0 cfg.EXEC_WIDTH s

/-! ### Retirement -/

/-- The packet of lines 1021-1033 of `retire_rob` for the store in the slot `e` of the store
queue. -/
def retire_packet (cpu : Nat) (e : LSQ_ENTRY) : PACKET :=
  { cpu := cpu, address := e.physical_address >>> LOG2_BLOCK_SIZE,
    v_address := e.virtual_address >>> LOG2_BLOCK_SIZE, instr_id := e.instr_id, ip := e.ip,
    type := RFO }

/-- The loop of lines 1017-1046 of `retire_rob` over the destination memory operands of the
front of the ROB: every operand with an address is written back through the write queue of
the L1D, which accepts `room` packets and then answers -2 to `add_wq`; an operand that is
accepted is zeroed and its slot of the store queue is released. Returns the operands, the
store queue, the room left, whether every write went out, and the packets accepted. -/
def retire_stores (cpu : Nat) : List lsq_info → List LSQ_ENTRY → Nat →
    Except Abort (List lsq_info × List LSQ_ENTRY × Nat × Bool × List PACKET)
  | [], sq, room => .ok ([], sq, room, true, [])
  | dmem :: rest, sq, room =>
    if dmem.address ≠ 0 then
      match dmem.q_it with
      | none => .error Abort.dangling
      | some sq_it =>
        match sq[sq_it]? with
        | none => .error Abort.dangling
        | some e =>
          if room = 0 then .ok (dmem :: rest, sq, room, false, [])
          else
            match retire_stores cpu rest (sq.set sq_it {}) (room - 1) with
            | .error a => .error a
            | .ok r =>
              .ok ({ dmem with address := 0 } :: r.1, r.2.1, r.2.2.1, r.2.2.2.1,
                retire_packet cpu e :: r.2.2.2.2)
    else
      match retire_stores cpu rest sq room with
      | .error a => .error a
      | .ok r => .ok (dmem :: r.1, r.2.1, r.2.2.1, r.2.2.2.1, r.2.2.2.2)

/-- The `while` loop of `O3_CPU::retire_rob` (lines 1015-1055) with the retire bandwidth
left; `room` is the number of packets that the write queue of the L1D still accepts. -/
def retire_loop {β : Type} : Nat → Nat → Core β → Except Abort (Core β)
  | 0, _, s => .ok s
  | bw + 1, room, s =>
    match s.ROB with
    | [] => .ok s
    | front :: rest =>
      if front.executed = COMPLETED then
        match retire_stores s.cpu front.destination_memory s.SQ room with
        | .error a => .error a
        | .ok r =>
          if r.2.2.2.1 then
            retire_loop bw r.2.2.1
              { s with ROB := rest, ROB_front := s.ROB_front + 1, SQ := r.2.1,
                       num_retired := s.num_retired + 1,
                       L1D_WQ := s.L1D_WQ ++ r.2.2.2.2 }
          else
            .ok { s with ROB := { front with destination_memory := r.1 } :: rest,
                         SQ := r.2.1, L1D_WQ := s.L1D_WQ ++ r.2.2.2.2 }
      else .ok s

/-- `O3_CPU::retire_rob` (lines 1011-1056). -/
def retire_rob {β : Type} (cfg : StageConfig) (room : Nat) (s : Core β) :
    Except Abort (Core β) :=
  retire_loop cfg.RETIRE_WIDTH room s

/-! ### Stores: `do_memory_scheduling` and `add_store_queue` -/

/-- `std::find_if_not(std::begin(SQ), std::end(SQ), is_valid<LSQ_ENTRY>())`: the first slot
of the store queue that is not valid. -/
def find_invalid (q : List LSQ_ENTRY) : Option Nat :=
  let k := q.findIdx (fun e => e.virtual_address == 0)
  if k < q.length then some k else none

/-- `O3_CPU::add_store_queue` (lines 653-679) for the operand `data_index` of the entry at
index `i` of the ROB: the first invalid slot of the store queue takes the store, the operand
is marked `added`, the front of `STA` is popped and the slot joins `RTS0`. -/
def add_store_queue {β : Type} (cfg : StageConfig) (s : Core β) (i data_index : Nat) :
    Except Abort (Core β) :=
  match s.ROB[i]?, find_invalid s.SQ with
  | some rob_it, some sq_it =>
    match s.SQ[sq_it]?, rob_it.destination_memory[data_index]? with
    | some slot, some dmem =>
      if slot.virtual_address = 0 then
        .ok { s with
          ROB := (s.ROB.set i
            { rob_it with destination_memory := (rob_it.destination_memory.set data_index
                { dmem with q_it := some sq_it, added := true }) })
          SQ := (s.SQ.set sq_it
            { slot with instr_id := rob_it.instr_id, virtual_address := dmem.address,
                        ip := rob_it.ip, rob_index := s.ROB_front + i,
                        event_cycle := s.current_cycle + cfg.SCHEDULING_LATENCY })
          STA := s.STA.tail
          RTS0 := s.RTS0 ++ [sq_it] }
      else .error (Abort.assertion 656)
    | _, _ => .error Abort.dangling
  | _, _ => .error Abort.dangling

/-- The body of the loop of lines 619-637 of `do_memory_scheduling` for the operand
`data_index` of the entry at index `i` of the ROB. Returns the core and the `instr_id` that
`add_store_queue` has written into a slot of the store queue, if it was called. Reading the
front of an empty `STA` is a dangling access. -/
def schedule_store {β : Type} (cfg : StageConfig) (s : Core β) (i data_index : Nat) :
    Except Abort (Core β × List Nat) :=
  match s.ROB[i]? with
  | none => .error Abort.dangling
  | some rob_it =>
    match rob_it.destination_memory[data_index]? with
    | none => .error Abort.dangling
    | some dmem =>
      if !dmem.added then
        match find_invalid s.SQ with
        | some sq_it =>
          match s.STA with
          | [] => .error Abort.dangling
          | sta_front :: _ =>
            if sta_front = rob_it.instr_id then
              match add_store_queue cfg s i data_index with
              | .error a => .error a
              | .ok s1 =>
                match s1.SQ[sq_it]? with
                | none => .error Abort.dangling
                | some slot => .ok (s1, [slot.instr_id])
            else .ok (s, [])
        | none => .ok (s, [])
      else .ok (s, [])

/-- The loop of lines 619-637 over the operands from `data_index` on, `n` of them left: the
core and the `instr_id`s written into the store queue, in order. -/
def schedule_stores {β : Type} (cfg : StageConfig) (i : Nat) :
    Nat → Nat → Core β → Except Abort (Core β × List Nat)
  | 0, _, s => .ok (s, [])
  | n + 1, data_index, s =>
    match schedule_store cfg s i data_index with
    | .error a => .error a
    | .ok (s1, w1) =>
      match schedule_stores cfg i n (data_index + 1) s1 with
      | .error a => .error a
      | .ok (s2, w2) => .ok (s2, w1 ++ w2)

/-- `sq_will_forward(addr)` (lines 549-559): the store has been executed and has the
address. -/
def sq_will_forward (match_addr : Nat) (sq_test : LSQ_ENTRY) : Bool :=
  sq_test.fetched == COMPLETED && sq_test.virtual_address == match_addr

/-- `instr_mem_will_produce(mem)` (lines 540-547); modelled from the spec,
`eq_addr<lsq_info>` compares the addresses. -/
def instr_mem_will_produce (match_mem : Nat) (test : ooo_model_instr) : Bool :=
  test.destination_memory.any (fun d => d.address == match_mem)

/-- The body of the loop of lines 567-616 of `do_memory_scheduling` for the source operand
`k` of the entry at index `i` of the ROB: the load is satisfied by a store of the store
queue, or waits for a store of the ROB, or takes a slot of the load queue. Modelled from the
spec: `num_mem_ops` is a signed counter, so that the decrement of 0 fails the assertion of
line 582. -/
def schedule_load {β : Type} (cfg : StageConfig) (s : Core β) (i k : Nat) :
    Except Abort (Core β) :=
  match s.ROB[i]? with
  | none => .error Abort.dangling
  | some rob_it =>
    match rob_it.source_memory[k]? with
    | none => .error Abort.dangling
    | some smem_info =>
      if !smem_info.added && !smem_info.will_forward then
        if s.SQ.any (sq_will_forward smem_info.address) then
          if rob_it.num_mem_ops = 0 then .error (Abort.assertion 582)
          else
            .ok { s with ROB := (s.ROB.set i
              { rob_it with
                num_mem_ops := rob_it.num_mem_ops - 1
                event_cycle := s.current_cycle
                source_memory := rob_it.source_memory.set k { smem_info with added := true } }) }
        else
          match find_prior s.ROB (instr_mem_will_produce smem_info.address) i with
          | some j =>
            match s.ROB[j]? with
            | none => .error Abort.dangling
            | some prior =>
              .ok { s with ROB := ((s.ROB.set j
                  { prior with memory_instrs_depend_on_me :=
                      prior.memory_instrs_depend_on_me ++ [s.ROB_front + i] }).set i
                  { rob_it with source_memory :=
                      rob_it.source_memory.set k { smem_info with will_forward := true } }) }
          | none =>
            match find_invalid s.LQ with
            | some lq_it =>
              .ok { s with
                LQ := (s.LQ.set lq_it
                  { instr_id := rob_it.instr_id, virtual_address := smem_info.address,
                    ip := rob_it.ip, rob_index := s.ROB_front + i,
                    event_cycle := s.current_cycle + cfg.SCHEDULING_LATENCY })
                ROB := (s.ROB.set i
                  { rob_it with source_memory := (rob_it.source_memory.set k
                      { smem_info with q_it := some lq_it, added := true }) })
                RTL0 := s.RTL0 ++ [lq_it] }
            | none => .ok s
      else .ok s

/-- The loop of lines 567-616 over the source operands from `k` on, `n` of them left. -/
def schedule_loads {β : Type} (cfg : StageConfig) (i : Nat) :
    Nat → Nat → Core β → Except Abort (Core β)
  | 0, _, s => .ok s
  | n + 1, k, s =>
    match schedule_load cfg s i k with
    | .error a => .error a
    | .ok s1 => schedule_loads cfg i n (k + 1) s1

/-- `O3_CPU::do_memory_scheduling` (lines 564-651) for the entry at index `i` of the ROB:
the loads, the stores, and the test of lines 639-650. Returns the core and the `instr_id`s
that `add_store_queue` has written into the store queue, in order. -/
def do_memory_scheduling {β : Type} (cfg : StageConfig) (s : Core β) (i : Nat) :
    Except Abort (Core β × List Nat) :=
  match s.ROB[i]? with
  | none => .error Abort.dangling
  | some rob_it =>
    match schedule_loads cfg i rob_it.source_memory.length 0 s with
    | .error a => .error a
    | .ok s1 =>
      match schedule_stores cfg i rob_it.destination_memory.length 0 s1 with
      | .error a => .error a
      | .ok (s2, written) =>
        match s2.ROB[i]? with
        | none => .error Abort.dangling
        | some e =>
          if e.source_memory.all (fun x => x.added)
              ∧ e.destination_memory.all (fun x => x.added) then
            .ok ({ s2 with ROB := (s2.ROB.set i
              { e with scheduled := COMPLETED,
                       executed := if e.executed = 0 then INFLIGHT else e.executed }) },
              written)
          else .ok (s2, written)

/-- The `for` loop of `O3_CPU::schedule_memory_instruction` (lines 531-538) from the index
`i` on, with `n` entries of the ROB left and the search bandwidth `search_bw`. Returns the
core and the `instr_id`s written into the store queue, in order. -/
def schedule_memory_loop {β : Type} (cfg : StageConfig) :
    Nat → Nat → Nat → Core β → Except Abort (Core β × List Nat)
  | 0, _, _, s => .ok (s, [])
  | n + 1, i, search_bw, s =>
    if search_bw = 0 then .ok (s, [])
    else
      match s.ROB[i]? with
      | none => .error Abort.dangling
      | some rob_it =>
        let r : Except Abort (Core β × List Nat) :=
          if rob_it.is_memory ≠ 0 ∧ rob_it.num_reg_dependent = 0
              ∧ rob_it.scheduled = INFLIGHT then
            do_memory_scheduling cfg s i
          else .ok (s, [])
        match r with
        | .error a => .error a
        | .ok (s1, w1) =>
          match s1.ROB[i]? with
          | none => .error Abort.dangling
          | some e =>
            match schedule_memory_loop cfg n (i + 1)
              (if e.executed = 0 then search_bw - 1 else search_bw) s1 with
            | .error a => .error a
            | .ok (s2, w2) => .ok (s2, w1 ++ w2)

/-- `O3_CPU::schedule_memory_instruction` (lines 527-538). -/
def schedule_memory_instruction {β : Type} (cfg : StageConfig) (s : Core β) :
    Except Abort (Core β × List Nat) :=
  schedule_memory_loop cfg s.ROB.length 0 cfg.SCHEDULER_SIZE s

/-- Lifting of `init_instruction` to the core with its pipeline. -/
def Core.init_instruction {β : Type} (cfg : StageConfig) (hooks : BranchHooks β)
    (warmup_complete : Bool) (s : Core β) (arch_instr : ooo_model_instr) :
    Option (Core β) :=
  (ChampSim.init_instruction cfg.toCoreConfig hooks warmup_complete s.toO3_CPU arch_instr).map
    (fun t => { s with toO3_CPU := t })

/-! ## The memory side of the core: `operate_lsq` and the data side of
`handle_memory_return` -/

/-- The packet that `do_translate_store` builds for the slot `sq_it` of the store queue
holding `e` (lines 735-746). -/
def translate_store_packet {β : Type} (s : Core β) (sq_it : Nat) (e : LSQ_ENTRY) : PACKET :=
  { cpu := s.cpu, address := e.virtual_address, v_address := e.virtual_address,
    instr_id := e.instr_id, ip := e.ip, type := RFO, sq_index_depend_on_me := [sq_it] }

/-- `O3_CPU::do_translate_store` (lines 733-758) for the slot `sq_it` of the store queue;
`rq_index` is the answer of the DTLB to `add_rq`, which the function returns. -/
def do_translate_store {β : Type} (s : Core β) (sq_it : Nat) (rq_index : Int) :
    Except Abort (Core β) :=
  match s.SQ[sq_it]? with
  | none => .error Abort.dangling
  | some e =>
    if rq_index ≠ -2 then
      .ok { s with
        DTLB_RQ := s.DTLB_RQ ++ [translate_store_packet s sq_it e]
        SQ := (s.SQ.set sq_it { e with translated := INFLIGHT }) }
    else .ok s

/-- The body of the loop of lines 774-793 of `execute_store` for one dependent of the store
with the address `virtual_address`: `std::find_if` yields the first source operand of the
dependent with that address; when there is one, the count of memory operations of the
dependent goes down by one and the operand is marked `added`. Modelled from the spec:
`eq_addr<lsq_info>` compares the addresses; `num_mem_ops` is a signed counter, so that the
decrement of 0 fails the assertion of line 789. -/
def forward_to_dependent {β : Type} (virtual_address : Nat) (s : Core β) (dependent : Nat) :
    Except Abort (Core β) :=
  match s.rob_at dependent with
  | none => .error Abort.dangling
  | some d =>
    let k := d.source_memory.findIdx (fun m => m.address == virtual_address)
    match d.source_memory[k]? with
    | none => .ok s
    | some dsm_info =>
      if d.num_mem_ops = 0 then .error (Abort.assertion 789)
      else
        .ok { s with ROB := (s.ROB.set (dependent - s.ROB_front)
          { d with
            num_mem_ops := d.num_mem_ops - 1
            event_cycle := s.current_cycle
            source_memory := d.source_memory.set k { dsm_info with added := true } }) }

/-- The loop of lines 774-793 of `execute_store` over the dependents listed. -/
def forward_to_dependents {β : Type} (virtual_address : Nat) :
    List Nat → Core β → Except Abort (Core β)
  | [], s => .ok s
  | dependent :: rest, s =>
    match forward_to_dependent virtual_address s dependent with
    | .error a => .error a
    | .ok s1 => forward_to_dependents virtual_address rest s1

/-- `O3_CPU::execute_store` (lines 760-794) for the slot `sq_it` of the store queue. The
decrement of a `num_mem_ops` that is 0 fails the assertion of line 767. -/
def execute_store {β : Type} (s : Core β) (sq_it : Nat) : Except Abort (Core β) :=
  match s.SQ[sq_it]? with
  | none => .error Abort.dangling
  | some e =>
    match s.rob_at e.rob_index with
    | none => .error Abort.dangling
    | some owner =>
      if owner.num_mem_ops = 0 then .error (Abort.assertion 767)
      else
        let s1 : Core β :=
          { s with
            SQ := (s.SQ.set sq_it { e with fetched := COMPLETED, event_cycle := s.current_cycle })
            ROB := (s.ROB.set (e.rob_index - s.ROB_front)
              { owner with num_mem_ops := owner.num_mem_ops - 1,
                           event_cycle := s.current_cycle }) }
        forward_to_dependents e.virtual_address owner.memory_instrs_depend_on_me s1

/-- The packet that `do_translate_load` builds for the slot `lq_it` of the load queue
holding `e` (lines 798-808). -/
def translate_load_packet {β : Type} (s : Core β) (lq_it : Nat) (e : LSQ_ENTRY) : PACKET :=
  { cpu := s.cpu, address := e.virtual_address, v_address := e.virtual_address,
    instr_id := e.instr_id, ip := e.ip, type := LOAD, lq_index_depend_on_me := [lq_it] }

/-- `O3_CPU::do_translate_load` (lines 796-820) for the slot `lq_it` of the load queue;
`rq_index` is the answer of the DTLB to `add_rq`, which the function returns. -/
def do_translate_load {β : Type} (s : Core β) (lq_it : Nat) (rq_index : Int) :
    Except Abort (Core β) :=
  match s.LQ[lq_it]? with
  | none => .error Abort.dangling
  | some e =>
    if rq_index ≠ -2 then
      .ok { s with
        DTLB_RQ := s.DTLB_RQ ++ [translate_load_packet s lq_it e]
        LQ := (s.LQ.set lq_it { e with translated := INFLIGHT }) }
    else .ok s

/-- The packet that `execute_load` builds for the slot `lq_it` of the load queue holding `e`
(lines 824-836). -/
def execute_load_packet {β : Type} (s : Core β) (lq_it : Nat) (e : LSQ_ENTRY) : PACKET :=
  { cpu := s.cpu, address := e.physical_address, v_address := e.virtual_address,
    instr_id := e.instr_id, ip := e.ip, type := LOAD, lq_index_depend_on_me := [lq_it] }

/-- `O3_CPU::execute_load` (lines 822-844) for the slot `lq_it` of the load queue;
`rq_index` is the answer of the L1D to `add_rq`, which the function returns. -/
def execute_load {β : Type} (s : Core β) (lq_it : Nat) (rq_index : Int) :
    Except Abort (Core β) :=
  match s.LQ[lq_it]? with
  | none => .error Abort.dangling
  | some e =>
    if rq_index ≠ -2 then
      .ok { s with
        L1D_RQ := s.L1D_RQ ++ [execute_load_packet s lq_it e]
        LQ := (s.LQ.set lq_it { e with fetched := INFLIGHT }) }
    else .ok s

/-- The first loop of `operate_lsq` (lines 687-697) with the store bandwidth left. The
answers of the DTLB to `add_rq` are taken from the list `dtlb`, in order; an answer that is
missing is a refusal. Returns the core, the bandwidth left and the answers left. -/
def translate_stores {β : Type} : Nat → List Int → Core β →
    Except Abort (Core β × Nat × List Int)
  | 0, dtlb, s => .ok (s, 0, dtlb)
  | bw + 1, dtlb, s =>
    match s.RTS0 with
    | [] => .ok (s, bw + 1, dtlb)
    | sq_it :: rest =>
      match do_translate_store s sq_it (dtlb.headD (-2)) with
      | .error a => .error a
      | .ok s1 =>
        if dtlb.headD (-2) = -2 then .ok (s1, bw + 1, dtlb.tail)
        else translate_stores bw dtlb.tail { s1 with RTS0 := rest }

/-- The second loop of `operate_lsq` (lines 699-705) with the store bandwidth left. -/
def execute_stores {β : Type} : Nat → Core β → Except Abort (Core β)
  | 0, s => .ok s
  | bw + 1, s =>
    match s.RTS1 with
    | [] => .ok s
    | sq_it :: rest =>
      match execute_store s sq_it with
      | .error a => .error a
      | .ok s1 => execute_stores bw { s1 with RTS1 := rest }

/-- The third loop of `operate_lsq` (lines 709-719) with the load bandwidth left. Returns
the core and the bandwidth left. -/
def translate_loads {β : Type} : Nat → List Int → Core β → Except Abort (Core β × Nat)
  | 0, _, s => .ok (s, 0)
  | bw + 1, dtlb, s =>
    match s.RTL0 with
    | [] => .ok (s, bw + 1)
    | lq_it :: rest =>
      match do_translate_load s lq_it (dtlb.headD (-2)) with
      | .error a => .error a
      | .ok s1 =>
        if dtlb.headD (-2) = -2 then .ok (s1, bw + 1)
        else translate_loads bw dtlb.tail { s1 with RTL0 := rest }

/-- The fourth loop of `operate_lsq` (lines 721-730) with the load bandwidth left; the
answers of the L1D to `add_rq` are taken from the list `l1d`. -/
def execute_loads {β : Type} : Nat → List Int → Core β → Except Abort (Core β)
  | 0, _, s => .ok s
  | bw + 1, l1d, s =>
    match s.RTL1 with
    | [] => .ok s
    | lq_it :: rest =>
      match execute_load s lq_it (l1d.headD (-2)) with
      | .error a => .error a
      | .ok s1 =>
        if l1d.headD (-2) = -2 then .ok s1
        else execute_loads bw l1d.tail { s1 with RTL1 := rest }

/-- `O3_CPU::operate_lsq` (lines 681-731). `SQ_WIDTH` and `LQ_WIDTH` are constants of
`ooo_cpu.h`, which is not part of the sources: they are parameters. `dtlb` and `l1d` are the
answers of the DTLB and of the L1D to the calls of `add_rq`, in order. -/
def operate_lsq {β : Type} (SQ_WIDTH LQ_WIDTH : Nat) (dtlb l1d : List Int) (s : Core β) :
    Except Abort (Core β) :=
  match translate_stores SQ_WIDTH dtlb s with
  | .error a => .error a
  | .ok (s1, store_bw, dtlb1) =>
    match execute_stores store_bw s1 with
    | .error a => .error a
    | .ok s2 =>
      match translate_loads LQ_WIDTH dtlb1 s2 with
      | .error a => .error a
      | .ok (s3, load_bw) => execute_loads load_bw l1d s3

/-- What lines 969-974 and 978-983 of `handle_memory_return` write into an entry of the
store or load queue when the DTLB returns `data` for it: the physical address is the page
`data`, shifted as a 64-bit integer, with the offset of the virtual address. -/
def translated_entry (data current_cycle : Nat) (e : LSQ_ENTRY) : LSQ_ENTRY :=
  { e with
    physical_address := splice_bits ((data <<< LOG2_PAGE_SIZE) % 2 ^ 64) e.virtual_address
      LOG2_PAGE_SIZE
    translated := COMPLETED
    event_cycle := current_cycle }

/-- The loop of lines 967-975 of `handle_memory_return` over the store queue slots that the
packet names: the store queue and `RTS1`. -/
def dtlb_return_stores (data current_cycle : Nat) :
    List Nat → List LSQ_ENTRY → List Nat → Except Abort (List LSQ_ENTRY × List Nat)
  | [], sq, rts1 => .ok (sq, rts1)
  | sq_merged :: rest, sq, rts1 =>
    match sq[sq_merged]? with
    | none => .error Abort.dangling
    | some e =>
      dtlb_return_stores data current_cycle rest
        (sq.set sq_merged (translated_entry data current_cycle e)) (rts1 ++ [sq_merged])

/-- The loop of lines 977-985 of `handle_memory_return` over the load queue slots that the
packet names: the load queue and `RTL1`. -/
def dtlb_return_loads (data current_cycle : Nat) :
    List Nat → List LSQ_ENTRY → List Nat → Except Abort (List LSQ_ENTRY × List Nat)
  | [], lq, rtl1 => .ok (lq, rtl1)
  | lq_merged :: rest, lq, rtl1 =>
    match lq[lq_merged]? with
    | none => .error Abort.dangling
    | some e =>
      dtlb_return_loads data current_cycle rest
        (lq.set lq_merged (translated_entry data current_cycle e)) (rtl1 ++ [lq_merged])

/-- The loop of lines 963-990 of `handle_memory_return` over the answers of the DTLB, with
`to_read` packets left to read. -/
def dtlb_return {β : Type} : Nat → Core β → Except Abort (Core β)
  | 0, s => .ok s
  | to_read + 1, s =>
    match s.DTLB_PROCESSED with
    | [] => .ok s
    | dtlb_entry :: processed =>
      match dtlb_return_stores dtlb_entry.data s.current_cycle
          dtlb_entry.sq_index_depend_on_me s.SQ s.RTS1 with
      | .error a => .error a
      | .ok r1 =>
        match dtlb_return_loads dtlb_entry.data s.current_cycle
            dtlb_entry.lq_index_depend_on_me s.LQ s.RTL1 with
        | .error a => .error a
        | .ok r2 =>
          dtlb_return to_read
            { s with SQ := r1.1, RTS1 := r1.2, LQ := r2.1, RTL1 := r2.2,
                     DTLB_PROCESSED := processed }

/-- The loop of lines 997-1005 of `handle_memory_return` over the load queue slots that the
packet of the L1D names: the owner of the slot has one memory operation less, and the slot
is cleared. Line 1001 decrements `num_mem_ops` without an assertion. -/
def l1d_return_loads {β : Type} : List Nat → Core β → Except Abort (Core β)
  | [], s => .ok s
  | merged :: rest, s =>
    match s.LQ[merged]? with
    | none => .error Abort.dangling
    | some e =>
      match s.rob_at e.rob_index with
      | none => .error Abort.dangling
      | some owner =>
        if owner.num_mem_ops = 0 then .error (Abort.negative 1001)
        else
          l1d_return_loads rest
            { s with
              ROB := (s.ROB.set (e.rob_index - s.ROB_front)
                { owner with num_mem_ops := owner.num_mem_ops - 1,
                             event_cycle := s.current_cycle })
              LQ := (s.LQ.set merged {}) }

/-- The loop of lines 993-1008 of `handle_memory_return` over the answers of the L1D, with
`to_read` packets left to read. -/
def l1d_return_data {β : Type} : Nat → Core β → Except Abort (Core β)
  | 0, s => .ok s
  | to_read + 1, s =>
    match s.L1D_PROCESSED with
    | [] => .ok s
    | l1d_entry :: processed =>
      match l1d_return_loads l1d_entry.lq_index_depend_on_me s with
      | .error a => .error a
      | .ok s1 => l1d_return_data to_read { s1 with L1D_PROCESSED := processed }

/-- `O3_CPU::handle_memory_return` (lines 895-1009): the instruction side, then the answers
of the DTLB, then those of the L1D. `DTLB_MAX_READ` and `L1D_MAX_READ` are the `MAX_READ` of
the two caches below the data buses. -/
def handle_memory_return {β : Type} (cfg : StageConfig) (DTLB_MAX_READ L1D_MAX_READ : Nat)
    (s : Core β) : Except Abort (Core β) :=
  match dtlb_return DTLB_MAX_READ (handle_memory_return_instr cfg s) with
  | .error a => .error a
  | .ok s1 => l1d_return_data L1D_MAX_READ s1

/-- The constants and the answers of the memory system that a call of `O3_CPU::operate`
reads: the widths of the load and store queues, the `MAX_READ` of the two data caches, the
free slots of the write queue of the L1D, and the answers of the DTLB, the L1D, the ITLB and
the L1I to `add_rq`. -/
structure CycleEnv where
  SQ_WIDTH : Nat
  LQ_WIDTH : Nat
  DTLB_MAX_READ : Nat
  L1D_MAX_READ : Nat
  wq_room : Nat
  dtlb : List Int
  l1d : List Int
  itlb_rq : Int
  l1i_rq : Int

/-- `O3_CPU::operate` (lines 12-34) without the deadlock printer. Returns the core and the
ids that `add_store_queue` has written into the store queue. -/
def Core.operate {β : Type} (cfg : StageConfig) (warmup_complete : Bool) (env : CycleEnv)
    (s : Core β) : Except Abort (Core β × List Nat) :=
  let s0 : Core β := { s with toO3_CPU := set_read_budget cfg.toCoreConfig s.toO3_CPU }
  match retire_rob cfg env.wq_room s0 with
  | .error a => .error a
  | .ok s1 =>
    match complete_inflight_instruction cfg s1 with
    | .error a => .error a
    | .ok s2 =>
      match execute_instruction cfg warmup_complete s2 with
      | .error a => .error a
      | .ok s3 =>
        match schedule_instruction cfg warmup_complete s3 with
        | .error a => .error a
        | .ok s4 =>
          match handle_memory_return cfg env.DTLB_MAX_READ env.L1D_MAX_READ s4 with
          | .error a => .error a
          | .ok s5 =>
            match operate_lsq env.SQ_WIDTH env.LQ_WIDTH env.dtlb env.l1d s5 with
            | .error a => .error a
            | .ok s6 =>
              match schedule_memory_instruction cfg s6 with
              | .error a => .error a
              | .ok (s7, written) =>
                match decode_instruction cfg warmup_complete
                    (dispatch_instruction cfg s7) with
                | .error a => .error a
                | .ok s9 =>
                  .ok (check_dib cfg
                    (translate_fetch
                      (fetch_instruction (promote_to_decode cfg warmup_complete s9)
                        env.l1i_rq)
                      env.itlb_rq), written)

/-! ## Runs of the core and their invariants -/

/-- Modelled from the spec: an instruction as the trace reader hands it to
`init_instruction`, with the default member initialisers of the back-end fields: not
scheduled, not executed, waiting for no producer and with no dependent. -/
def ooo_model_instr.fresh (a : ooo_model_instr) : Prop :=
  a.scheduled = 0 ∧ a.executed = 0 ∧ a.num_reg_dependent = 0
    ∧ a.registers_instrs_depend_on_me = []

/-- The fields of an instruction that the back end works with, and its id. -/
def ooo_model_instr.backend (a : ooo_model_instr) : Nat × Nat × Nat × Nat × List Nat :=
  (a.instr_id, a.scheduled, a.executed, a.num_reg_dependent, a.registers_instrs_depend_on_me)

/-- The instruction `b` is `a` up to the fields that the memory side of the core writes in a
ROB entry: `num_mem_ops`, `event_cycle`, the memory operands and the list of loads that wait
for the store. -/
def ooo_model_instr.mem_only (a b : ooo_model_instr) : Prop :=
  b = { a with
    num_mem_ops := b.num_mem_ops, event_cycle := b.event_cycle
    source_memory := b.source_memory, destination_memory := b.destination_memory
    memory_instrs_depend_on_me := b.memory_instrs_depend_on_me }

/-- The instructions of the front end, oldest first: those of `DISPATCH_BUFFER`, then those
of `DECODE_BUFFER`, then those of `IFETCH_BUFFER`. -/
def Core.queue {β : Type} (s : Core β) : List ooo_model_instr :=
  s.DISPATCH_BUFFER.map (fun e => e.item) ++ s.DECODE_BUFFER.map (fun e => e.item)
    ++ s.IFETCH_BUFFER

/-- What a step of the memory side of the core may do (`operate_lsq` with
`do_translate_store`, `execute_store`, `do_translate_load` and `execute_load`, lines 681-844,
the data side of `handle_memory_return`, lines 960-1008, and the answers of the DTLB and the
L1D arriving in the `PROCESSED` queues): it writes the load and store queues, their ready
queues, the requests and answers of the data caches and, in ROB entries, `num_mem_ops`,
`event_cycle` and the memory operands. -/
def Core.lsq_step {β : Type} (s t : Core β) : Prop :=
  t = { s with ROB := t.ROB, SQ := t.SQ, LQ := t.LQ, RTS0 := t.RTS0, RTL0 := t.RTL0,
               RTS1 := t.RTS1, RTL1 := t.RTL1, DTLB_RQ := t.DTLB_RQ, L1D_RQ := t.L1D_RQ,
               DTLB_PROCESSED := t.DTLB_PROCESSED, L1D_PROCESSED := t.L1D_PROCESSED }
    ∧ List.Forall₂ ooo_model_instr.mem_only s.ROB t.ROB

/-- The runs of a core from a state with empty buffers: the stages of `O3_CPU::operate` in
any order, `init_instruction` on fresh trace instructions, the answers of the ITLB and of the
L1I arriving in the `PROCESSED` queues, the steps of the memory side and the clock. The two
lists are the ids that `init_instruction` has pushed into `STA` (one per destination memory
operand) and the ids that `add_store_queue` has written into slots of the store queue, each
in order. The id counter is a 64-bit unsigned integer and `init_instruction` is modelled
without its wrap: the runs feed an instruction while the counter is below `UINT64_MAX`. -/
inductive Core.runs {β : Type} (cfg : StageConfig) (hooks : BranchHooks β) :
    Core β → List Nat → List Nat → Prop
  | init (s : Core β) :
    s.IFETCH_BUFFER = [] → s.DECODE_BUFFER = [] → s.DISPATCH_BUFFER = [] → s.ROB = [] →
    s.ready_to_execute = [] → s.STA = [] → Core.runs cfg hooks s [] []
  | init_instruction (warmup_complete : Bool) (s t : Core β) (pushed written : List Nat)
      (arch_instr : ooo_model_instr) :
    Core.runs cfg hooks s pushed written → arch_instr.fresh →
    s.instr_unique_id < UINT64_MAX →
    s.init_instruction cfg hooks warmup_complete arch_instr = some t →
    Core.runs cfg hooks t
      (pushed ++ List.replicate arch_instr.destination_memory.length s.instr_unique_id)
      written
  | check_dib (s : Core β) (pushed written : List Nat) :
    Core.runs cfg hooks s pushed written → Core.runs cfg hooks (check_dib cfg s) pushed written
  | translate_fetch (s : Core β) (pushed written : List Nat) (rq_index : Int) :
    Core.runs cfg hooks s pushed written →
    Core.runs cfg hooks (translate_fetch s rq_index) pushed written
  | fetch_instruction (s : Core β) (pushed written : List Nat) (rq_index : Int) :
    Core.runs cfg hooks s pushed written →
    Core.runs cfg hooks (fetch_instruction s rq_index) pushed written
  | handle_memory_return (s : Core β) (pushed written : List Nat) :
    Core.runs cfg hooks s pushed written →
    Core.runs cfg hooks (handle_memory_return_instr cfg s) pushed written
  | promote_to_decode (warmup_complete : Bool) (s : Core β) (pushed written : List Nat) :
    Core.runs cfg hooks s pushed written →
    Core.runs cfg hooks (promote_to_decode cfg warmup_complete s) pushed written
  | decode_instruction (warmup_complete : Bool) (s t : Core β) (pushed written : List Nat) :
    Core.runs cfg hooks s pushed written →
    decode_instruction cfg warmup_complete s = .ok t → Core.runs cfg hooks t pushed written
  | dispatch_instruction (s : Core β) (pushed written : List Nat) :
    Core.runs cfg hooks s pushed written →
    Core.runs cfg hooks (dispatch_instruction cfg s) pushed written
  | schedule_instruction (warmup_complete : Bool) (s t : Core β)
      (pushed written : List Nat) :
    Core.runs cfg hooks s pushed written →
    schedule_instruction cfg warmup_complete s = .ok t → Core.runs cfg hooks t pushed written
  | execute_instruction (warmup_complete : Bool) (s t : Core β) (pushed written : List Nat) :
    Core.runs cfg hooks s pushed written →
    execute_instruction cfg warmup_complete s = .ok t → Core.runs cfg hooks t pushed written
  | complete_inflight_instruction (s t : Core β) (pushed written : List Nat) :
    Core.runs cfg hooks s pushed written →
    complete_inflight_instruction cfg s = .ok t → Core.runs cfg hooks t pushed written
  | schedule_memory_instruction (s t : Core β) (pushed written w : List Nat) :
    Core.runs cfg hooks s pushed written →
    schedule_memory_instruction cfg s = .ok (t, w) →
    Core.runs cfg hooks t pushed (written ++ w)
  | retire_rob (room : Nat) (s t : Core β) (pushed written : List Nat) :
    Core.runs cfg hooks s pushed written →
    retire_rob cfg room s = .ok t → Core.runs cfg hooks t pushed written
  | lsq (s t : Core β) (pushed written : List Nat) :
    Core.runs cfg hooks s pushed written → s.lsq_step t → Core.runs cfg hooks t pushed written
  | itlb_answer (s : Core β) (pushed written : List Nat) (packet : PACKET) :
    Core.runs cfg hooks s pushed written →
    Core.runs cfg hooks { s with ITLB_PROCESSED := s.ITLB_PROCESSED ++ [packet] }
      pushed written
  | l1i_answer (s : Core β) (pushed written : List Nat) (packet : PACKET) :
    Core.runs cfg hooks s pushed written →
    Core.runs cfg hooks { s with L1I_PROCESSED := s.L1I_PROCESSED ++ [packet] }
      pushed written
  | read_budget (s : Core β) (pushed written : List Nat) :
    Core.runs cfg hooks s pushed written →
    Core.runs cfg hooks { s with toO3_CPU := set_read_budget cfg.toCoreConfig s.toO3_CPU }
      pushed written
  | clock (s : Core β) (pushed written : List Nat) :
    Core.runs cfg hooks s pushed written →
    Core.runs cfg hooks { s with current_cycle := s.current_cycle + 1 } pushed written

/-- The entry of a ROB with the entries `rob`, the front at the position `front`, that the
iterator `it` points to. -/
def rob_get (rob : List ooo_model_instr) (front it : Nat) : Option ooo_model_instr :=
  if front ≤ it then rob[it - front]? else none

/-- The invariant of the back end, for a ROB with the entries `rob` and the front at the
position `front` and for `ready_to_execute = rte`. An entry that has begun to execute is
scheduled and waits for no producer; `rte` holds distinct iterators of entries that are
scheduled, wait for no producer and have not begun to execute; every list of dependents
holds distinct iterators of younger entries that have been through `do_scheduling`, or, while
`do_scheduling` works on the entry at `cur`, have `cur` as their last element. -/
structure backend_ok (rob : List ooo_model_instr) (front : Nat) (rte : List Nat)
    (cur : Option Nat) : Prop where
  executed_scheduled : ∀ a, a ∈ rob → a.executed ≠ 0 →
    a.scheduled = COMPLETED ∧ a.num_reg_dependent = 0
  rte_nodup : rte.Nodup
  rte_entries : ∀ it, it ∈ rte →
    ∃ a, rob_get rob front it = some a ∧ a.executed = 0 ∧ a.scheduled = COMPLETED
      ∧ a.num_reg_dependent = 0
  dependents : ∀ i a, rob[i]? = some a →
    a.registers_instrs_depend_on_me.Nodup
      ∧ ∀ d, d ∈ a.registers_instrs_depend_on_me →
          front + i < d ∧ ∃ b, rob_get rob front d = some b
            ∧ (b.scheduled ≠ 0
              ∨ (cur = some d ∧ a.registers_instrs_depend_on_me.getLast? = some d))

/-- The invariant of the runs of the core. The ids of the instructions in flight, from the
front of the ROB to the back of `IFETCH_BUFFER`, are strictly increasing and below
`instr_unique_id`; the instructions of the front end have not been touched by the back end;
the ROB holds at most `ROB_SIZE` entries; the invariant of the back end holds; and `STA`
holds, in non-decreasing order, the ids pushed and not yet written. -/
structure Core.inv {β : Type} (cfg : StageConfig) (s : Core β) (pushed written : List Nat) :
    Prop where
  ids_sorted : ((s.ROB ++ s.queue).map (fun a => a.instr_id)).Pairwise (fun a b => a < b)
  ids_lt : ∀ a, a ∈ s.ROB ++ s.queue → a.instr_id < s.instr_unique_id
  queue_fresh : ∀ a, a ∈ s.queue → a.fresh
  rob_size : s.ROB.length ≤ cfg.ROB_SIZE
  backend : backend_ok s.ROB s.ROB_front s.ready_to_execute none
  sta_log : pushed = written ++ s.STA
  sta_sorted : s.STA.Pairwise (fun a b => a ≤ b)
  sta_lt : ∀ x, x ∈ s.STA → x < s.instr_unique_id

/-- What every step of the back end other than retirement keeps: the instructions of the
front end, the id counter, the position of the front of the ROB and the ids of the ROB
entries. -/
structure Core.back_step {β : Type} (s t : Core β) : Prop where
  queue : t.queue = s.queue
  uid : t.instr_unique_id = s.instr_unique_id
  front : t.ROB_front = s.ROB_front
  ids : t.ROB.map (fun a => a.instr_id) = s.ROB.map (fun a => a.instr_id)

/-- What the loops of `do_memory_scheduling` over the operands of a ROB entry keep, with the
ids `w` that they write into the store queue: they write the load and store queues and their
ready queues and, in ROB entries, the fields of the memory side, and they pop `w` from the
front of `STA`. -/
structure Core.mem_sched {β : Type} (s t : Core β) (w : List Nat) : Prop where
  frame : t = { s with ROB := t.ROB, SQ := t.SQ, LQ := t.LQ, RTS0 := t.RTS0, RTL0 := t.RTL0,
                       STA := t.STA }
  rob : List.Forall₂ ooo_model_instr.mem_only s.ROB t.ROB
  sta : s.STA = w ++ t.STA

/-- What the stages of the front end keep: the back end, `STA`, the id counter and, in
their order, the ids and the back-end fields of the instructions of the front end. -/
structure Core.front_step {β : Type} (s t : Core β) : Prop where
  rob : t.ROB = s.ROB
  front : t.ROB_front = s.ROB_front
  rte : t.ready_to_execute = s.ready_to_execute
  sta : t.STA = s.STA
  uid : t.instr_unique_id = s.instr_unique_id
  queue : t.queue.map ooo_model_instr.backend = s.queue.map ooo_model_instr.backend

/-- The instruction `b` is `a` up to `num_reg_dependent` and `scheduled`. -/
def ooo_model_instr.sched_only (a b : ooo_model_instr) : Prop :=
  b = { a with num_reg_dependent := b.num_reg_dependent, scheduled := b.scheduled }

/-! ## A DIB hit followed by a fetch -/

/-- A small configuration of the stages: a DIB of 8 sets of 2 ways with windows of 16
bytes. -/
def cfg_stage : StageConfig :=
  { cfg0 with
    DECODE_WIDTH := 6, DISPATCH_WIDTH := 6, SCHEDULER_SIZE := 128, EXEC_WIDTH := 4,
    RETIRE_WIDTH := 5, DECODE_SIZE := 32, DISPATCH_SIZE := 32, DECODE_LATENCY := 1,
    DISPATCH_LATENCY := 1, SCHEDULING_LATENCY := 0, EXEC_LATENCY := 0,
    BRANCH_MISPREDICT_PENALTY := 1, dib_set := 8, dib_way := 2, dib_window := 16,
    ITLB_MAX_READ := 2, L1I_MAX_READ := 2 }

/-- An instruction at `ip = 0x1000`. -/
def instr_a : ooo_model_instr :=
  { ip := 0x1000, source_registers := [1], destination_registers := [2] }

/-- An instruction at `ip = 0x1010`: in the cache block and the page of `instr_a`, in another
window of the DIB. -/
def instr_b : ooo_model_instr :=
  { ip := 0x1010, source_registers := [2], destination_registers := [3] }

/-- An idle core whose DIB holds the line of `instr_b` and no other. -/
def core_dib : Core Unit :=
  { core0 with
    DIB := (List.replicate 16 ({} : dib_entry_t)).set 2
      { valid := true, lru := 0, address := 0x1010 } }

/-- The core `core_dib` after `init_instruction` has taken `instr_a` and `instr_b` from the
trace. -/
def core_fed : Core Unit :=
  ((core_dib.init_instruction cfg_stage (const_hooks 0 0 0) true instr_a).bind
    (fun s => s.init_instruction cfg_stage (const_hooks 0 0 0) true instr_b)).getD core_dib

/-- The next cycle, at the end of `operate`: `fetch_instruction`, `translate_fetch` and
`check_dib` have run, the ITLB and the L1I accepting what they are sent (`add_rq`
answers -1). -/
def core_checked : Core Unit :=
  check_dib cfg_stage
    (translate_fetch (fetch_instruction { core_fed with current_cycle := 1 } (-1)) (-1))

/-- The cycle after: the ITLB has answered the request of `translate_fetch` with the frame
`0x55`, and `handle_memory_return` and `promote_to_decode` have run. -/
def core_translated : Core Unit :=
  promote_to_decode cfg_stage true
    (handle_memory_return_instr cfg_stage
      { core_checked with
        current_cycle := 2
        ITLB_PROCESSED := core_checked.ITLB_RQ.map (fun p => { p with data := 0x55 }) })

/-- The same cycle, after `fetch_instruction`. -/
def core_fetching : Core Unit :=
  fetch_instruction core_translated (-1)

/-! ## A store and an instruction that waits for it, through the pipeline -/

/-- A store at `ip = 0x1010`: it writes register 2 and the address `0x2000`. -/
def instr_st : ooo_model_instr :=
  { ip := 0x1010, source_registers := [1], destination_registers := [2],
    destination_memory := [{ address := 0x2000 }] }

/-- An instruction at `ip = 0x1014`, in the DIB window of `instr_st`: it reads register 2. -/
def instr_use : ooo_model_instr :=
  { ip := 0x1014, source_registers := [2], destination_registers := [3] }

/-- An idle core whose DIB holds the line of `instr_st` and whose store queue has two
slots. -/
def core_sq : Core Unit := { core_dib with SQ := List.replicate 2 {} }

/-- The core `core_sq` after `init_instruction` has taken `instr_st` from the trace. -/
def core_st1 : Core Unit :=
  (core_sq.init_instruction cfg_stage (const_hooks 0 0 0) true instr_st).getD core_sq

/-- The core after `init_instruction` has taken `instr_use` as well. -/
def core_st2 : Core Unit :=
  (core_st1.init_instruction cfg_stage (const_hooks 0 0 0) true instr_use).getD core_st1

/-- The core after `check_dib`: both instructions hit. -/
def core_st3 : Core Unit := check_dib cfg_stage core_st2

/-- The core after `promote_to_decode`. -/
def core_st4 : Core Unit := promote_to_decode cfg_stage true core_st3

/-- The core after `decode_instruction`. -/
def core_st5 : Core Unit :=
  (decode_instruction cfg_stage true core_st4).toOption.getD core_st4

/-- The core after `dispatch_instruction`: the dispatch latency has passed. -/
def core_st6 : Core Unit := dispatch_instruction cfg_stage core_st5

/-- The core after `dispatch_instruction` once more: both instructions are in the ROB. -/
def core_st7 : Core Unit := dispatch_instruction cfg_stage core_st6

/-- The core after `schedule_instruction`: `instr_use` waits for `instr_st`. -/
def core_st8 : Core Unit :=
  (schedule_instruction cfg_stage true core_st7).toOption.getD core_st7

/-- The core after `schedule_memory_instruction`: the store is in the store queue. -/
def core_st9 : Core Unit :=
  ((schedule_memory_instruction cfg_stage core_st8).toOption.map Prod.fst).getD core_st8

/-- The core after the memory side has executed the store: no memory operation is left. -/
def core_st10 : Core Unit :=
  { core_st9 with ROB := core_st9.ROB.map (fun e => { e with num_mem_ops := 0 }) }

/-- The core after `complete_inflight_instruction`: the store is completed and `instr_use`
is ready to execute. -/
def core_st11 : Core Unit :=
  (complete_inflight_instruction cfg_stage core_st10).toOption.getD core_st10

/-! ## The instruction buffer, the memory side and whole cycles: properties and scenarios -/

/-! ## Residence in the DIB -/

/-- The position in the DIB of the first way of the set of `ip`: `dib_set_begin` of lines
225 and 402. -/
def dib_set_begin (cfg : StageConfig) (ip : Nat) : Nat :=
  ((ip >>> lg2 cfg.dib_window) % cfg.dib_set) * cfg.dib_way

/-- What makes a way of the DIB hold a line: its valid bit and its address. -/
def dib_key (e : dib_entry_t) : Bool × Nat := (e.valid, e.address)

/-- The entry at the position `p` of the DIB is a way of the set of `ip` that holds the line
of `ip`. -/
def dib_resident_at (cfg : StageConfig) (dib : List dib_entry_t) (ip p : Nat) : Prop :=
  dib_set_begin cfg ip ≤ p ∧ p < dib_set_begin cfg ip + cfg.dib_way
    ∧ ∃ e, dib[p]? = some e ∧ dib_match ip (lg2 cfg.dib_window) e = true

/-- What can happen to a core between two looks at the way at the position `p` of the DIB
when that way is not evicted: calls of `do_check_dib`, calls of `do_dib_update` that leave
the valid bit and the address of the way at `p` as they are, and steps that do not write
the DIB. -/
inductive Core.dib_steps {β : Type} (cfg : StageConfig) (p : Nat) : Core β → Core β → Prop
  | refl (s : Core β) : Core.dib_steps cfg p s s
  | check (s t : Core β) (i : Nat) :
    Core.dib_steps cfg p s t → Core.dib_steps cfg p s (do_check_dib cfg t i)
  | update (s t : Core β) (ip : Nat) (dib : List dib_entry_t) :
    Core.dib_steps cfg p s t → do_dib_update cfg t.DIB ip = some dib →
    (dib.map dib_key)[p]? = (t.DIB.map dib_key)[p]? →
    Core.dib_steps cfg p s { t with DIB := dib }
  | other (s t u : Core β) :
    Core.dib_steps cfg p s t → u.DIB = t.DIB → Core.dib_steps cfg p s u

/-! ## Concrete states of the front end -/

/-- The instruction `instr_a` with the id 0, through translation, fetch and decode. -/
def instr_done : ooo_model_instr :=
  { instr_a with instr_id := 0, translated := COMPLETED, fetched := COMPLETED,
                 decoded := COMPLETED }

/-- The instruction `instr_b` with the id 1. -/
def instr_wait : ooo_model_instr := { instr_b with instr_id := 1 }

/-- A core whose DIB holds the line of `instr_b` and whose `IFETCH_BUFFER` holds an
instruction that is through translation, fetch and decode, two instructions of the page
`0x1` and one of the page `0x2`. -/
def core_tf : Core Unit :=
  { core_dib with
    instr_unique_id := 4
    IFETCH_BUFFER :=
      [instr_done, instr_wait,
       { ip := 0x1ff8, instr_id := 2 },
       { ip := 0x2000, instr_id := 3 }] }

/-- The DIB of `core_dib` after `do_dib_update` for `ip = 0x1000`: the first way of the set 0
holds the line. -/
def dib_a : List dib_entry_t := (do_dib_update cfg_stage core_dib.DIB 0x1000).getD []

/-- The DIB `dib_a` after `do_dib_update` for `ip = 0x1080`, another window of the set 0: the
second way of the set takes the line. -/
def dib_b : List dib_entry_t := (do_dib_update cfg_stage dib_a 0x1080).getD []

/-- A core with the DIB `dib_a` whose `IFETCH_BUFFER` holds an instruction of the window of
`0x1000`. -/
def core_rt : Core Unit :=
  { core0 with
    instr_unique_id := 8
    IFETCH_BUFFER := [{ ip := 0x1004, instr_id := 7 }]
    DIB := dib_a }

/-! ## Concrete states of the memory side -/

/-- An executed store to `0xABCD00` in the store queue. -/
def sq_fw : LSQ_ENTRY :=
  { instr_id := 0, virtual_address := 0xABCD00, physical_address := 0x55D00, ip := 0x1010,
    rob_index := 0, translated := COMPLETED, fetched := COMPLETED }

/-- A load from `0xABCD00` that waits for memory scheduling. -/
def instr_ld : ooo_model_instr :=
  { instr_id := 1, ip := 0x1014, is_memory := 1, scheduled := INFLIGHT, num_mem_ops := 1,
    source_memory := [{ address := 0xABCD00 }] }

/-- A core at cycle 9 whose store queue holds an executed store to `0xABCD00`, and whose ROB
holds that store and a load from `0xABCD00` that waits for memory scheduling. -/
def core_fw : Core Unit :=
  { core0 with
    current_cycle := 9
    instr_unique_id := 2
    ROB :=
      [{ instr_id := 0, ip := 0x1010, is_memory := 1, scheduled := COMPLETED,
         executed := INFLIGHT,
         destination_memory := [{ address := 0xABCD00, added := true, q_it := some 0 }] },
       instr_ld]
    SQ := [sq_fw, {}]
    LQ := [{}, {}] }

/-- The first destination operand of `instr_st2`, in the slot 0 of the store queue. -/
def dmem_a : lsq_info := { address := 0x3000, added := true, q_it := some 0 }

/-- The second destination operand of `instr_st2`, in the slot 1 of the store queue. -/
def dmem_b : lsq_info := { address := 0x4000, added := true, q_it := some 1 }

/-- A completed instruction that stores to `0x3000` and to `0x4000`. -/
def instr_st2 : ooo_model_instr :=
  { instr_id := 0, ip := 0x1010, is_memory := 1, scheduled := COMPLETED, executed := COMPLETED,
    destination_memory := [dmem_a, dmem_b] }

/-- A core at cycle 20 whose ROB holds `instr_st2`, with its two stores in the store queue,
and the load `instr_ld`, which is not completed. -/
def core_wb : Core Unit :=
  { core0 with
    current_cycle := 20
    instr_unique_id := 2
    ROB := [instr_st2, instr_ld]
    SQ := [{ instr_id := 0, virtual_address := 0x3000, physical_address := 0x55000,
             ip := 0x1010, rob_index := 0, translated := COMPLETED, fetched := COMPLETED },
           { instr_id := 0, virtual_address := 0x4000, physical_address := 0x56000,
             ip := 0x1010, rob_index := 0, translated := COMPLETED, fetched := COMPLETED }]
    LQ := [{}, {}] }

/-- The answer of the DTLB for the load in the slot 0 of the load queue: the page `0x55`. -/
def packet_tlb : PACKET :=
  { address := 0xABCD04, v_address := 0xABCD04, data := 0x55, instr_id := 1, ip := 0x1014,
    type := LOAD, lq_index_depend_on_me := [0] }

/-- The load of `0xABCD04` in the load queue, with its translation in flight. -/
def lq_tlb : LSQ_ENTRY :=
  { instr_id := 1, virtual_address := 0xABCD04, ip := 0x1014, rob_index := 1,
    translated := INFLIGHT }

/-- A core at cycle 12 with that load in the slot 0 of its load queue and the answer of the
DTLB in the `PROCESSED` queue of the DTLB bus. -/
def core_tlb : Core Unit :=
  { core0 with
    current_cycle := 12
    instr_unique_id := 2
    LQ := [lq_tlb, {}]
    DTLB_PROCESSED := [packet_tlb] }

/-! ## Cycles of the core -/

/-- The states of a core that the simulation loop of `main.cc` (lines 472-482) reaches from an
idle core: whole calls of `O3_CPU::operate`, each followed by the tick of the clock
(modelled from the spec: `_operate` of `operable.h` advances `current_cycle`), calls of
`init_instruction` on fresh trace instructions while the read budget lasts, and the answers of
the DTLB, the L1D, the ITLB and the L1I to requests that they have accepted, each request
being answered once. -/
inductive Core.operates {β : Type} (cfg : StageConfig) (hooks : BranchHooks β) :
    Core β → Prop
  | idle (s : Core β) :
    s.IFETCH_BUFFER = [] → s.DECODE_BUFFER = [] → s.DISPATCH_BUFFER = [] → s.ROB = [] →
    s.ready_to_execute = [] → s.STA = [] → s.RTS0 = [] → s.RTS1 = [] → s.RTL0 = [] →
    s.RTL1 = [] → s.DTLB_RQ = [] → s.L1D_RQ = [] → s.ITLB_RQ = [] → s.L1I_RQ = [] →
    s.DTLB_PROCESSED = [] → s.L1D_PROCESSED = [] → s.ITLB_PROCESSED = [] →
    s.L1I_PROCESSED = [] → (∀ e, e ∈ s.SQ → e = {}) → (∀ e, e ∈ s.LQ → e = {}) →
    Core.operates cfg hooks s
  | cycle (warmup_complete : Bool) (env : CycleEnv) (s t : Core β) (written : List Nat) :
    Core.operates cfg hooks s → Core.operate cfg warmup_complete env s = .ok (t, written) →
    Core.operates cfg hooks { t with current_cycle := t.current_cycle + 1 }
  | init_instruction (warmup_complete : Bool) (s t : Core β) (arch_instr : ooo_model_instr) :
    Core.operates cfg hooks s → arch_instr.fresh → arch_instr.memory_instrs_depend_on_me = [] →
    (∀ m, m ∈ arch_instr.source_memory ++ arch_instr.destination_memory →
      m.added = false ∧ m.will_forward = false ∧ m.q_it = none) →
    0 < s.instrs_to_read_this_cycle → s.instr_unique_id < UINT64_MAX →
    s.init_instruction cfg hooks warmup_complete arch_instr = some t →
    Core.operates cfg hooks t
  | dtlb_answer (s : Core β) (before after : List PACKET) (packet : PACKET) (data : Nat) :
    Core.operates cfg hooks s → s.DTLB_RQ = before ++ packet :: after →
    Core.operates cfg hooks
      { s with DTLB_RQ := before ++ after,
               DTLB_PROCESSED := s.DTLB_PROCESSED ++ [{ packet with data := data }] }
  | l1d_answer (s : Core β) (before after : List PACKET) (packet : PACKET) (data : Nat) :
    Core.operates cfg hooks s → s.L1D_RQ = before ++ packet :: after →
    Core.operates cfg hooks
      { s with L1D_RQ := before ++ after,
               L1D_PROCESSED := s.L1D_PROCESSED ++ [{ packet with data := data }] }
  | itlb_answer (s : Core β) (before after : List PACKET) (packet : PACKET) (data : Nat) :
    Core.operates cfg hooks s → s.ITLB_RQ = before ++ packet :: after →
    Core.operates cfg hooks
      { s with ITLB_RQ := before ++ after,
               ITLB_PROCESSED := s.ITLB_PROCESSED ++ [{ packet with data := data }] }
  | l1i_answer (s : Core β) (before after : List PACKET) (packet : PACKET) (data : Nat) :
    Core.operates cfg hooks s → s.L1I_RQ = before ++ packet :: after →
    Core.operates cfg hooks
      { s with L1I_RQ := before ++ after,
               L1I_PROCESSED := s.L1I_PROCESSED ++ [{ packet with data := data }] }

/-- The invariant that is claimed for the load and store queues: every valid slot names, by
its `rob_index`, an entry that the ROB holds, and that entry has the `instr_id` of the
slot. -/
def Core.slots_owned {β : Type} (s : Core β) : Prop :=
  ∀ e, e ∈ s.SQ ++ s.LQ → e.virtual_address ≠ 0 →
    ∃ a, s.rob_at e.rob_index = some a ∧ a.instr_id = e.instr_id

/-- The error of a result, if it is one. -/
def abort_of {α : Type} (x : Except Abort α) : Option Abort :=
  match x with
  | .error a => some a
  | .ok _ => none

/-- The core after `n` cycles, each a call of `operate` followed by the tick of the clock;
`none` when a call of `operate` does not return. -/
def Core.run_cycles {β : Type} (cfg : StageConfig) (env : CycleEnv) :
    Nat → Core β → Option (Core β)
  | 0, s => some s
  | n + 1, s =>
    match Core.operate cfg true env s with
    | .ok (t, _) => Core.run_cycles cfg env n { t with current_cycle := t.current_cycle + 1 }
    | .error _ => none

/-- The DTLB answers the oldest request that it has accepted, with the page `data`. -/
def Core.answer_dtlb {β : Type} (s : Core β) (data : Nat) : Core β :=
  match s.DTLB_RQ with
  | [] => s
  | packet :: after =>
    { s with DTLB_RQ := after,
             DTLB_PROCESSED := s.DTLB_PROCESSED ++ [{ packet with data := data }] }

/-- The L1D answers the oldest request that it has accepted. -/
def Core.answer_l1d {β : Type} (s : Core β) (data : Nat) : Core β :=
  match s.L1D_RQ with
  | [] => s
  | packet :: after =>
    { s with L1D_RQ := after,
             L1D_PROCESSED := s.L1D_PROCESSED ++ [{ packet with data := data }] }

/-- The answers of the memory system in the runs below: two stores and two loads a cycle,
every request accepted, and room for two packets in the write queue of the L1D. -/
def env_lsq : CycleEnv :=
  { SQ_WIDTH := 2, LQ_WIDTH := 2, DTLB_MAX_READ := 4, L1D_MAX_READ := 2, wq_room := 2,
    dtlb := [-1, -1, -1, -1], l1d := [-1, -1], itlb_rq := -1, l1i_rq := -1 }

/-- An idle core whose DIB holds the line of `0x1010` and whose load and store queues have two
slots each. -/
def core_q : Core Unit :=
  { core_dib with SQ := List.replicate 2 {}, LQ := List.replicate 2 {} }

/-- The core `core_q` after `init_instruction` has taken `p` and then `c` from the trace. -/
def core_fed2 (p c : ooo_model_instr) : Core Unit :=
  ((core_q.init_instruction cfg_stage (const_hooks 0 0 0) true p).getD core_q).init_instruction
    cfg_stage (const_hooks 0 0 0) true c |>.getD core_q

/-! ## A load with two operands forwarded by the two stores of one instruction -/

/-- An instruction at `ip = 0x1010` that stores to `0x2000` and to `0x3000`. -/
def instr_p : ooo_model_instr :=
  { ip := 0x1010, source_registers := [1], destination_registers := [2],
    destination_memory := [{ address := 0x2000 }, { address := 0x3000 }] }

/-- An instruction at `ip = 0x1014` that loads from `0x2000`, `0x3000`, `0x4000` and
`0x5000`. -/
def instr_c : ooo_model_instr :=
  { ip := 0x1014, source_registers := [4], destination_registers := [3],
    source_memory := [{ address := 0x2000 }, { address := 0x3000 }, { address := 0x4000 },
                      { address := 0x5000 }] }

/-- The core after `init_instruction` has taken `instr_p` and `instr_c` from the trace. -/
def core_r0 : Core Unit := core_fed2 instr_p instr_c

/-- Seven cycles later: both instructions have hit in the DIB and have gone through decode
and dispatch to the ROB (cycle 5); the stores are in the store queue, the loads from `0x2000`
and `0x3000` wait for the stores, and the loads from `0x4000` and `0x5000` are in the load
queue (cycle 6); `operate_lsq` has sent the four addresses to the DTLB (cycle 7). -/
def core_r7 : Core Unit := (Core.run_cycles cfg_stage env_lsq 7 core_r0).getD core_r0

/-- The DTLB has answered the four requests, with the pages `0x52`, `0x53`, `0x54` and
`0x55`. -/
def core_r7_answered : Core Unit :=
  (((core_r7.answer_dtlb 0x52).answer_dtlb 0x53).answer_dtlb 0x54).answer_dtlb 0x55

/-- The cycle 8: `handle_memory_return` has read the four answers and `operate_lsq` has
executed the two stores and sent the two loads to the L1D. -/
def core_r8 : Core Unit :=
  (Core.run_cycles cfg_stage env_lsq 1 core_r7_answered).getD core_r7_answered

/-- The cycle 10: `complete_inflight_instruction` has completed both instructions (cycle 9)
and `retire_rob` has retired them. -/
def core_r10 : Core Unit := (Core.run_cycles cfg_stage env_lsq 2 core_r8).getD core_r8

/-- The L1D has answered the request of the load from `0x4000`. -/
def core_r10_answered : Core Unit := core_r10.answer_l1d 0

/-! ## A load with two operands at the address of one store -/

/-- An instruction at `ip = 0x1010` that stores to `0x2000`. -/
def instr_p1 : ooo_model_instr :=
  { ip := 0x1010, source_registers := [1], destination_registers := [2],
    destination_memory := [{ address := 0x2000 }] }

/-- An instruction at `ip = 0x1014` with two source memory operands at `0x2000`. -/
def instr_c1 : ooo_model_instr :=
  { ip := 0x1014, source_registers := [4], destination_registers := [3],
    source_memory := [{ address := 0x2000 }, { address := 0x2000 }] }

/-- The core after `init_instruction` has taken `instr_p1` and `instr_c1` from the trace. -/
def core_a0 : Core Unit := core_fed2 instr_p1 instr_c1

/-- Seven cycles later: both instructions are in the ROB, the store is in the store queue and
its address has gone to the DTLB, and both operands of the load wait for the store. -/
def core_a7 : Core Unit := (Core.run_cycles cfg_stage env_lsq 7 core_a0).getD core_a0

/-- The DTLB has answered the request of the store, with the page `0x52`. -/
def core_a7_answered : Core Unit := core_a7.answer_dtlb 0x52

/-- The core `core_a7_answered` after `handle_memory_return` of the cycle 8, which comes
before `operate_lsq`: the store is in `RTS1`. -/
def core_a7_returned : Core Unit :=
  (handle_memory_return cfg_stage 4 2 core_a7_answered).toOption.getD core_a7_answered

/-- The cycle 8: `operate_lsq` has executed the store. -/
def core_a8 : Core Unit :=
  (Core.run_cycles cfg_stage env_lsq 1 core_a7_answered).getD core_a7_answered

/-- The cycle 12: the store has retired. -/
def core_a12 : Core Unit := (Core.run_cycles cfg_stage env_lsq 4 core_a8).getD core_a8

/-! ## A load with two operands, each forwarded by one of the two stores of an instruction -/

/-- An instruction at `ip = 0x1014` that loads from `0x2000` and from `0x3000`. -/
def instr_c2 : ooo_model_instr :=
  { ip := 0x1014, source_registers := [4], destination_registers := [3],
    source_memory := [{ address := 0x2000 }, { address := 0x3000 }] }

/-- The core after `init_instruction` has taken `instr_p` and `instr_c2` from the trace. -/
def core_e0 : Core Unit := core_fed2 instr_p instr_c2

/-- Seven cycles later: both instructions are in the ROB, the two stores are in the store
queue and their addresses have gone to the DTLB, and both operands of the load wait for the
stores. -/
def core_e7 : Core Unit := (Core.run_cycles cfg_stage env_lsq 7 core_e0).getD core_e0

/-- The DTLB has answered the two requests, with the pages `0x52` and `0x53`. -/
def core_e7_answered : Core Unit := (core_e7.answer_dtlb 0x52).answer_dtlb 0x53

/-! ## The accounting of register dependences -/

/-- What the entry `p` of the ROB contributes to the count of the producers that the entry at
the iterator `it` waits for: the number of occurrences of `it` in
`registers_instrs_depend_on_me` when `p` is not completed, and nothing when it is. -/
def reg_weight (it : Nat) (p : ooo_model_instr) : Nat :=
  if p.executed = COMPLETED then 0 else p.registers_instrs_depend_on_me.count it

/-- The number of occurrences of the iterator `it` in the lists
`registers_instrs_depend_on_me` of the entries of `rob` that are not completed. -/
def reg_occurrences (rob : List ooo_model_instr) (it : Nat) : Nat :=
  (rob.map (reg_weight it)).sum

/-- The accounting of the register dependences in a ROB with the entries `rob` and the front
at the position `front`: `num_reg_dependent` of every entry is the number of occurrences of
its iterator in the lists `registers_instrs_depend_on_me` of the entries that are not
completed. -/
def reg_accounting (rob : List ooo_model_instr) (front : Nat) : Prop :=
  ∀ i d, rob[i]? = some d → d.num_reg_dependent = reg_occurrences rob (front + i)

/-- The fields of an entry that the accounting reads: whether it is completed, its count of
producers and its dependents. -/
def reg_key (a : ooo_model_instr) : Bool × Nat × List Nat :=
  (decide (a.executed = COMPLETED), a.num_reg_dependent, a.registers_instrs_depend_on_me)


/-! ## Scenarios of the warmup and of a branch that is not taken -/

/-- A conditional branch that is not taken: it reads the instruction pointer and the flags
and writes the instruction pointer; the trace gives it the target `0x3000`. -/
def cond_nt : ooo_model_instr :=
  { ip := 0x1000, source_registers := [26, 25], destination_registers := [26], is_branch := 1,
    branch_taken := 0, branch_target := 0x3000 }

/-- A store that reads the registers 1 and 2, writes the register 3 and the address
`0x2000`. -/
def instr_wst : ooo_model_instr :=
  { ip := 0x1010, source_registers := [1, 2], destination_registers := [3],
    destination_memory := [{ address := 0x2000 }] }

/-! ## Scenarios of the paging-structure caches -/

/-- A packet for the address `0x200000`, whose index in the cache of level 2 is 1. -/
def pkt_r1 : PACKET := { address := 0x200000, v_address := 0x200000 }

/-- A packet for the address `0x400000`, whose index in the cache of level 2 is 2. -/
def pkt_r2 : PACKET := { address := 0x400000, v_address := 0x400000 }

/-- A packet for the address `0x600000`, whose index in the cache of level 2 is 3. -/
def pkt_r3 : PACKET := { address := 0x600000, v_address := 0x600000 }

/-- The valid bit, the tag, the data and the `lru` of the blocks of a cache. -/
def PagingStructureCache.view (c : PagingStructureCache) : List (Nat × Nat × Nat × Nat) :=
  c.block.map (fun x => (x.valid, x.tag, x.data, x.lru))

/-- A cache of level 2 with one set of two ways, as constructed, after three fills for the
address `0x200000`, with the bases `0xA`, `0xB` and `0xC`. -/
def pscl_refilled : PagingStructureCache :=
  (((PagingStructureCache.fresh 2 1 2).fill_cache 0xA pkt_r1).fill_cache 0xB pkt_r1).fill_cache
    0xC pkt_r1

/-- A cache of level 2 with two sets of four ways, as constructed, after a fill for the
address `0x200000`. -/
def pscl_filled_once : PagingStructureCache :=
  (PagingStructureCache.fresh 2 2 4).fill_cache 0xA pkt_r1

/-- The cache `pscl_filled_once` after a fill for the address `0x400000`, which has another
index and the same set. -/
def pscl_filled_twice : PagingStructureCache := pscl_filled_once.fill_cache 0xB pkt_r2

/-- The cache `pscl_filled_twice` after a fill for the address `0x600000`. -/
def pscl_filled_thrice : PagingStructureCache := pscl_filled_twice.fill_cache 0xC pkt_r3

/-- A request of an upper-level producer for the address `0x200000`. -/
def req_r1 : PACKET :=
  { address := 0x200000, v_address := 0x200000, to_return := [ReturnSink.producer 0] }

/-- A request for the address `0x400000`, in the next 2 MB region. -/
def req_r2 : PACKET :=
  { address := 0x400000, v_address := 0x400000, to_return := [ReturnSink.producer 0] }

/-- A request for the address `0x201000`, the page that follows the page of `req_r1` in its
2 MB region. -/
def req_r1b : PACKET :=
  { address := 0x201000, v_address := 0x201000, to_return := [ReturnSink.producer 0] }

/-- The request `req` comes in through `add_rq` and `handle_read` sends the first request of
its walk to the lower level. -/
def PageTableWalker.take_request (s : PageTableWalker) (req : PACKET) :
    Option PageTableWalker :=
  ((s.add_rq req).map Prod.snd).bind PageTableWalker.handle_read

/-- The walker as constructed (caches of 2 sets of 4 ways) after the walk of `req_r1`, which
the lower level answers once and a page fault completes. -/
def ptw_after_r1 : Option PageTableWalker :=
  ((PageTableWalker.init 0x100 0xf000000f00000000 2 4).take_request req_r1).bind
    (PageTableWalker.round vm0 true)

/-- The walker after the walk of `req_r2` as well. -/
def ptw_after_r2 : Option PageTableWalker :=
  (ptw_after_r1.bind (fun s => s.take_request req_r2)).bind (PageTableWalker.round vm0 true)

/-- The walker after `handle_read` has started the walk of `req_r1b`. -/
def ptw_reading_r1b : Option PageTableWalker :=
  ptw_after_r2.bind (fun s => s.take_request req_r1b)

/-! ## The page table grows; the caches agree with it -/

/-- From `s` to `t` the page table has grown: the root is the same, no page has gone, and in
the pages of `s` every cell that was set (not `UINT64_MAX`) and every child pointer that was
not `NULL` is as it was. -/
def PageTableWalker.table_grows (s t : PageTableWalker) : Prop :=
  s.num_pages ≤ t.num_pages ∧ t.L5 = s.L5
    ∧ ∀ p off, p < s.num_pages →
        ((s.pages p).next_level_base_addr off ≠ UINT64_MAX →
          (t.pages p).next_level_base_addr off = (s.pages p).next_level_base_addr off)
        ∧ (∀ c, (s.pages p).entry off = some c → (t.pages p).entry off = some c)

/-- The cache `c` is the cache of the level `L` of the walker `s` and agrees with its page
table: every valid block holds as data, for every address whose index in the cache is the tag
of the block, the cell `next_level_base_addr` that the walk from `L5` along the offsets of
the address finds at the level `L`, and that cell is set. -/
def PageTableWalker.pscl_holds (s : PageTableWalker) (c : PagingStructureCache) (L : Nat) :
    Prop :=
  c.cache_type = L
    ∧ ∀ i v, (c.at i).valid ≠ 0 → c.get_index v = (c.at i).tag →
        s.cell v L = some (c.at i).data ∧ (c.at i).data ≠ UINT64_MAX

/-- The four caches of the walker agree with its page table. -/
def PageTableWalker.pscl_coherent (s : PageTableWalker) : Prop :=
  s.pscl_holds s.PSCL5 5 ∧ s.pscl_holds s.PSCL4 4 ∧ s.pscl_holds s.PSCL3 3
    ∧ s.pscl_holds s.PSCL2 2

/-- The states that the walker reaches from its construction through its own operations
(`add_rq`, `handle_read`, `handle_fill`, `return_data`, each with any packet and whenever it
returns), the advance of the clock and the lower level taking a request from its read
queue. -/
inductive PageTableWalker.operates (vm : VirtualMemory) (warmup_complete : Bool) :
    PageTableWalker → Prop
  | init (cr3 cursor num_set num_way : Nat) :
    PageTableWalker.operates vm warmup_complete
      (PageTableWalker.init cr3 cursor num_set num_way)
  | add_rq (s t : PageTableWalker) (packet : PACKET) (code : Int) :
    PageTableWalker.operates vm warmup_complete s →
    s.add_rq packet = some (code, t) → PageTableWalker.operates vm warmup_complete t
  | handle_read (s t : PageTableWalker) :
    PageTableWalker.operates vm warmup_complete s → s.handle_read = some t →
    PageTableWalker.operates vm warmup_complete t
  | handle_fill (s t : PageTableWalker) :
    PageTableWalker.operates vm warmup_complete s →
    s.handle_fill vm warmup_complete = some t → PageTableWalker.operates vm warmup_complete t
  | return_data (s t : PageTableWalker) (packet : PACKET) :
    PageTableWalker.operates vm warmup_complete s → s.return_data packet = some t →
    PageTableWalker.operates vm warmup_complete t
  | clock (s : PageTableWalker) :
    PageTableWalker.operates vm warmup_complete s →
    PageTableWalker.operates vm warmup_complete
      { s with current_cycle := s.current_cycle + 1 }
  | lower_take (s : PageTableWalker) :
    PageTableWalker.operates vm warmup_complete s →
    PageTableWalker.operates vm warmup_complete { s with lower_RQ := s.lower_RQ.tail }

/-! ## `STA` and the destination memory operands -/

/-- The number of destination memory operands of an instruction with `added == false`. -/
def ooo_model_instr.pending (a : ooo_model_instr) : Nat :=
  a.destination_memory.countP (fun d => !d.added)

/-- The instructions in flight, oldest first: those of the ROB, then those of
`DISPATCH_BUFFER`, of `DECODE_BUFFER` and of `IFETCH_BUFFER`. -/
def Core.in_flight {β : Type} (s : Core β) : List ooo_model_instr :=
  s.ROB ++ s.queue

/-- The ids that a list of instructions owes to `STA`: the id of each instruction, once for
each of its destination memory operands that is not `added`, in the order of the list. -/
def sta_owed : List ooo_model_instr → List Nat
  | [] => []
  | a :: l => List.replicate a.pending a.instr_id ++ sta_owed l

/-- The fields of an instruction that the accounting of `STA` reads: its id, the `added`
flags of its destination memory operands, `is_memory` and `scheduled`. -/
def ooo_model_instr.sta_key (a : ooo_model_instr) : Nat × List Bool × Nat × Nat :=
  (a.instr_id, a.destination_memory.map (fun d => d.added), a.is_memory, a.scheduled)

/-- The instruction `b` is `a` as far as the accounting of `STA` goes: same id, same `added`
flags of the destination memory operands, same `is_memory`; and `scheduled` has become
`COMPLETED` only for an instruction that is no memory instruction. -/
def ooo_model_instr.sta_same (a b : ooo_model_instr) : Prop :=
  b.instr_id = a.instr_id
    ∧ b.destination_memory.map (fun d => d.added) = a.destination_memory.map (fun d => d.added)
    ∧ b.is_memory = a.is_memory
    ∧ (b.scheduled = COMPLETED → a.scheduled = COMPLETED ∨ a.is_memory = 0)

/-- The instruction `b` is `a` up to the fields that the load and store queues write in a
ROB entry when a memory operation is executed or answered: `num_mem_ops`, `event_cycle` and
the source memory operands. -/
def ooo_model_instr.load_side (a b : ooo_model_instr) : Prop :=
  b = { a with num_mem_ops := b.num_mem_ops, event_cycle := b.event_cycle,
               source_memory := b.source_memory }

/-- The accounting of `STA`. The ids of the instructions in flight are strictly increasing;
`STA` holds the id of each instruction in flight once for each destination memory operand of
it that is not `added`, oldest instruction first; an instruction whose `scheduled` is
`COMPLETED` has no such operand; and an instruction that is no memory instruction has no
destination memory operand. -/
structure Core.sta_inv {β : Type} (s : Core β) : Prop where
  ids : (s.in_flight.map (fun a => a.instr_id)).Pairwise (fun a b => a < b)
  sta : s.STA = sta_owed s.in_flight
  done : ∀ a, a ∈ s.in_flight → a.scheduled = COMPLETED → a.pending = 0
  plain : ∀ a, a ∈ s.in_flight → a.is_memory = 0 → a.destination_memory = []

/-- From `s` to `t` the instructions in flight are the same as far as the accounting of
`STA` goes, and `STA` is the same. -/
structure Core.sta_keeps {β : Type} (s t : Core β) : Prop where
  instrs : List.Forall₂ ooo_model_instr.sta_same s.in_flight t.in_flight
  sta : t.STA = s.STA

/-- What the load and store queues do to the core when memory operations are translated,
executed and answered (`operate_lsq`, lines 681-844, and the data side of
`handle_memory_return`, lines 960-1008): they write the two queues, their ready queues, the
requests and the answers of the data caches and, in ROB entries, `num_mem_ops`, `event_cycle`
and the source memory operands. -/
def Core.lsq_exact {β : Type} (s t : Core β) : Prop :=
  t = { s with ROB := t.ROB, SQ := t.SQ, LQ := t.LQ, RTS0 := t.RTS0, RTL0 := t.RTL0,
               RTS1 := t.RTS1, RTL1 := t.RTL1, DTLB_RQ := t.DTLB_RQ, L1D_RQ := t.L1D_RQ,
               DTLB_PROCESSED := t.DTLB_PROCESSED, L1D_PROCESSED := t.L1D_PROCESSED }
    ∧ List.Forall₂ ooo_model_instr.load_side s.ROB t.ROB

/-- What the stages of the front end keep, for the accounting of `STA`: the ROB, `STA` and,
in their order, the keys of the instructions of the front end. -/
structure Core.sta_front {β : Type} (s t : Core β) : Prop where
  rob : t.ROB = s.ROB
  sta : t.STA = s.STA
  queue : t.queue.map ooo_model_instr.sta_key = s.queue.map ooo_model_instr.sta_key

/-! ## A store to two addresses and a store queue of one slot -/

/-- An idle core whose DIB holds the line of `0x1010`, whose store queue has one slot and
whose load queue has two. -/
def core_one_slot : Core Unit :=
  { core_dib with SQ := List.replicate 1 {}, LQ := List.replicate 2 {} }

/-- The core `core_one_slot` after `init_instruction` has taken `instr_p`, which stores to
`0x2000` and to `0x3000`, from the trace. -/
def core_w0 : Core Unit :=
  (core_one_slot.init_instruction cfg_stage (const_hooks 0 0 0) true instr_p).getD core_one_slot

/-- Six cycles later: the instruction is in the ROB, its first store has taken the slot of
the store queue and its second store waits for a slot. -/
def core_w6 : Core Unit := (Core.run_cycles cfg_stage env_lsq 6 core_w0).getD core_w0


/-! # Theorems -/

/-! ## Theorems: `init_instruction` -/

theorem classify_branch_table (f : RegFlags) (a : ooo_model_instr) :
    table_outcome f a (classify_branch f a) := by
  rcases f with ⟨a1, a2, a3, a4, a5, a6⟩
  cases a1 <;> cases a2 <;> cases a3 <;> cases a4 <;> cases a5 <;> cases a6 <;>
    simp [table_outcome, table_lookup, branch_table, classify_branch]

theorem handle_branch_prediction_instr {β : Type} (hooks : BranchHooks β) (w : Bool)
    (s : O3_CPU β) (a : ooo_model_instr) :
    (handle_branch_prediction hooks w s a).2 = a ∨
      (handle_branch_prediction hooks w s a).2 = { a with branch_mispredicted := 1 } := by
  unfold handle_branch_prediction
  split
  · dsimp only
    split
    · split
      · right; rfl
      · left; rfl
    · split <;> (left; rfl)
  · left; rfl

theorem handle_branch_prediction_frame {β : Type} (hooks : BranchHooks β) (w : Bool)
    (s : O3_CPU β) (a : ooo_model_instr) :
    (handle_branch_prediction hooks w s a).1.IFETCH_BUFFER = s.IFETCH_BUFFER
      ∧ (handle_branch_prediction hooks w s a).1.ROB = s.ROB
      ∧ (handle_branch_prediction hooks w s a).1.STA = s.STA
      ∧ (handle_branch_prediction hooks w s a).1.instr_unique_id = s.instr_unique_id
      ∧ (handle_branch_prediction hooks w s a).1.current_cycle = s.current_cycle
      ∧ (handle_branch_prediction hooks w s a).1.total_branch_types = s.total_branch_types := by
  unfold handle_branch_prediction
  split
  · dsimp only
    split
    · split <;> simp
    · split <;> simp
  · simp

theorem clear_target_fields (a : ooo_model_instr) :
    (clear_target a).branch_type = a.branch_type ∧ (clear_target a).is_branch = a.is_branch
      ∧ (clear_target a).branch_taken = a.branch_taken
      ∧ (clear_target a).destination_registers = a.destination_registers
      ∧ (clear_target a).source_registers = a.source_registers
      ∧ (clear_target a).num_reg_ops = a.num_reg_ops
      ∧ (clear_target a).num_mem_ops = a.num_mem_ops := by
  unfold clear_target; split <;> simp

theorem fold_stack_pointer_fields (cfg : CoreConfig) (f : RegFlags) (a : ooo_model_instr) :
    (fold_stack_pointer cfg f a).branch_type = a.branch_type
      ∧ (fold_stack_pointer cfg f a).is_branch = a.is_branch
      ∧ (fold_stack_pointer cfg f a).branch_taken = a.branch_taken
      ∧ (fold_stack_pointer cfg f a).branch_target = a.branch_target
      ∧ (fold_stack_pointer cfg f a).branch_mispredicted = a.branch_mispredicted
      ∧ (fold_stack_pointer cfg f a).source_registers = a.source_registers := by
  unfold fold_stack_pointer; split_ifs <;> simp

theorem count_ops_fields (a : ooo_model_instr) :
    (count_ops a).branch_type = a.branch_type ∧ (count_ops a).is_branch = a.is_branch
      ∧ (count_ops a).branch_taken = a.branch_taken
      ∧ (count_ops a).branch_target = a.branch_target
      ∧ (count_ops a).branch_mispredicted = a.branch_mispredicted
      ∧ (count_ops a).destination_registers = a.destination_registers
      ∧ (count_ops a).source_registers = a.source_registers
      ∧ (count_ops a).num_reg_ops = a.source_registers.length + a.destination_registers.length
      ∧ (count_ops a).num_mem_ops = a.source_memory.length + a.destination_memory.length := by
  unfold count_ops; dsimp only; split_ifs <;> simp

theorem warmup_strip_fields (w : Bool) (a : ooo_model_instr) :
    (warmup_strip w a).branch_type = a.branch_type ∧ (warmup_strip w a).is_branch = a.is_branch
      ∧ (warmup_strip w a).branch_taken = a.branch_taken
      ∧ (warmup_strip w a).branch_mispredicted = a.branch_mispredicted
      ∧ (warmup_strip w a).branch_target = a.branch_target := by
  unfold warmup_strip; split <;> simp

theorem table_outcome_congr (f : RegFlags) (a x y : ooo_model_instr)
    (h1 : y.branch_type = x.branch_type) (h2 : y.is_branch = x.is_branch)
    (h3 : y.branch_taken = x.branch_taken) (h : table_outcome f a x) : table_outcome f a y := by
  unfold table_outcome at *
  rw [h1, h2, h3]; exact h

/-- The three classification fields of the instruction built before line 152 are those that
the `if / else if` chain produced. -/
theorem decoded_instr_class (cfg : CoreConfig) (id : Nat) (a : ooo_model_instr) :
    (decoded_instr cfg id a).branch_type
        = (classify_branch (reg_flags cfg a) (count_ops { a with instr_id := id })).branch_type
      ∧ (decoded_instr cfg id a).is_branch
        = (classify_branch (reg_flags cfg a) (count_ops { a with instr_id := id })).is_branch
      ∧ (decoded_instr cfg id a).branch_taken
        = (classify_branch (reg_flags cfg a) (count_ops { a with instr_id := id })).branch_taken
      := by
  unfold decoded_instr
  dsimp only
  have h1 := fold_stack_pointer_fields cfg (reg_flags cfg a)
    (clear_target (classify_branch (reg_flags cfg a) (count_ops { a with instr_id := id })))
  have h2 := clear_target_fields
    (classify_branch (reg_flags cfg a) (count_ops { a with instr_id := id }))
  refine ⟨?_, ?_, ?_⟩
  · rw [h1.1, h2.1]
  · rw [h1.2.1, h2.2.1]
  · rw [h1.2.2.1, h2.2.2.1]

/-- With the `STA` assertion satisfied, `init_instruction` returns the pushed core. -/
theorem init_instruction_eq {β : Type} (cfg : CoreConfig) (hooks : BranchHooks β)
    (w : Bool) (s : O3_CPU β) (a : ooo_model_instr)
    (hsta : s.STA.length + a.destination_memory.length
      ≤ cfg.ROB_SIZE * cfg.NUM_INSTR_DESTINATIONS_SPARC) :
    init_instruction cfg hooks w s a
      = some (push_instr w (handle_branch_prediction hooks w (tallied_core cfg s a)
          (decoded_instr cfg s.instr_unique_id a))) := by
  unfold init_instruction
  have hlen : (tallied_core cfg s a).STA.length
      ≤ cfg.ROB_SIZE * cfg.NUM_INSTR_DESTINATIONS_SPARC := by
    simpa [tallied_core] using hsta
  simp only [hlen, if_true]

theorem tallied_core_frame {β : Type} (cfg : CoreConfig) (s : O3_CPU β) (a : ooo_model_instr) :
    (tallied_core cfg s a).IFETCH_BUFFER = s.IFETCH_BUFFER
      ∧ (tallied_core cfg s a).ROB = s.ROB
      ∧ (tallied_core cfg s a).current_cycle = s.current_cycle
      ∧ (tallied_core cfg s a).instr_unique_id = s.instr_unique_id
      ∧ (tallied_core cfg s a).fetch_stall = s.fetch_stall
      ∧ (tallied_core cfg s a).branch_mispredictions = s.branch_mispredictions
      ∧ (tallied_core cfg s a).total_rob_occupancy_at_branch_mispredict
          = s.total_rob_occupancy_at_branch_mispredict
      ∧ (tallied_core cfg s a).branch_type_misses = s.branch_type_misses
      ∧ (tallied_core cfg s a).instrs_to_read_this_cycle = dec64 s.instrs_to_read_this_cycle
      ∧ (tallied_core cfg s a).plugin = s.plugin
      ∧ (tallied_core cfg s a).num_branch = s.num_branch := by
  unfold tallied_core
  simp

/-- The buffer after the push: the old entries followed by the new one. -/
theorem push_instr_buffer {β : Type} (cfg : CoreConfig) (hooks : BranchHooks β)
    (w : Bool) (s : O3_CPU β) (a : ooo_model_instr) :
    (push_instr w (handle_branch_prediction hooks w (tallied_core cfg s a)
        (decoded_instr cfg s.instr_unique_id a))).IFETCH_BUFFER
      = s.IFETCH_BUFFER ++ [warmup_strip w
          { (handle_branch_prediction hooks w (tallied_core cfg s a)
              (decoded_instr cfg s.instr_unique_id a)).2 with
            event_cycle := s.current_cycle }] := by
  have hf := handle_branch_prediction_frame hooks w (tallied_core cfg s a)
    (decoded_instr cfg s.instr_unique_id a)
  unfold push_instr
  dsimp only
  rw [hf.1, hf.2.2.2.2.1, (tallied_core_frame cfg s a).1, (tallied_core_frame cfg s a).2.2.1]

/-- Effect of the prediction block on a mispredicted branch. -/
theorem handle_branch_prediction_miss {β : Type} (hooks : BranchHooks β) (w : Bool)
    (s : O3_CPU β) (a : ooo_model_instr) (hb : a.is_branch ≠ 0)
    (hp : (predicted_target hooks s.plugin a).1 ≠ a.branch_target) :
    (handle_branch_prediction hooks w s a).1.branch_mispredictions = s.branch_mispredictions + 1
      ∧ (handle_branch_prediction hooks w s a).1.total_rob_occupancy_at_branch_mispredict
          = s.total_rob_occupancy_at_branch_mispredict + s.ROB.length
      ∧ (handle_branch_prediction hooks w s a).1.branch_type_misses
          = Function.update s.branch_type_misses a.branch_type
              (s.branch_type_misses a.branch_type + 1)
      ∧ (w = true → (handle_branch_prediction hooks w s a).1.fetch_stall = 1
          ∧ (handle_branch_prediction hooks w s a).1.instrs_to_read_this_cycle = 0
          ∧ (handle_branch_prediction hooks w s a).2 = { a with branch_mispredicted := 1 })
      ∧ (w = false → (handle_branch_prediction hooks w s a).1.fetch_stall = s.fetch_stall
          ∧ (handle_branch_prediction hooks w s a).1.instrs_to_read_this_cycle
              = s.instrs_to_read_this_cycle
          ∧ (handle_branch_prediction hooks w s a).2 = a) := by
  unfold handle_branch_prediction
  have hb' : (a.is_branch != 0) = true := by simpa using hb
  have hp' : ((predicted_target hooks s.plugin a).1 != a.branch_target) = true := by
    simpa using hp
  simp only [hb', if_true, hp']
  cases w <;> simp

/-- Effect of the prediction block on a correctly predicted branch. -/
theorem handle_branch_prediction_hit {β : Type} (hooks : BranchHooks β) (w : Bool)
    (s : O3_CPU β) (a : ooo_model_instr) (hb : a.is_branch ≠ 0)
    (hp : (predicted_target hooks s.plugin a).1 = a.branch_target) :
    (handle_branch_prediction hooks w s a).1.branch_mispredictions = s.branch_mispredictions
      ∧ (handle_branch_prediction hooks w s a).1.total_rob_occupancy_at_branch_mispredict
          = s.total_rob_occupancy_at_branch_mispredict
      ∧ (handle_branch_prediction hooks w s a).1.branch_type_misses = s.branch_type_misses
      ∧ (handle_branch_prediction hooks w s a).1.fetch_stall = s.fetch_stall
      ∧ (handle_branch_prediction hooks w s a).2 = a
      ∧ (a.branch_taken = 1 →
          (handle_branch_prediction hooks w s a).1.instrs_to_read_this_cycle = 0)
      ∧ (a.branch_taken ≠ 1 →
          (handle_branch_prediction hooks w s a).1.instrs_to_read_this_cycle
            = s.instrs_to_read_this_cycle) := by
  unfold handle_branch_prediction
  have hb' : (a.is_branch != 0) = true := by simpa using hb
  have hp' : ((predicted_target hooks s.plugin a).1 != a.branch_target) = false := by
    simpa using hp
  simp only [hb', if_true, hp']
  by_cases ht : a.branch_taken = 1
  · simp [ht]
  · simp [ht]

/-- The prediction block leaves a non-branch alone. -/
theorem handle_branch_prediction_none {β : Type} (hooks : BranchHooks β) (w : Bool)
    (s : O3_CPU β) (a : ooo_model_instr) (hb : a.is_branch = 0) :
    handle_branch_prediction hooks w s a = (s, a) := by
  unfold handle_branch_prediction
  simp [hb]

/-- Fields of the pushed core that `push_instr` copies from the prediction block. -/
theorem push_instr_frame {β : Type} (w : Bool) (r : O3_CPU β × ooo_model_instr) :
    (push_instr w r).branch_mispredictions = r.1.branch_mispredictions
      ∧ (push_instr w r).total_rob_occupancy_at_branch_mispredict
          = r.1.total_rob_occupancy_at_branch_mispredict
      ∧ (push_instr w r).branch_type_misses = r.1.branch_type_misses
      ∧ (push_instr w r).fetch_stall = r.1.fetch_stall
      ∧ (push_instr w r).instrs_to_read_this_cycle = r.1.instrs_to_read_this_cycle
      ∧ (push_instr w r).fetch_resume_cycle = r.1.fetch_resume_cycle := by
  unfold push_instr
  simp

/-- C1. `init_instruction` classifies every instruction by the priority table over the
operand flags: the instruction it appends to `IFETCH_BUFFER` carries the branch type of the
first row whose predicate holds, with `is_branch = 1` and `branch_taken` forced to 1 or kept as
the row says; an instruction that does not write the instruction pointer keeps its
`branch_type` (`NOT_BRANCH` as the trace reader built it) and its `is_branch`. -/
theorem init_instruction_classifies {β : Type} (cfg : CoreConfig) (hooks : BranchHooks β)
    (warmup_complete : Bool) (s : O3_CPU β) (arch_instr : ooo_model_instr)
    (hsta : s.STA.length + arch_instr.destination_memory.length
      ≤ cfg.ROB_SIZE * cfg.NUM_INSTR_DESTINATIONS_SPARC) :
    ∃ s' x, init_instruction cfg hooks warmup_complete s arch_instr = some s'
      ∧ s'.IFETCH_BUFFER = s.IFETCH_BUFFER ++ [x]
      ∧ table_outcome (reg_flags cfg arch_instr) arch_instr x
      ∧ (cfg.REG_INSTRUCTION_POINTER ∉ arch_instr.destination_registers →
          x.branch_type = arch_instr.branch_type ∧ x.is_branch = arch_instr.is_branch
          ∧ (arch_instr.branch_type = NOT_BRANCH → x.branch_type = NOT_BRANCH)) := by
  refine ⟨_, _, init_instruction_eq cfg hooks warmup_complete s arch_instr hsta,
    push_instr_buffer cfg hooks warmup_complete s arch_instr, ?_, ?_⟩
  · -- the classification fields survive the later steps
    have hw := warmup_strip_fields warmup_complete
      { (handle_branch_prediction hooks warmup_complete (tallied_core cfg s arch_instr)
          (decoded_instr cfg s.instr_unique_id arch_instr)).2 with
        event_cycle := s.current_cycle }
    have hd := decoded_instr_class cfg s.instr_unique_id arch_instr
    have hc := count_ops_fields { arch_instr with instr_id := s.instr_unique_id }
    have ht := classify_branch_table (reg_flags cfg arch_instr)
      (count_ops { arch_instr with instr_id := s.instr_unique_id })
    have ht2 : table_outcome (reg_flags cfg arch_instr) arch_instr
        (classify_branch (reg_flags cfg arch_instr)
          (count_ops { arch_instr with instr_id := s.instr_unique_id })) := by
      unfold table_outcome at ht ⊢
      rw [hc.1, hc.2.1, hc.2.2.1] at ht
      exact ht
    refine table_outcome_congr _ _ _ _ ?_ ?_ ?_ ht2
    · rw [hw.1, ← hd.1]
      rcases handle_branch_prediction_instr hooks warmup_complete
        (tallied_core cfg s arch_instr) (decoded_instr cfg s.instr_unique_id arch_instr)
        with h | h <;> rw [h]
    · rw [hw.2.1, ← hd.2.1]
      rcases handle_branch_prediction_instr hooks warmup_complete
        (tallied_core cfg s arch_instr) (decoded_instr cfg s.instr_unique_id arch_instr)
        with h | h <;> rw [h]
    · rw [hw.2.2.1, ← hd.2.2]
      rcases handle_branch_prediction_instr hooks warmup_complete
        (tallied_core cfg s arch_instr) (decoded_instr cfg s.instr_unique_id arch_instr)
        with h | h <;> rw [h]
  · intro hip
    have hw := warmup_strip_fields warmup_complete
      { (handle_branch_prediction hooks warmup_complete (tallied_core cfg s arch_instr)
          (decoded_instr cfg s.instr_unique_id arch_instr)).2 with
        event_cycle := s.current_cycle }
    have hd := decoded_instr_class cfg s.instr_unique_id arch_instr
    have hc := count_ops_fields { arch_instr with instr_id := s.instr_unique_id }
    have hwip : (reg_flags cfg arch_instr).writes_ip = false := by
      simp [reg_flags, hip]
    have hcl : classify_branch (reg_flags cfg arch_instr)
        (count_ops { arch_instr with instr_id := s.instr_unique_id })
        = count_ops { arch_instr with instr_id := s.instr_unique_id } := by
      unfold classify_branch
      simp [hwip]
    rw [hcl, hc.1, hc.2.1] at hd
    have h1 : (warmup_strip warmup_complete
        { (handle_branch_prediction hooks warmup_complete (tallied_core cfg s arch_instr)
            (decoded_instr cfg s.instr_unique_id arch_instr)).2 with
          event_cycle := s.current_cycle }).branch_type = arch_instr.branch_type := by
      rw [hw.1, ← hd.1]
      rcases handle_branch_prediction_instr hooks warmup_complete
        (tallied_core cfg s arch_instr) (decoded_instr cfg s.instr_unique_id arch_instr)
        with h | h <;> rw [h]
    refine ⟨h1, ?_, fun hn => by rw [h1, hn]⟩
    rw [hw.2.1, ← hd.2.1]
    rcases handle_branch_prediction_instr hooks warmup_complete
      (tallied_core cfg s arch_instr) (decoded_instr cfg s.instr_unique_id arch_instr)
      with h | h <;> rw [h]

/-- Witness for C1: the conditional branch of the second scenario on an idle core. -/
theorem init_instruction_classifies_witness :
    core0.STA.length + cond0.destination_memory.length
        ≤ cfg0.ROB_SIZE * cfg0.NUM_INSTR_DESTINATIONS_SPARC
      ∧ ∃ s' x, init_instruction cfg0 (const_hooks 0x4000 0 1) true core0 cond0 = some s'
        ∧ s'.IFETCH_BUFFER = core0.IFETCH_BUFFER ++ [x]
        ∧ table_outcome (reg_flags cfg0 cond0) cond0 x
        ∧ (cfg0.REG_INSTRUCTION_POINTER ∉ cond0.destination_registers →
            x.branch_type = cond0.branch_type ∧ x.is_branch = cond0.is_branch
            ∧ (cond0.branch_type = NOT_BRANCH → x.branch_type = NOT_BRANCH)) :=
  ⟨by decide, init_instruction_classifies cfg0 (const_hooks 0x4000 0 1) true core0 cond0
    (by decide)⟩

/-- The target of a taken branch (`is_branch = 1`, `branch_taken = 1`) is not cleared. -/
theorem decoded_instr_target (cfg : CoreConfig) (id : Nat) (a : ooo_model_instr)
    (h1 : (decoded_instr cfg id a).is_branch = 1) (h2 : (decoded_instr cfg id a).branch_taken = 1) :
    (decoded_instr cfg id a).branch_target = a.branch_target := by
  have hd := decoded_instr_class cfg id a
  rw [hd.1] at *
  rw [hd.2.1] at h1
  rw [hd.2.2] at h2
  unfold decoded_instr
  dsimp only
  rw [(fold_stack_pointer_fields cfg _ _).2.2.2.1]
  unfold clear_target
  rw [h1, h2]
  simp only [bne_self_eq_false, Bool.or_self, Bool.false_eq_true, if_false]
  unfold classify_branch
  split_ifs <;> simp [(count_ops_fields _).2.2.2.1]


theorem classify_branch_fields (f : RegFlags) (a : ooo_model_instr) :
    (classify_branch f a).branch_target = a.branch_target
      ∧ (classify_branch f a).branch_mispredicted = a.branch_mispredicted
      ∧ (classify_branch f a).destination_registers = a.destination_registers
      ∧ (classify_branch f a).source_registers = a.source_registers
      ∧ (classify_branch f a).num_reg_ops = a.num_reg_ops
      ∧ (classify_branch f a).num_mem_ops = a.num_mem_ops := by
  unfold classify_branch
  split_ifs <;> simp

theorem clear_target_mispredicted (a : ooo_model_instr) :
    (clear_target a).branch_mispredicted = a.branch_mispredicted := by
  unfold clear_target; split <;> simp

theorem decoded_instr_mispredicted (cfg : CoreConfig) (id : Nat) (a : ooo_model_instr) :
    (decoded_instr cfg id a).branch_mispredicted = a.branch_mispredicted := by
  unfold decoded_instr
  dsimp only
  rw [(fold_stack_pointer_fields cfg _ _).2.2.2.2.1, clear_target_mispredicted,
    (classify_branch_fields _ _).2.1, (count_ops_fields _).2.2.2.2.1]

/-- The branch fields of the appended instruction are those of the instruction built before
the prediction block; `branch_mispredicted` is the one the prediction block returned. -/
theorem pushed_fields {β : Type} (cfg : CoreConfig) (hooks : BranchHooks β) (w : Bool)
    (s : O3_CPU β) (arch : ooo_model_instr) (c : Nat) :
    (warmup_strip w { (handle_branch_prediction hooks w (tallied_core cfg s arch)
        (decoded_instr cfg s.instr_unique_id arch)).2 with event_cycle := c }).is_branch
        = (decoded_instr cfg s.instr_unique_id arch).is_branch
      ∧ (warmup_strip w { (handle_branch_prediction hooks w (tallied_core cfg s arch)
        (decoded_instr cfg s.instr_unique_id arch)).2 with event_cycle := c }).branch_taken
        = (decoded_instr cfg s.instr_unique_id arch).branch_taken
      ∧ (warmup_strip w { (handle_branch_prediction hooks w (tallied_core cfg s arch)
        (decoded_instr cfg s.instr_unique_id arch)).2 with event_cycle := c }).branch_type
        = (decoded_instr cfg s.instr_unique_id arch).branch_type
      ∧ (warmup_strip w { (handle_branch_prediction hooks w (tallied_core cfg s arch)
        (decoded_instr cfg s.instr_unique_id arch)).2 with event_cycle := c }).branch_target
        = (decoded_instr cfg s.instr_unique_id arch).branch_target
      ∧ (warmup_strip w { (handle_branch_prediction hooks w (tallied_core cfg s arch)
        (decoded_instr cfg s.instr_unique_id arch)).2 with
          event_cycle := c }).branch_mispredicted
        = (handle_branch_prediction hooks w (tallied_core cfg s arch)
            (decoded_instr cfg s.instr_unique_id arch)).2.branch_mispredicted := by
  have hw := warmup_strip_fields w
    { (handle_branch_prediction hooks w (tallied_core cfg s arch)
        (decoded_instr cfg s.instr_unique_id arch)).2 with event_cycle := c }
  rw [hw.1, hw.2.1, hw.2.2.1, hw.2.2.2.1, hw.2.2.2.2]
  rcases handle_branch_prediction_instr hooks w (tallied_core cfg s arch)
    (decoded_instr cfg s.instr_unique_id arch) with h | h <;> rw [h] <;> simp

/-- C2. An instruction that writes the instruction pointer and reads no register leaves
`init_instruction` as a taken `BRANCH_DIRECT_JUMP` with its trace target; and for every taken
branch whose predicted target equals its branch target no misprediction is recorded
(`branch_mispredictions`, the occupancy sum, `branch_type_misses`, `fetch_stall` and the
instruction's `branch_mispredicted` are unchanged) and `instrs_to_read_this_cycle` becomes 0. -/
theorem direct_jump_correctly_predicted {β : Type} (cfg : CoreConfig) (hooks : BranchHooks β)
    (warmup_complete : Bool) (s : O3_CPU β) (arch_instr : ooo_model_instr)
    (hsta : s.STA.length + arch_instr.destination_memory.length
      ≤ cfg.ROB_SIZE * cfg.NUM_INSTR_DESTINATIONS_SPARC) :
    ∃ s' x, init_instruction cfg hooks warmup_complete s arch_instr = some s'
      ∧ s'.IFETCH_BUFFER = s.IFETCH_BUFFER ++ [x]
      ∧ (cfg.REG_INSTRUCTION_POINTER ∈ arch_instr.destination_registers →
          arch_instr.source_registers = [] →
          x.is_branch = 1 ∧ x.branch_taken = 1 ∧ x.branch_type = BRANCH_DIRECT_JUMP
            ∧ x.branch_target = arch_instr.branch_target)
      ∧ (x.is_branch ≠ 0 → x.branch_taken = 1 →
          (predicted_target hooks s.plugin (decoded_instr cfg s.instr_unique_id arch_instr)).1
            = x.branch_target →
          s'.branch_mispredictions = s.branch_mispredictions
            ∧ s'.total_rob_occupancy_at_branch_mispredict
                = s.total_rob_occupancy_at_branch_mispredict
            ∧ s'.branch_type_misses = s.branch_type_misses
            ∧ s'.fetch_stall = s.fetch_stall
            ∧ x.branch_mispredicted = arch_instr.branch_mispredicted
            ∧ s'.instrs_to_read_this_cycle = 0) := by
  have hpf := pushed_fields cfg hooks warmup_complete s arch_instr s.current_cycle
  have hd := decoded_instr_class cfg s.instr_unique_id arch_instr
  have hc := count_ops_fields { arch_instr with instr_id := s.instr_unique_id }
  refine ⟨_, _, init_instruction_eq cfg hooks warmup_complete s arch_instr hsta,
    push_instr_buffer cfg hooks warmup_complete s arch_instr, ?_, ?_⟩
  · intro hip hsrc
    have hf : (reg_flags cfg arch_instr).writes_ip = true
        ∧ (reg_flags cfg arch_instr).reads_sp = false
        ∧ (reg_flags cfg arch_instr).reads_flags = false
        ∧ (reg_flags cfg arch_instr).reads_other = false := by
      simp [reg_flags, hip, hsrc]
    have hcl : (classify_branch (reg_flags cfg arch_instr)
        (count_ops { arch_instr with instr_id := s.instr_unique_id })).is_branch = 1
        ∧ (classify_branch (reg_flags cfg arch_instr)
        (count_ops { arch_instr with instr_id := s.instr_unique_id })).branch_taken = 1
        ∧ (classify_branch (reg_flags cfg arch_instr)
        (count_ops { arch_instr with instr_id := s.instr_unique_id })).branch_type
          = BRANCH_DIRECT_JUMP := by
      unfold classify_branch
      simp [hf.1, hf.2.1, hf.2.2.1, hf.2.2.2]
    have h1 : (decoded_instr cfg s.instr_unique_id arch_instr).is_branch = 1 := by
      rw [hd.2.1, hcl.1]
    have h2 : (decoded_instr cfg s.instr_unique_id arch_instr).branch_taken = 1 := by
      rw [hd.2.2, hcl.2.1]
    refine ⟨by rw [hpf.1, h1], by rw [hpf.2.1, h2], by rw [hpf.2.2.1, hd.1, hcl.2.2], ?_⟩
    rw [hpf.2.2.2.1]
    exact decoded_instr_target cfg s.instr_unique_id arch_instr h1 h2
  · intro hb ht hp
    rw [hpf.1] at hb
    rw [hpf.2.1] at ht
    rw [hpf.2.2.2.1] at hp
    have hp' : (predicted_target hooks (tallied_core cfg s arch_instr).plugin
        (decoded_instr cfg s.instr_unique_id arch_instr)).1
        = (decoded_instr cfg s.instr_unique_id arch_instr).branch_target := by
      rw [(tallied_core_frame cfg s arch_instr).2.2.2.2.2.2.2.2.2.1]; exact hp
    have hh := handle_branch_prediction_hit hooks warmup_complete
      (tallied_core cfg s arch_instr) (decoded_instr cfg s.instr_unique_id arch_instr) hb hp'
    have hpu := push_instr_frame warmup_complete
      (handle_branch_prediction hooks warmup_complete (tallied_core cfg s arch_instr)
        (decoded_instr cfg s.instr_unique_id arch_instr))
    have htc := tallied_core_frame cfg s arch_instr
    refine ⟨?_, ?_, ?_, ?_, ?_, ?_⟩
    · rw [hpu.1, hh.1, htc.2.2.2.2.2.1]
    · rw [hpu.2.1, hh.2.1, htc.2.2.2.2.2.2.1]
    · rw [hpu.2.2.1, hh.2.2.1, htc.2.2.2.2.2.2.2.1]
    · rw [hpu.2.2.2.1, hh.2.2.2.1, htc.2.2.2.2.1]
    · rw [hpf.2.2.2.2, hh.2.2.2.2.1]
      exact decoded_instr_mispredicted cfg s.instr_unique_id arch_instr
    · rw [hpu.2.2.2.2.1]
      exact hh.2.2.2.2.2.1 ht

/-- Witness for C2: the first end-to-end scenario (`ip = 0x1000`, target `0x2000`, the BTB
answers `(0x2000, 1)` and the predictor 1). -/
theorem direct_jump_correctly_predicted_witness :
    ∃ s' x, init_instruction cfg0 (const_hooks 0x2000 1 1) true core0 jmp0 = some s'
      ∧ s'.IFETCH_BUFFER = [x]
      ∧ x.is_branch = 1 ∧ x.branch_taken = 1 ∧ x.branch_type = BRANCH_DIRECT_JUMP
      ∧ s'.branch_mispredictions = 0 ∧ s'.fetch_stall = 0 ∧ x.branch_mispredicted = 0
      ∧ s'.instrs_to_read_this_cycle = 0 := by
  obtain ⟨s', x, h1, h2, h3, h4⟩ :=
    direct_jump_correctly_predicted cfg0 (const_hooks 0x2000 1 1) true core0 jmp0 (by decide)
  have h3' := h3 (by decide) rfl
  have h4' := h4 (by rw [h3'.1]; decide) h3'.2.1 (by rw [h3'.2.2.2]; rfl)
  exact ⟨s', x, h1, h2, h3'.1, h3'.2.1, h3'.2.2.1, h4'.1, h4'.2.2.2.1, h4'.2.2.2.2.1,
    h4'.2.2.2.2.2⟩

/-- C3. For every branch whose predicted target (zeroed when predicted not taken and not
always taken) differs from its branch target, `init_instruction` increments
`branch_mispredictions` by exactly 1, adds the ROB occupancy to
`total_rob_occupancy_at_branch_mispredict` and increments `branch_type_misses[branch_type]`;
when warmup is complete it also sets `fetch_stall = 1`, `instrs_to_read_this_cycle = 0` and
`branch_mispredicted = 1` on the appended instruction, and when warmup is not complete it
leaves `fetch_stall` and `branch_mispredicted` as they were and the read budget at its
decremented value. -/
theorem misprediction_recorded {β : Type} (cfg : CoreConfig) (hooks : BranchHooks β)
    (warmup_complete : Bool) (s : O3_CPU β) (arch_instr : ooo_model_instr)
    (hsta : s.STA.length + arch_instr.destination_memory.length
      ≤ cfg.ROB_SIZE * cfg.NUM_INSTR_DESTINATIONS_SPARC) :
    ∃ s' x, init_instruction cfg hooks warmup_complete s arch_instr = some s'
      ∧ s'.IFETCH_BUFFER = s.IFETCH_BUFFER ++ [x]
      ∧ (x.is_branch ≠ 0 →
          (predicted_target hooks s.plugin (decoded_instr cfg s.instr_unique_id arch_instr)).1
            ≠ x.branch_target →
          s'.branch_mispredictions = s.branch_mispredictions + 1
            ∧ s'.total_rob_occupancy_at_branch_mispredict
                = s.total_rob_occupancy_at_branch_mispredict + s.ROB.length
            ∧ s'.branch_type_misses = Function.update s.branch_type_misses x.branch_type
                (s.branch_type_misses x.branch_type + 1)
            ∧ (warmup_complete = true →
                s'.fetch_stall = 1 ∧ s'.instrs_to_read_this_cycle = 0
                  ∧ x.branch_mispredicted = 1)
            ∧ (warmup_complete = false →
                s'.fetch_stall = s.fetch_stall
                  ∧ s'.instrs_to_read_this_cycle = dec64 s.instrs_to_read_this_cycle
                  ∧ x.branch_mispredicted = arch_instr.branch_mispredicted)) := by
  have hpf := pushed_fields cfg hooks warmup_complete s arch_instr s.current_cycle
  refine ⟨_, _, init_instruction_eq cfg hooks warmup_complete s arch_instr hsta,
    push_instr_buffer cfg hooks warmup_complete s arch_instr, ?_⟩
  intro hb hp
  rw [hpf.1] at hb
  rw [hpf.2.2.2.1] at hp
  have htc := tallied_core_frame cfg s arch_instr
  have hp' : (predicted_target hooks (tallied_core cfg s arch_instr).plugin
      (decoded_instr cfg s.instr_unique_id arch_instr)).1
      ≠ (decoded_instr cfg s.instr_unique_id arch_instr).branch_target := by
    rw [htc.2.2.2.2.2.2.2.2.2.1]; exact hp
  have hm := handle_branch_prediction_miss hooks warmup_complete
    (tallied_core cfg s arch_instr) (decoded_instr cfg s.instr_unique_id arch_instr) hb hp'
  have hpu := push_instr_frame warmup_complete
    (handle_branch_prediction hooks warmup_complete (tallied_core cfg s arch_instr)
      (decoded_instr cfg s.instr_unique_id arch_instr))
  refine ⟨?_, ?_, ?_, ?_, ?_⟩
  · rw [hpu.1, hm.1, htc.2.2.2.2.2.1]
  · rw [hpu.2.1, hm.2.1, htc.2.2.2.2.2.2.1, htc.2.1]
  · rw [hpu.2.2.1, hm.2.2.1, htc.2.2.2.2.2.2.2.1, hpf.2.2.1]
  · intro hw
    have h := hm.2.2.2.1 hw
    refine ⟨by rw [hpu.2.2.2.1, h.1], by rw [hpu.2.2.2.2.1, h.2.1], ?_⟩
    rw [hpf.2.2.2.2, h.2.2]
  · intro hw
    have h := hm.2.2.2.2 hw
    refine ⟨by rw [hpu.2.2.2.1, h.1, htc.2.2.2.2.1],
      by rw [hpu.2.2.2.2.1, h.2.1, htc.2.2.2.2.2.2.2.2.1], ?_⟩
    rw [hpf.2.2.2.2, h.2.2]
    exact decoded_instr_mispredicted cfg s.instr_unique_id arch_instr

/-- Witness for C3: the second end-to-end scenario (conditional branch to `0x3000`, the BTB
answers `(0x4000, 0)` and the predictor 1), after warmup. -/
theorem misprediction_recorded_witness :
    ∃ s' x, init_instruction cfg0 (const_hooks 0x4000 0 1) true core0 cond0 = some s'
      ∧ s'.IFETCH_BUFFER = [x]
      ∧ s'.branch_mispredictions = 1 ∧ s'.fetch_stall = 1
      ∧ s'.instrs_to_read_this_cycle = 0 ∧ x.branch_mispredicted = 1 := by
  obtain ⟨s', x, h1, h2, h3⟩ :=
    misprediction_recorded cfg0 (const_hooks 0x4000 0 1) true core0 cond0 (by decide)
  have hc : (init_instruction cfg0 (const_hooks 0x4000 0 1) true core0 cond0).map
      (fun t => t.IFETCH_BUFFER.map (fun y => (y.is_branch, y.branch_target)))
      = some [(1, 0x3000)] := by decide
  rw [h1] at hc
  simp only [Option.map_some', h2, core0, List.nil_append, List.map_cons, List.map_nil,
    Option.some.injEq, List.cons.injEq, Prod.mk.injEq, and_true] at hc
  have h2' : s'.IFETCH_BUFFER = [x] := by rw [h2]; rfl
  have h3' := h3 (by rw [hc.1]; decide) (by rw [hc.2]; decide)
  have h4 := h3'.2.2.2.1 rfl
  exact ⟨s', x, h1, h2', h3'.1, h4.1, h4.2.1, h4.2.2⟩

/-- After warmup the register operands of the appended instruction are those of the
instruction built before the prediction block. -/
theorem pushed_regs {β : Type} (cfg : CoreConfig) (hooks : BranchHooks β)
    (s : O3_CPU β) (arch : ooo_model_instr) (c : Nat) :
    (warmup_strip true { (handle_branch_prediction hooks true (tallied_core cfg s arch)
        (decoded_instr cfg s.instr_unique_id arch)).2 with
          event_cycle := c }).destination_registers
        = (decoded_instr cfg s.instr_unique_id arch).destination_registers
      ∧ (warmup_strip true { (handle_branch_prediction hooks true (tallied_core cfg s arch)
        (decoded_instr cfg s.instr_unique_id arch)).2 with
          event_cycle := c }).source_registers
        = (decoded_instr cfg s.instr_unique_id arch).source_registers
      ∧ (warmup_strip true { (handle_branch_prediction hooks true (tallied_core cfg s arch)
        (decoded_instr cfg s.instr_unique_id arch)).2 with event_cycle := c }).num_reg_ops
        = (decoded_instr cfg s.instr_unique_id arch).num_reg_ops := by
  unfold warmup_strip
  simp only [Bool.not_true, Bool.false_eq_true, if_false]
  rcases handle_branch_prediction_instr hooks true (tallied_core cfg s arch)
    (decoded_instr cfg s.instr_unique_id arch) with h | h <;> rw [h] <;> simp

/-- The instruction on which the folding test of line 141 is made: its operand fields in
terms of the trace entry. -/
theorem pre_fold_fields (cfg : CoreConfig) (id : Nat) (a : ooo_model_instr) :
    (clear_target (classify_branch (reg_flags cfg a)
        (count_ops { a with instr_id := id }))).destination_registers = a.destination_registers
      ∧ (clear_target (classify_branch (reg_flags cfg a)
        (count_ops { a with instr_id := id }))).source_registers = a.source_registers
      ∧ (clear_target (classify_branch (reg_flags cfg a)
        (count_ops { a with instr_id := id }))).num_reg_ops
          = a.source_registers.length + a.destination_registers.length
      ∧ (clear_target (classify_branch (reg_flags cfg a)
        (count_ops { a with instr_id := id }))).num_mem_ops
          = a.source_memory.length + a.destination_memory.length
      ∧ (clear_target (classify_branch (reg_flags cfg a)
        (count_ops { a with instr_id := id }))).is_branch
          = (decoded_instr cfg id a).is_branch := by
  have h1 := clear_target_fields (classify_branch (reg_flags cfg a)
    (count_ops { a with instr_id := id }))
  have h2 := classify_branch_fields (reg_flags cfg a) (count_ops { a with instr_id := id })
  have h3 := count_ops_fields { a with instr_id := id }
  have hd := decoded_instr_class cfg id a
  refine ⟨?_, ?_, ?_, ?_, ?_⟩
  · rw [h1.2.2.2.1, h2.2.2.1, h3.2.2.2.2.2.1]
  · rw [h1.2.2.2.2.1, h2.2.2.2.1, h3.2.2.2.2.2.2.1]
  · rw [h1.2.2.2.2.2.1, h2.2.2.2.2.1, h3.2.2.2.2.2.2.2.1]
  · rw [h1.2.2.2.2.2.2, h2.2.2.2.2.2, h3.2.2.2.2.2.2.2.2]
  · rw [h1.2.1, hd.2.1]

/-- `reads_other` is false exactly when every source register is the stack pointer, the
flags or the instruction pointer. -/
theorem reads_other_false_iff (cfg : CoreConfig) (a : ooo_model_instr) :
    (reg_flags cfg a).reads_other = false ↔
      ∀ r ∈ a.source_registers, r = cfg.REG_STACK_POINTER ∨ r = cfg.REG_FLAGS
        ∨ r = cfg.REG_INSTRUCTION_POINTER := by
  unfold reg_flags
  simp only [List.any_eq_false, Bool.and_eq_true, bne_iff_ne, ne_eq, not_and, not_not]
  constructor
  · intro h r hr
    by_cases h1 : r = cfg.REG_STACK_POINTER
    · exact Or.inl h1
    · by_cases h2 : r = cfg.REG_FLAGS
      · exact Or.inr (Or.inl h2)
      · exact Or.inr (Or.inr (h r hr ⟨h1, h2⟩))
  · intro h r hr hne
    rcases h r hr with h1 | h1 | h1
    · exact absurd h1 hne.1
    · exact absurd h1 hne.2
    · exact h1

/-- The claim C4 as stated fails when the destination vector lists the stack pointer twice:
the instruction writes the stack pointer and has no source register at all, yet the
instruction appended to `IFETCH_BUFFER` still has the stack pointer among its destinations. -/
theorem sp_folding_duplicate_counterexample :
    cfg0.REG_STACK_POINTER ∈ dup_sp.destination_registers
      ∧ dup_sp.source_registers = []
      ∧ (init_instruction cfg0 (const_hooks 0 0 0) true core0 dup_sp).map
          (fun t => t.IFETCH_BUFFER.map
            (fun x => decide (cfg0.REG_STACK_POINTER ∈ x.destination_registers)))
        = some [true] := by
  decide

/-- C4 (amended). After warmup, for an instruction that writes the stack pointer and is a
branch, or has a memory operand, or has no source register outside {SP, FLAGS, IP}, the
appended instruction has the first occurrence of the stack pointer removed from its
destination registers (so none is left when it was listed once) and `num_reg_ops` equal to the
number of source registers plus the number of remaining destination registers; an instruction
that writes the stack pointer without meeting the condition keeps its destinations and its
`num_reg_ops`. -/
theorem sp_folding {β : Type} (cfg : CoreConfig) (hooks : BranchHooks β)
    (s : O3_CPU β) (arch_instr : ooo_model_instr)
    (hsta : s.STA.length + arch_instr.destination_memory.length
      ≤ cfg.ROB_SIZE * cfg.NUM_INSTR_DESTINATIONS_SPARC) :
    ∃ s' x, init_instruction cfg hooks true s arch_instr = some s'
      ∧ s'.IFETCH_BUFFER = s.IFETCH_BUFFER ++ [x]
      ∧ x.source_registers = arch_instr.source_registers
      ∧ (cfg.REG_STACK_POINTER ∈ arch_instr.destination_registers →
          (x.is_branch ≠ 0
            ∨ 0 < arch_instr.source_memory.length + arch_instr.destination_memory.length
            ∨ ∀ r ∈ arch_instr.source_registers, r = cfg.REG_STACK_POINTER ∨ r = cfg.REG_FLAGS
                ∨ r = cfg.REG_INSTRUCTION_POINTER) →
          x.destination_registers = arch_instr.destination_registers.erase cfg.REG_STACK_POINTER
            ∧ x.num_reg_ops = x.source_registers.length + x.destination_registers.length
            ∧ (arch_instr.destination_registers.count cfg.REG_STACK_POINTER ≤ 1 →
                cfg.REG_STACK_POINTER ∉ x.destination_registers))
      ∧ (cfg.REG_STACK_POINTER ∈ arch_instr.destination_registers →
          x.is_branch = 0 →
          arch_instr.source_memory.length + arch_instr.destination_memory.length = 0 →
          (∃ r ∈ arch_instr.source_registers, r ≠ cfg.REG_STACK_POINTER ∧ r ≠ cfg.REG_FLAGS
                ∧ r ≠ cfg.REG_INSTRUCTION_POINTER) →
          x.destination_registers = arch_instr.destination_registers
            ∧ x.num_reg_ops = x.source_registers.length + x.destination_registers.length) := by
  have hr := pushed_regs cfg hooks s arch_instr s.current_cycle
  have hpf := pushed_fields cfg hooks true s arch_instr s.current_cycle
  have hp := pre_fold_fields cfg s.instr_unique_id arch_instr
  have hfs := fold_stack_pointer_fields cfg (reg_flags cfg arch_instr)
    (clear_target (classify_branch (reg_flags cfg arch_instr)
      (count_ops { arch_instr with instr_id := s.instr_unique_id })))
  have hsrc : (decoded_instr cfg s.instr_unique_id arch_instr).source_registers
      = arch_instr.source_registers := by
    unfold decoded_instr
    dsimp only
    rw [hfs.2.2.2.2.2, hp.2.1]
  refine ⟨_, _, init_instruction_eq cfg hooks true s arch_instr hsta,
    push_instr_buffer cfg hooks true s arch_instr, by rw [hr.2.1, hsrc], ?_, ?_⟩
  · intro hsp hcond
    rw [hpf.1] at hcond
    have hws : (reg_flags cfg arch_instr).writes_sp = true := by
      simp [reg_flags, hsp]
    have hc : ((clear_target (classify_branch (reg_flags cfg arch_instr)
          (count_ops { arch_instr with instr_id := s.instr_unique_id }))).is_branch != 0
        || decide ((clear_target (classify_branch (reg_flags cfg arch_instr)
          (count_ops { arch_instr with instr_id := s.instr_unique_id }))).num_mem_ops > 0)
        || !(reg_flags cfg arch_instr).reads_other) = true := by
      rw [hp.2.2.2.2, hp.2.2.2.1]
      rcases hcond with h | h | h
      · simp [h]
      · simp [h]
      · simp [(reads_other_false_iff cfg arch_instr).2 h]
    have hmem : cfg.REG_STACK_POINTER ∈ (clear_target (classify_branch (reg_flags cfg arch_instr)
          (count_ops { arch_instr with instr_id := s.instr_unique_id }))).destination_registers := by
      rw [hp.1]; exact hsp
    have hdec : (decoded_instr cfg s.instr_unique_id arch_instr).destination_registers
          = arch_instr.destination_registers.erase cfg.REG_STACK_POINTER
        ∧ (decoded_instr cfg s.instr_unique_id arch_instr).num_reg_ops
          = arch_instr.source_registers.length + arch_instr.destination_registers.length - 1 := by
      unfold decoded_instr
      dsimp only
      unfold fold_stack_pointer
      rw [if_pos hws, if_pos hc, if_pos hmem]
      dsimp only
      rw [hp.1, hp.2.2.1]
      exact ⟨rfl, rfl⟩
    have hlen : 0 < arch_instr.destination_registers.length := List.length_pos_of_mem hsp
    refine ⟨by rw [hr.1, hdec.1], ?_, ?_⟩
    · rw [hr.2.2, hr.2.1, hr.1, hdec.2, hdec.1, hsrc, List.length_erase_of_mem hsp]
      omega
    · intro hcount
      rw [hr.1, hdec.1]
      apply List.count_eq_zero.mp
      rw [List.count_erase_self]
      omega
  · intro hsp hnb hnm hex
    rw [hpf.1] at hnb
    have hws : (reg_flags cfg arch_instr).writes_sp = true := by
      simp [reg_flags, hsp]
    have hro : (reg_flags cfg arch_instr).reads_other = true := by
      by_contra hcon
      have hf : (reg_flags cfg arch_instr).reads_other = false := by
        simpa using hcon
      obtain ⟨r, hr1, hr2, hr3, hr4⟩ := hex
      rcases (reads_other_false_iff cfg arch_instr).1 hf r hr1 with h | h | h
      · exact hr2 h
      · exact hr3 h
      · exact hr4 h
    have hc : ¬ (((clear_target (classify_branch (reg_flags cfg arch_instr)
          (count_ops { arch_instr with instr_id := s.instr_unique_id }))).is_branch != 0
        || decide ((clear_target (classify_branch (reg_flags cfg arch_instr)
          (count_ops { arch_instr with instr_id := s.instr_unique_id }))).num_mem_ops > 0)
        || !(reg_flags cfg arch_instr).reads_other) = true) := by
      rw [hp.2.2.2.2, hp.2.2.2.1, hnb, hnm, hro]
      decide
    have hdec : (decoded_instr cfg s.instr_unique_id arch_instr).destination_registers
          = arch_instr.destination_registers
        ∧ (decoded_instr cfg s.instr_unique_id arch_instr).num_reg_ops
          = arch_instr.source_registers.length + arch_instr.destination_registers.length := by
      unfold decoded_instr
      dsimp only
      unfold fold_stack_pointer
      rw [if_pos hws, if_neg hc]
      exact ⟨hp.1, hp.2.2.1⟩
    refine ⟨by rw [hr.1, hdec.1], ?_⟩
    rw [hr.2.2, hr.2.1, hr.1, hdec.2, hdec.1, hsrc]

/-- Witness for C4: the call of the third scenario, sources `[SP, IP]` and destinations
`[SP, IP]`, leaves with destinations `[IP]` and `num_reg_ops = 3`. -/
theorem sp_folding_witness :
    ∃ s' x, init_instruction cfg0 (const_hooks 0 0 0) true core0 call0 = some s'
      ∧ s'.IFETCH_BUFFER = [x]
      ∧ x.destination_registers = [26] ∧ x.num_reg_ops = 3
      ∧ cfg0.REG_STACK_POINTER ∉ x.destination_registers := by
  obtain ⟨s', x, h1, h2, h3, h4, -⟩ :=
    sp_folding cfg0 (const_hooks 0 0 0) core0 call0 (by decide)
  have h5 := h4 (by decide) (Or.inr (Or.inr (by decide)))
  have hd : x.destination_registers = [26] := by rw [h5.1]; decide
  refine ⟨s', x, h1, by rw [h2]; rfl, hd, ?_, h5.2.2 (by decide)⟩
  rw [h5.2.1, h3, hd]
  rfl


/-! ## Theorems: the fetch stall -/

/-- C5, failing run. The conditional branch of the second scenario is mispredicted after
warmup at cycle 0: `init_instruction` sets `fetch_stall = 1` and the budget to 0, with one
entry in `IFETCH_BUFFER`. In the next cycle `operate` sets the budget to the fetch width
whatever `fetch_stall` is, the resume test leaves the stall in place (`fetch_resume_cycle` is
still 0), and the feed loop of `main` calls `init_instruction` six times: `IFETCH_BUFFER`
holds seven entries while `fetch_stall` is still 1. -/
theorem fetch_stall_not_honoured :
    (init_instruction cfg0 (const_hooks 0x4000 0 1) true core0 cond0).map
        (fun s => (s.fetch_stall, s.fetch_resume_cycle, s.current_cycle,
          s.instrs_to_read_this_cycle, s.IFETCH_BUFFER.length))
      = some (1, 0, 0, 0, 1)
    ∧ (init_instruction cfg0 (const_hooks 0x4000 0 1) true core0 cond0).map
        (fun s => ((operate_fetch_control cfg0
            { s with current_cycle := s.current_cycle + 1 }).fetch_stall,
          (operate_fetch_control cfg0
            { s with current_cycle := s.current_cycle + 1 }).instrs_to_read_this_cycle))
      = some (1, 6)
    ∧ ((init_instruction cfg0 (const_hooks 0x4000 0 1) true core0 cond0).bind
        (next_cycle_feed cfg0 (const_hooks 0x4000 0 1) true
          [add0, add0, add0, add0, add0, add0])).map
        (fun s => (s.fetch_stall, s.fetch_resume_cycle, s.current_cycle,
          s.instrs_to_read_this_cycle, s.IFETCH_BUFFER.length))
      = some (1, 0, 1, 0, 7) := by
  decide

/-! ## Theorems: the page-table walker -/

/-- C10. For every address `v` and every level `L` in 1..5, `get_offset v L` is
`((v mod 2^57) div 2^(12 + 9 (L - 1))) mod 512`; in particular it is below 512, the number of
entries of a `PageTablePage`. -/
theorem get_offset_spec (v L : Nat) (h1 : 1 ≤ L) (h5 : L ≤ 5) :
    get_offset v L = ((v % 2 ^ 57) / 2 ^ (12 + 9 * (L - 1))) % 512
      ∧ get_offset v L < 512 := by
  have h : get_offset v L = ((v % 2 ^ 57) / 2 ^ (12 + 9 * (L - 1))) % 512 := by
    unfold get_offset
    have e9 : (0x1ff : Nat) = 2 ^ 9 - 1 := by norm_num
    rw [e9]
    simp only [Nat.and_pow_two_sub_one_eq_mod, Nat.shiftRight_eq_div_pow]
    interval_cases L <;> simp
  refine ⟨h, ?_⟩
  rw [h]
  exact Nat.mod_lt _ (by norm_num)

/-- Witness for C10: level 5 of the address of the cold-walk scenario. -/
theorem get_offset_spec_witness :
    (1 ≤ 5 ∧ 5 ≤ 5) ∧ get_offset 0x1122334455678 5
        = ((0x1122334455678 % 2 ^ 57) / 2 ^ (12 + 9 * (5 - 1))) % 512
      ∧ get_offset 0x1122334455678 5 < 512 :=
  ⟨⟨by decide, by decide⟩, get_offset_spec 0x1122334455678 5 (by decide) (by decide)⟩

/-- The logarithm is exact from below: `2 ^ lg2 n ≤ n` for `n ≥ 1`. -/
theorem lg2_aux_pow_le (fuel n : Nat) (hn : 1 ≤ n) : 2 ^ lg2_aux fuel n ≤ n := by
  induction fuel generalizing n with
  | zero => simpa [lg2_aux] using hn
  | succ f ih =>
    unfold lg2_aux
    split
    · simpa using hn
    · rename_i h
      have h2 : 1 ≤ n / 2 := by omega
      have := ih (n / 2) h2
      rw [Nat.pow_add, Nat.pow_one]
      omega

/-- The set index never exceeds `NUM_SET`: the error branch of `check_hit` is not taken. -/
theorem get_set_le (c : PagingStructureCache) (address : Nat) :
    c.get_set address ≤ c.NUM_SET := by
  unfold PagingStructureCache.get_set bitmask lg2
  have h1 : ((address >>> LOG2_PAGE_SIZE) &&& (2 ^ lg2_aux 64 c.NUM_SET - 1)) % 2 ^ 32
      ≤ (address >>> LOG2_PAGE_SIZE) &&& (2 ^ lg2_aux 64 c.NUM_SET - 1) := Nat.mod_le _ _
  have h2 : (address >>> LOG2_PAGE_SIZE) &&& (2 ^ lg2_aux 64 c.NUM_SET - 1)
      ≤ 2 ^ lg2_aux 64 c.NUM_SET - 1 := Nat.and_le_right
  have h3 : 2 ^ lg2_aux 64 c.NUM_SET - 1 ≤ c.NUM_SET := by
    by_cases hn : 1 ≤ c.NUM_SET
    · have := lg2_aux_pow_le 64 c.NUM_SET hn
      omega
    · have h0 : c.NUM_SET = 0 := by omega
      rw [h0]
      decide
  omega

/-- `check_hit` always returns: the scan of the ways of the selected set. -/
theorem check_hit_eq (c : PagingStructureCache) (address : Nat) :
    c.check_hit address
      = some (c.scan_ways (c.get_set (c.get_index address)) (c.get_index address) c.NUM_WAY 0) := by
  unfold PagingStructureCache.check_hit
  have := get_set_le c (c.get_index address)
  simp only [Nat.not_lt.mpr this, if_false]

/-- The probe result of a cache for an address: what `check_hit` returns. -/
theorem check_hit_probe (c : PagingStructureCache) (address : Nat) :
    c.check_hit address = some (c.probe address) := by
  unfold PagingStructureCache.probe
  exact check_hit_eq c address

/-- With its assertions satisfied and room in the read queue of the lower level, one
iteration of `handle_read` sends the request and appends the MSHR entry. -/
theorem handle_read_step_eq (s : PageTableWalker) (e : DelayEntry)
    (rest : List DelayEntry) (hrq : s.RQ = e :: rest)
    (ha : e.pkt.address >>> 32 ≠ 0xf000000f) (hv : e.pkt.v_address ≠ 0)
    (hroom : s.lower_RQ.length < s.lower_RQ_SIZE) :
    s.handle_read_step = some
      { s with
        lower_RQ := s.lower_RQ ++ [s.read_request e.pkt (s.PSCL5.probe e.pkt.address)
          (s.PSCL4.probe e.pkt.address) (s.PSCL3.probe e.pkt.address)
          (s.PSCL2.probe e.pkt.address)]
        MSHR := s.MSHR ++ [s.read_entry e.pkt (s.read_request e.pkt
          (s.PSCL5.probe e.pkt.address) (s.PSCL4.probe e.pkt.address)
          (s.PSCL3.probe e.pkt.address) (s.PSCL2.probe e.pkt.address))]
        RQ := rest } := by
  unfold PageTableWalker.handle_read_step
  rw [hrq]
  simp only [ha, hv, if_false, check_hit_probe, PageTableWalker.lower_add_rq, hroom, if_true]

/-- C8. `handle_read` picks the starting level deepest-first: the MSHR entry created for the
front request of the read queue has `translation_level = init_translation_level`, equal to 1
if PSCL2 hits, else 2 if PSCL3 hits, else 3 if PSCL4 hits, else 4 if PSCL5 hits, else 5; in
particular a hit in PSCL3 with a miss in PSCL2 gives 2 for both. -/
theorem handle_read_start_level (s : PageTableWalker) (e : DelayEntry)
    (rest : List DelayEntry) (hrq : s.RQ = e :: rest)
    (ha : e.pkt.address >>> 32 ≠ 0xf000000f) (hv : e.pkt.v_address ≠ 0)
    (hroom : s.lower_RQ.length < s.lower_RQ_SIZE) :
    ∃ a5 a4 a3 a2 s' m,
      s.PSCL5.check_hit e.pkt.address = some a5
      ∧ s.PSCL4.check_hit e.pkt.address = some a4
      ∧ s.PSCL3.check_hit e.pkt.address = some a3
      ∧ s.PSCL2.check_hit e.pkt.address = some a2
      ∧ s.handle_read_step = some s'
      ∧ s'.MSHR = s.MSHR ++ [m]
      ∧ m.v_address = e.pkt.address
      ∧ m.init_translation_level = m.translation_level
      ∧ m.translation_level
          = (if a2 ≠ UINT64_MAX then 1 else if a3 ≠ UINT64_MAX then 2
             else if a4 ≠ UINT64_MAX then 3 else if a5 ≠ UINT64_MAX then 4 else 5)
      ∧ (a2 = UINT64_MAX → a3 ≠ UINT64_MAX →
          m.translation_level = 2 ∧ m.init_translation_level = 2) := by
  have hlv : ∀ v a5 a4 a3 a2, (start_level s v a5 a4 a3 a2).2
      = (if a2 ≠ UINT64_MAX then 1 else if a3 ≠ UINT64_MAX then 2
         else if a4 ≠ UINT64_MAX then 3 else if a5 ≠ UINT64_MAX then 4 else 5) := by
    intro v a5 a4 a3 a2
    unfold start_level
    split_ifs <;> rfl
  have hstep := handle_read_step_eq s e rest hrq ha hv hroom
  refine ⟨_, _, _, _, _, _, check_hit_probe _ _, check_hit_probe _ _, check_hit_probe _ _,
    check_hit_probe _ _, hstep, rfl, rfl, rfl, hlv _ _ _ _ _, ?_⟩
  intro h2 h3
  have := hlv e.pkt.address
    (s.PSCL5.probe e.pkt.address) (s.PSCL4.probe e.pkt.address)
    (s.PSCL3.probe e.pkt.address) (s.PSCL2.probe e.pkt.address)
  rw [if_neg (not_not.mpr h2), if_pos h3] at this
  exact ⟨this, this⟩

/-- In a cache without a valid block every probe misses. -/
theorem scan_ways_invalid (c : PagingStructureCache) (set address : Nat)
    (h : ∀ i, (c.at i).valid = 0) :
    ∀ n way, c.scan_ways set address n way = UINT64_MAX := by
  intro n
  induction n with
  | zero => intro way; rfl
  | succ n ih =>
    intro way
    rw [PagingStructureCache.scan_ways]
    simp [h, ih]

/-- An empty cache, as constructed, misses for every address. -/
theorem fresh_check_hit (cache_type num_set num_way address : Nat) :
    (PagingStructureCache.fresh cache_type num_set num_way).check_hit address
      = some UINT64_MAX := by
  rw [check_hit_eq]
  refine congrArg some (scan_ways_invalid _ _ _ ?_ _ _)
  intro i
  simp only [PagingStructureCache.at, PagingStructureCache.fresh, List.getD_eq_getElem?_getD,
    List.getElem?_replicate]
  split <;> rfl

/-- Witness for C8: PSCL3 holds a base for the address and PSCL2 does not. -/
theorem handle_read_start_level_witness :
    ∃ s' m, ptw_pscl3_hit.handle_read_step = some s' ∧ s'.MSHR = [m]
      ∧ m.translation_level = 2 ∧ m.init_translation_level = 2 := by
  obtain ⟨a5, a4, a3, a2, s', m, -, -, h3, h2, hs, hm, -, -, -, hh⟩ :=
    handle_read_start_level ptw_pscl3_hit { pkt := req0, delay := 0 } [] rfl
      (by decide) (by decide) (by decide)
  have e2 : a2 = UINT64_MAX := by
    have : ptw_pscl3_hit.PSCL2.check_hit req0.address = some UINT64_MAX := by decide
    rw [h2] at this
    exact Option.some.inj this
  have e3 : a3 ≠ UINT64_MAX := by
    have : ptw_pscl3_hit.PSCL3.check_hit req0.address = some 0xB := by decide
    rw [h3] at this
    rw [Option.some.inj this]
    decide
  exact ⟨s', m, hs, hm, hh e2 e3⟩

/-- One more level of a mapped path. -/
theorem mapped_upto_succ (s : PageTableWalker) (v d : Nat) :
    s.mapped_upto v (d + 1) = true ↔
      s.mapped_upto v d = true ∧ ∃ page, s.page_at v d = some page
        ∧ (s.pages page).next_level_base_addr (get_offset v (5 - d)) ≠ UINT64_MAX := by
  rw [PageTableWalker.mapped_upto]
  cases h : s.page_at v d with
  | none => simp
  | some page => simp

/-- The pages and cells on the path of a mapped address. -/
theorem mapped_chain (s : PageTableWalker) (v : Nat) (h : s.mapped v = true) :
    ∃ p4 p3 p2 p1,
      (s.pages s.L5).entry (get_offset v 5) = some p4
      ∧ (s.pages p4).entry (get_offset v 4) = some p3
      ∧ (s.pages p3).entry (get_offset v 3) = some p2
      ∧ (s.pages p2).entry (get_offset v 2) = some p1
      ∧ (s.pages s.L5).next_level_base_addr (get_offset v 5) ≠ UINT64_MAX
      ∧ (s.pages p4).next_level_base_addr (get_offset v 4) ≠ UINT64_MAX
      ∧ (s.pages p3).next_level_base_addr (get_offset v 3) ≠ UINT64_MAX
      ∧ (s.pages p2).next_level_base_addr (get_offset v 2) ≠ UINT64_MAX
      ∧ (s.pages p1).next_level_base_addr (get_offset v 1) ≠ UINT64_MAX
      ∧ s.page_at v 4 = some p1 := by
  unfold PageTableWalker.mapped at h
  obtain ⟨h, q1, e1, n1⟩ := (mapped_upto_succ s v 4).mp h
  obtain ⟨h, q2, e2, n2⟩ := (mapped_upto_succ s v 3).mp h
  obtain ⟨h, q3, e3, n3⟩ := (mapped_upto_succ s v 2).mp h
  obtain ⟨h, q4, e4, n4⟩ := (mapped_upto_succ s v 1).mp h
  obtain ⟨-, q5, e5, n5⟩ := (mapped_upto_succ s v 0).mp h
  have e1c := e1
  simp only [PageTableWalker.page_at, Option.some.injEq] at e5
  subst e5
  simp only [PageTableWalker.page_at] at e4 e3 e2 e1
  simp only [e4] at e3 e2 e1
  simp only [e3] at e2 e1
  simp only [e2] at e1
  exact ⟨q4, q3, q2, q1, e4, e3, e2, e1, n5, n4, n3, n2, n1, e1c⟩

/-- A conditional fill touches nothing but the cache of its level. -/
theorem fill_if_frame (s : PageTableWalker) (i b : Nat) (m : PACKET) :
    (s.fill_if i b m).pages = s.pages ∧ (s.fill_if i b m).L5 = s.L5
      ∧ (s.fill_if i b m).returned = s.returned
      ∧ (s.fill_if i b m).current_cycle = s.current_cycle
      ∧ (s.fill_if i b m).total_miss_latency = s.total_miss_latency
      ∧ (s.fill_if i b m).lower_RQ = s.lower_RQ
      ∧ (s.fill_if i b m).num_pages = s.num_pages
      ∧ (s.fill_if i b m).cpu = s.cpu
      ∧ (s.fill_if i b m).RQ = s.RQ := by
  unfold PageTableWalker.fill_if PageTableWalker.fill_pscl
  split_ifs <;> simp

/-- The caches after a conditional fill. -/
theorem fill_if_caches (s : PageTableWalker) (i b : Nat) (m : PACKET) :
    (s.fill_if i b m).PSCL5
        = (if i = 5 ∧ 5 ≤ m.init_translation_level then s.PSCL5.fill_cache b m else s.PSCL5)
      ∧ (s.fill_if i b m).PSCL4
        = (if i = 4 ∧ 4 ≤ m.init_translation_level then s.PSCL4.fill_cache b m else s.PSCL4)
      ∧ (s.fill_if i b m).PSCL3
        = (if i = 3 ∧ 3 ≤ m.init_translation_level then s.PSCL3.fill_cache b m else s.PSCL3)
      ∧ (s.fill_if i b m).PSCL2
        = (if i = 2 ∧ 2 ≤ m.init_translation_level then s.PSCL2.fill_cache b m else s.PSCL2) := by
  unfold PageTableWalker.fill_if PageTableWalker.fill_pscl
  by_cases h5 : i = 5
  · subst h5; by_cases h : 5 ≤ m.init_translation_level <;> simp [h]
  · by_cases h4 : i = 4
    · subst h4; by_cases h : 4 ≤ m.init_translation_level <;> simp [h]
    · by_cases h3 : i = 3
      · subst h3; by_cases h : 3 ≤ m.init_translation_level <;> simp [h]
      · by_cases h2 : i = 2
        · subst h2; by_cases h : 2 ≤ m.init_translation_level <;> simp [h]
        · by_cases h : i ≤ m.init_translation_level <;> simp [h, h5, h4, h3, h2]

/-- On a mapped address the loop of lines 124-146 runs its four iterations, reads the cells
of levels 5 to 2 and ends at the level-1 page. -/
theorem fill_loop_mapped (s : PageTableWalker) (m : PACKET) (p4 p3 p2 p1 : Nat)
    (e4 : (s.pages s.L5).entry (get_offset m.v_address 5) = some p4)
    (e3 : (s.pages p4).entry (get_offset m.v_address 4) = some p3)
    (e2 : (s.pages p3).entry (get_offset m.v_address 3) = some p2)
    (e1 : (s.pages p2).entry (get_offset m.v_address 2) = some p1)
    (n5 : (s.pages s.L5).next_level_base_addr (get_offset m.v_address 5) ≠ UINT64_MAX)
    (n4 : (s.pages p4).next_level_base_addr (get_offset m.v_address 4) ≠ UINT64_MAX)
    (n3 : (s.pages p3).next_level_base_addr (get_offset m.v_address 3) ≠ UINT64_MAX)
    (n2 : (s.pages p2).next_level_base_addr (get_offset m.v_address 2) ≠ UINT64_MAX) :
    PageTableWalker.fill_loop 4 s m (some s.L5)
      = some
        ((((s.fill_if 5 ((s.pages s.L5).next_level_base_addr (get_offset m.v_address 5)) m).fill_if
            4 ((s.pages p4).next_level_base_addr (get_offset m.v_address 4)) m).fill_if
            3 ((s.pages p3).next_level_base_addr (get_offset m.v_address 3)) m).fill_if
            2 ((s.pages p2).next_level_base_addr (get_offset m.v_address 2)) m, some p1) := by
  simp only [PageTableWalker.fill_loop, n5, n4, n3, n2, if_false, e4, e3, e2, e1,
    (fill_if_frame _ _ _ _).1]

/-- On a mapped address the completion of lines 120-165 succeeds: it fills the caches of the
levels up to `init_translation_level` with the cells of the path, hands the packet with the
leaf cell as data to every sink and erases the entry. -/
theorem complete_translation_mapped (warmup_complete : Bool) (s : PageTableWalker)
    (m : PACKET) (rest : List PACKET) (hmap : s.mapped m.v_address = true)
    (hret : ReturnSink.this_ptw ∉ m.to_return) :
    ∃ t p4 p3 p2 p1,
      s.complete_translation warmup_complete m rest = some t
      ∧ (s.pages s.L5).entry (get_offset m.v_address 5) = some p4
      ∧ (s.pages p4).entry (get_offset m.v_address 4) = some p3
      ∧ (s.pages p3).entry (get_offset m.v_address 3) = some p2
      ∧ (s.pages p2).entry (get_offset m.v_address 2) = some p1
      ∧ s.page_at m.v_address 4 = some p1
      ∧ (s.pages p1).next_level_base_addr (get_offset m.v_address 1) ≠ UINT64_MAX
      ∧ t.pages = s.pages ∧ t.num_pages = s.num_pages ∧ t.L5 = s.L5 ∧ t.cpu = s.cpu
      ∧ t.lower_RQ = s.lower_RQ ∧ t.RQ = s.RQ
      ∧ t.MSHR = rest
      ∧ t.returned = s.returned ++ m.to_return.map (fun ret =>
          (ret, { m with data := (s.pages p1).next_level_base_addr (get_offset m.v_address 1),
                         address := m.v_address }))
      ∧ t.PSCL5 = (if 5 ≤ m.init_translation_level then
          s.PSCL5.fill_cache ((s.pages s.L5).next_level_base_addr (get_offset m.v_address 5)) m
          else s.PSCL5)
      ∧ t.PSCL4 = (if 4 ≤ m.init_translation_level then
          s.PSCL4.fill_cache ((s.pages p4).next_level_base_addr (get_offset m.v_address 4)) m
          else s.PSCL4)
      ∧ t.PSCL3 = (if 3 ≤ m.init_translation_level then
          s.PSCL3.fill_cache ((s.pages p3).next_level_base_addr (get_offset m.v_address 3)) m
          else s.PSCL3)
      ∧ t.PSCL2 = (if 2 ≤ m.init_translation_level then
          s.PSCL2.fill_cache ((s.pages p2).next_level_base_addr (get_offset m.v_address 2)) m
          else s.PSCL2) := by
  obtain ⟨p4, p3, p2, p1, e4, e3, e2, e1, n5, n4, n3, n2, n1, hp1⟩ :=
    mapped_chain s m.v_address hmap
  have hloop := fill_loop_mapped s m p4 p3 p2 p1 e4 e3 e2 e1 n5 n4 n3 n2
  have ht : ∃ t, s.complete_translation warmup_complete m rest = some t
      ∧ t.pages = s.pages ∧ t.num_pages = s.num_pages ∧ t.L5 = s.L5 ∧ t.cpu = s.cpu
      ∧ t.lower_RQ = s.lower_RQ ∧ t.RQ = s.RQ
      ∧ t.MSHR = rest
      ∧ t.returned = s.returned ++ m.to_return.map (fun ret =>
          (ret, { m with data := (s.pages p1).next_level_base_addr (get_offset m.v_address 1),
                         address := m.v_address }))
      ∧ t.PSCL5 = (if 5 ≤ m.init_translation_level then
          s.PSCL5.fill_cache ((s.pages s.L5).next_level_base_addr (get_offset m.v_address 5)) m
          else s.PSCL5)
      ∧ t.PSCL4 = (if 4 ≤ m.init_translation_level then
          s.PSCL4.fill_cache ((s.pages p4).next_level_base_addr (get_offset m.v_address 4)) m
          else s.PSCL4)
      ∧ t.PSCL3 = (if 3 ≤ m.init_translation_level then
          s.PSCL3.fill_cache ((s.pages p3).next_level_base_addr (get_offset m.v_address 3)) m
          else s.PSCL3)
      ∧ t.PSCL2 = (if 2 ≤ m.init_translation_level then
          s.PSCL2.fill_cache ((s.pages p2).next_level_base_addr (get_offset m.v_address 2)) m
          else s.PSCL2) := by
    unfold PageTableWalker.complete_translation
    rw [hloop]
    simp only [hret, if_false]
    refine ⟨_, rfl, ?_⟩
    cases warmup_complete <;>
      simp [fill_if_frame, fill_if_caches]
  obtain ⟨t, ht, hrest⟩ := ht
  exact ⟨t, p4, p3, p2, p1, ht, e4, e3, e2, e1, hp1, n1, hrest⟩

/-- The path to a page of depth `d` has `d` offsets. -/
theorem path_of_length (v d : Nat) : (path_of v d).length = d := by
  induction d with
  | zero => rfl
  | succ d ih => simp [path_of, ih]

/-- Two addresses below `2^57` with the same offsets at the five levels lie in one page. -/
theorem same_page_of_offsets (v w : Nat) (hv : v < 2 ^ 57) (hw : w < 2 ^ 57)
    (hp : path_of v 4 = path_of w 4) (h1 : get_offset v 1 = get_offset w 1) :
    v >>> LOG2_PAGE_SIZE = w >>> LOG2_PAGE_SIZE := by
  simp only [path_of, List.nil_append, List.cons_append, List.cons.injEq, and_true,
    Nat.sub_zero, Nat.reduceSub] at hp
  obtain ⟨h5, h4, h3, h2⟩ := hp
  rw [(get_offset_spec v 5 (by decide) (by decide)).1,
    (get_offset_spec w 5 (by decide) (by decide)).1] at h5
  rw [(get_offset_spec v 4 (by decide) (by decide)).1,
    (get_offset_spec w 4 (by decide) (by decide)).1] at h4
  rw [(get_offset_spec v 3 (by decide) (by decide)).1,
    (get_offset_spec w 3 (by decide) (by decide)).1] at h3
  rw [(get_offset_spec v 2 (by decide) (by decide)).1,
    (get_offset_spec w 2 (by decide) (by decide)).1] at h2
  rw [(get_offset_spec v 1 (by decide) (by decide)).1,
    (get_offset_spec w 1 (by decide) (by decide)).1] at h1
  simp only [Nat.shiftRight_eq_div_pow, LOG2_PAGE_SIZE]
  norm_num at h5 h4 h3 h2 h1 hv hw ⊢
  omega

/-- In a tree the page of depth `d` on the path of `v` is allocated and its way from the root
is the path of `v`. -/
theorem page_at_path (s : PageTableWalker) (pth : Nat → List Nat) (ht : s.tree pth) (v : Nat) :
    ∀ d page, s.page_at v d = some page → page < s.num_pages ∧ pth page = path_of v d := by
  intro d
  induction d with
  | zero =>
    intro page h
    simp only [PageTableWalker.page_at, Option.some.injEq] at h
    subst h
    exact ⟨ht.root_lt, ht.root⟩
  | succ d ih =>
    intro page h
    rw [PageTableWalker.page_at] at h
    cases hq : s.page_at v d with
    | none => rw [hq] at h; exact absurd h (by simp)
    | some q =>
      rw [hq] at h
      obtain ⟨hlt, hpq⟩ := ih q hq
      obtain ⟨hc, hpc⟩ := ht.child q _ page hlt h
      exact ⟨hc, by rw [hpc, hpq, path_of]⟩

/-- A walker that agrees with `s` on the pages above depth `d` sees the same pages on the
path of `v` down to depth `d`. -/
theorem page_at_agree (s t : PageTableWalker) (pth : Nat → List Nat) (ht : s.tree pth)
    (v d : Nat) (hroot : t.L5 = s.L5)
    (hpages : ∀ p, p < s.num_pages → (pth p).length < d → t.pages p = s.pages p) :
    ∀ j, j ≤ d → t.page_at v j = s.page_at v j := by
  intro j
  induction j with
  | zero => intro _; simp only [PageTableWalker.page_at, hroot]
  | succ j ih =>
    intro hj
    rw [PageTableWalker.page_at, PageTableWalker.page_at, ih (by omega)]
    cases hq : s.page_at v j with
    | none => rfl
    | some q =>
      obtain ⟨hlt, hpq⟩ := page_at_path s pth ht v j q hq
      have : (pth q).length < d := by rw [hpq, path_of_length]; omega
      simp only [hpages q hlt this]

/-- A walker that agrees with `s` on the pages above depth `d` has the same path of `v`
mapped down to depth `d`. -/
theorem mapped_upto_agree (s t : PageTableWalker) (pth : Nat → List Nat) (ht : s.tree pth)
    (v d : Nat) (hroot : t.L5 = s.L5)
    (hpages : ∀ p, p < s.num_pages → (pth p).length < d → t.pages p = s.pages p) :
    ∀ j, j ≤ d → t.mapped_upto v j = s.mapped_upto v j := by
  intro j
  induction j with
  | zero => intro _; rfl
  | succ j ih =>
    intro hj
    rw [PageTableWalker.mapped_upto, PageTableWalker.mapped_upto, ih (by omega),
      page_at_agree s t pth ht v d hroot hpages j (by omega)]
    cases hq : s.page_at v j with
    | none => rfl
    | some q =>
      obtain ⟨hlt, hpq⟩ := page_at_path s pth ht v j q hq
      have : (pth q).length < d := by rw [hpq, path_of_length]; omega
      simp only [hpages q hlt this]

/-- In a tree a path mapped down to depth `d ≤ 4` ends in a page. -/
theorem page_at_of_mapped (s : PageTableWalker) (pth : Nat → List Nat) (ht : s.tree pth)
    (v d : Nat) (hd : d ≤ 4) (hm : s.mapped_upto v d = true) :
    ∃ page, s.page_at v d = some page := by
  cases d with
  | zero => exact ⟨s.L5, rfl⟩
  | succ d =>
    obtain ⟨-, q, hq, hn⟩ := (mapped_upto_succ s v d).mp hm
    obtain ⟨hlt, hpq⟩ := page_at_path s pth ht v d q hq
    have hlen : (pth q).length < 4 := by rw [hpq, path_of_length]; omega
    have hne : (s.pages q).entry (get_offset v (5 - d)) ≠ none := fun h =>
      hn ((ht.paired q _ hlt hlen).mpr h)
    obtain ⟨c, hc⟩ := Option.ne_none_iff_exists'.mp hne
    exact ⟨c, by rw [PageTableWalker.page_at, hq]; exact hc⟩

/-- Being a tree concerns the pages, their number and the root only. -/
theorem tree_of_eq (s t : PageTableWalker) (pth : Nat → List Nat) (hp : t.pages = s.pages)
    (hn : t.num_pages = s.num_pages) (hl : t.L5 = s.L5) (ht : s.tree pth) : t.tree pth := by
  constructor
  · rw [hl, hn]; exact ht.root_lt
  · rw [hl]; exact ht.root
  · intro p h; rw [hn] at h; exact ht.depth p h
  · intro p off c h; rw [hn, hp] at *; exact ht.child p off c h
  · intro p off h; rw [hn] at h; rw [hp]; exact ht.paired p off h

/-- Coherence of the leaves concerns the pages, their number and the cpu only. -/
theorem coherent_of_eq (vm : VirtualMemory) (s t : PageTableWalker) (pth : Nat → List Nat)
    (hp : t.pages = s.pages) (hn : t.num_pages = s.num_pages) (hc : t.cpu = s.cpu)
    (h : s.coherent vm pth) : t.coherent vm pth := by
  intro p v hlt
  rw [hn] at hlt
  rw [hp, hc]
  exact h p v hlt

/-- The walker as constructed has a coherent tree: the root alone, with nothing in it. -/
theorem init_table_coherent (vm : VirtualMemory) (cr3 cursor num_set num_way : Nat) :
    (PageTableWalker.init cr3 cursor num_set num_way).table_coherent vm := by
  refine ⟨fun _ => [], ?_, ?_⟩
  · constructor
    · simp [PageTableWalker.init]
    · rfl
    · intro p _; simp
    · intro p off c _ h
      simp [PageTableWalker.init, PageTablePage.fresh] at h
    · intro p off _ _
      simp [PageTableWalker.init, PageTablePage.fresh]
  · intro p v _ _ _ h
    simp [PageTableWalker.init, PageTablePage.fresh] at h

/-- A frame number is never the sentinel. -/
theorem frame_ne_max (vm : VirtualMemory) (cpu x : Nat) :
    vm.va_to_pa cpu x >>> LOG2_PAGE_SIZE ≠ UINT64_MAX := by
  have h := vm.va_to_pa_lt cpu x
  simp only [Nat.shiftRight_eq_div_pow, LOG2_PAGE_SIZE, UINT64_MAX]
  norm_num at h ⊢
  omega

/-- Only the page table changes: the other members are those of `s`. -/
theorem table_only_fields (s t : PageTableWalker) (h : s.table_only t) :
    t.cpu = s.cpu ∧ t.L5 = s.L5 ∧ t.returned = s.returned ∧ t.MSHR = s.MSHR
      ∧ t.PSCL5 = s.PSCL5 ∧ t.PSCL4 = s.PSCL4 ∧ t.PSCL3 = s.PSCL3 ∧ t.PSCL2 = s.PSCL2
      ∧ t.CR3_addr = s.CR3_addr ∧ t.lower_RQ = s.lower_RQ
      ∧ t.lower_RQ_SIZE = s.lower_RQ_SIZE ∧ t.current_cycle = s.current_cycle
      ∧ t.RQ = s.RQ ∧ t.total_miss_latency = s.total_miss_latency := by
  unfold PageTableWalker.table_only at h
  refine ⟨?_, ?_, ?_, ?_, ?_, ?_, ?_, ?_, ?_, ?_, ?_, ?_, ?_, ?_⟩ <;> (rw [h])

/-- Nothing changes: in particular only the page table does. -/
theorem table_only_refl (s : PageTableWalker) : s.table_only s := rfl

/-- Two changes of the page table only make one. -/
theorem table_only_trans (s t u : PageTableWalker) (h1 : s.table_only t)
    (h2 : t.table_only u) : s.table_only u := by
  unfold PageTableWalker.table_only at *
  rw [h2, h1]

/-- Writing a cell changes one page only. -/
theorem set_cell_fields (s : PageTableWalker) (page offset : Nat) (child : Option Nat)
    (base : Nat) :
    s.table_only (s.set_cell page offset child base)
      ∧ (s.set_cell page offset child base).num_pages = s.num_pages
      ∧ ((s.set_cell page offset child base).pages page).entry
          = Function.update (s.pages page).entry offset child
      ∧ ((s.set_cell page offset child base).pages page).next_level_base_addr
          = Function.update (s.pages page).next_level_base_addr offset base
      ∧ ∀ p, p ≠ page → (s.set_cell page offset child base).pages p = s.pages p := by
  refine ⟨rfl, rfl, ?_, ?_, ?_⟩
  · simp [PageTableWalker.set_cell]
  · simp [PageTableWalker.set_cell]
  · intro p hp
    simp [PageTableWalker.set_cell, Function.update_noteq hp]

/-- Allocating a child changes the parent page and the new page only. -/
theorem alloc_child_fields (vm : VirtualMemory) (s : PageTableWalker) (page offset : Nat)
    (hlt : page < s.num_pages) :
    s.table_only (s.alloc_child vm page offset)
      ∧ (s.alloc_child vm page offset).num_pages = s.num_pages + 1
      ∧ (s.alloc_child vm page offset).pages s.num_pages = PageTablePage.fresh
      ∧ ((s.alloc_child vm page offset).pages page).entry
          = Function.update (s.pages page).entry offset (some s.num_pages)
      ∧ (∃ base, base ≠ UINT64_MAX
          ∧ ((s.alloc_child vm page offset).pages page).next_level_base_addr
            = Function.update (s.pages page).next_level_base_addr offset base)
      ∧ ∀ p, p ≠ page → p ≠ s.num_pages → (s.alloc_child vm page offset).pages p = s.pages p := by
  have hne : page ≠ s.num_pages := by omega
  refine ⟨?_, ?_, ?_, ?_, ⟨_, frame_ne_max vm s.cpu s.next_translation_virtual_address, ?_⟩,
    ?_⟩
  · unfold PageTableWalker.table_only PageTableWalker.alloc_child PageTableWalker.set_cell
      PageTableWalker.map_translation_page
    rfl
  · unfold PageTableWalker.alloc_child PageTableWalker.set_cell
      PageTableWalker.map_translation_page
    rfl
  · simp [PageTableWalker.alloc_child, PageTableWalker.set_cell,
      PageTableWalker.map_translation_page, Function.update_noteq hne.symm]
  · simp [PageTableWalker.alloc_child, PageTableWalker.set_cell,
      PageTableWalker.map_translation_page, Function.update_noteq hne]
  · simp [PageTableWalker.alloc_child, PageTableWalker.set_cell,
      PageTableWalker.map_translation_page, Function.update_noteq hne]
  · intro p hp hn
    simp [PageTableWalker.alloc_child, PageTableWalker.set_cell,
      PageTableWalker.map_translation_page, Function.update_noteq hp, Function.update_noteq hn]

/-- Allocating the missing child of a page of depth `d ≤ 3` keeps the tree; the new page
hangs below its parent. -/
theorem alloc_child_tree (vm : VirtualMemory) (s : PageTableWalker) (pth : Nat → List Nat)
    (page offset d : Nat) (ht : s.tree pth) (hlt : page < s.num_pages)
    (hlen : (pth page).length = d) (hd : d ≤ 3) :
    (s.alloc_child vm page offset).tree
      (Function.update pth s.num_pages (pth page ++ [offset])) := by
  obtain ⟨hto, hnum, hfresh, hent, ⟨base, hbase, hnl⟩, hother⟩ :=
    alloc_child_fields vm s page offset hlt
  have hL5 := (table_only_fields _ _ hto).2.1
  have hroot := ht.root_lt
  have hpage : page ≠ s.num_pages := by omega
  constructor
  · rw [hL5, hnum]; omega
  · rw [hL5, Function.update_noteq (by omega)]; exact ht.root
  · intro p hp
    rw [hnum] at hp
    by_cases hpn : p = s.num_pages
    · subst hpn
      rw [Function.update_same, List.length_append, hlen]
      simp only [List.length_singleton]
      omega
    · rw [Function.update_noteq hpn]
      exact ht.depth p (by omega)
  · intro p off c hp he
    rw [hnum] at hp
    by_cases hpn : p = s.num_pages
    · subst hpn
      rw [hfresh] at he
      simp [PageTablePage.fresh] at he
    · have hp2 : p < s.num_pages := by omega
      rw [Function.update_noteq hpn, hnum]
      by_cases hpp : p = page
      · subst hpp
        rw [hent] at he
        by_cases ho : off = offset
        · subst ho
          rw [Function.update_same] at he
          have hc : s.num_pages = c := Option.some.inj he
          subst hc
          exact ⟨by omega, by rw [Function.update_same]⟩
        · rw [Function.update_noteq ho] at he
          obtain ⟨hc, hpc⟩ := ht.child p off c hp2 he
          exact ⟨by omega, by rw [Function.update_noteq (by omega)]; exact hpc⟩
      · rw [hother p hpp hpn] at he
        obtain ⟨hc, hpc⟩ := ht.child p off c hp2 he
        exact ⟨by omega, by rw [Function.update_noteq (by omega)]; exact hpc⟩
  · intro p off hp hl
    rw [hnum] at hp
    by_cases hpn : p = s.num_pages
    · subst hpn
      rw [hfresh]
      simp [PageTablePage.fresh]
    · have hp2 : p < s.num_pages := by omega
      rw [Function.update_noteq hpn] at hl
      by_cases hpp : p = page
      · subst hpp
        rw [hent, hnl]
        by_cases ho : off = offset
        · subst ho
          simp [hbase]
        · rw [Function.update_noteq ho, Function.update_noteq ho]
          exact ht.paired p off hp2 hl
      · rw [hother p hpp hpn]
        exact ht.paired p off hp2 hl

/-- Allocating the missing child of a page of depth `d ≤ 3` keeps the leaves coherent: no
leaf cell is written. -/
theorem alloc_child_coherent (vm : VirtualMemory) (s : PageTableWalker)
    (pth : Nat → List Nat) (page offset d : Nat) (hlt : page < s.num_pages)
    (hlen : (pth page).length = d) (hd : d ≤ 3) (hco : s.coherent vm pth) :
    (s.alloc_child vm page offset).coherent vm
      (Function.update pth s.num_pages (pth page ++ [offset])) := by
  obtain ⟨hto, hnum, hfresh, hent, ⟨base, hbase, hnl⟩, hother⟩ :=
    alloc_child_fields vm s page offset hlt
  have hcpu := (table_only_fields _ _ hto).1
  intro p w hp hw hpw hcell
  rw [hnum] at hp
  by_cases hpn : p = s.num_pages
  · subst hpn
    rw [hfresh] at hcell
    simp [PageTablePage.fresh] at hcell
  · have hp2 : p < s.num_pages := by omega
    rw [Function.update_noteq hpn] at hpw
    by_cases hpp : p = page
    · subst hpp
      have := congrArg List.length hpw
      rw [hlen, path_of_length] at this
      omega
    · rw [hother p hpp hpn] at hcell ⊢
      rw [hcpu]
      exact hco p w hp2 hw hpw hcell

/-- A page fault at level `l + 1`, taken at the page of depth `d = 4 - l` on the path of `v`
whose cell is the sentinel, returns: it leaves a tree in which the whole path of `v` is
mapped, touches nothing but the page table, and keeps the leaves coherent when `v` is below
`2^57`. -/
theorem handle_page_fault_from_ok (vm : VirtualMemory) (v : Nat) :
    ∀ l d s pth page, d + l = 4 → s.tree pth → s.page_at v d = some page →
      s.mapped_upto v d = true →
      (s.pages page).next_level_base_addr (get_offset v (l + 1)) = UINT64_MAX →
      ∃ t pth1, PageTableWalker.handle_page_fault_from vm v (l + 1) s page = some t
        ∧ t.tree pth1 ∧ t.mapped v = true ∧ s.table_only t
        ∧ (v < 2 ^ 57 → vm.page_stable → s.coherent vm pth → t.coherent vm pth1) := by
  intro l
  induction l with
  | zero =>
    intro d s pth page hd ht hpage hmap hmax
    have hd4 : d = 4 := by omega
    subst hd4
    obtain ⟨hlt, hpath⟩ := page_at_path s pth ht v 4 page hpage
    obtain ⟨hto, hnum, hent, hnl, hother⟩ := set_cell_fields s page (get_offset v 1)
      ((s.pages page).entry (get_offset v 1)) (s.map_data_page vm v)
    have hL5 := (table_only_fields _ _ hto).2.1
    have hcpu := (table_only_fields _ _ hto).1
    have hne : ∀ p, (pth p).length < 4 → p ≠ page := by
      intro p hl h
      subst h
      rw [hpath, path_of_length] at hl
      omega
    have agree : ∀ p, p < s.num_pages → (pth p).length < 4 →
        (s.set_cell page (get_offset v 1) ((s.pages page).entry (get_offset v 1))
          (s.map_data_page vm v)).pages p = s.pages p :=
      fun p _ hl => hother p (hne p hl)
    refine ⟨_, pth, ?_, ?_, ?_, hto, ?_⟩
    · show PageTableWalker.handle_page_fault_from vm v 1 s page = _
      simp only [PageTableWalker.handle_page_fault_from, hmax, ne_eq, not_true, if_false]
    · constructor
      · rw [hL5, hnum]; exact ht.root_lt
      · rw [hL5]; exact ht.root
      · intro p hp; rw [hnum] at hp; exact ht.depth p hp
      · intro p off c hp he
        rw [hnum] at hp ⊢
        by_cases hpp : p = page
        · subst hpp
          rw [hent, Function.update_eq_self] at he
          exact ht.child p off c hp he
        · rw [hother p hpp] at he
          exact ht.child p off c hp he
      · intro p off hp hl
        rw [hnum] at hp
        rw [hother p (hne p hl)]
        exact ht.paired p off hp hl
    · unfold PageTableWalker.mapped
      rw [mapped_upto_succ]
      refine ⟨?_, page, ?_, ?_⟩
      · rw [mapped_upto_agree s _ pth ht v 4 hL5 agree 4 (le_refl 4)]; exact hmap
      · rw [page_at_agree s _ pth ht v 4 hL5 agree 4 (le_refl 4)]; exact hpage
      · rw [hnl]
        simp only [Nat.reduceSub, Function.update_same]
        exact frame_ne_max vm s.cpu v
    · intro hv hst hco p w hp hw hpw hcell
      rw [hnum] at hp
      rw [hcpu]
      by_cases hpp : p = page
      · subst hpp
        rw [hnl] at hcell ⊢
        by_cases ho : get_offset w 1 = get_offset v 1
        · rw [ho, Function.update_same]
          exact hst s.cpu v w
            (same_page_of_offsets v w hv hw (hpath.symm.trans hpw) ho.symm)
        · rw [Function.update_noteq ho] at hcell ⊢
          exact hco p w hp hw hpw hcell
      · rw [hother p hpp] at hcell ⊢
        exact hco p w hp hw hpw hcell
  | succ l ih =>
    intro d s pth page hd ht hpage hmap hmax
    obtain ⟨hlt, hpath⟩ := page_at_path s pth ht v d page hpage
    have hlen : (pth page).length = d := by rw [hpath, path_of_length]
    have hnone : (s.pages page).entry (get_offset v (l + 2)) = none :=
      (ht.paired page _ hlt (by omega)).mp hmax
    have htree2 := alloc_child_tree vm s pth page (get_offset v (l + 2)) d ht hlt hlen
      (by omega)
    obtain ⟨hto, hnum, hfresh, hent, ⟨base, hbase, hnl⟩, hother⟩ :=
      alloc_child_fields vm s page (get_offset v (l + 2)) hlt
    have hL5 := (table_only_fields _ _ hto).2.1
    have h5d : 5 - d = l + 2 := by omega
    have agree : ∀ p, p < s.num_pages → (pth p).length < d →
        (s.alloc_child vm page (get_offset v (l + 2))).pages p = s.pages p :=
      fun p hp hl => hother p (by intro h; subst h; omega) (by omega)
    have hpage2 : (s.alloc_child vm page (get_offset v (l + 2))).page_at v (d + 1)
        = some s.num_pages := by
      rw [PageTableWalker.page_at, page_at_agree s _ pth ht v d hL5 agree d (le_refl d), hpage]
      simp only
      rw [h5d, hent, Function.update_same]
    have hmap2 : (s.alloc_child vm page (get_offset v (l + 2))).mapped_upto v (d + 1)
        = true := by
      rw [mapped_upto_succ]
      refine ⟨?_, page, ?_, ?_⟩
      · rw [mapped_upto_agree s _ pth ht v d hL5 agree d (le_refl d)]; exact hmap
      · rw [page_at_agree s _ pth ht v d hL5 agree d (le_refl d)]; exact hpage
      · rw [h5d, hnl, Function.update_same]; exact hbase
    have hmax2 : ((s.alloc_child vm page (get_offset v (l + 2))).pages
        s.num_pages).next_level_base_addr (get_offset v (l + 1)) = UINT64_MAX := by
      rw [hfresh]; rfl
    obtain ⟨t, pth1, hrun, htt, hmt, hto2, hco2⟩ :=
      ih (d + 1) _ _ s.num_pages (by omega) htree2 hpage2 hmap2 hmax2
    refine ⟨t, pth1, ?_, htt, hmt, table_only_trans _ _ _ hto hto2, ?_⟩
    · show PageTableWalker.handle_page_fault_from vm v (l + 2) s page = _
      simp only [PageTableWalker.handle_page_fault_from, hnone, ne_eq, not_true, if_false]
      exact hrun
    · intro hv hst hco
      exact hco2 hv hst (alloc_child_coherent vm s pth page _ d hlt hlen (by omega) hco)

/-- The loop of lines 105-118 in a tree, entered at the page of depth `d = 5 - i` of a path
mapped that far: it returns; either it finds every cell down to the level of the entry and
changes nothing, or it takes a page fault, after which the whole path is mapped and the
entry is at level 0. -/
theorem walk_loop_ok (vm : VirtualMemory) (m : PACKET) :
    ∀ i d s pth nlba, d + i = 5 → s.tree pth → s.mapped_upto m.v_address d = true →
      ∃ w, PageTableWalker.walk_loop vm i s m (s.page_at m.v_address d) nlba = some w
        ∧ ((w.page_fault = false ∧ w.ptw = s ∧ w.mshr = m
            ∧ (m.translation_level ≤ i →
                s.mapped_upto m.v_address (5 - m.translation_level) = true))
          ∨ (w.page_fault = true ∧ w.mshr = { m with translation_level := 0 }
            ∧ ∃ pth1, w.ptw.tree pth1 ∧ w.ptw.mapped m.v_address = true
              ∧ s.table_only w.ptw
              ∧ (m.v_address < 2 ^ 57 → vm.page_stable → s.coherent vm pth →
                  w.ptw.coherent vm pth1))) := by
  intro i
  induction i with
  | zero =>
    intro d s pth nlba hd ht hmap
    have hd5 : d = 5 := by omega
    subst hd5
    refine ⟨_, rfl, Or.inl ⟨rfl, rfl, rfl, ?_⟩⟩
    intro h0
    have : m.translation_level = 0 := by omega
    rw [this]
    exact hmap
  | succ i ih =>
    intro d s pth nlba hd ht hmap
    by_cases hgt : i + 1 > m.translation_level
    · obtain ⟨page, hpage⟩ := page_at_of_mapped s pth ht m.v_address d (by omega) hmap
      have h5d : 5 - d = i + 1 := by omega
      rw [hpage]
      by_cases hmax : (s.pages page).next_level_base_addr (get_offset m.v_address (i + 1))
          = UINT64_MAX
      · obtain ⟨t, pth1, hrun, htt, hmt, hto, hco⟩ :=
          handle_page_fault_from_ok vm m.v_address i d s pth page (by omega) ht hpage hmap hmax
        have hle : i + 1 ≤ 5 := by omega
        refine ⟨{ ptw := t, mshr := { m with translation_level := 0 }, curr_page := some page,
                  next_level_base_addr :=
                    (s.pages page).next_level_base_addr (get_offset m.v_address (i + 1)),
                  page_fault := true }, ?_, Or.inr ⟨rfl, rfl, pth1, htt, hmt, hto, hco⟩⟩
        simp only [PageTableWalker.walk_loop, hgt, if_true, hmax,
          PageTableWalker.handle_page_fault, hle, hrun]
      · have hnext : (s.pages page).entry (get_offset m.v_address (i + 1))
            = s.page_at m.v_address (d + 1) := by
          rw [PageTableWalker.page_at, hpage, h5d]
        have hmap2 : s.mapped_upto m.v_address (d + 1) = true := by
          rw [mapped_upto_succ]
          exact ⟨hmap, page, hpage, by rw [h5d]; exact hmax⟩
        obtain ⟨w, hw, hres⟩ := ih (d + 1) s pth
          ((s.pages page).next_level_base_addr (get_offset m.v_address (i + 1)))
          (by omega) ht hmap2
        refine ⟨w, ?_, ?_⟩
        · simp only [PageTableWalker.walk_loop, hgt, if_true, hmax, if_false, hnext]
          exact hw
        · rcases hres with ⟨h1, h2, h3, h4⟩ | h
          · exact Or.inl ⟨h1, h2, h3, fun _ => h4 (by omega)⟩
          · exact Or.inr h
    · refine ⟨{ ptw := s, mshr := m, curr_page := s.page_at m.v_address d,
                next_level_base_addr := nlba, page_fault := false }, ?_,
        Or.inl ⟨rfl, rfl, rfl, ?_⟩⟩
      · simp only [PageTableWalker.walk_loop, hgt, if_false]
      · intro hle
        have : 5 - m.translation_level = d := by omega
        rw [this]
        exact hmap

/-- A completing iteration of `handle_fill` in a tree. The front entry is at level 0, or a
cell above its level is missing and the walk takes a page fault; either way the walk of
lines 105-118 returns with the whole path mapped and the iteration is the completion of
lines 120-165 on the resulting table. -/
theorem handle_fill_step_done (vm : VirtualMemory) (warmup_complete : Bool)
    (s : PageTableWalker) (pth : Nat → List Nat) (m : PACKET) (rest : List PACKET)
    (ht : s.tree pth) (hm : s.MSHR = m :: rest) (hcr3 : s.CR3_addr ≠ UINT64_MAX)
    (hdone : m.translation_level = 0
      ∨ s.mapped_upto m.v_address (5 - m.translation_level) = false) :
    ∃ s1 pth1, s1.tree pth1 ∧ s1.mapped m.v_address = true ∧ s.table_only s1
      ∧ (m.v_address < 2 ^ 57 → vm.page_stable → s.coherent vm pth → s1.coherent vm pth1)
      ∧ s.handle_fill_step vm warmup_complete
          = s1.complete_translation warmup_complete { m with translation_level := 0 } rest := by
  obtain ⟨w, hw, hres⟩ := walk_loop_ok vm m 5 0 s pth UINT64_MAX rfl ht rfl
  have hw2 : PageTableWalker.walk_loop vm 5 s m (some s.L5) UINT64_MAX = some w := hw
  have hstep : s.handle_fill_step vm warmup_complete
      = if w.mshr.translation_level = 0 then
          w.ptw.complete_translation warmup_complete w.mshr rest
        else PageTableWalker.next_level_request w rest := by
    unfold PageTableWalker.handle_fill_step
    rw [hm]
    simp only [hcr3, if_false, hw2]
  rcases hres with ⟨-, h2, h3, h4⟩ | ⟨-, h3, pth1, htt, hmt, hto, hco⟩
  · have h0 : m.translation_level = 0 := by
      rcases hdone with h | h
      · exact h
      · by_cases hle : m.translation_level ≤ 5
        · rw [h4 hle] at h; exact absurd h (by simp)
        · have : 5 - m.translation_level = 0 := by omega
          rw [this] at h
          exact absurd h (by simp [PageTableWalker.mapped_upto])
    have hm0 : m = { m with translation_level := 0 } := by
      cases m
      simp only at h0
      subst h0
      rfl
    refine ⟨s, pth, ht, ?_, table_only_refl s, fun _ _ h => h, ?_⟩
    · have := h4 (by omega)
      rw [h0] at this
      exact this
    · rw [hstep, h3, h2, if_pos h0, ← hm0]
  · refine ⟨w.ptw, pth1, htt, hmt, hto, hco, ?_⟩
    rw [hstep, h3, if_pos rfl]

/-- The pages on a path depend on the pages and the root only. -/
theorem page_at_of_eq (s t : PageTableWalker) (hp : t.pages = s.pages) (hl : t.L5 = s.L5)
    (v d : Nat) : t.page_at v d = s.page_at v d := by
  induction d with
  | zero => simp only [PageTableWalker.page_at, hl]
  | succ d ih => simp only [PageTableWalker.page_at, ih, hp]

/-- The identity mapping `vm0` gives one frame to the addresses of one page. -/
theorem vm0_page_stable : vm0.page_stable := by
  intro cpu v w h
  simp only [vm0, Nat.shiftRight_eq_div_pow, LOG2_PAGE_SIZE] at h ⊢
  norm_num at h ⊢
  omega

/-- A walker that differs from the constructed one in its caches and queues only has a
coherent tree. -/
theorem table_coherent_of_init (vm : VirtualMemory) (s : PageTableWalker)
    (cr3 cursor num_set num_way : Nat)
    (hp : s.pages = (PageTableWalker.init cr3 cursor num_set num_way).pages)
    (hn : s.num_pages = (PageTableWalker.init cr3 cursor num_set num_way).num_pages)
    (hl : s.L5 = (PageTableWalker.init cr3 cursor num_set num_way).L5)
    (hc : s.cpu = (PageTableWalker.init cr3 cursor num_set num_way).cpu) :
    s.table_coherent vm := by
  obtain ⟨pth, ht, hco⟩ := init_table_coherent vm cr3 cursor num_set num_way
  exact ⟨pth, tree_of_eq _ s pth hp hn hl ht, coherent_of_eq vm _ s pth hp hn hc hco⟩

/-- A completing iteration of `handle_fill` in a coherent tree, for an address below
`2^57`, returns and leaves a coherent tree. -/
theorem handle_fill_step_coherent (vm : VirtualMemory) (warmup_complete : Bool)
    (s : PageTableWalker) (m : PACKET) (rest : List PACKET)
    (hst : vm.page_stable) (hok : s.table_coherent vm) (hm : s.MSHR = m :: rest)
    (hcr3 : s.CR3_addr ≠ UINT64_MAX) (hv : m.v_address < 2 ^ 57)
    (hret : ReturnSink.this_ptw ∉ m.to_return)
    (hdone : m.translation_level = 0
      ∨ s.mapped_upto m.v_address (5 - m.translation_level) = false) :
    ∃ t, s.handle_fill_step vm warmup_complete = some t ∧ t.table_coherent vm := by
  obtain ⟨pth, ht, hco⟩ := hok
  obtain ⟨s1, pth1, ht1, hm1, -, hco1, hstep⟩ :=
    handle_fill_step_done vm warmup_complete s pth m rest ht hm hcr3 hdone
  obtain ⟨t, -, -, -, -, hct, -, -, -, -, -, -, hpages, hnum, hL5, hcpu, -⟩ :=
    complete_translation_mapped warmup_complete s1 { m with translation_level := 0 } rest hm1
      hret
  exact ⟨t, by rw [hstep]; exact hct, pth1, tree_of_eq s1 t pth1 hpages hnum hL5 ht1,
    coherent_of_eq vm s1 t pth1 hpages hnum hcpu (hco1 hv hst hco)⟩

/-- C6 (amended). Let the page table be a tree built by walks of addresses below `2^57`
(`table_coherent`), `va_to_pa` a stable function of the cpu and the page, and the front MSHR
entry an entry for an address `v` below `2^57` whose sinks are not the walker itself. When
the iteration of `handle_fill` on that entry completes the translation (the entry is at level
0, or a cell above its level is missing and the walk takes a page fault), whatever the
contents of the PSCLs: the iteration returns, every sink of `to_return` is handed the entry
with `address = v_address` and `data = va_to_pa(cpu, v) >> LOG2_PAGE_SIZE`, the MSHR entry is
erased in the same step, and the page table is again a coherent tree. The hypothesis on the
page table holds in every reachable state (`reachable_inv`). -/
theorem handle_fill_translates (vm : VirtualMemory) (warmup_complete : Bool)
    (s : PageTableWalker) (m : PACKET) (rest : List PACKET)
    (hst : vm.page_stable) (hok : s.table_coherent vm) (hm : s.MSHR = m :: rest)
    (hcr3 : s.CR3_addr ≠ UINT64_MAX) (hv : m.v_address < 2 ^ 57)
    (hret : ReturnSink.this_ptw ∉ m.to_return)
    (hdone : m.translation_level = 0
      ∨ s.mapped_upto m.v_address (5 - m.translation_level) = false) :
    ∃ t, s.handle_fill_step vm warmup_complete = some t
      ∧ t.table_coherent vm
      ∧ t.returned = s.returned ++ m.to_return.map (fun ret =>
          (ret, { m with translation_level := 0, address := m.v_address,
                         data := vm.va_to_pa s.cpu m.v_address >>> LOG2_PAGE_SIZE }))
      ∧ t.MSHR = rest := by
  obtain ⟨pth, ht, hco⟩ := hok
  obtain ⟨s1, pth1, ht1, hm1, hto, hco1, hstep⟩ :=
    handle_fill_step_done vm warmup_complete s pth m rest ht hm hcr3 hdone
  obtain ⟨t, p4, p3, p2, p1, hct, -, -, -, -, hp1, n1, hpages, hnum, hL5, hcpu, -, -, hmshr, hrt, -⟩ :=
    complete_translation_mapped warmup_complete s1 { m with translation_level := 0 } rest hm1
      hret
  obtain ⟨hlt, hpath⟩ := page_at_path s1 pth1 ht1 m.v_address 4 p1 hp1
  have hleaf := hco1 hv hst hco p1 m.v_address hlt hv hpath n1
  have hf := table_only_fields s s1 hto
  refine ⟨t, by rw [hstep]; exact hct,
    ⟨pth1, tree_of_eq s1 t pth1 hpages hnum hL5 ht1,
      coherent_of_eq vm s1 t pth1 hpages hnum hcpu (hco1 hv hst hco)⟩, ?_, hmshr⟩
  rw [hrt, hf.2.2.1]
  simp only at hleaf ⊢
  rw [hleaf, hf.1]

/-- Witness for C6: the cold-walk scenario at the step where the answer to the level-5
request has come back; the walk takes a page fault and completes. -/
theorem handle_fill_translates_witness :
    ∃ t, ptw_cold_answered.handle_fill_step vm0 true = some t
      ∧ t.returned = [(ReturnSink.producer 0,
          { entry_cold with translation_level := 0, address := 0x1122334455678,
                            data := 0x1122334455 })]
      ∧ t.MSHR = [] := by
  obtain ⟨t, h1, -, h3, h4⟩ := handle_fill_translates vm0 true ptw_cold_answered entry_cold []
    vm0_page_stable
    (table_coherent_of_init vm0 _ 0x100 0xf000000f00000000 2 4 rfl rfl rfl rfl)
    rfl (by decide) (by decide) (by decide) (Or.inr (by decide))
  refine ⟨t, h1, ?_, h4⟩
  rw [h3]
  decide

/-- The cells of levels 5 to 2 on a path whose pages are known. -/
theorem cell_chain (s : PageTableWalker) (v p4 p3 p2 : Nat)
    (e4 : (s.pages s.L5).entry (get_offset v 5) = some p4)
    (e3 : (s.pages p4).entry (get_offset v 4) = some p3)
    (e2 : (s.pages p3).entry (get_offset v 3) = some p2) :
    s.cell v 5 = some ((s.pages s.L5).next_level_base_addr (get_offset v 5))
      ∧ s.cell v 4 = some ((s.pages p4).next_level_base_addr (get_offset v 4))
      ∧ s.cell v 3 = some ((s.pages p3).next_level_base_addr (get_offset v 3))
      ∧ s.cell v 2 = some ((s.pages p2).next_level_base_addr (get_offset v 2)) := by
  simp [PageTableWalker.cell, PageTableWalker.page_at, e4, e3, e2]

/-- The cells on a path depend on the pages and the root only. -/
theorem cell_of_eq (s t : PageTableWalker) (hp : t.pages = s.pages) (hl : t.L5 = s.L5)
    (v i : Nat) : t.cell v i = s.cell v i := by
  simp only [PageTableWalker.cell, page_at_of_eq s t hp hl, hp]

/-- C9. When an iteration of `handle_fill` completes the translation of the front MSHR entry
(the entry is at level 0, or the walk takes a page fault) in a page table that is a tree, it
returns, and with `k = init_translation_level` the cache of each level `i` in 2..5 is the
result of one `fill_cache` with the cell of level `i` on the path of `v_address` if `i ≤ k`,
and is untouched otherwise: for `k = 2` only PSCL2 is filled, for `k = 5` all four are, for
`k ≤ 1` none is. -/
theorem handle_fill_fills_caches (vm : VirtualMemory) (warmup_complete : Bool)
    (s : PageTableWalker) (m : PACKET) (rest : List PACKET)
    (hok : s.table_ok) (hm : s.MSHR = m :: rest) (hcr3 : s.CR3_addr ≠ UINT64_MAX)
    (hret : ReturnSink.this_ptw ∉ m.to_return)
    (hdone : m.translation_level = 0
      ∨ s.mapped_upto m.v_address (5 - m.translation_level) = false) :
    ∃ t b5 b4 b3 b2, s.handle_fill_step vm warmup_complete = some t
      ∧ t.cell m.v_address 5 = some b5 ∧ t.cell m.v_address 4 = some b4
      ∧ t.cell m.v_address 3 = some b3 ∧ t.cell m.v_address 2 = some b2
      ∧ t.PSCL5 = (if 5 ≤ m.init_translation_level then
          s.PSCL5.fill_cache b5 { m with translation_level := 0 } else s.PSCL5)
      ∧ t.PSCL4 = (if 4 ≤ m.init_translation_level then
          s.PSCL4.fill_cache b4 { m with translation_level := 0 } else s.PSCL4)
      ∧ t.PSCL3 = (if 3 ≤ m.init_translation_level then
          s.PSCL3.fill_cache b3 { m with translation_level := 0 } else s.PSCL3)
      ∧ t.PSCL2 = (if 2 ≤ m.init_translation_level then
          s.PSCL2.fill_cache b2 { m with translation_level := 0 } else s.PSCL2)
      ∧ (m.init_translation_level = 2 →
          t.PSCL5 = s.PSCL5 ∧ t.PSCL4 = s.PSCL4 ∧ t.PSCL3 = s.PSCL3
            ∧ t.PSCL2 = s.PSCL2.fill_cache b2 { m with translation_level := 0 })
      ∧ (m.init_translation_level = 5 →
          t.PSCL5 = s.PSCL5.fill_cache b5 { m with translation_level := 0 }
            ∧ t.PSCL4 = s.PSCL4.fill_cache b4 { m with translation_level := 0 }
            ∧ t.PSCL3 = s.PSCL3.fill_cache b3 { m with translation_level := 0 }
            ∧ t.PSCL2 = s.PSCL2.fill_cache b2 { m with translation_level := 0 })
      ∧ (m.init_translation_level ≤ 1 →
          t.PSCL5 = s.PSCL5 ∧ t.PSCL4 = s.PSCL4 ∧ t.PSCL3 = s.PSCL3 ∧ t.PSCL2 = s.PSCL2) := by
  obtain ⟨pth, ht⟩ := hok
  obtain ⟨s1, pth1, ht1, hm1, hto, -, hstep⟩ :=
    handle_fill_step_done vm warmup_complete s pth m rest ht hm hcr3 hdone
  obtain ⟨t, p4, p3, p2, p1, hct, e4, e3, e2, -, -, -, hpages, -, hL5, -, -, -, -, -, h5, h4, h3,
      h2⟩ :=
    complete_translation_mapped warmup_complete s1 { m with translation_level := 0 } rest hm1
      hret
  obtain ⟨c5, c4, c3, c2⟩ := cell_chain s1 m.v_address p4 p3 p2 e4 e3 e2
  have hf := table_only_fields s s1 hto
  rw [hf.2.2.2.2.1] at h5
  rw [hf.2.2.2.2.2.1] at h4
  rw [hf.2.2.2.2.2.2.1] at h3
  rw [hf.2.2.2.2.2.2.2.1] at h2
  simp only at h5 h4 h3 h2
  refine ⟨t, _, _, _, _, by rw [hstep]; exact hct,
    by rw [cell_of_eq s1 t hpages hL5]; exact c5,
    by rw [cell_of_eq s1 t hpages hL5]; exact c4,
    by rw [cell_of_eq s1 t hpages hL5]; exact c3,
    by rw [cell_of_eq s1 t hpages hL5]; exact c2, h5, h4, h3, h2, ?_, ?_, ?_⟩
  · intro hk
    rw [hk] at h5 h4 h3 h2
    exact ⟨h5, h4, h3, h2⟩
  · intro hk
    rw [hk] at h5 h4 h3 h2
    exact ⟨h5, h4, h3, h2⟩
  · intro hk
    rw [if_neg (by omega)] at h5 h4 h3 h2
    exact ⟨h5, h4, h3, h2⟩

/-- Witness for C9: the "hit in PSCL3" scenario, whose entry started at level 2; the
completing step fills PSCL2 only. -/
theorem handle_fill_fills_caches_witness :
    ∃ t b2, ptw_pscl3_answered.handle_fill_step vm0 true = some t
      ∧ t.cell 0x1122334455678 2 = some b2
      ∧ t.PSCL5 = ptw_pscl3_answered.PSCL5 ∧ t.PSCL4 = ptw_pscl3_answered.PSCL4
      ∧ t.PSCL3 = ptw_pscl3_answered.PSCL3
      ∧ t.PSCL2 = ptw_pscl3_answered.PSCL2.fill_cache b2
          { entry_pscl3_hit with translation_level := 0 } := by
  obtain ⟨t, b5, b4, b3, b2, h1, -, -, -, c2, -, -, -, -, hk, -, -⟩ :=
    handle_fill_fills_caches vm0 true ptw_pscl3_answered entry_pscl3_hit []
      (by
        obtain ⟨pth, ht, -⟩ := table_coherent_of_init vm0 ptw_pscl3_answered 0x100
          0xf000000f00000000 2 4 rfl rfl rfl rfl
        exact ⟨pth, ht⟩)
      rfl (by decide) (by decide) (Or.inr (by decide))
  exact ⟨t, b2, h1, c2, hk rfl⟩

/-- C6, counterexample. After the walk of `v = 0x1122334455678` the walk of `v + 2^57`, an
address of another page, ends with the frame of `v` as data: `get_offset` reads the low 57
bits only, so both addresses lead to one leaf cell. -/
theorem handle_fill_alias_counterexample :
    run_alias.map (fun t => (t.MSHR, t.returned.map (fun r => (r.2.address, r.2.data))))
        = some ([], [(0x1122334455678, 0x1122334455),
                     (0x1122334455678 + 2 ^ 57, 0x1122334455)])
      ∧ vm0.va_to_pa 0 (0x1122334455678 + 2 ^ 57) >>> LOG2_PAGE_SIZE ≠ 0x1122334455 := by
  decide

/-- The leaf cell on a path whose pages are known. -/
theorem cell_leaf (s : PageTableWalker) (v p4 p3 p2 p1 : Nat)
    (e4 : (s.pages s.L5).entry (get_offset v 5) = some p4)
    (e3 : (s.pages p4).entry (get_offset v 4) = some p3)
    (e2 : (s.pages p3).entry (get_offset v 3) = some p2)
    (e1 : (s.pages p2).entry (get_offset v 2) = some p1) :
    s.cell v 1 = some ((s.pages p1).next_level_base_addr (get_offset v 1)) := by
  simp [PageTableWalker.cell, PageTableWalker.page_at, e4, e3, e2, e1]

/-- Whether a path is mapped depends on the pages and the root only. -/
theorem mapped_of_eq (s t : PageTableWalker) (hp : t.pages = s.pages) (hl : t.L5 = s.L5)
    (v : Nat) : t.mapped v = s.mapped v := by
  unfold PageTableWalker.mapped
  generalize 5 = d
  induction d with
  | zero => rfl
  | succ d ih => simp only [PageTableWalker.mapped_upto, ih, page_at_of_eq s t hp hl, hp]

/-- The loop of `handle_read` stops after an iteration that empties the read queue. -/
theorem handle_read_loop_once (s t : PageTableWalker) (n : Nat) (hn : 0 < n)
    (hg : s.handle_read_guard = true) (hs : s.handle_read_step = some t) (ht : t.RQ = []) :
    PageTableWalker.handle_read_loop n s = some t := by
  cases n with
  | zero => omega
  | succ n =>
    rw [PageTableWalker.handle_read_loop]
    simp only [hg, if_true, hs]
    cases n with
    | zero => rfl
    | succ n =>
      rw [PageTableWalker.handle_read_loop]
      simp [PageTableWalker.handle_read_guard, PageTableWalker.RQ_has_ready, ht]

/-- With a single ready request, room everywhere and nothing in flight, `handle_read` sends
one request to the lower level and creates one MSHR entry. -/
theorem handle_read_single (s : PageTableWalker) (e : DelayEntry)
    (hrq : s.RQ = [e]) (hready : e.delay = 0)
    (ha : e.pkt.address >>> 32 ≠ 0xf000000f) (hv : e.pkt.v_address ≠ 0)
    (hmshr : s.MSHR = []) (hlow : s.lower_RQ = []) (hsz : 0 < s.lower_RQ_SIZE)
    (hms : 0 < s.MSHR_SIZE) (hmr : 0 < s.MAX_READ) :
    s.handle_read = some
      { s with
        lower_RQ := [s.read_request e.pkt (s.PSCL5.probe e.pkt.address)
          (s.PSCL4.probe e.pkt.address) (s.PSCL3.probe e.pkt.address)
          (s.PSCL2.probe e.pkt.address)]
        MSHR := [s.read_entry e.pkt (s.read_request e.pkt
          (s.PSCL5.probe e.pkt.address) (s.PSCL4.probe e.pkt.address)
          (s.PSCL3.probe e.pkt.address) (s.PSCL2.probe e.pkt.address))]
        RQ := [] } := by
  have hstep := handle_read_step_eq s e [] hrq ha hv (by rw [hlow]; exact hsz)
  rw [hlow, hmshr] at hstep
  simp only [List.nil_append] at hstep
  have hguard : s.handle_read_guard = true := by
    simp only [PageTableWalker.handle_read_guard, PageTableWalker.RQ_has_ready, hrq, hready,
      hmshr, hlow, List.length_nil]
    have h1 : (0 == s.MSHR_SIZE) = false := by simp; omega
    have h2 : (0 == s.lower_RQ_SIZE) = false := by simp; omega
    simp [h1, h2]
  unfold PageTableWalker.handle_read
  exact handle_read_loop_once s _ s.MAX_READ hmr hguard hstep rfl

/-- The answer to the request of the single MSHR entry moves the entry one level down and
makes it due. -/
theorem return_data_single (s : PageTableWalker) (m r : PACKET) (k : Nat)
    (hM : s.MSHR = [m]) (hra : r.address = m.address)
    (hrl : r.translation_level = m.translation_level) (hml : m.translation_level = k + 1) :
    s.return_data r = some
      { s with MSHR := [{ m with translation_level := k,
                                 event_cycle := s.current_cycle }] } := by
  unfold PageTableWalker.return_data
  rw [hM]
  simp [hra, hrl, hml, sort_by_event_cycle, insert_by_event_cycle]

/-- On a mapped path the loop of lines 105-118 takes no page fault: it changes nothing and
leaves the cell of the level above the entry as `next_level_base_addr`. -/
theorem walk_loop_mapped (vm : VirtualMemory) (s : PageTableWalker) (m : PACKET)
    (hmap : s.mapped m.v_address = true) (hk : m.translation_level ≤ 4) :
    ∃ w, PageTableWalker.walk_loop vm 5 s m (some s.L5) UINT64_MAX = some w
      ∧ w.ptw = s ∧ w.mshr = m ∧ w.page_fault = false
      ∧ s.cell m.v_address (m.translation_level + 1) = some w.next_level_base_addr := by
  obtain ⟨p4, p3, p2, p1, e4, e3, e2, e1, n5, n4, n3, n2, n1, -⟩ :=
    mapped_chain s m.v_address hmap
  obtain ⟨c5, c4, c3, c2⟩ := cell_chain s m.v_address p4 p3 p2 e4 e3 e2
  have c1 := cell_leaf s m.v_address p4 p3 p2 p1 e4 e3 e2 e1
  have h : m.translation_level = 0 ∨ m.translation_level = 1 ∨ m.translation_level = 2
      ∨ m.translation_level = 3 ∨ m.translation_level = 4 := by omega
  rcases h with h | h | h | h | h
  · refine ⟨{ ptw := s, mshr := m, curr_page := (s.pages p1).entry (get_offset m.v_address 1),
              next_level_base_addr := (s.pages p1).next_level_base_addr (get_offset m.v_address 1),
              page_fault := false }, ?_, rfl, rfl, rfl, ?_⟩
    · simp [PageTableWalker.walk_loop, h, e4, e3, e2, e1, n5, n4, n3, n2, n1]
    · rw [h]; exact c1
  · refine ⟨{ ptw := s, mshr := m, curr_page := some p1,
              next_level_base_addr := (s.pages p2).next_level_base_addr (get_offset m.v_address 2),
              page_fault := false }, ?_, rfl, rfl, rfl, ?_⟩
    · simp [PageTableWalker.walk_loop, h, e4, e3, e2, e1, n5, n4, n3, n2, n1]
    · rw [h]; exact c2
  · refine ⟨{ ptw := s, mshr := m, curr_page := some p2,
              next_level_base_addr := (s.pages p3).next_level_base_addr (get_offset m.v_address 3),
              page_fault := false }, ?_, rfl, rfl, rfl, ?_⟩
    · simp [PageTableWalker.walk_loop, h, e4, e3, e2, e1, n5, n4, n3, n2, n1]
    · rw [h]; exact c3
  · refine ⟨{ ptw := s, mshr := m, curr_page := some p3,
              next_level_base_addr := (s.pages p4).next_level_base_addr (get_offset m.v_address 4),
              page_fault := false }, ?_, rfl, rfl, rfl, ?_⟩
    · simp [PageTableWalker.walk_loop, h, e4, e3, e2, e1, n5, n4, n3, n2, n1]
    · rw [h]; exact c4
  · refine ⟨{ ptw := s, mshr := m, curr_page := some p4,
              next_level_base_addr := (s.pages s.L5).next_level_base_addr (get_offset m.v_address 5),
              page_fault := false }, ?_, rfl, rfl, rfl, ?_⟩
    · simp [PageTableWalker.walk_loop, h, e4, e3, e2, e1, n5, n4, n3, n2, n1]
    · rw [h]; exact c5

/-- Only the queues change: the other members are those of `s`. -/
theorem queues_only_fields (s t : PageTableWalker) (h : s.queues_only t) :
    t.pages = s.pages ∧ t.L5 = s.L5 ∧ t.num_pages = s.num_pages ∧ t.cpu = s.cpu
      ∧ t.current_cycle = s.current_cycle ∧ t.lower_RQ_SIZE = s.lower_RQ_SIZE
      ∧ t.MAX_FILL = s.MAX_FILL ∧ t.CR3_addr = s.CR3_addr
      ∧ t.PSCL5 = s.PSCL5 ∧ t.PSCL4 = s.PSCL4 ∧ t.PSCL3 = s.PSCL3 ∧ t.PSCL2 = s.PSCL2
      ∧ t.returned = s.returned ∧ t.RQ = s.RQ := by
  unfold PageTableWalker.queues_only at h
  refine ⟨?_, ?_, ?_, ?_, ?_, ?_, ?_, ?_, ?_, ?_, ?_, ?_, ?_, ?_⟩ <;> (rw [h])

/-- Two changes of the queues only make one. -/
theorem queues_only_trans (s t u : PageTableWalker) (h1 : s.queues_only t)
    (h2 : t.queues_only u) : s.queues_only u := by
  unfold PageTableWalker.queues_only at *
  rw [h2, h1]

/-- The loop of `handle_fill` stops after an iteration that leaves no due entry at the front
of the MSHR. -/
theorem handle_fill_loop_once (vm : VirtualMemory) (warmup_complete : Bool)
    (s t : PageTableWalker) (n : Nat) (hn : 0 < n) (hg : s.handle_fill_guard = true)
    (hs : s.handle_fill_step vm warmup_complete = some t)
    (ht : t.handle_fill_guard = false) :
    PageTableWalker.handle_fill_loop vm warmup_complete n s = some t := by
  cases n with
  | zero => omega
  | succ n =>
    rw [PageTableWalker.handle_fill_loop]
    simp only [hg, if_true, hs]
    cases n with
    | zero => rfl
    | succ n =>
      rw [PageTableWalker.handle_fill_loop]
      simp [ht]

/-- An iteration of `handle_fill` on an entry at a level 1 to 4 of a mapped path, with room
in the read queue of the lower level: the request for the cell of that level goes out and
the entry, waiting again, moves to the tail of the MSHR. -/
theorem handle_fill_step_next (vm : VirtualMemory) (warmup_complete : Bool)
    (s : PageTableWalker) (m : PACKET) (rest : List PACKET) (b : Nat)
    (hM : s.MSHR = m :: rest) (hmap : s.mapped m.v_address = true)
    (hk1 : 1 ≤ m.translation_level) (hk4 : m.translation_level ≤ 4)
    (hb : s.cell m.v_address (m.translation_level + 1) = some b)
    (hroom : s.lower_RQ.length < s.lower_RQ_SIZE) (hcr3 : s.CR3_addr ≠ UINT64_MAX) :
    s.handle_fill_step vm warmup_complete = some
      { s with
        lower_RQ := s.lower_RQ ++ [s.fill_request m b]
        MSHR := rest ++ [{ m with event_cycle := UINT64_MAX,
                                  address := (s.fill_request m b).address }] } := by
  obtain ⟨w, hw, h1, h2, h3, h4⟩ := walk_loop_mapped vm s m hmap hk4
  rw [hb] at h4
  have hbw : w.next_level_base_addr = b := (Option.some.inj h4).symm
  have hne : m.translation_level ≠ 0 := by omega
  unfold PageTableWalker.handle_fill_step
  rw [hM]
  simp only [hcr3, if_false, hw, h2, hne]
  unfold PageTableWalker.next_level_request
  simp only [h3, h1, hroom, if_true, PageTableWalker.lower_add_rq, h2, hbw]
  simp

/-- A round trip in the middle of a walk of a mapped path: the answer to the request of
level `k + 1` takes the entry to level `k`, between 1 and 4, and `handle_fill` sends the
request of level `k`, for the cell of `v` in the page whose base is the cell of level
`k + 1`. Nothing but the two queues changes. -/
theorem round_next (vm : VirtualMemory) (warmup_complete : Bool) (s : PageTableWalker)
    (m r : PACKET) (v b k : Nat) (hM : s.MSHR = [m]) (hR : s.lower_RQ = [r])
    (hv : m.v_address = v) (hmap : s.mapped v = true) (hra : r.address = m.address)
    (hrl : r.translation_level = m.translation_level)
    (hml : m.translation_level = k + 1) (hk1 : 1 ≤ k) (hk4 : k ≤ 4)
    (hb : s.cell v (k + 1) = some b)
    (hcc : s.current_cycle < UINT64_MAX) (hsz : 0 < s.lower_RQ_SIZE) (hmf : 0 < s.MAX_FILL)
    (hcr3 : s.CR3_addr ≠ UINT64_MAX) :
    ∃ t, s.round vm warmup_complete = some t ∧ s.queues_only t
      ∧ t.MSHR = [{ m with translation_level := k, event_cycle := UINT64_MAX,
                           address := next_address b v k }]
      ∧ t.lower_RQ = [{ m with translation_level := k, event_cycle := s.current_cycle,
                               cpu := s.cpu, type := TRANSLATION,
                               address := next_address b v k,
                               to_return := [ReturnSink.this_ptw] }] := by
  subst hv
  have hrd := return_data_single { s with lower_RQ := [] } m r k hM hra hrl hml
  obtain ⟨S, hS⟩ : ∃ S : PageTableWalker, S = { s with
      lower_RQ := [],
      MSHR := [{ m with translation_level := k, event_cycle := s.current_cycle }] } :=
    ⟨_, rfl⟩
  have hp : S.pages = s.pages := by rw [hS]
  have hl : S.L5 = s.L5 := by rw [hS]
  have hstep := handle_fill_step_next vm warmup_complete S
    { m with translation_level := k, event_cycle := s.current_cycle } [] b (by rw [hS])
    (by rw [mapped_of_eq s S hp hl]; exact hmap) hk1 hk4
    (by rw [cell_of_eq s S hp hl]; exact hb) (by rw [hS]; exact hsz) (by rw [hS]; exact hcr3)
  have hg : S.handle_fill_guard = true := by
    rw [hS]
    simp [PageTableWalker.handle_fill_guard]
  have hrun : s.round vm warmup_complete = some
      { S with
        lower_RQ := S.lower_RQ ++ [S.fill_request
          { m with translation_level := k, event_cycle := s.current_cycle } b]
        MSHR := [] ++ [{ ({ m with translation_level := k, event_cycle := s.current_cycle }
                            : PACKET) with
                         event_cycle := UINT64_MAX,
                         address := (S.fill_request
                           { m with translation_level := k, event_cycle := s.current_cycle }
                           b).address }] } := by
    unfold PageTableWalker.round PageTableWalker.lower_answer
    rw [hR]
    simp only [hrd, Option.bind, ← hS]
    unfold PageTableWalker.handle_fill
    exact handle_fill_loop_once vm warmup_complete _ _ _ (by rw [hS]; exact hmf) hg hstep
      (by rw [hS]; simp [PageTableWalker.handle_fill_guard]; exact hcc)
  refine ⟨_, hrun, ?_, ?_, ?_⟩
  · rw [hS]; rfl
  · rw [hS]; simp [PageTableWalker.fill_request]
  · rw [hS]; simp [PageTableWalker.fill_request]

/-- The round trip of `round_next`, told by what it leaves in the two queues. -/
theorem round_next_entry (vm : VirtualMemory) (warmup_complete : Bool) (s : PageTableWalker)
    (m r : PACKET) (v b k : Nat) (hM : s.MSHR = [m]) (hR : s.lower_RQ = [r])
    (hv : m.v_address = v) (hmap : s.mapped v = true) (hra : r.address = m.address)
    (hrl : r.translation_level = m.translation_level)
    (hml : m.translation_level = k + 1) (hk1 : 1 ≤ k) (hk4 : k ≤ 4)
    (hb : s.cell v (k + 1) = some b)
    (hcc : s.current_cycle < UINT64_MAX) (hsz : 0 < s.lower_RQ_SIZE) (hmf : 0 < s.MAX_FILL)
    (hcr3 : s.CR3_addr ≠ UINT64_MAX) :
    ∃ t m1 r1, s.round vm warmup_complete = some t ∧ s.queues_only t
      ∧ t.MSHR = [m1] ∧ t.lower_RQ = [r1]
      ∧ m1.v_address = v ∧ m1.translation_level = k
      ∧ m1.init_translation_level = m.init_translation_level
      ∧ m1.to_return = m.to_return ∧ m1.address = next_address b v k
      ∧ m1.event_cycle = UINT64_MAX
      ∧ r1.address = m1.address ∧ r1.translation_level = m1.translation_level
      ∧ r1.v_address = v ∧ r1.type = TRANSLATION ∧ r1.to_return = [ReturnSink.this_ptw] := by
  obtain ⟨t, h1, h2, h3, h4⟩ := round_next vm warmup_complete s m r v b k hM hR hv hmap hra
    hrl hml hk1 hk4 hb hcc hsz hmf hcr3
  exact ⟨t, _, _, h1, h2, h3, h4, hv, rfl, rfl, rfl, rfl, rfl, rfl, rfl, hv, rfl, rfl⟩

/-- An iteration of `handle_fill` on an entry at level 0 of a mapped path is the completion
of lines 120-165 on the unchanged page table. -/
theorem handle_fill_step_last (vm : VirtualMemory) (warmup_complete : Bool)
    (s : PageTableWalker) (m : PACKET) (rest : List PACKET)
    (hM : s.MSHR = m :: rest) (hmap : s.mapped m.v_address = true)
    (h0 : m.translation_level = 0) (hcr3 : s.CR3_addr ≠ UINT64_MAX) :
    s.handle_fill_step vm warmup_complete = s.complete_translation warmup_complete m rest := by
  obtain ⟨w, hw, h1, h2, -, -⟩ := walk_loop_mapped vm s m hmap (by omega)
  unfold PageTableWalker.handle_fill_step
  rw [hM]
  simp only [hcr3, if_false, hw, h2, h0, if_true, h1]

/-- The last round trip of a walk of a mapped path: the answer to the level-1 request
takes the entry to level 0 and `handle_fill` completes the translation. The caches of the
levels up to `init_translation_level` are filled with the cells of the path, every sink gets
the packet with the leaf cell as data, and both queues are empty. -/
theorem round_last (vm : VirtualMemory) (warmup_complete : Bool) (s : PageTableWalker)
    (m r : PACKET) (v : Nat) (hM : s.MSHR = [m]) (hR : s.lower_RQ = [r])
    (hv : m.v_address = v) (hmap : s.mapped v = true) (hra : r.address = m.address)
    (hrl : r.translation_level = m.translation_level)
    (hml : m.translation_level = 1) (hret : ReturnSink.this_ptw ∉ m.to_return)
    (hmf : 0 < s.MAX_FILL) (hcr3 : s.CR3_addr ≠ UINT64_MAX) :
    ∃ t b5 b4 b3 b2 b1, s.round vm warmup_complete = some t
      ∧ s.cell v 5 = some b5 ∧ s.cell v 4 = some b4
      ∧ s.cell v 3 = some b3 ∧ s.cell v 2 = some b2
      ∧ s.cell v 1 = some b1
      ∧ t.MSHR = [] ∧ t.lower_RQ = []
      ∧ t.returned = s.returned ++ m.to_return.map (fun ret =>
          (ret, { m with translation_level := 0, event_cycle := s.current_cycle,
                         data := b1, address := v }))
      ∧ t.PSCL5 = (if 5 ≤ m.init_translation_level then s.PSCL5.fill_cache b5
          { m with translation_level := 0, event_cycle := s.current_cycle } else s.PSCL5)
      ∧ t.PSCL4 = (if 4 ≤ m.init_translation_level then s.PSCL4.fill_cache b4
          { m with translation_level := 0, event_cycle := s.current_cycle } else s.PSCL4)
      ∧ t.PSCL3 = (if 3 ≤ m.init_translation_level then s.PSCL3.fill_cache b3
          { m with translation_level := 0, event_cycle := s.current_cycle } else s.PSCL3)
      ∧ t.PSCL2 = (if 2 ≤ m.init_translation_level then s.PSCL2.fill_cache b2
          { m with translation_level := 0, event_cycle := s.current_cycle } else s.PSCL2)
      ∧ t.pages = s.pages ∧ t.num_pages = s.num_pages ∧ t.L5 = s.L5 ∧ t.cpu = s.cpu := by
  subst hv
  have hrd := return_data_single { s with lower_RQ := [] } m r 0 hM hra hrl hml
  obtain ⟨S, hS⟩ : ∃ S : PageTableWalker, S = { s with
      lower_RQ := [],
      MSHR := [{ m with translation_level := 0, event_cycle := s.current_cycle }] } :=
    ⟨_, rfl⟩
  have hp : S.pages = s.pages := by rw [hS]
  have hl : S.L5 = s.L5 := by rw [hS]
  have hmapS : S.mapped m.v_address = true := by rw [mapped_of_eq s S hp hl]; exact hmap
  have hstep := handle_fill_step_last vm warmup_complete S
    { m with translation_level := 0, event_cycle := s.current_cycle } [] (by rw [hS])
    hmapS rfl (by rw [hS]; exact hcr3)
  obtain ⟨t, p4, p3, p2, p1, hct, e4, e3, e2, e1, -, -, tp, tn, tl, tc, tlow, -, tm, tr, t5, t4,
      t3, t2⟩ :=
    complete_translation_mapped warmup_complete S
      { m with translation_level := 0, event_cycle := s.current_cycle } [] hmapS hret
  rw [hct] at hstep
  obtain ⟨c5, c4, c3, c2⟩ := cell_chain S m.v_address p4 p3 p2 e4 e3 e2
  have c1 := cell_leaf S m.v_address p4 p3 p2 p1 e4 e3 e2 e1
  rw [cell_of_eq s S hp hl] at c5 c4 c3 c2 c1
  have hg : S.handle_fill_guard = true := by
    rw [hS]
    simp [PageTableWalker.handle_fill_guard]
  have hrun : s.round vm warmup_complete = some t := by
    unfold PageTableWalker.round PageTableWalker.lower_answer
    rw [hR]
    simp only [hrd, Option.bind, ← hS]
    unfold PageTableWalker.handle_fill
    exact handle_fill_loop_once vm warmup_complete _ _ _ (by rw [hS]; exact hmf) hg hstep
      (by simp [PageTableWalker.handle_fill_guard, tm])
  refine ⟨t, _, _, _, _, _, hrun, c5, c4, c3, c2, c1, tm, ?_, ?_, ?_, ?_, ?_, ?_, ?_, ?_, ?_,
    ?_⟩
  · rw [tlow, hS]
  · rw [tr, hS]
  · rw [t5, hS]
  · rw [t4, hS]
  · rw [t3, hS]
  · rw [t2, hS]
  · rw [tp, hp]
  · rw [tn, hS]
  · rw [tl, hl]
  · rw [tc, hS]

/-- C7 (amended). Let the PSCLs all miss for `v` (as when they are empty,
`fresh_check_hit`) and let the page
table already hold the path of `v`, in a coherent tree, with `v` below `2^57`, the request for
`v` alone and ready in the read queue, nothing in flight and room everywhere. Then
`handle_read` followed by five round trips (answer of the lower level, `handle_fill`) runs as
follows: `handle_read` sends the level-5 request (base `CR3_addr`) and every round trip but
the last sends the request of the next level (base: the cell of the level above), so that
exactly five requests go to the lower level, one per level; the MSHR entry is at the levels
5, 4, 3, 2, 1 in turn and at level 0 when it is handed to the sinks; the caches are untouched
until the last round trip, which fills each of PSCL5, PSCL4, PSCL3, PSCL2 by one
`fill_cache` with the cell of its level; and the data handed to the sinks is
`va_to_pa(cpu, v) >> LOG2_PAGE_SIZE`. -/
theorem cold_walk_over_mapped_table (vm : VirtualMemory) (warmup_complete : Bool)
    (s : PageTableWalker) (e : DelayEntry)
    (hok : s.table_coherent vm)
    (hmap : s.mapped e.pkt.address = true) (hv57 : e.pkt.address < 2 ^ 57)
    (h5 : s.PSCL5.check_hit e.pkt.address = some UINT64_MAX)
    (h4 : s.PSCL4.check_hit e.pkt.address = some UINT64_MAX)
    (h3 : s.PSCL3.check_hit e.pkt.address = some UINT64_MAX)
    (h2 : s.PSCL2.check_hit e.pkt.address = some UINT64_MAX)
    (hrq : s.RQ = [e]) (hready : e.delay = 0)
    (ha : e.pkt.address >>> 32 ≠ 0xf000000f) (hv0 : e.pkt.v_address ≠ 0)
    (hret : ReturnSink.this_ptw ∉ e.pkt.to_return)
    (hmshr : s.MSHR = []) (hlow : s.lower_RQ = []) (hsz : 0 < s.lower_RQ_SIZE)
    (hms : 0 < s.MSHR_SIZE) (hmr : 0 < s.MAX_READ) (hmf : 0 < s.MAX_FILL)
    (hcc : s.current_cycle < UINT64_MAX) (hcr3 : s.CR3_addr ≠ UINT64_MAX) :
    ∃ s1 s2 s3 s4 s5 s6 b5 b4 b3 b2 entry,
      s.cell e.pkt.address 5 = some b5 ∧ s.cell e.pkt.address 4 = some b4
      ∧ s.cell e.pkt.address 3 = some b3 ∧ s.cell e.pkt.address 2 = some b2
      ∧ s.handle_read = some s1 ∧ s1.walking e.pkt.address 5 s.CR3_addr = true
      ∧ s1.round vm warmup_complete = some s2 ∧ s2.walking e.pkt.address 4 b5 = true
      ∧ s2.round vm warmup_complete = some s3 ∧ s3.walking e.pkt.address 3 b4 = true
      ∧ s3.round vm warmup_complete = some s4 ∧ s4.walking e.pkt.address 2 b3 = true
      ∧ s4.round vm warmup_complete = some s5 ∧ s5.walking e.pkt.address 1 b2 = true
      ∧ (s5.PSCL5 = s.PSCL5 ∧ s5.PSCL4 = s.PSCL4 ∧ s5.PSCL3 = s.PSCL3 ∧ s5.PSCL2 = s.PSCL2)
      ∧ s5.round vm warmup_complete = some s6
      ∧ s6.MSHR = [] ∧ s6.lower_RQ = []
      ∧ entry.v_address = e.pkt.address ∧ entry.translation_level = 0
      ∧ s6.returned = s.returned ++ e.pkt.to_return.map (fun ret =>
          (ret, { entry with data := vm.va_to_pa s.cpu e.pkt.address >>> LOG2_PAGE_SIZE,
                             address := e.pkt.address }))
      ∧ s6.PSCL5 = s.PSCL5.fill_cache b5 entry ∧ s6.PSCL4 = s.PSCL4.fill_cache b4 entry
      ∧ s6.PSCL3 = s.PSCL3.fill_cache b3 entry ∧ s6.PSCL2 = s.PSCL2.fill_cache b2 entry := by
  obtain ⟨pth, ht, hco⟩ := hok
  obtain ⟨p4, p3, p2, p1, e4, e3, e2, e1, -, -, -, -, n1, hp1⟩ :=
    mapped_chain s e.pkt.address hmap
  obtain ⟨c5, c4, c3, c2⟩ := cell_chain s e.pkt.address p4 p3 p2 e4 e3 e2
  have c1 := cell_leaf s e.pkt.address p4 p3 p2 p1 e4 e3 e2 e1
  obtain ⟨hlt, hpath⟩ := page_at_path s pth ht e.pkt.address 4 p1 hp1
  have hleaf := hco p1 e.pkt.address hlt hv57 hpath n1
  -- `handle_read`
  have q5 : s.PSCL5.probe e.pkt.address = UINT64_MAX := by
    have := check_hit_probe s.PSCL5 e.pkt.address
    rw [h5] at this
    exact (Option.some.inj this).symm
  have q4 : s.PSCL4.probe e.pkt.address = UINT64_MAX := by
    have := check_hit_probe s.PSCL4 e.pkt.address
    rw [h4] at this
    exact (Option.some.inj this).symm
  have q3 : s.PSCL3.probe e.pkt.address = UINT64_MAX := by
    have := check_hit_probe s.PSCL3 e.pkt.address
    rw [h3] at this
    exact (Option.some.inj this).symm
  have q2 : s.PSCL2.probe e.pkt.address = UINT64_MAX := by
    have := check_hit_probe s.PSCL2 e.pkt.address
    rw [h2] at this
    exact (Option.some.inj this).symm
  have hread := handle_read_single s e hrq hready ha hv0 hmshr hlow hsz hms hmr
  rw [q5, q4, q3, q2] at hread
  obtain ⟨r5, hr5⟩ : ∃ r5, r5 = s.read_request e.pkt UINT64_MAX UINT64_MAX UINT64_MAX
    UINT64_MAX := ⟨_, rfl⟩
  obtain ⟨m5, hm5⟩ : ∃ m5, m5 = s.read_entry e.pkt r5 := ⟨_, rfl⟩
  rw [← hr5, ← hm5] at hread
  obtain ⟨s1, hs1⟩ : ∃ s1 : PageTableWalker,
    s1 = { s with lower_RQ := [r5], MSHR := [m5], RQ := [] } := ⟨_, rfl⟩
  rw [← hs1] at hread
  have r5f : r5.address = next_address s.CR3_addr e.pkt.address 5 ∧ r5.translation_level = 5
      ∧ r5.v_address = e.pkt.address ∧ r5.type = TRANSLATION
      ∧ r5.to_return = [ReturnSink.this_ptw] := by
    rw [hr5]
    simp [PageTableWalker.read_request, start_level]
  have m5f : m5.address = r5.address ∧ m5.translation_level = 5
      ∧ m5.init_translation_level = 5 ∧ m5.v_address = e.pkt.address
      ∧ m5.to_return = e.pkt.to_return ∧ m5.event_cycle = UINT64_MAX := by
    rw [hm5, hr5]
    simp [PageTableWalker.read_entry, PageTableWalker.read_request, start_level]
  obtain ⟨ra, rl, rv, rt, rr⟩ := r5f
  obtain ⟨ma, ml, mi, mv, mr, me⟩ := m5f
  have p1e : s1.pages = s.pages := by rw [hs1]
  have l1e : s1.L5 = s.L5 := by rw [hs1]
  have M1 : s1.MSHR = [m5] := by rw [hs1]
  have R1 : s1.lower_RQ = [r5] := by rw [hs1]
  have w1 : s1.walking e.pkt.address 5 s.CR3_addr = true := by
    simp [PageTableWalker.walking, M1, R1, ma, ra, ml, mi, mv, me, rl, rv, rt, rr]
  have hbase : s1.pages = s.pages ∧ s1.L5 = s.L5 ∧ s1.cpu = s.cpu
      ∧ s1.current_cycle = s.current_cycle ∧ s1.lower_RQ_SIZE = s.lower_RQ_SIZE
      ∧ s1.MAX_FILL = s.MAX_FILL ∧ s1.CR3_addr = s.CR3_addr
      ∧ s1.PSCL5 = s.PSCL5 ∧ s1.PSCL4 = s.PSCL4 ∧ s1.PSCL3 = s.PSCL3 ∧ s1.PSCL2 = s.PSCL2
      ∧ s1.returned = s.returned := by
    rw [hs1]
    exact ⟨rfl, rfl, rfl, rfl, rfl, rfl, rfl, rfl, rfl, rfl, rfl, rfl⟩
  obtain ⟨-, -, bcpu, bcc, bsz, bmf, bcr, b5e, b4e, b3e, b2e, bret⟩ := hbase
  -- the round trips of the levels 4 to 1
  obtain ⟨s2, m4, r4, hs2, q12, M2, R2, v4, l4, i4, t4r, a4, ev4, ra4, rl4, rv4, rt4, rr4⟩ :=
    round_next_entry vm warmup_complete s1 m5 r5 e.pkt.address _ 4
      M1 R1 mv (by rw [mapped_of_eq s s1 p1e l1e]; exact hmap) ma.symm (by rw [rl, ml]) ml
      (by decide) (by decide) (by rw [cell_of_eq s s1 p1e l1e]; exact c5)
      (by rw [bcc]; exact hcc) (by rw [bsz]; exact hsz) (by rw [bmf]; exact hmf)
      (by rw [bcr]; exact hcr3)
  have f2 := queues_only_fields s1 s2 q12
  have p2e : s2.pages = s.pages := f2.1.trans p1e
  have l2e : s2.L5 = s.L5 := f2.2.1.trans l1e
  have w2 : s2.walking e.pkt.address 4
      ((s.pages s.L5).next_level_base_addr (get_offset e.pkt.address 5)) = true := by
    simp [PageTableWalker.walking, M2, R2, v4, l4, i4, mi, a4, ev4, ra4, rl4, rv4, rt4, rr4]
  obtain ⟨s3, m3, r3, hs3, q23, M3, R3, v3, l3, i3, t3r, a3, ev3, ra3, rl3, rv3, rt3, rr3⟩ :=
    round_next_entry vm warmup_complete s2 m4 r4 e.pkt.address _ 3
      M2 R2 v4 (by rw [mapped_of_eq s s2 p2e l2e]; exact hmap) ra4 rl4 l4
      (by decide) (by decide) (by rw [cell_of_eq s s2 p2e l2e]; exact c4)
      (by rw [f2.2.2.2.2.1, bcc]; exact hcc) (by rw [f2.2.2.2.2.2.1, bsz]; exact hsz)
      (by rw [f2.2.2.2.2.2.2.1, bmf]; exact hmf)
      (by rw [f2.2.2.2.2.2.2.2.1, bcr]; exact hcr3)
  have q13 := queues_only_trans s1 s2 s3 q12 q23
  have f3 := queues_only_fields s1 s3 q13
  have p3e : s3.pages = s.pages := f3.1.trans p1e
  have l3e : s3.L5 = s.L5 := f3.2.1.trans l1e
  have w3 : s3.walking e.pkt.address 3
      ((s.pages p4).next_level_base_addr (get_offset e.pkt.address 4)) = true := by
    simp [PageTableWalker.walking, M3, R3, v3, l3, i3, i4, mi, a3, ev3, ra3, rl3, rv3, rt3,
      rr3]
  obtain ⟨s4, m2, r2, hs4, q34, M4, R4, v2, l2, i2, t2r, a2, ev2, ra2, rl2, rv2, rt2, rr2⟩ :=
    round_next_entry vm warmup_complete s3 m3 r3 e.pkt.address _ 2
      M3 R3 v3 (by rw [mapped_of_eq s s3 p3e l3e]; exact hmap) ra3 rl3 l3
      (by decide) (by decide) (by rw [cell_of_eq s s3 p3e l3e]; exact c3)
      (by rw [f3.2.2.2.2.1, bcc]; exact hcc) (by rw [f3.2.2.2.2.2.1, bsz]; exact hsz)
      (by rw [f3.2.2.2.2.2.2.1, bmf]; exact hmf)
      (by rw [f3.2.2.2.2.2.2.2.1, bcr]; exact hcr3)
  have q14 := queues_only_trans s1 s3 s4 q13 q34
  have f4 := queues_only_fields s1 s4 q14
  have p4e : s4.pages = s.pages := f4.1.trans p1e
  have l4e : s4.L5 = s.L5 := f4.2.1.trans l1e
  have w4 : s4.walking e.pkt.address 2
      ((s.pages p3).next_level_base_addr (get_offset e.pkt.address 3)) = true := by
    simp [PageTableWalker.walking, M4, R4, v2, l2, i2, i3, i4, mi, a2, ev2, ra2, rl2, rv2,
      rt2, rr2]
  obtain ⟨s5, m1, r1, hs5, q45, M5, R5, v1, l1, i1, t1r, a1, ev1, ra1, rl1, rv1, rt1, rr1⟩ :=
    round_next_entry vm warmup_complete s4 m2 r2 e.pkt.address _ 1
      M4 R4 v2 (by rw [mapped_of_eq s s4 p4e l4e]; exact hmap) ra2 rl2 l2
      (by decide) (by decide) (by rw [cell_of_eq s s4 p4e l4e]; exact c2)
      (by rw [f4.2.2.2.2.1, bcc]; exact hcc) (by rw [f4.2.2.2.2.2.1, bsz]; exact hsz)
      (by rw [f4.2.2.2.2.2.2.1, bmf]; exact hmf)
      (by rw [f4.2.2.2.2.2.2.2.1, bcr]; exact hcr3)
  have q15 := queues_only_trans s1 s4 s5 q14 q45
  have f5 := queues_only_fields s1 s5 q15
  have p5e : s5.pages = s.pages := f5.1.trans p1e
  have l5e : s5.L5 = s.L5 := f5.2.1.trans l1e
  have w5 : s5.walking e.pkt.address 1
      ((s.pages p2).next_level_base_addr (get_offset e.pkt.address 2)) = true := by
    simp [PageTableWalker.walking, M5, R5, v1, l1, i1, i2, i3, i4, mi, a1, ev1, ra1, rl1, rv1,
      rt1, rr1]
  obtain ⟨-, -, -, f5cpu, f5cc, -, f5mf, f5cr, f55, f54, f53, f52, f5ret, -⟩ := f5
  have hinit : m1.init_translation_level = 5 := by rw [i1, i2, i3, i4, mi]
  have hto : m1.to_return = e.pkt.to_return := by rw [t1r, t2r, t3r, t4r, mr]
  -- the last round trip
  obtain ⟨s6, d5, d4, d3, d2, d1, hs6, k5, k4, k3, k2, k1, M6, R6, ret6, t5, t4, t3, t2, -⟩ :=
    round_last vm warmup_complete s5 m1 r1 e.pkt.address M5 R5 v1
      (by rw [mapped_of_eq s s5 p5e l5e]; exact hmap) ra1 rl1 l1
      (by rw [hto]; exact hret)
      (by rw [f5mf, bmf]; exact hmf) (by rw [f5cr, bcr]; exact hcr3)
  rw [cell_of_eq s s5 p5e l5e] at k5 k4 k3 k2 k1
  rw [c5] at k5
  rw [c4] at k4
  rw [c3] at k3
  rw [c2] at k2
  rw [c1] at k1
  have k5 := Option.some.inj k5
  have k4 := Option.some.inj k4
  have k3 := Option.some.inj k3
  have k2 := Option.some.inj k2
  have k1 := Option.some.inj k1
  subst k5 k4 k3 k2 k1
  rw [hinit, if_pos (by decide), f55, b5e] at t5
  rw [hinit, if_pos (by decide), f54, b4e] at t4
  rw [hinit, if_pos (by decide), f53, b3e] at t3
  rw [hinit, if_pos (by decide), f52, b2e] at t2
  refine ⟨s1, s2, s3, s4, s5, s6, _, _, _, _,
    { m1 with translation_level := 0, event_cycle := s5.current_cycle },
    c5, c4, c3, c2, hread, w1, hs2, w2, hs3, w3,
    hs4, w4, hs5, w5, ⟨f55.trans b5e, f54.trans b4e, f53.trans b3e, f52.trans b2e⟩, hs6, M6,
    R6, v1, rfl, ?_, t5, t4, t3, t2⟩
  rw [ret6, f5ret, bret, hto, hleaf, bcpu.symm, f5cpu.symm]

/-- The walker `ptw_mapped` has a coherent tree: the one that the cold walk built. -/
theorem ptw_mapped_coherent : ptw_mapped.table_coherent vm0 := by
  obtain ⟨t, h1, pth, ht, hc⟩ := handle_fill_step_coherent vm0 true ptw_cold_answered
    entry_cold [] vm0_page_stable
    (table_coherent_of_init vm0 _ 0x100 0xf000000f00000000 2 4 rfl rfl rfl rfl)
    rfl (by decide) (by decide) (by decide) (Or.inr (by decide))
  have hp : ptw_mapped.pages = t.pages ∧ ptw_mapped.num_pages = t.num_pages
      ∧ ptw_mapped.L5 = t.L5 ∧ ptw_mapped.cpu = t.cpu := by
    unfold ptw_mapped
    rw [h1]
    exact ⟨rfl, rfl, rfl, rfl⟩
  exact ⟨pth, tree_of_eq t _ pth hp.1 hp.2.1 hp.2.2.1 ht,
    coherent_of_eq vm0 t _ pth hp.1 hp.2.1 hp.2.2.2 hc⟩

/-- Witness for C7: the scenario `CR3 = 0x100`, `v = 0x1122334455678` with empty caches
over the page table that an earlier walk of `v` has built. -/
theorem cold_walk_over_mapped_table_witness :
    ∃ s1 s2 s3 s4 s5 s6 b5 b4 b3 b2,
      ptw_mapped.handle_read = some s1 ∧ s1.walking 0x1122334455678 5 0x100 = true
      ∧ s1.round vm0 true = some s2 ∧ s2.walking 0x1122334455678 4 b5 = true
      ∧ s2.round vm0 true = some s3 ∧ s3.walking 0x1122334455678 3 b4 = true
      ∧ s3.round vm0 true = some s4 ∧ s4.walking 0x1122334455678 2 b3 = true
      ∧ s4.round vm0 true = some s5 ∧ s5.walking 0x1122334455678 1 b2 = true
      ∧ s5.round vm0 true = some s6 ∧ s6.MSHR = [] ∧ s6.lower_RQ = []
      ∧ s6.returned.map (fun r => (r.1, r.2.address, r.2.data, r.2.translation_level))
          = [(ReturnSink.producer 0, 0x1122334455678, 0x1122334455, 0)] := by
  obtain ⟨s1, s2, s3, s4, s5, s6, b5, b4, b3, b2, entry, -, -, -, -, h1, w1, h2, w2, h3, w3, h4,
      w4, h5, w5, -, h6, hM, hR, -, hl, hret, -⟩ :=
    cold_walk_over_mapped_table vm0 true ptw_mapped { pkt := req0, delay := 0 }
      ptw_mapped_coherent (by decide) (by decide) (by decide) (by decide) (by decide)
      (by decide) (by decide) (by decide) (by decide) (by decide) (by decide) (by decide)
      (by decide) (by decide) (by decide) (by decide) (by decide) (by decide) (by decide)
  refine ⟨s1, s2, s3, s4, s5, s6, b5, b4, b3, b2, h1, w1, h2, w2, h3, w3, h4, w4, h5, w5, h6, hM,
    hR, ?_⟩
  rw [hret]
  have hr : ptw_mapped.returned = [] := by decide
  rw [hr]
  simp only [List.nil_append, List.map_map]
  simp [req0, hl]
  decide

/-- C7, counterexample. On the walker as constructed (empty caches, `CR3 = 0x100`, no
page-table page but the root) the walk of `v = 0x1122334455678` sends one request: after
`handle_read` the entry is at level 5 with one request out; the answer takes it to level 4;
`handle_fill` then finds the level-5 cell missing, takes the page fault, and completes the
translation at level 0 with no further request. -/
theorem cold_walk_page_fault_counterexample :
    ptw_cold.handle_read.map
        (fun t => (t.MSHR.map (fun m => m.translation_level), t.lower_RQ.length))
      = some ([5], 1)
    ∧ (ptw_cold.handle_read.bind PageTableWalker.lower_answer).map
        (fun t => (t.MSHR.map (fun m => m.translation_level), t.lower_RQ.length))
      = some ([4], 0)
    ∧ (ptw_cold.handle_read.bind (PageTableWalker.round vm0 true)).map
        (fun t => (t.MSHR, t.lower_RQ.length,
          t.returned.map (fun r => (r.2.translation_level, r.2.data))))
      = some ([], 0, [(0, 0x1122334455)]) := by
  decide

/-! ## Theorems: the invariant of the page table holds in every reachable state -/

/-- The coherent tree concerns the pages, their number, the root and the cpu only. -/
theorem table_coherent_of_eq (vm : VirtualMemory) (s t : PageTableWalker)
    (hp : t.pages = s.pages) (hn : t.num_pages = s.num_pages) (hl : t.L5 = s.L5)
    (hc : t.cpu = s.cpu) (h : s.table_coherent vm) : t.table_coherent vm := by
  obtain ⟨pth, ht, hco⟩ := h
  exact ⟨pth, tree_of_eq s t pth hp hn hl ht, coherent_of_eq vm s t pth hp hn hc hco⟩

/-- The loop of lines 124-146 touches the caches only. -/
theorem fill_loop_frame (m : PACKET) :
    ∀ n (s s1 : PageTableWalker) (cp cp1 : Option Nat),
      PageTableWalker.fill_loop n s m cp = some (s1, cp1) →
      s1.pages = s.pages ∧ s1.num_pages = s.num_pages ∧ s1.L5 = s.L5 ∧ s1.cpu = s.cpu
        ∧ s1.RQ = s.RQ := by
  intro n
  induction n with
  | zero =>
    intro s s1 cp cp1 h
    simp only [PageTableWalker.fill_loop, Option.some.injEq, Prod.mk.injEq] at h
    obtain ⟨h, -⟩ := h
    subst h
    exact ⟨rfl, rfl, rfl, rfl, rfl⟩
  | succ n ih =>
    intro s s1 cp cp1 h
    cases cp with
    | none => simp [PageTableWalker.fill_loop] at h
    | some page =>
      simp only [PageTableWalker.fill_loop] at h
      split at h
      · exact absurd h (by simp)
      · obtain ⟨h1, h2, h3, h4, h5⟩ := ih _ _ _ _ h
        have f := fill_if_frame s (n + 2)
          ((s.pages page).next_level_base_addr (get_offset m.v_address (n + 2))) m
        exact ⟨h1.trans f.1, h2.trans f.2.2.2.2.2.2.1, h3.trans f.2.1,
          h4.trans f.2.2.2.2.2.2.2.1, h5.trans f.2.2.2.2.2.2.2.2⟩

/-- The completion of lines 120-165 leaves the page table and the read queue alone and
erases the entry. -/
theorem complete_translation_frame (warmup_complete : Bool) (s t : PageTableWalker)
    (m : PACKET) (rest : List PACKET)
    (h : s.complete_translation warmup_complete m rest = some t) :
    t.pages = s.pages ∧ t.num_pages = s.num_pages ∧ t.L5 = s.L5 ∧ t.cpu = s.cpu
      ∧ t.RQ = s.RQ ∧ t.MSHR = rest := by
  unfold PageTableWalker.complete_translation at h
  cases hl : PageTableWalker.fill_loop 4 s m (some s.L5) with
  | none => rw [hl] at h; simp at h
  | some r =>
    obtain ⟨s1, cp⟩ := r
    rw [hl] at h
    obtain ⟨h1, h2, h3, h4, h5⟩ := fill_loop_frame m 4 s s1 (some s.L5) cp hl
    cases cp with
    | none => simp at h
    | some page =>
      simp only at h
      split at h
      · exact absurd h (by simp)
      · have h := Option.some.inj h
        subst h
        cases warmup_complete <;> exact ⟨h1, h2, h3, h4, h5, rfl⟩

/-- The request for the next level leaves the page table and the read queue alone; the
entries of the MSHR are the old ones, the front one possibly with a new address. -/
theorem next_level_request_frame (w : WalkResult) (rest : List PACKET) (t : PageTableWalker)
    (h : PageTableWalker.next_level_request w rest = some t) :
    t.pages = w.ptw.pages ∧ t.num_pages = w.ptw.num_pages ∧ t.L5 = w.ptw.L5
      ∧ t.cpu = w.ptw.cpu ∧ t.RQ = w.ptw.RQ
      ∧ ∀ m, m ∈ t.MSHR → m ∈ w.ptw.MSHR ∨ m ∈ rest ∨ m.v_address = w.mshr.v_address := by
  unfold PageTableWalker.next_level_request at h
  by_cases hpf : w.page_fault = true
  · simp [hpf] at h
  · by_cases hroom : w.ptw.lower_RQ.length < w.ptw.lower_RQ_SIZE
    · simp only [hpf, hroom, if_true, if_false, PageTableWalker.lower_add_rq,
        Option.some.injEq, Bool.false_eq_true] at h
      subst h
      refine ⟨rfl, rfl, rfl, rfl, rfl, ?_⟩
      intro m hm
      simp only [List.mem_append, List.mem_singleton] at hm
      rcases hm with hm | hm
      · exact Or.inr (Or.inl hm)
      · exact Or.inr (Or.inr (by rw [hm]))
    · simp only [hpf, hroom, if_false, Option.some.injEq, Bool.false_eq_true] at h
      subst h
      exact ⟨rfl, rfl, rfl, rfl, rfl, fun m hm => Or.inl hm⟩

/-- An iteration of `handle_fill` keeps the invariant. -/
theorem handle_fill_step_inv (vm : VirtualMemory) (warmup_complete : Bool)
    (s t : PageTableWalker) (hst : vm.page_stable) (hinv : s.inv vm)
    (h : s.handle_fill_step vm warmup_complete = some t) : t.inv vm := by
  obtain ⟨⟨pth, ht, hco⟩, hM, hR⟩ := hinv
  cases hm : s.MSHR with
  | nil =>
    unfold PageTableWalker.handle_fill_step at h
    rw [hm] at h
    exact absurd h (by simp)
  | cons m rest =>
    have hv : m.v_address < 2 ^ 57 := hM m (by rw [hm]; simp)
    have hrest : ∀ x, x ∈ rest → x.v_address < 2 ^ 57 :=
      fun x hx => hM x (by rw [hm]; simp [hx])
    by_cases hcr3 : s.CR3_addr = UINT64_MAX
    · unfold PageTableWalker.handle_fill_step at h
      rw [hm] at h
      simp [hcr3] at h
    · obtain ⟨w, hw, hres⟩ := walk_loop_ok vm m 5 0 s pth UINT64_MAX rfl ht rfl
      have hw2 : PageTableWalker.walk_loop vm 5 s m (some s.L5) UINT64_MAX = some w := hw
      have hstep : s.handle_fill_step vm warmup_complete
          = if w.mshr.translation_level = 0 then
              w.ptw.complete_translation warmup_complete w.mshr rest
            else PageTableWalker.next_level_request w rest := by
        unfold PageTableWalker.handle_fill_step
        rw [hm]
        simp only [hcr3, if_false, hw2]
      rw [hstep] at h
      have hwi : w.ptw.table_coherent vm ∧ w.ptw.RQ = s.RQ ∧ w.ptw.MSHR = s.MSHR
          ∧ w.mshr.v_address = m.v_address := by
        rcases hres with ⟨-, h2, h3, -⟩ | ⟨-, h3, pth1, htt, -, hto, hco1⟩
        · rw [h2, h3]
          exact ⟨⟨pth, ht, hco⟩, rfl, rfl, rfl⟩
        · have f := table_only_fields s w.ptw hto
          rw [h3]
          exact ⟨⟨pth1, htt, hco1 hv hst hco⟩, f.2.2.2.2.2.2.2.2.2.2.2.2.1, f.2.2.2.1, rfl⟩
      obtain ⟨hwc, hwr, hwm, hwv⟩ := hwi
      split at h
      · obtain ⟨f1, f2, f3, f4, f5, f6⟩ :=
          complete_translation_frame warmup_complete w.ptw t w.mshr rest h
        refine ⟨table_coherent_of_eq vm w.ptw t f1 f2 f3 f4 hwc, ?_, ?_⟩
        · rw [f6]; exact hrest
        · rw [f5, hwr]; exact hR
      · obtain ⟨f1, f2, f3, f4, f5, f6⟩ := next_level_request_frame w rest t h
        refine ⟨table_coherent_of_eq vm w.ptw t f1 f2 f3 f4 hwc, ?_, ?_⟩
        · intro x hx
          rcases f6 x hx with h1 | h1 | h1
          · rw [hwm] at h1; exact hM x h1
          · exact hrest x h1
          · rw [h1, hwv]; exact hv
        · rw [f5, hwr]; exact hR

/-- `handle_fill` keeps the invariant. -/
theorem handle_fill_inv (vm : VirtualMemory) (warmup_complete : Bool) (hst : vm.page_stable) :
    ∀ n (s t : PageTableWalker), s.inv vm →
      PageTableWalker.handle_fill_loop vm warmup_complete n s = some t → t.inv vm := by
  intro n
  induction n with
  | zero =>
    intro s t hinv h
    simp only [PageTableWalker.handle_fill_loop, Option.some.injEq] at h
    rw [← h]; exact hinv
  | succ n ih =>
    intro s t hinv h
    rw [PageTableWalker.handle_fill_loop] at h
    split at h
    · cases hs : s.handle_fill_step vm warmup_complete with
      | none => rw [hs] at h; exact absurd h (by simp)
      | some s1 =>
        rw [hs] at h
        exact ih s1 t (handle_fill_step_inv vm warmup_complete s s1 hst hinv hs) h
    · simp only [Option.some.injEq] at h
      rw [← h]; exact hinv

/-- An iteration of `handle_read` keeps the invariant: the new MSHR entry walks the address
of the request taken from the read queue. -/
theorem handle_read_step_inv (vm : VirtualMemory) (s t : PageTableWalker) (hinv : s.inv vm)
    (h : s.handle_read_step = some t) : t.inv vm := by
  obtain ⟨hco, hM, hR⟩ := hinv
  cases hrq : s.RQ with
  | nil =>
    unfold PageTableWalker.handle_read_step at h
    rw [hrq] at h
    exact absurd h (by simp)
  | cons e rest =>
    by_cases ha : e.pkt.address >>> 32 = 0xf000000f
    · unfold PageTableWalker.handle_read_step at h
      rw [hrq] at h
      simp [ha] at h
    · by_cases hv : e.pkt.v_address = 0
      · unfold PageTableWalker.handle_read_step at h
        rw [hrq] at h
        simp [hv] at h
      · by_cases hroom : s.lower_RQ.length < s.lower_RQ_SIZE
        · rw [handle_read_step_eq s e rest hrq ha hv hroom] at h
          simp only [Option.some.injEq] at h
          subst h
          refine ⟨table_coherent_of_eq vm s _ rfl rfl rfl rfl hco, ?_, ?_⟩
          · intro x hx
            simp only [List.mem_append, List.mem_singleton] at hx
            rcases hx with hx | hx
            · exact hM x hx
            · rw [hx]
              exact hR e (by rw [hrq]; simp)
          · intro x hx
            exact hR x (by rw [hrq]; simp [hx])
        · unfold PageTableWalker.handle_read_step at h
          rw [hrq] at h
          simp [ha, hv, check_hit_probe, PageTableWalker.lower_add_rq, hroom] at h

/-- `handle_read` keeps the invariant. -/
theorem handle_read_inv (vm : VirtualMemory) :
    ∀ n (s t : PageTableWalker), s.inv vm →
      PageTableWalker.handle_read_loop n s = some t → t.inv vm := by
  intro n
  induction n with
  | zero =>
    intro s t hinv h
    simp only [PageTableWalker.handle_read_loop, Option.some.injEq] at h
    rw [← h]; exact hinv
  | succ n ih =>
    intro s t hinv h
    rw [PageTableWalker.handle_read_loop] at h
    split at h
    · cases hs : s.handle_read_step with
      | none => rw [hs] at h; exact absurd h (by simp)
      | some s1 =>
        rw [hs] at h
        exact ih s1 t (handle_read_step_inv vm s s1 hinv hs) h
    · simp only [Option.some.injEq] at h
      rw [← h]; exact hinv

/-- The sorted MSHR has the entries it had. -/
theorem mem_sort_by_event_cycle (x : PACKET) :
    ∀ l : List PACKET, x ∈ sort_by_event_cycle l → x ∈ l := by
  have hins : ∀ (p : PACKET) (l : List PACKET), x ∈ insert_by_event_cycle p l →
      x = p ∨ x ∈ l := by
    intro p l
    induction l with
    | nil => intro h; simpa [insert_by_event_cycle] using h
    | cons q l ih =>
      intro h
      rw [insert_by_event_cycle] at h
      split at h
      · simpa using h
      · simp only [List.mem_cons] at h ⊢
        rcases h with h | h
        · exact Or.inr (Or.inl h)
        · rcases ih h with h | h
          · exact Or.inl h
          · exact Or.inr (Or.inr h)
  intro l
  induction l with
  | nil => intro h; simp [sort_by_event_cycle] at h
  | cons p l ih =>
    intro h
    rw [sort_by_event_cycle] at h
    rcases hins p _ h with h | h
    · simp [h]
    · simp [ih h]

/-- `return_data` keeps the invariant: it changes levels and due times only. -/
theorem return_data_inv (vm : VirtualMemory) (s t : PageTableWalker) (packet : PACKET)
    (hinv : s.inv vm) (h : s.return_data packet = some t) : t.inv vm := by
  obtain ⟨hco, hM, hR⟩ := hinv
  unfold PageTableWalker.return_data at h
  split at h
  · exact absurd h (by simp)
  · simp only [Option.some.injEq] at h
    subst h
    refine ⟨table_coherent_of_eq vm s _ rfl rfl rfl rfl hco, ?_, hR⟩
    intro x hx
    have hx2 := mem_sort_by_event_cycle x _ hx
    simp only [List.mem_map] at hx2
    obtain ⟨y, hy, hxy⟩ := hx2
    have := hM y hy
    split at hxy
    · rw [← hxy]; exact this
    · rw [← hxy]; exact this

/-- `add_rq` of an address below `2^57` keeps the invariant. -/
theorem add_rq_inv (vm : VirtualMemory) (s t : PageTableWalker) (packet : PACKET)
    (code : Int) (hp : packet.address < 2 ^ 57) (hinv : s.inv vm)
    (h : s.add_rq packet = some (code, t)) : t.inv vm := by
  obtain ⟨hco, hM, hR⟩ := hinv
  unfold PageTableWalker.add_rq at h
  split at h
  · exact absurd h (by simp)
  · split at h
    · exact absurd h (by simp)
    · split at h
      · simp only [Option.some.injEq, Prod.mk.injEq] at h
        obtain ⟨-, h⟩ := h
        subst h
        exact ⟨table_coherent_of_eq vm s _ rfl rfl rfl rfl hco, hM, hR⟩
      · simp only [Option.some.injEq, Prod.mk.injEq] at h
        obtain ⟨-, h⟩ := h
        subst h
        refine ⟨table_coherent_of_eq vm s _ rfl rfl rfl rfl hco, hM, ?_⟩
        intro x hx
        simp only [List.mem_append, List.mem_singleton] at hx
        rcases hx with hx | hx
        · exact hR x hx
        · rw [hx]; exact hp

/-- Every reachable state of the walker satisfies the invariant: its page table is a tree
with coherent leaves, whatever requests for addresses below `2^57` it has served. -/
theorem reachable_inv (vm : VirtualMemory) (warmup_complete : Bool) (hst : vm.page_stable)
    (s : PageTableWalker) (h : PageTableWalker.reachable vm warmup_complete s) : s.inv vm := by
  induction h with
  | init cr3 cursor num_set num_way =>
    exact ⟨init_table_coherent vm cr3 cursor num_set num_way,
      by intro m hm; simp [PageTableWalker.init] at hm,
      by intro e he; simp [PageTableWalker.init] at he⟩
  | add_rq s t packet code _ hp hrun ih => exact add_rq_inv vm s t packet code hp ih hrun
  | handle_read s t _ hrun ih => exact handle_read_inv vm s.MAX_READ s t ih hrun
  | handle_fill s t _ hrun ih =>
    exact handle_fill_inv vm warmup_complete hst s.MAX_FILL s t ih hrun
  | return_data s t packet _ hrun ih => exact return_data_inv vm s t packet ih hrun
  | clock s _ ih =>
    exact ⟨table_coherent_of_eq vm s _ rfl rfl rfl rfl ih.1, ih.2.1, ih.2.2⟩
  | lower_take s _ ih =>
    exact ⟨table_coherent_of_eq vm s _ rfl rfl rfl rfl ih.1, ih.2.1, ih.2.2⟩

/-! ## Theorems: the walker, its levels, its requests and its queues -/

/-- A result that is there is the result taken with a default. -/
theorem option_eq_some_getD {α : Type} (x : Option α) (d : α) (h : x.isSome = true) :
    x = some (x.getD d) := by
  cases x with
  | none => simp at h
  | some a => rfl

/-! ## Theorems: request addresses -/

/-- An offset has nine bits, whatever the level. -/
theorem get_offset_lt (v L : Nat) : get_offset v L < 512 := by
  unfold get_offset
  exact Nat.lt_succ_of_le Nat.and_le_right

/-- The address built from a base below `2^52`: the base is its page number and eight times
the offset its place in the page. -/
theorem next_address_split (base v L : Nat) (hb : base < 2 ^ 52) :
    next_address base v L = base * 4096 + 8 * get_offset v L := by
  have ho := get_offset_lt v L
  unfold next_address shl_page LOG2_PAGE_SIZE
  rw [Nat.shiftLeft_eq, Nat.shiftLeft_eq]
  have h1 : base * 2 ^ 12 % 2 ^ 64 = 2 ^ 12 * base := by
    rw [Nat.mod_eq_of_lt (by omega)]
    exact Nat.mul_comm _ _
  have h2 : get_offset v L * 2 ^ 3 < 2 ^ 12 := by omega
  rw [h1, ← Nat.mul_add_lt_is_or h2]
  omega

/-- The level and the address that `handle_read` chooses, by base. -/
theorem start_level_base (s : PageTableWalker) (v a5 a4 a3 a2 : Nat) :
    start_level s v a5 a4 a3 a2
      = (next_address (start_base s a5 a4 a3 a2) v (start_level s v a5 a4 a3 a2).2,
         (start_level s v a5 a4 a3 a2).2) := by
  unfold start_level start_base
  split_ifs <;> rfl

/-- A walk that leaves the entry above level 0 took no page fault and changed nothing. -/
theorem walk_loop_unfinished (vm : VirtualMemory) (m : PACKET) :
    ∀ i (s : PageTableWalker) (cp : Option Nat) (nlba : Nat) (w : WalkResult),
      PageTableWalker.walk_loop vm i s m cp nlba = some w → w.mshr.translation_level ≠ 0 →
      w.ptw = s ∧ w.mshr = m ∧ w.page_fault = false := by
  intro i
  induction i with
  | zero =>
    intro s cp nlba w h _
    simp only [PageTableWalker.walk_loop, Option.some.injEq] at h
    subst h
    exact ⟨rfl, rfl, rfl⟩
  | succ i ih =>
    intro s cp nlba w h h0
    by_cases hgt : i + 1 > m.translation_level
    · cases cp with
      | none => simp [PageTableWalker.walk_loop, hgt] at h
      | some page =>
        simp only [PageTableWalker.walk_loop, hgt, if_true] at h
        split at h
        · cases hpf : s.handle_page_fault vm page m (i + 1) with
          | none => rw [hpf] at h; exact absurd h (by simp)
          | some s1 =>
            rw [hpf] at h
            simp only [Option.some.injEq] at h
            subst h
            exact absurd rfl h0
        · exact ih s _ _ w h h0
    · simp only [PageTableWalker.walk_loop, hgt, if_false, Option.some.injEq] at h
      subst h
      exact ⟨rfl, rfl, rfl⟩

/-- An iteration of `handle_fill` whose walk leaves the entry above level 0: with room in the
read queue of the lower level the request of the entry's level goes out, built from the
`next_level_base_addr` that the walk read last, and the entry moves to the tail of the MSHR;
without room `RQ_FULL` is counted and nothing else changes. -/
theorem handle_fill_step_pending (vm : VirtualMemory) (warmup_complete : Bool)
    (s : PageTableWalker) (m : PACKET) (rest : List PACKET) (w : WalkResult)
    (hM : s.MSHR = m :: rest) (hcr3 : s.CR3_addr ≠ UINT64_MAX)
    (hw : PageTableWalker.walk_loop vm 5 s m (some s.L5) UINT64_MAX = some w)
    (h0 : w.mshr.translation_level ≠ 0) :
    s.handle_fill_step vm warmup_complete
      = if s.lower_RQ.length < s.lower_RQ_SIZE then
          some { s with
            lower_RQ := s.lower_RQ ++ [s.fill_request m w.next_level_base_addr]
            MSHR := rest ++ [{ m with event_cycle := UINT64_MAX,
                                      address := (s.fill_request m w.next_level_base_addr).address }] }
        else some { s with RQ_FULL := s.RQ_FULL + 1 } := by
  obtain ⟨h1, h2, h3⟩ := walk_loop_unfinished vm m 5 s _ _ w hw h0
  rw [h2] at h0
  unfold PageTableWalker.handle_fill_step
  rw [hM]
  simp only [hcr3, if_false, hw, h2, h0]
  unfold PageTableWalker.next_level_request
  by_cases hroom : s.lower_RQ.length < s.lower_RQ_SIZE
  · simp [h3, h1, h2, hroom, PageTableWalker.lower_add_rq]
  · simp [h3, h1, hroom, hM]

/-- C11, counterexample. With `CR3_addr = 2^52` and empty caches the request that
`handle_read` sends for `v = 0x1122334455678` starts at level 5 with base `CR3_addr`, and
the page number of its address is 0, not the base: the shift by `LOG2_PAGE_SIZE` is a
64-bit shift and drops the bits of the base from bit 52 on. -/
theorem request_page_number_counterexample :
    ptw_wide_cr3.handle_read_step.map
        (fun t => t.lower_RQ.map
          (fun r => (r.translation_level, r.address >>> LOG2_PAGE_SIZE)))
      = some [(5, 0)]
    ∧ start_base ptw_wide_cr3 UINT64_MAX UINT64_MAX UINT64_MAX UINT64_MAX = 2 ^ 52 := by
  decide

/-- C11 (amended). The `TRANSLATION` packet that an iteration of `handle_read` sends to the
lower level has the address `(base << LOG2_PAGE_SIZE) | (get_offset(v, level) << 3)`, the
shift being a 64-bit shift, where `level` is the chosen starting level and `base` the data
of the hitting cache, deepest first, or `CR3_addr` at level 5; when `base` is below `2^52`,
as every frame number is, the page number of the address is `base`, the address is 8-byte
aligned and its offset in the page is `8 * get_offset(v, level) < 4096`. An iteration of
`handle_fill` that leaves the entry above level 0 builds its request by the same formula
from the `next_level_base_addr` that its walk read last and the level of the entry. -/
theorem request_address (vm : VirtualMemory) (warmup_complete : Bool)
    (s : PageTableWalker) (e : DelayEntry) (rest : List DelayEntry)
    (hrq : s.RQ = e :: rest) (ha : e.pkt.address >>> 32 ≠ 0xf000000f)
    (hv : e.pkt.v_address ≠ 0) (hroom : s.lower_RQ.length < s.lower_RQ_SIZE) :
    (∃ a5 a4 a3 a2 t r,
      s.PSCL5.check_hit e.pkt.address = some a5
      ∧ s.PSCL4.check_hit e.pkt.address = some a4
      ∧ s.PSCL3.check_hit e.pkt.address = some a3
      ∧ s.PSCL2.check_hit e.pkt.address = some a2
      ∧ s.handle_read_step = some t ∧ t.lower_RQ = s.lower_RQ ++ [r]
      ∧ r.type = TRANSLATION
      ∧ r.translation_level
          = (if a2 ≠ UINT64_MAX then 1 else if a3 ≠ UINT64_MAX then 2
             else if a4 ≠ UINT64_MAX then 3 else if a5 ≠ UINT64_MAX then 4 else 5)
      ∧ r.address
          = (start_base s a5 a4 a3 a2 <<< LOG2_PAGE_SIZE) % 2 ^ 64
              ||| (get_offset e.pkt.address r.translation_level <<< 3)
      ∧ (start_base s a5 a4 a3 a2 < 2 ^ 52 →
          r.address >>> LOG2_PAGE_SIZE = start_base s a5 a4 a3 a2
            ∧ r.address % 8 = 0
            ∧ r.address % 4096 = 8 * get_offset e.pkt.address r.translation_level
            ∧ 8 * get_offset e.pkt.address r.translation_level < 4096))
    ∧ ∀ (u : PageTableWalker) (m : PACKET) (mshr_rest : List PACKET) (w : WalkResult),
        u.MSHR = m :: mshr_rest → u.CR3_addr ≠ UINT64_MAX →
        PageTableWalker.walk_loop vm 5 u m (some u.L5) UINT64_MAX = some w →
        w.mshr.translation_level ≠ 0 → u.lower_RQ.length < u.lower_RQ_SIZE →
        ∃ t r, u.handle_fill_step vm warmup_complete = some t
          ∧ t.lower_RQ = u.lower_RQ ++ [r] ∧ r.type = TRANSLATION
          ∧ r.translation_level = m.translation_level
          ∧ r.address
              = (w.next_level_base_addr <<< LOG2_PAGE_SIZE) % 2 ^ 64
                  ||| (get_offset m.v_address m.translation_level <<< 3)
          ∧ (w.next_level_base_addr < 2 ^ 52 →
              r.address >>> LOG2_PAGE_SIZE = w.next_level_base_addr
                ∧ r.address % 8 = 0
                ∧ r.address % 4096 = 8 * get_offset m.v_address m.translation_level
                ∧ 8 * get_offset m.v_address m.translation_level < 4096) := by
  have hsplit : ∀ base v L, base < 2 ^ 52 →
      next_address base v L >>> LOG2_PAGE_SIZE = base
        ∧ next_address base v L % 8 = 0
        ∧ next_address base v L % 4096 = 8 * get_offset v L
        ∧ 8 * get_offset v L < 4096 := by
    intro base v L hb
    have ho := get_offset_lt v L
    rw [next_address_split base v L hb, Nat.shiftRight_eq_div_pow]
    simp only [LOG2_PAGE_SIZE]
    norm_num
    omega
  constructor
  · have hstep := handle_read_step_eq s e rest hrq ha hv hroom
    have hlv : ∀ v a5 a4 a3 a2, (start_level s v a5 a4 a3 a2).2
        = (if a2 ≠ UINT64_MAX then 1 else if a3 ≠ UINT64_MAX then 2
           else if a4 ≠ UINT64_MAX then 3 else if a5 ≠ UINT64_MAX then 4 else 5) := by
      intro v a5 a4 a3 a2
      unfold start_level
      split_ifs <;> rfl
    have haddr : (s.read_request e.pkt (s.PSCL5.probe e.pkt.address)
        (s.PSCL4.probe e.pkt.address) (s.PSCL3.probe e.pkt.address)
        (s.PSCL2.probe e.pkt.address)).address
        = next_address (start_base s (s.PSCL5.probe e.pkt.address)
            (s.PSCL4.probe e.pkt.address) (s.PSCL3.probe e.pkt.address)
            (s.PSCL2.probe e.pkt.address)) e.pkt.address
            (s.read_request e.pkt (s.PSCL5.probe e.pkt.address)
              (s.PSCL4.probe e.pkt.address) (s.PSCL3.probe e.pkt.address)
              (s.PSCL2.probe e.pkt.address)).translation_level :=
      congrArg Prod.fst (start_level_base s e.pkt.address _ _ _ _)
    refine ⟨_, _, _, _, _, _, check_hit_probe _ _, check_hit_probe _ _, check_hit_probe _ _,
      check_hit_probe _ _, hstep, rfl, rfl, hlv _ _ _ _ _, haddr, ?_⟩
    intro hb
    rw [haddr]
    exact hsplit _ _ _ hb
  · intro u m mshr_rest w hM hcr3 hw h0 hroom2
    have hstep := handle_fill_step_pending vm warmup_complete u m mshr_rest w hM hcr3 hw h0
    rw [if_pos hroom2] at hstep
    refine ⟨_, _, hstep, rfl, rfl, rfl, rfl, ?_⟩
    intro hb
    exact hsplit _ _ _ hb

/-- Witness for C11: the "hit in PSCL3" scenario; the request of level 2 lies in the page
`0xB`. -/
theorem request_address_witness :
    ∃ t r, ptw_pscl3_hit.handle_read_step = some t ∧ t.lower_RQ = [r]
      ∧ r.translation_level = 2 ∧ r.address >>> LOG2_PAGE_SIZE = 0xB ∧ r.address % 8 = 0 := by
  obtain ⟨⟨a5, a4, a3, a2, t, r, -, -, h3, h2, hs, hq, -, hl, -, hpage⟩, -⟩ :=
    request_address vm0 true ptw_pscl3_hit { pkt := req0, delay := 0 } [] rfl
      (by decide) (by decide) (by decide)
  have e2 : a2 = UINT64_MAX := by
    have : ptw_pscl3_hit.PSCL2.check_hit req0.address = some UINT64_MAX := by decide
    rw [h2] at this
    exact Option.some.inj this
  have e3 : a3 = 0xB := by
    have : ptw_pscl3_hit.PSCL3.check_hit req0.address = some 0xB := by decide
    rw [h3] at this
    exact Option.some.inj this
  subst e2 e3
  have hbase : start_base ptw_pscl3_hit a5 a4 0xB UINT64_MAX = 0xB := by
    simp [start_base, UINT64_MAX]
  rw [hbase] at hpage
  have hp := hpage (by norm_num)
  refine ⟨t, r, hs, hq, ?_, hp.1, hp.2.1⟩
  rw [hl]
  simp [UINT64_MAX]

/-! ## Theorems: what an iteration of `handle_fill` can do -/

/-- A completion changes nothing but the caches, the log, the statistic and the MSHR. -/
theorem completion_only_fields (s t : PageTableWalker) (h : s.completion_only t) :
    t.lower_RQ = s.lower_RQ ∧ t.current_cycle = s.current_cycle ∧ t.RQ = s.RQ
      ∧ t.RQ_FULL = s.RQ_FULL ∧ t.lower_RQ_SIZE = s.lower_RQ_SIZE ∧ t.MAX_FILL = s.MAX_FILL
      ∧ t.CR3_addr = s.CR3_addr ∧ t.pages = s.pages ∧ t.num_pages = s.num_pages
      ∧ t.L5 = s.L5 ∧ t.cpu = s.cpu := by
  unfold PageTableWalker.completion_only at h
  refine ⟨?_, ?_, ?_, ?_, ?_, ?_, ?_, ?_, ?_, ?_, ?_⟩ <;> (rw [h])

/-- Two completions make one. -/
theorem completion_only_trans (s t u : PageTableWalker) (h1 : s.completion_only t)
    (h2 : t.completion_only u) : s.completion_only u := by
  unfold PageTableWalker.completion_only at *
  rw [h2, h1]

/-- A conditional fill is a change of the caches. -/
theorem fill_if_only (s : PageTableWalker) (i b : Nat) (m : PACKET) :
    s.completion_only (s.fill_if i b m) := by
  unfold PageTableWalker.fill_if PageTableWalker.fill_pscl PageTableWalker.completion_only
  split_ifs <;> rfl

/-- The loop of lines 124-146 is a change of the caches. -/
theorem fill_loop_only (m : PACKET) :
    ∀ n (s s1 : PageTableWalker) (cp cp1 : Option Nat),
      PageTableWalker.fill_loop n s m cp = some (s1, cp1) → s.completion_only s1 := by
  intro n
  induction n with
  | zero =>
    intro s s1 cp cp1 h
    simp only [PageTableWalker.fill_loop, Option.some.injEq, Prod.mk.injEq] at h
    obtain ⟨h, -⟩ := h
    subst h
    rfl
  | succ n ih =>
    intro s s1 cp cp1 h
    cases cp with
    | none => simp [PageTableWalker.fill_loop] at h
    | some page =>
      simp only [PageTableWalker.fill_loop] at h
      split at h
      · exact absurd h (by simp)
      · exact completion_only_trans _ _ _ (fill_if_only s _ _ m) (ih _ _ _ _ h)

/-- The completion of lines 120-165 changes the caches, the log, the statistic and the MSHR,
which loses the entry. -/
theorem complete_translation_only (warmup_complete : Bool) (s t : PageTableWalker)
    (m : PACKET) (rest : List PACKET)
    (h : s.complete_translation warmup_complete m rest = some t) :
    s.completion_only t ∧ t.MSHR = rest := by
  unfold PageTableWalker.complete_translation at h
  cases hl : PageTableWalker.fill_loop 4 s m (some s.L5) with
  | none => rw [hl] at h; simp at h
  | some r =>
    obtain ⟨s1, cp⟩ := r
    rw [hl] at h
    have h1 := fill_loop_only m 4 s s1 (some s.L5) cp hl
    cases cp with
    | none => simp at h
    | some page =>
      simp only at h
      split at h
      · exact absurd h (by simp)
      · have h := Option.some.inj h
        subst h
        refine ⟨completion_only_trans _ _ _ h1 ?_, rfl⟩
        cases warmup_complete <;> rfl

/-- A page fault changes the page table only. -/
theorem handle_page_fault_from_only (vm : VirtualMemory) (v : Nat) :
    ∀ l (s t : PageTableWalker) (page : Nat),
      PageTableWalker.handle_page_fault_from vm v l s page = some t → s.table_only t := by
  intro l
  induction l using Nat.strong_induction_on with
  | _ l ih =>
    intro s t page h
    match l with
    | 0 =>
      simp only [PageTableWalker.handle_page_fault_from] at h
      split at h
      · exact absurd h (by simp)
      · simp only [Option.some.injEq] at h
        subst h
        exact (set_cell_fields s page _ _ _).1
    | 1 =>
      simp only [PageTableWalker.handle_page_fault_from] at h
      split at h
      · exact absurd h (by simp)
      · simp only [Option.some.injEq] at h
        subst h
        exact (set_cell_fields s page _ _ _).1
    | l + 2 =>
      simp only [PageTableWalker.handle_page_fault_from] at h
      split at h
      · exact absurd h (by simp)
      · refine table_only_trans _ _ _ ?_ (ih (l + 1) (by omega) _ _ _ h)
        unfold PageTableWalker.table_only PageTableWalker.alloc_child
          PageTableWalker.set_cell PageTableWalker.map_translation_page
        rfl

/-- The walk of lines 105-118 changes the page table only; it leaves the entry as it was or,
after a page fault, at level 0. -/
theorem walk_loop_only (vm : VirtualMemory) (m : PACKET) :
    ∀ i (s : PageTableWalker) (cp : Option Nat) (nlba : Nat) (w : WalkResult),
      PageTableWalker.walk_loop vm i s m cp nlba = some w →
      s.table_only w.ptw ∧ (w.mshr = m ∨ w.mshr = { m with translation_level := 0 }) := by
  intro i
  induction i with
  | zero =>
    intro s cp nlba w h
    simp only [PageTableWalker.walk_loop, Option.some.injEq] at h
    subst h
    exact ⟨table_only_refl s, Or.inl rfl⟩
  | succ i ih =>
    intro s cp nlba w h
    by_cases hgt : i + 1 > m.translation_level
    · cases cp with
      | none => simp [PageTableWalker.walk_loop, hgt] at h
      | some page =>
        simp only [PageTableWalker.walk_loop, hgt, if_true] at h
        split at h
        · cases hpf : s.handle_page_fault vm page m (i + 1) with
          | none => rw [hpf] at h; exact absurd h (by simp)
          | some s1 =>
            rw [hpf] at h
            simp only [Option.some.injEq] at h
            subst h
            unfold PageTableWalker.handle_page_fault at hpf
            split at hpf
            · exact ⟨handle_page_fault_from_only vm _ _ _ _ _ hpf, Or.inr rfl⟩
            · exact absurd hpf (by simp)
        · exact ih s _ _ w h
    · simp only [PageTableWalker.walk_loop, hgt, if_false, Option.some.injEq] at h
      subst h
      exact ⟨table_only_refl s, Or.inl rfl⟩

/-- The three outcomes of an iteration of `handle_fill` on the front entry `m`: the
translation completes and the entry is erased (possibly after a page fault); or the request of
the entry's level goes out and the entry, waiting again, moves to the tail; or the read queue
of the lower level is full and `RQ_FULL` alone changes. -/
theorem handle_fill_step_cases (vm : VirtualMemory) (warmup_complete : Bool)
    (s t : PageTableWalker) (h : s.handle_fill_step vm warmup_complete = some t) :
    ∃ m rest, s.MSHR = m :: rest
      ∧ ((∃ s1, s.table_only s1 ∧ s1.completion_only t ∧ t.MSHR = rest)
        ∨ (∃ b, m.translation_level ≠ 0 ∧ s.lower_RQ.length < s.lower_RQ_SIZE
            ∧ t = { s with
                lower_RQ := s.lower_RQ ++ [s.fill_request m b]
                MSHR := rest ++ [{ m with event_cycle := UINT64_MAX,
                                          address := (s.fill_request m b).address }] })
        ∨ (m.translation_level ≠ 0 ∧ ¬ s.lower_RQ.length < s.lower_RQ_SIZE
            ∧ t = { s with RQ_FULL := s.RQ_FULL + 1 })) := by
  have hcases : s.MSHR = [] ∨ ∃ m rest, s.MSHR = m :: rest := by
    cases s.MSHR with
    | nil => exact Or.inl rfl
    | cons m rest => exact Or.inr ⟨m, rest, rfl⟩
  rcases hcases with hm | ⟨m, rest, hm⟩
  · unfold PageTableWalker.handle_fill_step at h
    rw [hm] at h
    exact absurd h (by simp)
  · refine ⟨m, rest, hm, ?_⟩
    by_cases hcr3 : s.CR3_addr = UINT64_MAX
    · unfold PageTableWalker.handle_fill_step at h
      rw [hm] at h
      simp [hcr3] at h
    · cases hw : PageTableWalker.walk_loop vm 5 s m (some s.L5) UINT64_MAX with
      | none =>
        unfold PageTableWalker.handle_fill_step at h
        rw [hm] at h
        simp [hcr3, hw] at h
      | some w =>
        by_cases h0 : w.mshr.translation_level = 0
        · left
          obtain ⟨hto, -⟩ := walk_loop_only vm m 5 s _ _ w hw
          have hstep : s.handle_fill_step vm warmup_complete
              = w.ptw.complete_translation warmup_complete w.mshr rest := by
            unfold PageTableWalker.handle_fill_step
            rw [hm]
            simp only [hcr3, if_false, hw, h0, if_true]
          rw [hstep] at h
          obtain ⟨hc, hr⟩ := complete_translation_only warmup_complete w.ptw t w.mshr rest h
          exact ⟨w.ptw, hto, hc, hr⟩
        · right
          have hstep := handle_fill_step_pending vm warmup_complete s m rest w hm hcr3 hw h0
          obtain ⟨-, h2, -⟩ := walk_loop_unfinished vm m 5 s _ _ w hw h0
          rw [h2] at h0
          rw [hstep] at h
          by_cases hroom : s.lower_RQ.length < s.lower_RQ_SIZE
          · left
            rw [if_pos hroom] at h
            exact ⟨w.next_level_base_addr, h0, hroom, (Option.some.inj h).symm⟩
          · right
            rw [if_neg hroom] at h
            exact ⟨h0, hroom, (Option.some.inj h).symm⟩

/-! ## Theorems: the levels of the MSHR entries -/

/-- The insertion of the model is the ordered insertion of the library. -/
theorem insert_by_event_cycle_eq (p : PACKET) (l : List PACKET) :
    insert_by_event_cycle p l
      = List.orderedInsert (fun a b : PACKET => a.event_cycle ≤ b.event_cycle) p l := by
  induction l with
  | nil => rfl
  | cons q l ih =>
    simp only [insert_by_event_cycle, List.orderedInsert, ih]

/-- The sort of the model is the insertion sort of the library. -/
theorem sort_by_event_cycle_eq (l : List PACKET) :
    sort_by_event_cycle l
      = List.insertionSort (fun a b : PACKET => a.event_cycle ≤ b.event_cycle) l := by
  induction l with
  | nil => rfl
  | cons q l ih =>
    simp only [sort_by_event_cycle, List.insertionSort, ih, insert_by_event_cycle_eq]

/-- The sorted MSHR is a permutation of the MSHR. -/
theorem sort_by_event_cycle_perm (l : List PACKET) : (sort_by_event_cycle l).Perm l := by
  rw [sort_by_event_cycle_eq]
  exact List.perm_insertionSort _ l

/-- The sorted MSHR is in non-decreasing order of `event_cycle`. -/
theorem sort_by_event_cycle_sorted (l : List PACKET) :
    (sort_by_event_cycle l).Sorted (fun a b : PACKET => a.event_cycle ≤ b.event_cycle) := by
  rw [sort_by_event_cycle_eq]
  haveI : IsTotal PACKET (fun a b : PACKET => a.event_cycle ≤ b.event_cycle) :=
    ⟨fun a b => Nat.le_total _ _⟩
  haveI : IsTrans PACKET (fun a b : PACKET => a.event_cycle ≤ b.event_cycle) :=
    ⟨fun a b c h1 h2 => Nat.le_trans h1 h2⟩
  exact List.sorted_insertionSort _ l

/-- The starting level is one of 1 to 5. -/
theorem start_level_range (s : PageTableWalker) (v a5 a4 a3 a2 : Nat) :
    1 ≤ (start_level s v a5 a4 a3 a2).2 ∧ (start_level s v a5 a4 a3 a2).2 ≤ 5 := by
  unfold start_level
  split_ifs <;> simp

/-- An iteration of `handle_read` that does not fail takes the front request of the read
queue, sends its first request to the lower level and appends its entry to the MSHR. -/
theorem handle_read_step_cases (s t : PageTableWalker) (h : s.handle_read_step = some t) :
    ∃ e rest, s.RQ = e :: rest ∧ s.lower_RQ.length < s.lower_RQ_SIZE
      ∧ t = { s with
          lower_RQ := s.lower_RQ ++ [s.read_request e.pkt (s.PSCL5.probe e.pkt.address)
            (s.PSCL4.probe e.pkt.address) (s.PSCL3.probe e.pkt.address)
            (s.PSCL2.probe e.pkt.address)]
          MSHR := s.MSHR ++ [s.read_entry e.pkt (s.read_request e.pkt
            (s.PSCL5.probe e.pkt.address) (s.PSCL4.probe e.pkt.address)
            (s.PSCL3.probe e.pkt.address) (s.PSCL2.probe e.pkt.address))]
          RQ := rest } := by
  have hcases : s.RQ = [] ∨ ∃ e rest, s.RQ = e :: rest := by
    cases s.RQ with
    | nil => exact Or.inl rfl
    | cons e rest => exact Or.inr ⟨e, rest, rfl⟩
  rcases hcases with hrq | ⟨e, rest, hrq⟩
  · unfold PageTableWalker.handle_read_step at h
    rw [hrq] at h
    exact absurd h (by simp)
  · refine ⟨e, rest, hrq, ?_⟩
    by_cases ha : e.pkt.address >>> 32 = 0xf000000f
    · unfold PageTableWalker.handle_read_step at h
      rw [hrq] at h
      simp [ha] at h
    · by_cases hv : e.pkt.v_address = 0
      · unfold PageTableWalker.handle_read_step at h
        rw [hrq] at h
        simp [ha, hv] at h
      · by_cases hroom : s.lower_RQ.length < s.lower_RQ_SIZE
        · rw [handle_read_step_eq s e rest hrq ha hv hroom] at h
          exact ⟨hroom, (Option.some.inj h).symm⟩
        · unfold PageTableWalker.handle_read_step at h
          rw [hrq] at h
          simp [ha, hv, check_hit_probe, PageTableWalker.lower_add_rq, hroom] at h

/-- What holds from one iteration to the next holds across the loop of `handle_read`. -/
theorem handle_read_loop_rel (P : PageTableWalker → PageTableWalker → Prop)
    (hrefl : ∀ s, P s s) (htrans : ∀ s t u, P s t → P t u → P s u)
    (hstep : ∀ s t, s.handle_read_guard = true → s.handle_read_step = some t → P s t) :
    ∀ n s t, PageTableWalker.handle_read_loop n s = some t → P s t := by
  intro n
  induction n with
  | zero =>
    intro s t h
    simp only [PageTableWalker.handle_read_loop, Option.some.injEq] at h
    subst h
    exact hrefl s
  | succ n ih =>
    intro s t h
    simp only [PageTableWalker.handle_read_loop] at h
    by_cases hg : s.handle_read_guard = true
    · rw [if_pos hg] at h
      cases hs : s.handle_read_step with
      | none => rw [hs] at h; exact absurd h (by simp)
      | some s1 =>
        rw [hs] at h
        exact htrans _ _ _ (hstep s s1 hg hs) (ih s1 t h)
    · rw [if_neg hg] at h
      simp only [Option.some.injEq] at h
      subst h
      exact hrefl s

/-- What holds from one iteration to the next holds across the loop of `handle_fill`. -/
theorem handle_fill_loop_rel (vm : VirtualMemory) (warmup_complete : Bool)
    (P : PageTableWalker → PageTableWalker → Prop)
    (hrefl : ∀ s, P s s) (htrans : ∀ s t u, P s t → P t u → P s u)
    (hstep : ∀ s t, s.handle_fill_guard = true →
      s.handle_fill_step vm warmup_complete = some t → P s t) :
    ∀ n s t, PageTableWalker.handle_fill_loop vm warmup_complete n s = some t → P s t := by
  intro n
  induction n with
  | zero =>
    intro s t h
    simp only [PageTableWalker.handle_fill_loop, Option.some.injEq] at h
    subst h
    exact hrefl s
  | succ n ih =>
    intro s t h
    simp only [PageTableWalker.handle_fill_loop] at h
    by_cases hg : s.handle_fill_guard = true
    · rw [if_pos hg] at h
      cases hs : s.handle_fill_step vm warmup_complete with
      | none => rw [hs] at h; exact absurd h (by simp)
      | some s1 =>
        rw [hs] at h
        exact htrans _ _ _ (hstep s s1 hg hs) (ih s1 t h)
    · rw [if_neg hg] at h
      simp only [Option.some.injEq] at h
      subst h
      exact hrefl s

/-- Rewriting every entry in place, no level going up, is a sequence of elementary changes. -/
theorem mshr_change_map (f : PACKET → PACKET)
    (hf : ∀ m, m.same_entry (f m) ∧ (f m).translation_level ≤ m.translation_level) :
    ∀ l pre : List PACKET, Relation.ReflTransGen MSHR_change (pre ++ l) (pre ++ l.map f) := by
  intro l
  induction l with
  | nil => intro pre; exact Relation.ReflTransGen.refl
  | cons m l ih =>
    intro pre
    have h1 : MSHR_change (pre ++ m :: l) (pre ++ f m :: l) :=
      MSHR_change.update pre m (f m) l (hf m).1 (hf m).2
    have h2 := ih (pre ++ [f m])
    simp only [List.append_assoc, List.singleton_append] at h2
    exact Relation.ReflTransGen.head h1 h2

/-- The rewriting of `return_data` keeps the entry and does not raise its level. -/
theorem return_data_entry (cycle : Nat) (packet m : PACKET) :
    m.same_entry (if m.address = packet.address
          ∧ m.translation_level = packet.translation_level then
        { m with translation_level := m.translation_level - 1, event_cycle := cycle }
      else m)
    ∧ (if m.address = packet.address
          ∧ m.translation_level = packet.translation_level then
        { m with translation_level := m.translation_level - 1, event_cycle := cycle }
      else m).translation_level ≤ m.translation_level := by
  unfold PACKET.same_entry
  split_ifs
  · exact ⟨rfl, Nat.sub_le _ _⟩
  · exact ⟨rfl, Nat.le_refl _⟩

/-- The MSHR that `return_data` leaves. -/
theorem return_data_eq (s t : PageTableWalker) (packet : PACKET)
    (h : s.return_data packet = some t) :
    t = { s with MSHR := sort_by_event_cycle (s.MSHR.map (fun mshr_entry =>
      if mshr_entry.address = packet.address
          ∧ mshr_entry.translation_level = packet.translation_level then
        { mshr_entry with translation_level := mshr_entry.translation_level - 1,
                          event_cycle := s.current_cycle }
      else mshr_entry)) } := by
  unfold PageTableWalker.return_data at h
  split at h
  · exact absurd h (by simp)
  · exact (Option.some.inj h).symm

/-- `return_data` changes the MSHR by elementary changes. -/
theorem return_data_change (s t : PageTableWalker) (packet : PACKET)
    (h : s.return_data packet = some t) :
    Relation.ReflTransGen MSHR_change s.MSHR t.MSHR := by
  rw [return_data_eq s t packet h]
  have h1 := mshr_change_map _ (return_data_entry s.current_cycle packet) s.MSHR []
  simp only [List.nil_append] at h1
  exact Relation.ReflTransGen.tail h1
    (MSHR_change.reorder _ _ (sort_by_event_cycle_perm _).symm)

/-- An iteration of `handle_read` changes the MSHR by an elementary change. -/
theorem handle_read_step_change (s t : PageTableWalker) (h : s.handle_read_step = some t) :
    Relation.ReflTransGen MSHR_change s.MSHR t.MSHR := by
  obtain ⟨e, rest, -, -, ht⟩ := handle_read_step_cases s t h
  rw [ht]
  exact Relation.ReflTransGen.single (MSHR_change.push _ _ rfl)

/-- An iteration of `handle_fill` changes the MSHR by elementary changes. -/
theorem handle_fill_step_change (vm : VirtualMemory) (warmup_complete : Bool)
    (s t : PageTableWalker) (h : s.handle_fill_step vm warmup_complete = some t) :
    Relation.ReflTransGen MSHR_change s.MSHR t.MSHR := by
  obtain ⟨m, rest, hm, hc⟩ := handle_fill_step_cases vm warmup_complete s t h
  rw [hm]
  rcases hc with ⟨s1, -, -, hr⟩ | ⟨b, -, -, ht⟩ | ⟨-, -, ht⟩
  · rw [hr]
    exact Relation.ReflTransGen.single (MSHR_change.erase [] m rest)
  · rw [ht]
    have h1 : MSHR_change ([] ++ m :: rest)
        ([] ++ { m with event_cycle := UINT64_MAX,
                        address := (s.fill_request m b).address } :: rest) :=
      MSHR_change.update [] m _ rest rfl (Nat.le_refl _)
    refine Relation.ReflTransGen.tail (Relation.ReflTransGen.single h1)
      (MSHR_change.reorder _ _ ?_)
    simp only [List.nil_append]
    exact (List.perm_append_singleton _ _).symm
  · rw [ht, hm]

/-- An iteration of `handle_read` keeps the levels in range. -/
theorem handle_read_step_levels (s t : PageTableWalker) (hs : s.levels_ok)
    (h : s.handle_read_step = some t) : t.levels_ok := by
  obtain ⟨e, rest, -, -, ht⟩ := handle_read_step_cases s t h
  have hr := start_level_range s e.pkt.address (s.PSCL5.probe e.pkt.address)
    (s.PSCL4.probe e.pkt.address) (s.PSCL3.probe e.pkt.address) (s.PSCL2.probe e.pkt.address)
  rw [ht]
  constructor
  · intro m hm
    simp only [List.mem_append, List.mem_singleton] at hm
    rcases hm with hm | hm
    · exact hs.1 m hm
    · rw [hm]
      exact ⟨Nat.le_refl _, hr.2⟩
  · intro r hr1
    simp only [List.mem_append, List.mem_singleton] at hr1
    rcases hr1 with hr1 | hr1
    · exact hs.2 r hr1
    · rw [hr1]
      exact hr

/-- An iteration of `handle_fill` keeps the levels in range. -/
theorem handle_fill_step_levels (vm : VirtualMemory) (warmup_complete : Bool)
    (s t : PageTableWalker) (hs : s.levels_ok)
    (h : s.handle_fill_step vm warmup_complete = some t) : t.levels_ok := by
  obtain ⟨m, rest, hm, hc⟩ := handle_fill_step_cases vm warmup_complete s t h
  have hrest : ∀ x, x ∈ rest → x ∈ s.MSHR := by
    intro x hx
    rw [hm]
    exact List.mem_cons_of_mem _ hx
  have hm1 := hs.1 m (by rw [hm]; exact List.mem_cons_self _ _)
  rcases hc with ⟨s1, h1, h2, hr⟩ | ⟨b, h0, -, ht⟩ | ⟨-, -, ht⟩
  · constructor
    · intro x hx
      rw [hr] at hx
      exact hs.1 x (hrest x hx)
    · intro r hr1
      rw [(completion_only_fields s1 t h2).1, (table_only_fields s s1 h1).2.2.2.2.2.2.2.2.2.1]
        at hr1
      exact hs.2 r hr1
  · rw [ht]
    constructor
    · intro x hx
      simp only [List.mem_append, List.mem_singleton] at hx
      rcases hx with hx | hx
      · exact hs.1 x (hrest x hx)
      · rw [hx]
        exact hm1
    · intro r hr1
      simp only [List.mem_append, List.mem_singleton] at hr1
      rcases hr1 with hr1 | hr1
      · exact hs.2 r hr1
      · rw [hr1]
        exact ⟨Nat.one_le_iff_ne_zero.mpr h0, Nat.le_trans hm1.1 hm1.2⟩
  · rw [ht]
    exact hs

/-- `return_data` keeps the levels in range. -/
theorem return_data_levels (s t : PageTableWalker) (packet : PACKET) (hs : s.levels_ok)
    (h : s.return_data packet = some t) : t.levels_ok := by
  rw [return_data_eq s t packet h]
  constructor
  · intro m hm
    have hm1 := mem_sort_by_event_cycle m _ hm
    simp only [List.mem_map] at hm1
    obtain ⟨o, ho, hom⟩ := hm1
    have h1 := hs.1 o ho
    have h2 := return_data_entry s.current_cycle packet o
    rw [hom] at h2
    have h3 : m.init_translation_level = o.init_translation_level := by
      rw [h2.1]
    rw [h3]
    exact ⟨Nat.le_trans h2.2 h1.1, h1.2⟩
  · exact hs.2

/-- The levels are in range in every reachable state. -/
theorem reachable_levels (vm : VirtualMemory) (warmup_complete : Bool) (s : PageTableWalker)
    (hs : s.reachable vm warmup_complete) : s.levels_ok := by
  induction hs with
  | init cr3 cursor num_set num_way =>
    constructor <;> (intro m hm; simp [PageTableWalker.init] at hm)
  | add_rq s t packet code _ _ h ih =>
    unfold PageTableWalker.add_rq at h
    split_ifs at h
    · simp only [Option.some.injEq, Prod.mk.injEq] at h
      rw [← h.2]
      exact ih
    · simp only [Option.some.injEq, Prod.mk.injEq] at h
      rw [← h.2]
      exact ih
  | handle_read s t _ h ih =>
    exact handle_read_loop_rel (fun a b => a.levels_ok → b.levels_ok) (fun _ h => h)
      (fun _ _ _ h1 h2 h => h2 (h1 h))
      (fun a b _ hstep ha => handle_read_step_levels a b ha hstep) _ s t h ih
  | handle_fill s t _ h ih =>
    exact handle_fill_loop_rel vm warmup_complete (fun a b => a.levels_ok → b.levels_ok)
      (fun _ h => h) (fun _ _ _ h1 h2 h => h2 (h1 h))
      (fun a b _ hstep ha => handle_fill_step_levels vm warmup_complete a b ha hstep)
      _ s t h ih
  | return_data s t packet _ h ih => exact return_data_levels s t packet ih h
  | clock s _ ih => exact ih
  | lower_take s _ ih =>
    exact ⟨ih.1, fun r hr => ih.2 r (List.mem_of_mem_tail hr)⟩

/-- `return_data` returns unless an entry that matches the packet is at level 0. -/
theorem return_data_isSome (s : PageTableWalker) (packet : PACKET) :
    (s.return_data packet).isSome = true
      ↔ ∀ m, m ∈ s.MSHR → m.address = packet.address →
          m.translation_level = packet.translation_level → 0 < m.translation_level := by
  unfold PageTableWalker.return_data
  constructor
  · intro h m hm ha hl
    by_contra h0
    have hany : (s.MSHR.any (fun mshr_entry => mshr_entry.address == packet.address
        && mshr_entry.translation_level == packet.translation_level
        && mshr_entry.translation_level == 0)) = true := by
      rw [List.any_eq_true]
      refine ⟨m, hm, ?_⟩
      have h00 : m.translation_level = 0 := by omega
      simp [ha, ← hl, h00]
    rw [if_pos hany] at h
    exact absurd h (by simp)
  · intro h
    have hany : ¬ (s.MSHR.any (fun mshr_entry => mshr_entry.address == packet.address
        && mshr_entry.translation_level == packet.translation_level
        && mshr_entry.translation_level == 0)) = true := by
      rw [List.any_eq_true]
      rintro ⟨m, hm, hc⟩
      simp only [Bool.and_eq_true, beq_iff_eq] at hc
      have := h m hm hc.1.1 hc.1.2
      omega
    rw [if_neg hany]
    rfl

/-- C12. In every state that the walker reaches through `handle_read`, `return_data` and
`handle_fill` (and `add_rq`, the clock and the lower level taking requests), every MSHR entry
has `translation_level ≤ init_translation_level ≤ 5` (the levels are naturals, so `0 ≤` holds
by type). Each of `handle_read`, `handle_fill` and `return_data` changes the MSHR by a
sequence of elementary changes none of which raises the level of an entry: a new entry is
appended at its initial level, an entry is erased, an entry is rewritten in place with a level
not above the one it had, or the entries are reordered. Every request the walker has put in
the read queue of the lower level is for a level from 1 to 5, and `return_data` on a packet
of level at least 1, in particular on every such request, returns: its assertion
`translation_level > 0` does not fail. -/
theorem translation_level_never_increases (vm : VirtualMemory) (warmup_complete : Bool)
    (s : PageTableWalker) (hs : s.reachable vm warmup_complete) :
    (∀ m, m ∈ s.MSHR →
        0 ≤ m.translation_level ∧ m.translation_level ≤ m.init_translation_level
          ∧ m.init_translation_level ≤ 5)
      ∧ (∀ t, s.handle_read = some t → Relation.ReflTransGen MSHR_change s.MSHR t.MSHR)
      ∧ (∀ t, s.handle_fill vm warmup_complete = some t →
          Relation.ReflTransGen MSHR_change s.MSHR t.MSHR)
      ∧ (∀ packet t, s.return_data packet = some t →
          Relation.ReflTransGen MSHR_change s.MSHR t.MSHR)
      ∧ (∀ r, r ∈ s.lower_RQ → 1 ≤ r.translation_level ∧ r.translation_level ≤ 5)
      ∧ (∀ packet : PACKET, 1 ≤ packet.translation_level →
          ∃ t, s.return_data packet = some t
            ∧ ∀ m, m ∈ t.MSHR →
                m.translation_level ≤ m.init_translation_level
                  ∧ m.init_translation_level ≤ 5) := by
  have hl := reachable_levels vm warmup_complete s hs
  refine ⟨fun m hm => ⟨Nat.zero_le _, hl.1 m hm⟩, ?_, ?_, ?_, hl.2, ?_⟩
  · intro t h
    exact handle_read_loop_rel (fun a b => Relation.ReflTransGen MSHR_change a.MSHR b.MSHR)
      (fun _ => Relation.ReflTransGen.refl) (fun _ _ _ h1 h2 => h1.trans h2)
      (fun a b _ hstep => handle_read_step_change a b hstep) _ s t h
  · intro t h
    exact handle_fill_loop_rel vm warmup_complete
      (fun a b => Relation.ReflTransGen MSHR_change a.MSHR b.MSHR)
      (fun _ => Relation.ReflTransGen.refl) (fun _ _ _ h1 h2 => h1.trans h2)
      (fun a b _ hstep => handle_fill_step_change vm warmup_complete a b hstep) _ s t h
  · intro packet t h
    exact return_data_change s t packet h
  · intro packet hp
    have hsome : (s.return_data packet).isSome = true := by
      rw [return_data_isSome]
      intro m _ _ hlv
      omega
    obtain ⟨t, ht⟩ := Option.isSome_iff_exists.mp hsome
    exact ⟨t, ht, (return_data_levels s t packet hl ht).1⟩

/-- A result with a return code is the code and the state taken with a default. -/
theorem option_code_eq_some {α : Type} (x : Option (Int × α)) (c : Int) (d : α)
    (h : x.map Prod.fst = some c) : x = some (c, (x.map Prod.snd).getD d) := by
  cases x with
  | none => simp at h
  | some a =>
    simp only [Option.map_some', Option.some.injEq] at h
    subst h
    rfl

/-- The walker that has taken a request is reachable. -/
theorem ptw_requested_reachable : ptw_requested.reachable vm0 true :=
  PageTableWalker.reachable.add_rq _ _ req0 (-1)
    (PageTableWalker.reachable.init 0x100 0xf000000f00000000 2 4) (by decide)
    (option_code_eq_some _ _ _ (by decide))

/-- The walker that has sent the first request of a walk is reachable. -/
theorem ptw_walking_reachable : ptw_walking.reachable vm0 true :=
  PageTableWalker.reachable.handle_read _ _ ptw_requested_reachable
    (option_eq_some_getD _ _ (by decide))

/-- Witness for C12: the walker that has just sent the level-5 request of the walk of `req0`
is reachable; its MSHR holds one entry at level 5. -/
theorem translation_level_never_increases_witness :
    ptw_walking.reachable vm0 true
      ∧ ptw_walking.MSHR.map (fun m => (m.translation_level, m.init_translation_level))
          = [(5, 5)]
      ∧ (∀ m, m ∈ ptw_walking.MSHR →
          0 ≤ m.translation_level ∧ m.translation_level ≤ m.init_translation_level
            ∧ m.init_translation_level ≤ 5) :=
  ⟨ptw_walking_reachable, by decide,
    (translation_level_never_increases vm0 true ptw_walking ptw_walking_reachable).1⟩

/-! ## Theorems: requests issued and entries waiting -/

/-- An answer wakes the entries it matches: with the clock below the maximum, the entries
that wait afterwards are those that waited and did not match. -/
theorem countP_return_data (cycle : Nat) (hc : cycle ≠ UINT64_MAX) (packet : PACKET) :
    ∀ l : List PACKET,
      (l.map (fun mshr_entry =>
        if mshr_entry.address = packet.address
            ∧ mshr_entry.translation_level = packet.translation_level then
          { mshr_entry with translation_level := mshr_entry.translation_level - 1,
                            event_cycle := cycle }
        else mshr_entry)).countP (fun m => m.event_cycle == UINT64_MAX)
      + (l.filter (fun m => m.address == packet.address
          && m.translation_level == packet.translation_level)).countP
            (fun m => m.event_cycle == UINT64_MAX)
      = l.countP (fun m => m.event_cycle == UINT64_MAX) := by
  intro l
  induction l with
  | nil => rfl
  | cons m l ih =>
    have hcyc : (cycle == UINT64_MAX) = false := by simp [hc]
    by_cases hm : m.address = packet.address ∧ m.translation_level = packet.translation_level
    · have hf : (m.address == packet.address
          && m.translation_level == packet.translation_level) = true := by
        simp [hm.1, hm.2]
      simp only [List.map_cons, if_pos hm, List.filter_cons, hf, if_true, List.countP_cons,
        hcyc]
      generalize List.countP _ (List.map _ l) = A at ih ⊢
      generalize List.countP _ (List.filter _ l) = B at ih ⊢
      generalize List.countP _ l = C at ih ⊢
      by_cases hw : (m.event_cycle == UINT64_MAX) = true
      · simp only [hw, if_true, Bool.false_eq_true, if_false]
        omega
      · simp only [hw, Bool.false_eq_true, if_false]
        omega
    · have hf : (m.address == packet.address
          && m.translation_level == packet.translation_level) = false := by
        simpa using hm
      simp only [List.map_cons, if_neg hm, List.filter_cons, hf, List.countP_cons,
        Bool.false_eq_true, if_false]
      generalize List.countP _ (List.map _ l) = A at ih ⊢
      generalize List.countP _ (List.filter _ l) = B at ih ⊢
      generalize List.countP _ l = C at ih ⊢
      by_cases hw : (m.event_cycle == UINT64_MAX) = true
      · simp only [hw, if_true]
        omega
      · simp only [hw, if_false]
        omega

/-- An answer that matches exactly one entry, which waits, leaves one entry less waiting. -/
theorem return_data_num_waiting (s t : PageTableWalker) (packet : PACKET)
    (hc : s.current_cycle < UINT64_MAX) (hone : s.answers_one packet = true)
    (h : s.return_data packet = some t) :
    t.num_waiting + 1 = s.num_waiting ∧ t.current_cycle = s.current_cycle := by
  have hcount := countP_return_data s.current_cycle (Nat.ne_of_lt hc) packet s.MSHR
  rw [return_data_eq s t packet h]
  refine ⟨?_, rfl⟩
  unfold PageTableWalker.num_waiting
  simp only
  rw [(sort_by_event_cycle_perm _).countP_eq]
  unfold PageTableWalker.answers_one at hone
  split at hone
  · rename_i m hfilter
    rw [hfilter] at hcount
    simp only [List.countP_cons, hone, if_true, List.countP_nil] at hcount
    omega
  · exact absurd hone (by simp)

/-- Nothing is issued from a state to itself. -/
theorem issued_between_refl (s : PageTableWalker) : s.issued_between s :=
  ⟨rfl, [], by simp, by simp⟩

/-- What is issued adds up. -/
theorem issued_between_trans (s t u : PageTableWalker) (h1 : s.issued_between t)
    (h2 : t.issued_between u) : s.issued_between u := by
  obtain ⟨hc1, n1, hq1, hw1⟩ := h1
  obtain ⟨hc2, n2, hq2, hw2⟩ := h2
  refine ⟨hc2.trans hc1, n1 ++ n2, ?_, ?_⟩
  · rw [hq2, hq1, List.append_assoc]
  · rw [hw2, hw1, List.length_append, Nat.add_assoc]

/-- An iteration of `handle_read` issues one request and adds one waiting entry. -/
theorem handle_read_step_issued (s t : PageTableWalker) (h : s.handle_read_step = some t) :
    s.issued_between t := by
  obtain ⟨e, rest, -, -, ht⟩ := handle_read_step_cases s t h
  rw [ht]
  refine ⟨rfl, [_], rfl, ?_⟩
  unfold PageTableWalker.num_waiting
  simp [List.countP_append, List.countP_cons, PageTableWalker.read_entry]

/-- An iteration of `handle_fill` on a front entry that is due, with the clock below the
maximum, issues a request exactly when it leaves its entry waiting. -/
theorem handle_fill_step_issued (vm : VirtualMemory) (warmup_complete : Bool)
    (s t : PageTableWalker) (hc : s.current_cycle < UINT64_MAX)
    (hg : s.handle_fill_guard = true)
    (h : s.handle_fill_step vm warmup_complete = some t) : s.issued_between t := by
  obtain ⟨m, rest, hm, hcases⟩ := handle_fill_step_cases vm warmup_complete s t h
  have hdue : ¬ (m.event_cycle == UINT64_MAX) = true := by
    unfold PageTableWalker.handle_fill_guard at hg
    rw [hm] at hg
    simp only [Bool.not_eq_true', decide_eq_false_iff_not, not_lt] at hg
    simp only [beq_iff_eq]
    omega
  have hs : s.num_waiting = rest.countP (fun m => m.event_cycle == UINT64_MAX) := by
    unfold PageTableWalker.num_waiting
    rw [hm]
    simp only [List.countP_cons, hdue, Bool.false_eq_true, if_false, Nat.add_zero]
  rcases hcases with ⟨s1, h1, h2, hr⟩ | ⟨b, -, -, ht⟩ | ⟨-, -, ht⟩
  · have f1 := table_only_fields s s1 h1
    have f2 := completion_only_fields s1 t h2
    refine ⟨f2.2.1.trans f1.2.2.2.2.2.2.2.2.2.2.2.1, [], ?_, ?_⟩
    · rw [f2.1, f1.2.2.2.2.2.2.2.2.2.1, List.append_nil]
    · rw [hs]
      unfold PageTableWalker.num_waiting
      rw [hr]
      rfl
  · refine ⟨by rw [ht], [s.fill_request m b], by rw [ht], ?_⟩
    rw [hs, ht]
    unfold PageTableWalker.num_waiting
    simp [List.countP_append, List.countP_cons]
  · refine ⟨by rw [ht], [], by rw [ht]; simp, ?_⟩
    rw [ht]
    unfold PageTableWalker.num_waiting
    simp

/-- `handle_read` issues as many requests as it adds waiting entries. -/
theorem handle_read_issued (s t : PageTableWalker) (h : s.handle_read = some t) :
    s.issued_between t :=
  handle_read_loop_rel PageTableWalker.issued_between issued_between_refl
    issued_between_trans (fun a b _ hstep => handle_read_step_issued a b hstep) _ s t h

/-- `handle_fill`, with the clock below the maximum, issues as many requests as it adds
waiting entries. -/
theorem handle_fill_issued (vm : VirtualMemory) (warmup_complete : Bool)
    (s t : PageTableWalker) (hc : s.current_cycle < UINT64_MAX)
    (h : s.handle_fill vm warmup_complete = some t) : s.issued_between t := by
  have hrel := handle_fill_loop_rel vm warmup_complete
    (fun a b => a.current_cycle < UINT64_MAX → a.issued_between b)
    (fun a _ => issued_between_refl a)
    (fun a b c h1 h2 ha =>
      issued_between_trans a b c (h1 ha) (h2 (by rw [(h1 ha).1]; exact ha)))
    (fun a b hg hstep ha => handle_fill_step_issued vm warmup_complete a b ha hg hstep)
    _ s t h
  exact hrel hc

/-- The part of a queue that was appended. -/
theorem drop_issued (s t : PageTableWalker) (h : s.issued_between t) :
    t.num_waiting = s.num_waiting + (t.lower_RQ.drop s.lower_RQ.length).length := by
  obtain ⟨-, new, hq, hw⟩ := h
  rw [hq, List.drop_left, hw]

/-- C13, amended. In every state of a run of the walker in which the clock stays below the
maximum `uint64_t` and every answer passed to `return_data` is one of the requests issued and
not yet answered and has the address and the level of exactly one MSHR entry, that entry
waiting, the number of requests that `handle_read` and `handle_fill` have issued to the lower
level and that have not been answered through `return_data` equals the number of MSHR entries
whose `event_cycle` is the maximum `uint64_t`. -/
theorem outstanding_requests (vm : VirtualMemory) (warmup_complete : Bool)
    (s : PageTableWalker) (out : List PACKET)
    (hs : s.serves vm warmup_complete true out) :
    out.length = s.MSHR.countP (fun m => m.event_cycle == UINT64_MAX) := by
  have hinv : out.length = s.num_waiting ∧ s.current_cycle < UINT64_MAX := by
    induction hs with
    | init cr3 cursor num_set num_way =>
      exact ⟨rfl, by simp [PageTableWalker.init, UINT64_MAX]⟩
    | add_rq s t out packet code _ h ih =>
      unfold PageTableWalker.add_rq at h
      split_ifs at h
      · simp only [Option.some.injEq, Prod.mk.injEq] at h
        rw [← h.2]
        exact ih
      · simp only [Option.some.injEq, Prod.mk.injEq] at h
        rw [← h.2]
        exact ih
    | handle_read s t out _ h ih =>
      have hi := handle_read_issued s t h
      refine ⟨?_, by rw [hi.1]; exact ih.2⟩
      rw [List.length_append, drop_issued s t hi, ih.1]
    | handle_fill s t out _ h ih =>
      have hi := handle_fill_issued vm warmup_complete s t ih.2 h
      refine ⟨?_, by rw [hi.1]; exact ih.2⟩
      rw [List.length_append, drop_issued s t hi, ih.1]
    | return_data s t out packet _ hmem hone h ih =>
      have hr := return_data_num_waiting s t packet ih.2 (hone rfl) h
      refine ⟨?_, by rw [hr.2]; exact ih.2⟩
      rw [List.length_erase_of_mem hmem, ih.1, ← hr.1]
      rfl
    | clock s out _ hlt ih => exact ⟨ih.1, hlt⟩
    | lower_take s out _ ih => exact ih
  exact hinv.1

/-- The two walks started by one `handle_read`, with their two requests outstanding. -/
theorem ptw_walking_twice_serves (exact : Bool) :
    ptw_walking_twice.serves vm0 true exact [first_request, second_request] := by
  have h0 := @PageTableWalker.serves.init vm0 true exact 0x100 0xf000000f00000000 2 4
  have h1 := PageTableWalker.serves.add_rq _ ptw_requested _ req0 (-1) h0
    (option_code_eq_some _ _ _ (by decide))
  have h2 := PageTableWalker.serves.add_rq _ ptw_requested_twice _ req_next (-1) h1
    (option_code_eq_some _ _ _ (by decide))
  have h3 := PageTableWalker.serves.handle_read _ ptw_walking_twice _ h2
    (option_eq_some_getD _ _ (by decide))
  have hout : [] ++ ptw_walking_twice.lower_RQ.drop ptw_requested_twice.lower_RQ.length
      = [first_request, second_request] := by decide
  rw [hout] at h3
  exact h3

/-- Counterexample to C13 as stated: two requests for neighbouring pages come in and
`handle_read` starts both walks at level 5; their two requests to the lower level have the
same address and the same level. The answer to the first one wakes both MSHR entries: the
second request is still outstanding, and no entry has `event_cycle` at the maximum. -/
theorem outstanding_requests_counterexample :
    ptw_walking_twice.serves vm0 true false [first_request, second_request]
      ∧ ptw_walking_twice.MSHR.countP (fun m => m.event_cycle == UINT64_MAX) = 2
      ∧ (first_request.address, first_request.translation_level)
          = (second_request.address, second_request.translation_level)
      ∧ ptw_walking_twice.return_data first_request = some ptw_answered_once
      ∧ ptw_answered_once.serves vm0 true false [second_request]
      ∧ [second_request].length = 1
      ∧ ptw_answered_once.MSHR.countP (fun m => m.event_cycle == UINT64_MAX) = 0 := by
  have hret : ptw_walking_twice.return_data first_request = some ptw_answered_once :=
    option_eq_some_getD _ _ (by decide)
  have h4 := PageTableWalker.serves.return_data _ ptw_answered_once _ first_request
    (ptw_walking_twice_serves false) (by decide) (fun h => absurd h (by decide)) hret
  have hout : [first_request, second_request].erase first_request = [second_request] := by
    decide
  rw [hout] at h4
  exact ⟨ptw_walking_twice_serves false, by decide, by decide, hret, h4, rfl, by decide⟩

/-- The walk of `req0` alone, its request outstanding, in an exact run. -/
theorem ptw_walking_serves :
    ptw_walking.serves vm0 true true [ptw_walking.lower_RQ.headD req0] := by
  have h0 := @PageTableWalker.serves.init vm0 true true 0x100 0xf000000f00000000 2 4
  have h1 := PageTableWalker.serves.add_rq _ ptw_requested _ req0 (-1) h0
    (option_code_eq_some _ _ _ (by decide))
  have h3 := PageTableWalker.serves.handle_read _ ptw_walking _ h1
    (option_eq_some_getD _ _ (by decide))
  have hout : [] ++ ptw_walking.lower_RQ.drop ptw_requested.lower_RQ.length
      = [ptw_walking.lower_RQ.headD req0] := by decide
  rw [hout] at h3
  exact h3

/-- Witness for C13: in the run in which the request for `req0` comes in and `handle_read`
sends the level-5 request of its walk, one request is outstanding and one MSHR entry waits. -/
theorem outstanding_requests_witness :
    ptw_walking.serves vm0 true true [ptw_walking.lower_RQ.headD req0]
      ∧ [ptw_walking.lower_RQ.headD req0].length = 1
      ∧ [ptw_walking.lower_RQ.headD req0].length
          = ptw_walking.MSHR.countP (fun m => m.event_cycle == UINT64_MAX) :=
  ⟨ptw_walking_serves, rfl,
    outstanding_requests vm0 true ptw_walking _ ptw_walking_serves⟩

/-! ## Theorems: `return_data` -/

/-- C14. `return_data(p)` returns unless an MSHR entry with the address and the level of `p`
is at level 0, where its assertion fails. When it returns, nothing but the MSHR has changed,
and the MSHR is a permutation, sorted in non-decreasing order of `event_cycle`, of the list
in which every entry with `address == p.address` and `translation_level ==
p.translation_level` has its level decremented by one and its `event_cycle` set to
`current_cycle` and every other entry is as it was. In particular no entry that has its
`event_cycle` below the maximum `uint64_t`, such as an entry just completed while the clock
is below that maximum, comes after an entry that waits at the maximum. -/
theorem return_data_spec (s : PageTableWalker) (packet : PACKET) :
    ((s.return_data packet).isSome = true
        ↔ ∀ m, m ∈ s.MSHR → m.address = packet.address →
            m.translation_level = packet.translation_level → 0 < m.translation_level)
      ∧ ∀ t, s.return_data packet = some t →
          t = { s with MSHR := t.MSHR }
            ∧ (∃ l, List.Forall₂ (fun o n =>
                  if o.address = packet.address
                      ∧ o.translation_level = packet.translation_level then
                    n = { o with translation_level := n.translation_level,
                                 event_cycle := s.current_cycle }
                      ∧ n.translation_level + 1 = o.translation_level
                  else n = o) s.MSHR l
                ∧ t.MSHR.Perm l)
            ∧ t.MSHR.Sorted (fun a b : PACKET => a.event_cycle ≤ b.event_cycle)
            ∧ ∀ l1 a l2, t.MSHR = l1 ++ a :: l2 → a.event_cycle = UINT64_MAX →
                ∀ b, b ∈ l2 → ¬ b.event_cycle < UINT64_MAX := by
  refine ⟨return_data_isSome s packet, ?_⟩
  intro t h
  have hsome : (s.return_data packet).isSome = true := by rw [h]; rfl
  have hpos := (return_data_isSome s packet).mp hsome
  have ht := return_data_eq s t packet h
  have hsorted : t.MSHR.Sorted (fun a b : PACKET => a.event_cycle ≤ b.event_cycle) := by
    rw [ht]
    exact sort_by_event_cycle_sorted _
  refine ⟨?_, ⟨s.MSHR.map (fun mshr_entry =>
      if mshr_entry.address = packet.address
          ∧ mshr_entry.translation_level = packet.translation_level then
        { mshr_entry with translation_level := mshr_entry.translation_level - 1,
                          event_cycle := s.current_cycle }
      else mshr_entry), ?_, ?_⟩, hsorted, ?_⟩
  · rw [ht]
  · rw [List.forall₂_map_right_iff, List.forall₂_same]
    intro o ho
    by_cases hm : o.address = packet.address ∧ o.translation_level = packet.translation_level
    · have := hpos o ho hm.1 hm.2
      simp only [if_pos hm, true_and]
      omega
    · simp only [if_neg hm]
  · rw [ht]
    exact sort_by_event_cycle_perm _
  · intro l1 a l2 hl ha b hb hlt
    unfold List.Sorted at hsorted
    rw [hl, List.pairwise_append] at hsorted
    have := (List.pairwise_cons.mp hsorted.2.1).1 b hb
    omega

/-- Witness for C14: two walks wait for the same level-5 cell; the answer to the request of
the first takes both entries from level 5 to level 4. -/
theorem return_data_spec_witness :
    ptw_walking_twice.return_data first_request = some ptw_answered_once
      ∧ ptw_walking_twice.MSHR.map (fun m => (m.translation_level, m.event_cycle))
          = [(5, UINT64_MAX), (5, UINT64_MAX)]
      ∧ ptw_answered_once.MSHR.map (fun m => (m.translation_level, m.event_cycle))
          = [(4, 0), (4, 0)]
      ∧ ptw_answered_once.MSHR.Sorted (fun a b : PACKET => a.event_cycle ≤ b.event_cycle) :=
  ⟨option_eq_some_getD _ _ (by decide), by decide, by decide,
    ((return_data_spec ptw_walking_twice first_request).2 ptw_answered_once
      (option_eq_some_getD _ _ (by decide))).2.2.1⟩

/-! ## Theorems: back-pressure in `handle_fill` -/

/-- A walk that leaves the entry above level 0 reads the page table only: on a walker with the
same pages it gives the same result. -/
theorem walk_loop_pages (vm : VirtualMemory) (m : PACKET) :
    ∀ i (s u : PageTableWalker) (cp : Option Nat) (nlba : Nat) (w : WalkResult),
      u.pages = s.pages →
      PageTableWalker.walk_loop vm i s m cp nlba = some w → w.mshr.translation_level ≠ 0 →
      PageTableWalker.walk_loop vm i u m cp nlba = some { w with ptw := u } := by
  intro i
  induction i with
  | zero =>
    intro s u cp nlba w _ h _
    simp only [PageTableWalker.walk_loop, Option.some.injEq] at h ⊢
    subst h
    rfl
  | succ i ih =>
    intro s u cp nlba w hp h h0
    by_cases hgt : i + 1 > m.translation_level
    · cases cp with
      | none => simp [PageTableWalker.walk_loop, hgt] at h
      | some page =>
        simp only [PageTableWalker.walk_loop, hgt, if_true, hp] at h ⊢
        by_cases hn : (s.pages page).next_level_base_addr (get_offset m.v_address (i + 1))
            = UINT64_MAX
        · rw [if_pos hn] at h
          cases hpf : s.handle_page_fault vm page m (i + 1) with
          | none => rw [hpf] at h; exact absurd h (by simp)
          | some s1 =>
            rw [hpf] at h
            simp only [Option.some.injEq] at h
            subst h
            exact absurd rfl h0
        · rw [if_neg hn] at h ⊢
          exact ih s u _ _ w hp h h0
    · simp only [PageTableWalker.walk_loop, hgt, if_false, Option.some.injEq] at h ⊢
      subst h
      rfl

/-- An iteration of `handle_fill` on a walker that has the front entry, the page table and
`CR3` of `s`, where the walk leaves the entry above level 0. -/
theorem handle_fill_step_variant (vm : VirtualMemory) (warmup_complete : Bool)
    (s u : PageTableWalker) (m : PACKET) (rest : List PACKET) (w : WalkResult)
    (hM : s.MSHR = m :: rest) (hcr3 : s.CR3_addr ≠ UINT64_MAX)
    (hw : PageTableWalker.walk_loop vm 5 s m (some s.L5) UINT64_MAX = some w)
    (h0 : w.mshr.translation_level ≠ 0)
    (hMu : u.MSHR = s.MSHR) (hp : u.pages = s.pages) (hL : u.L5 = s.L5)
    (hc : u.CR3_addr = s.CR3_addr) :
    u.handle_fill_step vm warmup_complete
      = if u.lower_RQ.length < u.lower_RQ_SIZE then
          some { u with
            lower_RQ := u.lower_RQ ++ [u.fill_request m w.next_level_base_addr]
            MSHR := rest ++ [{ m with event_cycle := UINT64_MAX,
                                      address := (u.fill_request m w.next_level_base_addr).address }] }
        else some { u with RQ_FULL := u.RQ_FULL + 1 } := by
  have hwu := walk_loop_pages vm m 5 s u (some s.L5) UINT64_MAX w hp hw h0
  rw [← hL] at hwu
  exact handle_fill_step_pending vm warmup_complete u m rest { w with ptw := u }
    (hMu.trans hM) (by rw [hc]; exact hcr3) hwu h0

/-- While the front entry is blocked, every iteration left of `handle_fill` counts
`RQ_FULL`. -/
theorem handle_fill_loop_blocked (vm : VirtualMemory) (warmup_complete : Bool)
    (s : PageTableWalker) (m : PACKET) (rest : List PACKET) (w : WalkResult)
    (hM : s.MSHR = m :: rest) (hdue : m.event_cycle ≤ s.current_cycle)
    (hcr3 : s.CR3_addr ≠ UINT64_MAX)
    (hw : PageTableWalker.walk_loop vm 5 s m (some s.L5) UINT64_MAX = some w)
    (h0 : w.mshr.translation_level ≠ 0)
    (hfull : ¬ s.lower_RQ.length < s.lower_RQ_SIZE) :
    ∀ n k, PageTableWalker.handle_fill_loop vm warmup_complete n
        { s with RQ_FULL := s.RQ_FULL + k }
      = some { s with RQ_FULL := s.RQ_FULL + k + n } := by
  intro n
  induction n with
  | zero => intro k; rfl
  | succ n ih =>
    intro k
    have hg : ({ s with RQ_FULL := s.RQ_FULL + k } : PageTableWalker).handle_fill_guard
        = true := by
      unfold PageTableWalker.handle_fill_guard
      simp only [hM]
      simpa using hdue
    have hstep := handle_fill_step_variant vm warmup_complete s
      { s with RQ_FULL := s.RQ_FULL + k } m rest w hM hcr3 hw h0 rfl rfl rfl rfl
    simp only [hfull, if_false] at hstep
    rw [PageTableWalker.handle_fill_loop, if_pos hg, hstep]
    simp only
    have := ih (k + 1)
    simp only [← Nat.add_assoc] at this
    rw [this]
    have harith : s.RQ_FULL + k + 1 + n = s.RQ_FULL + k + (n + 1) := by omega
    rw [harith]

/-- `handle_fill` only appends to the read queue of the lower level. -/
theorem handle_fill_appends (vm : VirtualMemory) (warmup_complete : Bool) :
    ∀ n (s t : PageTableWalker),
      PageTableWalker.handle_fill_loop vm warmup_complete n s = some t →
      ∃ more, t.lower_RQ = s.lower_RQ ++ more := by
  refine handle_fill_loop_rel vm warmup_complete
    (fun a b => ∃ more, b.lower_RQ = a.lower_RQ ++ more) (fun a => ⟨[], by simp⟩) ?_ ?_
  · rintro a b c ⟨m1, h1⟩ ⟨m2, h2⟩
    exact ⟨m1 ++ m2, by rw [h2, h1, List.append_assoc]⟩
  · intro a b _ hstep
    obtain ⟨m, rest, -, hc⟩ := handle_fill_step_cases vm warmup_complete a b hstep
    rcases hc with ⟨s1, h1, h2, -⟩ | ⟨x, -, -, ht⟩ | ⟨-, -, ht⟩
    · refine ⟨[], ?_⟩
      rw [(completion_only_fields s1 b h2).1, (table_only_fields a s1 h1).2.2.2.2.2.2.2.2.2.1,
        List.append_nil]
    · exact ⟨[_], by rw [ht]⟩
    · exact ⟨[], by rw [ht]; simp⟩

/-- The first iteration of `handle_fill` on a front entry that is due. -/
theorem handle_fill_first (vm : VirtualMemory) (warmup_complete : Bool)
    (u t1 : PageTableWalker) (hpos : 0 < u.MAX_FILL) (hg : u.handle_fill_guard = true)
    (hs : u.handle_fill_step vm warmup_complete = some t1) :
    u.handle_fill vm warmup_complete
      = PageTableWalker.handle_fill_loop vm warmup_complete (u.MAX_FILL - 1) t1 := by
  unfold PageTableWalker.handle_fill
  generalize u.MAX_FILL = n at hpos ⊢
  cases n with
  | zero => omega
  | succ n =>
    rw [PageTableWalker.handle_fill_loop, if_pos hg, hs]
    rfl

/-- C15. Back-pressure in `handle_fill`: when the front MSHR entry `m` is due
(`event_cycle ≤ current_cycle`), the walk leaves it above level 0 and the read queue of the
lower level is full, an iteration of `handle_fill` increments `RQ_FULL` and changes nothing
else: nothing is sent and the MSHR, its entries, their order and the members of `m`, is as it
was. The whole call does so in each of its `MAX_FILL` iterations. In any later state that
differs by the contents of the read queue of the lower level, which now has room, the clock
and `RQ_FULL`, the first iteration of `handle_fill` sends the request for the same level of
`m`, for the address `next_level_base_addr << LOG2_PAGE_SIZE | get_offset(v_address, level)
<< 3`, and the request is in the read queue of the lower level when `handle_fill` returns. -/
theorem handle_fill_back_pressure (vm : VirtualMemory) (warmup_complete : Bool)
    (s : PageTableWalker) (m : PACKET) (rest : List PACKET) (w : WalkResult)
    (hM : s.MSHR = m :: rest) (hdue : m.event_cycle ≤ s.current_cycle)
    (hcr3 : s.CR3_addr ≠ UINT64_MAX)
    (hw : PageTableWalker.walk_loop vm 5 s m (some s.L5) UINT64_MAX = some w)
    (h0 : w.mshr.translation_level ≠ 0)
    (hfull : ¬ s.lower_RQ.length < s.lower_RQ_SIZE) :
    s.handle_fill_guard = true
      ∧ s.handle_fill_step vm warmup_complete = some { s with RQ_FULL := s.RQ_FULL + 1 }
      ∧ s.handle_fill vm warmup_complete = some { s with RQ_FULL := s.RQ_FULL + s.MAX_FILL }
      ∧ ∀ (q : List PACKET) (c n : Nat) (u : PageTableWalker),
          u = { s with lower_RQ := q, current_cycle := c, RQ_FULL := n } →
          q.length < s.lower_RQ_SIZE → m.event_cycle ≤ c →
          ∃ r t1,
            r.translation_level = m.translation_level
              ∧ r.type = TRANSLATION ∧ r.v_address = m.v_address
              ∧ r.address = next_address w.next_level_base_addr m.v_address
                  m.translation_level
              ∧ u.handle_fill_guard = true
              ∧ u.handle_fill_step vm warmup_complete = some t1
              ∧ t1.lower_RQ = q ++ [r]
              ∧ t1.MSHR = rest ++ [{ m with event_cycle := UINT64_MAX, address := r.address }]
              ∧ (0 < s.MAX_FILL → u.handle_fill vm warmup_complete
                  = PageTableWalker.handle_fill_loop vm warmup_complete (s.MAX_FILL - 1) t1)
              ∧ ∀ t, 0 < s.MAX_FILL → u.handle_fill vm warmup_complete = some t →
                  ∃ more, t.lower_RQ = q ++ r :: more := by
  have hg : s.handle_fill_guard = true := by
    unfold PageTableWalker.handle_fill_guard
    simp only [hM]
    simpa using hdue
  have hstep := handle_fill_step_pending vm warmup_complete s m rest w hM hcr3 hw h0
  rw [if_neg hfull] at hstep
  have hloop := handle_fill_loop_blocked vm warmup_complete s m rest w hM hdue hcr3 hw h0
    hfull s.MAX_FILL 0
  refine ⟨hg, hstep, ?_, ?_⟩
  · unfold PageTableWalker.handle_fill
    exact hloop
  · intro q c n u hu hq hc
    have hs1 := handle_fill_step_variant vm warmup_complete s u m rest w hM hcr3 hw h0
      (by rw [hu]) (by rw [hu]) (by rw [hu]) (by rw [hu])
    have hroom : u.lower_RQ.length < u.lower_RQ_SIZE := by rw [hu]; exact hq
    rw [if_pos hroom] at hs1
    have hgu : u.handle_fill_guard = true := by
      unfold PageTableWalker.handle_fill_guard
      rw [hu]
      simp only [hM]
      simpa using hc
    have hq2 : u.lower_RQ = q := by rw [hu]
    have hmf : u.MAX_FILL = s.MAX_FILL := by rw [hu]
    refine ⟨u.fill_request m w.next_level_base_addr, _, rfl, rfl, rfl, rfl, hgu, hs1,
      by rw [hq2], rfl, ?_, ?_⟩
    · intro hpos
      have e : u.MAX_FILL - 1 = s.MAX_FILL - 1 := by rw [hmf]
      rw [handle_fill_first vm warmup_complete u _ (by rw [hmf]; exact hpos) hgu hs1, e]
    · intro t hpos ht
      rw [handle_fill_first vm warmup_complete u _ (by rw [hmf]; exact hpos) hgu hs1] at ht
      obtain ⟨more, hmore⟩ := handle_fill_appends vm warmup_complete _ _ t ht
      refine ⟨more, ?_⟩
      rw [hmore, hq2]
      simp

/-- Witness for C15: the front entry of `ptw_blocked` is due at level 4 and the read queue of
the lower level is full; `handle_fill`, with `MAX_FILL = 2`, adds 2 to `RQ_FULL` and changes
nothing else. -/
theorem handle_fill_back_pressure_witness :
    ptw_blocked.MSHR = [entry_cold]
      ∧ entry_cold.event_cycle ≤ ptw_blocked.current_cycle
      ∧ walk_blocked.mshr.translation_level = 4
      ∧ ¬ ptw_blocked.lower_RQ.length < ptw_blocked.lower_RQ_SIZE
      ∧ ptw_blocked.MAX_FILL = 2
      ∧ ptw_blocked.handle_fill vm0 true
          = some { ptw_blocked with RQ_FULL := ptw_blocked.RQ_FULL + ptw_blocked.MAX_FILL } :=
  ⟨rfl, by decide, by decide, by decide, by decide,
    (handle_fill_back_pressure vm0 true ptw_blocked entry_cold [] walk_blocked rfl
      (by decide) (by decide) (option_eq_some_getD _ _ (by decide)) (by decide)
      (by decide)).2.2.1⟩

/-! ## Theorems: `add_rq` -/

/-- C16. `add_rq(p)` for `p.address != 0` and no entry of the read queue with the page of
`p`: it returns -2 if and only if the read queue is full, and then the queue is unchanged and
`RQ_FULL` is incremented; otherwise it returns -1, appends a copy of `p` at the tail of the
queue and increments `RQ_TO_CACHE` and `RQ_ACCESS`. A request whose page is that of an entry
of the queue fails the assertion, whether the queue is full or not. -/
theorem add_rq_spec (s : PageTableWalker) (packet : PACKET) :
    (packet.address ≠ 0 →
      (∀ e, e ∈ s.RQ →
        e.pkt.address >>> LOG2_PAGE_SIZE ≠ packet.address >>> LOG2_PAGE_SIZE) →
      ((s.add_rq packet).map Prod.fst = some (-2) ↔ s.RQ.length = s.RQ_SIZE)
        ∧ (s.RQ.length = s.RQ_SIZE →
            s.add_rq packet = some (-2, { s with RQ_FULL := s.RQ_FULL + 1 }))
        ∧ (s.RQ.length ≠ s.RQ_SIZE →
            s.add_rq packet = some (-1,
              { s with RQ := s.RQ ++ [{ pkt := packet, delay := s.LATENCY }],
                       RQ_TO_CACHE := s.RQ_TO_CACHE + 1, RQ_ACCESS := s.RQ_ACCESS + 1 })))
      ∧ ((∃ e, e ∈ s.RQ
            ∧ e.pkt.address >>> LOG2_PAGE_SIZE = packet.address >>> LOG2_PAGE_SIZE) →
          s.add_rq packet = none) := by
  constructor
  · intro ha hdup
    have hany : ¬ (s.RQ.any (fun e => (e.pkt.address >>> LOG2_PAGE_SIZE)
        == (packet.address >>> LOG2_PAGE_SIZE))) = true := by
      rw [List.any_eq_true]
      rintro ⟨e, he, heq⟩
      exact hdup e he (by simpa using heq)
    unfold PageTableWalker.add_rq
    rw [if_neg ha, if_neg hany]
    by_cases hfull : s.RQ.length = s.RQ_SIZE
    · simp [hfull]
    · simp [hfull]
  · rintro ⟨e, he, heq⟩
    have hany : (s.RQ.any (fun e => (e.pkt.address >>> LOG2_PAGE_SIZE)
        == (packet.address >>> LOG2_PAGE_SIZE))) = true := by
      rw [List.any_eq_true]
      exact ⟨e, he, by simpa using heq⟩
    unfold PageTableWalker.add_rq
    by_cases ha : packet.address = 0
    · rw [if_pos ha]
    · rw [if_neg ha, if_pos hany]

/-- Witness for C16: the read queue of `ptw_full` has one slot, taken by `req0`; the request
for another page is refused with -2, and a second request for the page of `req0` fails the
assertion although the queue is full. -/
theorem add_rq_spec_witness :
    req_next.address ≠ 0
      ∧ (∀ e, e ∈ ptw_full.RQ →
          e.pkt.address >>> LOG2_PAGE_SIZE ≠ req_next.address >>> LOG2_PAGE_SIZE)
      ∧ ptw_full.RQ.length = ptw_full.RQ_SIZE
      ∧ ptw_full.add_rq req_next = some (-2, { ptw_full with RQ_FULL := ptw_full.RQ_FULL + 1 })
      ∧ ptw_full.add_rq req0 = none :=
  ⟨by decide, by decide, by decide,
    ((add_rq_spec ptw_full req_next).1 (by decide) (by decide)).2.1 (by decide),
    (add_rq_spec ptw_full req0).2 ⟨{ pkt := req0, delay := 0 }, by decide, by decide⟩⟩


/-! ## Theorems: the pipeline of the core and its runs -/

/-! ## Theorems: the invariant of the back end -/

/-- The iterator of the entry at index `i`. -/
theorem rob_get_add (rob : List ooo_model_instr) (front i : Nat) :
    rob_get rob front (front + i) = rob[i]? := by
  unfold rob_get
  rw [if_pos (Nat.le_add_right _ _), Nat.add_sub_cancel_left]

/-- An iterator that points to an entry is at or behind the front. -/
theorem rob_get_some (rob : List ooo_model_instr) (front it : Nat) (a : ooo_model_instr)
    (h : rob_get rob front it = some a) :
    front ≤ it ∧ rob[it - front]? = some a ∧ it - front < rob.length
      ∧ front + (it - front) = it := by
  unfold rob_get at h
  split at h
  · rename_i hle
    refine ⟨hle, h, ?_, by omega⟩
    exact (List.getElem?_eq_some.mp h).1
  · exact absurd h (by simp)

/-- An index within the list has an entry. -/
theorem getElem?_of_lt {α : Type} (l : List α) (i : Nat) (h : i < l.length) :
    ∃ a, l[i]? = some a :=
  ⟨l[i], List.getElem?_eq_getElem h⟩

/-- The invariant of the back end survives a change of the entries that keeps their lists
of dependents, keeps scheduled entries scheduled, and leaves every entry that has begun to
execute, and every entry of `ready_to_execute`, as the invariant wants it. -/
theorem backend_ok_pointwise (rob rob' : List ooo_model_instr) (front : Nat)
    (rte : List Nat) (cur : Option Nat) (h : backend_ok rob front rte cur)
    (hlen : rob'.length = rob.length)
    (hp : ∀ i a a', rob[i]? = some a → rob'[i]? = some a' →
      a'.registers_instrs_depend_on_me = a.registers_instrs_depend_on_me
        ∧ (a.scheduled ≠ 0 → a'.scheduled ≠ 0)
        ∧ (a'.executed ≠ 0 → a'.scheduled = COMPLETED ∧ a'.num_reg_dependent = 0)
        ∧ (front + i ∈ rte →
            a'.executed = 0 ∧ a'.scheduled = COMPLETED ∧ a'.num_reg_dependent = 0)) :
    backend_ok rob' front rte cur := by
  constructor
  · intro a' ha' hex
    obtain ⟨i, hi⟩ := List.mem_iff_getElem?.mp ha'
    have hlt : i < rob.length := by
      rw [← hlen]
      exact (List.getElem?_eq_some.mp hi).1
    obtain ⟨a, ha⟩ := getElem?_of_lt rob i hlt
    exact (hp i a a' ha hi).2.2.1 hex
  · exact h.rte_nodup
  · intro it hit
    obtain ⟨a, ha, -, -, -⟩ := h.rte_entries it hit
    obtain ⟨hle, hget, hlt, hpos⟩ := rob_get_some rob front it a ha
    obtain ⟨a', ha'⟩ := getElem?_of_lt rob' (it - front) (by rw [hlen]; exact hlt)
    refine ⟨a', ?_, (hp _ a a' hget ha').2.2.2 (by rw [hpos]; exact hit)⟩
    unfold rob_get
    rw [if_pos hle]
    exact ha'
  · intro i a' hi
    have hlt : i < rob.length := by
      rw [← hlen]
      exact (List.getElem?_eq_some.mp hi).1
    obtain ⟨a, ha⟩ := getElem?_of_lt rob i hlt
    have hl := (hp i a a' ha hi).1
    obtain ⟨hnd, hmem⟩ := h.dependents i a ha
    rw [hl]
    refine ⟨hnd, ?_⟩
    intro d hd
    obtain ⟨hlt2, b, hb, hdis⟩ := hmem d hd
    obtain ⟨hle, hget, hlt3, -⟩ := rob_get_some rob front d b hb
    obtain ⟨b', hb'⟩ := getElem?_of_lt rob' (d - front) (by rw [hlen]; exact hlt3)
    refine ⟨hlt2, b', ?_, ?_⟩
    · unfold rob_get
      rw [if_pos hle]
      exact hb'
    · rcases hdis with hs | hc
      · exact Or.inl ((hp _ b b' hget hb').2.1 hs)
      · exact Or.inr hc

/-- The entry at an index of a list with one entry replaced. -/
theorem getElem?_set_cases {α : Type} (l : List α) (i j : Nat) (e e' a' : α)
    (hi : l[i]? = some e) (h : (l.set i e')[j]? = some a') :
    (j = i ∧ a' = e') ∨ (j ≠ i ∧ l[j]? = some a') := by
  by_cases hji : j = i
  · left
    subst hji
    rw [List.getElem?_set_self (List.getElem?_eq_some.mp hi).1] at h
    exact ⟨rfl, (Option.some.inj h).symm⟩
  · right
    rw [List.getElem?_set_ne (Ne.symm hji)] at h
    exact ⟨hji, h⟩

/-- The invariant of the back end survives the replacement of one entry by an entry with the
same list of dependents that is scheduled if the old one was and is as the invariant
wants it. -/
theorem backend_ok_set (rob : List ooo_model_instr) (front : Nat) (rte : List Nat)
    (cur : Option Nat) (h : backend_ok rob front rte cur) (i : Nat)
    (e e' : ooo_model_instr) (hi : rob[i]? = some e)
    (hl : e'.registers_instrs_depend_on_me = e.registers_instrs_depend_on_me)
    (hs : e.scheduled ≠ 0 → e'.scheduled ≠ 0)
    (hx : e'.executed ≠ 0 → e'.scheduled = COMPLETED ∧ e'.num_reg_dependent = 0)
    (hr : front + i ∈ rte →
      e'.executed = 0 ∧ e'.scheduled = COMPLETED ∧ e'.num_reg_dependent = 0) :
    backend_ok (rob.set i e') front rte cur := by
  refine backend_ok_pointwise rob _ front rte cur h (List.length_set _ _ _) ?_
  intro j a a' ha ha'
  rcases getElem?_set_cases rob i j e e' a' hi ha' with ⟨hj, hae⟩ | ⟨-, hsame⟩
  · subst hj
    rw [hi] at ha
    have := Option.some.inj ha
    subst this
    subst hae
    exact ⟨hl, hs, hx, hr⟩
  · rw [ha] at hsame
    have := Option.some.inj hsame
    subst this
    refine ⟨rfl, fun h => h, h.executed_scheduled a (List.getElem?_mem ha), ?_⟩
    intro hmem
    obtain ⟨b, hb, hb2⟩ := h.rte_entries _ hmem
    rw [rob_get_add, ha] at hb
    have := Option.some.inj hb
    subst this
    exact hb2

/-- The entries that correspond in two lists related entry by entry. -/
theorem forall₂_getElem? {α : Type} (R : α → α → Prop) :
    ∀ (l l' : List α), List.Forall₂ R l l' →
      ∀ (i : Nat) (a a' : α), l[i]? = some a → l'[i]? = some a' → R a a' := by
  intro l l' h
  induction h with
  | nil => intro i a a' ha; simp at ha
  | cons hab _ ih =>
    intro i a a' ha ha'
    cases i with
    | zero =>
      simp only [List.getElem?_cons_zero, Option.some.injEq] at ha ha'
      subst ha
      subst ha'
      exact hab
    | succ i =>
      simp only [List.getElem?_cons_succ] at ha ha'
      exact ih i a a' ha ha'

/-- The invariant of the back end survives the writes of the memory side. -/
theorem backend_ok_mem_only (rob rob' : List ooo_model_instr) (front : Nat)
    (rte : List Nat) (cur : Option Nat) (h : backend_ok rob front rte cur)
    (hm : List.Forall₂ ooo_model_instr.mem_only rob rob') :
    backend_ok rob' front rte cur := by
  refine backend_ok_pointwise rob rob' front rte cur h hm.length_eq.symm ?_
  intro i a a' ha ha'
  have hr := forall₂_getElem? _ rob rob' hm i a a' ha ha'
  unfold ooo_model_instr.mem_only at hr
  have h1 : a'.registers_instrs_depend_on_me = a.registers_instrs_depend_on_me := by rw [hr]
  have h2 : a'.scheduled = a.scheduled := by rw [hr]
  have h3 : a'.executed = a.executed := by rw [hr]
  have h4 : a'.num_reg_dependent = a.num_reg_dependent := by rw [hr]
  rw [h2, h3, h4]
  refine ⟨h1, fun h => h, h.executed_scheduled a (List.getElem?_mem ha), ?_⟩
  intro hmem
  obtain ⟨b, hb, hb2⟩ := h.rte_entries _ hmem
  rw [rob_get_add, ha] at hb
  have := Option.some.inj hb
  subst this
  exact hb2

/-- The invariant of the back end survives the pop of `ready_to_execute`. -/
theorem backend_ok_pop_rte (rob : List ooo_model_instr) (front it : Nat) (rest : List Nat)
    (cur : Option Nat) (h : backend_ok rob front (it :: rest) cur) :
    backend_ok rob front rest cur :=
  ⟨h.executed_scheduled, (List.nodup_cons.mp h.rte_nodup).2,
    fun x hx => h.rte_entries x (List.mem_cons_of_mem _ hx), h.dependents⟩

/-- The invariant of the back end survives the push into `ready_to_execute` of an iterator
that is not in it and points to an entry that is scheduled, waits for no producer and has
not begun to execute. -/
theorem backend_ok_push_rte (rob : List ooo_model_instr) (front d : Nat) (rte : List Nat)
    (cur : Option Nat) (h : backend_ok rob front rte cur) (hd : d ∉ rte)
    (a : ooo_model_instr) (ha : rob_get rob front d = some a) (hx : a.executed = 0)
    (hs : a.scheduled = COMPLETED) (hn : a.num_reg_dependent = 0) :
    backend_ok rob front (rte ++ [d]) cur := by
  refine ⟨h.executed_scheduled, ?_, ?_, h.dependents⟩
  · rw [List.nodup_append]
    refine ⟨h.rte_nodup, List.nodup_singleton d, ?_⟩
    intro x hx1 hx2
    rw [List.mem_singleton] at hx2
    subst hx2
    exact hd hx1
  · intro x hx1
    rw [List.mem_append, List.mem_singleton] at hx1
    rcases hx1 with hx1 | hx1
    · exact h.rte_entries x hx1
    · subst hx1
      exact ⟨a, ha, hx, hs, hn⟩

/-- The invariant of the back end survives the push of a fresh instruction into the ROB. -/
theorem backend_ok_append (rob : List ooo_model_instr) (front : Nat) (rte : List Nat)
    (h : backend_ok rob front rte none) (x : ooo_model_instr) (hx : x.fresh) :
    backend_ok (rob ++ [x]) front rte none := by
  have hget : ∀ it b, rob_get rob front it = some b → rob_get (rob ++ [x]) front it = some b := by
    intro it b hb
    obtain ⟨hle, hget, hlt, -⟩ := rob_get_some rob front it b hb
    unfold rob_get
    rw [if_pos hle, List.getElem?_append_left hlt]
    exact hget
  constructor
  · intro a ha hex
    rw [List.mem_append, List.mem_singleton] at ha
    rcases ha with ha | ha
    · exact h.executed_scheduled a ha hex
    · subst ha
      exact absurd hx.2.1 hex
  · exact h.rte_nodup
  · intro it hit
    obtain ⟨a, ha, ha2⟩ := h.rte_entries it hit
    exact ⟨a, hget it a ha, ha2⟩
  · intro i a hi
    by_cases hlt : i < rob.length
    · rw [List.getElem?_append_left hlt] at hi
      obtain ⟨hnd, hmem⟩ := h.dependents i a hi
      refine ⟨hnd, ?_⟩
      intro d hd
      obtain ⟨h1, b, hb, hb2⟩ := hmem d hd
      exact ⟨h1, b, hget d b hb, hb2⟩
    · rw [List.getElem?_append_right (by omega)] at hi
      have hi0 : i - rob.length = 0 := by
        by_contra hne
        rw [List.getElem?_eq_none (by simp; omega)] at hi
        exact absurd hi (by simp)
      rw [hi0] at hi
      simp only [List.getElem?_cons_zero, Option.some.injEq] at hi
      subst hi
      rw [hx.2.2.2]
      exact ⟨List.nodup_nil, fun d hd => absurd hd (List.not_mem_nil d)⟩

/-- The invariant of the back end survives the retirement of the front entry, which has
completed. -/
theorem backend_ok_retire (x : ooo_model_instr) (rest : List ooo_model_instr)
    (front : Nat) (rte : List Nat) (h : backend_ok (x :: rest) front rte none)
    (hx : x.executed = COMPLETED) : backend_ok rest (front + 1) rte none := by
  have hget : ∀ it b, front < it → rob_get (x :: rest) front it = some b →
      rob_get rest (front + 1) it = some b := by
    intro it b hlt hb
    obtain ⟨hle, hget, -, -⟩ := rob_get_some _ front it b hb
    unfold rob_get
    rw [if_pos (by omega)]
    obtain ⟨k, hk⟩ : ∃ k, it - front = k + 1 := ⟨it - front - 1, by omega⟩
    rw [hk, List.getElem?_cons_succ] at hget
    have : it - (front + 1) = k := by omega
    rw [this]
    exact hget
  constructor
  · intro a ha hex
    exact h.executed_scheduled a (List.mem_cons_of_mem _ ha) hex
  · exact h.rte_nodup
  · intro it hit
    obtain ⟨a, ha, ha2⟩ := h.rte_entries it hit
    have hlt : front < it := by
      obtain ⟨hle, hget1, -, -⟩ := rob_get_some _ front it a ha
      rcases Nat.lt_or_eq_of_le hle with hlt | heq
      · exact hlt
      · subst heq
        rw [Nat.sub_self, List.getElem?_cons_zero] at hget1
        have := Option.some.inj hget1
        subst this
        rw [ha2.1] at hx
        exact absurd hx (by decide)
    exact ⟨a, hget it a hlt ha, ha2⟩
  · intro i a hi
    have hi1 : (x :: rest)[i + 1]? = some a := by
      rw [List.getElem?_cons_succ]
      exact hi
    obtain ⟨hnd, hmem⟩ := h.dependents (i + 1) a hi1
    refine ⟨hnd, ?_⟩
    intro d hd
    obtain ⟨h1, b, hb, hb2⟩ := hmem d hd
    exact ⟨by omega, b, hget d b (by omega) hb, hb2⟩

/-- Behind the front, the iterators of a ROB are those of the ROB without its front. -/
theorem rob_get_cons_of_lt (x : ooo_model_instr) (rest : List ooo_model_instr)
    (front it : Nat) (h : front < it) :
    rob_get (x :: rest) front it = rob_get rest (front + 1) it := by
  unfold rob_get
  rw [if_pos (Nat.le_of_lt h), if_pos (by omega)]
  obtain ⟨k, hk⟩ : ∃ k, it - front = k + 1 := ⟨it - front - 1, by omega⟩
  have : it - (front + 1) = k := by omega
  rw [hk, this, List.getElem?_cons_succ]

/-- Distinct iterators that point to entries with a property are at most as many as the
entries with the property. -/
theorem length_le_countP (p : ooo_model_instr → Bool) :
    ∀ (rob : List ooo_model_instr) (front : Nat) (l : List Nat), l.Nodup →
      (∀ it, it ∈ l → ∃ a, rob_get rob front it = some a ∧ p a = true) →
      l.length ≤ rob.countP p := by
  intro rob
  induction rob with
  | nil =>
    intro front l _ h
    cases l with
    | nil => simp
    | cons it l =>
      obtain ⟨a, ha, -⟩ := h it (List.mem_cons_self _ _)
      have := (rob_get_some [] front it a ha).2.2.1
      simp at this
  | cons x rest ih =>
    intro front l hnd h
    have hgt : ∀ it, it ∈ l → it ≠ front → front < it := by
      intro it hit hne
      obtain ⟨a, ha, -⟩ := h it hit
      have := (rob_get_some _ front it a ha).1
      omega
    by_cases hf : front ∈ l
    · have hpx : p x = true := by
        obtain ⟨a, ha, hpa⟩ := h front hf
        unfold rob_get at ha
        rw [if_pos (Nat.le_refl _), Nat.sub_self, List.getElem?_cons_zero] at ha
        have := Option.some.inj ha
        subst this
        exact hpa
      have h1 := ih (front + 1) (l.erase front) (hnd.erase front) (by
        intro it hit
        have hit2 := (hnd.mem_erase_iff).mp hit
        obtain ⟨a, ha, hpa⟩ := h it hit2.2
        refine ⟨a, ?_, hpa⟩
        rw [← rob_get_cons_of_lt x rest front it (hgt it hit2.2 hit2.1)]
        exact ha)
      rw [List.length_erase_of_mem hf] at h1
      have hpos : 0 < l.length := List.length_pos_of_mem hf
      simp only [List.countP_cons, hpx, if_true]
      omega
    · have h1 := ih (front + 1) l hnd (by
        intro it hit
        obtain ⟨a, ha, hpa⟩ := h it hit
        refine ⟨a, ?_, hpa⟩
        rw [← rob_get_cons_of_lt x rest front it
          (hgt it hit (fun he => hf (he ▸ hit)))]
        exact ha)
      simp only [List.countP_cons]
      omega

/-- The entries with one of two properties that exclude each other are at most as many as
the entries. -/
theorem countP_add_countP_le {α : Type} (p q : α → Bool)
    (hpq : ∀ a, p a = true → q a = true → False) :
    ∀ l : List α, l.countP p + l.countP q ≤ l.length := by
  intro l
  induction l with
  | nil => simp
  | cons a l ih =>
    simp only [List.countP_cons, List.length_cons]
    by_cases hp : p a = true
    · by_cases hq : q a = true
      · exact absurd hq (fun h => hpq a hp h)
      · simp only [hp, hq, if_true, Bool.false_eq_true, if_false]
        omega
    · by_cases hq : q a = true
      · simp only [hp, hq, if_true, Bool.false_eq_true, if_false]
        omega
      · simp only [hp, hq, Bool.false_eq_true, if_false]
        omega

/-- Under the invariant of the back end, the entries that have completed and the iterators
of `ready_to_execute` together are at most as many as the entries of the ROB. -/
theorem completed_add_ready_le (rob : List ooo_model_instr) (front : Nat) (rte : List Nat)
    (cur : Option Nat) (h : backend_ok rob front rte cur) :
    rob.countP (fun a => a.executed == COMPLETED) + rte.length ≤ rob.length := by
  have h1 := length_le_countP (fun a => a.executed == 0) rob front rte h.rte_nodup (by
    intro it hit
    obtain ⟨a, ha, hx, -⟩ := h.rte_entries it hit
    exact ⟨a, ha, by simp [hx]⟩)
  have h2 := countP_add_countP_le (fun a : ooo_model_instr => a.executed == COMPLETED)
    (fun a => a.executed == 0) (by
      intro a h1 h2
      simp only [beq_iff_eq] at h1 h2
      rw [h2] at h1
      exact absurd h1 (by decide)) rob
  omega

/-- Under the invariant of the back end there is room in `ready_to_execute` for an iterator
that is not in it and points to an entry that has not begun to execute. -/
theorem ready_lt_size (rob : List ooo_model_instr) (front : Nat) (rte : List Nat)
    (cur : Option Nat) (h : backend_ok rob front rte cur) (d : Nat) (hd : d ∉ rte)
    (a : ooo_model_instr) (ha : rob_get rob front d = some a) (hx : a.executed = 0) :
    rte.length < rob.length := by
  have h1 := length_le_countP (fun a => a.executed == 0) rob front (d :: rte)
    (List.nodup_cons.mpr ⟨hd, h.rte_nodup⟩) (by
      intro it hit
      rw [List.mem_cons] at hit
      rcases hit with hit | hit
      · subst hit
        exact ⟨a, ha, by simp [hx]⟩
      · obtain ⟨b, hb, hbx, -⟩ := h.rte_entries it hit
        exact ⟨b, hb, by simp [hbx]⟩)
  have h2 := @List.countP_le_length _ (fun a : ooo_model_instr => a.executed == 0) rob
  simp only [List.length_cons] at h1
  omega

/-- The image of a list with one entry replaced by an entry of the same image. -/
theorem map_set_same {α γ : Type} (f : α → γ) (l : List α) (i : Nat) (e e' : α)
    (hi : l[i]? = some e) (hf : f e' = f e) : (l.set i e').map f = l.map f := by
  rw [List.map_set, hf]
  apply List.ext_getElem?
  intro j
  by_cases hji : i = j
  · subst hji
    rw [List.getElem?_set_self (by
      rw [List.length_map]
      exact (List.getElem?_eq_some.mp hi).1), List.getElem?_map, hi]
    rfl
  · rw [List.getElem?_set_ne hji]

/-- Nothing changes from a state to itself. -/
theorem back_step_refl {β : Type} (s : Core β) : s.back_step s := ⟨rfl, rfl, rfl, rfl⟩

/-- Steps of the back end compose. -/
theorem back_step_trans {β : Type} (s t u : Core β) (h1 : s.back_step t)
    (h2 : t.back_step u) : s.back_step u :=
  ⟨h2.queue.trans h1.queue, h2.uid.trans h1.uid, h2.front.trans h1.front,
    h2.ids.trans h1.ids⟩

/-- `do_execution` on the front of `ready_to_execute` keeps the invariant of the back end
for the rest of the queue. -/
theorem do_execution_ok {β : Type} (cfg : StageConfig) (warmup_complete : Bool)
    (s t : Core β) (it : Nat) (rest : List Nat)
    (h : backend_ok s.ROB s.ROB_front (it :: rest) none)
    (ht : do_execution cfg warmup_complete s it = .ok t) :
    s.back_step t ∧ t.STA = s.STA ∧ t.ready_to_execute = s.ready_to_execute
      ∧ backend_ok t.ROB t.ROB_front rest none := by
  unfold do_execution at ht
  obtain ⟨a, ha, hx, hs, hn⟩ := h.rte_entries it (List.mem_cons_self _ _)
  unfold Core.rob_at at ht
  unfold rob_get at ha
  rw [ha] at ht
  simp only [Except.ok.injEq] at ht
  obtain ⟨hle, hget, hlt, hpos⟩ := rob_get_some s.ROB s.ROB_front it a (by
    unfold rob_get; exact ha)
  subst ht
  refine ⟨⟨rfl, rfl, rfl, ?_⟩, rfl, rfl, ?_⟩
  · exact map_set_same _ _ _ a _ hget rfl
  · refine backend_ok_set _ _ _ _ (backend_ok_pop_rte _ _ _ _ _ h) _ a _ hget rfl
      (fun h => h) (fun _ => ⟨hs, hn⟩) ?_
    intro hmem
    rw [hpos] at hmem
    exact absurd hmem (List.nodup_cons.mp h.rte_nodup).1

/-- The loop of `execute_instruction` keeps the invariant of the back end, and does not
stop on a dangling iterator. -/
theorem execute_loop_ok {β : Type} (cfg : StageConfig) (warmup_complete : Bool) :
    ∀ (n : Nat) (s : Core β), backend_ok s.ROB s.ROB_front s.ready_to_execute none →
      ∃ t, execute_loop cfg warmup_complete n s = .ok t
        ∧ s.back_step t ∧ t.STA = s.STA
        ∧ backend_ok t.ROB t.ROB_front t.ready_to_execute none := by
  intro n
  induction n with
  | zero =>
    intro s h
    exact ⟨s, rfl, back_step_refl s, rfl, h⟩
  | succ n ih =>
    intro s h
    have hcases : s.ready_to_execute = [] ∨ ∃ it rest, s.ready_to_execute = it :: rest := by
      cases s.ready_to_execute with
      | nil => exact Or.inl rfl
      | cons it rest => exact Or.inr ⟨it, rest, rfl⟩
    rcases hcases with hnil | ⟨it, rest, hcons⟩
    · refine ⟨s, ?_, back_step_refl s, rfl, h⟩
      rw [execute_loop, hnil]
    · rw [hcons] at h
      obtain ⟨a, ha, -⟩ := h.rte_entries it (List.mem_cons_self _ _)
      have hex : ∃ s1, do_execution cfg warmup_complete s it = .ok s1 := by
        unfold do_execution Core.rob_at
        unfold rob_get at ha
        rw [ha]
        exact ⟨_, rfl⟩
      obtain ⟨s1, hs1⟩ := hex
      obtain ⟨hb, hsta, hrte, hok⟩ := do_execution_ok cfg warmup_complete s s1 it rest h hs1
      obtain ⟨t, ht, hb2, hsta2, hok2⟩ := ih { s1 with ready_to_execute := rest } hok
      refine ⟨t, ?_,
        back_step_trans s { s1 with ready_to_execute := rest } t
          (back_step_trans s s1 _ hb ⟨rfl, rfl, rfl, rfl⟩) hb2,
        hsta2.trans hsta, hok2⟩
      rw [execute_loop, hcons]
      simp only [hs1]
      exact ht

/-- A list is related to itself entry by entry by a reflexive relation. -/
theorem forall₂_self {α : Type} (R : α → α → Prop) (hr : ∀ a, R a a) :
    ∀ l : List α, List.Forall₂ R l l := by
  intro l
  induction l with
  | nil => exact List.Forall₂.nil
  | cons a l ih => exact List.Forall₂.cons (hr a) ih

/-- A list is related entry by entry to the list with one entry replaced by a related one. -/
theorem forall₂_set {α : Type} (R : α → α → Prop) (hr : ∀ a, R a a) :
    ∀ (l : List α) (i : Nat) (e e' : α), l[i]? = some e → R e e' →
      List.Forall₂ R l (l.set i e') := by
  intro l
  induction l with
  | nil => intro i e e' hi; simp at hi
  | cons a l ih =>
    intro i e e' hi hee
    cases i with
    | zero =>
      simp only [List.getElem?_cons_zero, Option.some.injEq] at hi
      subst hi
      exact List.Forall₂.cons hee (forall₂_self R hr l)
    | succ i =>
      simp only [List.getElem?_cons_succ] at hi
      exact List.Forall₂.cons (hr a) (ih i e e' hi hee)

/-- Relations entry by entry compose. -/
theorem forall₂_comp {α : Type} (R : α → α → Prop) (ht : ∀ a b c, R a b → R b c → R a c) :
    ∀ (l1 l2 l3 : List α), List.Forall₂ R l1 l2 → List.Forall₂ R l2 l3 →
      List.Forall₂ R l1 l3 := by
  intro l1 l2 l3 h12
  induction h12 generalizing l3 with
  | nil => intro h; cases h; exact List.Forall₂.nil
  | cons hab _ ih =>
    intro h
    cases h with
    | cons hbc h23 => exact List.Forall₂.cons (ht _ _ _ hab hbc) (ih _ h23)

/-- An entry is itself up to any fields. -/
theorem sched_only_refl (a : ooo_model_instr) : a.sched_only a := rfl

/-- Changes of `num_reg_dependent` and `scheduled` compose. -/
theorem sched_only_trans (a b c : ooo_model_instr) (h1 : a.sched_only b)
    (h2 : b.sched_only c) : a.sched_only c := by
  unfold ooo_model_instr.sched_only at *
  rw [h2, h1]

/-- An iterator that points to an entry still does after a change entry by entry, and the
two entries are related. -/
theorem rob_get_forall₂ (R : ooo_model_instr → ooo_model_instr → Prop)
    (rob rob' : List ooo_model_instr) (h : List.Forall₂ R rob rob') (front it : Nat)
    (b : ooo_model_instr) (hb : rob_get rob front it = some b) :
    ∃ b', rob_get rob' front it = some b' ∧ R b b' := by
  obtain ⟨hle, hget, hlt, -⟩ := rob_get_some rob front it b hb
  obtain ⟨b', hb'⟩ := getElem?_of_lt rob' (it - front) (by rw [← h.length_eq]; exact hlt)
  refine ⟨b', ?_, forall₂_getElem? R rob rob' h _ b b' hget hb'⟩
  unfold rob_get
  rw [if_pos hle]
  exact hb'

/-- The ids of a ROB after a change of `num_reg_dependent` and `scheduled`. -/
theorem sched_only_ids (rob rob' : List ooo_model_instr)
    (h : List.Forall₂ ooo_model_instr.sched_only rob rob') :
    rob'.map (fun a => a.instr_id) = rob.map (fun a => a.instr_id) := by
  induction h with
  | nil => rfl
  | cons hab _ ih =>
    simp only [List.map_cons, ih, List.cons.injEq, and_true]
    unfold ooo_model_instr.sched_only at hab
    rw [hab]

/-- What `released` does to an entry. -/
theorem released_spec (b : ooo_model_instr) :
    b.sched_only (released b)
      ∧ (released b).registers_instrs_depend_on_me = b.registers_instrs_depend_on_me
      ∧ (released b).executed = b.executed
      ∧ (b.scheduled ≠ 0 → (released b).scheduled ≠ 0) := by
  unfold released ooo_model_instr.sched_only
  simp only
  split_ifs
  · exact ⟨rfl, rfl, rfl, fun _ => (by decide : INFLIGHT ≠ 0)⟩
  · exact ⟨rfl, rfl, rfl, fun _ => (by decide : COMPLETED ≠ 0)⟩
  · exact ⟨rfl, rfl, rfl, fun h => h⟩

/-- `release_dependent` that does not stop: the dependent was waiting for a producer, so it
was not in `ready_to_execute` and has not begun to execute; the invariant of the back end is
kept, and nothing but `num_reg_dependent` and `scheduled` of ROB entries is written. -/
theorem release_dependent_ok {β : Type} (s t : Core β) (d : Nat)
    (h : backend_ok s.ROB s.ROB_front s.ready_to_execute none)
    (ht : release_dependent s d = .ok t) :
    t = { s with ROB := t.ROB }
      ∧ List.Forall₂ ooo_model_instr.sched_only s.ROB t.ROB
      ∧ backend_ok t.ROB s.ROB_front s.ready_to_execute none
      ∧ d ∉ s.ready_to_execute
      ∧ ∃ b, rob_get t.ROB s.ROB_front d = some b ∧ b.executed = 0 := by
  unfold release_dependent at ht
  cases hb : s.rob_at d with
  | none => rw [hb] at ht; exact absurd ht (by simp)
  | some b =>
    rw [hb] at ht
    simp only at ht
    by_cases hn : b.num_reg_dependent = 0
    · rw [if_pos hn] at ht
      exact absurd ht (by simp)
    · rw [if_neg hn] at ht
      simp only [Except.ok.injEq] at ht
      obtain ⟨hle, hget, hlt, hpos⟩ := rob_get_some s.ROB s.ROB_front d b hb
      obtain ⟨r1, r2, r3, r4⟩ := released_spec b
      have hx : b.executed = 0 := by
        by_contra hx
        exact hn (h.executed_scheduled b (List.getElem?_mem hget) hx).2
      have hd : d ∉ s.ready_to_execute := by
        intro hmem
        obtain ⟨a, ha, -, -, han⟩ := h.rte_entries d hmem
        have hba : rob_get s.ROB s.ROB_front d = some b := hb
        rw [hba] at ha
        have := Option.some.inj ha
        subst this
        exact hn han
      subst ht
      refine ⟨rfl, forall₂_set _ sched_only_refl _ _ b _ hget r1, ?_, hd,
        released b, ?_, by rw [r3]; exact hx⟩
      · refine backend_ok_set _ _ _ _ h _ b _ hget r2 r4 ?_ ?_
        · intro hex
          rw [r3] at hex
          exact absurd hx hex
        · intro hmem
          rw [hpos] at hmem
          exact absurd hmem hd
      · unfold rob_get
        rw [if_pos hle]
        exact List.getElem?_set_self hlt

/-- `release_dependents` that does not stop: the invariant of the back end is kept, nothing
but `num_reg_dependent` and `scheduled` of ROB entries is written, and none of the
dependents was in `ready_to_execute` or has begun to execute. -/
theorem release_dependents_ok {β : Type} :
    ∀ (l : List Nat) (s t : Core β),
      backend_ok s.ROB s.ROB_front s.ready_to_execute none →
      release_dependents l s = .ok t →
      t = { s with ROB := t.ROB }
        ∧ List.Forall₂ ooo_model_instr.sched_only s.ROB t.ROB
        ∧ backend_ok t.ROB s.ROB_front s.ready_to_execute none
        ∧ ∀ d, d ∈ l → d ∉ s.ready_to_execute
            ∧ ∃ b, rob_get t.ROB s.ROB_front d = some b ∧ b.executed = 0 := by
  intro l
  induction l with
  | nil =>
    intro s t h ht
    simp only [release_dependents, Except.ok.injEq] at ht
    subst ht
    exact ⟨rfl, forall₂_self _ sched_only_refl _, h,
      fun d hd => absurd hd (List.not_mem_nil d)⟩
  | cons d rest ih =>
    intro s t h ht
    rw [release_dependents] at ht
    cases h1 : release_dependent s d with
    | error a => rw [h1] at ht; exact absurd ht (by simp)
    | ok s1 =>
      rw [h1] at ht
      simp only at ht
      obtain ⟨e1, f1, ok1, hd1, b1, hb1, hx1⟩ := release_dependent_ok s s1 d h h1
      have hfr : s1.ROB_front = s.ROB_front := by rw [e1]
      have hrte : s1.ready_to_execute = s.ready_to_execute := by rw [e1]
      have ok1' : backend_ok s1.ROB s1.ROB_front s1.ready_to_execute none := by
        rw [hfr, hrte]; exact ok1
      obtain ⟨e2, f2, ok2, hw2⟩ := ih s1 t ok1' ht
      rw [hfr, hrte] at ok2 hw2
      refine ⟨?_, forall₂_comp _ sched_only_trans _ _ _ f1 f2, ok2, ?_⟩
      · rw [e2, e1]
      · intro x hx
        rw [List.mem_cons] at hx
        rcases hx with hx | hx
        · subst hx
          refine ⟨hd1, ?_⟩
          obtain ⟨b', hb', hr⟩ := rob_get_forall₂ _ _ _ f2 s.ROB_front x b1 hb1
          refine ⟨b', hb', ?_⟩
          unfold ooo_model_instr.sched_only at hr
          rw [hr]
          exact hx1
        · exact hw2 x hx

/-- The loop of lines 879-889 of `complete_inflight_instruction` over distinct dependents
none of which is in `ready_to_execute` or has begun to execute: it does not stop, the
assertion of line 883 holds at every push, and the invariant of the back end is kept. -/
theorem wake_dependents_ok {β : Type} (cfg : StageConfig) :
    ∀ (l : List Nat) (s : Core β),
      backend_ok s.ROB s.ROB_front s.ready_to_execute none →
      s.ROB.length ≤ cfg.ROB_SIZE → l.Nodup →
      (∀ d, d ∈ l → d ∉ s.ready_to_execute
        ∧ ∃ b, rob_get s.ROB s.ROB_front d = some b ∧ b.executed = 0) →
      ∃ t, wake_dependents cfg l s = .ok t
        ∧ t = { s with ready_to_execute := t.ready_to_execute }
        ∧ backend_ok t.ROB t.ROB_front t.ready_to_execute none := by
  intro l
  induction l with
  | nil =>
    intro s h _ _ _
    exact ⟨s, rfl, rfl, h⟩
  | cons d rest ih =>
    intro s h hsz hnd hw
    obtain ⟨hd, b, hb, hx⟩ := hw d (List.mem_cons_self _ _)
    have hnd2 := List.nodup_cons.mp hnd
    have hrob : s.rob_at d = some b := hb
    rw [wake_dependents, hrob]
    simp only
    by_cases hc : b.scheduled = COMPLETED ∧ b.num_reg_dependent = 0
    · have hroom : s.ready_to_execute.length < cfg.ROB_SIZE :=
        Nat.lt_of_lt_of_le (ready_lt_size _ _ _ _ h d hd b hb hx) hsz
      rw [if_pos hc, if_pos hroom]
      obtain ⟨t, ht, het, hok⟩ := ih { s with ready_to_execute := s.ready_to_execute ++ [d] }
        (backend_ok_push_rte _ _ _ _ _ h hd b hb hx hc.1 hc.2) hsz hnd2.2 (by
          intro x hx1
          obtain ⟨hx2, hx3⟩ := hw x (List.mem_cons_of_mem _ hx1)
          refine ⟨?_, hx3⟩
          intro hmem
          rw [List.mem_append, List.mem_singleton] at hmem
          rcases hmem with hmem | hmem
          · exact hx2 hmem
          · subst hmem
            exact hnd2.1 hx1)
      refine ⟨t, ht, ?_, hok⟩
      rw [het]
    · rw [if_neg hc]
      exact ih s h hsz hnd2.2 (fun x hx1 => hw x (List.mem_cons_of_mem _ hx1))

/-- `do_complete_execution` on an entry that executes and does not stop: the invariant of
the back end is kept, the entry keeps its list of dependents, and none of them is in
`ready_to_execute` or has begun to execute. -/
theorem do_complete_execution_ok {β : Type} (cfg : StageConfig) (s t : Core β) (i : Nat)
    (e : ooo_model_instr) (hi : s.ROB[i]? = some e) (hx : e.executed = INFLIGHT)
    (h : backend_ok s.ROB s.ROB_front s.ready_to_execute none)
    (ht : do_complete_execution cfg s i = .ok t) :
    s.back_step t ∧ t.STA = s.STA ∧ t.ready_to_execute = s.ready_to_execute
      ∧ t.ROB.length = s.ROB.length
      ∧ backend_ok t.ROB t.ROB_front t.ready_to_execute none
      ∧ (∃ e2, t.ROB[i]? = some e2
          ∧ e2.registers_instrs_depend_on_me = e.registers_instrs_depend_on_me)
      ∧ ∀ d, d ∈ e.registers_instrs_depend_on_me → d ∉ t.ready_to_execute
          ∧ ∃ b, rob_get t.ROB t.ROB_front d = some b ∧ b.executed = 0 := by
  unfold do_complete_execution at ht
  rw [hi] at ht
  simp only at ht
  have hilt : i < s.ROB.length := (List.getElem?_eq_some.mp hi).1
  have hex : e.executed ≠ 0 := by rw [hx]; decide
  have hI1 := h.executed_scheduled e (List.getElem?_mem hi) hex
  obtain ⟨s1, hs1⟩ : ∃ s1 : Core β,
    s1 = { s with ROB := s.ROB.set i { e with executed := COMPLETED } } := ⟨_, rfl⟩
  rw [← hs1] at ht
  have hrob1 : s1.ROB = s.ROB.set i { e with executed := COMPLETED } := by rw [hs1]
  have hfr1 : s1.ROB_front = s.ROB_front := by rw [hs1]
  have hrte1 : s1.ready_to_execute = s.ready_to_execute := by rw [hs1]
  have ok1 : backend_ok s1.ROB s1.ROB_front s1.ready_to_execute none := by
    rw [hrob1, hfr1, hrte1]
    refine backend_ok_set _ _ _ _ h i e _ hi rfl (fun h => h) (fun _ => hI1) ?_
    intro hmem
    obtain ⟨a, ha, hax, -⟩ := h.rte_entries _ hmem
    rw [rob_get_add, hi] at ha
    have := Option.some.inj ha
    subst this
    exact absurd hax hex
  have hi1 : s1.ROB[i]? = some { e with executed := COMPLETED } := by
    rw [hrob1]
    exact List.getElem?_set_self hilt
  cases h2 : release_dependents e.registers_instrs_depend_on_me s1 with
  | error a => rw [h2] at ht; exact absurd ht (by simp)
  | ok s2 =>
    rw [h2] at ht
    simp only at ht
    obtain ⟨e2eq, f2, ok2, hw2⟩ := release_dependents_ok _ s1 s2 ok1 h2
    have hfr2 : s2.ROB_front = s.ROB_front := by rw [e2eq, hfr1]
    have hrte2 : s2.ready_to_execute = s.ready_to_execute := by rw [e2eq, hrte1]
    rw [hfr1, hrte1] at ok2 hw2
    have hlen2 : s2.ROB.length = s.ROB.length := by
      rw [← f2.length_eq, hrob1, List.length_set]
    obtain ⟨e2, he2⟩ := getElem?_of_lt s2.ROB i (by rw [hlen2]; exact hilt)
    have hr2 := forall₂_getElem? _ _ _ f2 i _ e2 hi1 he2
    have hl2 : e2.registers_instrs_depend_on_me = e.registers_instrs_depend_on_me := by
      unfold ooo_model_instr.sched_only at hr2
      rw [hr2]
    have hids : s2.ROB.map (fun a => a.instr_id) = s.ROB.map (fun a => a.instr_id) := by
      rw [sched_only_ids _ _ f2, hrob1]
      exact map_set_same _ _ _ e _ hi rfl
    have hq2 : s2.queue = s.queue := by rw [e2eq, hs1]; rfl
    have hu2 : s2.instr_unique_id = s.instr_unique_id := by rw [e2eq, hs1]
    have hsta2 : s2.STA = s.STA := by rw [e2eq, hs1]
    rw [he2] at ht
    simp only at ht
    split_ifs at ht
    · simp only [Except.ok.injEq] at ht
      subst ht
      exact ⟨⟨hq2, hu2, hfr2, hids⟩, hsta2, hrte2, hlen2, by
        show backend_ok s2.ROB s2.ROB_front s2.ready_to_execute none
        rw [hfr2, hrte2]; exact ok2, ⟨e2, he2, hl2⟩, by
        intro d hd
        show d ∉ s2.ready_to_execute ∧ ∃ b, rob_get s2.ROB s2.ROB_front d = some b ∧ _
        rw [hfr2, hrte2]
        exact hw2 d hd⟩
    · simp only [Except.ok.injEq] at ht
      subst ht
      exact ⟨⟨hq2, hu2, hfr2, hids⟩, hsta2, hrte2, hlen2, by
        rw [hfr2, hrte2]; exact ok2, ⟨e2, he2, hl2⟩, by
        intro d hd
        rw [hfr2, hrte2]
        exact hw2 d hd⟩

/-- The body of the loop of `complete_inflight_instruction`: it does not stop on the
assertion of line 883, and when it does not stop the invariant of the back end is kept. -/
theorem complete_step_ok {β : Type} (cfg : StageConfig) (s : Core β) (i : Nat)
    (h : backend_ok s.ROB s.ROB_front s.ready_to_execute none)
    (hsz : s.ROB.length ≤ cfg.ROB_SIZE) :
    (∀ a, complete_step cfg s i = .error a → a ≠ Abort.assertion 883)
      ∧ ∀ t c, complete_step cfg s i = .ok (t, c) →
          s.back_step t ∧ t.STA = s.STA ∧ t.ROB.length = s.ROB.length
            ∧ backend_ok t.ROB t.ROB_front t.ready_to_execute none := by
  unfold complete_step
  cases hi : s.ROB[i]? with
  | none =>
    simp only
    exact ⟨fun a ha => by cases ha; exact (by simp), fun t c ht => absurd ht (by simp)⟩
  | some e =>
    simp only
    by_cases hc : e.executed = INFLIGHT ∧ e.event_cycle ≤ s.current_cycle ∧ e.num_mem_ops = 0
    · rw [if_pos hc]
      cases h1 : do_complete_execution cfg s i with
      | error a =>
        simp only
        constructor
        · intro a' ha'
          cases ha'
          unfold do_complete_execution at h1
          rw [hi] at h1
          simp only at h1
          have hrel : ∀ (l : List Nat) (u : Core β) (x : Abort),
              release_dependents l u = .error x → x ≠ Abort.assertion 883 := by
            intro l
            induction l with
            | nil => intro u x hx; simp [release_dependents] at hx
            | cons d rest ih =>
              intro u x hx
              rw [release_dependents] at hx
              cases hd : release_dependent u d with
              | error y =>
                rw [hd] at hx
                simp only [Except.error.injEq] at hx
                subst hx
                unfold release_dependent at hd
                split at hd
                · cases hd; simp
                · split_ifs at hd
                  cases hd; simp
              | ok u1 =>
                rw [hd] at hx
                exact ih u1 x hx
          cases h2 : release_dependents e.registers_instrs_depend_on_me
              { s with ROB := s.ROB.set i { e with executed := COMPLETED } } with
          | error y =>
            rw [h2] at h1
            simp only [Except.error.injEq] at h1
            subst h1
            exact hrel _ _ _ h2
          | ok s2 =>
            rw [h2] at h1
            simp only at h1
            split at h1
            · cases h1; simp
            · split_ifs at h1
        · intro t c ht
          exact absurd ht (by simp)
      | ok s1 =>
        simp only
        obtain ⟨hb1, hsta1, hrte1, hlen1, ok1, ⟨e2, he2, hl2⟩, hw1⟩ :=
          do_complete_execution_ok cfg s s1 i e hi hc.1 h h1
        rw [he2]
        simp only
        rw [hl2]
        obtain ⟨t, ht, het, hok⟩ := wake_dependents_ok cfg e.registers_instrs_depend_on_me s1
          ok1 (by rw [hlen1]; exact hsz) (h.dependents i e hi).1 hw1
        rw [ht]
        simp only
        constructor
        · intro a ha
          exact absurd ha (by simp)
        · intro t' c ht'
          simp only [Except.ok.injEq, Prod.mk.injEq] at ht'
          obtain ⟨ht', -⟩ := ht'
          subst ht'
          have hq : t.queue = s1.queue := by rw [het]; rfl
          have hu : t.instr_unique_id = s1.instr_unique_id := by rw [het]
          have hf : t.ROB_front = s1.ROB_front := by rw [het]
          have hr : t.ROB = s1.ROB := by rw [het]
          have hs : t.STA = s1.STA := by rw [het]
          exact ⟨back_step_trans _ _ _ hb1 ⟨hq, hu, hf, by rw [hr]⟩, hs.trans hsta1,
            by rw [hr]; exact hlen1, hok⟩
    · rw [if_neg hc]
      constructor
      · intro a ha
        exact absurd ha (by simp)
      · intro t c ht
        simp only [Except.ok.injEq, Prod.mk.injEq] at ht
        obtain ⟨ht, -⟩ := ht
        subst ht
        exact ⟨back_step_refl _, rfl, rfl, h⟩

/-- The loop of `complete_inflight_instruction`: it does not stop on the assertion of line
883, and when it does not stop the invariant of the back end is kept. -/
theorem complete_loop_ok {β : Type} (cfg : StageConfig) :
    ∀ (n i bw : Nat) (s : Core β),
      backend_ok s.ROB s.ROB_front s.ready_to_execute none →
      s.ROB.length ≤ cfg.ROB_SIZE →
      (∀ a, complete_loop cfg n i bw s = .error a → a ≠ Abort.assertion 883)
        ∧ ∀ t, complete_loop cfg n i bw s = .ok t →
            s.back_step t ∧ t.STA = s.STA ∧ t.ROB.length = s.ROB.length
              ∧ backend_ok t.ROB t.ROB_front t.ready_to_execute none := by
  intro n
  induction n with
  | zero =>
    intro i bw s h _
    simp only [complete_loop]
    refine ⟨fun a ha => absurd ha (by simp), ?_⟩
    intro t ht
    simp only [Except.ok.injEq] at ht
    subst ht
    exact ⟨back_step_refl _, rfl, rfl, h⟩
  | succ n ih =>
    intro i bw s h hsz
    rw [complete_loop]
    by_cases hbw : bw = 0
    · rw [if_pos hbw]
      refine ⟨fun a ha => absurd ha (by simp), ?_⟩
      intro t ht
      simp only [Except.ok.injEq] at ht
      subst ht
      exact ⟨back_step_refl _, rfl, rfl, h⟩
    · rw [if_neg hbw]
      obtain ⟨hne, hok⟩ := complete_step_ok cfg s i h hsz
      cases h1 : complete_step cfg s i with
      | error a =>
        simp only
        refine ⟨?_, fun t ht => absurd ht (by simp)⟩
        intro a' ha'
        simp only [Except.error.injEq] at ha'
        subst ha'
        exact hne a h1
      | ok r =>
        obtain ⟨s1, c⟩ := r
        simp only
        obtain ⟨hb1, hsta1, hlen1, ok1⟩ := hok s1 c h1
        obtain ⟨hne2, hok2⟩ := ih (i + 1) (if c then bw - 1 else bw) s1 ok1
          (by rw [hlen1]; exact hsz)
        refine ⟨hne2, ?_⟩
        intro t ht
        obtain ⟨hb2, hsta2, hlen2, ok2⟩ := hok2 t ht
        exact ⟨back_step_trans _ _ _ hb1 hb2, hsta2.trans hsta1, hlen2.trans hlen1, ok2⟩

/-- The producer that `find_prior` returns is an entry before the index. -/
theorem find_prior_lt (rob : List ooo_model_instr) (pred : ooo_model_instr → Bool) :
    ∀ (i j : Nat), find_prior rob pred i = some j → j < i ∧ ∃ e, rob[j]? = some e := by
  intro i
  induction i with
  | zero => intro j h; simp [find_prior] at h
  | succ i ih =>
    intro j h
    rw [find_prior] at h
    cases he : rob[i]? with
    | none =>
      rw [he] at h
      obtain ⟨h1, h2⟩ := ih j h
      exact ⟨by omega, h2⟩
    | some e =>
      rw [he] at h
      simp only at h
      split_ifs at h
      · simp only [Option.some.injEq] at h
        subst h
        exact ⟨by omega, e, he⟩
      · obtain ⟨h1, h2⟩ := ih j h
        exact ⟨by omega, h2⟩

/-- The invariant of the back end holds all the more while an entry is being scheduled. -/
theorem backend_ok_weaken (rob : List ooo_model_instr) (front : Nat) (rte : List Nat)
    (cur : Nat) (h : backend_ok rob front rte none) : backend_ok rob front rte (some cur) := by
  refine ⟨h.executed_scheduled, h.rte_nodup, h.rte_entries, ?_⟩
  intro i a hi
  obtain ⟨hnd, hmem⟩ := h.dependents i a hi
  refine ⟨hnd, ?_⟩
  intro d hd
  obtain ⟨h1, b, hb, hdis⟩ := hmem d hd
  refine ⟨h1, b, hb, ?_⟩
  rcases hdis with hs | hc
  · exact Or.inl hs
  · exact absurd hc.1 (by simp)

/-- The invariant of the back end holds again once the entry that was being scheduled has
its `scheduled` set. -/
theorem backend_ok_close (rob : List ooo_model_instr) (front : Nat) (rte : List Nat)
    (i : Nat) (h : backend_ok rob front rte (some (front + i)))
    (e e' : ooo_model_instr) (hi : rob[i]? = some e)
    (hl : e'.registers_instrs_depend_on_me = e.registers_instrs_depend_on_me)
    (hs : e'.scheduled ≠ 0) (hx : e'.executed = 0) (hr : front + i ∉ rte) :
    backend_ok (rob.set i e') front rte none := by
  have hilt : i < rob.length := (List.getElem?_eq_some.mp hi).1
  constructor
  · intro a ha hex
    rcases List.mem_or_eq_of_mem_set ha with ha | ha
    · exact h.executed_scheduled a ha hex
    · subst ha
      exact absurd hx hex
  · exact h.rte_nodup
  · intro it hit
    obtain ⟨a, ha, ha2⟩ := h.rte_entries it hit
    obtain ⟨hle, hget, hlt, hpos⟩ := rob_get_some rob front it a ha
    refine ⟨a, ?_, ha2⟩
    unfold rob_get
    rw [if_pos hle, List.getElem?_set_ne]
    · exact hget
    · intro heq
      rw [heq, hpos] at hr
      exact hr hit
  · intro k a' hk
    have key : ∀ (a : ooo_model_instr), rob[k]? = some a →
        a'.registers_instrs_depend_on_me = a.registers_instrs_depend_on_me →
        a'.registers_instrs_depend_on_me.Nodup
          ∧ ∀ d, d ∈ a'.registers_instrs_depend_on_me →
              front + k < d ∧ ∃ b, rob_get (rob.set i e') front d = some b
                ∧ (b.scheduled ≠ 0
                  ∨ ((none : Option Nat) = some d
                    ∧ a'.registers_instrs_depend_on_me.getLast? = some d)) := by
      intro a ha hla
      obtain ⟨hnd, hmem⟩ := h.dependents k a ha
      rw [hla]
      refine ⟨hnd, ?_⟩
      intro d hd
      obtain ⟨h1, b, hb, hdis⟩ := hmem d hd
      obtain ⟨hle, hget, hlt, hpos⟩ := rob_get_some rob front d b hb
      by_cases hdi : d - front = i
      · refine ⟨h1, e', ?_, Or.inl hs⟩
        unfold rob_get
        rw [if_pos hle, hdi]
        exact List.getElem?_set_self hilt
      · refine ⟨h1, b, ?_, ?_⟩
        · unfold rob_get
          rw [if_pos hle, List.getElem?_set_ne (Ne.symm hdi)]
          exact hget
        · rcases hdis with hs1 | hc
          · exact Or.inl hs1
          · exfalso
            have := Option.some.inj hc.1
            omega
    rcases getElem?_set_cases rob i k e e' a' hi hk with ⟨hki, hae⟩ | ⟨-, hsame⟩
    · subst hki
      subst hae
      exact key e hi hl
    · exact key a' hsame rfl

/-- The entry at an index of a list with two entries replaced. -/
theorem getElem?_set_set {α : Type} (l : List α) (i j k : Nat) (p' r' : α)
    (hj : j < l.length) (hi : i < l.length) :
    ((l.set j p').set i r')[k]?
      = if k = i then some r' else if k = j then some p' else l[k]? := by
  by_cases hki : k = i
  · subst hki
    rw [if_pos rfl, List.getElem?_set_self (by rw [List.length_set]; exact hi)]
  · rw [if_neg hki, List.getElem?_set_ne (Ne.symm hki)]
    by_cases hkj : k = j
    · subst hkj
      rw [if_pos rfl, List.getElem?_set_self hj]
    · rw [if_neg hkj, List.getElem?_set_ne (Ne.symm hkj)]

/-- The body of the loop of `do_scheduling` over the source registers keeps the invariant of
the back end as it stands while the entry at index `i` is being scheduled. -/
theorem mark_register_dependency_ok {β : Type} (i : Nat) (s : Core β) (src_reg : Nat)
    (h : backend_ok s.ROB s.ROB_front s.ready_to_execute (some (s.ROB_front + i)))
    (e : ooo_model_instr) (hi : s.ROB[i]? = some e) (hs : e.scheduled = 0)
    (hx : e.executed = 0) (hr : s.ROB_front + i ∉ s.ready_to_execute) :
    mark_register_dependency i s src_reg
        = { s with ROB := (mark_register_dependency i s src_reg).ROB }
      ∧ (mark_register_dependency i s src_reg).ROB.map (fun a => a.instr_id)
          = s.ROB.map (fun a => a.instr_id)
      ∧ backend_ok (mark_register_dependency i s src_reg).ROB s.ROB_front
          s.ready_to_execute (some (s.ROB_front + i))
      ∧ ∃ e', (mark_register_dependency i s src_reg).ROB[i]? = some e'
          ∧ e'.scheduled = 0 ∧ e'.executed = 0 := by
  have hilt : i < s.ROB.length := (List.getElem?_eq_some.mp hi).1
  unfold mark_register_dependency
  cases hf : find_prior s.ROB (instr_reg_will_produce src_reg) i with
  | none => exact ⟨rfl, rfl, h, e, hi, hs, hx⟩
  | some j =>
    obtain ⟨hji, prior, hj⟩ := find_prior_lt _ _ i j hf
    have hjlt : j < s.ROB.length := (List.getElem?_eq_some.mp hj).1
    simp only [hj, hi]
    by_cases hc : prior.registers_instrs_depend_on_me = []
        ∨ prior.registers_instrs_depend_on_me.getLast? ≠ some (s.ROB_front + i)
    · rw [if_pos hc]
      simp only
      obtain ⟨p', hp'⟩ : ∃ p' : ooo_model_instr, p' = { prior with
          registers_instrs_depend_on_me :=
            prior.registers_instrs_depend_on_me ++ [s.ROB_front + i] } := ⟨_, rfl⟩
      obtain ⟨r', hr'⟩ : ∃ r' : ooo_model_instr, r' = { e with
          num_reg_dependent := e.num_reg_dependent + 1 } := ⟨_, rfl⟩
      rw [← hp', ← hr']
      have hget := getElem?_set_set s.ROB i j
      have hcur : s.ROB_front + i ∉ prior.registers_instrs_depend_on_me := by
        intro hmem
        obtain ⟨-, hm⟩ := h.dependents j prior hj
        obtain ⟨-, b, hb, hdis⟩ := hm _ hmem
        rw [rob_get_add, hi] at hb
        have := Option.some.inj hb
        subst this
        rcases hdis with hs1 | hc1
        · exact hs1 hs
        · rcases hc with hc | hc
          · rw [hc] at hmem
            exact absurd hmem (List.not_mem_nil _)
          · exact hc hc1.2
      have hp1 : p'.scheduled = prior.scheduled ∧ p'.executed = prior.executed
          ∧ p'.num_reg_dependent = prior.num_reg_dependent
          ∧ p'.instr_id = prior.instr_id := by
        rw [hp']; exact ⟨rfl, rfl, rfl, rfl⟩
      have hr1 : r'.scheduled = e.scheduled ∧ r'.executed = e.executed
          ∧ r'.registers_instrs_depend_on_me = e.registers_instrs_depend_on_me
          ∧ r'.instr_id = e.instr_id := by
        rw [hr']; exact ⟨rfl, rfl, rfl, rfl⟩
      have hpl : p'.registers_instrs_depend_on_me
          = prior.registers_instrs_depend_on_me ++ [s.ROB_front + i] := by rw [hp']
      have hjne : j ≠ i := by omega
      -- every iterator points to an entry with the `scheduled` it had
      have hsch : ∀ d b, rob_get s.ROB s.ROB_front d = some b →
          ∃ b', rob_get ((s.ROB.set j p').set i r') s.ROB_front d = some b'
            ∧ b'.scheduled = b.scheduled := by
        intro d b hb
        obtain ⟨hle, hgetd, hlt, -⟩ := rob_get_some s.ROB s.ROB_front d b hb
        unfold rob_get
        rw [if_pos hle, hget (d - s.ROB_front) p' r' hjlt hilt]
        by_cases h1 : d - s.ROB_front = i
        · rw [if_pos h1]
          rw [h1, hi] at hgetd
          have := Option.some.inj hgetd
          subst this
          exact ⟨r', rfl, hr1.1⟩
        · rw [if_neg h1]
          by_cases h2 : d - s.ROB_front = j
          · rw [if_pos h2]
            rw [h2, hj] at hgetd
            have := Option.some.inj hgetd
            subst this
            exact ⟨p', rfl, hp1.1⟩
          · rw [if_neg h2]
            exact ⟨b, hgetd, rfl⟩
      refine ⟨trivial, ?_, ?_, r', ?_, by rw [hr1.1]; exact hs, by rw [hr1.2.1]; exact hx⟩
      · show ((s.ROB.set j p').set i r').map (fun a => a.instr_id) = _
        rw [map_set_same _ _ i e r' (by rw [List.getElem?_set_ne hjne]; exact hi) hr1.2.2.2,
          map_set_same _ _ j prior p' hj hp1.2.2.2]
      · show backend_ok ((s.ROB.set j p').set i r') _ _ _
        constructor
        · intro a' ha' hex
          obtain ⟨k, hk⟩ := List.mem_iff_getElem?.mp ha'
          rw [hget k p' r' hjlt hilt] at hk
          by_cases h1 : k = i
          · rw [if_pos h1] at hk
            have := Option.some.inj hk
            subst this
            rw [hr1.2.1] at hex
            exact absurd hx hex
          · rw [if_neg h1] at hk
            by_cases h2 : k = j
            · rw [if_pos h2] at hk
              have := Option.some.inj hk
              subst this
              rw [hp1.2.1] at hex
              rw [hp1.1, hp1.2.2.1]
              exact h.executed_scheduled prior (List.getElem?_mem hj) hex
            · rw [if_neg h2] at hk
              exact h.executed_scheduled a' (List.getElem?_mem hk) hex
        · exact h.rte_nodup
        · intro it hit
          obtain ⟨a, ha, ha2⟩ := h.rte_entries it hit
          obtain ⟨hle, hgetd, hlt, hpos⟩ := rob_get_some s.ROB s.ROB_front it a ha
          unfold rob_get
          rw [if_pos hle, hget (it - s.ROB_front) p' r' hjlt hilt]
          have h1 : it - s.ROB_front ≠ i := by
            intro heq
            rw [heq] at hpos
            rw [hpos] at hr
            exact hr hit
          rw [if_neg h1]
          by_cases h2 : it - s.ROB_front = j
          · rw [if_pos h2]
            rw [h2, hj] at hgetd
            have := Option.some.inj hgetd
            subst this
            exact ⟨p', rfl, by rw [hp1.2.1]; exact ha2.1, by rw [hp1.1]; exact ha2.2.1,
              by rw [hp1.2.2.1]; exact ha2.2.2⟩
          · rw [if_neg h2]
            exact ⟨a, hgetd, ha2⟩
        · intro k a' hk
          rw [hget k p' r' hjlt hilt] at hk
          have key : ∀ (a : ooo_model_instr), s.ROB[k]? = some a →
              a'.registers_instrs_depend_on_me = a.registers_instrs_depend_on_me →
              a'.registers_instrs_depend_on_me.Nodup
                ∧ ∀ d, d ∈ a'.registers_instrs_depend_on_me →
                    s.ROB_front + k < d
                      ∧ ∃ b, rob_get ((s.ROB.set j p').set i r') s.ROB_front d = some b
                        ∧ (b.scheduled ≠ 0
                          ∨ (some (s.ROB_front + i) = some d
                            ∧ a'.registers_instrs_depend_on_me.getLast? = some d)) := by
            intro a ha hla
            obtain ⟨hnd, hmem⟩ := h.dependents k a ha
            rw [hla]
            refine ⟨hnd, ?_⟩
            intro d hd
            obtain ⟨h1, b, hb, hdis⟩ := hmem d hd
            obtain ⟨b', hb', hbs⟩ := hsch d b hb
            refine ⟨h1, b', hb', ?_⟩
            rw [hbs]
            exact hdis
          by_cases h1 : k = i
          · rw [if_pos h1] at hk
            have := Option.some.inj hk
            subst this
            subst h1
            exact key e hi hr1.2.2.1
          · rw [if_neg h1] at hk
            by_cases h2 : k = j
            · rw [if_pos h2] at hk
              have := Option.some.inj hk
              subst this
              subst h2
              obtain ⟨hnd, hmem⟩ := h.dependents k prior hj
              rw [hpl]
              constructor
              · rw [List.nodup_append]
                refine ⟨hnd, List.nodup_singleton _, ?_⟩
                intro x hx1 hx2
                rw [List.mem_singleton] at hx2
                subst hx2
                exact hcur hx1
              · intro d hd
                rw [List.mem_append, List.mem_singleton] at hd
                rcases hd with hd | hd
                · obtain ⟨h3, b, hb, hdis⟩ := hmem d hd
                  obtain ⟨b', hb', hbs⟩ := hsch d b hb
                  refine ⟨h3, b', hb', Or.inl ?_⟩
                  rw [hbs]
                  rcases hdis with hs1 | hc1
                  · exact hs1
                  · exfalso
                    have := Option.some.inj hc1.1
                    rw [← this] at hd
                    exact hcur hd
                · subst hd
                  refine ⟨by omega, r', ?_, Or.inr ⟨rfl, List.getLast?_concat _⟩⟩
                  rw [rob_get_add, hget i p' r' hjlt hilt, if_pos rfl]
            · rw [if_neg h2] at hk
              exact key a' hk rfl
      · rw [hget i p' r' hjlt hilt, if_pos rfl]
    · rw [if_neg hc]
      exact ⟨rfl, rfl, h, e, hi, hs, hx⟩

/-- The loop of `do_scheduling` over the source registers keeps the invariant of the back
end as it stands while the entry at index `i` is being scheduled. -/
theorem mark_fold_ok {β : Type} (i : Nat) :
    ∀ (regs : List Nat) (s : Core β),
      backend_ok s.ROB s.ROB_front s.ready_to_execute (some (s.ROB_front + i)) →
      (∃ e, s.ROB[i]? = some e ∧ e.scheduled = 0 ∧ e.executed = 0) →
      s.ROB_front + i ∉ s.ready_to_execute →
      ∃ t, regs.foldl (mark_register_dependency i) s = t
        ∧ t = { s with ROB := t.ROB }
        ∧ t.ROB.map (fun a => a.instr_id) = s.ROB.map (fun a => a.instr_id)
        ∧ backend_ok t.ROB s.ROB_front s.ready_to_execute (some (s.ROB_front + i))
        ∧ ∃ e', t.ROB[i]? = some e' ∧ e'.scheduled = 0 ∧ e'.executed = 0 := by
  intro regs
  induction regs with
  | nil =>
    intro s h he _
    exact ⟨s, rfl, rfl, rfl, h, he⟩
  | cons r rest ih =>
    intro s h he hr
    obtain ⟨e, hi, hs, hx⟩ := he
    obtain ⟨h1, h2, h3, h4⟩ := mark_register_dependency_ok i s r h e hi hs hx hr
    rw [List.foldl_cons]
    generalize mark_register_dependency i s r = s1 at h1 h2 h3 h4 ⊢
    have hf : s1.ROB_front = s.ROB_front := by rw [h1]
    have hq : s1.ready_to_execute = s.ready_to_execute := by rw [h1]
    obtain ⟨t, ht, het, hids, hok, he'⟩ := ih s1 (by rw [hf, hq]; exact h3) h4
      (by rw [hf, hq]; exact hr)
    rw [hf, hq] at hok
    refine ⟨t, ht, ?_, hids.trans h2, hok, he'⟩
    rw [het, h1]

/-- `do_scheduling` on an entry that is not scheduled yet: the invariant of the back end is
kept, and the entry is scheduled, has not begun to execute and is not in
`ready_to_execute`. -/
theorem do_scheduling_ok {β : Type} (cfg : StageConfig) (wc : Bool) (s : Core β) (i : Nat)
    (h : backend_ok s.ROB s.ROB_front s.ready_to_execute none)
    (e : ooo_model_instr) (hi : s.ROB[i]? = some e) (hs : e.scheduled = 0) :
    do_scheduling cfg wc s i = { s with ROB := (do_scheduling cfg wc s i).ROB }
      ∧ (do_scheduling cfg wc s i).ROB.map (fun a => a.instr_id)
          = s.ROB.map (fun a => a.instr_id)
      ∧ backend_ok (do_scheduling cfg wc s i).ROB s.ROB_front s.ready_to_execute none
      ∧ s.ROB_front + i ∉ s.ready_to_execute
      ∧ ∃ e', (do_scheduling cfg wc s i).ROB[i]? = some e' ∧ e'.scheduled ≠ 0
          ∧ e'.executed = 0 := by
  have hx : e.executed = 0 := by
    by_contra hne
    have := (h.executed_scheduled e (List.getElem?_mem hi) hne).1
    rw [hs] at this
    exact absurd this (by decide)
  have hr : s.ROB_front + i ∉ s.ready_to_execute := by
    intro hmem
    obtain ⟨a, ha, -, ha2, -⟩ := h.rte_entries _ hmem
    rw [rob_get_add, hi] at ha
    have := Option.some.inj ha
    subst this
    rw [hs] at ha2
    exact absurd ha2 (by decide)
  obtain ⟨t, ht, het, hids, hok, e1, he1, hs1, hx1⟩ :=
    mark_fold_ok i e.source_registers s (backend_ok_weaken _ _ _ _ h) ⟨e, hi, hs, hx⟩ hr
  unfold do_scheduling
  rw [hi]
  simp only
  rw [ht, he1]
  simp only
  have hilt : i < t.ROB.length := (List.getElem?_eq_some.mp he1).1
  by_cases hm : e1.is_memory ≠ 0
  · rw [if_pos hm]
    obtain ⟨e2, he2⟩ : ∃ e2 : ooo_model_instr, e2 = { e1 with scheduled := INFLIGHT } :=
      ⟨_, rfl⟩
    rw [← he2]
    have f1 : e2.scheduled ≠ 0 := by rw [he2]; simp [INFLIGHT]
    have f2 : e2.executed = 0 := by rw [he2]; exact hx1
    have f3 : e2.instr_id = e1.instr_id := by rw [he2]
    have f4 : e2.registers_instrs_depend_on_me = e1.registers_instrs_depend_on_me := by
      rw [he2]
    refine ⟨?_, ?_, ?_, hr, e2, List.getElem?_set_self hilt, f1, f2⟩
    · rw [het]
    · show (t.ROB.set i e2).map (fun a => a.instr_id) = _
      rw [map_set_same (fun a => a.instr_id) t.ROB i e1 e2 he1 f3]
      exact hids
    · exact backend_ok_close _ _ _ i hok e1 e2 he1 f4 f1 f2 hr
  · rw [if_neg hm]
    obtain ⟨e2, he2⟩ : ∃ e2 : ooo_model_instr, e2 = { e1 with
        scheduled := COMPLETED,
        event_cycle := t.current_cycle + (if wc then cfg.SCHEDULING_LATENCY else 0) } :=
      ⟨_, rfl⟩
    rw [← he2]
    have f1 : e2.scheduled ≠ 0 := by rw [he2]; simp [COMPLETED]
    have f2 : e2.executed = 0 := by rw [he2]; exact hx1
    have f3 : e2.instr_id = e1.instr_id := by rw [he2]
    have f4 : e2.registers_instrs_depend_on_me = e1.registers_instrs_depend_on_me := by
      rw [he2]
    refine ⟨?_, ?_, ?_, hr, e2, List.getElem?_set_self hilt, f1, f2⟩
    · rw [het]
    · show (t.ROB.set i e2).map (fun a => a.instr_id) = _
      rw [map_set_same (fun a => a.instr_id) t.ROB i e1 e2 he1 f3]
      exact hids
    · exact backend_ok_close _ _ _ i hok e1 e2 he1 f4 f1 f2 hr

/-- The body of the loop of `schedule_instruction` never fails the assertion of line 456 and
keeps the invariant of the back end. -/
theorem schedule_step_ok {β : Type} (cfg : StageConfig) (wc : Bool) (s : Core β) (i : Nat)
    (h : backend_ok s.ROB s.ROB_front s.ready_to_execute none)
    (hsz : s.ROB.length ≤ cfg.ROB_SIZE) :
    (∀ a, schedule_step cfg wc s i = .error a → a ≠ Abort.assertion 456)
      ∧ (∀ t c, schedule_step cfg wc s i = .ok (t, c) →
          s.back_step t ∧ t.STA = s.STA ∧ t.ROB.length = s.ROB.length
            ∧ backend_ok t.ROB t.ROB_front t.ready_to_execute none)
      ∧ (i < s.ROB.length → ∃ t c, schedule_step cfg wc s i = .ok (t, c)) := by
  unfold schedule_step
  cases hi : s.ROB[i]? with
  | none =>
    simp only
    refine ⟨fun a ha => by cases ha; exact (by simp), fun t c ht => absurd ht (by simp), ?_⟩
    intro hlt
    rw [List.getElem?_eq_getElem hlt] at hi
    exact absurd hi (by simp)
  | some e =>
    simp only
    by_cases hs : e.scheduled = 0
    · rw [if_pos hs]
      obtain ⟨h1, h2, h3, h4, e', he', hs', hx'⟩ := do_scheduling_ok cfg wc s i h e hi hs
      generalize do_scheduling cfg wc s i = s1 at h1 h2 h3 he' ⊢
      have hf : s1.ROB_front = s.ROB_front := by rw [h1]
      have hq : s1.ready_to_execute = s.ready_to_execute := by rw [h1]
      have hsta : s1.STA = s.STA := by rw [h1]
      have hqueue : s1.queue = s.queue := by rw [h1]; rfl
      have huid : s1.instr_unique_id = s.instr_unique_id := by rw [h1]
      have hlen : s1.ROB.length = s.ROB.length := by
        have := congrArg List.length h2
        rw [List.length_map, List.length_map] at this
        exact this
      rw [he']
      simp only
      by_cases hc : e'.scheduled = COMPLETED ∧ e'.num_reg_dependent = 0
      · rw [if_pos hc]
        have hroom : s1.ready_to_execute.length < cfg.ROB_SIZE := by
          rw [hq]
          refine Nat.lt_of_lt_of_le
            (ready_lt_size _ _ _ _ h3 (s.ROB_front + i) h4 e' ?_ hx') (hlen ▸ hsz)
          rw [rob_get_add]
          exact he'
        rw [if_pos hroom]
        simp only [he']
        refine ⟨fun a ha => absurd ha (by simp), ?_, fun _ => ⟨_, _, rfl⟩⟩
        intro t c ht
        simp only [Except.ok.injEq, Prod.mk.injEq] at ht
        obtain ⟨ht, -⟩ := ht
        subst ht
        refine ⟨⟨hqueue, huid, hf, h2⟩, hsta, hlen, ?_⟩
        show backend_ok s1.ROB s1.ROB_front (s1.ready_to_execute ++ [s1.ROB_front + i]) none
        rw [hf, hq]
        exact backend_ok_push_rte _ _ _ _ _ h3 h4 e' (by rw [rob_get_add]; exact he') hx'
          hc.1 hc.2
      · rw [if_neg hc]
        simp only [he']
        refine ⟨fun a ha => absurd ha (by simp), ?_, fun _ => ⟨_, _, rfl⟩⟩
        intro t c ht
        simp only [Except.ok.injEq, Prod.mk.injEq] at ht
        obtain ⟨ht, -⟩ := ht
        subst ht
        refine ⟨⟨hqueue, huid, hf, h2⟩, hsta, hlen, ?_⟩
        rw [hf, hq]
        exact h3
    · rw [if_neg hs]
      simp only [hi]
      refine ⟨fun a ha => absurd ha (by simp), ?_, fun _ => ⟨_, _, rfl⟩⟩
      intro t c ht
      simp only [Except.ok.injEq, Prod.mk.injEq] at ht
      obtain ⟨ht, -⟩ := ht
      subst ht
      exact ⟨back_step_refl _, rfl, rfl, h⟩

/-- The loop of `schedule_instruction` returns, without failing the assertion of line 456,
and keeps the invariant of the back end. -/
theorem schedule_loop_ok {β : Type} (cfg : StageConfig) (wc : Bool) :
    ∀ (n i bw : Nat) (s : Core β),
      backend_ok s.ROB s.ROB_front s.ready_to_execute none →
      s.ROB.length ≤ cfg.ROB_SIZE →
      (∀ a, schedule_loop cfg wc n i bw s = .error a → a ≠ Abort.assertion 456)
        ∧ (∀ t, schedule_loop cfg wc n i bw s = .ok t →
            s.back_step t ∧ t.STA = s.STA ∧ t.ROB.length = s.ROB.length
              ∧ backend_ok t.ROB t.ROB_front t.ready_to_execute none)
        ∧ (i + n ≤ s.ROB.length → ∃ t, schedule_loop cfg wc n i bw s = .ok t) := by
  intro n
  induction n with
  | zero =>
    intro i bw s h _
    simp only [schedule_loop]
    refine ⟨fun a ha => absurd ha (by simp), ?_, fun _ => ⟨_, rfl⟩⟩
    intro t ht
    simp only [Except.ok.injEq] at ht
    subst ht
    exact ⟨back_step_refl _, rfl, rfl, h⟩
  | succ n ih =>
    intro i bw s h hsz
    rw [schedule_loop]
    by_cases hbw : bw = 0
    · rw [if_pos hbw]
      refine ⟨fun a ha => absurd ha (by simp), ?_, fun _ => ⟨_, rfl⟩⟩
      intro t ht
      simp only [Except.ok.injEq] at ht
      subst ht
      exact ⟨back_step_refl _, rfl, rfl, h⟩
    · rw [if_neg hbw]
      obtain ⟨hstep1, hstep2, hstep3⟩ := schedule_step_ok cfg wc s i h hsz
      cases hst : schedule_step cfg wc s i with
      | error a =>
        simp only
        refine ⟨?_, fun t ht => absurd ht (by simp), ?_⟩
        · intro a' ha'
          simp only [Except.error.injEq] at ha'
          subst ha'
          exact hstep1 a hst
        · intro hlen
          obtain ⟨t, c, htc⟩ := hstep3 (by omega)
          rw [hst] at htc
          exact absurd htc (by simp)
      | ok p =>
        obtain ⟨s1, c⟩ := p
        simp only
        obtain ⟨hb, hsta, hlen, hok⟩ := hstep2 s1 c hst
        obtain ⟨ih1, ih2, ih3⟩ := ih (i + 1) (if c then bw - 1 else bw) s1 hok (hlen ▸ hsz)
        refine ⟨ih1, ?_, ?_⟩
        · intro t ht
          obtain ⟨hb2, hsta2, hlen2, hok2⟩ := ih2 t ht
          exact ⟨back_step_trans _ _ _ hb hb2, hsta2.trans hsta, hlen2.trans hlen, hok2⟩
        · intro hle
          exact ih3 (by rw [hlen]; omega)

/-- An entry is itself up to any fields. -/
theorem mem_only_refl (a : ooo_model_instr) : a.mem_only a := rfl

/-- Writes of the memory side compose. -/
theorem mem_only_trans (a b c : ooo_model_instr) (h1 : a.mem_only b)
    (h2 : b.mem_only c) : a.mem_only c := by
  unfold ooo_model_instr.mem_only at *
  rw [h2, h1]

/-- The fields of the back end after a write of the memory side. -/
theorem mem_only_fields (a b : ooo_model_instr) (h : a.mem_only b) :
    b.instr_id = a.instr_id ∧ b.scheduled = a.scheduled ∧ b.executed = a.executed
      ∧ b.num_reg_dependent = a.num_reg_dependent
      ∧ b.registers_instrs_depend_on_me = a.registers_instrs_depend_on_me
      ∧ b.is_memory = a.is_memory := by
  unfold ooo_model_instr.mem_only at h
  refine ⟨?_, ?_, ?_, ?_, ?_, ?_⟩ <;> rw [h]

/-- The ids of a ROB after writes of the memory side. -/
theorem mem_only_ids (rob rob' : List ooo_model_instr)
    (h : List.Forall₂ ooo_model_instr.mem_only rob rob') :
    rob'.map (fun a => a.instr_id) = rob.map (fun a => a.instr_id) := by
  induction h with
  | nil => rfl
  | cons hab _ ih =>
    simp only [List.map_cons, ih, List.cons.injEq, and_true]
    exact (mem_only_fields _ _ hab).1

/-- A step that changes nothing is a step of memory scheduling that writes no id. -/
theorem mem_sched_refl {β : Type} (s : Core β) : s.mem_sched s [] :=
  ⟨rfl, forall₂_self _ mem_only_refl _, rfl⟩

/-- Steps of memory scheduling compose, and so do the ids they write. -/
theorem mem_sched_trans {β : Type} (s t u : Core β) (w1 w2 : List Nat)
    (h1 : s.mem_sched t w1) (h2 : t.mem_sched u w2) : s.mem_sched u (w1 ++ w2) := by
  refine ⟨?_, forall₂_comp _ mem_only_trans _ _ _ h1.rob h2.rob, ?_⟩
  · have e1 := h1.frame
    have e2 := h2.frame
    rw [e2, e1]
  · rw [h1.sta, h2.sta, List.append_assoc]

/-- What a step of memory scheduling keeps of the core. -/
theorem mem_sched_frame {β : Type} (s t : Core β) (w : List Nat) (h : s.mem_sched t w) :
    s.back_step t ∧ t.ready_to_execute = s.ready_to_execute
      ∧ t.ROB.length = s.ROB.length := by
  have e := h.frame
  refine ⟨⟨?_, ?_, ?_, mem_only_ids _ _ h.rob⟩, ?_, h.rob.length_eq.symm⟩
  · rw [e]; rfl
  · rw [e]
  · rw [e]
  · rw [e]

/-- The body of the loop of `do_memory_scheduling` over the loads is a step of memory
scheduling that writes no id into the store queue. -/
theorem schedule_load_ok {β : Type} (cfg : StageConfig) (s t : Core β) (i k : Nat)
    (ht : schedule_load cfg s i k = .ok t) : s.mem_sched t [] := by
  unfold schedule_load at ht
  cases hi : s.ROB[i]? with
  | none => rw [hi] at ht; exact absurd ht (by simp)
  | some rob_it =>
    rw [hi] at ht
    simp only at ht
    cases hk : rob_it.source_memory[k]? with
    | none => rw [hk] at ht; exact absurd ht (by simp)
    | some smem_info =>
      rw [hk] at ht
      simp only at ht
      by_cases h1 : (!smem_info.added && !smem_info.will_forward) = true
      · rw [if_pos h1] at ht
        by_cases h2 : s.SQ.any (sq_will_forward smem_info.address) = true
        · rw [if_pos h2] at ht
          by_cases h3 : rob_it.num_mem_ops = 0
          · rw [if_pos h3] at ht
            exact absurd ht (by simp)
          · rw [if_neg h3] at ht
            simp only [Except.ok.injEq] at ht
            subst ht
            exact ⟨rfl, forall₂_set _ mem_only_refl _ _ _ _ hi rfl, rfl⟩
        · rw [if_neg h2] at ht
          cases hf : find_prior s.ROB (instr_mem_will_produce smem_info.address) i with
          | some j =>
            rw [hf] at ht
            simp only at ht
            obtain ⟨hji, prior, hj⟩ := find_prior_lt _ _ i j hf
            rw [hj] at ht
            simp only [Except.ok.injEq] at ht
            subst ht
            refine ⟨rfl, ?_, rfl⟩
            refine forall₂_comp _ mem_only_trans _
              (s.ROB.set j { prior with memory_instrs_depend_on_me :=
                prior.memory_instrs_depend_on_me ++ [s.ROB_front + i] }) _
              (forall₂_set _ mem_only_refl _ j prior _ hj rfl)
              (forall₂_set _ mem_only_refl _ i rob_it _ ?_ rfl)
            rw [List.getElem?_set_ne (by omega)]
            exact hi
          | none =>
            rw [hf] at ht
            simp only at ht
            cases hl : find_invalid s.LQ with
            | some lq_it =>
              rw [hl] at ht
              simp only [Except.ok.injEq] at ht
              subst ht
              exact ⟨rfl, forall₂_set _ mem_only_refl _ _ _ _ hi rfl, rfl⟩
            | none =>
              rw [hl] at ht
              simp only [Except.ok.injEq] at ht
              subst ht
              exact mem_sched_refl _
      · rw [if_neg h1] at ht
        simp only [Except.ok.injEq] at ht
        subst ht
        exact mem_sched_refl _

/-- The loop of `do_memory_scheduling` over the loads is a step of memory scheduling that
writes no id into the store queue. -/
theorem schedule_loads_ok {β : Type} (cfg : StageConfig) (i : Nat) :
    ∀ (n k : Nat) (s t : Core β), schedule_loads cfg i n k s = .ok t → s.mem_sched t [] := by
  intro n
  induction n with
  | zero =>
    intro k s t ht
    simp only [schedule_loads, Except.ok.injEq] at ht
    subst ht
    exact mem_sched_refl _
  | succ n ih =>
    intro k s t ht
    rw [schedule_loads] at ht
    cases h1 : schedule_load cfg s i k with
    | error a => rw [h1] at ht; exact absurd ht (by simp)
    | ok s1 =>
      rw [h1] at ht
      simp only at ht
      exact mem_sched_trans s s1 t [] [] (schedule_load_ok cfg s s1 i k h1) (ih _ s1 t ht)

/-- The first invalid slot of a queue is a slot of the queue, and it is not valid. -/
theorem find_invalid_some (q : List LSQ_ENTRY) (k : Nat) (h : find_invalid q = some k) :
    ∃ slot, q[k]? = some slot ∧ slot.virtual_address = 0 := by
  unfold find_invalid at h
  simp only at h
  split_ifs at h with hlt
  simp only [Option.some.injEq] at h
  subst h
  refine ⟨q[q.findIdx (fun e => e.virtual_address == 0)], List.getElem?_eq_getElem hlt, ?_⟩
  have := @List.findIdx_getElem _ (fun e : LSQ_ENTRY => e.virtual_address == 0) q hlt
  simpa using this

/-- `add_store_queue` with the id of the instruction at the front of `STA`: it never fails
its assertion, it writes that id into the first invalid slot of the store queue, and it pops
exactly one element of `STA`. -/
theorem add_store_queue_ok {β : Type} (cfg : StageConfig) (s : Core β) (i data_index : Nat)
    (rob_it : ooo_model_instr) (hi : s.ROB[i]? = some rob_it) (sq_it : Nat)
    (hsq : find_invalid s.SQ = some sq_it) :
    add_store_queue cfg s i data_index ≠ .error (Abort.assertion 656)
      ∧ ∀ t, add_store_queue cfg s i data_index = .ok t →
          (∃ slot, t.SQ[sq_it]? = some slot ∧ slot.instr_id = rob_it.instr_id)
            ∧ t.STA = s.STA.tail
            ∧ t = { s with ROB := t.ROB, SQ := t.SQ, LQ := t.LQ, RTS0 := t.RTS0,
                           RTL0 := t.RTL0, STA := t.STA }
            ∧ List.Forall₂ ooo_model_instr.mem_only s.ROB t.ROB := by
  obtain ⟨slot, hslot, hv⟩ := find_invalid_some _ _ hsq
  have hlt : sq_it < s.SQ.length := (List.getElem?_eq_some.mp hslot).1
  unfold add_store_queue
  rw [hi, hsq]
  simp only
  rw [hslot]
  cases hd : rob_it.destination_memory[data_index]? with
  | none =>
    simp only
    exact ⟨by simp, fun t ht => absurd ht (by simp)⟩
  | some dmem =>
    simp only
    rw [if_pos hv]
    refine ⟨by simp, ?_⟩
    intro t ht
    simp only [Except.ok.injEq] at ht
    subst ht
    refine ⟨⟨_, List.getElem?_set_self hlt, rfl⟩, rfl, rfl, ?_⟩
    exact forall₂_set _ mem_only_refl _ _ _ _ hi rfl

/-- The body of the loop of `do_memory_scheduling` over the loads does not reach the
assertion of `add_store_queue`. -/
theorem schedule_load_never_656 {β : Type} (cfg : StageConfig) (s : Core β) (i k : Nat)
    (a : Abort) (h : schedule_load cfg s i k = .error a) : a ≠ Abort.assertion 656 := by
  unfold schedule_load at h
  cases hi : s.ROB[i]? with
  | none =>
    rw [hi] at h
    simp only [Except.error.injEq] at h
    subst h
    simp
  | some rob_it =>
    rw [hi] at h
    simp only at h
    cases hk : rob_it.source_memory[k]? with
    | none =>
      rw [hk] at h
      simp only [Except.error.injEq] at h
      subst h
      simp
    | some smem_info =>
      rw [hk] at h
      simp only at h
      by_cases h1 : (!smem_info.added && !smem_info.will_forward) = true
      · rw [if_pos h1] at h
        by_cases h2 : s.SQ.any (sq_will_forward smem_info.address) = true
        · rw [if_pos h2] at h
          by_cases h3 : rob_it.num_mem_ops = 0
          · rw [if_pos h3] at h
            simp only [Except.error.injEq] at h
            subst h
            simp
          · rw [if_neg h3] at h
            exact absurd h (by simp)
        · rw [if_neg h2] at h
          cases hf : find_prior s.ROB (instr_mem_will_produce smem_info.address) i with
          | some j =>
            rw [hf] at h
            simp only at h
            cases hj : s.ROB[j]? with
            | none =>
              rw [hj] at h
              simp only [Except.error.injEq] at h
              subst h
              simp
            | some prior =>
              rw [hj] at h
              exact absurd h (by simp)
          | none =>
            rw [hf] at h
            simp only at h
            cases hl : find_invalid s.LQ with
            | some lq_it => rw [hl] at h; exact absurd h (by simp)
            | none => rw [hl] at h; exact absurd h (by simp)
      · rw [if_neg h1] at h
        exact absurd h (by simp)

/-- The loop of `do_memory_scheduling` over the loads does not reach the assertion of
`add_store_queue`. -/
theorem schedule_loads_never_656 {β : Type} (cfg : StageConfig) (i : Nat) :
    ∀ (n k : Nat) (s : Core β) (a : Abort),
      schedule_loads cfg i n k s = .error a → a ≠ Abort.assertion 656 := by
  intro n
  induction n with
  | zero =>
    intro k s a h
    simp [schedule_loads] at h
  | succ n ih =>
    intro k s a h
    rw [schedule_loads] at h
    cases h1 : schedule_load cfg s i k with
    | error b =>
      rw [h1] at h
      simp only [Except.error.injEq] at h
      subst h
      exact schedule_load_never_656 cfg s i k b h1
    | ok s1 =>
      rw [h1] at h
      exact ih _ s1 a h

/-- The body of the loop of `do_memory_scheduling` over the stores: either nothing happens,
or the operand has not been added, the store queue has an invalid slot, the front of `STA`
is the id of the instruction, and `add_store_queue` writes that id into the slot and pops
the front of `STA`. -/
theorem schedule_store_cases {β : Type} (cfg : StageConfig) (s t : Core β)
    (i data_index : Nat) (w : List Nat)
    (ht : schedule_store cfg s i data_index = .ok (t, w)) :
    (t = s ∧ w = [])
      ∨ ∃ rob_it dmem sq_it rest slot,
          s.ROB[i]? = some rob_it ∧ rob_it.destination_memory[data_index]? = some dmem
            ∧ dmem.added = false ∧ find_invalid s.SQ = some sq_it
            ∧ s.STA = rob_it.instr_id :: rest
            ∧ add_store_queue cfg s i data_index = .ok t
            ∧ t.STA = rest ∧ t.SQ[sq_it]? = some slot ∧ slot.instr_id = rob_it.instr_id
            ∧ w = [rob_it.instr_id] := by
  unfold schedule_store at ht
  cases hi : s.ROB[i]? with
  | none => rw [hi] at ht; exact absurd ht (by simp)
  | some rob_it =>
    rw [hi] at ht
    simp only at ht
    cases hd : rob_it.destination_memory[data_index]? with
    | none => rw [hd] at ht; exact absurd ht (by simp)
    | some dmem =>
      rw [hd] at ht
      simp only at ht
      by_cases hadd : (!dmem.added) = true
      · rw [if_pos hadd] at ht
        cases hsq : find_invalid s.SQ with
        | none =>
          rw [hsq] at ht
          simp only [Except.ok.injEq, Prod.mk.injEq] at ht
          exact Or.inl ⟨ht.1.symm, ht.2.symm⟩
        | some sq_it =>
          rw [hsq] at ht
          simp only at ht
          have hcases : s.STA = [] ∨ ∃ x rest, s.STA = x :: rest := by
            cases s.STA with
            | nil => exact Or.inl rfl
            | cons x rest => exact Or.inr ⟨x, rest, rfl⟩
          rcases hcases with hsta | ⟨x, rest, hsta⟩
          · rw [hsta] at ht
            exact absurd ht (by simp)
          · rw [hsta] at ht
            simp only at ht
            by_cases hx : x = rob_it.instr_id
            · rw [if_pos hx] at ht
              obtain ⟨-, hadd2⟩ := add_store_queue_ok cfg s i data_index rob_it hi sq_it hsq
              cases ha : add_store_queue cfg s i data_index with
              | error a => rw [ha] at ht; exact absurd ht (by simp)
              | ok s1 =>
                rw [ha] at ht
                simp only at ht
                obtain ⟨⟨slot, hslot, hid⟩, htail, -, -⟩ := hadd2 s1 ha
                rw [hslot] at ht
                simp only [Except.ok.injEq, Prod.mk.injEq] at ht
                obtain ⟨h1, h2⟩ := ht
                subst h1
                refine Or.inr ⟨rob_it, dmem, sq_it, rest, slot, rfl, hd, ?_, rfl, ?_, rfl,
                  ?_, hslot, hid, ?_⟩
                · simpa using hadd
                · rw [hsta, hx]
                · rw [htail, hsta]; rfl
                · rw [← h2, hid]
            · rw [if_neg hx] at ht
              simp only [Except.ok.injEq, Prod.mk.injEq] at ht
              exact Or.inl ⟨ht.1.symm, ht.2.symm⟩
      · rw [if_neg hadd] at ht
        simp only [Except.ok.injEq, Prod.mk.injEq] at ht
        exact Or.inl ⟨ht.1.symm, ht.2.symm⟩

/-- The body of the loop of `do_memory_scheduling` over the stores is a step of memory
scheduling, and it never fails the assertion of `add_store_queue`. -/
theorem schedule_store_ok {β : Type} (cfg : StageConfig) (s : Core β) (i data_index : Nat) :
    schedule_store cfg s i data_index ≠ .error (Abort.assertion 656)
      ∧ ∀ t w, schedule_store cfg s i data_index = .ok (t, w) → s.mem_sched t w := by
  constructor
  · unfold schedule_store
    cases hi : s.ROB[i]? with
    | none => simp
    | some rob_it =>
      simp only
      cases hd : rob_it.destination_memory[data_index]? with
      | none => simp
      | some dmem =>
        simp only
        by_cases hadd : (!dmem.added) = true
        · rw [if_pos hadd]
          cases hsq : find_invalid s.SQ with
          | none => simp
          | some sq_it =>
            simp only
            have hcases : s.STA = [] ∨ ∃ x rest, s.STA = x :: rest := by
              cases s.STA with
              | nil => exact Or.inl rfl
              | cons x rest => exact Or.inr ⟨x, rest, rfl⟩
            rcases hcases with hsta | ⟨x, rest, hsta⟩
            · rw [hsta]; simp
            · rw [hsta]
              simp only
              by_cases hx : x = rob_it.instr_id
              · rw [if_pos hx]
                obtain ⟨hne, -⟩ := add_store_queue_ok cfg s i data_index rob_it hi sq_it hsq
                cases ha : add_store_queue cfg s i data_index with
                | error a =>
                  simp only
                  intro heq
                  simp only [Except.error.injEq] at heq
                  rw [heq] at ha
                  exact hne ha
                | ok s1 =>
                  simp only
                  cases s1.SQ[sq_it]? with
                  | none => simp
                  | some slot => simp
              · rw [if_neg hx]; simp
        · rw [if_neg hadd]; simp
  · intro t w ht
    rcases schedule_store_cases cfg s t i data_index w ht with ⟨h1, h2⟩
      | ⟨rob_it, dmem, sq_it, rest, slot, hi, -, -, hsq, hsta, ha, hrest, -, -, hw⟩
    · subst h1
      subst h2
      exact mem_sched_refl _
    · obtain ⟨-, h⟩ := add_store_queue_ok cfg s i data_index rob_it hi sq_it hsq
      obtain ⟨-, -, hframe, hrob⟩ := h t ha
      refine ⟨hframe, hrob, ?_⟩
      rw [hw, hsta, hrest]
      rfl

/-- The loop of `do_memory_scheduling` over the stores is a step of memory scheduling, and
it never fails the assertion of `add_store_queue`. -/
theorem schedule_stores_ok {β : Type} (cfg : StageConfig) (i : Nat) :
    ∀ (n data_index : Nat) (s : Core β),
      schedule_stores cfg i n data_index s ≠ .error (Abort.assertion 656)
        ∧ ∀ t w, schedule_stores cfg i n data_index s = .ok (t, w) → s.mem_sched t w := by
  intro n
  induction n with
  | zero =>
    intro k s
    simp only [schedule_stores]
    refine ⟨by simp, ?_⟩
    intro t w ht
    simp only [Except.ok.injEq, Prod.mk.injEq] at ht
    obtain ⟨h1, h2⟩ := ht
    subst h1
    subst h2
    exact mem_sched_refl _
  | succ n ih =>
    intro k s
    rw [schedule_stores]
    obtain ⟨hne, hok⟩ := schedule_store_ok cfg s i k
    cases h1 : schedule_store cfg s i k with
    | error a =>
      simp only
      refine ⟨?_, fun t w ht => absurd ht (by simp)⟩
      intro heq
      simp only [Except.error.injEq] at heq
      rw [heq] at h1
      exact hne h1
    | ok p =>
      obtain ⟨s1, w1⟩ := p
      simp only
      obtain ⟨ihne, ihok⟩ := ih (k + 1) s1
      cases h2 : schedule_stores cfg i n (k + 1) s1 with
      | error a =>
        simp only
        refine ⟨?_, fun t w ht => absurd ht (by simp)⟩
        intro heq
        simp only [Except.error.injEq] at heq
        rw [heq] at h2
        exact ihne h2
      | ok q =>
        obtain ⟨s2, w2⟩ := q
        simp only
        refine ⟨by simp, ?_⟩
        intro t w ht
        simp only [Except.ok.injEq, Prod.mk.injEq] at ht
        obtain ⟨e1, e2⟩ := ht
        subst e1
        subst e2
        exact mem_sched_trans s s1 s2 w1 w2 (hok s1 w1 h1) (ihok s2 w2 h2)

/-- `do_memory_scheduling` on a memory instruction that is scheduled and waits for no
producer: the invariant of the back end is kept, and the ids written into the store queue
are popped from the front of `STA`. -/
theorem do_memory_scheduling_ok {β : Type} (cfg : StageConfig) (s : Core β) (i : Nat)
    (h : backend_ok s.ROB s.ROB_front s.ready_to_execute none)
    (rob_it : ooo_model_instr) (hi : s.ROB[i]? = some rob_it)
    (hn : rob_it.num_reg_dependent = 0) (hs : rob_it.scheduled = INFLIGHT) :
    do_memory_scheduling cfg s i ≠ .error (Abort.assertion 656)
      ∧ ∀ t w, do_memory_scheduling cfg s i = .ok (t, w) →
          s.back_step t ∧ s.STA = w ++ t.STA ∧ t.ROB.length = s.ROB.length
            ∧ backend_ok t.ROB t.ROB_front t.ready_to_execute none := by
  unfold do_memory_scheduling
  rw [hi]
  simp only
  cases h1 : schedule_loads cfg i rob_it.source_memory.length 0 s with
  | error a =>
    simp only
    have := schedule_loads_never_656 cfg i _ _ s a h1
    exact ⟨fun heq => this (by simpa using heq), fun t w ht => absurd ht (by simp)⟩
  | ok s1 =>
    simp only
    have hm1 := schedule_loads_ok cfg i _ _ s s1 h1
    obtain ⟨hne, hok⟩ := schedule_stores_ok cfg i rob_it.destination_memory.length 0 s1
    cases h2 : schedule_stores cfg i rob_it.destination_memory.length 0 s1 with
    | error a =>
      simp only
      refine ⟨?_, fun t w ht => absurd ht (by simp)⟩
      intro heq
      simp only [Except.error.injEq] at heq
      rw [heq] at h2
      exact hne h2
    | ok q =>
      obtain ⟨s2, written⟩ := q
      simp only
      have hm := mem_sched_trans s s1 s2 [] written hm1 (hok s2 written h2)
      rw [List.nil_append] at hm
      obtain ⟨hb, hrte, hlen⟩ := mem_sched_frame s s2 written hm
      have hok2 : backend_ok s2.ROB s2.ROB_front s2.ready_to_execute none := by
        rw [hb.front, hrte]
        exact backend_ok_mem_only _ _ _ _ _ h hm.rob
      cases he : s2.ROB[i]? with
      | none =>
        simp only
        exact ⟨by simp, fun t w ht => absurd ht (by simp)⟩
      | some e =>
        simp only
        have hrel := mem_only_fields _ _ (forall₂_getElem? _ _ _ hm.rob i rob_it e hi he)
        by_cases hall : e.source_memory.all (fun x => x.added) = true
            ∧ e.destination_memory.all (fun x => x.added) = true
        · rw [if_pos hall]
          refine ⟨by simp, ?_⟩
          intro t w ht
          simp only [Except.ok.injEq, Prod.mk.injEq] at ht
          obtain ⟨e1, e2⟩ := ht
          subst e1
          subst e2
          obtain ⟨e', he'⟩ : ∃ e' : ooo_model_instr, e' = { e with
              scheduled := COMPLETED,
              executed := if e.executed = 0 then INFLIGHT else e.executed } := ⟨_, rfl⟩
          rw [← he']
          have f1 : e'.scheduled = COMPLETED := by rw [he']
          have f2 : e'.num_reg_dependent = 0 := by
            rw [he']
            exact hrel.2.2.2.1.trans hn
          have f3 : e'.instr_id = e.instr_id := by rw [he']
          have f4 : e'.registers_instrs_depend_on_me = e.registers_instrs_depend_on_me := by
            rw [he']
          have hb2 : s2.back_step { s2 with ROB := s2.ROB.set i e' } :=
            ⟨rfl, rfl, rfl, map_set_same (fun a => a.instr_id) s2.ROB i e e' he f3⟩
          refine ⟨back_step_trans _ _ _ hb hb2, hm.sta, ?_, ?_⟩
          · show (s2.ROB.set i e').length = _
            rw [List.length_set]
            exact hlen
          · show backend_ok (s2.ROB.set i e') s2.ROB_front s2.ready_to_execute none
            refine backend_ok_set _ _ _ _ hok2 i e e' he f4 (fun _ => ?_) (fun _ => ⟨f1, f2⟩) ?_
            · rw [f1]; decide
            · intro hmem
              obtain ⟨a, ha, -, ha2, -⟩ := hok2.rte_entries _ hmem
              rw [rob_get_add, he] at ha
              have := Option.some.inj ha
              subst this
              rw [hrel.2.1, hs] at ha2
              exact absurd ha2 (by decide)
        · rw [if_neg hall]
          refine ⟨by simp, ?_⟩
          intro t w ht
          simp only [Except.ok.injEq, Prod.mk.injEq] at ht
          obtain ⟨e1, e2⟩ := ht
          subst e1
          subst e2
          exact ⟨hb, hm.sta, hlen, hok2⟩

/-- The invariant of the runs survives a step of the back end that keeps the length of the
ROB and the invariant of the back end and pops `w` from the front of `STA`. -/
theorem inv_of_back_step {β : Type} (cfg : StageConfig) (s t : Core β)
    (pushed written w : List Nat) (h : s.inv cfg pushed written) (hb : s.back_step t)
    (hsta : s.STA = w ++ t.STA) (hlen : t.ROB.length = s.ROB.length)
    (hok : backend_ok t.ROB t.ROB_front t.ready_to_execute none) :
    t.inv cfg pushed (written ++ w) := by
  have hids : (t.ROB ++ t.queue).map (fun a => a.instr_id)
      = (s.ROB ++ s.queue).map (fun a => a.instr_id) := by
    rw [List.map_append, List.map_append, hb.ids, hb.queue]
  constructor
  · rw [hids]
    exact h.ids_sorted
  · intro a ha
    have hmem : a.instr_id ∈ (t.ROB ++ t.queue).map (fun a => a.instr_id) :=
      List.mem_map_of_mem _ ha
    rw [hids, List.mem_map] at hmem
    obtain ⟨b, hb1, hb2⟩ := hmem
    rw [hb.uid, ← hb2]
    exact h.ids_lt b hb1
  · intro a ha
    rw [hb.queue] at ha
    exact h.queue_fresh a ha
  · rw [hlen]
    exact h.rob_size
  · exact hok
  · rw [h.sta_log, hsta, List.append_assoc]
  · have := h.sta_sorted
    rw [hsta] at this
    exact (List.pairwise_append.mp this).2.1
  · intro x hx
    rw [hb.uid]
    exact h.sta_lt x (by rw [hsta]; exact List.mem_append_right _ hx)

/-- The loop of `schedule_memory_instruction` keeps the invariant of the back end, never
fails the assertion of `add_store_queue`, and pops the ids that it writes into the store
queue from the front of `STA`. -/
theorem schedule_memory_loop_ok {β : Type} (cfg : StageConfig) :
    ∀ (n i bw : Nat) (s : Core β),
      backend_ok s.ROB s.ROB_front s.ready_to_execute none →
      schedule_memory_loop cfg n i bw s ≠ .error (Abort.assertion 656)
        ∧ ∀ t w, schedule_memory_loop cfg n i bw s = .ok (t, w) →
            s.back_step t ∧ s.STA = w ++ t.STA ∧ t.ROB.length = s.ROB.length
              ∧ backend_ok t.ROB t.ROB_front t.ready_to_execute none := by
  intro n
  induction n with
  | zero =>
    intro i bw s h
    simp only [schedule_memory_loop]
    refine ⟨by simp, ?_⟩
    intro t w ht
    simp only [Except.ok.injEq, Prod.mk.injEq] at ht
    obtain ⟨e1, e2⟩ := ht
    subst e1
    subst e2
    exact ⟨back_step_refl _, rfl, rfl, h⟩
  | succ n ih =>
    intro i bw s h
    rw [schedule_memory_loop]
    by_cases hbw : bw = 0
    · rw [if_pos hbw]
      refine ⟨by simp, ?_⟩
      intro t w ht
      simp only [Except.ok.injEq, Prod.mk.injEq] at ht
      obtain ⟨e1, e2⟩ := ht
      subst e1
      subst e2
      exact ⟨back_step_refl _, rfl, rfl, h⟩
    · rw [if_neg hbw]
      cases hi : s.ROB[i]? with
      | none =>
        simp only
        exact ⟨by simp, fun t w ht => absurd ht (by simp)⟩
      | some rob_it =>
        simp only
        have hstep : (if rob_it.is_memory ≠ 0 ∧ rob_it.num_reg_dependent = 0
              ∧ rob_it.scheduled = INFLIGHT then do_memory_scheduling cfg s i
            else .ok (s, [])) ≠ .error (Abort.assertion 656)
            ∧ ∀ t w, (if rob_it.is_memory ≠ 0 ∧ rob_it.num_reg_dependent = 0
              ∧ rob_it.scheduled = INFLIGHT then do_memory_scheduling cfg s i
            else .ok (s, [])) = .ok (t, w) →
              s.back_step t ∧ s.STA = w ++ t.STA ∧ t.ROB.length = s.ROB.length
                ∧ backend_ok t.ROB t.ROB_front t.ready_to_execute none := by
          by_cases hc : rob_it.is_memory ≠ 0 ∧ rob_it.num_reg_dependent = 0
              ∧ rob_it.scheduled = INFLIGHT
          · rw [if_pos hc]
            exact do_memory_scheduling_ok cfg s i h rob_it hi hc.2.1 hc.2.2
          · rw [if_neg hc]
            refine ⟨by simp, ?_⟩
            intro t w ht
            simp only [Except.ok.injEq, Prod.mk.injEq] at ht
            obtain ⟨e1, e2⟩ := ht
            subst e1
            subst e2
            exact ⟨back_step_refl _, rfl, rfl, h⟩
        generalize (if rob_it.is_memory ≠ 0 ∧ rob_it.num_reg_dependent = 0
              ∧ rob_it.scheduled = INFLIGHT then do_memory_scheduling cfg s i
            else .ok (s, [])) = r at hstep ⊢
        obtain ⟨hne, hok⟩ := hstep
        cases r with
        | error a =>
          simp only
          refine ⟨?_, fun t w ht => absurd ht (by simp)⟩
          intro heq
          simp only [Except.error.injEq] at heq
          rw [heq] at hne
          exact hne rfl
        | ok p =>
          obtain ⟨s1, w1⟩ := p
          simp only
          obtain ⟨hb, hsta, hlen, hok1⟩ := hok s1 w1 rfl
          cases he : s1.ROB[i]? with
          | none =>
            simp only
            exact ⟨by simp, fun t w ht => absurd ht (by simp)⟩
          | some e =>
            simp only
            obtain ⟨ihne, ihok⟩ := ih (i + 1)
              (if e.executed = 0 then bw - 1 else bw) s1 hok1
            cases h2 : schedule_memory_loop cfg n (i + 1)
                (if e.executed = 0 then bw - 1 else bw) s1 with
            | error a =>
              simp only
              refine ⟨?_, fun t w ht => absurd ht (by simp)⟩
              intro heq
              simp only [Except.error.injEq] at heq
              rw [heq] at h2
              exact ihne h2
            | ok q =>
              obtain ⟨s2, w2⟩ := q
              simp only
              refine ⟨by simp, ?_⟩
              intro t w ht
              simp only [Except.ok.injEq, Prod.mk.injEq] at ht
              obtain ⟨e1, e2⟩ := ht
              subst e1
              subst e2
              obtain ⟨hb2, hsta2, hlen2, hok2⟩ := ihok s2 w2 h2
              refine ⟨back_step_trans _ _ _ hb hb2, ?_, hlen2.trans hlen, hok2⟩
              rw [hsta, hsta2, List.append_assoc]

/-- The invariant of the back end survives the retirement of `k` completed entries. -/
theorem backend_ok_drop (rte : List Nat) :
    ∀ (k : Nat) (rob : List ooo_model_instr) (front : Nat),
      backend_ok rob front rte none → k ≤ rob.length →
      (∀ a, a ∈ rob.take k → a.executed = COMPLETED) →
      backend_ok (rob.drop k) (front + k) rte none := by
  intro k
  induction k with
  | zero =>
    intro rob front h _ _
    exact h
  | succ k ih =>
    intro rob front h hk hall
    cases rob with
    | nil => simp at hk
    | cons x rest =>
      have h1 := backend_ok_retire x rest front rte h
        (hall x (by simp))
      have h2 := ih rest (front + 1) h1 (by simpa using hk)
        (fun a ha => hall a (by
          rw [List.take_succ_cons]
          exact List.mem_cons_of_mem _ ha))
      rw [List.drop_succ_cons]
      have e : front + (k + 1) = front + 1 + k := by omega
      rw [e]
      exact h2

/-- The loop of `retire_rob` removes completed entries from the head of the ROB, and nothing
else; the entry left at the head may have had destination operands written back. -/
theorem retire_loop_moves {β : Type} :
    ∀ (bw room : Nat) (s t : Core β), retire_loop bw room s = .ok t →
      ∃ k, k ≤ s.ROB.length
        ∧ List.Forall₂ ooo_model_instr.mem_only (s.ROB.drop k) t.ROB
        ∧ t.ROB_front = s.ROB_front + k
        ∧ (∀ a, a ∈ s.ROB.take k → a.executed = COMPLETED)
        ∧ t = { s with ROB := t.ROB, ROB_front := t.ROB_front, SQ := t.SQ,
                       num_retired := t.num_retired, L1D_WQ := t.L1D_WQ } := by
  intro bw
  induction bw with
  | zero =>
    intro room s t ht
    simp only [retire_loop, Except.ok.injEq] at ht
    subst ht
    exact ⟨0, Nat.zero_le _, forall₂_self _ mem_only_refl _, rfl, by simp, rfl⟩
  | succ bw ih =>
    intro room s t ht
    rw [retire_loop] at ht
    have hcases : s.ROB = [] ∨ ∃ x rest, s.ROB = x :: rest := by
      cases s.ROB with
      | nil => exact Or.inl rfl
      | cons x rest => exact Or.inr ⟨x, rest, rfl⟩
    rcases hcases with hrob | ⟨x, rest, hrob⟩
    · rw [hrob] at ht
      simp only [Except.ok.injEq] at ht
      subst ht
      exact ⟨0, Nat.zero_le _, forall₂_self _ mem_only_refl _, rfl, by simp, rfl⟩
    · rw [hrob] at ht
      simp only at ht
      by_cases hx : x.executed = COMPLETED
      · rw [if_pos hx] at ht
        cases hr : retire_stores s.cpu x.destination_memory s.SQ room with
        | error a => rw [hr] at ht; exact absurd ht (by simp)
        | ok r =>
          rw [hr] at ht
          simp only at ht
          by_cases hall : r.2.2.2.1 = true
          · rw [if_pos hall] at ht
            obtain ⟨k, hk, hf, hfront, hdone, hframe⟩ := ih _ _ t ht
            refine ⟨k + 1, ?_, ?_, ?_, ?_, ?_⟩
            · rw [hrob]
              simpa using hk
            · rw [hrob, List.drop_succ_cons]
              exact hf
            · rw [hfront]
              show s.ROB_front + 1 + k = s.ROB_front + (k + 1)
              omega
            · intro a ha
              rw [hrob, List.take_succ_cons, List.mem_cons] at ha
              rcases ha with ha | ha
              · rw [ha]; exact hx
              · exact hdone a ha
            · rw [hframe]
          · rw [if_neg hall] at ht
            simp only [Except.ok.injEq] at ht
            subst ht
            refine ⟨0, Nat.zero_le _, ?_, rfl, by simp, rfl⟩
            rw [List.drop_zero, hrob]
            exact List.Forall₂.cons rfl (forall₂_self _ mem_only_refl _)
      · rw [if_neg hx] at ht
        simp only [Except.ok.injEq] at ht
        subst ht
        exact ⟨0, Nat.zero_le _, forall₂_self _ mem_only_refl _, rfl, by simp, rfl⟩

/-- `retire_rob` keeps the invariant of the runs. -/
theorem retire_rob_inv {β : Type} (cfg : StageConfig) (room : Nat) (s t : Core β)
    (pushed written : List Nat) (h : s.inv cfg pushed written)
    (ht : retire_rob cfg room s = .ok t) : t.inv cfg pushed written := by
  obtain ⟨k, hk, hf, hfront, hdone, hframe⟩ := retire_loop_moves _ _ s t ht
  have hq : t.queue = s.queue := by rw [hframe]; rfl
  have huid : t.instr_unique_id = s.instr_unique_id := by rw [hframe]
  have hrte : t.ready_to_execute = s.ready_to_execute := by rw [hframe]
  have hsta : t.STA = s.STA := by rw [hframe]
  have hids : t.ROB.map (fun a => a.instr_id) = (s.ROB.drop k).map (fun a => a.instr_id) :=
    mem_only_ids _ _ hf
  have hsub : ((t.ROB ++ t.queue).map (fun a => a.instr_id)).Sublist
      ((s.ROB ++ s.queue).map (fun a => a.instr_id)) := by
    rw [List.map_append, List.map_append, hids, hq]
    exact List.Sublist.append_right
      (List.Sublist.map _ (List.drop_sublist k s.ROB)) _
  constructor
  · exact h.ids_sorted.sublist hsub
  · intro a ha
    have hmem : a.instr_id ∈ (s.ROB ++ s.queue).map (fun a => a.instr_id) :=
      hsub.subset (List.mem_map_of_mem _ ha)
    rw [List.mem_map] at hmem
    obtain ⟨b, hb1, hb2⟩ := hmem
    rw [huid, ← hb2]
    exact h.ids_lt b hb1
  · intro a ha
    rw [hq] at ha
    exact h.queue_fresh a ha
  · rw [← hf.length_eq, List.length_drop]
    exact Nat.le_trans (Nat.sub_le _ _) h.rob_size
  · rw [hfront, hrte]
    exact backend_ok_mem_only _ _ _ _ _
      (backend_ok_drop _ k s.ROB s.ROB_front h.backend hk hdone) hf
  · rw [hsta]; exact h.sta_log
  · rw [hsta]; exact h.sta_sorted
  · rw [hsta, huid]; exact h.sta_lt

/-- The invariant of the back end survives the dispatch of fresh instructions. -/
theorem backend_ok_append_fresh (front : Nat) (rte : List Nat) :
    ∀ (l rob : List ooo_model_instr), backend_ok rob front rte none →
      (∀ a, a ∈ l → a.fresh) → backend_ok (rob ++ l) front rte none := by
  intro l
  induction l with
  | nil =>
    intro rob h _
    rw [List.append_nil]
    exact h
  | cons x rest ih =>
    intro rob h hl
    have := ih (rob ++ [x]) (backend_ok_append rob front rte h x (hl x (List.mem_cons_self _ _)))
      (fun a ha => hl a (List.mem_cons_of_mem _ ha))
    rw [List.append_assoc] at this
    exact this

/-- The loop of `dispatch_instruction` moves entries from the front of `DISPATCH_BUFFER` to
the back of the ROB, which it does not fill beyond `ROB_SIZE`. -/
theorem dispatch_loop_moves {β : Type} (cfg : StageConfig) :
    ∀ (bw : Nat) (s : Core β),
      ∃ k, (dispatch_loop cfg bw s).ROB = s.ROB ++ (s.DISPATCH_BUFFER.take k).map (fun e => e.item)
        ∧ (dispatch_loop cfg bw s).DISPATCH_BUFFER = s.DISPATCH_BUFFER.drop k
        ∧ (s.ROB.length ≤ cfg.ROB_SIZE → (dispatch_loop cfg bw s).ROB.length ≤ cfg.ROB_SIZE)
        ∧ dispatch_loop cfg bw s = { s with
            ROB := (dispatch_loop cfg bw s).ROB
            DISPATCH_BUFFER := (dispatch_loop cfg bw s).DISPATCH_BUFFER } := by
  intro bw
  induction bw with
  | zero =>
    intro s
    exact ⟨0, by simp [dispatch_loop], by simp [dispatch_loop], fun h => h, rfl⟩
  | succ bw ih =>
    intro s
    rw [dispatch_loop]
    by_cases hc : has_ready s.DISPATCH_BUFFER = true ∧ s.ROB.length ≠ cfg.ROB_SIZE
    · rw [if_pos hc]
      have hcases : s.DISPATCH_BUFFER = [] ∨ ∃ x rest, s.DISPATCH_BUFFER = x :: rest := by
        cases s.DISPATCH_BUFFER with
        | nil => exact Or.inl rfl
        | cons x rest => exact Or.inr ⟨x, rest, rfl⟩
      rcases hcases with hd | ⟨x, rest, hd⟩
      · rw [hd]
        exact ⟨0, by simp, by simp [hd], fun h => h, rfl⟩
      · rw [hd]
        simp only
        obtain ⟨k, h1, h2, h3, h4⟩ :=
          ih { s with ROB := s.ROB ++ [x.item], DISPATCH_BUFFER := rest }
        refine ⟨k + 1, ?_, ?_, ?_, ?_⟩
        · rw [h1]
          simp [List.append_assoc]
        · rw [h2]
          simp
        · intro hsz
          apply h3
          show (s.ROB ++ [x.item]).length ≤ cfg.ROB_SIZE
          rw [List.length_append, List.length_singleton]
          have := hc.2
          omega
        · rw [h4]
    · rw [if_neg hc]
      exact ⟨0, by simp, by simp, fun h => h, rfl⟩

/-- The items of a delay queue after `operate`. -/
theorem delay_operate_items {α : Type} (q : List (Delayed α)) :
    (delay_operate q).map (fun e => e.item) = q.map (fun e => e.item) := by
  unfold delay_operate
  rw [List.map_map]
  rfl

/-- `dispatch_instruction` moves entries from the front of `DISPATCH_BUFFER` to the back of
the ROB. -/
theorem dispatch_instruction_moves {β : Type} (cfg : StageConfig) (s : Core β) :
    ∃ k, (dispatch_instruction cfg s).ROB
          = s.ROB ++ (s.DISPATCH_BUFFER.take k).map (fun e => e.item)
      ∧ (dispatch_instruction cfg s).DISPATCH_BUFFER.map (fun e => e.item)
          = (s.DISPATCH_BUFFER.drop k).map (fun e => e.item)
      ∧ (s.ROB.length ≤ cfg.ROB_SIZE → (dispatch_instruction cfg s).ROB.length ≤ cfg.ROB_SIZE)
      ∧ dispatch_instruction cfg s = { s with
          ROB := (dispatch_instruction cfg s).ROB
          DISPATCH_BUFFER := (dispatch_instruction cfg s).DISPATCH_BUFFER } := by
  unfold dispatch_instruction
  by_cases he : s.DISPATCH_BUFFER = []
  · rw [if_pos he]
    exact ⟨0, by simp, by simp, fun h => h, rfl⟩
  · rw [if_neg he]
    simp only
    obtain ⟨k, h1, h2, h3, h4⟩ := dispatch_loop_moves cfg cfg.DISPATCH_WIDTH s
    refine ⟨k, h1, ?_, h3, ?_⟩
    · rw [delay_operate_items, h2]
    · rw [h4]

/-- `dispatch_instruction` keeps the invariant of the runs. -/
theorem dispatch_instruction_inv {β : Type} (cfg : StageConfig) (s : Core β)
    (pushed written : List Nat) (h : s.inv cfg pushed written) :
    (dispatch_instruction cfg s).inv cfg pushed written := by
  obtain ⟨k, h1, h2, h3, h4⟩ := dispatch_instruction_moves cfg s
  generalize dispatch_instruction cfg s = t at h1 h2 h3 h4
  have huid : t.instr_unique_id = s.instr_unique_id := by rw [h4]
  have hrte : t.ready_to_execute = s.ready_to_execute := by rw [h4]
  have hsta : t.STA = s.STA := by rw [h4]
  have hfront : t.ROB_front = s.ROB_front := by rw [h4]
  have hdec : t.DECODE_BUFFER = s.DECODE_BUFFER := by rw [h4]
  have hif : t.IFETCH_BUFFER = s.IFETCH_BUFFER := by rw [h4]
  have hsplit : s.queue = (s.DISPATCH_BUFFER.take k).map (fun e => e.item) ++ t.queue := by
    have e : (s.DISPATCH_BUFFER.take k).map (fun e => e.item)
        ++ (s.DISPATCH_BUFFER.drop k).map (fun e => e.item)
        = s.DISPATCH_BUFFER.map (fun e => e.item) := by
      rw [← List.map_append, List.take_append_drop]
    unfold Core.queue
    rw [h2, hdec, hif, ← List.append_assoc, ← List.append_assoc, e]
  have hall : t.ROB ++ t.queue = s.ROB ++ s.queue := by
    rw [h1, hsplit, List.append_assoc]
  constructor
  · rw [hall]; exact h.ids_sorted
  · rw [hall, huid]; exact h.ids_lt
  · intro a ha
    exact h.queue_fresh a (by rw [hsplit]; exact List.mem_append_right _ ha)
  · exact h3 h.rob_size
  · rw [h1, hfront, hrte]
    refine backend_ok_append_fresh _ _ _ _ h.backend ?_
    intro a ha
    exact h.queue_fresh a (by rw [hsplit]; exact List.mem_append_left _ ha)
  · rw [hsta]; exact h.sta_log
  · rw [hsta]; exact h.sta_sorted
  · rw [hsta, huid]; exact h.sta_lt

/-- A step that changes nothing is a step of the front end. -/
theorem front_step_refl {β : Type} (s : Core β) : s.front_step s :=
  ⟨rfl, rfl, rfl, rfl, rfl, rfl⟩

/-- Steps of the front end compose. -/
theorem front_step_trans {β : Type} (s t u : Core β) (h1 : s.front_step t)
    (h2 : t.front_step u) : s.front_step u :=
  ⟨h2.rob.trans h1.rob, h2.front.trans h1.front, h2.rte.trans h1.rte, h2.sta.trans h1.sta,
    h2.uid.trans h1.uid, h2.queue.trans h1.queue⟩

/-- A step that keeps the back end and rewrites `IFETCH_BUFFER` without touching the ids and
the back-end fields of its instructions is a step of the front end. -/
theorem front_step_of_buffer {β : Type} (s t : Core β) (hrob : t.ROB = s.ROB)
    (hfront : t.ROB_front = s.ROB_front) (hrte : t.ready_to_execute = s.ready_to_execute)
    (hsta : t.STA = s.STA) (huid : t.instr_unique_id = s.instr_unique_id)
    (hdis : t.DISPATCH_BUFFER = s.DISPATCH_BUFFER) (hdec : t.DECODE_BUFFER = s.DECODE_BUFFER)
    (hbuf : t.IFETCH_BUFFER.map ooo_model_instr.backend
      = s.IFETCH_BUFFER.map ooo_model_instr.backend) : s.front_step t := by
  refine ⟨hrob, hfront, hrte, hsta, huid, ?_⟩
  unfold Core.queue
  simp only [List.map_append, hdis, hdec, hbuf]

/-- The invariant of the runs survives a step of the front end. -/
theorem inv_of_front_step {β : Type} (cfg : StageConfig) (s t : Core β)
    (pushed written : List Nat) (h : s.inv cfg pushed written) (hf : s.front_step t) :
    t.inv cfg pushed written := by
  have hids : t.queue.map (fun a => a.instr_id) = s.queue.map (fun a => a.instr_id) := by
    have := congrArg (List.map Prod.fst) hf.queue
    rw [List.map_map, List.map_map] at this
    exact this
  have hall : (t.ROB ++ t.queue).map (fun a => a.instr_id)
      = (s.ROB ++ s.queue).map (fun a => a.instr_id) := by
    rw [List.map_append, List.map_append, hf.rob, hids]
  constructor
  · rw [hall]; exact h.ids_sorted
  · intro a ha
    have hmem : a.instr_id ∈ (t.ROB ++ t.queue).map (fun a => a.instr_id) :=
      List.mem_map_of_mem _ ha
    rw [hall, List.mem_map] at hmem
    obtain ⟨b, hb1, hb2⟩ := hmem
    rw [hf.uid, ← hb2]
    exact h.ids_lt b hb1
  · intro a ha
    have hmem : a.backend ∈ t.queue.map ooo_model_instr.backend := List.mem_map_of_mem _ ha
    rw [hf.queue, List.mem_map] at hmem
    obtain ⟨b, hb1, hb2⟩ := hmem
    have hfr := h.queue_fresh b hb1
    unfold ooo_model_instr.backend at hb2
    simp only [Prod.mk.injEq] at hb2
    unfold ooo_model_instr.fresh at hfr ⊢
    rw [← hb2.2.1, ← hb2.2.2.1, ← hb2.2.2.2.1, ← hb2.2.2.2.2]
    exact hfr
  · rw [hf.rob]; exact h.rob_size
  · rw [hf.rob, hf.front, hf.rte]; exact h.backend
  · rw [hf.sta]; exact h.sta_log
  · rw [hf.sta]; exact h.sta_sorted
  · rw [hf.sta, hf.uid]; exact h.sta_lt

/-- A loop that rewrites entries of a buffer in place, without touching their ids and their
back-end fields, keeps those of the buffer. -/
theorem foldl_mark_backend (g : ooo_model_instr → ooo_model_instr)
    (hg : ∀ x, (g x).backend = x.backend) :
    ∀ (l : List Nat) (buf : List ooo_model_instr),
      (l.foldl (fun buffer i =>
          match buffer[i]? with
          | none => buffer
          | some x => buffer.set i (g x)) buf).map ooo_model_instr.backend
        = buf.map ooo_model_instr.backend := by
  intro l
  induction l with
  | nil => intro buf; rfl
  | cons i rest ih =>
    intro buf
    rw [List.foldl_cons, ih]
    cases hi : buf[i]? with
    | none => rfl
    | some x => exact map_set_same _ buf i x (g x) hi (hg x)

/-- `do_check_dib` is a step of the front end. -/
theorem do_check_dib_front {β : Type} (cfg : StageConfig) (s : Core β) (i : Nat) :
    s.front_step (do_check_dib cfg s i) := by
  unfold do_check_dib
  cases hi : s.IFETCH_BUFFER[i]? with
  | none => exact front_step_refl s
  | some instr =>
    simp only
    cases hd : dib_find cfg s.DIB instr.ip with
    | none => exact front_step_refl s
    | some way =>
      simp only
      exact front_step_of_buffer _ _ rfl rfl rfl rfl rfl rfl rfl
        (map_set_same _ s.IFETCH_BUFFER i instr _ hi rfl)

/-- A loop of steps of the front end is a step of the front end. -/
theorem foldl_front {β α : Type} (f : Core β → α → Core β)
    (hf : ∀ (s : Core β) (a : α), s.front_step (f s a)) :
    ∀ (l : List α) (s : Core β), s.front_step (l.foldl f s) := by
  intro l
  induction l with
  | nil => intro s; exact front_step_refl s
  | cons a rest ih =>
    intro s
    rw [List.foldl_cons]
    exact front_step_trans _ _ _ (hf s a) (ih (f s a))

/-- `check_dib` is a step of the front end. -/
theorem check_dib_front {β : Type} (cfg : StageConfig) (s : Core β) :
    s.front_step (check_dib cfg s) :=
  foldl_front _ (do_check_dib_front cfg) _ s

/-- `do_translate_fetch` is a step of the front end. -/
theorem do_translate_fetch_front {β : Type} (s : Core β) (b e : Nat) (rq_index : Int) :
    s.front_step (do_translate_fetch s b e rq_index) := by
  unfold do_translate_fetch
  cases hb : s.IFETCH_BUFFER[b]? with
  | none => exact front_step_refl s
  | some first =>
    simp only
    by_cases hr : rq_index ≠ -2
    · rw [if_pos hr]
      exact front_step_of_buffer _ _ rfl rfl rfl rfl rfl rfl rfl
        (foldl_mark_backend (fun x => { x with translated := INFLIGHT }) (fun _ => rfl) _ _)
    · rw [if_neg hr]
      exact front_step_refl s

/-- `translate_fetch` is a step of the front end. -/
theorem translate_fetch_front {β : Type} (s : Core β) (rq_index : Int) :
    s.front_step (translate_fetch s rq_index) := by
  unfold translate_fetch
  simp only
  split_ifs
  · exact front_step_refl s
  · exact do_translate_fetch_front s _ _ rq_index
  · exact front_step_refl s
  · exact front_step_refl s

/-- `do_fetch_instruction` is a step of the front end. -/
theorem do_fetch_instruction_front {β : Type} (s : Core β) (b e : Nat) (rq_index : Int) :
    s.front_step (do_fetch_instruction s b e rq_index) := by
  unfold do_fetch_instruction
  cases hb : s.IFETCH_BUFFER[b]? with
  | none => exact front_step_refl s
  | some first =>
    simp only
    by_cases hr : rq_index ≠ -2
    · rw [if_pos hr]
      exact front_step_of_buffer _ _ rfl rfl rfl rfl rfl rfl rfl
        (foldl_mark_backend (fun x => { x with fetched := INFLIGHT }) (fun _ => rfl) _ _)
    · rw [if_neg hr]
      exact front_step_refl s

/-- The resume test of `fetch_instruction` is a step of the front end. -/
theorem resume_fetch_front {β : Type} (s : Core β) :
    s.front_step { s with toO3_CPU := resume_fetch s.toO3_CPU } := by
  unfold resume_fetch
  split_ifs
  · exact ⟨rfl, rfl, rfl, rfl, rfl, rfl⟩
  · exact ⟨rfl, rfl, rfl, rfl, rfl, rfl⟩

/-- `fetch_instruction` is a step of the front end. -/
theorem fetch_instruction_front {β : Type} (s : Core β) (rq_index : Int) :
    s.front_step (fetch_instruction s rq_index) := by
  unfold fetch_instruction
  simp only
  have h := resume_fetch_front s
  split_ifs
  · exact h
  · exact front_step_trans _ _ _ h (do_fetch_instruction_front _ _ _ rq_index)
  · exact h
  · exact h

/-- The inner loop of `handle_memory_return` over the dependents of an answer of the ITLB
keeps the ids and the back-end fields of the instructions of the buffer. -/
theorem itlb_return_loop_backend (front : Nat) (itlb_entry : PACKET) :
    ∀ (l : List Nat) (buffer : List ooo_model_instr) (bw : Nat),
      (itlb_return_loop front itlb_entry l buffer bw).1.map ooo_model_instr.backend
        = buffer.map ooo_model_instr.backend := by
  intro l
  induction l with
  | nil => intro buffer bw; rfl
  | cons it rest ih =>
    intro buffer bw
    rw [itlb_return_loop]
    by_cases hbw : bw = 0
    · rw [if_pos hbw]
    · rw [if_neg hbw]
      cases hx : (if front ≤ it then buffer[it - front]? else none) with
      | none => exact ih buffer bw
      | some x =>
        simp only
        have hget : buffer[it - front]? = some x := by
          by_cases hle : front ≤ it
          · rw [if_pos hle] at hx; exact hx
          · rw [if_neg hle] at hx; exact absurd hx (by simp)
        split_ifs
        · rw [ih]
          exact map_set_same _ buffer _ x _ hget rfl
        · exact ih buffer bw

/-- The loop of `handle_memory_return` over the answers of the ITLB is a step of the front
end. -/
theorem itlb_return_front {β : Type} :
    ∀ (to_read bw : Nat) (s : Core β), s.front_step (itlb_return to_read bw s).1 := by
  intro to_read
  induction to_read with
  | zero => intro bw s; exact front_step_refl s
  | succ n ih =>
    intro bw s
    rw [itlb_return]
    by_cases hbw : bw = 0
    · rw [if_pos hbw]; exact front_step_refl s
    · rw [if_neg hbw]
      have hcases : s.ITLB_PROCESSED = [] ∨ ∃ x rest, s.ITLB_PROCESSED = x :: rest := by
        cases s.ITLB_PROCESSED with
        | nil => exact Or.inl rfl
        | cons x rest => exact Or.inr ⟨x, rest, rfl⟩
      rcases hcases with hp | ⟨x, rest, hp⟩
      · rw [hp]; exact front_step_refl s
      · rw [hp]
        simp only
        refine front_step_trans _ _ _ ?_ (ih _ _)
        exact front_step_of_buffer _ _ rfl rfl rfl rfl rfl rfl rfl
          (itlb_return_loop_backend _ _ _ _ _)

/-- The inner loop of `handle_memory_return` over the dependents of an answer of the L1I
keeps the ids and the back-end fields of the instructions of the buffer. -/
theorem l1i_return_loop_backend (front : Nat) (l1i_entry : PACKET) :
    ∀ (l : List Nat) (buffer : List ooo_model_instr) (bw : Nat),
      (l1i_return_loop front l1i_entry l buffer bw).1.map ooo_model_instr.backend
        = buffer.map ooo_model_instr.backend := by
  intro l
  induction l with
  | nil => intro buffer bw; rfl
  | cons it rest ih =>
    intro buffer bw
    rw [l1i_return_loop]
    by_cases hbw : bw = 0
    · rw [if_pos hbw]
    · rw [if_neg hbw]
      cases hx : (if front ≤ it then buffer[it - front]? else none) with
      | none => exact ih buffer bw
      | some x =>
        simp only
        have hget : buffer[it - front]? = some x := by
          by_cases hle : front ≤ it
          · rw [if_pos hle] at hx; exact hx
          · rw [if_neg hle] at hx; exact absurd hx (by simp)
        split_ifs
        · rw [ih]
          exact map_set_same _ buffer _ x _ hget rfl
        · exact ih buffer bw

/-- The loop of `handle_memory_return` over the answers of the L1I is a step of the front
end. -/
theorem l1i_return_front {β : Type} :
    ∀ (to_read bw : Nat) (s : Core β), s.front_step (l1i_return to_read bw s).1 := by
  intro to_read
  induction to_read with
  | zero => intro bw s; exact front_step_refl s
  | succ n ih =>
    intro bw s
    rw [l1i_return]
    by_cases hbw : bw = 0
    · rw [if_pos hbw]; exact front_step_refl s
    · rw [if_neg hbw]
      have hcases : s.L1I_PROCESSED = [] ∨ ∃ x rest, s.L1I_PROCESSED = x :: rest := by
        cases s.L1I_PROCESSED with
        | nil => exact Or.inl rfl
        | cons x rest => exact Or.inr ⟨x, rest, rfl⟩
      rcases hcases with hp | ⟨x, rest, hp⟩
      · rw [hp]; exact front_step_refl s
      · rw [hp]
        simp only
        refine front_step_trans _ _ _ ?_ (ih _ _)
        exact front_step_of_buffer _ _ rfl rfl rfl rfl rfl rfl rfl
          (l1i_return_loop_backend _ _ _ _ _)

/-- The instruction side of `handle_memory_return` is a step of the front end. -/
theorem handle_memory_return_instr_front {β : Type} (cfg : StageConfig) (s : Core β) :
    s.front_step (handle_memory_return_instr cfg s) :=
  front_step_trans _ _ _ (itlb_return_front _ _ s) (l1i_return_front _ _ _)

/-- An iteration of the loop of `promote_to_decode` moves the front of `IFETCH_BUFFER` to the
back of `DECODE_BUFFER`. -/
theorem promote_step_some {β : Type} (cfg : StageConfig) (wc : Bool) (s s1 : Core β)
    (h : promote_step cfg wc s = some s1) :
    ∃ front rest, s.IFETCH_BUFFER = front :: rest
      ∧ s1.DECODE_BUFFER.map (fun e => e.item) = s.DECODE_BUFFER.map (fun e => e.item) ++ [front]
      ∧ s1.IFETCH_BUFFER = rest
      ∧ s1 = { s with DECODE_BUFFER := s1.DECODE_BUFFER, IFETCH_BUFFER := s1.IFETCH_BUFFER,
                      IFETCH_front := s1.IFETCH_front } := by
  unfold promote_step at h
  have hcases : s.IFETCH_BUFFER = [] ∨ ∃ x rest, s.IFETCH_BUFFER = x :: rest := by
    cases s.IFETCH_BUFFER with
    | nil => exact Or.inl rfl
    | cons x rest => exact Or.inr ⟨x, rest, rfl⟩
  rcases hcases with hb | ⟨x, rest, hb⟩
  · rw [hb] at h
    exact absurd h (by simp)
  · rw [hb] at h
    simp only at h
    by_cases hc : s.DECODE_BUFFER.length ≠ cfg.DECODE_SIZE ∧ x.translated = COMPLETED
        ∧ x.fetched = COMPLETED
    · rw [if_pos hc] at h
      simp only [Option.some.injEq] at h
      subst h
      exact ⟨x, rest, hb, by simp, rfl, rfl⟩
    · rw [if_neg hc] at h
      exact absurd h (by simp)

/-- The loop of `promote_to_decode` moves entries from the front of `IFETCH_BUFFER` to the
back of `DECODE_BUFFER`. -/
theorem promote_loop_moves {β : Type} (cfg : StageConfig) (wc : Bool) :
    ∀ (bw : Nat) (s : Core β),
      ∃ k, (promote_loop cfg wc bw s).DECODE_BUFFER.map (fun e => e.item)
            = s.DECODE_BUFFER.map (fun e => e.item) ++ s.IFETCH_BUFFER.take k
        ∧ (promote_loop cfg wc bw s).IFETCH_BUFFER = s.IFETCH_BUFFER.drop k
        ∧ promote_loop cfg wc bw s = { s with
            DECODE_BUFFER := (promote_loop cfg wc bw s).DECODE_BUFFER
            IFETCH_BUFFER := (promote_loop cfg wc bw s).IFETCH_BUFFER
            IFETCH_front := (promote_loop cfg wc bw s).IFETCH_front } := by
  intro bw
  induction bw with
  | zero =>
    intro s
    exact ⟨0, by simp [promote_loop], by simp [promote_loop], rfl⟩
  | succ bw ih =>
    intro s
    rw [promote_loop]
    cases hs : promote_step cfg wc s with
    | none => exact ⟨0, by simp, by simp, rfl⟩
    | some s1 =>
      simp only
      obtain ⟨x, rest, hb, hdec, hrest, hframe⟩ := promote_step_some cfg wc s s1 hs
      obtain ⟨k, h1, h2, h3⟩ := ih s1
      refine ⟨k + 1, ?_, ?_, ?_⟩
      · rw [h1, hdec, hrest, hb]
        simp [List.append_assoc]
      · rw [h2, hrest, hb]
        simp
      · rw [h3, hframe]

/-- `promote_to_decode` is a step of the front end. -/
theorem promote_to_decode_front {β : Type} (cfg : StageConfig) (wc : Bool) (s : Core β) :
    s.front_step (promote_to_decode cfg wc s) := by
  unfold promote_to_decode
  obtain ⟨k, h1, h2, h3⟩ := promote_loop_moves cfg wc cfg.FETCH_WIDTH s
  generalize promote_loop cfg wc cfg.FETCH_WIDTH s = t at h1 h2 h3
  have hq : t.queue = s.queue := by
    have hd : t.DISPATCH_BUFFER = s.DISPATCH_BUFFER := by rw [h3]
    unfold Core.queue
    rw [h1, h2, hd, List.append_assoc, List.append_assoc, List.append_assoc,
      List.take_append_drop]
  refine ⟨?_, ?_, ?_, ?_, ?_, by rw [hq]⟩ <;> rw [h3]

/-- An iteration of the loop of `decode_instruction` moves the front of `DECODE_BUFFER` to
the back of `DISPATCH_BUFFER`; the id and the back-end fields of the instruction are kept. -/
theorem decode_step_some {β : Type} (cfg : StageConfig) (wc : Bool) (s s1 : Core β)
    (h : decode_step cfg wc s = some (.ok s1)) :
    ∃ front rest x, s.DECODE_BUFFER = front :: rest
      ∧ x.item.backend = front.item.backend
      ∧ s1.DISPATCH_BUFFER = s.DISPATCH_BUFFER ++ [x]
      ∧ s1.DECODE_BUFFER = rest
      ∧ s1 = { s with DIB := s1.DIB, fetch_resume_cycle := s1.fetch_resume_cycle,
                      DISPATCH_BUFFER := s1.DISPATCH_BUFFER,
                      DECODE_BUFFER := s1.DECODE_BUFFER } := by
  unfold decode_step at h
  by_cases hc : has_ready s.DECODE_BUFFER = true
      ∧ s.DISPATCH_BUFFER.length ≠ cfg.DISPATCH_SIZE
  swap
  · rw [if_neg hc] at h
    exact absurd h (by simp)
  rw [if_pos hc] at h
  have hcases : s.DECODE_BUFFER = [] ∨ ∃ x rest, s.DECODE_BUFFER = x :: rest := by
    cases s.DECODE_BUFFER with
    | nil => exact Or.inl rfl
    | cons x rest => exact Or.inr ⟨x, rest, rfl⟩
  rcases hcases with hb | ⟨front, rest, hb⟩
  · rw [hb] at h
    exact absurd h (by simp)
  · rw [hb] at h
    simp only at h
    cases hd : do_dib_update cfg s.DIB front.item.ip with
    | none =>
      rw [hd] at h
      exact absurd h (by simp)
    | some dib =>
      rw [hd] at h
      simp only [Option.some.injEq, Except.ok.injEq] at h
      subst h
      refine ⟨front, rest, _, hb, ?_, rfl, rfl, rfl⟩
      simp only
      split_ifs <;> rfl

/-- The loop of `decode_instruction` moves entries from the front of `DECODE_BUFFER` to the
back of `DISPATCH_BUFFER`; the ids and the back-end fields of the instructions are kept. -/
theorem decode_loop_moves {β : Type} (cfg : StageConfig) (wc : Bool) :
    ∀ (bw : Nat) (s t : Core β), decode_loop cfg wc bw s = .ok t →
      ∃ k, (t.DISPATCH_BUFFER.map (fun e => e.item)).map ooo_model_instr.backend
            = (s.DISPATCH_BUFFER.map (fun e => e.item)).map ooo_model_instr.backend
              ++ ((s.DECODE_BUFFER.take k).map (fun e => e.item)).map ooo_model_instr.backend
        ∧ t.DECODE_BUFFER = s.DECODE_BUFFER.drop k
        ∧ t = { s with DIB := t.DIB, fetch_resume_cycle := t.fetch_resume_cycle,
                       DISPATCH_BUFFER := t.DISPATCH_BUFFER,
                       DECODE_BUFFER := t.DECODE_BUFFER } := by
  intro bw
  induction bw with
  | zero =>
    intro s t ht
    simp only [decode_loop, Except.ok.injEq] at ht
    subst ht
    exact ⟨0, by simp, by simp, rfl⟩
  | succ bw ih =>
    intro s t ht
    rw [decode_loop] at ht
    cases hs : decode_step cfg wc s with
    | none =>
      rw [hs] at ht
      simp only [Except.ok.injEq] at ht
      subst ht
      exact ⟨0, by simp, by simp, rfl⟩
    | some r =>
      rw [hs] at ht
      cases r with
      | error a => exact absurd ht (by simp)
      | ok s1 =>
        simp only at ht
        obtain ⟨front, rest, x, hb, hx, hdis, hrest, hframe⟩ :=
          decode_step_some cfg wc s s1 hs
        obtain ⟨k, h1, h2, h3⟩ := ih s1 t ht
        refine ⟨k + 1, ?_, ?_, ?_⟩
        · rw [h1, hdis, hrest, hb]
          simp [List.append_assoc, hx]
        · rw [h2, hrest, hb]
          simp
        · rw [h3, hframe]

/-- `decode_instruction` is a step of the front end. -/
theorem decode_instruction_front {β : Type} (cfg : StageConfig) (wc : Bool) (s t : Core β)
    (ht : decode_instruction cfg wc s = .ok t) : s.front_step t := by
  unfold decode_instruction at ht
  cases hl : decode_loop cfg wc cfg.DECODE_WIDTH s with
  | error a => rw [hl] at ht; exact absurd ht (by simp)
  | ok s1 =>
    rw [hl] at ht
    simp only [Except.ok.injEq] at ht
    subst ht
    obtain ⟨k, h1, h2, h3⟩ := decode_loop_moves cfg wc _ s s1 hl
    have hif : s1.IFETCH_BUFFER = s.IFETCH_BUFFER := by rw [h3]
    refine ⟨?_, ?_, ?_, ?_, ?_, ?_⟩
    · show s1.ROB = s.ROB
      rw [h3]
    · show s1.ROB_front = s.ROB_front
      rw [h3]
    · show s1.ready_to_execute = s.ready_to_execute
      rw [h3]
    · show s1.STA = s.STA
      rw [h3]
    · show s1.instr_unique_id = s.instr_unique_id
      rw [h3]
    · show (s1.DISPATCH_BUFFER.map (fun e => e.item)
          ++ (delay_operate s1.DECODE_BUFFER).map (fun e => e.item)
          ++ s1.IFETCH_BUFFER).map ooo_model_instr.backend = _
      unfold Core.queue
      rw [delay_operate_items, hif, h2]
      simp only [List.map_append]
      rw [h1, List.append_assoc
        ((s.DISPATCH_BUFFER.map (fun e => e.item)).map ooo_model_instr.backend)]
      have e : ((s.DECODE_BUFFER.take k).map (fun e => e.item)).map ooo_model_instr.backend
          ++ ((s.DECODE_BUFFER.drop k).map (fun e => e.item)).map ooo_model_instr.backend
          = (s.DECODE_BUFFER.map (fun e => e.item)).map ooo_model_instr.backend := by
        rw [← List.map_append, ← List.map_append, List.take_append_drop]
      rw [e]

/-- The classification of the branch keeps the id and the back-end fields. -/
theorem classify_branch_backend (f : RegFlags) (a : ooo_model_instr) :
    (classify_branch f a).backend = a.backend := by
  unfold classify_branch
  split_ifs <;> rfl

/-- The instruction that `init_instruction` builds has the id given and the back-end fields
of the trace instruction. -/
theorem decoded_instr_backend (cfg : CoreConfig) (id : Nat) (a : ooo_model_instr) :
    (decoded_instr cfg id a).backend = ({ a with instr_id := id } : ooo_model_instr).backend := by
  have h1 : ∀ b : ooo_model_instr, (count_ops b).backend = b.backend := by
    intro b
    unfold count_ops
    simp only
    split_ifs <;> rfl
  have h2 : ∀ b : ooo_model_instr, (clear_target b).backend = b.backend := by
    intro b
    unfold clear_target
    split_ifs <;> rfl
  have h3 : ∀ (f : RegFlags) (b : ooo_model_instr),
      (fold_stack_pointer cfg f b).backend = b.backend := by
    intro f b
    unfold fold_stack_pointer
    split_ifs <;> rfl
  unfold decoded_instr
  simp only
  rw [h3, h2, classify_branch_backend, h1]

/-- The instruction that `init_instruction` appends to `IFETCH_BUFFER` has the id given and
the back-end fields of the trace instruction. -/
theorem pushed_backend {β : Type} (cfg : CoreConfig) (hooks : BranchHooks β) (w : Bool)
    (s : O3_CPU β) (id c : Nat) (a : ooo_model_instr) :
    (warmup_strip w { (handle_branch_prediction hooks w s (decoded_instr cfg id a)).2 with
        event_cycle := c }).backend
      = ({ a with instr_id := id } : ooo_model_instr).backend := by
  rw [← decoded_instr_backend cfg id a]
  have h1 : ∀ b : ooo_model_instr, (warmup_strip w b).backend = b.backend := by
    intro b
    unfold warmup_strip
    split_ifs <;> rfl
  rw [h1]
  rcases handle_branch_prediction_instr hooks w s (decoded_instr cfg id a) with h | h <;>
    rw [h] <;> rfl

/-- `init_instruction` on the core with its pipeline: the instruction appended to
`IFETCH_BUFFER` has the id `instr_unique_id` and the back-end fields of the trace
instruction, the id counter advances by one, and `STA` gets one copy of the id per
destination memory operand. -/
theorem core_init_instruction_spec {β : Type} (cfg : StageConfig) (hooks : BranchHooks β)
    (wc : Bool) (s t : Core β) (arch : ooo_model_instr)
    (ht : s.init_instruction cfg hooks wc arch = some t) :
    (∃ x, t.IFETCH_BUFFER = s.IFETCH_BUFFER ++ [x]
        ∧ x.backend = ({ arch with instr_id := s.instr_unique_id } : ooo_model_instr).backend)
      ∧ t.instr_unique_id = s.instr_unique_id + 1
      ∧ t.STA = s.STA ++ List.replicate arch.destination_memory.length s.instr_unique_id
      ∧ t.ROB = s.ROB ∧ t.ROB_front = s.ROB_front
      ∧ t.ready_to_execute = s.ready_to_execute
      ∧ t.DECODE_BUFFER = s.DECODE_BUFFER ∧ t.DISPATCH_BUFFER = s.DISPATCH_BUFFER := by
  unfold Core.init_instruction at ht
  unfold ChampSim.init_instruction at ht
  simp only at ht
  split_ifs at ht with hc
  swap
  · exact absurd ht (by simp)
  simp only [Option.map_some', Option.some.injEq] at ht
  subst ht
  have hf := handle_branch_prediction_frame hooks wc (tallied_core cfg.toCoreConfig s.toO3_CPU arch)
    (decoded_instr cfg.toCoreConfig s.instr_unique_id arch)
  have ht := tallied_core_frame cfg.toCoreConfig s.toO3_CPU arch
  refine ⟨⟨_, push_instr_buffer cfg.toCoreConfig hooks wc s.toO3_CPU arch,
    pushed_backend _ _ _ _ _ _ _⟩, ?_, ?_, ?_, rfl, rfl, rfl, rfl⟩
  · show (push_instr wc _).instr_unique_id = _
    unfold push_instr
    simp only
    rw [hf.2.2.2.1, ht.2.2.2.1]
  · show (push_instr wc _).STA = _
    unfold push_instr
    simp only
    rw [hf.2.2.1]
    rfl
  · show (push_instr wc _).ROB = _
    unfold push_instr
    simp only
    rw [hf.2.1, ht.2.1]

/-- A step of the back end keeps the length of the ROB. -/
theorem back_step_length {β : Type} (s t : Core β) (h : s.back_step t) :
    t.ROB.length = s.ROB.length := by
  have := congrArg List.length h.ids
  rw [List.length_map, List.length_map] at this
  exact this

/-- The invariant of the runs survives a step of the back end that writes no store. -/
theorem inv_of_back_step_nil {β : Type} (cfg : StageConfig) (s t : Core β)
    (pushed written : List Nat) (h : s.inv cfg pushed written) (hb : s.back_step t)
    (hsta : t.STA = s.STA)
    (hok : backend_ok t.ROB t.ROB_front t.ready_to_execute none) :
    t.inv cfg pushed written := by
  have := inv_of_back_step cfg s t pushed written [] h hb (by rw [hsta]; rfl)
    (back_step_length s t hb) hok
  rw [List.append_nil] at this
  exact this

/-- `init_instruction` keeps the invariant of the runs, with the ids that it pushes into
`STA`. -/
theorem init_instruction_inv {β : Type} (cfg : StageConfig) (hooks : BranchHooks β)
    (wc : Bool) (s t : Core β) (arch : ooo_model_instr) (pushed written : List Nat)
    (h : s.inv cfg pushed written) (hfresh : arch.fresh)
    (ht : s.init_instruction cfg hooks wc arch = some t) :
    t.inv cfg
      (pushed ++ List.replicate arch.destination_memory.length s.instr_unique_id)
      written := by
  obtain ⟨⟨x, hbuf, hx⟩, huid, hsta, hrob, hfront, hrte, hdec, hdis⟩ :=
    core_init_instruction_spec cfg hooks wc s t arch ht
  unfold ooo_model_instr.backend at hx
  simp only [Prod.mk.injEq] at hx
  obtain ⟨hx1, hx2, hx3, hx4, hx5⟩ := hx
  have hq : t.queue = s.queue ++ [x] := by
    unfold Core.queue
    rw [hbuf, hdec, hdis, List.append_assoc, List.append_assoc, List.append_assoc]
  have hall : t.ROB ++ t.queue = (s.ROB ++ s.queue) ++ [x] := by
    rw [hrob, hq, List.append_assoc]
  constructor
  · rw [hall, List.map_append, List.pairwise_append]
    refine ⟨h.ids_sorted, List.pairwise_singleton _ _, ?_⟩
    intro a ha b hb
    rw [List.map_singleton, List.mem_singleton] at hb
    rw [List.mem_map] at ha
    obtain ⟨a0, ha0, ha1⟩ := ha
    rw [hb, hx1, ← ha1]
    exact h.ids_lt a0 ha0
  · intro a ha
    rw [hall, List.mem_append, List.mem_singleton] at ha
    rw [huid]
    rcases ha with ha | ha
    · exact Nat.lt_succ_of_lt (h.ids_lt a ha)
    · rw [ha, hx1]
      exact Nat.lt_succ_self _
  · intro a ha
    rw [hq, List.mem_append, List.mem_singleton] at ha
    rcases ha with ha | ha
    · exact h.queue_fresh a ha
    · rw [ha]
      unfold ooo_model_instr.fresh at hfresh ⊢
      rw [hx2, hx3, hx4, hx5]
      exact hfresh
  · rw [hrob]; exact h.rob_size
  · rw [hrob, hfront, hrte]; exact h.backend
  · rw [hsta, h.sta_log, List.append_assoc]
  · rw [hsta, List.pairwise_append]
    refine ⟨h.sta_sorted, ?_, ?_⟩
    · rw [List.pairwise_replicate]
      exact Or.inr (Nat.le_refl _)
    · intro a ha b hb
      rw [List.eq_of_mem_replicate hb]
      exact Nat.le_of_lt (h.sta_lt a ha)
  · intro a ha
    rw [hsta, List.mem_append] at ha
    rw [huid]
    rcases ha with ha | ha
    · exact Nat.lt_succ_of_lt (h.sta_lt a ha)
    · rw [List.eq_of_mem_replicate ha]
      exact Nat.lt_succ_self _

/-- The steps of the memory side keep the invariant of the runs. -/
theorem lsq_step_inv {β : Type} (cfg : StageConfig) (s t : Core β)
    (pushed written : List Nat) (h : s.inv cfg pushed written) (ht : s.lsq_step t) :
    t.inv cfg pushed written := by
  obtain ⟨hframe, hrob⟩ := ht
  have hb : s.back_step t := by
    refine ⟨?_, ?_, ?_, mem_only_ids _ _ hrob⟩
    · rw [hframe]; rfl
    · rw [hframe]
    · rw [hframe]
  have hsta : t.STA = s.STA := by rw [hframe]
  have hrte : t.ready_to_execute = s.ready_to_execute := by rw [hframe]
  refine inv_of_back_step_nil cfg s t pushed written h hb hsta ?_
  rw [hb.front, hrte]
  exact backend_ok_mem_only _ _ _ _ _ h.backend hrob

/-- The invariant of the runs holds in every state of a run. -/
theorem runs_inv {β : Type} (cfg : StageConfig) (hooks : BranchHooks β) (s : Core β)
    (pushed written : List Nat) (h : Core.runs cfg hooks s pushed written) :
    s.inv cfg pushed written := by
  induction h with
  | init s h1 h2 h3 h4 h5 h6 =>
    have hq : s.queue = [] := by
      unfold Core.queue
      rw [h1, h2, h3]
      rfl
    constructor
    · rw [h4, hq]; exact List.Pairwise.nil
    · intro a ha
      rw [h4, hq] at ha
      exact absurd ha (List.not_mem_nil _)
    · intro a ha
      rw [hq] at ha
      exact absurd ha (List.not_mem_nil _)
    · rw [h4]; exact Nat.zero_le _
    · rw [h4, h5]
      refine ⟨?_, List.nodup_nil, ?_, ?_⟩
      · intro a ha; exact absurd ha (List.not_mem_nil _)
      · intro it hit; exact absurd hit (List.not_mem_nil _)
      · intro i a ha; simp at ha
    · rw [h6]; rfl
    · rw [h6]; exact List.Pairwise.nil
    · intro x hx
      rw [h6] at hx
      exact absurd hx (List.not_mem_nil _)
  | init_instruction wc s t pushed written arch _ hfresh _ ht ih =>
    exact init_instruction_inv cfg hooks wc s t arch pushed written ih hfresh ht
  | check_dib s pushed written _ ih =>
    exact inv_of_front_step cfg _ _ _ _ ih (check_dib_front cfg s)
  | translate_fetch s pushed written rq_index _ ih =>
    exact inv_of_front_step cfg _ _ _ _ ih (translate_fetch_front s rq_index)
  | fetch_instruction s pushed written rq_index _ ih =>
    exact inv_of_front_step cfg _ _ _ _ ih (fetch_instruction_front s rq_index)
  | handle_memory_return s pushed written _ ih =>
    exact inv_of_front_step cfg _ _ _ _ ih (handle_memory_return_instr_front cfg s)
  | promote_to_decode wc s pushed written _ ih =>
    exact inv_of_front_step cfg _ _ _ _ ih (promote_to_decode_front cfg wc s)
  | decode_instruction wc s t pushed written _ ht ih =>
    exact inv_of_front_step cfg _ _ _ _ ih (decode_instruction_front cfg wc s t ht)
  | dispatch_instruction s pushed written _ ih =>
    exact dispatch_instruction_inv cfg s pushed written ih
  | schedule_instruction wc s t pushed written _ ht ih =>
    obtain ⟨hb, hsta, -, hok⟩ :=
      (schedule_loop_ok cfg wc _ _ _ s ih.backend ih.rob_size).2.1 t ht
    exact inv_of_back_step_nil cfg s t pushed written ih hb hsta hok
  | execute_instruction wc s t pushed written _ ht ih =>
    obtain ⟨t', ht', hb, hsta, hok⟩ := execute_loop_ok cfg wc cfg.EXEC_WIDTH s ih.backend
    have e : t' = t := by
      unfold execute_instruction at ht
      rw [ht'] at ht
      exact Except.ok.inj ht
    subst e
    exact inv_of_back_step_nil cfg s t' pushed written ih hb hsta hok
  | complete_inflight_instruction s t pushed written _ ht ih =>
    obtain ⟨hb, hsta, -, hok⟩ :=
      (complete_loop_ok cfg _ _ _ s ih.backend ih.rob_size).2 t ht
    exact inv_of_back_step_nil cfg s t pushed written ih hb hsta hok
  | schedule_memory_instruction s t pushed written w _ ht ih =>
    obtain ⟨hb, hsta, hlen, hok⟩ :=
      (schedule_memory_loop_ok cfg _ _ _ s ih.backend).2 t w ht
    exact inv_of_back_step cfg s t pushed written w ih hb hsta hlen hok
  | retire_rob room s t pushed written _ ht ih =>
    exact retire_rob_inv cfg room s t pushed written ih ht
  | lsq s t pushed written _ ht ih =>
    exact lsq_step_inv cfg s t pushed written ih ht
  | itlb_answer s pushed written packet _ ih =>
    exact inv_of_front_step cfg _ _ _ _ ih ⟨rfl, rfl, rfl, rfl, rfl, rfl⟩
  | l1i_answer s pushed written packet _ ih =>
    exact inv_of_front_step cfg _ _ _ _ ih ⟨rfl, rfl, rfl, rfl, rfl, rfl⟩
  | read_budget s pushed written _ ih =>
    exact inv_of_front_step cfg _ _ _ _ ih ⟨rfl, rfl, rfl, rfl, rfl, rfl⟩
  | clock s pushed written _ ih =>
    exact inv_of_front_step cfg _ _ _ _ ih ⟨rfl, rfl, rfl, rfl, rfl, rfl⟩

/-- A result that is there is the result taken with a default. -/
theorem except_eq_ok_getD {ε α : Type} (x : Except ε α) (d : α)
    (h : x.toOption.isSome = true) : x = .ok (x.toOption.getD d) := by
  cases x with
  | error a => simp [Except.toOption] at h
  | ok a => rfl

/-- A result with a list of ids is the state taken with a default and the list. -/
theorem except_pair_eq_ok {ε α : Type} (x : Except ε (α × List Nat)) (w : List Nat) (d : α)
    (h : x.toOption.map Prod.snd = some w) :
    x = .ok ((x.toOption.map Prod.fst).getD d, w) := by
  cases x with
  | error a => simp [Except.toOption] at h
  | ok a =>
    simp only [Except.toOption, Option.map_some', Option.some.injEq] at h
    subst h
    rfl

/-- Every entry of a list is related to its image. -/
theorem forall₂_map_self {α : Type} (R : α → α → Prop) (g : α → α) (hg : ∀ a, R a (g a)) :
    ∀ l : List α, List.Forall₂ R l (l.map g) := by
  intro l
  induction l with
  | nil => exact List.Forall₂.nil
  | cons a rest ih => exact List.Forall₂.cons (hg a) ih

/-- The store and the instruction that waits for it on their way to the ROB. -/
theorem core_st7_runs : Core.runs cfg_stage (const_hooks 0 0 0) core_st7 [0] [] := by
  have h0 : Core.runs cfg_stage (const_hooks 0 0 0) core_sq [] [] :=
    Core.runs.init core_sq rfl rfl rfl rfl rfl rfl
  have h1 : Core.runs cfg_stage (const_hooks 0 0 0) core_st1 [0] [] :=
    Core.runs.init_instruction true core_sq core_st1 [] [] instr_st h0 ⟨rfl, rfl, rfl, rfl⟩
      (by decide) (option_eq_some_getD _ _ (by decide))
  have h2 : Core.runs cfg_stage (const_hooks 0 0 0) core_st2 [0] [] :=
    Core.runs.init_instruction true core_st1 core_st2 [0] [] instr_use h1 ⟨rfl, rfl, rfl, rfl⟩
      (by decide) (option_eq_some_getD _ _ (by decide))
  have h3 := Core.runs.check_dib core_st2 [0] [] h2
  have h4 := Core.runs.promote_to_decode true _ [0] [] h3
  have h5 : Core.runs cfg_stage (const_hooks 0 0 0) core_st5 [0] [] :=
    Core.runs.decode_instruction true core_st4 core_st5 [0] [] h4
      (except_eq_ok_getD _ _ (by decide))
  have h6 := Core.runs.dispatch_instruction _ [0] [] h5
  exact Core.runs.dispatch_instruction _ [0] [] h6

/-- The store is in the store queue and completed, and the instruction that waited for it is
ready to execute. -/
theorem core_st11_runs : Core.runs cfg_stage (const_hooks 0 0 0) core_st11 [0] [0] := by
  have h8 : Core.runs cfg_stage (const_hooks 0 0 0) core_st8 [0] [] :=
    Core.runs.schedule_instruction true core_st7 core_st8 [0] [] core_st7_runs
      (except_eq_ok_getD _ _ (by decide))
  have h9 : Core.runs cfg_stage (const_hooks 0 0 0) core_st9 [0] [0] :=
    Core.runs.schedule_memory_instruction core_st8 core_st9 [0] [] [0] h8
      (except_pair_eq_ok _ [0] _ (by decide))
  have h10 : Core.runs cfg_stage (const_hooks 0 0 0) core_st10 [0] [0] :=
    Core.runs.lsq core_st9 core_st10 [0] [0] h9
      ⟨rfl, forall₂_map_self ooo_model_instr.mem_only
        (fun e => { e with num_mem_ops := 0 }) (fun _ => rfl) core_st9.ROB⟩
  exact Core.runs.complete_inflight_instruction core_st10 core_st11 [0] [0] h10
    (except_eq_ok_getD _ _ (by decide))

/-- C18. In every state of a run of the core the ids of the ROB entries are strictly
increasing from head to tail, and so are the ids from the head of the ROB through
`DISPATCH_BUFFER` and `DECODE_BUFFER` to the back of `IFETCH_BUFFER`, all below
`instr_unique_id`. `init_instruction` appends an instruction with the id `instr_unique_id`
and advances the counter by one; `promote_to_decode`, `decode_instruction` and
`dispatch_instruction` move entries from the front of one buffer to the back of the next
(`k` of them); `retire_rob` removes entries from the head of the ROB. The id counter is
modelled without its 64-bit wrap: a run feeds fewer than `2 ^ 64` instructions. -/
theorem rob_ids_strictly_increasing {β : Type} (cfg : StageConfig) (hooks : BranchHooks β)
    (s : Core β) (pushed written : List Nat) (h : Core.runs cfg hooks s pushed written) :
    (s.ROB.map (fun a => a.instr_id)).Pairwise (fun a b => a < b)
      ∧ ((s.ROB ++ s.queue).map (fun a => a.instr_id)).Pairwise (fun a b => a < b)
      ∧ (∀ a, a ∈ s.ROB ++ s.queue → a.instr_id < s.instr_unique_id)
      ∧ (∀ wc arch t, s.init_instruction cfg hooks wc arch = some t →
          ∃ x, t.IFETCH_BUFFER = s.IFETCH_BUFFER ++ [x] ∧ x.instr_id = s.instr_unique_id
            ∧ t.instr_unique_id = s.instr_unique_id + 1)
      ∧ (∀ wc, ∃ k,
          (promote_to_decode cfg wc s).DECODE_BUFFER.map (fun e => e.item)
              = s.DECODE_BUFFER.map (fun e => e.item) ++ s.IFETCH_BUFFER.take k
            ∧ (promote_to_decode cfg wc s).IFETCH_BUFFER = s.IFETCH_BUFFER.drop k)
      ∧ (∀ wc t, decode_instruction cfg wc s = .ok t → ∃ k,
          t.DISPATCH_BUFFER.map (fun e => e.item.instr_id)
              = s.DISPATCH_BUFFER.map (fun e => e.item.instr_id)
                ++ (s.DECODE_BUFFER.take k).map (fun e => e.item.instr_id)
            ∧ t.DECODE_BUFFER.map (fun e => e.item)
              = (s.DECODE_BUFFER.drop k).map (fun e => e.item))
      ∧ (∃ k,
          (dispatch_instruction cfg s).ROB
              = s.ROB ++ (s.DISPATCH_BUFFER.take k).map (fun e => e.item)
            ∧ (dispatch_instruction cfg s).DISPATCH_BUFFER.map (fun e => e.item)
              = (s.DISPATCH_BUFFER.drop k).map (fun e => e.item))
      ∧ (∀ room t, retire_rob cfg room s = .ok t → ∃ k,
          t.ROB.map (fun a => a.instr_id) = (s.ROB.drop k).map (fun a => a.instr_id)) := by
  have hinv := runs_inv cfg hooks s pushed written h
  refine ⟨?_, hinv.ids_sorted, hinv.ids_lt, ?_, ?_, ?_, ?_, ?_⟩
  · have := hinv.ids_sorted
    rw [List.map_append, List.pairwise_append] at this
    exact this.1
  · intro wc arch t ht
    obtain ⟨⟨x, hbuf, hx⟩, huid, -⟩ := core_init_instruction_spec cfg hooks wc s t arch ht
    refine ⟨x, hbuf, ?_, huid⟩
    exact congrArg Prod.fst hx
  · intro wc
    obtain ⟨k, h1, h2, -⟩ := promote_loop_moves cfg wc cfg.FETCH_WIDTH s
    exact ⟨k, h1, h2⟩
  · intro wc t ht
    unfold decode_instruction at ht
    cases hl : decode_loop cfg wc cfg.DECODE_WIDTH s with
    | error a => rw [hl] at ht; exact absurd ht (by simp)
    | ok s1 =>
      rw [hl] at ht
      simp only [Except.ok.injEq] at ht
      subst ht
      obtain ⟨k, h1, h2, -⟩ := decode_loop_moves cfg wc _ s s1 hl
      refine ⟨k, ?_, ?_⟩
      · have := congrArg (List.map Prod.fst) h1
        simpa [List.map_map, Function.comp_def, ooo_model_instr.backend] using this
      · show (delay_operate s1.DECODE_BUFFER).map (fun e => e.item) = _
        rw [delay_operate_items, h2]
  · obtain ⟨k, h1, h2, -⟩ := dispatch_instruction_moves cfg s
    exact ⟨k, h1, h2⟩
  · intro room t ht
    obtain ⟨k, -, hf, -⟩ := retire_loop_moves _ _ s t ht
    exact ⟨k, mem_only_ids _ _ hf⟩

/-- Witness for C18: the run that takes a store and an instruction that reads its register
from the trace to the ROB, through a DIB hit, decode, dispatch, scheduling, the store queue
and completion; the ROB holds the ids 0 and 1. -/
theorem rob_ids_strictly_increasing_witness :
    Core.runs cfg_stage (const_hooks 0 0 0) core_st11 [0] [0]
      ∧ core_st11.ROB.map (fun a => a.instr_id) = [0, 1]
      ∧ (core_st11.ROB.map (fun a => a.instr_id)).Pairwise (fun a b => a < b) :=
  ⟨core_st11_runs, by decide,
    (rob_ids_strictly_increasing cfg_stage (const_hooks 0 0 0) core_st11 [0] [0]
      core_st11_runs).1⟩

/-- C19. In every state of a run of the core the number of ROB entries with
`executed == COMPLETED` plus the size of `ready_to_execute` is at most the number of entries
of the ROB, which is at most `ROB_SIZE`, the `size()` of the ROB. `schedule_instruction`
returns, so that its assertion `ready_to_execute.size() < ROB.size()` of line 456 does not
fail; `execute_instruction` returns; and `complete_inflight_instruction` does not fail its
assertion of line 883. -/
theorem completed_plus_ready_bounded {β : Type} (cfg : StageConfig) (hooks : BranchHooks β)
    (s : Core β) (pushed written : List Nat) (h : Core.runs cfg hooks s pushed written) :
    s.ROB.countP (fun a => a.executed == COMPLETED) + s.ready_to_execute.length
        ≤ s.ROB.length
      ∧ s.ROB.length ≤ cfg.ROB_SIZE
      ∧ (∀ wc, ∃ t, schedule_instruction cfg wc s = .ok t)
      ∧ (∀ wc, schedule_instruction cfg wc s ≠ .error (Abort.assertion 456))
      ∧ (∀ wc, ∃ t, execute_instruction cfg wc s = .ok t)
      ∧ complete_inflight_instruction cfg s ≠ .error (Abort.assertion 883) := by
  have hinv := runs_inv cfg hooks s pushed written h
  refine ⟨completed_add_ready_le _ _ _ _ hinv.backend, hinv.rob_size, ?_, ?_, ?_, ?_⟩
  · intro wc
    exact (schedule_loop_ok cfg wc _ _ _ s hinv.backend hinv.rob_size).2.2
      (by rw [Nat.zero_add])
  · intro wc hne
    exact (schedule_loop_ok cfg wc _ _ _ s hinv.backend hinv.rob_size).1 _ hne rfl
  · intro wc
    obtain ⟨t, ht, -⟩ := execute_loop_ok cfg wc cfg.EXEC_WIDTH s hinv.backend
    exact ⟨t, ht⟩
  · intro hne
    exact (complete_loop_ok cfg _ _ _ s hinv.backend hinv.rob_size).1 _ hne rfl

/-- Witness for C19: in the run of the store and the instruction that waits for it,
`complete_inflight_instruction` has completed the store and pushed the other instruction
into `ready_to_execute`: one entry is completed, one is ready, and the ROB holds two. -/
theorem completed_plus_ready_bounded_witness :
    Core.runs cfg_stage (const_hooks 0 0 0) core_st11 [0] [0]
      ∧ core_st11.ROB.map (fun a => a.executed) = [COMPLETED, 0]
      ∧ core_st11.ready_to_execute = [1]
      ∧ core_st11.ROB.countP (fun a => a.executed == COMPLETED)
          + core_st11.ready_to_execute.length ≤ core_st11.ROB.length :=
  ⟨core_st11_runs, by decide, by decide,
    (completed_plus_ready_bounded cfg_stage (const_hooks 0 0 0) core_st11 [0] [0]
      core_st11_runs).1⟩

/-- C20. Program-order store issue. The body of the store loop of `do_memory_scheduling`
either leaves the core as it is or calls `add_store_queue`, and it calls it only for an
operand that has not been added, when the store queue has an invalid slot and the front of
`STA` is the id of the instruction; the call writes that id into the slot and pops exactly
one element of `STA`, and its assertion does not fail. `init_instruction` pushes one copy of
the id per destination memory operand. Hence in every state of a run the ids pushed into
`STA` are, in order, the ids written into the store queue followed by the content of `STA`
(when `STA` is empty the two sequences are equal), and `STA` holds ids in non-decreasing
order. The id counter is modelled without its 64-bit wrap. -/
theorem store_issue_in_program_order {β : Type} (cfg : StageConfig) (hooks : BranchHooks β)
    (s : Core β) (pushed written : List Nat) (h : Core.runs cfg hooks s pushed written) :
    (∀ i data_index t w, schedule_store cfg s i data_index = .ok (t, w) →
        (t = s ∧ w = [])
          ∨ ∃ rob_it dmem sq_it rest slot,
              s.ROB[i]? = some rob_it ∧ rob_it.destination_memory[data_index]? = some dmem
                ∧ dmem.added = false ∧ find_invalid s.SQ = some sq_it
                ∧ s.STA = rob_it.instr_id :: rest
                ∧ add_store_queue cfg s i data_index = .ok t
                ∧ t.STA = rest ∧ t.SQ[sq_it]? = some slot ∧ slot.instr_id = rob_it.instr_id
                ∧ w = [rob_it.instr_id])
      ∧ (∀ i data_index, schedule_store cfg s i data_index ≠ .error (Abort.assertion 656))
      ∧ (∀ wc arch t, s.init_instruction cfg hooks wc arch = some t →
          t.STA = s.STA ++ List.replicate arch.destination_memory.length s.instr_unique_id)
      ∧ (∀ t w, schedule_memory_instruction cfg s = .ok (t, w) → s.STA = w ++ t.STA)
      ∧ pushed = written ++ s.STA
      ∧ (s.STA = [] → written = pushed)
      ∧ s.STA.Pairwise (fun a b => a ≤ b) := by
  have hinv := runs_inv cfg hooks s pushed written h
  refine ⟨?_, ?_, ?_, ?_, hinv.sta_log, ?_, hinv.sta_sorted⟩
  · intro i data_index t w ht
    exact schedule_store_cases cfg s t i data_index w ht
  · intro i data_index
    exact (schedule_store_ok cfg s i data_index).1
  · intro wc arch t ht
    exact (core_init_instruction_spec cfg hooks wc s t arch ht).2.2.1
  · intro t w ht
    exact ((schedule_memory_loop_ok cfg _ _ _ s hinv.backend).2 t w ht).2.1
  · intro he
    have := hinv.sta_log
    rw [he, List.append_nil] at this
    exact this.symm

/-- Witness for C20: in the run of the store and the instruction that waits for it, the id 0
has been pushed into `STA` by `init_instruction` and written into the first slot of the store
queue by `add_store_queue`, and `STA` is empty. -/
theorem store_issue_in_program_order_witness :
    Core.runs cfg_stage (const_hooks 0 0 0) core_st11 [0] [0]
      ∧ core_st11.STA = []
      ∧ core_st11.SQ.map (fun e => (e.instr_id, e.virtual_address)) = [(0, 0x2000), (0, 0)]
      ∧ [0] = [0] ++ core_st11.STA :=
  ⟨core_st11_runs, by decide, by decide,
    (store_issue_in_program_order cfg_stage (const_hooks 0 0 0) core_st11 [0] [0]
      core_st11_runs).2.2.2.2.1⟩

/-! ## Theorems: the stage fields of an instruction -/

/-- The core in which the fetch of a cache block overwrites the DIB hit of one of its
instructions is a state of a run. -/
theorem core_fetching_runs : Core.runs cfg_stage (const_hooks 0 0 0) core_fetching [] [] := by
  have h0 : Core.runs cfg_stage (const_hooks 0 0 0) core_dib [] [] :=
    Core.runs.init core_dib rfl rfl rfl rfl rfl rfl
  have h1 := Core.runs.init_instruction true core_dib
    ((core_dib.init_instruction cfg_stage (const_hooks 0 0 0) true instr_a).getD core_dib)
    [] [] instr_a h0 ⟨rfl, rfl, rfl, rfl⟩ (by decide) (option_eq_some_getD _ _ (by decide))
  have h2 : Core.runs cfg_stage (const_hooks 0 0 0) core_fed [] [] :=
    Core.runs.init_instruction true _ core_fed [] [] instr_b h1 ⟨rfl, rfl, rfl, rfl⟩
      (by decide) (option_eq_some_getD _ _ (by decide))
  have h3 : Core.runs cfg_stage (const_hooks 0 0 0) { core_fed with current_cycle := 1 }
      [] [] := Core.runs.clock core_fed [] [] h2
  have h4 : Core.runs cfg_stage (const_hooks 0 0 0) core_checked [] [] :=
    Core.runs.check_dib _ [] [] (Core.runs.translate_fetch _ [] [] (-1)
      (Core.runs.fetch_instruction _ [] [] (-1) h3))
  have h5 : Core.runs cfg_stage (const_hooks 0 0 0) { core_checked with current_cycle := 2 }
      [] [] := Core.runs.clock core_checked [] [] h4
  have e : core_checked.ITLB_PROCESSED
      ++ [(core_checked.ITLB_RQ.map (fun p : PACKET => { p with data := 0x55 })).headD {}]
      = core_checked.ITLB_RQ.map (fun p : PACKET => { p with data := 0x55 }) := by decide
  have h6 : Core.runs cfg_stage (const_hooks 0 0 0)
      { core_checked with
        current_cycle := 2
        ITLB_PROCESSED := core_checked.ITLB_RQ.map (fun p => { p with data := 0x55 }) }
      [] [] := by
    have h := Core.runs.itlb_answer _ [] []
      ((core_checked.ITLB_RQ.map (fun p : PACKET => { p with data := 0x55 })).headD {}) h5
    dsimp only at h
    rw [e] at h
    exact h
  exact Core.runs.fetch_instruction _ [] [] (-1)
    (Core.runs.promote_to_decode true _ [] []
      (Core.runs.handle_memory_return _ [] [] h6))

/-- C17, the code moves `fetched` backward. Two instructions of one cache block are in
`IFETCH_BUFFER`, `instr_a` (id 0) and `instr_b` (id 1), and the DIB holds the line of
`instr_b`. At the end of the first cycle `translate_fetch` has marked both `translated =
INFLIGHT` and `do_check_dib` has hit for `instr_b`: its `translated`, `fetched` and `decoded`
are `COMPLETED`. In the next cycle the ITLB answers, `instr_a` is translated, and
`do_fetch_instruction`, on the range that begins at `instr_a` and ends with the cache block,
sets `fetched = INFLIGHT` for `instr_b` as well: the field goes from `COMPLETED` back to
`INFLIGHT`. The lists give `(instr_id, translated, fetched, decoded)`; the last state is a
state of a run of the core. -/
theorem fetched_moves_backward :
    Core.runs cfg_stage (const_hooks 0 0 0) core_fetching [] []
      ∧ core_fed.IFETCH_BUFFER.map (fun x => (x.instr_id, x.translated, x.fetched, x.decoded))
        = [(0, 0, 0, 0), (1, 0, 0, 0)]
      ∧ core_checked.IFETCH_BUFFER.map
          (fun x => (x.instr_id, x.translated, x.fetched, x.decoded))
        = [(0, INFLIGHT, 0, 0), (1, COMPLETED, COMPLETED, COMPLETED)]
      ∧ core_translated.IFETCH_BUFFER.map
          (fun x => (x.instr_id, x.translated, x.fetched, x.decoded))
        = [(0, COMPLETED, 0, 0), (1, COMPLETED, COMPLETED, COMPLETED)]
      ∧ core_fetching.IFETCH_BUFFER.map
          (fun x => (x.instr_id, x.translated, x.fetched, x.decoded))
        = [(0, COMPLETED, INFLIGHT, 0), (1, COMPLETED, INFLIGHT, COMPLETED)] :=
  ⟨core_fetching_runs, by decide⟩


/-! ## Theorems: fetch translation, the instruction buffer, the load and store queues, retirement and register dependences -/

/-! ## Translation requests of the front end -/

/-- A loop that rewrites the entries of a buffer at distinct indices with `g` rewrites
exactly those entries. -/
theorem foldl_mark_getElem? (g : ooo_model_instr → ooo_model_instr) :
    ∀ (l : List Nat), l.Nodup → ∀ (buf : List ooo_model_instr) (j : Nat),
      (l.foldl (fun buffer i =>
          match buffer[i]? with
          | none => buffer
          | some x => buffer.set i (g x)) buf)[j]?
        = if j ∈ l then buf[j]?.map g else buf[j]? := by
  intro l
  induction l with
  | nil => intro _ buf j; simp
  | cons i rest ih =>
    intro hl buf j
    rw [List.nodup_cons] at hl
    rw [List.foldl_cons, ih hl.2]
    have hstep : ∀ k, (match buf[i]? with
          | none => buf
          | some x => buf.set i (g x))[k]? = if k = i then buf[k]?.map g else buf[k]? := by
      intro k
      cases hi : buf[i]? with
      | none =>
        by_cases hk : k = i
        · subst hk; simp [hi]
        · simp [hk]
      | some x =>
        have hlt : i < buf.length := (List.getElem?_eq_some_iff.mp hi).1
        simp only [List.getElem?_set]
        by_cases hk : k = i
        · subst hk; simp [hi, hlt]
        · rw [if_neg (fun h => hk h.symm), if_neg hk]
    rw [hstep j]
    by_cases hji : j = i
    · subst hji
      simp [hl.1]
    · by_cases hjr : j ∈ rest
      · simp [hji, hjr]
      · simp [hji, hjr]

/-- The range of lines 254 and 308 from an entry `first` at `b`: it is not empty, it ends in
the buffer, its entries have the key of `first`, and the entry at its end, if any, has another
key. -/
theorem range_end_spec (buffer : List ooo_model_instr) (key : ooo_model_instr → Nat)
    (b : Nat) (first : ooo_model_instr) (hb : buffer[b]? = some first) :
    b < range_end buffer key b ∧ range_end buffer key b ≤ buffer.length
      ∧ (∀ i x, b ≤ i → i < range_end buffer key b → buffer[i]? = some x → key x = key first)
      ∧ (∀ x, buffer[range_end buffer key b]? = some x → key x ≠ key first) := by
  have hlt : b < buffer.length := (List.getElem?_eq_some_iff.mp hb).1
  have hre : range_end buffer key b
      = b + (buffer.drop b).findIdx (fun x => key first != key x) := by
    unfold range_end; rw [hb]
  have hle : (buffer.drop b).findIdx (fun x => key first != key x) ≤ (buffer.drop b).length :=
    List.findIdx_le_length _
  have hlen : (buffer.drop b).length = buffer.length - b := List.length_drop _ _
  have hnot : ∀ j, j < (buffer.drop b).findIdx (fun x => key first != key x) →
      ∀ x, buffer[b + j]? = some x → key x = key first := by
    intro j hj x hx
    have hjl : j < (buffer.drop b).length := lt_of_lt_of_le hj hle
    have h1 := @List.not_of_lt_findIdx _ (fun x => key first != key x) (buffer.drop b) j hj
    have h2 : (buffer.drop b)[j]? = some x := by rw [List.getElem?_drop]; exact hx
    have h3 : (buffer.drop b)[j] = x := by
      have := List.getElem?_eq_getElem hjl
      rw [h2] at this
      exact (Option.some.inj this).symm
    rw [h3] at h1
    simp only [bne_eq_false_iff_eq] at h1
    exact h1.symm
  refine ⟨?_, ?_, ?_, ?_⟩
  · rw [hre]
    have hpos : 0 < (buffer.drop b).findIdx (fun x => key first != key x) := by
      have h0 : 0 < (buffer.drop b).length := by rw [hlen]; omega
      apply List.lt_findIdx_of_not h0
      intro j hj
      have hj0 : j = 0 := by omega
      subst hj0
      have h2 : (buffer.drop b)[0]? = some first := by rw [List.getElem?_drop]; exact hb
      have h3 : (buffer.drop b).get ⟨0, by omega⟩ = first := by
        have := List.getElem?_eq_getElem h0
        rw [h2] at this
        exact (Option.some.inj this).symm
      rw [h3]
      simp
    omega
  · rw [hre]; rw [hlen] at hle; omega
  · intro i x hbi hie hx
    rw [hre] at hie
    have hj : i - b < (buffer.drop b).findIdx (fun x => key first != key x) := by omega
    have := hnot (i - b) hj x (by rw [show b + (i - b) = i by omega]; exact hx)
    exact this
  · intro x hx
    rw [hre] at hx
    have hw : (buffer.drop b).findIdx (fun x => key first != key x) < (buffer.drop b).length := by
      have := (List.getElem?_eq_some_iff.mp hx).1
      rw [hlen]; omega
    have h1 := @List.findIdx_getElem _ (fun x => key first != key x) (buffer.drop b) hw
    have h2 : (buffer.drop b)[(buffer.drop b).findIdx (fun x => key first != key x)]?
        = some x := by rw [List.getElem?_drop]; exact hx
    have h3 : (buffer.drop b)[(buffer.drop b).findIdx (fun x => key first != key x)] = x := by
      have := List.getElem?_eq_getElem hw
      rw [h2] at this
      exact (Option.some.inj this).symm
    rw [h3] at h1
    simp only [bne_iff_ne, ne_eq] at h1
    exact fun h => h1 h.symm

/-- The first entry of a list that satisfies `p` is where `findIdx` stops. -/
theorem findIdx_eq_of_first {α : Type} (p : α → Bool) (l : List α) (b : Nat) (first : α)
    (hb : l[b]? = some first) (hp : p first = true)
    (hbefore : ∀ i x, i < b → l[i]? = some x → p x = false) : l.findIdx p = b := by
  have hlt : b < l.length := (List.getElem?_eq_some_iff.mp hb).1
  rw [List.findIdx_eq hlt]
  constructor
  · have := List.getElem?_eq_getElem hlt
    rw [hb] at this
    rw [← Option.some.inj this]; exact hp
  · intro j hj
    exact hbefore j _ hj (List.getElem?_eq_getElem (lt_trans hj hlt))

/-- C30. `translate_fetch` coalesces and obeys the refusal of the ITLB. Let `first`, at the
index `b`, be the first entry of `IFETCH_BUFFER` with `translated == 0`. The range of the
request ends at an index `e` with `b < e`: the entries from `b` to `e - 1` have their `ip` in
the page of `first.ip`, and the entry at `e`, if there is one, has not. If `e` is not the end
of the buffer or `b` is its head, and the ITLB accepts, then the packet of `first` whose
`instr_depend_on_me` lists the iterators of the entries `b` to `e - 1`, in order, is added to
the read queue of the ITLB, exactly those entries get `translated = INFLIGHT`, and nothing
else changes. In every other case (the ITLB answers -2, or `e` is the end of the buffer and
`b` is not its head, or no entry has `translated == 0`) the core is unchanged. -/
theorem translate_fetch_coalesces {β : Type} (s : Core β) (rq_index : Int) :
    (∀ b first, s.IFETCH_BUFFER[b]? = some first → first.translated = 0 →
      (∀ i x, i < b → s.IFETCH_BUFFER[i]? = some x → x.translated ≠ 0) →
      ∃ e, b < e ∧ e ≤ s.IFETCH_BUFFER.length
        ∧ (∀ i x, b ≤ i → i < e → s.IFETCH_BUFFER[i]? = some x →
            x.ip >>> LOG2_PAGE_SIZE = first.ip >>> LOG2_PAGE_SIZE)
        ∧ (∀ x, s.IFETCH_BUFFER[e]? = some x →
            x.ip >>> LOG2_PAGE_SIZE ≠ first.ip >>> LOG2_PAGE_SIZE)
        ∧ ((e ≠ s.IFETCH_BUFFER.length ∨ b = 0) → rq_index ≠ -2 →
            translate_fetch s rq_index
                = { s with
                    ITLB_RQ := (translate_fetch s rq_index).ITLB_RQ
                    IFETCH_BUFFER := (translate_fetch s rq_index).IFETCH_BUFFER }
              ∧ (translate_fetch s rq_index).ITLB_RQ = s.ITLB_RQ ++
                  [{ cpu := s.cpu, address := first.ip, v_address := first.ip,
                     instr_id := first.instr_id, ip := first.ip, type := LOAD,
                     instr_depend_on_me :=
                       (List.range' b (e - b)).map (fun i => s.IFETCH_front + i) }]
              ∧ ∀ i, (translate_fetch s rq_index).IFETCH_BUFFER[i]?
                  = (s.IFETCH_BUFFER[i]?).map (fun x =>
                      if b ≤ i ∧ i < e then { x with translated := INFLIGHT } else x))
        ∧ ((e = s.IFETCH_BUFFER.length ∧ b ≠ 0) ∨ rq_index = -2 →
            translate_fetch s rq_index = s))
    ∧ ((∀ x, x ∈ s.IFETCH_BUFFER → x.translated ≠ 0) → translate_fetch s rq_index = s) := by
  constructor
  · intro b first hb hfirst hbefore
    have hlt : b < s.IFETCH_BUFFER.length := (List.getElem?_eq_some_iff.mp hb).1
    have hne : s.IFETCH_BUFFER ≠ [] := by
      intro h; rw [h] at hlt; exact absurd hlt (by simp)
    have hfi : s.IFETCH_BUFFER.findIdx (fun x => x.translated == 0) = b :=
      findIdx_eq_of_first _ _ b first hb (by simp [hfirst])
        (fun i x hi hx => by simpa using hbefore i x hi hx)
    obtain ⟨h1, h2, h3, h4⟩ :=
      range_end_spec s.IFETCH_BUFFER (fun x => x.ip >>> LOG2_PAGE_SIZE) b first hb
    refine ⟨range_end s.IFETCH_BUFFER (fun x => x.ip >>> LOG2_PAGE_SIZE) b, h1, h2, h3, h4,
      ?_, ?_⟩
    · intro hgate hrq
      have htf : translate_fetch s rq_index
          = do_translate_fetch s b
              (range_end s.IFETCH_BUFFER (fun x => x.ip >>> LOG2_PAGE_SIZE) b) rq_index := by
        unfold translate_fetch
        rw [if_neg hne]
        simp only [hfi]
        rw [if_pos hlt, if_pos hgate]
      rw [htf]
      unfold do_translate_fetch
      rw [hb]
      dsimp only
      rw [if_pos hrq]
      refine ⟨rfl, rfl, ?_⟩
      intro i
      refine Eq.trans (foldl_mark_getElem? (fun x => { x with translated := INFLIGHT })
        (List.range' b (range_end s.IFETCH_BUFFER (fun x => x.ip >>> LOG2_PAGE_SIZE) b - b))
        (List.nodup_range' _ _) s.IFETCH_BUFFER i) ?_
      by_cases hi : b ≤ i ∧ i < range_end s.IFETCH_BUFFER (fun x => x.ip >>> LOG2_PAGE_SIZE) b
      · have hm : i ∈ List.range' b
            (range_end s.IFETCH_BUFFER (fun x => x.ip >>> LOG2_PAGE_SIZE) b - b) := by
          rw [List.mem_range'_1]; omega
        rw [if_pos hm]
        cases s.IFETCH_BUFFER[i]? with
        | none => rfl
        | some x => simp [hi]
      · have hm : ¬ i ∈ List.range' b
            (range_end s.IFETCH_BUFFER (fun x => x.ip >>> LOG2_PAGE_SIZE) b - b) := by
          rw [List.mem_range'_1]; omega
        rw [if_neg hm]
        cases s.IFETCH_BUFFER[i]? with
        | none => rfl
        | some x => simp [hi]
    · intro hcase
      unfold translate_fetch
      rw [if_neg hne]
      simp only [hfi]
      rw [if_pos hlt]
      rcases hcase with ⟨he, hb0⟩ | hrq
      · rw [if_neg (by rw [he]; simp [hb0])]
      · by_cases hgate : range_end s.IFETCH_BUFFER (fun x => x.ip >>> LOG2_PAGE_SIZE) b
            ≠ s.IFETCH_BUFFER.length ∨ b = 0
        · rw [if_pos hgate]
          unfold do_translate_fetch
          rw [hb]
          simp only [hrq]
          simp
        · rw [if_neg hgate]
  · intro hall
    unfold translate_fetch
    by_cases hne : s.IFETCH_BUFFER = []
    · rw [if_pos hne]
    · rw [if_neg hne]
      have : s.IFETCH_BUFFER.findIdx (fun x => x.translated == 0) = s.IFETCH_BUFFER.length := by
        rw [List.findIdx_eq_length]
        intro x hx
        simpa using hall x hx
      simp only [this]
      rw [if_neg (lt_irrefl _)]

/-! ## The DIB -/

/-- The update of the LRU state of a set changes neither a valid bit nor an address. -/
theorem lru_update_key (set : List dib_entry_t) (way : Nat) :
    (lru_update set way).map dib_key = set.map dib_key := by
  unfold lru_update
  cases set[way]? with
  | none => rfl
  | some w =>
    simp only [List.map_map]
    have h : (dib_key ∘ fun p : Nat × dib_entry_t =>
        if p.1 = way then { p.2 with lru := 0 }
        else if p.2.lru ≤ w.lru then { p.2 with lru := p.2.lru + 1 } else p.2)
        = dib_key ∘ Prod.snd := by
      funext p
      simp only [Function.comp]
      by_cases h1 : p.1 = way
      · rw [if_pos h1]; rfl
      · rw [if_neg h1]
        by_cases h2 : p.2.lru ≤ w.lru
        · rw [if_pos h2]; rfl
        · rw [if_neg h2]
    rw [h, ← List.map_map, List.enum_map_snd]

/-- The update of the LRU state of a set keeps the number of its ways. -/
theorem lru_update_length (set : List dib_entry_t) (way : Nat) :
    (lru_update set way).length = set.length := by
  have := congrArg List.length (lru_update_key set way)
  rwa [List.length_map, List.length_map] at this

/-- A DIB is the ways before a set, the set, and the ways after it. -/
theorem dib_split (dib : List dib_entry_t) (b way : Nat) :
    dib = dib.take b ++ (dib.drop b).take way ++ dib.drop (b + way) := by
  rw [List.append_assoc, ← List.drop_drop, List.take_append_drop, List.take_append_drop]

/-- Replacing a set by ways with the same valid bits and addresses keeps the valid bits and
addresses of the DIB. -/
theorem dib_put_key (cfg : StageConfig) (dib : List dib_entry_t) (ip : Nat)
    (set : List dib_entry_t)
    (h : set.map dib_key
      = ((dib.drop (dib_set_begin cfg ip)).take cfg.dib_way).map dib_key) :
    (dib_put cfg dib ip set).map dib_key = dib.map dib_key := by
  have hs := dib_split dib (dib_set_begin cfg ip) cfg.dib_way
  unfold dib_put
  have : dib.map dib_key
      = (dib.take (dib_set_begin cfg ip) ++ (dib.drop (dib_set_begin cfg ip)).take cfg.dib_way
          ++ dib.drop (dib_set_begin cfg ip + cfg.dib_way)).map dib_key := by
    rw [← hs]
  rw [this]
  simp only [List.map_append]
  rw [h]
  rfl

/-- The entries of a DIB one of whose sets has been replaced by as many ways. -/
theorem dib_put_getElem? (cfg : StageConfig) (dib : List dib_entry_t) (ip : Nat)
    (set : List dib_entry_t) (hb : dib_set_begin cfg ip ≤ dib.length)
    (h : set.length = ((dib.drop (dib_set_begin cfg ip)).take cfg.dib_way).length) (j : Nat) :
    (dib_put cfg dib ip set)[j]?
      = if dib_set_begin cfg ip ≤ j ∧ j < dib_set_begin cfg ip + cfg.dib_way then
          set[j - dib_set_begin cfg ip]?
        else dib[j]? := by
  have hput : dib_put cfg dib ip set
      = dib.take (dib_set_begin cfg ip) ++ set
          ++ dib.drop (dib_set_begin cfg ip + cfg.dib_way) := rfl
  rw [hput]
  generalize dib_set_begin cfg ip = b at hb h ⊢
  have hlt : (dib.take b).length = b := by rw [List.length_take]; omega
  have hsl : set.length = min cfg.dib_way (dib.length - b) := by
    rw [h, List.length_take, List.length_drop]
  by_cases h1 : j < b
  · rw [if_neg (by omega), List.append_assoc, List.getElem?_append_left (by omega),
      List.getElem?_take, if_pos h1]
  · by_cases h2 : j < b + cfg.dib_way
    · rw [if_pos ⟨by omega, h2⟩]
      by_cases h3 : j - b < set.length
      · rw [List.getElem?_append_left (by rw [List.length_append]; omega),
          List.getElem?_append_right (by omega), hlt]
      · rw [List.getElem?_append_right (by rw [List.length_append]; omega)]
        have e1 : set[j - b]? = none := List.getElem?_eq_none (by omega)
        have e2 : dib.drop (b + cfg.dib_way) = [] := by
          apply List.drop_eq_nil_of_le
          have : set.length < cfg.dib_way := by omega
          omega
        rw [e1, e2]; rfl
    · rw [if_neg (by omega), List.getElem?_append_right (by rw [List.length_append]; omega),
        List.getElem?_drop, List.length_append, hlt]
      by_cases h3 : set.length = cfg.dib_way
      · congr 1; omega
      · have e1 : dib[j]? = none := List.getElem?_eq_none (by omega)
        rw [e1]
        exact List.getElem?_eq_none (by omega)

/-- The ways of the set of `ip`. -/
theorem dib_set_getElem? (dib : List dib_entry_t) (b way k : Nat) :
    ((dib.drop b).take way)[k]? = if k < way then dib[b + k]? else none := by
  rw [List.getElem?_take, List.getElem?_drop]

/-- A way of the set of `ip` that holds the line of `ip` makes the lookup hit. -/
theorem dib_find_of_resident (cfg : StageConfig) (dib : List dib_entry_t) (ip p : Nat)
    (h : dib_resident_at cfg dib ip p) : ∃ way, dib_find cfg dib ip = some way := by
  obtain ⟨h1, h2, e, he, hm⟩ := h
  unfold dib_find
  have hmem : e ∈ (dib.drop (dib_set_begin cfg ip)).take cfg.dib_way := by
    rw [List.mem_iff_getElem?]
    refine ⟨p - dib_set_begin cfg ip, ?_⟩
    rw [dib_set_getElem?, if_pos (by omega), ← he]
    congr 1; omega
  have hlt := List.findIdx_lt_length_of_exists ⟨e, hmem, hm⟩
  exact ⟨_, if_pos hlt⟩

/-- A hit of the lookup is a way of the set of `ip` that holds the line of `ip`. -/
theorem resident_of_dib_find (cfg : StageConfig) (dib : List dib_entry_t) (ip way : Nat)
    (h : dib_find cfg dib ip = some way) :
    way < ((dib.drop (dib_set_begin cfg ip)).take cfg.dib_way).length
      ∧ dib_resident_at cfg dib ip (dib_set_begin cfg ip + way) := by
  unfold dib_find at h
  by_cases hlt : ((dib.drop (dib_set_begin cfg ip)).take cfg.dib_way).findIdx
      (dib_match ip (lg2 cfg.dib_window))
      < ((dib.drop (dib_set_begin cfg ip)).take cfg.dib_way).length
  · have hw : ((dib.drop (dib_set_begin cfg ip)).take cfg.dib_way).findIdx
        (dib_match ip (lg2 cfg.dib_window)) = way := by
      have := h
      simp only [dib_set_begin] at hlt
      simp only [if_pos hlt] at this
      exact Option.some.inj this
    rw [hw] at hlt
    refine ⟨hlt, ?_⟩
    have hm := @List.findIdx_getElem _ (dib_match ip (lg2 cfg.dib_window))
      ((dib.drop (dib_set_begin cfg ip)).take cfg.dib_way) (by rw [hw]; exact hlt)
    have hget := List.getElem?_eq_getElem hlt
    rw [dib_set_getElem?] at hget
    have hwl : way < cfg.dib_way := by
      rw [List.length_take] at hlt; omega
    rw [if_pos hwl] at hget
    refine ⟨by omega, by omega, _, hget, ?_⟩
    simp only [hw] at hm
    exact hm
  · simp only [dib_set_begin] at hlt
    simp only [if_neg hlt] at h
    exact absurd h (by simp)

/-- When no way of the set of `ip` holds the line of `ip` the lookup misses. -/
theorem dib_find_none (cfg : StageConfig) (dib : List dib_entry_t) (ip : Nat)
    (h : ∀ p e, dib_set_begin cfg ip ≤ p → p < dib_set_begin cfg ip + cfg.dib_way →
      dib[p]? = some e → dib_match ip (lg2 cfg.dib_window) e = false) :
    dib_find cfg dib ip = none := by
  cases hf : dib_find cfg dib ip with
  | none => rfl
  | some way =>
    obtain ⟨_, h1, h2, e, he, hm⟩ := resident_of_dib_find cfg dib ip way hf
    rw [h _ e h1 h2 he] at hm
    exact absurd hm (by simp)

/-- Whether a way holds the line of `ip` depends on the window of `ip` only. -/
theorem dib_match_window (ip ip2 shamt : Nat) (e : dib_entry_t)
    (h : ip2 >>> shamt = ip >>> shamt) : dib_match ip2 shamt e = dib_match ip shamt e := by
  unfold dib_match; rw [h]

/-- Two instructions of one window have the same set. -/
theorem dib_set_begin_window (cfg : StageConfig) (ip ip2 : Nat)
    (h : ip2 >>> lg2 cfg.dib_window = ip >>> lg2 cfg.dib_window) :
    dib_set_begin cfg ip2 = dib_set_begin cfg ip := by
  unfold dib_set_begin; rw [h]

/-- Residence depends on the valid bits and the addresses only. -/
theorem dib_resident_at_key (cfg : StageConfig) (dib dib2 : List dib_entry_t) (ip p : Nat)
    (hk : (dib2.map dib_key)[p]? = (dib.map dib_key)[p]?)
    (h : dib_resident_at cfg dib ip p) : dib_resident_at cfg dib2 ip p := by
  obtain ⟨h1, h2, e, he, hm⟩ := h
  rw [List.getElem?_map, List.getElem?_map, he] at hk
  obtain ⟨e2, he2⟩ : ∃ e2, dib2[p]? = some e2 := by
    cases he2 : dib2[p]? with
    | none => rw [he2] at hk; exact absurd hk (by simp)
    | some e2 => exact ⟨e2, rfl⟩
  · rw [he2] at hk
    simp only [Option.map_some', Option.some.injEq, dib_key, Prod.mk.injEq] at hk
    refine ⟨h1, h2, e2, he2, ?_⟩
    unfold dib_match at hm ⊢
    rw [hk.1, hk.2]; exact hm

/-- What `do_check_dib` does on a hit. -/
theorem do_check_dib_hit {β : Type} (cfg : StageConfig) (s : Core β) (i : Nat)
    (instr : ooo_model_instr) (way : Nat) (hi : s.IFETCH_BUFFER[i]? = some instr)
    (hw : dib_find cfg s.DIB instr.ip = some way) :
    do_check_dib cfg s i
      = { s with
          IFETCH_BUFFER := (s.IFETCH_BUFFER.set i
            { instr with translated := COMPLETED, fetched := COMPLETED, decoded := COMPLETED,
                         event_cycle := s.current_cycle })
          DIB := dib_put cfg s.DIB instr.ip
            (lru_update ((s.DIB.drop (dib_set_begin cfg instr.ip)).take cfg.dib_way) way) } := by
  unfold do_check_dib
  rw [hi]
  simp only [hw]
  rfl

/-- What `do_check_dib` does on a miss: nothing. -/
theorem do_check_dib_miss {β : Type} (cfg : StageConfig) (s : Core β) (i : Nat)
    (instr : ooo_model_instr) (hi : s.IFETCH_BUFFER[i]? = some instr)
    (hw : dib_find cfg s.DIB instr.ip = none) : do_check_dib cfg s i = s := by
  unfold do_check_dib
  rw [hi]
  simp only [hw]

/-- `do_check_dib` changes neither a valid bit nor an address of the DIB. -/
theorem do_check_dib_key {β : Type} (cfg : StageConfig) (s : Core β) (i : Nat) :
    (do_check_dib cfg s i).DIB.map dib_key = s.DIB.map dib_key := by
  cases hi : s.IFETCH_BUFFER[i]? with
  | none => unfold do_check_dib; rw [hi]
  | some instr =>
    cases hw : dib_find cfg s.DIB instr.ip with
    | none => rw [do_check_dib_miss cfg s i instr hi hw]
    | some way =>
      rw [do_check_dib_hit cfg s i instr way hi hw]
      exact dib_put_key cfg s.DIB instr.ip _ (lru_update_key _ _)

/-- `do_check_dib` writes the entry it is called for and no other entry of the buffer, and it
keeps the `ip` of that entry. -/
theorem do_check_dib_buffer {β : Type} (cfg : StageConfig) (s : Core β) (i : Nat) :
    (do_check_dib cfg s i).IFETCH_BUFFER.length = s.IFETCH_BUFFER.length
      ∧ ∀ j, j ≠ i → (do_check_dib cfg s i).IFETCH_BUFFER[j]? = s.IFETCH_BUFFER[j]? := by
  cases hi : s.IFETCH_BUFFER[i]? with
  | none => unfold do_check_dib; rw [hi]; exact ⟨rfl, fun _ _ => rfl⟩
  | some instr =>
    cases hw : dib_find cfg s.DIB instr.ip with
    | none => rw [do_check_dib_miss cfg s i instr hi hw]; exact ⟨rfl, fun _ _ => rfl⟩
    | some way =>
      rw [do_check_dib_hit cfg s i instr way hi hw]
      refine ⟨List.length_set _ _ _, fun j hj => ?_⟩
      simp only [List.getElem?_set]
      rw [if_neg (fun h => hj h.symm)]

/-- `do_check_dib` works on the entry it is called for without reading the entries behind
it. -/
theorem do_check_dib_append {β : Type} (cfg : StageConfig) (s : Core β) (i : Nat)
    (tail : List ooo_model_instr) (hi : i < s.IFETCH_BUFFER.length) :
    do_check_dib cfg { s with IFETCH_BUFFER := s.IFETCH_BUFFER ++ tail } i
      = { do_check_dib cfg s i with
          IFETCH_BUFFER := (do_check_dib cfg s i).IFETCH_BUFFER ++ tail } := by
  obtain ⟨instr, hinstr⟩ : ∃ instr, s.IFETCH_BUFFER[i]? = some instr :=
    ⟨_, List.getElem?_eq_getElem hi⟩
  have hinstr2 : ({ s with IFETCH_BUFFER := s.IFETCH_BUFFER ++ tail } : Core β).IFETCH_BUFFER[i]?
      = some instr := by
    show (s.IFETCH_BUFFER ++ tail)[i]? = some instr
    rw [List.getElem?_append_left hi]; exact hinstr
  cases hw : dib_find cfg s.DIB instr.ip with
  | none =>
    rw [do_check_dib_miss cfg s i instr hinstr hw,
      do_check_dib_miss cfg _ i instr hinstr2 hw]
  | some way =>
    rw [do_check_dib_hit cfg s i instr way hinstr hw,
      do_check_dib_hit cfg _ i instr way hinstr2 hw]
    show ({ s with IFETCH_BUFFER := (s.IFETCH_BUFFER ++ tail).set i _, DIB := _ } : Core β) = _
    rw [List.set_append_left _ _ hi]

/-- A sequence of calls of `do_check_dib` keeps the length of the buffer and the entries it
is not called for. -/
theorem foldl_do_check_dib_buffer {β : Type} (cfg : StageConfig) :
    ∀ (l : List Nat) (s : Core β),
      (l.foldl (do_check_dib cfg) s).IFETCH_BUFFER.length = s.IFETCH_BUFFER.length
        ∧ ∀ j, j ∉ l → (l.foldl (do_check_dib cfg) s).IFETCH_BUFFER[j]? = s.IFETCH_BUFFER[j]? := by
  intro l
  induction l with
  | nil => intro s; exact ⟨rfl, fun _ _ => rfl⟩
  | cons i rest ih =>
    intro s
    rw [List.foldl_cons]
    obtain ⟨h1, h2⟩ := ih (do_check_dib cfg s i)
    obtain ⟨h3, h4⟩ := do_check_dib_buffer cfg s i
    refine ⟨h1.trans h3, fun j hj => ?_⟩
    rw [List.mem_cons, not_or] at hj
    rw [h2 j hj.2, h4 j hj.1]

/-- A sequence of calls of `do_check_dib` for entries of the head of the buffer does not
read the entries behind the head. -/
theorem foldl_do_check_dib_append {β : Type} (cfg : StageConfig)
    (tail : List ooo_model_instr) :
    ∀ (l : List Nat) (s : Core β), (∀ i, i ∈ l → i < s.IFETCH_BUFFER.length) →
      l.foldl (do_check_dib cfg) { s with IFETCH_BUFFER := s.IFETCH_BUFFER ++ tail }
        = { l.foldl (do_check_dib cfg) s with
            IFETCH_BUFFER := (l.foldl (do_check_dib cfg) s).IFETCH_BUFFER ++ tail } := by
  intro l
  induction l with
  | nil => intro s _; rfl
  | cons i rest ih =>
    intro s hl
    rw [List.foldl_cons, List.foldl_cons,
      do_check_dib_append cfg s i tail (hl i (List.mem_cons_self _ _))]
    apply ih
    intro k hk
    rw [(do_check_dib_buffer cfg s i).1]
    exact hl k (List.mem_cons_of_mem _ hk)

/-- C24. `check_dib` keeps the length of `IFETCH_BUFFER` and every entry from the index
`min(FETCH_WIDTH, occupancy)` on, and when the buffer holds `FETCH_WIDTH` entries, entries
pushed behind them change nothing in what it does. For an entry `instr` of the buffer
`do_check_dib` looks in the set that begins at `((ip >> lg2(dib_window)) % dib_set) * dib_way`
and has `dib_way` ways: if one of those ways holds the line of `instr.ip` (hit) the entry
gets `translated = fetched = decoded = COMPLETED` and `event_cycle = current_cycle` and keeps
its other fields, nothing outside the buffer and the DIB changes, no way outside that set
changes, and no valid bit and no address of the DIB changes; if none of those ways holds the
line (miss) the core, with the instruction and the whole DIB, is unchanged. -/
theorem check_dib_examines_head {β : Type} (cfg : StageConfig) (s : Core β) :
    (check_dib cfg s).IFETCH_BUFFER.length = s.IFETCH_BUFFER.length
      ∧ (∀ j, min cfg.FETCH_WIDTH s.IFETCH_BUFFER.length ≤ j →
          (check_dib cfg s).IFETCH_BUFFER[j]? = s.IFETCH_BUFFER[j]?)
      ∧ (∀ tail, s.IFETCH_BUFFER.length = cfg.FETCH_WIDTH →
          check_dib cfg { s with IFETCH_BUFFER := s.IFETCH_BUFFER ++ tail }
            = { check_dib cfg s with
                IFETCH_BUFFER := (check_dib cfg s).IFETCH_BUFFER ++ tail })
      ∧ (∀ i instr, s.IFETCH_BUFFER[i]? = some instr →
          ((∃ p e, ((instr.ip >>> lg2 cfg.dib_window) % cfg.dib_set) * cfg.dib_way ≤ p
              ∧ p < ((instr.ip >>> lg2 cfg.dib_window) % cfg.dib_set) * cfg.dib_way
                  + cfg.dib_way
              ∧ s.DIB[p]? = some e ∧ dib_match instr.ip (lg2 cfg.dib_window) e = true) →
            do_check_dib cfg s i
                = { s with
                    IFETCH_BUFFER := (s.IFETCH_BUFFER.set i
                      { instr with translated := COMPLETED, fetched := COMPLETED,
                                   decoded := COMPLETED, event_cycle := s.current_cycle })
                    DIB := (do_check_dib cfg s i).DIB }
              ∧ (∀ j, ¬ (((instr.ip >>> lg2 cfg.dib_window) % cfg.dib_set) * cfg.dib_way ≤ j
                    ∧ j < ((instr.ip >>> lg2 cfg.dib_window) % cfg.dib_set) * cfg.dib_way
                        + cfg.dib_way) →
                  (do_check_dib cfg s i).DIB[j]? = s.DIB[j]?)
              ∧ (do_check_dib cfg s i).DIB.map dib_key = s.DIB.map dib_key)
          ∧ ((∀ p e, ((instr.ip >>> lg2 cfg.dib_window) % cfg.dib_set) * cfg.dib_way ≤ p →
              p < ((instr.ip >>> lg2 cfg.dib_window) % cfg.dib_set) * cfg.dib_way
                  + cfg.dib_way →
              s.DIB[p]? = some e → dib_match instr.ip (lg2 cfg.dib_window) e = false) →
            do_check_dib cfg s i = s)) := by
  refine ⟨?_, ?_, ?_, ?_⟩
  · exact (foldl_do_check_dib_buffer cfg _ s).1
  · intro j hj
    apply (foldl_do_check_dib_buffer cfg _ s).2
    rw [List.mem_range]
    omega
  · intro tail hlen
    unfold check_dib
    have e2 : min (s.IFETCH_BUFFER ++ tail).length cfg.FETCH_WIDTH
        = min s.IFETCH_BUFFER.length cfg.FETCH_WIDTH := by
      rw [List.length_append]; omega
    show (List.range (min (s.IFETCH_BUFFER ++ tail).length cfg.FETCH_WIDTH)).foldl
      (do_check_dib cfg) { s with IFETCH_BUFFER := s.IFETCH_BUFFER ++ tail } = _
    rw [e2]
    apply foldl_do_check_dib_append
    intro i hi
    rw [List.mem_range] at hi
    omega
  · intro i instr hi
    constructor
    · rintro ⟨p, e, h1, h2, he, hm⟩
      obtain ⟨way, hw⟩ := dib_find_of_resident cfg s.DIB instr.ip p ⟨h1, h2, e, he, hm⟩
      obtain ⟨hwl, _⟩ := resident_of_dib_find cfg s.DIB instr.ip way hw
      rw [do_check_dib_hit cfg s i instr way hi hw]
      refine ⟨rfl, ?_, ?_⟩
      · intro j hj
        have hb : dib_set_begin cfg instr.ip ≤ s.DIB.length := by
          rw [List.length_take, List.length_drop] at hwl
          omega
        have := dib_put_getElem? cfg s.DIB instr.ip
          (lru_update ((s.DIB.drop (dib_set_begin cfg instr.ip)).take cfg.dib_way) way) hb
          (lru_update_length _ _) j
        rw [if_neg (show ¬ (dib_set_begin cfg instr.ip ≤ j
          ∧ j < dib_set_begin cfg instr.ip + cfg.dib_way) from hj)] at this
        exact this
      · exact dib_put_key cfg s.DIB instr.ip _ (lru_update_key _ _)
    · intro hmiss
      exact do_check_dib_miss cfg s i instr hi (dib_find_none cfg s.DIB instr.ip hmiss)

/-- A way of the set of `ip` that is valid and whose address is in the window of `ip` holds
the line of `ip`. -/
theorem dib_resident_at_of_key (cfg : StageConfig) (dib : List dib_entry_t) (ip p a : Nat)
    (h1 : dib_set_begin cfg ip ≤ p) (h2 : p < dib_set_begin cfg ip + cfg.dib_way)
    (hk : (dib.map dib_key)[p]? = some (true, a))
    (ha : a >>> lg2 cfg.dib_window = ip >>> lg2 cfg.dib_window) :
    dib_resident_at cfg dib ip p := by
  rw [List.getElem?_map] at hk
  obtain ⟨e, he⟩ : ∃ e, dib[p]? = some e := by
    cases he : dib[p]? with
    | none => rw [he] at hk; exact absurd hk (by simp)
    | some e => exact ⟨e, rfl⟩
  rw [he] at hk
  simp only [Option.map_some', Option.some.injEq, dib_key, Prod.mk.injEq] at hk
  refine ⟨h1, h2, e, he, ?_⟩
  unfold dib_match
  rw [hk.1, hk.2, ha]
  simp

/-- Residence of a line is residence of every line of its window. -/
theorem dib_resident_at_window (cfg : StageConfig) (dib : List dib_entry_t) (ip ip2 p : Nat)
    (hw : ip2 >>> lg2 cfg.dib_window = ip >>> lg2 cfg.dib_window)
    (h : dib_resident_at cfg dib ip p) : dib_resident_at cfg dib ip2 p := by
  obtain ⟨h1, h2, e, he, hm⟩ := h
  refine ⟨?_, ?_, e, he, ?_⟩
  · rw [dib_set_begin_window cfg ip ip2 hw]; exact h1
  · rw [dib_set_begin_window cfg ip ip2 hw]; exact h2
  · rw [dib_match_window ip ip2 _ e hw]; exact hm

/-- What `do_dib_update` does when the line is in the DIB. -/
theorem do_dib_update_hit (cfg : StageConfig) (dib : List dib_entry_t) (ip way : Nat)
    (hw : dib_find cfg dib ip = some way) :
    do_dib_update cfg dib ip
      = some (dib_put cfg dib ip
          (lru_update ((dib.drop (dib_set_begin cfg ip)).take cfg.dib_way) way)) := by
  unfold do_dib_update
  simp only [hw]
  rfl

/-- What `do_dib_update` does when the line is not in the DIB: a way `way` of the set takes
the line. -/
theorem do_dib_update_miss (cfg : StageConfig) (dib dib2 : List dib_entry_t) (ip : Nat)
    (hw : dib_find cfg dib ip = none) (h : do_dib_update cfg dib ip = some dib2) :
    ∃ way e, ((dib.drop (dib_set_begin cfg ip)).take cfg.dib_way)[way]? = some e
      ∧ dib2 = dib_put cfg dib ip
          (lru_update (((dib.drop (dib_set_begin cfg ip)).take cfg.dib_way).set way
            { e with valid := true, address := ip }) way) := by
  unfold do_dib_update at h
  simp only [hw] at h
  have hset : (dib.drop (((ip >>> lg2 cfg.dib_window) % cfg.dib_set) * cfg.dib_way)).take
      cfg.dib_way = (dib.drop (dib_set_begin cfg ip)).take cfg.dib_way := rfl
  rw [hset] at h
  generalize (dib.drop (dib_set_begin cfg ip)).take cfg.dib_way = set at h ⊢
  cases set with
  | nil => exact absurd h (by simp)
  | cons first others =>
    simp only at h
    generalize (first :: others).findIdx
      (fun e => e.lru == others.foldl (fun m e => max m e.lru) first.lru) = way at h
    cases he : (first :: others)[way]? with
    | none => rw [he] at h; exact absurd h (by simp)
    | some e =>
      rw [he] at h
      exact ⟨way, e, he, (Option.some.inj h).symm⟩

/-- After `do_dib_update` for `ip` a way of the set of `ip` holds the line of `ip`. -/
theorem do_dib_update_resident (cfg : StageConfig) (dib dib2 : List dib_entry_t) (ip : Nat)
    (h : do_dib_update cfg dib ip = some dib2) : ∃ p, dib_resident_at cfg dib2 ip p := by
  cases hw : dib_find cfg dib ip with
  | some way =>
    obtain ⟨_, hres⟩ := resident_of_dib_find cfg dib ip way hw
    rw [do_dib_update_hit cfg dib ip way hw] at h
    refine ⟨_, dib_resident_at_key cfg dib dib2 ip _ ?_ hres⟩
    rw [← Option.some.inj h, dib_put_key cfg dib ip _ (lru_update_key _ _)]
  | none =>
    obtain ⟨way, e, he, hd⟩ := do_dib_update_miss cfg dib dib2 ip hw h
    have hwl : way < ((dib.drop (dib_set_begin cfg ip)).take cfg.dib_way).length :=
      (List.getElem?_eq_some_iff.mp he).1
    have hway : way < cfg.dib_way := by rw [List.length_take] at hwl; omega
    have hb : dib_set_begin cfg ip ≤ dib.length := by
      rw [List.length_take, List.length_drop] at hwl; omega
    refine ⟨dib_set_begin cfg ip + way,
      dib_resident_at_of_key cfg dib2 ip _ ip (by omega) (by omega) ?_ rfl⟩
    have hlen : (lru_update (((dib.drop (dib_set_begin cfg ip)).take cfg.dib_way).set way
        { e with valid := true, address := ip }) way).length
        = ((dib.drop (dib_set_begin cfg ip)).take cfg.dib_way).length := by
      rw [lru_update_length, List.length_set]
    have hget := dib_put_getElem? cfg dib ip _ hb hlen (dib_set_begin cfg ip + way)
    rw [if_pos ⟨by omega, by omega⟩, Nat.add_sub_cancel_left] at hget
    rw [hd, List.getElem?_map, hget, ← List.getElem?_map, lru_update_key, List.map_set,
      List.getElem?_set, if_pos rfl, if_pos (by rw [List.length_map]; exact hwl)]
    rfl

/-- Two sets of the DIB do not overlap. -/
theorem dib_sets_disjoint (cfg : StageConfig) (ip ip2 p : Nat)
    (hne : dib_set_begin cfg ip2 ≠ dib_set_begin cfg ip)
    (h1 : dib_set_begin cfg ip ≤ p) (h2 : p < dib_set_begin cfg ip + cfg.dib_way) :
    ¬ (dib_set_begin cfg ip2 ≤ p ∧ p < dib_set_begin cfg ip2 + cfg.dib_way) := by
  unfold dib_set_begin at *
  generalize (ip >>> lg2 cfg.dib_window) % cfg.dib_set = a at *
  generalize (ip2 >>> lg2 cfg.dib_window) % cfg.dib_set = b at *
  rintro ⟨h3, h4⟩
  rcases Nat.lt_trichotomy a b with hab | hab | hab
  · have : (a + 1) * cfg.dib_way ≤ b * cfg.dib_way := Nat.mul_le_mul_right _ hab
    rw [Nat.add_mul, Nat.one_mul] at this
    omega
  · exact hne (by rw [hab])
  · have : (b + 1) * cfg.dib_way ≤ a * cfg.dib_way := Nat.mul_le_mul_right _ hab
    rw [Nat.add_mul, Nat.one_mul] at this
    omega

/-- `do_dib_update` for a line of the window of a resident line, or for a line of another
set, keeps the valid bit and the address of the way that holds the resident line. -/
theorem do_dib_update_keeps (cfg : StageConfig) (dib dib2 : List dib_entry_t)
    (ip p ip2 : Nat) (hres : dib_resident_at cfg dib ip p)
    (h : do_dib_update cfg dib ip2 = some dib2)
    (hcase : ip2 >>> lg2 cfg.dib_window = ip >>> lg2 cfg.dib_window
      ∨ dib_set_begin cfg ip2 ≠ dib_set_begin cfg ip) :
    (dib2.map dib_key)[p]? = (dib.map dib_key)[p]? := by
  cases hw : dib_find cfg dib ip2 with
  | some way =>
    rw [do_dib_update_hit cfg dib ip2 way hw] at h
    rw [← Option.some.inj h, dib_put_key cfg dib ip2 _ (lru_update_key _ _)]
  | none =>
    rcases hcase with hwin | hset
    · obtain ⟨way, hway⟩ := dib_find_of_resident cfg dib ip2 p
        (dib_resident_at_window cfg dib ip ip2 p hwin hres)
      rw [hw] at hway
      exact absurd hway (by simp)
    · obtain ⟨way, e, he, hd⟩ := do_dib_update_miss cfg dib dib2 ip2 hw h
      have hwl : way < ((dib.drop (dib_set_begin cfg ip2)).take cfg.dib_way).length :=
        (List.getElem?_eq_some_iff.mp he).1
      have hb : dib_set_begin cfg ip2 ≤ dib.length := by
        rw [List.length_take, List.length_drop] at hwl; omega
      have hlen : (lru_update (((dib.drop (dib_set_begin cfg ip2)).take cfg.dib_way).set way
          { e with valid := true, address := ip2 }) way).length
          = ((dib.drop (dib_set_begin cfg ip2)).take cfg.dib_way).length := by
        rw [lru_update_length, List.length_set]
      have hget := dib_put_getElem? cfg dib ip2 _ hb hlen p
      rw [if_neg (dib_sets_disjoint cfg ip ip2 p hset hres.1 hres.2.1)] at hget
      rw [hd, List.getElem?_map, hget, List.getElem?_map]

/-- While the way at `p` is not evicted its valid bit and its address stay. -/
theorem dib_steps_key {β : Type} (cfg : StageConfig) (p : Nat) (s t : Core β)
    (h : Core.dib_steps cfg p s t) : (t.DIB.map dib_key)[p]? = (s.DIB.map dib_key)[p]? := by
  induction h with
  | refl => rfl
  | check t i _ ih => rw [do_check_dib_key]; exact ih
  | update t ip dib _ _ hk ih => exact hk.trans ih
  | other t u _ hu ih => rw [hu]; exact ih

/-- C23. The round trip of the DIB. After `do_dib_update` for `x` a way of the set of `x.ip`
holds the line of `x.ip`, and so it does after a `do_check_dib` that hits for `x`. When a way
at the position `p` holds the line of `x.ip`, then after any sequence of calls of
`do_check_dib`, of calls of `do_dib_update` that do not evict the way at `p`, and of steps
that do not write the DIB, `do_check_dib` for an entry `y` of the buffer with
`(y.ip >> lg2(dib_window)) == (x.ip >> lg2(dib_window))` hits: it sets
`y.translated = y.fetched = y.decoded = COMPLETED`, and the line is still held at `p`.
`do_check_dib` changes no valid bit and no address of the DIB; and `do_dib_update` for a line
of the window of `x` or for a line of another set does not evict the way at `p`, so that only
a `do_dib_update` for another window of the same set can. -/
theorem dib_round_trip {β : Type} (cfg : StageConfig) :
    (∀ dib dib2 ip, do_dib_update cfg dib ip = some dib2 →
        ∃ p, dib_resident_at cfg dib2 ip p)
      ∧ (∀ (s : Core β) i x way, s.IFETCH_BUFFER[i]? = some x →
          dib_find cfg s.DIB x.ip = some way →
          ∃ p, dib_resident_at cfg (do_check_dib cfg s i).DIB x.ip p)
      ∧ (∀ (s t : Core β) ip p, dib_resident_at cfg s.DIB ip p → Core.dib_steps cfg p s t →
          ∀ i y, t.IFETCH_BUFFER[i]? = some y →
            y.ip >>> lg2 cfg.dib_window = ip >>> lg2 cfg.dib_window →
            (do_check_dib cfg t i).IFETCH_BUFFER[i]?
                = some { y with translated := COMPLETED, fetched := COMPLETED,
                                decoded := COMPLETED, event_cycle := t.current_cycle }
              ∧ dib_resident_at cfg (do_check_dib cfg t i).DIB ip p)
      ∧ (∀ (s : Core β) i, (do_check_dib cfg s i).DIB.map dib_key = s.DIB.map dib_key)
      ∧ (∀ dib dib2 ip p ip2, dib_resident_at cfg dib ip p →
          do_dib_update cfg dib ip2 = some dib2 →
          (ip2 >>> lg2 cfg.dib_window = ip >>> lg2 cfg.dib_window
            ∨ ((ip2 >>> lg2 cfg.dib_window) % cfg.dib_set) * cfg.dib_way
                ≠ ((ip >>> lg2 cfg.dib_window) % cfg.dib_set) * cfg.dib_way) →
          (dib2.map dib_key)[p]? = (dib.map dib_key)[p]?) := by
  refine ⟨?_, ?_, ?_, ?_, ?_⟩
  · intro dib dib2 ip h
    exact do_dib_update_resident cfg dib dib2 ip h
  · intro s i x way hi hw
    obtain ⟨_, hres⟩ := resident_of_dib_find cfg s.DIB x.ip way hw
    exact ⟨_, dib_resident_at_key cfg s.DIB _ x.ip _
      (by rw [do_check_dib_key]) hres⟩
  · intro s t ip p hres hsteps i y hy hwin
    have hres_t : dib_resident_at cfg t.DIB ip p :=
      dib_resident_at_key cfg s.DIB t.DIB ip p (dib_steps_key cfg p s t hsteps) hres
    obtain ⟨way, hw⟩ := dib_find_of_resident cfg t.DIB y.ip p
      (dib_resident_at_window cfg t.DIB ip y.ip p hwin hres_t)
    constructor
    · rw [do_check_dib_hit cfg t i y way hy hw]
      show (t.IFETCH_BUFFER.set i _)[i]? = _
      rw [List.getElem?_set, if_pos rfl, if_pos (List.getElem?_eq_some_iff.mp hy).1]
    · exact dib_resident_at_key cfg t.DIB _ ip p (by rw [do_check_dib_key]) hres_t
  · intro s i
    exact do_check_dib_key cfg s i
  · intro dib dib2 ip p ip2 hres h hcase
    exact do_dib_update_keeps cfg dib dib2 ip p ip2 hres h hcase

/-- Witness for C30: in `core_tf` the first entry that waits for translation is at the
index 1; the next entry is in its page and the last one is not, so that the range ends at 3;
the ITLB accepts, and the entries 1 and 2 get `translated = INFLIGHT`. -/
theorem translate_fetch_coalesces_witness :
    core_tf.IFETCH_BUFFER[1]? = some instr_wait
      ∧ (translate_fetch core_tf (-1)).IFETCH_BUFFER.map (fun x => x.translated)
          = [COMPLETED, INFLIGHT, INFLIGHT, 0]
      ∧ (translate_fetch core_tf (-1)).ITLB_RQ.map (fun p => p.instr_depend_on_me) = [[1, 2]]
      ∧ ∃ e, 1 < e ∧ e ≤ core_tf.IFETCH_BUFFER.length
        ∧ ((e ≠ core_tf.IFETCH_BUFFER.length ∨ 1 = 0) → (-1 : Int) ≠ -2 →
            translate_fetch core_tf (-1)
                = { core_tf with
                    ITLB_RQ := (translate_fetch core_tf (-1)).ITLB_RQ
                    IFETCH_BUFFER := (translate_fetch core_tf (-1)).IFETCH_BUFFER }
              ∧ (translate_fetch core_tf (-1)).ITLB_RQ = core_tf.ITLB_RQ ++
                  [{ cpu := core_tf.cpu, address := instr_b.ip, v_address := instr_b.ip,
                     instr_id := 1, ip := instr_b.ip, type := LOAD,
                     instr_depend_on_me :=
                       (List.range' 1 (e - 1)).map (fun i => core_tf.IFETCH_front + i) }]
              ∧ ∀ i, (translate_fetch core_tf (-1)).IFETCH_BUFFER[i]?
                  = (core_tf.IFETCH_BUFFER[i]?).map (fun x =>
                      if 1 ≤ i ∧ i < e then { x with translated := INFLIGHT } else x)) := by
  refine ⟨by decide, by decide, by decide, ?_⟩
  obtain ⟨e, h1, h2, _, _, h5, _⟩ :=
    (translate_fetch_coalesces core_tf (-1)).1 1 instr_wait
      (by decide) (by decide)
      (fun i x hi hx => by
        have h0 : i = 0 := by omega
        subst h0
        have hx0 : core_tf.IFETCH_BUFFER[0]? = some instr_done := by decide
        rw [hx0] at hx
        rw [← Option.some.inj hx]
        decide)
  exact ⟨e, h1, h2, h5⟩

/-- Witness for C24: in `core_tf` the entry at the index 1 has `ip = 0x1010`, whose set begins
at the position 2 of the DIB, and the way at that position holds its line: `do_check_dib`
hits. -/
theorem check_dib_examines_head_witness :
    core_tf.IFETCH_BUFFER[1]? = some instr_wait
      ∧ core_tf.DIB[2]? = some { valid := true, lru := 0, address := 0x1010 }
      ∧ (do_check_dib cfg_stage core_tf 1).IFETCH_BUFFER.map
          (fun x => (x.translated, x.fetched, x.decoded))
          = [(COMPLETED, COMPLETED, COMPLETED), (COMPLETED, COMPLETED, COMPLETED),
             (0, 0, 0), (0, 0, 0)]
      ∧ do_check_dib cfg_stage core_tf 1
          = { core_tf with
              IFETCH_BUFFER := (core_tf.IFETCH_BUFFER.set 1
                { instr_wait with translated := COMPLETED, fetched := COMPLETED,
                                  decoded := COMPLETED, event_cycle := core_tf.current_cycle })
              DIB := (do_check_dib cfg_stage core_tf 1).DIB } :=
  ⟨by decide, by decide, by decide,
    (((check_dib_examines_head cfg_stage core_tf).2.2.2 1 instr_wait
      (by decide)).1
      ⟨2, { valid := true, lru := 0, address := 0x1010 }, by decide, by decide, by decide,
        by decide⟩).1⟩

/-- Witness for C23: `do_dib_update` for `0x1000` puts the line into the first way of the
set 0; `do_dib_update` for `0x1080`, another window of that set, takes the second way; and
`do_check_dib` for an instruction at `0x1004` then hits. -/
theorem dib_round_trip_witness :
    do_dib_update cfg_stage core_dib.DIB 0x1000 = some dib_a
      ∧ do_dib_update cfg_stage dib_a 0x1080 = some dib_b
      ∧ dib_resident_at cfg_stage core_rt.DIB 0x1000 0
      ∧ (do_check_dib cfg_stage { core_rt with DIB := dib_b } 0).IFETCH_BUFFER[0]?
          = some { ip := 0x1004, instr_id := 7, translated := COMPLETED, fetched := COMPLETED,
                   decoded := COMPLETED, event_cycle := 0 }
      ∧ dib_resident_at cfg_stage (do_check_dib cfg_stage { core_rt with DIB := dib_b } 0).DIB
          0x1000 0 := by
  have h1 : do_dib_update cfg_stage core_dib.DIB 0x1000 = some dib_a := by decide
  have h2 : do_dib_update cfg_stage dib_a 0x1080 = some dib_b := by decide
  have h3 : dib_resident_at cfg_stage core_rt.DIB 0x1000 0 :=
    ⟨by decide, by decide, { valid := true, lru := 0, address := 0x1000 }, by decide,
      by decide⟩
  have h4 := (@dib_round_trip Unit cfg_stage).2.2.1 core_rt { core_rt with DIB := dib_b }
    0x1000 0 h3
    (Core.dib_steps.update core_rt core_rt 0x1080 dib_b (Core.dib_steps.refl core_rt) h2
      (by decide))
    0 { ip := 0x1004, instr_id := 7 } (by decide) (by decide)
  exact ⟨h1, h2, h3, h4.1, h4.2⟩

/-! ## Loads that a store of the store queue satisfies -/

/-- The entry written at an index of a list is the entry read there. -/
theorem getElem?_set_of_lt {α : Type} (l : List α) (i : Nat) (a : α) (h : i < l.length) :
    (l.set i a)[i]? = some a := by
  rw [List.getElem?_set, if_pos rfl, if_pos h]

/-- The body of the loop over the loads keeps the store queue and the clock, and, in the
entry it works on, every source operand but the one it is called for. -/
theorem schedule_load_keeps {β : Type} (cfg : StageConfig) (s t : Core β) (i k : Nat)
    (ht : schedule_load cfg s i k = .ok t) :
    t.SQ = s.SQ ∧ t.current_cycle = s.current_cycle
      ∧ ∀ r, s.ROB[i]? = some r → ∃ r1, t.ROB[i]? = some r1
          ∧ r1.source_memory.length = r.source_memory.length
          ∧ ∀ j, j ≠ k → r1.source_memory[j]? = r.source_memory[j]? := by
  unfold schedule_load at ht
  cases hi : s.ROB[i]? with
  | none => rw [hi] at ht; exact absurd ht (by simp)
  | some rob_it =>
    have hlt : i < s.ROB.length := (List.getElem?_eq_some_iff.mp hi).1
    rw [hi] at ht
    simp only at ht
    cases hk : rob_it.source_memory[k]? with
    | none => rw [hk] at ht; exact absurd ht (by simp)
    | some smem_info =>
      rw [hk] at ht
      simp only at ht
      by_cases h1 : (!smem_info.added && !smem_info.will_forward) = true
      · rw [if_pos h1] at ht
        by_cases h2 : s.SQ.any (sq_will_forward smem_info.address) = true
        · rw [if_pos h2] at ht
          by_cases h3 : rob_it.num_mem_ops = 0
          · rw [if_pos h3] at ht
            exact absurd ht (by simp)
          · rw [if_neg h3] at ht
            simp only [Except.ok.injEq] at ht
            subst ht
            refine ⟨rfl, rfl, ?_⟩
            intro r hr
            rw [← Option.some.inj hr]
            refine ⟨_, getElem?_set_of_lt _ i _ hlt, ?_, ?_⟩
            · simp
            · intro j hj
              simp only [List.getElem?_set]
              rw [if_neg (fun h => hj h.symm)]
        · rw [if_neg h2] at ht
          cases hf : find_prior s.ROB (instr_mem_will_produce smem_info.address) i with
          | some j =>
            rw [hf] at ht
            simp only at ht
            obtain ⟨hji, prior, hj⟩ := find_prior_lt _ _ i j hf
            rw [hj] at ht
            simp only [Except.ok.injEq] at ht
            subst ht
            refine ⟨rfl, rfl, ?_⟩
            intro r hr
            rw [← Option.some.inj hr]
            refine ⟨_, getElem?_set_of_lt _ i _ (by rw [List.length_set]; exact hlt), ?_, ?_⟩
            · simp
            · intro j2 hj2
              simp only [List.getElem?_set]
              rw [if_neg (fun h => hj2 h.symm)]
          | none =>
            rw [hf] at ht
            simp only at ht
            cases hl : find_invalid s.LQ with
            | some lq_it =>
              rw [hl] at ht
              simp only [Except.ok.injEq] at ht
              subst ht
              refine ⟨rfl, rfl, ?_⟩
              intro r hr
              rw [← Option.some.inj hr]
              refine ⟨_, getElem?_set_of_lt _ i _ hlt, ?_, ?_⟩
              · simp
              · intro j hj
                simp only [List.getElem?_set]
                rw [if_neg (fun h => hj h.symm)]
            | none =>
              rw [hl] at ht
              simp only [Except.ok.injEq] at ht
              subst ht
              exact ⟨rfl, rfl, fun r hr => ⟨r, by rw [hi, hr], rfl, fun _ _ => rfl⟩⟩
      · rw [if_neg h1] at ht
        simp only [Except.ok.injEq] at ht
        subst ht
        exact ⟨rfl, rfl, fun r hr => ⟨r, by rw [hi, hr], rfl, fun _ _ => rfl⟩⟩

/-- The loop over the loads keeps the store queue and the clock, and, in the entry it works
on, the source operands outside its range. -/
theorem schedule_loads_keeps {β : Type} (cfg : StageConfig) (i : Nat) :
    ∀ (n k : Nat) (s t : Core β), schedule_loads cfg i n k s = .ok t →
      t.SQ = s.SQ ∧ t.current_cycle = s.current_cycle
        ∧ ∀ r, s.ROB[i]? = some r → ∃ r1, t.ROB[i]? = some r1
            ∧ r1.source_memory.length = r.source_memory.length
            ∧ ∀ j, (j < k ∨ k + n ≤ j) → r1.source_memory[j]? = r.source_memory[j]? := by
  intro n
  induction n with
  | zero =>
    intro k s t ht
    unfold schedule_loads at ht
    simp only [Except.ok.injEq] at ht
    subst ht
    exact ⟨rfl, rfl, fun r hr => ⟨r, hr, rfl, fun _ _ => rfl⟩⟩
  | succ n ih =>
    intro k s t ht
    unfold schedule_loads at ht
    cases h1 : schedule_load cfg s i k with
    | error a => rw [h1] at ht; exact absurd ht (by simp)
    | ok s1 =>
      rw [h1] at ht
      simp only at ht
      obtain ⟨a1, a2, a3⟩ := schedule_load_keeps cfg s s1 i k h1
      obtain ⟨b1, b2, b3⟩ := ih (k + 1) s1 t ht
      refine ⟨b1.trans a1, b2.trans a2, ?_⟩
      intro r hr
      obtain ⟨r1, hr1, hl1, hs1⟩ := a3 r hr
      obtain ⟨r2, hr2, hl2, hs2⟩ := b3 r1 hr1
      refine ⟨r2, hr2, hl2.trans hl1, ?_⟩
      intro j hj
      rw [hs2 j (by omega), hs1 j (by omega)]

/-- The loop over the loads is its first iterations, then the rest. -/
theorem schedule_loads_split {β : Type} (cfg : StageConfig) (i : Nat) :
    ∀ (a b k : Nat) (s : Core β),
      schedule_loads cfg i (a + b) k s
        = (schedule_loads cfg i a k s).bind (schedule_loads cfg i b (k + a)) := by
  intro a
  induction a with
  | zero =>
    intro b k s
    rw [Nat.zero_add]
    rfl
  | succ a ih =>
    intro b k s
    rw [show a + 1 + b = (a + b) + 1 by omega]
    unfold schedule_loads
    cases h1 : schedule_load cfg s i k with
    | error e => rfl
    | ok s1 =>
      simp only
      rw [ih b (k + 1) s1, show k + 1 + a = k + (a + 1) by omega]

/-- C21. Store-to-load forwarding from the store queue. Let the source memory operand `k` of
the ROB entry at the index `i` be neither `added` nor `will_forward` when
`do_memory_scheduling` begins, and let some entry of the store queue have
`fetched == COMPLETED` and the address of the operand as its `virtual_address`. The loop of
`do_memory_scheduling` over the loads is the iterations before `k`, the iteration for `k` and
the iterations behind it, and it reaches the operand with the store queue, the clock and the
operand as they were. Its iteration for the operand, when `num_mem_ops` is not 0 (the
assertion of line 582 holds), returns the core in which `num_mem_ops` of the entry is one
less, its `event_cycle` is `current_cycle` and the operand is `added`, and in which nothing
else differs: no slot of the load queue is written, nothing is pushed to `RTL0` and no
`memory_instrs_depend_on_me` changes. When `num_mem_ops` is 0 the assertion fails. -/
theorem store_to_load_forwarding {β : Type} (cfg : StageConfig) (s : Core β) (i k : Nat)
    (rob_it : ooo_model_instr) (smem_info : lsq_info) (hi : s.ROB[i]? = some rob_it)
    (hk : rob_it.source_memory[k]? = some smem_info) (hadded : smem_info.added = false)
    (hforward : smem_info.will_forward = false)
    (hsq : ∃ e, e ∈ s.SQ ∧ e.fetched = COMPLETED ∧ e.virtual_address = smem_info.address) :
    schedule_loads cfg i rob_it.source_memory.length 0 s
        = (schedule_loads cfg i k 0 s).bind (fun s1 =>
            (schedule_load cfg s1 i k).bind
              (schedule_loads cfg i (rob_it.source_memory.length - (k + 1)) (k + 1)))
      ∧ (∀ s1, schedule_loads cfg i k 0 s = .ok s1 →
          s1.SQ = s.SQ ∧ s1.current_cycle = s.current_cycle
            ∧ ∃ r1, s1.ROB[i]? = some r1 ∧ r1.source_memory[k]? = some smem_info)
      ∧ (rob_it.num_mem_ops ≠ 0 →
          schedule_load cfg s i k
            = .ok { s with ROB := (s.ROB.set i
                { rob_it with
                  num_mem_ops := rob_it.num_mem_ops - 1
                  event_cycle := s.current_cycle
                  source_memory := rob_it.source_memory.set k { smem_info with added := true } }) })
      ∧ (rob_it.num_mem_ops = 0 → schedule_load cfg s i k = .error (Abort.assertion 582))
      ∧ (∀ t, schedule_load cfg s i k = .ok t →
          t.LQ = s.LQ ∧ t.RTL0 = s.RTL0 ∧ t.SQ = s.SQ
            ∧ t.ROB.map (fun a => a.memory_instrs_depend_on_me)
                = s.ROB.map (fun a => a.memory_instrs_depend_on_me)
            ∧ ∀ j, j ≠ i → t.ROB[j]? = s.ROB[j]?) := by
  have hany : s.SQ.any (sq_will_forward smem_info.address) = true := by
    obtain ⟨e, he, h1, h2⟩ := hsq
    rw [List.any_eq_true]
    exact ⟨e, he, by unfold sq_will_forward; simp [h1, h2]⟩
  have hcond : (!smem_info.added && !smem_info.will_forward) = true := by
    rw [hadded, hforward]; rfl
  have hpos : rob_it.num_mem_ops ≠ 0 →
      schedule_load cfg s i k
        = .ok { s with ROB := (s.ROB.set i
            { rob_it with
              num_mem_ops := rob_it.num_mem_ops - 1
              event_cycle := s.current_cycle
              source_memory := rob_it.source_memory.set k { smem_info with added := true } }) } := by
    intro h0
    unfold schedule_load
    rw [hi]
    simp only
    rw [hk]
    simp only
    rw [if_pos hcond, if_pos hany, if_neg h0]
  have hzero : rob_it.num_mem_ops = 0 →
      schedule_load cfg s i k = .error (Abort.assertion 582) := by
    intro h0
    unfold schedule_load
    rw [hi]
    simp only
    rw [hk]
    simp only
    rw [if_pos hcond, if_pos hany, if_pos h0]
  refine ⟨?_, ?_, hpos, hzero, ?_⟩
  · have hn : k < rob_it.source_memory.length := (List.getElem?_eq_some_iff.mp hk).1
    generalize rob_it.source_memory.length = n at hn ⊢
    have e1 : n = k + (1 + (n - (k + 1))) := by omega
    have h1 := schedule_loads_split cfg i k (1 + (n - (k + 1))) 0 s
    rw [← e1, Nat.zero_add] at h1
    rw [h1]
    congr 1
    funext s1
    have h2 := schedule_loads_split cfg i 1 (n - (k + 1)) k s1
    rw [h2]
    congr 1
    unfold schedule_loads
    cases schedule_load cfg s1 i k with
    | error e => rfl
    | ok s2 => rfl
  · intro s1 h1
    obtain ⟨a1, a2, a3⟩ := schedule_loads_keeps cfg i k 0 s s1 h1
    obtain ⟨r1, hr1, _, hs1⟩ := a3 rob_it hi
    exact ⟨a1, a2, r1, hr1, by rw [hs1 k (by omega)]; exact hk⟩
  · intro t ht
    by_cases h0 : rob_it.num_mem_ops = 0
    · rw [hzero h0] at ht
      exact absurd ht (by simp)
    · rw [hpos h0] at ht
      simp only [Except.ok.injEq] at ht
      subst ht
      refine ⟨rfl, rfl, rfl, ?_, ?_⟩
      · exact map_set_same _ s.ROB i rob_it _ hi rfl
      · intro j hj
        simp only [List.getElem?_set]
        rw [if_neg (fun h => hj h.symm)]

/-- Witness for C21: the store queue of `core_fw` holds an executed store to `0xABCD00`, and
the load at the index 1 of the ROB reads `0xABCD00`: its only memory operation is satisfied at
once. -/
theorem store_to_load_forwarding_witness :
    core_fw.ROB[1]? = some instr_ld
      ∧ instr_ld.source_memory[0]? = some { address := 0xABCD00 }
      ∧ sq_fw ∈ core_fw.SQ ∧ sq_fw.fetched = COMPLETED ∧ sq_fw.virtual_address = 0xABCD00
      ∧ instr_ld.num_mem_ops = 1
      ∧ schedule_load cfg_stage core_fw 1 0
          = .ok { core_fw with ROB := (core_fw.ROB.set 1
              { instr_ld with
                num_mem_ops := instr_ld.num_mem_ops - 1
                event_cycle := core_fw.current_cycle
                source_memory := instr_ld.source_memory.set 0
                  { address := 0xABCD00, added := true } }) } :=
  ⟨by decide, by decide, by decide, by decide, by decide, by decide,
    (store_to_load_forwarding cfg_stage core_fw 1 0 instr_ld { address := 0xABCD00 }
      (by decide) (by decide) rfl rfl ⟨sq_fw, by decide, by decide, by decide⟩).2.2.1
      (by decide)⟩

/-! ## Retirement -/

/-- Zeroing the address of an operand without address changes nothing. -/
theorem lsq_info_zero_of_zero (d : lsq_info) (h : d.address = 0) :
    ({ d with address := 0 } : lsq_info) = d := by
  cases d
  simp only [lsq_info.mk.injEq, and_self, and_true]
  exact h.symm

/-- The loop of `retire_rob` over the destination operands returns when every operand with
an address names a slot of the store queue; it keeps the number of operands and the size of
the store queue. -/
theorem retire_stores_total (cpu : Nat) :
    ∀ (dm : List lsq_info) (sq : List LSQ_ENTRY) (room : Nat),
      (∀ d, d ∈ dm → d.address ≠ 0 → ∃ q, d.q_it = some q ∧ q < sq.length) →
      ∃ r, retire_stores cpu dm sq room = .ok r ∧ r.1.length = dm.length
        ∧ r.2.1.length = sq.length := by
  intro dm
  induction dm with
  | nil => intro sq room _; exact ⟨_, rfl, rfl, rfl⟩
  | cons d rest ih =>
    intro sq room hwf
    unfold retire_stores
    by_cases hd : d.address ≠ 0
    · rw [if_pos hd]
      obtain ⟨q, hq, hlt⟩ := hwf d (List.mem_cons_self _ _) hd
      rw [hq]
      simp only
      rw [List.getElem?_eq_getElem hlt]
      simp only
      by_cases hroom : room = 0
      · rw [if_pos hroom]
        exact ⟨_, rfl, rfl, rfl⟩
      · rw [if_neg hroom]
        obtain ⟨r, hr, h1, h2⟩ := ih (sq.set q {}) (room - 1) (fun d2 hd2 ha => by
          obtain ⟨q2, hq2, hlt2⟩ := hwf d2 (List.mem_cons_of_mem _ hd2) ha
          exact ⟨q2, hq2, by rw [List.length_set]; exact hlt2⟩)
        rw [hr]
        refine ⟨_, rfl, ?_, ?_⟩
        · simp only [List.length_cons, h1]
        · simp only [h2, List.length_set]
    · rw [if_neg hd]
      obtain ⟨r, hr, h1, h2⟩ := ih sq room (fun d2 hd2 ha => hwf d2 (List.mem_cons_of_mem _ hd2) ha)
      rw [hr]
      refine ⟨_, rfl, ?_, h2⟩
      simp only [List.length_cons, h1]

/-- The loop of `retire_rob` over the destination operands skips the operands without
address. -/
theorem retire_stores_skip (cpu : Nat) :
    ∀ (zs dm : List lsq_info) (sq : List LSQ_ENTRY) (room : Nat),
      (∀ d, d ∈ zs → d.address = 0) →
      retire_stores cpu (zs ++ dm) sq room
        = (retire_stores cpu dm sq room).map (fun r => (zs ++ r.1, r.2)) := by
  intro zs
  induction zs with
  | nil =>
    intro dm sq room _
    rw [List.nil_append]
    cases h : retire_stores cpu dm sq room with
    | error a => rfl
    | ok r => rfl
  | cons z zs ih =>
    intro dm sq room hz
    rw [List.cons_append, retire_stores]
    rw [if_neg (by rw [hz z (List.mem_cons_self _ _)]; simp)]
    rw [ih dm sq room (fun d hd => hz d (List.mem_cons_of_mem _ hd))]
    cases h : retire_stores cpu dm sq room with
    | error a => rfl
    | ok r => rfl

/-- The loop of `retire_rob` over the destination operands when the write queue accepts the
operands of `pre` that have an address and refuses the operand `dmem` behind them: the
operands of `pre` are zeroed and their slots released, one packet per operand accepted has
gone out, and `dmem`, the operands behind it and every other slot are as they were. -/
theorem retire_stores_refused (cpu : Nat) (dmem : lsq_info) (post : List lsq_info)
    (sq_it : Nat) (haddr : dmem.address ≠ 0) (hq : dmem.q_it = some sq_it) :
    ∀ (pre : List lsq_info) (sq : List LSQ_ENTRY) (room : Nat),
      (∀ d, d ∈ pre → d.address ≠ 0 → ∃ q, d.q_it = some q ∧ q < sq.length) →
      sq_it < sq.length →
      pre.countP (fun d => decide (d.address ≠ 0)) = room →
      ∃ sq1 pk, retire_stores cpu (pre ++ dmem :: post) sq room
          = .ok (pre.map (fun d => { d with address := 0 }) ++ dmem :: post, sq1, 0, false, pk)
        ∧ sq1.length = sq.length ∧ pk.length = room
        ∧ (∀ d, d ∈ pre → d.address ≠ 0 → ∀ q, d.q_it = some q → sq1[q]? = some {})
        ∧ (∀ q, (∀ d, d ∈ pre → d.address ≠ 0 → d.q_it ≠ some q) → sq1[q]? = sq[q]?) := by
  intro pre
  induction pre with
  | nil =>
    intro sq room _ hlt hroom
    simp only [List.countP_nil] at hroom
    subst hroom
    refine ⟨sq, [], ?_, rfl, rfl, fun d hd => absurd hd (List.not_mem_nil _), fun _ _ => rfl⟩
    rw [List.nil_append]
    unfold retire_stores
    rw [if_pos haddr, hq]
    simp only
    rw [List.getElem?_eq_getElem hlt]
    simp only [if_pos]
    rfl
  | cons d pre ih =>
    intro sq room hwf hlt hroom
    rw [List.cons_append]
    unfold retire_stores
    by_cases hd : d.address ≠ 0
    · rw [if_pos hd]
      obtain ⟨q, hdq, hqlt⟩ := hwf d (List.mem_cons_self _ _) hd
      rw [hdq]
      simp only
      rw [List.getElem?_eq_getElem hqlt]
      simp only
      rw [List.countP_cons_of_pos _ _ (by simpa using hd)] at hroom
      rw [if_neg (by omega)]
      obtain ⟨sq1, pk, hr, h1, h2, h3, h4⟩ := ih (sq.set q {}) (room - 1)
        (fun d2 hd2 ha => by
          obtain ⟨q2, hq2, hlt2⟩ := hwf d2 (List.mem_cons_of_mem _ hd2) ha
          exact ⟨q2, hq2, by rw [List.length_set]; exact hlt2⟩)
        (by rw [List.length_set]; exact hlt) (by omega)
      rw [hr]
      refine ⟨sq1, retire_packet cpu sq[q] :: pk, ?_, ?_, ?_, ?_, ?_⟩
      · simp only [List.map_cons, List.cons_append, hdq]
      · rw [h1, List.length_set]
      · simp only [List.length_cons, h2]; omega
      · intro d2 hd2 ha q2 hq2
        rw [List.mem_cons] at hd2
        rcases hd2 with hd2 | hd2
        · subst hd2
          rw [hdq] at hq2
          have hqq : q = q2 := Option.some.inj hq2
          subst hqq
          by_cases hex : ∃ d3, d3 ∈ pre ∧ d3.address ≠ 0 ∧ d3.q_it = some q
          · obtain ⟨d3, hd3, ha3, hq3⟩ := hex
            exact h3 d3 hd3 ha3 q hq3
          · rw [h4 q (fun d3 hd3 ha3 hq3 => hex ⟨d3, hd3, ha3, hq3⟩)]
            exact getElem?_set_of_lt sq q {} hqlt
        · exact h3 d2 hd2 ha q2 hq2
      · intro q2 hq2
        rw [h4 q2 (fun d3 hd3 ha3 => hq2 d3 (List.mem_cons_of_mem _ hd3) ha3)]
        have hne : q ≠ q2 := by
          intro h
          subst h
          exact hq2 d (List.mem_cons_self _ _) hd hdq
        rw [List.getElem?_set, if_neg hne]
    · rw [if_neg hd]
      rw [List.countP_cons_of_neg _ _ (by simpa using hd)] at hroom
      obtain ⟨sq1, pk, hr, h1, h2, h3, h4⟩ := ih sq room
        (fun d2 hd2 ha => hwf d2 (List.mem_cons_of_mem _ hd2) ha) hlt hroom
      rw [hr]
      have hd0 : d.address = 0 := by
        by_contra h; exact hd h
      refine ⟨sq1, pk, ?_, h1, h2, ?_, ?_⟩
      · simp only [List.map_cons, List.cons_append]
        rw [lsq_info_zero_of_zero d hd0]
      · intro d2 hd2 ha q2 hq2
        rw [List.mem_cons] at hd2
        rcases hd2 with hd2 | hd2
        · subst hd2; exact absurd hd0 ha
        · exact h3 d2 hd2 ha q2 hq2
      · intro q2 hq2
        exact h4 q2 (fun d3 hd3 ha3 => hq2 d3 (List.mem_cons_of_mem _ hd3) ha3)

/-- The loop of `retire_rob` returns when the destination operands with an address of the
completed entries name slots of the store queue. It removes `k` completed entries from the
head of the ROB, `k` being at most the bandwidth, and counts them; the entries behind the new
head are as they were, and the new head is as it was up to its destination operands, which
are as they were too when it is not completed. -/
theorem retire_loop_spec {β : Type} :
    ∀ (bw room : Nat) (s : Core β),
      (∀ a, a ∈ s.ROB → a.executed = COMPLETED → ∀ d, d ∈ a.destination_memory →
        d.address ≠ 0 → ∃ q, d.q_it = some q ∧ q < s.SQ.length) →
      ∃ t k, retire_loop bw room s = .ok t ∧ k ≤ bw ∧ k ≤ s.ROB.length
        ∧ (∀ a, a ∈ s.ROB.take k → a.executed = COMPLETED)
        ∧ t.num_retired = s.num_retired + k ∧ t.ROB_front = s.ROB_front + k
        ∧ t.ROB.length = s.ROB.length - k
        ∧ (∀ j, 0 < j → t.ROB[j]? = s.ROB[k + j]?)
        ∧ (∀ x, s.ROB[k]? = some x →
            ∃ dm, t.ROB[0]? = some { x with destination_memory := dm }
              ∧ (x.executed ≠ COMPLETED → dm = x.destination_memory)) := by
  intro bw
  induction bw with
  | zero =>
    intro room s _
    refine ⟨s, 0, rfl, le_refl _, Nat.zero_le _, by simp, rfl, rfl, rfl, ?_, ?_⟩
    · intro j _; rw [Nat.zero_add]
    · intro x hx; exact ⟨x.destination_memory, hx, fun _ => rfl⟩
  | succ bw ih =>
    intro room s hwf
    have hcases : s.ROB = [] ∨ ∃ x rest, s.ROB = x :: rest := by
      cases s.ROB with
      | nil => exact Or.inl rfl
      | cons x rest => exact Or.inr ⟨x, rest, rfl⟩
    rcases hcases with hrob | ⟨x, rest, hrob⟩
    · have hres : retire_loop (bw + 1) room s = .ok s := by
        rw [retire_loop, hrob]
      refine ⟨s, 0, hres, Nat.zero_le _, Nat.zero_le _, by simp, rfl, rfl, rfl, ?_, ?_⟩
      · intro j _; rw [Nat.zero_add]
      · intro x hx; exact ⟨x.destination_memory, hx, fun _ => rfl⟩
    · by_cases hx : x.executed = COMPLETED
      · obtain ⟨r, hr, hl1, hl2⟩ := retire_stores_total s.cpu x.destination_memory s.SQ room
          (hwf x (by rw [hrob]; exact List.mem_cons_self _ _) hx)
        by_cases hall : r.2.2.2.1 = true
        · have hwf1 : ∀ a, a ∈ rest → a.executed = COMPLETED → ∀ d, d ∈ a.destination_memory →
              d.address ≠ 0 → ∃ q, d.q_it = some q ∧ q < r.2.1.length := by
            intro a ha hae d hd hda
            rw [hl2]
            exact hwf a (by rw [hrob]; exact List.mem_cons_of_mem _ ha) hae d hd hda
          obtain ⟨t, k, ht, h1, h2, h3, h4, h5, h6, h7, h8⟩ := ih r.2.2.1
            ({ s with ROB := rest, ROB_front := s.ROB_front + 1, SQ := r.2.1, num_retired := s.num_retired + 1, L1D_WQ := s.L1D_WQ ++ r.2.2.2.2 } : Core β) hwf1
          have hres : retire_loop (bw + 1) room s = .ok t := by
            rw [retire_loop, hrob]
            simp only
            rw [if_pos hx, hr]
            simp only
            rw [if_pos hall]
            exact ht
          refine ⟨t, k + 1, hres, by omega, ?_, ?_, ?_, ?_, ?_, ?_, ?_⟩
          · rw [hrob, List.length_cons]
            exact Nat.succ_le_succ h2
          · intro a ha
            rw [hrob, List.take_succ_cons, List.mem_cons] at ha
            rcases ha with ha | ha
            · rw [ha]; exact hx
            · exact h3 a ha
          · rw [h4]
            show s.num_retired + 1 + k = s.num_retired + (k + 1)
            omega
          · rw [h5]
            show s.ROB_front + 1 + k = s.ROB_front + (k + 1)
            omega
          · rw [h6, hrob, List.length_cons]
            show rest.length - k = rest.length + 1 - (k + 1)
            omega
          · intro j hj
            rw [h7 j hj, hrob, show k + 1 + j = (k + j) + 1 by omega, List.getElem?_cons_succ]
          · intro y hy
            rw [hrob, List.getElem?_cons_succ] at hy
            exact h8 y hy
        · have hres : retire_loop (bw + 1) room s
              = .ok { s with ROB := { x with destination_memory := r.1 } :: rest, SQ := r.2.1, L1D_WQ := s.L1D_WQ ++ r.2.2.2.2 } := by
            rw [retire_loop, hrob]
            simp only
            rw [if_pos hx, hr]
            simp only
            rw [if_neg hall]
          refine ⟨_, 0, hres, Nat.zero_le _, Nat.zero_le _, by simp, rfl, rfl, ?_, ?_, ?_⟩
          · rw [hrob]; rfl
          · intro j hj
            obtain ⟨j1, rfl⟩ : ∃ j1, j = j1 + 1 := ⟨j - 1, by omega⟩
            rw [hrob, Nat.zero_add]
            rfl
          · intro y hy
            rw [hrob] at hy
            have hy2 : x = y := by simpa using hy
            subst hy2
            exact ⟨r.1, by simp, fun h => absurd hx h⟩
      · have hres : retire_loop (bw + 1) room s = .ok s := by
          rw [retire_loop, hrob]
          simp only
          rw [if_neg hx]
        refine ⟨s, 0, hres, Nat.zero_le _, Nat.zero_le _, by simp, rfl, rfl, rfl, ?_, ?_⟩
        · intro j _; rw [Nat.zero_add]
        · intro y hy; exact ⟨y.destination_memory, hy, fun _ => rfl⟩

/-- C27. `retire_rob` returns when the destination operands with an address of the completed
entries of the ROB name slots of the store queue. It removes a prefix of the ROB of some
length `k <= RETIRE_WIDTH`, every entry of which had `executed == COMPLETED`; `num_retired`
grows by exactly `k`; the entries that remain are in their order: those behind the new head
are unchanged, and the new head is unchanged up to its destination operands. An entry whose
`executed` is not `COMPLETED` is not removed, nothing behind it is removed, and it is
unchanged. -/
theorem retire_rob_removes_completed_prefix {β : Type} (cfg : StageConfig) (room : Nat)
    (s : Core β)
    (hwf : ∀ a, a ∈ s.ROB → a.executed = COMPLETED → ∀ d, d ∈ a.destination_memory →
      d.address ≠ 0 → ∃ q, d.q_it = some q ∧ q < s.SQ.length) :
    ∃ t k, retire_rob cfg room s = .ok t ∧ k ≤ cfg.RETIRE_WIDTH ∧ k ≤ s.ROB.length
      ∧ (∀ a, a ∈ s.ROB.take k → a.executed = COMPLETED)
      ∧ t.num_retired = s.num_retired + k ∧ t.ROB_front = s.ROB_front + k
      ∧ t.ROB.length = s.ROB.length - k
      ∧ (∀ j, 0 < j → t.ROB[j]? = s.ROB[k + j]?)
      ∧ (∀ x, s.ROB[k]? = some x → ∃ dm, t.ROB[0]? = some { x with destination_memory := dm })
      ∧ (∀ j x, s.ROB[j]? = some x → x.executed ≠ COMPLETED →
          k ≤ j ∧ t.ROB[j - k]? = some x) := by
  obtain ⟨t, k, ht, h1, h2, h3, h4, h5, h6, h7, h8⟩ :=
    retire_loop_spec cfg.RETIRE_WIDTH room s hwf
  refine ⟨t, k, ht, h1, h2, h3, h4, h5, h6, h7, ?_, ?_⟩
  · intro x hx
    obtain ⟨dm, hdm, _⟩ := h8 x hx
    exact ⟨dm, hdm⟩
  · intro j x hj hx
    have hkj : k ≤ j := by
      by_contra hlt
      have hjl : j < s.ROB.length := (List.getElem?_eq_some_iff.mp hj).1
      have : x ∈ s.ROB.take k := by
        rw [List.mem_iff_getElem?]
        exact ⟨j, by rw [List.getElem?_take, if_pos (by omega)]; exact hj⟩
      exact hx (h3 x this)
    refine ⟨hkj, ?_⟩
    by_cases hjk : j = k
    · subst hjk
      obtain ⟨dm, hdm, hsame⟩ := h8 x hj
      rw [Nat.sub_self, hdm, hsame hx]
    · rw [h7 (j - k) (by omega), show k + (j - k) = j by omega]
      exact hj

/-- C26. `retire_rob` under the refusal of the write queue. Let the head of the ROB be
completed and let its destination operand `dmem`, at the index `j`, have an address and the
slot `sq_it`, the operands before it that have an address naming slots of the store queue;
let the write queue accept those operands (they are `room`) and answer -2 for `dmem`. Then
`retire_rob` returns at once: the head is still the head of the ROB and `num_retired` is as
it was; `dmem` and the operands behind it are unchanged, and so is the slot `sq_it` when no
operand before `dmem` has it; the operands before `dmem` have the address 0 and their slots
are cleared; one packet per operand accepted has gone to the write queue. In a retry the loop
over the operands skips the operands before `dmem`, calling `add_wq` for no operand that has
been accepted. -/
theorem retire_rob_refused {β : Type} (cfg : StageConfig) (s : Core β)
    (front : ooo_model_instr) (rest : List ooo_model_instr) (j : Nat) (dmem : lsq_info)
    (sq_it room : Nat) (hrob : s.ROB = front :: rest) (hexec : front.executed = COMPLETED)
    (hbw : cfg.RETIRE_WIDTH ≠ 0) (hj : front.destination_memory[j]? = some dmem)
    (haddr : dmem.address ≠ 0) (hq : dmem.q_it = some sq_it) (hlt : sq_it < s.SQ.length)
    (hwf : ∀ d, d ∈ front.destination_memory.take j → d.address ≠ 0 →
      ∃ q, d.q_it = some q ∧ q < s.SQ.length)
    (hroom : (front.destination_memory.take j).countP (fun d => decide (d.address ≠ 0))
      = room) :
    ∃ t pk, retire_rob cfg room s = .ok t
      ∧ t = { s with
              ROB := { front with destination_memory :=
                (front.destination_memory.take j).map (fun d => { d with address := 0 })
                  ++ front.destination_memory.drop j } :: rest
              SQ := t.SQ
              L1D_WQ := s.L1D_WQ ++ pk }
      ∧ pk.length = room
      ∧ t.ROB_front = s.ROB_front ∧ t.num_retired = s.num_retired
      ∧ (∃ x, t.ROB[0]? = some x ∧ x.destination_memory[j]? = some dmem
          ∧ x.instr_id = front.instr_id)
      ∧ t.SQ.length = s.SQ.length
      ∧ ((∀ d, d ∈ front.destination_memory.take j → d.address ≠ 0 → d.q_it ≠ some sq_it) →
          t.SQ[sq_it]? = s.SQ[sq_it]?)
      ∧ (∀ d, d ∈ front.destination_memory.take j → d.address ≠ 0 →
          ∀ q, d.q_it = some q → t.SQ[q]? = some {})
      ∧ (∀ room2, retire_stores s.cpu
            ((front.destination_memory.take j).map (fun d => { d with address := 0 })
              ++ front.destination_memory.drop j) t.SQ room2
          = (retire_stores s.cpu (front.destination_memory.drop j) t.SQ room2).map
              (fun r => ((front.destination_memory.take j).map
                (fun d => { d with address := 0 }) ++ r.1, r.2))) := by
  have hjl : j < front.destination_memory.length := (List.getElem?_eq_some_iff.mp hj).1
  have hdrop : front.destination_memory.drop j
      = dmem :: front.destination_memory.drop (j + 1) := by
    rw [List.drop_eq_getElem_cons hjl]
    congr 1
    have := List.getElem?_eq_getElem hjl
    rw [hj] at this
    exact (Option.some.inj this).symm
  have hsplit : front.destination_memory
      = front.destination_memory.take j ++ dmem :: front.destination_memory.drop (j + 1) := by
    rw [← hdrop, List.take_append_drop]
  obtain ⟨sq1, pk, hr, h1, h2, h3, h4⟩ := retire_stores_refused s.cpu dmem
    (front.destination_memory.drop (j + 1)) sq_it haddr hq
    (front.destination_memory.take j) s.SQ room hwf hlt hroom
  rw [← hsplit] at hr
  obtain ⟨bw, hbw1⟩ : ∃ bw, cfg.RETIRE_WIDTH = bw + 1 := ⟨cfg.RETIRE_WIDTH - 1, by omega⟩
  have hres : retire_rob cfg room s
      = .ok { s with
              ROB := { front with destination_memory :=
                (front.destination_memory.take j).map (fun d => { d with address := 0 })
                  ++ front.destination_memory.drop j } :: rest
              SQ := sq1
              L1D_WQ := s.L1D_WQ ++ pk } := by
    unfold retire_rob
    rw [hbw1, retire_loop, hrob]
    simp only
    rw [if_pos hexec, hr]
    simp only [Bool.false_eq_true, if_false]
    rw [hdrop]
  refine ⟨_, pk, hres, rfl, h2, rfl, rfl, ?_, h1, h4 sq_it, h3, ?_⟩
  · refine ⟨_, List.getElem?_cons_zero, ?_, rfl⟩
    show ((front.destination_memory.take j).map (fun d => { d with address := 0 })
      ++ front.destination_memory.drop j)[j]? = some dmem
    rw [List.getElem?_append_right (by rw [List.length_map, List.length_take]; omega),
      List.length_map, List.length_take, Nat.min_eq_left (by omega), Nat.sub_self, hdrop]
    exact List.getElem?_cons_zero
  · intro room2
    apply retire_stores_skip
    intro d hd
    rw [List.mem_map] at hd
    obtain ⟨d0, _, hd0⟩ := hd
    rw [← hd0]

/-- Witness for C27: with room for two packets in the write queue `retire_rob` retires the
completed head of `core_wb` and stops at the load, which is not completed. -/
theorem retire_rob_removes_completed_prefix_witness :
    core_wb.ROB = [instr_st2, instr_ld]
      ∧ (retire_rob cfg_stage 2 core_wb).toOption.map
          (fun t => (t.num_retired, t.ROB_front, t.ROB)) = some (1, 1, [instr_ld])
      ∧ ∃ t k, retire_rob cfg_stage 2 core_wb = .ok t ∧ k ≤ cfg_stage.RETIRE_WIDTH
        ∧ k ≤ core_wb.ROB.length
        ∧ (∀ a, a ∈ core_wb.ROB.take k → a.executed = COMPLETED)
        ∧ t.num_retired = core_wb.num_retired + k ∧ t.ROB_front = core_wb.ROB_front + k
        ∧ t.ROB.length = core_wb.ROB.length - k := by
  refine ⟨by decide, by decide, ?_⟩
  obtain ⟨t, k, h1, h2, h3, h4, h5, h6, h7, _⟩ :=
    retire_rob_removes_completed_prefix cfg_stage 2 core_wb (fun a ha hexec d hd haddr => by
      have hrob : core_wb.ROB = [instr_st2, instr_ld] := by decide
      rw [hrob] at ha
      simp only [List.mem_cons, List.mem_singleton, List.not_mem_nil, or_false] at ha
      rcases ha with ha | ha
      · subst ha
        have hdm : instr_st2.destination_memory = [dmem_a, dmem_b] := by decide
        rw [hdm] at hd
        simp only [List.mem_cons, List.mem_singleton, List.not_mem_nil, or_false] at hd
        rcases hd with hd | hd
        · subst hd; exact ⟨0, by decide, by decide⟩
        · subst hd; exact ⟨1, by decide, by decide⟩
      · subst ha
        exact absurd hexec (by decide))
  exact ⟨t, k, h1, h2, h3, h4, h5, h6, h7⟩

/-- Witness for C26: with room for one packet in the write queue the first store of the head
of `core_wb` is written back and the second is refused: the head stays, with the address of
its first operand zeroed and the slot 0 cleared, and the second operand and the slot 1 are
unchanged. -/
theorem retire_rob_refused_witness :
    core_wb.ROB = instr_st2 :: [instr_ld]
      ∧ instr_st2.destination_memory[1]? = some dmem_b
      ∧ (retire_rob cfg_stage 1 core_wb).toOption.map
          (fun t => (t.num_retired, t.ROB.map (fun a => a.instr_id),
            t.ROB.map (fun a => a.destination_memory.map (fun d => d.address)),
            t.SQ.map (fun e => e.virtual_address), t.L1D_WQ.map (fun p => p.v_address)))
          = some (0, [0, 1], [[0, 0x4000], []], [0, 0x4000], [0xc0])
      ∧ ∃ (t : Core Unit) (pk : List PACKET), retire_rob cfg_stage 1 core_wb = .ok t
        ∧ pk.length = 1
        ∧ t.ROB_front = core_wb.ROB_front ∧ t.num_retired = core_wb.num_retired
        ∧ (∃ x, t.ROB[0]? = some x ∧ x.destination_memory[1]? = some dmem_b
            ∧ x.instr_id = instr_st2.instr_id)
        ∧ t.SQ.length = core_wb.SQ.length := by
  refine ⟨by decide, by decide, by decide, ?_⟩
  obtain ⟨t, pk, h1, _, h3, h4, h5, h6, h7, _⟩ :=
    retire_rob_refused cfg_stage core_wb instr_st2 [instr_ld] 1 dmem_b 1 1 (by decide)
      (by decide) (by decide) (by decide) (by decide) (by decide) (by decide)
      (fun d hd _ => by
        have hdm : instr_st2.destination_memory.take 1 = [dmem_a] := by decide
        rw [hdm] at hd
        simp only [List.mem_singleton] at hd
        subst hd
        exact ⟨0, by decide, by decide⟩)
      (by decide)
  exact ⟨t, pk, h1, h3, h4, h5, h6, h7⟩

/-! ## The answers of the DTLB -/

/-- The page that the DTLB returns, shifted as a 64-bit integer and spliced with a virtual
address: the page number modulo `2 ^ 52` and the low 12 bits of the virtual address. -/
theorem splice_bits_page (d v : Nat) :
    splice_bits ((d <<< LOG2_PAGE_SIZE) % 2 ^ 64) v LOG2_PAGE_SIZE
      = (d % 2 ^ 52) * 2 ^ 12 + v % 2 ^ 12 := by
  unfold splice_bits LOG2_PAGE_SIZE
  rw [Nat.shiftLeft_eq]
  have h : d * 2 ^ 12 % 2 ^ 64 = (d % 2 ^ 52) * 2 ^ 12 := by
    rw [show (2 : Nat) ^ 64 = 2 ^ 52 * 2 ^ 12 by norm_num, Nat.mul_mod_mul_right]
  rw [h, Nat.mul_div_cancel _ (by norm_num : 0 < 2 ^ 12)]

/-- Writing the translation into an entry twice is writing it once. -/
theorem translated_entry_idem (data current_cycle : Nat) (e : LSQ_ENTRY) :
    translated_entry data current_cycle (translated_entry data current_cycle e)
      = translated_entry data current_cycle e := rfl

/-- The loop over the store queue slots of an answer of the DTLB: every slot named gets the
translation and joins `RTS1`; the other slots are unchanged. -/
theorem dtlb_return_stores_spec (data current_cycle : Nat) :
    ∀ (l : List Nat) (sq : List LSQ_ENTRY) (rts1 : List Nat), (∀ q, q ∈ l → q < sq.length) →
      ∃ sq1, dtlb_return_stores data current_cycle l sq rts1 = .ok (sq1, rts1 ++ l)
        ∧ sq1.length = sq.length
        ∧ (∀ q e, q ∈ l → sq[q]? = some e →
            sq1[q]? = some (translated_entry data current_cycle e))
        ∧ (∀ q, q ∉ l → sq1[q]? = sq[q]?) := by
  intro l
  induction l with
  | nil =>
    intro sq rts1 _
    refine ⟨sq, ?_, rfl, fun q e hq => absurd hq (List.not_mem_nil _), fun _ _ => rfl⟩
    rw [List.append_nil]; rfl
  | cons q0 rest ih =>
    intro sq rts1 hl
    have hq0 : q0 < sq.length := hl q0 (List.mem_cons_self _ _)
    obtain ⟨sq1, h1, h2, h3, h4⟩ := ih (sq.set q0 (translated_entry data current_cycle sq[q0]))
      (rts1 ++ [q0]) (fun q hq => by
        rw [List.length_set]; exact hl q (List.mem_cons_of_mem _ hq))
    refine ⟨sq1, ?_, ?_, ?_, ?_⟩
    · rw [dtlb_return_stores, List.getElem?_eq_getElem hq0]
      simp only
      rw [h1, List.append_assoc]
      rfl
    · rw [h2, List.length_set]
    · intro q e hq he
      by_cases hqr : q ∈ rest
      · by_cases hqq : q0 = q
        · subst hqq
          have he0 : sq[q0] = e := by
            have := List.getElem?_eq_getElem hq0
            rw [he] at this
            exact (Option.some.inj this).symm
          rw [h3 q0 (translated_entry data current_cycle sq[q0]) hqr
            (getElem?_set_of_lt sq q0 _ hq0), he0]
          rfl
        · exact h3 q e hqr (by rw [List.getElem?_set, if_neg hqq]; exact he)
      · have hqq : q = q0 := by
          rw [List.mem_cons] at hq
          rcases hq with hq | hq
          · exact hq
          · exact absurd hq hqr
        subst hqq
        have he0 : sq[q] = e := by
          have := List.getElem?_eq_getElem hq0
          rw [he] at this
          exact (Option.some.inj this).symm
        rw [h4 q hqr, getElem?_set_of_lt sq q _ hq0, he0]
    · intro q hq
      rw [List.mem_cons, not_or] at hq
      rw [h4 q hq.2, List.getElem?_set, if_neg (fun h => hq.1 h.symm)]

/-- The loop over the load queue slots of an answer of the DTLB does what the loop over the
store queue slots does. -/
theorem dtlb_return_loads_eq (data current_cycle : Nat) :
    ∀ (l : List Nat) (lq : List LSQ_ENTRY) (rtl1 : List Nat),
      dtlb_return_loads data current_cycle l lq rtl1
        = dtlb_return_stores data current_cycle l lq rtl1 := by
  intro l
  induction l with
  | nil => intro lq rtl1; rfl
  | cons q rest ih =>
    intro lq rtl1
    rw [dtlb_return_loads, dtlb_return_stores]
    cases lq[q]? with
    | none => rfl
    | some e => exact ih _ _

/-- C25. The round trip of a translation through the DTLB. Let the front packet of the
`PROCESSED` queue of the DTLB bus, with the payload `data`, name slots of the store queue and
of the load queue. `handle_memory_return` reads it and goes on with the packets behind it in
the core in which every slot `e` named has
`physical_address = splice_bits(data << LOG2_PAGE_SIZE, e.virtual_address, LOG2_PAGE_SIZE)`,
which is the page number `data` modulo `2 ^ 52` with the low 12 bits of the virtual address,
`translated = COMPLETED` and `event_cycle = current_cycle`, the slots of the store queue named
are pushed to `RTS1` and those of the load queue to `RTL1`, in order, and the other slots are
unchanged. For a slot of the load queue named, as long as the slot is as the answer left it,
`execute_load` builds for the L1D, when the L1D accepts it, a packet whose `address` is that
physical address and whose `v_address` is the virtual address of the slot. -/
theorem dtlb_return_round_trip {β : Type} (s : Core β) (to_read : Nat) (dtlb_entry : PACKET)
    (processed : List PACKET) (hp : s.DTLB_PROCESSED = dtlb_entry :: processed)
    (hsq : ∀ q, q ∈ dtlb_entry.sq_index_depend_on_me → q < s.SQ.length)
    (hlq : ∀ q, q ∈ dtlb_entry.lq_index_depend_on_me → q < s.LQ.length) :
    ∃ t, dtlb_return (to_read + 1) s = dtlb_return to_read t
      ∧ t = { s with SQ := t.SQ, LQ := t.LQ,
                     RTS1 := s.RTS1 ++ dtlb_entry.sq_index_depend_on_me,
                     RTL1 := s.RTL1 ++ dtlb_entry.lq_index_depend_on_me,
                     DTLB_PROCESSED := processed }
      ∧ (∀ q e, q ∈ dtlb_entry.sq_index_depend_on_me → s.SQ[q]? = some e →
          t.SQ[q]? = some { e with
            physical_address := splice_bits ((dtlb_entry.data <<< LOG2_PAGE_SIZE) % 2 ^ 64)
              e.virtual_address LOG2_PAGE_SIZE
            translated := COMPLETED
            event_cycle := s.current_cycle })
      ∧ (∀ q e, q ∈ dtlb_entry.lq_index_depend_on_me → s.LQ[q]? = some e →
          t.LQ[q]? = some { e with
            physical_address := splice_bits ((dtlb_entry.data <<< LOG2_PAGE_SIZE) % 2 ^ 64)
              e.virtual_address LOG2_PAGE_SIZE
            translated := COMPLETED
            event_cycle := s.current_cycle })
      ∧ (∀ q, q ∉ dtlb_entry.sq_index_depend_on_me → t.SQ[q]? = s.SQ[q]?)
      ∧ (∀ q, q ∉ dtlb_entry.lq_index_depend_on_me → t.LQ[q]? = s.LQ[q]?)
      ∧ (∀ v, splice_bits ((dtlb_entry.data <<< LOG2_PAGE_SIZE) % 2 ^ 64) v LOG2_PAGE_SIZE
          = (dtlb_entry.data % 2 ^ 52) * 2 ^ 12 + v % 2 ^ 12)
      ∧ (∀ (u : Core β) q e rq_index, q ∈ dtlb_entry.lq_index_depend_on_me →
          s.LQ[q]? = some e → u.LQ[q]? = t.LQ[q]? → rq_index ≠ -2 →
          ∃ u1 packet, execute_load u q rq_index = .ok u1
            ∧ u1.L1D_RQ = u.L1D_RQ ++ [packet]
            ∧ packet.address
                = splice_bits ((dtlb_entry.data <<< LOG2_PAGE_SIZE) % 2 ^ 64)
                    e.virtual_address LOG2_PAGE_SIZE
            ∧ packet.v_address = e.virtual_address ∧ packet.type = LOAD
            ∧ packet.lq_index_depend_on_me = [q]) := by
  obtain ⟨sq1, a1, a2, a3, a4⟩ := dtlb_return_stores_spec dtlb_entry.data s.current_cycle
    dtlb_entry.sq_index_depend_on_me s.SQ s.RTS1 hsq
  obtain ⟨lq1, b1, b2, b3, b4⟩ := dtlb_return_stores_spec dtlb_entry.data s.current_cycle
    dtlb_entry.lq_index_depend_on_me s.LQ s.RTL1 hlq
  rw [← dtlb_return_loads_eq] at b1
  have hlq_t : ∀ q e, q ∈ dtlb_entry.lq_index_depend_on_me → s.LQ[q]? = some e →
      lq1[q]? = some (translated_entry dtlb_entry.data s.current_cycle e) := b3
  refine ⟨{ s with SQ := sq1, LQ := lq1, RTS1 := s.RTS1 ++ dtlb_entry.sq_index_depend_on_me, RTL1 := s.RTL1 ++ dtlb_entry.lq_index_depend_on_me, DTLB_PROCESSED := processed }, ?_, rfl, a3, b3, a4, b4, fun v => splice_bits_page _ v, ?_⟩
  · rw [dtlb_return, hp]
    simp only
    rw [a1, b1]
  · intro u q e rq_index hq he hu hrq
    have hq1 : u.LQ[q]? = some (translated_entry dtlb_entry.data s.current_cycle e) := by
      rw [hu]; exact hlq_t q e hq he
    have hex : execute_load u q rq_index
        = .ok { u with
            L1D_RQ := u.L1D_RQ ++ [execute_load_packet u q
              (translated_entry dtlb_entry.data s.current_cycle e)]
            LQ := (u.LQ.set q
              { translated_entry dtlb_entry.data s.current_cycle e with fetched := INFLIGHT }) } := by
      unfold execute_load
      rw [hq1]
      simp only
      rw [if_pos hrq]
    exact ⟨_, execute_load_packet u q (translated_entry dtlb_entry.data s.current_cycle e),
      hex, rfl, rfl, rfl, rfl, rfl⟩

/-- Witness for C25: the DTLB answers the page `0x55` for the load of `0xABCD04` in the slot 0
of the load queue of `core_tlb`: the slot gets the physical address `0x55D04` and joins
`RTL1`, and `execute_load` sends the L1D a packet with that address. -/
theorem dtlb_return_round_trip_witness :
    core_tlb.DTLB_PROCESSED = packet_tlb :: []
      ∧ core_tlb.LQ[0]? = some lq_tlb
      ∧ splice_bits ((packet_tlb.data <<< LOG2_PAGE_SIZE) % 2 ^ 64) lq_tlb.virtual_address
          LOG2_PAGE_SIZE = 0x55D04
      ∧ ∃ t, dtlb_return (0 + 1) core_tlb = dtlb_return 0 t
        ∧ t.RTL1 = core_tlb.RTL1 ++ [0]
        ∧ t.LQ[0]? = some { lq_tlb with
            physical_address := splice_bits ((packet_tlb.data <<< LOG2_PAGE_SIZE) % 2 ^ 64)
              lq_tlb.virtual_address LOG2_PAGE_SIZE
            translated := COMPLETED
            event_cycle := core_tlb.current_cycle }
        ∧ ∃ u1 packet, execute_load t 0 (-1) = .ok u1 ∧ u1.L1D_RQ = t.L1D_RQ ++ [packet]
          ∧ packet.address
              = splice_bits ((packet_tlb.data <<< LOG2_PAGE_SIZE) % 2 ^ 64)
                  lq_tlb.virtual_address LOG2_PAGE_SIZE
          ∧ packet.v_address = lq_tlb.virtual_address := by
  have h0 : splice_bits ((packet_tlb.data <<< LOG2_PAGE_SIZE) % 2 ^ 64) lq_tlb.virtual_address
      LOG2_PAGE_SIZE = 0x55D04 := by
    rw [splice_bits_page]
    decide
  refine ⟨by decide, by decide, h0, ?_⟩
  obtain ⟨t, h1, h2, _, h4, _, _, _, h8⟩ :=
    dtlb_return_round_trip core_tlb 0 packet_tlb [] (by decide)
      (fun q hq => by
        have h : packet_tlb.sq_index_depend_on_me = [] := by decide
        rw [h] at hq
        exact absurd hq (List.not_mem_nil q))
      (fun q hq => by
        have h : packet_tlb.lq_index_depend_on_me = [0] := by decide
        rw [h, List.mem_singleton] at hq
        subst hq
        decide)
  have hm : (0 : Nat) ∈ packet_tlb.lq_index_depend_on_me := by decide
  have hl : core_tlb.LQ[0]? = some lq_tlb := by decide
  obtain ⟨u1, packet, g1, g2, g3, g4, _⟩ := h8 t 0 lq_tlb (-1) hm hl rfl (by decide)
  refine ⟨t, h1, ?_, h4 0 lq_tlb hm hl, u1, packet, g1, g2, g3, g4⟩
  rw [h2]
  rfl

/-! ## Runs of whole cycles -/

/-- A result whose error is known is that error. -/
theorem eq_error_of_abort_of {α : Type} (x : Except Abort α) (a : Abort)
    (h : abort_of x = some a) : x = .error a := by
  cases x with
  | error b =>
    simp only [abort_of, Option.some.injEq] at h
    rw [h]
  | ok b => simp [abort_of] at h

/-- Cycles of a core that the simulation loop reaches lead to cores that it reaches. -/
theorem operates_run_cycles {β : Type} (cfg : StageConfig) (hooks : BranchHooks β)
    (env : CycleEnv) :
    ∀ (n : Nat) (s t : Core β), Core.operates cfg hooks s →
      Core.run_cycles cfg env n s = some t → Core.operates cfg hooks t := by
  intro n
  induction n with
  | zero =>
    intro s t hs ht
    simp only [Core.run_cycles, Option.some.injEq] at ht
    rw [← ht]; exact hs
  | succ n ih =>
    intro s t hs ht
    rw [Core.run_cycles] at ht
    cases hop : Core.operate cfg true env s with
    | error a => rw [hop] at ht; exact absurd ht (by simp)
    | ok r =>
      rw [hop] at ht
      exact ih _ t (Core.operates.cycle true env s r.1 r.2 hs hop) ht

/-- An answer of the DTLB leads from a core that the simulation loop reaches to a core that
it reaches. -/
theorem operates_answer_dtlb {β : Type} (cfg : StageConfig) (hooks : BranchHooks β)
    (s : Core β) (data : Nat) (hs : Core.operates cfg hooks s) :
    Core.operates cfg hooks (s.answer_dtlb data) := by
  unfold Core.answer_dtlb
  cases h : s.DTLB_RQ with
  | nil => exact hs
  | cons packet after => exact Core.operates.dtlb_answer s [] after packet data hs h

/-- An answer of the L1D leads from a core that the simulation loop reaches to a core that it
reaches. -/
theorem operates_answer_l1d {β : Type} (cfg : StageConfig) (hooks : BranchHooks β)
    (s : Core β) (data : Nat) (hs : Core.operates cfg hooks s) :
    Core.operates cfg hooks (s.answer_l1d data) := by
  unfold Core.answer_l1d
  cases h : s.L1D_RQ with
  | nil => exact hs
  | cons packet after => exact Core.operates.l1d_answer s [] after packet data hs h

/-- The simulation loop reaches the idle core `core_q`. -/
theorem core_q_operates : Core.operates cfg_stage (const_hooks 0 0 0) core_q :=
  Core.operates.idle core_q rfl rfl rfl rfl rfl rfl rfl rfl rfl rfl rfl rfl rfl rfl rfl rfl rfl
    rfl (fun _ he => List.eq_of_mem_replicate he) (fun _ he => List.eq_of_mem_replicate he)

/-- The simulation loop reaches the core `core_q` fed with two fresh instructions of the
trace. -/
theorem core_fed2_operates (p c : ooo_model_instr) (hp : p.fresh) (hc : c.fresh)
    (hp1 : p.memory_instrs_depend_on_me = []) (hc1 : c.memory_instrs_depend_on_me = [])
    (hp2 : ∀ m, m ∈ p.source_memory ++ p.destination_memory →
      m.added = false ∧ m.will_forward = false ∧ m.q_it = none)
    (hc2 : ∀ m, m ∈ c.source_memory ++ c.destination_memory →
      m.added = false ∧ m.will_forward = false ∧ m.q_it = none)
    (h1 : (core_q.init_instruction cfg_stage (const_hooks 0 0 0) true p).isSome = true)
    (h2 : 0 < ((core_q.init_instruction cfg_stage (const_hooks 0 0 0) true p).getD
      core_q).instrs_to_read_this_cycle)
    (h3 : (((core_q.init_instruction cfg_stage (const_hooks 0 0 0) true p).getD
      core_q).init_instruction cfg_stage (const_hooks 0 0 0) true c).isSome = true)
    (h4 : ((core_q.init_instruction cfg_stage (const_hooks 0 0 0) true p).getD
      core_q).instr_unique_id < UINT64_MAX) :
    Core.operates cfg_stage (const_hooks 0 0 0) (core_fed2 p c) := by
  have ha := Core.operates.init_instruction true core_q _ p core_q_operates hp hp1 hp2
    (by decide) (by decide) (option_eq_some_getD _ core_q h1)
  exact Core.operates.init_instruction true _ _ c ha hc hc1 hc2 h2 h4
    (option_eq_some_getD _ core_q h3)

/-- The run of the store to two addresses and the load that reads them, up to the requests
to the DTLB. -/
theorem core_r7_operates : Core.operates cfg_stage (const_hooks 0 0 0) core_r7 :=
  operates_run_cycles cfg_stage (const_hooks 0 0 0) env_lsq 7 core_r0 core_r7
    (core_fed2_operates instr_p instr_c ⟨rfl, rfl, rfl, rfl⟩ ⟨rfl, rfl, rfl, rfl⟩ rfl rfl
      (by decide) (by decide) (by decide) (by decide) (by decide) (by decide))
    (option_eq_some_getD _ _ (by decide))

/-- The run of the store to two addresses and the load that reads them, up to the
retirement of both. -/
theorem core_r10_operates : Core.operates cfg_stage (const_hooks 0 0 0) core_r10 := by
  have h7a : Core.operates cfg_stage (const_hooks 0 0 0) core_r7_answered :=
    operates_answer_dtlb _ _ _ _ (operates_answer_dtlb _ _ _ _ (operates_answer_dtlb _ _ _ _
      (operates_answer_dtlb _ _ _ _ core_r7_operates)))
  have h8 : Core.operates cfg_stage (const_hooks 0 0 0) core_r8 :=
    operates_run_cycles cfg_stage (const_hooks 0 0 0) env_lsq 1 core_r7_answered core_r8 h7a
      (option_eq_some_getD _ _ (by decide))
  exact operates_run_cycles cfg_stage (const_hooks 0 0 0) env_lsq 2 core_r8 core_r10 h8
    (option_eq_some_getD _ _ (by decide))

/-- C28. The load and store queues and the ROB: a valid slot can outlive its owner. In the
run of the simulation loop in which `init_instruction` takes from the trace an instruction
that stores to `0x2000` and `0x3000` and then an instruction that loads from `0x2000`,
`0x3000`, `0x4000` and `0x5000`, `do_memory_scheduling` registers the load twice with the
store, once per operand that waits; each of the two calls of `execute_store` then takes two
from `num_mem_ops` of the load, which reaches 0 while the loads from `0x4000` and `0x5000`
are in flight in the L1D; the load is completed and retired, and in the cycle 10 the ROB is
empty while the two slots of the load queue are valid and name the position 1 of the ROB.
When the L1D answers, `handle_memory_return` dereferences the `rob_index` of the slot. -/
theorem lsq_slot_outlives_owner :
    Core.operates cfg_stage (const_hooks 0 0 0) core_r10
      ∧ core_r7.ROB.map (fun a => (a.instr_id, a.num_mem_ops, a.memory_instrs_depend_on_me))
          = [(0, 2, [1, 1]), (1, 4, [])]
      ∧ core_r8.ROB.map (fun a => (a.instr_id, a.num_mem_ops, a.executed))
          = [(0, 0, INFLIGHT), (1, 0, INFLIGHT)]
      ∧ core_r10.ROB = [] ∧ core_r10.ROB_front = 2 ∧ core_r10.num_retired = 2
      ∧ core_r10.LQ.map (fun e => (e.instr_id, e.virtual_address, e.rob_index, e.fetched))
          = [(1, 0x4000, 1, INFLIGHT), (1, 0x5000, 1, INFLIGHT)]
      ∧ ¬ core_r10.slots_owned
      ∧ Core.operates cfg_stage (const_hooks 0 0 0) core_r10_answered
      ∧ core_r10_answered.L1D_PROCESSED.map (fun p => p.lq_index_depend_on_me) = [[0]]
      ∧ l1d_return_loads [0] core_r10_answered = .error Abort.dangling
      ∧ Core.operate cfg_stage true env_lsq core_r10_answered = .error Abort.dangling := by
  refine ⟨core_r10_operates, by decide, by decide, by decide, by decide, by decide, by decide,
    ?_, operates_answer_l1d _ _ _ _ core_r10_operates, by decide,
    eq_error_of_abort_of _ _ (by decide), eq_error_of_abort_of _ _ (by decide)⟩
  intro h
  have hm : ∃ e, e ∈ core_r10.SQ ++ core_r10.LQ ∧ e.virtual_address ≠ 0 ∧ e.rob_index = 1 := by
    decide
  obtain ⟨e, he, hv, hr⟩ := hm
  obtain ⟨a, ha, _⟩ := h e he hv
  have hnone : core_r10.rob_at 1 = none := by decide
  rw [hr, hnone] at ha
  exact absurd ha (by simp)

/-- The run of the store and the load with two operands at its address, up to the answer of
the DTLB for the store. -/
theorem core_a7_answered_operates :
    Core.operates cfg_stage (const_hooks 0 0 0) core_a7_answered :=
  operates_answer_dtlb _ _ _ _
    (operates_run_cycles cfg_stage (const_hooks 0 0 0) env_lsq 7 core_a0 core_a7
      (core_fed2_operates instr_p1 instr_c1 ⟨rfl, rfl, rfl, rfl⟩ ⟨rfl, rfl, rfl, rfl⟩ rfl rfl
        (by decide) (by decide) (by decide) (by decide) (by decide) (by decide))
      (option_eq_some_getD _ _ (by decide)))

/-- The run of the store and the load with two operands at its address, up to the cycle
12. -/
theorem core_a12_operates : Core.operates cfg_stage (const_hooks 0 0 0) core_a12 :=
  operates_run_cycles cfg_stage (const_hooks 0 0 0) env_lsq 4 core_a8 core_a12
    (operates_run_cycles cfg_stage (const_hooks 0 0 0) env_lsq 1 core_a7_answered core_a8
      core_a7_answered_operates (option_eq_some_getD _ _ (by decide)))
    (option_eq_some_getD _ _ (by decide))

/-- The run of the store to two addresses and the load that reads them both, up to the
answers of the DTLB for the stores. -/
theorem core_e7_answered_operates :
    Core.operates cfg_stage (const_hooks 0 0 0) core_e7_answered :=
  operates_answer_dtlb _ _ _ _ (operates_answer_dtlb _ _ _ _
    (operates_run_cycles cfg_stage (const_hooks 0 0 0) env_lsq 7 core_e0 core_e7
      (core_fed2_operates instr_p instr_c2 ⟨rfl, rfl, rfl, rfl⟩ ⟨rfl, rfl, rfl, rfl⟩ rfl rfl
        (by decide) (by decide) (by decide) (by decide) (by decide) (by decide))
      (option_eq_some_getD _ _ (by decide))))

/-- C22. `execute_store` and the loads that wait for the store: the code on two runs of the
simulation loop. In the first, `init_instruction` takes from the trace a store to `0x2000`
and an instruction with two source memory operands at `0x2000`. `do_memory_scheduling`
registers the instruction with the store once per operand, so that
`memory_instrs_depend_on_me` of the store is `[1, 1]`. `execute_store` on the slot of the
store finds, for each of the two registrations, the first operand with the address: it marks
that operand `added` twice and takes two from `num_mem_ops`, and the second operand is not
`added`. The instruction is then never scheduled: four cycles later the store has retired and
the instruction is at the head of the ROB with `scheduled == INFLIGHT`, `executed == 0`,
`num_mem_ops == 0` and its second operand not `added`. In the second run the store writes
`0x2000` and `0x3000` and the instruction reads both: the first call of `execute_store` takes
two from `num_mem_ops` for the one operand at `0x2000`, and the second call fails the
assertion of line 789. -/
theorem execute_store_first_match_only :
    Core.operates cfg_stage (const_hooks 0 0 0) core_a7_answered
      ∧ core_a7_answered.ROB.map (fun a => (a.instr_id, a.num_mem_ops,
          a.memory_instrs_depend_on_me)) = [(0, 1, [1, 1]), (1, 2, [])]
      ∧ core_a7_answered.ROB.map
          (fun a => a.source_memory.map (fun m => (m.address, m.added, m.will_forward)))
          = [[], [(0x2000, false, true), (0x2000, false, true)]]
      ∧ handle_memory_return cfg_stage 4 2 core_a7_answered = .ok core_a7_returned
      ∧ core_a7_returned.RTS1 = [0]
      ∧ core_a7_returned.SQ.map (fun e => (e.virtual_address, e.rob_index))
          = [(0x2000, 0), (0, 0)]
      ∧ (execute_store core_a7_returned 0).toOption.map
          (fun t => t.ROB.map (fun a => (a.instr_id, a.num_mem_ops))) = some [(0, 0), (1, 0)]
      ∧ (execute_store core_a7_returned 0).toOption.map (fun t => t.ROB.map
          (fun a => a.source_memory.map (fun m => (m.address, m.added, m.will_forward))))
          = some [[], [(0x2000, true, true), (0x2000, false, true)]]
      ∧ core_a8.ROB.map (fun a => (a.instr_id, a.num_mem_ops)) = [(0, 0), (1, 0)]
      ∧ core_a8.ROB.map
          (fun a => a.source_memory.map (fun m => (m.address, m.added, m.will_forward)))
          = [[], [(0x2000, true, true), (0x2000, false, true)]]
      ∧ Core.operates cfg_stage (const_hooks 0 0 0) core_a12
      ∧ core_a12.num_retired = 1
      ∧ core_a12.ROB.map (fun a => (a.instr_id, a.scheduled, a.executed, a.num_mem_ops))
          = [(1, INFLIGHT, 0, 0)]
      ∧ core_a12.ROB.map
          (fun a => a.source_memory.map (fun m => (m.address, m.added, m.will_forward)))
          = [[(0x2000, true, true), (0x2000, false, true)]]
      ∧ Core.operates cfg_stage (const_hooks 0 0 0) core_e7_answered
      ∧ core_e7_answered.ROB.map (fun a => (a.instr_id, a.num_mem_ops,
          a.memory_instrs_depend_on_me)) = [(0, 2, [1, 1]), (1, 2, [])]
      ∧ core_e7_answered.ROB.map
          (fun a => a.source_memory.map (fun m => (m.address, m.added, m.will_forward)))
          = [[], [(0x2000, false, true), (0x3000, false, true)]]
      ∧ Core.operate cfg_stage true env_lsq core_e7_answered
          = .error (Abort.assertion 789) :=
  ⟨core_a7_answered_operates, by decide, by decide, except_eq_ok_getD _ _ (by decide),
    by decide, by decide, by decide, by decide, by decide, by decide, core_a12_operates,
    by decide, by decide, by decide, core_e7_answered_operates, by decide, by decide,
    eq_error_of_abort_of _ _ (by decide)⟩

/-! ## The accounting of register dependences -/

/-- The sum over a list one of whose elements has been replaced. -/
theorem sum_map_set {α : Type} (f : α → Nat) :
    ∀ (l : List α) (j : Nat) (a x : α), l[j]? = some a →
      ((l.set j x).map f).sum + f a = (l.map f).sum + f x := by
  intro l
  induction l with
  | nil => intro j a x h; simp at h
  | cons b l ih =>
    intro j a x h
    cases j with
    | zero =>
      simp only [List.getElem?_cons_zero, Option.some.injEq] at h
      subst h
      simp only [List.set_cons_zero, List.map_cons, List.sum_cons]
      omega
    | succ j =>
      rw [List.getElem?_cons_succ] at h
      have := ih j a x h
      simp only [List.set_cons_succ, List.map_cons, List.sum_cons]
      omega

/-- The occurrences of an iterator after an entry of the ROB has been replaced. -/
theorem reg_occurrences_set (rob : List ooo_model_instr) (j : Nat) (a b : ooo_model_instr)
    (it : Nat) (h : rob[j]? = some a) :
    reg_occurrences (rob.set j b) it + reg_weight it a
      = reg_occurrences rob it + reg_weight it b :=
  sum_map_set (reg_weight it) rob j a b h

/-- The weight of an entry is read from its key. -/
theorem reg_weight_key (it : Nat) (a b : ooo_model_instr) (h : reg_key b = reg_key a) :
    reg_weight it b = reg_weight it a := by
  unfold reg_key at h
  simp only [Prod.mk.injEq, decide_eq_decide] at h
  unfold reg_weight
  rw [h.2.2]
  by_cases ha : a.executed = COMPLETED
  · rw [if_pos ha, if_pos (h.1.mpr ha)]
  · rw [if_neg ha, if_neg (fun hb => ha (h.1.mp hb))]

/-- The occurrences of an iterator are read from the keys of the entries. -/
theorem reg_occurrences_key (it : Nat) :
    ∀ (rob rob2 : List ooo_model_instr), rob2.map reg_key = rob.map reg_key →
      reg_occurrences rob2 it = reg_occurrences rob it := by
  intro rob
  induction rob with
  | nil =>
    intro rob2 h
    rw [List.map_nil, List.map_eq_nil_iff] at h
    rw [h]
  | cons a rob ih =>
    intro rob2 h
    cases rob2 with
    | nil => simp at h
    | cons b rob2 =>
      simp only [List.map_cons, List.cons.injEq] at h
      unfold reg_occurrences at ih ⊢
      simp only [List.map_cons, List.sum_cons]
      rw [ih rob2 h.2, reg_weight_key it a b h.1]

/-- The accounting is read from the keys of the entries. -/
theorem reg_accounting_key (rob rob2 : List ooo_model_instr) (front : Nat)
    (hk : rob2.map reg_key = rob.map reg_key) (h : reg_accounting rob front) :
    reg_accounting rob2 front := by
  intro i d hd
  rw [reg_occurrences_key _ rob rob2 hk]
  have h1 : (rob2.map reg_key)[i]? = some (reg_key d) := by
    rw [List.getElem?_map, hd]; rfl
  rw [hk, List.getElem?_map] at h1
  cases h0 : rob[i]? with
  | none => rw [h0] at h1; exact absurd h1 (by simp)
  | some d0 =>
    rw [h0] at h1
    simp only [Option.map_some', Option.some.injEq] at h1
    rw [← h i d0 h0]
    unfold reg_key at h1
    simp only [Prod.mk.injEq] at h1
    exact h1.2.1.symm

/-- Replacing an entry by one with the same key keeps the accounting. -/
theorem reg_accounting_set_key (rob : List ooo_model_instr) (front i : Nat)
    (a b : ooo_model_instr) (hi : rob[i]? = some a) (hk : reg_key b = reg_key a)
    (h : reg_accounting rob front) : reg_accounting (rob.set i b) front :=
  reg_accounting_key rob _ front (map_set_same reg_key rob i a b hi hk) h

/-- A write of the memory side keeps the key of an entry. -/
theorem mem_only_key (a b : ooo_model_instr) (h : a.mem_only b) : reg_key b = reg_key a := by
  obtain ⟨_, _, h3, h4, h5, _⟩ := mem_only_fields a b h
  unfold reg_key
  rw [h3, h4, h5]

/-- Writes of the memory side keep the keys of the entries. -/
theorem forall₂_mem_only_key (rob rob2 : List ooo_model_instr)
    (h : List.Forall₂ ooo_model_instr.mem_only rob rob2) :
    rob2.map reg_key = rob.map reg_key := by
  induction h with
  | nil => rfl
  | cons hab _ ih =>
    simp only [List.map_cons]
    rw [ih, mem_only_key _ _ hab]

/-- The producer that `find_prior` returns satisfies the predicate, and no entry between it
and the index does; when it returns none, no entry before the index does. -/
theorem find_prior_spec (rob : List ooo_model_instr) (pred : ooo_model_instr → Bool) :
    ∀ (i : Nat),
      (∀ j, find_prior rob pred i = some j →
        j < i ∧ (∃ e, rob[j]? = some e ∧ pred e = true)
          ∧ ∀ k q, j < k → k < i → rob[k]? = some q → pred q = false)
      ∧ (find_prior rob pred i = none → ∀ k q, k < i → rob[k]? = some q → pred q = false) := by
  intro i
  induction i with
  | zero =>
    refine ⟨fun j h => ?_, fun _ k q hk => absurd hk (Nat.not_lt_zero k)⟩
    simp [find_prior] at h
  | succ i ih =>
    rw [find_prior]
    cases he : rob[i]? with
    | none =>
      simp only
      refine ⟨fun j h => ?_, fun h k q hk hq => ?_⟩
      · obtain ⟨h1, h2, h3⟩ := ih.1 j h
        refine ⟨by omega, h2, fun k q hjk hki hq => ?_⟩
        by_cases hk : k = i
        · subst hk; rw [he] at hq; exact absurd hq (by simp)
        · exact h3 k q hjk (by omega) hq
      · by_cases hki : k = i
        · subst hki; rw [he] at hq; exact absurd hq (by simp)
        · exact ih.2 h k q (by omega) hq
    | some e =>
      simp only
      by_cases hp : pred e = true
      · rw [if_pos hp]
        refine ⟨fun j h => ?_, fun h => absurd h (by simp)⟩
        simp only [Option.some.injEq] at h
        subst h
        exact ⟨by omega, ⟨e, he, hp⟩, fun k q hjk hki => by omega⟩
      · rw [if_neg hp]
        have hpf : pred e = false := by
          cases h : pred e with
          | true => exact absurd h hp
          | false => rfl
        refine ⟨fun j h => ?_, fun h k q hk hq => ?_⟩
        · obtain ⟨h1, h2, h3⟩ := ih.1 j h
          refine ⟨by omega, h2, fun k q hjk hki hq => ?_⟩
          by_cases hk : k = i
          · subst hk
            rw [he] at hq
            rw [← Option.some.inj hq]; exact hpf
          · exact h3 k q hjk (by omega) hq
        · by_cases hki : k = i
          · subst hki
            rw [he] at hq
            rw [← Option.some.inj hq]; exact hpf
          · exact ih.2 h k q (by omega) hq

/-- The body of the loop of `do_scheduling` over the source registers keeps the
accounting: the entry joins the dependents of the producer exactly when its count goes up. -/
theorem mark_register_dependency_acc {β : Type} (i : Nat) (s : Core β) (src_reg : Nat)
    (h : reg_accounting s.ROB s.ROB_front) :
    reg_accounting (mark_register_dependency i s src_reg).ROB s.ROB_front
      ∧ (mark_register_dependency i s src_reg).ROB_front = s.ROB_front := by
  unfold mark_register_dependency
  cases hf : find_prior s.ROB (instr_reg_will_produce src_reg) i with
  | none => exact ⟨h, rfl⟩
  | some j =>
    simp only
    obtain ⟨hji, ⟨prior, hj, hpred⟩, _⟩ := (find_prior_spec s.ROB _ i).1 j hf
    rw [hj]
    cases hi : s.ROB[i]? with
    | none => exact ⟨h, rfl⟩
    | some rob_it =>
      simp only
      by_cases hc : prior.registers_instrs_depend_on_me = []
          ∨ prior.registers_instrs_depend_on_me.getLast? ≠ some (s.ROB_front + i)
      · rw [if_pos hc]
        refine ⟨?_, rfl⟩
        have hjl : j < s.ROB.length := (List.getElem?_eq_some_iff.mp hj).1
        have hil : i < s.ROB.length := (List.getElem?_eq_some_iff.mp hi).1
        have hnc : prior.executed ≠ COMPLETED := by
          unfold instr_reg_will_produce at hpred
          simp only [Bool.and_eq_true, bne_iff_ne, ne_eq, decide_eq_true_eq] at hpred
          exact hpred.1
        have hi2 : (s.ROB.set j { prior with registers_instrs_depend_on_me := prior.registers_instrs_depend_on_me ++ [s.ROB_front + i] })[i]? = some rob_it := by
          rw [List.getElem?_set, if_neg (by omega)]; exact hi
        have hocc : ∀ it, reg_occurrences ((s.ROB.set j { prior with registers_instrs_depend_on_me := prior.registers_instrs_depend_on_me ++ [s.ROB_front + i] }).set i { rob_it with num_reg_dependent := rob_it.num_reg_dependent + 1 }) it
            = reg_occurrences s.ROB it + (if it = s.ROB_front + i then 1 else 0) := by
          intro it
          have e1 := reg_occurrences_set s.ROB j prior { prior with registers_instrs_depend_on_me := prior.registers_instrs_depend_on_me ++ [s.ROB_front + i] } it hj
          have e2 := reg_occurrences_set _ i rob_it { rob_it with num_reg_dependent := rob_it.num_reg_dependent + 1 } it hi2
          have w1 : reg_weight it ({ rob_it with num_reg_dependent := rob_it.num_reg_dependent + 1 } : ooo_model_instr) = reg_weight it rob_it := rfl
          have w2 : reg_weight it ({ prior with registers_instrs_depend_on_me := prior.registers_instrs_depend_on_me ++ [s.ROB_front + i] } : ooo_model_instr)
              = reg_weight it prior + (if it = s.ROB_front + i then 1 else 0) := by
            unfold reg_weight
            simp only
            rw [if_neg hnc, if_neg hnc, List.count_append, List.count_singleton]
            by_cases hit : it = s.ROB_front + i
            · rw [if_pos hit, if_pos (by rw [hit]; exact beq_self_eq_true _)]
            · rw [if_neg hit, if_neg (by
                intro hb
                exact hit (eq_of_beq hb).symm)]
          rw [w1] at e2
          rw [w2] at e1
          omega
        intro i0 d0 hd0
        rw [hocc]
        rw [getElem?_set_set s.ROB i j i0 _ _ hjl hil] at hd0
        by_cases h1 : i0 = i
        · subst h1
          rw [if_pos rfl] at hd0
          rw [← Option.some.inj hd0, if_pos rfl]
          show rob_it.num_reg_dependent + 1 = _
          rw [h i0 rob_it hi]
        · rw [if_neg h1] at hd0
          rw [if_neg (by omega), Nat.add_zero]
          by_cases h2 : i0 = j
          · subst h2
            rw [if_pos rfl] at hd0
            rw [← Option.some.inj hd0]
            exact h i0 prior hj
          · rw [if_neg h2] at hd0
            exact h i0 d0 hd0
      · rw [if_neg hc]
        exact ⟨h, rfl⟩

/-- The loop of `do_scheduling` over the source registers keeps the accounting. -/
theorem mark_fold_acc {β : Type} (i : Nat) :
    ∀ (regs : List Nat) (s : Core β), reg_accounting s.ROB s.ROB_front →
      reg_accounting (regs.foldl (mark_register_dependency i) s).ROB s.ROB_front
        ∧ (regs.foldl (mark_register_dependency i) s).ROB_front = s.ROB_front := by
  intro regs
  induction regs with
  | nil => intro s h; exact ⟨h, rfl⟩
  | cons r rest ih =>
    intro s h
    rw [List.foldl_cons]
    obtain ⟨h1, h2⟩ := mark_register_dependency_acc i s r h
    obtain ⟨h3, h4⟩ := ih (mark_register_dependency i s r) (by rw [h2]; exact h1)
    rw [h2] at h3 h4
    exact ⟨h3, h4⟩

/-- `do_scheduling` keeps the accounting. -/
theorem do_scheduling_acc {β : Type} (cfg : StageConfig) (wc : Bool) (s : Core β) (i : Nat)
    (h : reg_accounting s.ROB s.ROB_front) :
    reg_accounting (do_scheduling cfg wc s i).ROB s.ROB_front
      ∧ (do_scheduling cfg wc s i).ROB_front = s.ROB_front := by
  unfold do_scheduling
  cases hi : s.ROB[i]? with
  | none => exact ⟨h, rfl⟩
  | some rob_it =>
    simp only
    obtain ⟨h1, h2⟩ := mark_fold_acc i rob_it.source_registers s h
    generalize rob_it.source_registers.foldl (mark_register_dependency i) s = s1 at h1 h2 ⊢
    cases he : s1.ROB[i]? with
    | none => exact ⟨h1, h2⟩
    | some e =>
      simp only
      by_cases hm : e.is_memory ≠ 0
      · rw [if_pos hm]
        exact ⟨reg_accounting_set_key s1.ROB s.ROB_front i e _ he rfl h1, h2⟩
      · rw [if_neg hm]
        exact ⟨reg_accounting_set_key s1.ROB s.ROB_front i e _ he rfl h1, h2⟩

/-- The body of the loop of `schedule_instruction` keeps the accounting. -/
theorem schedule_step_acc {β : Type} (cfg : StageConfig) (wc : Bool) (s t : Core β)
    (i : Nat) (c : Bool) (h : reg_accounting s.ROB s.ROB_front)
    (ht : schedule_step cfg wc s i = .ok (t, c)) :
    reg_accounting t.ROB t.ROB_front := by
  unfold schedule_step at ht
  cases hi : s.ROB[i]? with
  | none => rw [hi] at ht; exact absurd ht (by simp)
  | some rob_it =>
    rw [hi] at ht
    simp only at ht
    obtain ⟨h1, h2⟩ := do_scheduling_acc cfg wc s i h
    by_cases hs : rob_it.scheduled = 0
    · rw [if_pos hs] at ht
      generalize do_scheduling cfg wc s i = s1 at h1 h2 ht
      cases he : s1.ROB[i]? with
      | none => rw [he] at ht; exact absurd ht (by simp)
      | some e =>
        rw [he] at ht
        simp only at ht
        by_cases hc : e.scheduled = COMPLETED ∧ e.num_reg_dependent = 0
        · rw [if_pos hc] at ht
          by_cases hl : s1.ready_to_execute.length < cfg.ROB_SIZE
          · rw [if_pos hl] at ht
            simp only at ht
            rw [show ({ s1 with ready_to_execute := s1.ready_to_execute ++ [s1.ROB_front + i] } : Core β).ROB[i]? = some e from he] at ht
            simp only [Except.ok.injEq, Prod.mk.injEq] at ht
            rw [← ht.1]
            show reg_accounting s1.ROB s1.ROB_front
            rw [h2]; exact h1
          · rw [if_neg hl] at ht
            exact absurd ht (by simp)
        · rw [if_neg hc] at ht
          simp only at ht
          rw [he] at ht
          simp only [Except.ok.injEq, Prod.mk.injEq] at ht
          rw [← ht.1, h2]; exact h1
    · rw [if_neg hs] at ht
      simp only at ht
      rw [hi] at ht
      simp only [Except.ok.injEq, Prod.mk.injEq] at ht
      rw [← ht.1]; exact h

/-- `schedule_instruction` keeps the accounting. -/
theorem schedule_loop_acc {β : Type} (cfg : StageConfig) (wc : Bool) :
    ∀ (n i bw : Nat) (s t : Core β), reg_accounting s.ROB s.ROB_front →
      schedule_loop cfg wc n i bw s = .ok t → reg_accounting t.ROB t.ROB_front := by
  intro n
  induction n with
  | zero =>
    intro i bw s t h ht
    simp only [schedule_loop, Except.ok.injEq] at ht
    rw [← ht]; exact h
  | succ n ih =>
    intro i bw s t h ht
    rw [schedule_loop] at ht
    by_cases hbw : bw = 0
    · rw [if_pos hbw] at ht
      simp only [Except.ok.injEq] at ht
      rw [← ht]; exact h
    · rw [if_neg hbw] at ht
      cases hstep : schedule_step cfg wc s i with
      | error a => rw [hstep] at ht; exact absurd ht (by simp)
      | ok r =>
        rw [hstep] at ht
        exact ih _ _ _ t (schedule_step_acc cfg wc s r.1 i r.2 h hstep) ht

/-- `do_execution` of an entry that is ready to execute keeps the accounting. -/
theorem do_execution_acc {β : Type} (cfg : StageConfig) (wc : Bool) (s t : Core β)
    (it : Nat) (rest : List Nat) (hb : backend_ok s.ROB s.ROB_front (it :: rest) none)
    (h : reg_accounting s.ROB s.ROB_front) (ht : do_execution cfg wc s it = .ok t) :
    reg_accounting t.ROB t.ROB_front := by
  obtain ⟨a, ha, hx, _, _⟩ := hb.rte_entries it (List.mem_cons_self _ _)
  unfold do_execution at ht
  have hat : s.rob_at it = some a := ha
  rw [hat] at ht
  simp only [Except.ok.injEq] at ht
  rw [← ht]
  have hfront : s.ROB_front ≤ it := by
    unfold rob_get at ha
    by_contra hlt
    rw [if_neg hlt] at ha
    exact absurd ha (by simp)
  have hget : s.ROB[it - s.ROB_front]? = some a := by
    unfold rob_get at ha
    rw [if_pos hfront] at ha
    exact ha
  refine reg_accounting_set_key s.ROB s.ROB_front _ a _ hget ?_ h
  unfold reg_key
  simp only [Prod.mk.injEq, decide_eq_decide, and_self, and_true]
  rw [hx]
  constructor
  · intro h1; exact absurd h1 (by decide)
  · intro h1; exact absurd h1 (by decide)

/-- `execute_instruction` keeps the accounting. -/
theorem execute_loop_acc {β : Type} (cfg : StageConfig) (wc : Bool) :
    ∀ (n : Nat) (s t : Core β), backend_ok s.ROB s.ROB_front s.ready_to_execute none →
      reg_accounting s.ROB s.ROB_front → execute_loop cfg wc n s = .ok t →
      reg_accounting t.ROB t.ROB_front := by
  intro n
  induction n with
  | zero =>
    intro s t _ h ht
    simp only [execute_loop, Except.ok.injEq] at ht
    rw [← ht]; exact h
  | succ n ih =>
    intro s t hb h ht
    rw [execute_loop] at ht
    have hcases : s.ready_to_execute = [] ∨ ∃ it rest, s.ready_to_execute = it :: rest := by
      cases s.ready_to_execute with
      | nil => exact Or.inl rfl
      | cons it rest => exact Or.inr ⟨it, rest, rfl⟩
    rcases hcases with hr | ⟨it, rest, hr⟩
    · rw [hr] at ht
      simp only [Except.ok.injEq] at ht
      rw [← ht]; exact h
    · rw [hr] at ht hb
      simp only at ht
      cases hd : do_execution cfg wc s it with
      | error a => rw [hd] at ht; exact absurd ht (by simp)
      | ok s1 =>
        rw [hd] at ht
        simp only at ht
        obtain ⟨_, _, _, hb1⟩ := do_execution_ok cfg wc s s1 it rest hb hd
        exact ih { s1 with ready_to_execute := rest } t hb1
          (do_execution_acc cfg wc s s1 it rest hb h hd) ht

/-- The occurrences of an iterator are read from the weights of the entries. -/
theorem reg_occurrences_ext (rob rob2 : List ooo_model_instr) (it : Nat)
    (h : ∀ i : Nat, (rob2[i]?).map (reg_weight it) = (rob[i]?).map (reg_weight it)) :
    reg_occurrences rob2 it = reg_occurrences rob it := by
  unfold reg_occurrences
  congr 1
  apply List.ext_getElem?
  intro i
  rw [List.getElem?_map, List.getElem?_map]
  exact h i

/-- What an entry contributes is at most the number of occurrences. -/
theorem reg_weight_le (rob : List ooo_model_instr) (i : Nat) (e : ooo_model_instr)
    (it : Nat) (h : rob[i]? = some e) : reg_weight it e ≤ reg_occurrences rob it := by
  have := reg_occurrences_set rob i e { e with executed := COMPLETED } it h
  have w : reg_weight it ({ e with executed := COMPLETED } : ooo_model_instr) = 0 := by
    unfold reg_weight
    rw [if_pos rfl]
  rw [w] at this
  omega

/-- What `released` keeps of a dependent, and what it takes. -/
theorem released_fields (d : ooo_model_instr) :
    (released d).num_reg_dependent = d.num_reg_dependent - 1
      ∧ (released d).executed = d.executed
      ∧ (released d).registers_instrs_depend_on_me = d.registers_instrs_depend_on_me := by
  unfold released
  simp only
  by_cases h1 : d.num_reg_dependent - 1 = 0
  · rw [if_pos h1]
    by_cases h2 : d.is_memory ≠ 0
    · rw [if_pos h2]; exact ⟨rfl, rfl, rfl⟩
    · rw [if_neg h2]; exact ⟨rfl, rfl, rfl⟩
  · rw [if_neg h1]; exact ⟨rfl, rfl, rfl⟩

/-- The loop of `do_complete_execution` over the dependents takes one from the count of a
dependent per occurrence in the list, and changes neither `executed` nor a list of
dependents. -/
theorem release_dependents_count {β : Type} :
    ∀ (l : List Nat) (s t : Core β), release_dependents l s = .ok t →
      t.ROB_front = s.ROB_front ∧ t.ROB.length = s.ROB.length
        ∧ t = { s with ROB := t.ROB }
        ∧ ∀ i d, s.ROB[i]? = some d → ∃ d1, t.ROB[i]? = some d1
            ∧ d1.num_reg_dependent + l.count (s.ROB_front + i) = d.num_reg_dependent
            ∧ d1.executed = d.executed
            ∧ d1.registers_instrs_depend_on_me = d.registers_instrs_depend_on_me := by
  intro l
  induction l with
  | nil =>
    intro s t ht
    simp only [release_dependents, Except.ok.injEq] at ht
    subst ht
    exact ⟨rfl, rfl, rfl, fun i d hd => ⟨d, hd, by simp, rfl, rfl⟩⟩
  | cons x rest ih =>
    intro s t ht
    rw [release_dependents] at ht
    cases hx : release_dependent s x with
    | error a => rw [hx] at ht; exact absurd ht (by simp)
    | ok s1 =>
      rw [hx] at ht
      simp only at ht
      unfold release_dependent at hx
      cases hd : s.rob_at x with
      | none => rw [hd] at hx; exact absurd hx (by simp)
      | some dx =>
        rw [hd] at hx
        simp only at hx
        by_cases h0 : dx.num_reg_dependent = 0
        · rw [if_pos h0] at hx; exact absurd hx (by simp)
        · rw [if_neg h0] at hx
          simp only [Except.ok.injEq] at hx
          have hfront : s.ROB_front ≤ x := by
            unfold Core.rob_at at hd
            by_contra hlt
            rw [if_neg hlt] at hd
            exact absurd hd (by simp)
          have hget : s.ROB[x - s.ROB_front]? = some dx := by
            unfold Core.rob_at at hd
            rw [if_pos hfront] at hd
            exact hd
          have hxl : x - s.ROB_front < s.ROB.length := (List.getElem?_eq_some_iff.mp hget).1
          obtain ⟨a1, a2, a3, a4⟩ := ih s1 t ht
          have hf1 : s1.ROB_front = s.ROB_front := by rw [← hx]
          have hr1 : s1.ROB = s.ROB.set (x - s.ROB_front) (released dx) := by rw [← hx]
          refine ⟨a1.trans hf1, by rw [a2, hr1, List.length_set], ?_, ?_⟩
          · rw [a3, ← hx]
          · intro i d hid
            obtain ⟨r1, r2, r3⟩ := released_fields dx
            by_cases hix : i = x - s.ROB_front
            · subst hix
              have hs1 : s1.ROB[x - s.ROB_front]? = some (released dx) := by
                rw [hr1]; exact getElem?_set_of_lt _ _ _ hxl
              obtain ⟨d1, b1, b2, b3, b4⟩ := a4 _ _ hs1
              have hdd : dx = d := by
                rw [hget] at hid; exact Option.some.inj hid
              subst hdd
              refine ⟨d1, b1, ?_, b3.trans r2, b4.trans r3⟩
              rw [hf1] at b2
              have hxe : s.ROB_front + (x - s.ROB_front) = x := by omega
              rw [hxe] at b2 ⊢
              rw [List.count_cons_self]
              rw [r1] at b2
              omega
            · have hs1 : s1.ROB[i]? = some d := by
                rw [hr1, List.getElem?_set, if_neg (fun h => hix h.symm)]; exact hid
              obtain ⟨d1, b1, b2, b3, b4⟩ := a4 _ _ hs1
              refine ⟨d1, b1, ?_, b3, b4⟩
              rw [hf1] at b2
              rw [List.count_cons_of_ne (by omega)]
              exact b2

/-- The loop of `do_complete_execution` over the dependents returns when the dependents are
entries of the ROB whose counts are at least their numbers of occurrences in the list: the
assertion of line 853 holds. -/
theorem release_dependents_total {β : Type} :
    ∀ (l : List Nat) (s : Core β), (∀ x, x ∈ l → ∃ b, s.rob_at x = some b) →
      (∀ i d, s.ROB[i]? = some d → l.count (s.ROB_front + i) ≤ d.num_reg_dependent) →
      ∃ t, release_dependents l s = .ok t := by
  intro l
  induction l with
  | nil => intro s _ _; exact ⟨s, rfl⟩
  | cons x rest ih =>
    intro s hex hcount
    obtain ⟨dx, hd⟩ := hex x (List.mem_cons_self _ _)
    have hfront : s.ROB_front ≤ x := by
      unfold Core.rob_at at hd
      by_contra hlt
      rw [if_neg hlt] at hd
      exact absurd hd (by simp)
    have hget : s.ROB[x - s.ROB_front]? = some dx := by
      unfold Core.rob_at at hd
      rw [if_pos hfront] at hd
      exact hd
    have hxl : x - s.ROB_front < s.ROB.length := (List.getElem?_eq_some_iff.mp hget).1
    have hxe : s.ROB_front + (x - s.ROB_front) = x := by omega
    have h0 : dx.num_reg_dependent ≠ 0 := by
      have := hcount _ _ hget
      rw [hxe, List.count_cons_self] at this
      omega
    have hstep : release_dependent s x
        = .ok { s with ROB := s.ROB.set (x - s.ROB_front) (released dx) } := by
      unfold release_dependent
      rw [hd]
      simp only
      rw [if_neg h0]
    rw [release_dependents, hstep]
    simp only
    apply ih
    · intro y hy
      obtain ⟨b, hb⟩ := hex y (List.mem_cons_of_mem _ hy)
      unfold Core.rob_at at hb ⊢
      simp only
      by_cases hfy : s.ROB_front ≤ y
      · rw [if_pos hfy] at hb ⊢
        have hyl : y - s.ROB_front < s.ROB.length := (List.getElem?_eq_some_iff.mp hb).1
        exact ⟨_, List.getElem?_eq_getElem (by rw [List.length_set]; exact hyl)⟩
      · rw [if_neg hfy] at hb
        exact absurd hb (by simp)
    · intro i d hid
      simp only at hid ⊢
      obtain ⟨r1, _, _⟩ := released_fields dx
      by_cases hix : i = x - s.ROB_front
      · subst hix
        rw [getElem?_set_of_lt _ _ _ hxl] at hid
        rw [← Option.some.inj hid, r1, hxe]
        have := hcount _ _ hget
        rw [hxe, List.count_cons_self] at this
        omega
      · rw [List.getElem?_set, if_neg (fun h => hix h.symm)] at hid
        have := hcount i d hid
        rw [List.count_cons_of_ne (by omega)] at this
        exact this

/-- `do_complete_execution` of an entry in flight returns, the assertion of line 853
holding; it takes from the count of every entry the number of its occurrences among the
dependents of the entry completed, and it keeps the accounting. -/
theorem do_complete_execution_acc {β : Type} (cfg : StageConfig) (s : Core β) (i : Nat)
    (e : ooo_model_instr) (hi : s.ROB[i]? = some e) (hx : e.executed ≠ COMPLETED)
    (hb : backend_ok s.ROB s.ROB_front s.ready_to_execute none)
    (h : reg_accounting s.ROB s.ROB_front) :
    ∃ t, do_complete_execution cfg s i = .ok t
      ∧ reg_accounting t.ROB t.ROB_front ∧ t.ROB_front = s.ROB_front
      ∧ ∀ i0 d0, s.ROB[i0]? = some d0 → ∃ d1, t.ROB[i0]? = some d1
          ∧ d1.num_reg_dependent + e.registers_instrs_depend_on_me.count (s.ROB_front + i0)
              = d0.num_reg_dependent := by
  have hil : i < s.ROB.length := (List.getElem?_eq_some_iff.mp hi).1
  obtain ⟨s1, hs1⟩ : ∃ s1 : Core β,
      s1 = { s with ROB := s.ROB.set i { e with executed := COMPLETED } } := ⟨_, rfl⟩
  have hf1 : s1.ROB_front = s.ROB_front := by rw [hs1]
  have hr1 : s1.ROB = s.ROB.set i { e with executed := COMPLETED } := by rw [hs1]
  have hget1 : ∀ i0 d0, s1.ROB[i0]? = some d0 → ∃ d, s.ROB[i0]? = some d
      ∧ d0.num_reg_dependent = d.num_reg_dependent
      ∧ d0.registers_instrs_depend_on_me = d.registers_instrs_depend_on_me
      ∧ (i0 ≠ i → d0 = d) ∧ (i0 = i → d = e ∧ d0.executed = COMPLETED) := by
    intro i0 d0 hd0
    rw [hr1, List.getElem?_set] at hd0
    by_cases hii : i = i0
    · subst hii
      rw [if_pos rfl, if_pos hil] at hd0
      rw [← Option.some.inj hd0]
      exact ⟨e, hi, rfl, rfl, fun hne => absurd rfl hne, fun _ => ⟨rfl, rfl⟩⟩
    · rw [if_neg hii] at hd0
      exact ⟨d0, hd0, rfl, rfl, fun _ => rfl, fun h => absurd h.symm hii⟩
  have hw : ∀ it, reg_occurrences s1.ROB it + e.registers_instrs_depend_on_me.count it
      = reg_occurrences s.ROB it := by
    intro it
    have := reg_occurrences_set s.ROB i e { e with executed := COMPLETED } it hi
    have w1 : reg_weight it ({ e with executed := COMPLETED } : ooo_model_instr) = 0 := by
      unfold reg_weight; rw [if_pos rfl]
    have w2 : reg_weight it e = e.registers_instrs_depend_on_me.count it := by
      unfold reg_weight; rw [if_neg hx]
    rw [w1, w2] at this
    rw [hr1]
    omega
  obtain ⟨s2, hs2⟩ := release_dependents_total e.registers_instrs_depend_on_me s1
    (fun x hxm => by
      obtain ⟨_, b, hbx, _⟩ := (hb.dependents i e hi).2 x hxm
      unfold rob_get at hbx
      unfold Core.rob_at
      rw [hf1, hr1]
      by_cases hfx : s.ROB_front ≤ x
      · rw [if_pos hfx] at hbx ⊢
        have hxl : x - s.ROB_front < s.ROB.length := (List.getElem?_eq_some_iff.mp hbx).1
        exact ⟨_, List.getElem?_eq_getElem (by rw [List.length_set]; exact hxl)⟩
      · rw [if_neg hfx] at hbx
        exact absurd hbx (by simp))
    (fun i0 d0 hd0 => by
      obtain ⟨d, hd, hn, _, _, _⟩ := hget1 i0 d0 hd0
      rw [hn, h i0 d hd, hf1, ← hw]
      omega)
  obtain ⟨c1, c2, c3, c4⟩ := release_dependents_count _ s1 s2 hs2
  have hacc2 : reg_accounting s2.ROB s2.ROB_front := by
    intro i0 d2 hd2
    have hl : i0 < s1.ROB.length := by
      rw [← c2]; exact (List.getElem?_eq_some_iff.mp hd2).1
    obtain ⟨d1, hd1⟩ : ∃ d1, s1.ROB[i0]? = some d1 := ⟨_, List.getElem?_eq_getElem hl⟩
    obtain ⟨d2', g1, g2, _, _⟩ := c4 i0 d1 hd1
    rw [hd2] at g1
    have hdd : d2 = d2' := Option.some.inj g1
    subst hdd
    obtain ⟨d, hd, hn, _, _, _⟩ := hget1 i0 d1 hd1
    have hocc : reg_occurrences s2.ROB (s2.ROB_front + i0)
        = reg_occurrences s1.ROB (s2.ROB_front + i0) := by
      apply reg_occurrences_ext
      intro k
      cases hk1 : s1.ROB[k]? with
      | none =>
        have : s2.ROB[k]? = none := by
          rw [List.getElem?_eq_none_iff] at hk1 ⊢
          rw [c2]; exact hk1
        rw [this]
      | some a1 =>
        obtain ⟨a2, q1, _, q3, q4⟩ := c4 k a1 hk1
        rw [q1]
        simp only [Option.map_some', Option.some.injEq]
        unfold reg_weight
        rw [q3, q4]
    rw [hocc, c1]
    have e1 := hw (s1.ROB_front + i0)
    have e2 := h i0 d hd
    rw [hf1] at e1 g2 ⊢
    omega
  have hi2 : ∃ e2, s2.ROB[i]? = some e2 :=
    ⟨_, List.getElem?_eq_getElem (by rw [c2, hr1, List.length_set]; exact hil)⟩
  obtain ⟨e2, he2⟩ := hi2
  have hcount : ∀ i0 d0, s.ROB[i0]? = some d0 → ∃ d1, s2.ROB[i0]? = some d1
      ∧ d1.num_reg_dependent + e.registers_instrs_depend_on_me.count (s.ROB_front + i0)
          = d0.num_reg_dependent := by
    intro i0 d0 hd0
    have hl : i0 < s1.ROB.length := by
      rw [hr1, List.length_set]; exact (List.getElem?_eq_some_iff.mp hd0).1
    obtain ⟨d1, hd1⟩ : ∃ d1, s1.ROB[i0]? = some d1 := ⟨_, List.getElem?_eq_getElem hl⟩
    obtain ⟨d2, g1, g2, _, _⟩ := c4 i0 d1 hd1
    obtain ⟨d, hd, hn, _, _, _⟩ := hget1 i0 d1 hd1
    rw [hd0] at hd
    have hdd : d0 = d := Option.some.inj hd
    subst hdd
    refine ⟨d2, g1, ?_⟩
    rw [hf1] at g2
    omega
  by_cases hm : e2.branch_mispredicted ≠ 0
  · refine ⟨{ s2 with fetch_resume_cycle := s2.current_cycle + cfg.BRANCH_MISPREDICT_PENALTY },
      ?_, hacc2, c1.trans hf1, hcount⟩
    unfold do_complete_execution
    rw [hi]
    simp only
    rw [← hs1, hs2]
    simp only
    rw [he2]
    simp only
    rw [if_pos hm]
  · refine ⟨s2, ?_, hacc2, c1.trans hf1, hcount⟩
    unfold do_complete_execution
    rw [hi]
    simp only
    rw [← hs1, hs2]
    simp only
    rw [he2]
    simp only
    rw [if_neg hm]

/-- The loop of `complete_inflight_instruction` over the dependents writes
`ready_to_execute` only. -/
theorem wake_dependents_rob {β : Type} (cfg : StageConfig) :
    ∀ (l : List Nat) (s t : Core β), wake_dependents cfg l s = .ok t →
      t.ROB = s.ROB ∧ t.ROB_front = s.ROB_front := by
  intro l
  induction l with
  | nil =>
    intro s t ht
    simp only [wake_dependents, Except.ok.injEq] at ht
    rw [← ht]; exact ⟨rfl, rfl⟩
  | cons x rest ih =>
    intro s t ht
    rw [wake_dependents] at ht
    cases hd : s.rob_at x with
    | none => rw [hd] at ht; exact absurd ht (by simp)
    | some d =>
      rw [hd] at ht
      simp only at ht
      by_cases hc : d.scheduled = COMPLETED ∧ d.num_reg_dependent = 0
      · rw [if_pos hc] at ht
        by_cases hl : s.ready_to_execute.length < cfg.ROB_SIZE
        · rw [if_pos hl] at ht
          have := ih _ t ht
          exact this
        · rw [if_neg hl] at ht
          exact absurd ht (by simp)
      · rw [if_neg hc] at ht
        exact ih s t ht

/-- The body of the loop of `complete_inflight_instruction` does not fail the assertion of
line 853, and it keeps the accounting. -/
theorem complete_step_acc {β : Type} (cfg : StageConfig) (s : Core β) (i : Nat)
    (hb : backend_ok s.ROB s.ROB_front s.ready_to_execute none)
    (h : reg_accounting s.ROB s.ROB_front) :
    complete_step cfg s i ≠ .error (Abort.assertion 853)
      ∧ ∀ t c, complete_step cfg s i = .ok (t, c) → reg_accounting t.ROB t.ROB_front := by
  unfold complete_step
  cases hi : s.ROB[i]? with
  | none => exact ⟨by simp, fun t c ht => absurd ht (by simp)⟩
  | some rob_it =>
    simp only
    by_cases hc : rob_it.executed = INFLIGHT ∧ rob_it.event_cycle ≤ s.current_cycle
        ∧ rob_it.num_mem_ops = 0
    · rw [if_pos hc]
      obtain ⟨s1, hs1, hacc1, hf1, _⟩ := do_complete_execution_acc cfg s i rob_it hi
        (by rw [hc.1]; decide) hb h
      rw [hs1]
      simp only
      cases he : s1.ROB[i]? with
      | none => exact ⟨by simp, fun t c ht => absurd ht (by simp)⟩
      | some e =>
        simp only
        cases hw : wake_dependents cfg e.registers_instrs_depend_on_me s1 with
        | error a =>
          simp only
          refine ⟨?_, fun t c ht => absurd ht (by simp)⟩
          intro hcontra
          have ha : a = Abort.assertion 853 := Except.error.inj hcontra
          subst ha
          have hne : ∀ (l : List Nat) (u : Core β),
              wake_dependents cfg l u ≠ .error (Abort.assertion 853) := by
            intro l
            induction l with
            | nil => intro u; simp [wake_dependents]
            | cons x rest ih =>
              intro u
              rw [wake_dependents]
              cases u.rob_at x with
              | none => simp
              | some d =>
                simp only
                by_cases hc2 : d.scheduled = COMPLETED ∧ d.num_reg_dependent = 0
                · rw [if_pos hc2]
                  by_cases hl : u.ready_to_execute.length < cfg.ROB_SIZE
                  · rw [if_pos hl]; exact ih _
                  · rw [if_neg hl]; simp
                · rw [if_neg hc2]; exact ih _
          exact hne _ _ hw
        | ok s2 =>
          simp only
          refine ⟨by simp, fun t c ht => ?_⟩
          simp only [Except.ok.injEq, Prod.mk.injEq] at ht
          obtain ⟨w1, w2⟩ := wake_dependents_rob cfg _ s1 s2 hw
          rw [← ht.1, w1, w2]
          exact hacc1
    · rw [if_neg hc]
      refine ⟨by simp, fun t c ht => ?_⟩
      simp only [Except.ok.injEq, Prod.mk.injEq] at ht
      rw [← ht.1]; exact h

/-- `complete_inflight_instruction` does not fail the assertion of line 853, and it keeps the
accounting. -/
theorem complete_loop_acc {β : Type} (cfg : StageConfig) :
    ∀ (n i bw : Nat) (s : Core β), backend_ok s.ROB s.ROB_front s.ready_to_execute none →
      s.ROB.length ≤ cfg.ROB_SIZE → reg_accounting s.ROB s.ROB_front →
      complete_loop cfg n i bw s ≠ .error (Abort.assertion 853)
        ∧ ∀ t, complete_loop cfg n i bw s = .ok t → reg_accounting t.ROB t.ROB_front := by
  intro n
  induction n with
  | zero =>
    intro i bw s _ _ h
    refine ⟨by simp [complete_loop], fun t ht => ?_⟩
    simp only [complete_loop, Except.ok.injEq] at ht
    rw [← ht]; exact h
  | succ n ih =>
    intro i bw s hb hsz h
    rw [complete_loop]
    by_cases hbw : bw = 0
    · rw [if_pos hbw]
      refine ⟨by simp, fun t ht => ?_⟩
      simp only [Except.ok.injEq] at ht
      rw [← ht]; exact h
    · rw [if_neg hbw]
      obtain ⟨hne, hacc⟩ := complete_step_acc cfg s i hb h
      cases hstep : complete_step cfg s i with
      | error a =>
        simp only
        refine ⟨?_, fun t ht => absurd ht (by simp)⟩
        intro hcontra
        rw [Except.error.inj hcontra] at hstep
        exact hne hstep
      | ok r =>
        simp only
        obtain ⟨_, _, hlen, hb1⟩ := (complete_step_ok cfg s i hb hsz).2 r.1 r.2 hstep
        exact ih _ _ r.1 hb1 (by rw [hlen]; exact hsz) (hacc r.1 r.2 hstep)

/-- `do_memory_scheduling` keeps the keys of the entries and the front of the ROB. -/
theorem do_memory_scheduling_key {β : Type} (cfg : StageConfig) (s t : Core β) (i : Nat)
    (w : List Nat) (ht : do_memory_scheduling cfg s i = .ok (t, w)) :
    t.ROB.map reg_key = s.ROB.map reg_key ∧ t.ROB_front = s.ROB_front := by
  unfold do_memory_scheduling at ht
  cases hi : s.ROB[i]? with
  | none => rw [hi] at ht; exact absurd ht (by simp)
  | some rob_it =>
    rw [hi] at ht
    simp only at ht
    cases h1 : schedule_loads cfg i rob_it.source_memory.length 0 s with
    | error a => rw [h1] at ht; exact absurd ht (by simp)
    | ok s1 =>
      rw [h1] at ht
      simp only at ht
      have m1 := schedule_loads_ok cfg i _ _ s s1 h1
      cases h2 : schedule_stores cfg i rob_it.destination_memory.length 0 s1 with
      | error a => rw [h2] at ht; exact absurd ht (by simp)
      | ok r =>
        rw [h2] at ht
        simp only at ht
        have m2 := (schedule_stores_ok cfg i _ _ s1).2 r.1 r.2 h2
        have k2 : r.1.ROB.map reg_key = s.ROB.map reg_key := by
          rw [forall₂_mem_only_key _ _ m2.rob, forall₂_mem_only_key _ _ m1.rob]
        have f2 : r.1.ROB_front = s.ROB_front := by
          have e2 := m2.frame
          have e1 := m1.frame
          rw [e2, e1]
        cases he : r.1.ROB[i]? with
        | none => rw [he] at ht; exact absurd ht (by simp)
        | some e =>
          rw [he] at ht
          simp only at ht
          by_cases hall : e.source_memory.all (fun x => x.added) = true
              ∧ e.destination_memory.all (fun x => x.added) = true
          · rw [if_pos hall] at ht
            simp only [Except.ok.injEq, Prod.mk.injEq] at ht
            rw [← ht.1]
            refine ⟨?_, f2⟩
            show (r.1.ROB.set i _).map reg_key = _
            rw [map_set_same reg_key r.1.ROB i e _ he ?_, k2]
            unfold reg_key
            simp only [Prod.mk.injEq, decide_eq_decide, and_self, and_true]
            by_cases hx : e.executed = 0
            · rw [if_pos hx, hx]
              constructor
              · intro h0; exact absurd h0 (by decide)
              · intro h0; exact absurd h0 (by decide)
            · rw [if_neg hx]
          · rw [if_neg hall] at ht
            simp only [Except.ok.injEq, Prod.mk.injEq] at ht
            rw [← ht.1]
            exact ⟨k2, f2⟩

/-- `schedule_memory_instruction` keeps the keys of the entries and the front of the ROB. -/
theorem schedule_memory_loop_key {β : Type} (cfg : StageConfig) :
    ∀ (n i bw : Nat) (s t : Core β) (w : List Nat),
      schedule_memory_loop cfg n i bw s = .ok (t, w) →
      t.ROB.map reg_key = s.ROB.map reg_key ∧ t.ROB_front = s.ROB_front := by
  intro n
  induction n with
  | zero =>
    intro i bw s t w ht
    simp only [schedule_memory_loop, Except.ok.injEq, Prod.mk.injEq] at ht
    rw [← ht.1]; exact ⟨rfl, rfl⟩
  | succ n ih =>
    intro i bw s t w ht
    rw [schedule_memory_loop] at ht
    by_cases hbw : bw = 0
    · rw [if_pos hbw] at ht
      simp only [Except.ok.injEq, Prod.mk.injEq] at ht
      rw [← ht.1]; exact ⟨rfl, rfl⟩
    · rw [if_neg hbw] at ht
      cases hi : s.ROB[i]? with
      | none => rw [hi] at ht; exact absurd ht (by simp)
      | some rob_it =>
        rw [hi] at ht
        simp only at ht
        by_cases hc : rob_it.is_memory ≠ 0 ∧ rob_it.num_reg_dependent = 0
            ∧ rob_it.scheduled = INFLIGHT
        · rw [if_pos hc] at ht
          cases hd : do_memory_scheduling cfg s i with
          | error a => rw [hd] at ht; exact absurd ht (by simp)
          | ok r =>
            rw [hd] at ht
            simp only at ht
            obtain ⟨k1, f1⟩ := do_memory_scheduling_key cfg s r.1 i r.2 hd
            cases he : r.1.ROB[i]? with
            | none => rw [he] at ht; exact absurd ht (by simp)
            | some e =>
              rw [he] at ht
              simp only at ht
              cases hl : schedule_memory_loop cfg n (i + 1)
                  (if e.executed = 0 then bw - 1 else bw) r.1 with
              | error a => rw [hl] at ht; exact absurd ht (by simp)
              | ok r2 =>
                rw [hl] at ht
                simp only [Except.ok.injEq, Prod.mk.injEq] at ht
                obtain ⟨k2, f2⟩ := ih _ _ r.1 r2.1 r2.2 hl
                rw [← ht.1, k2, k1, f2, f1]
                exact ⟨rfl, rfl⟩
        · rw [if_neg hc] at ht
          simp only at ht
          rw [hi] at ht
          simp only at ht
          cases hl : schedule_memory_loop cfg n (i + 1)
              (if rob_it.executed = 0 then bw - 1 else bw) s with
          | error a => rw [hl] at ht; exact absurd ht (by simp)
          | ok r2 =>
            rw [hl] at ht
            simp only [Except.ok.injEq, Prod.mk.injEq] at ht
            obtain ⟨k2, f2⟩ := ih _ _ s r2.1 r2.2 hl
            rw [← ht.1]
            exact ⟨k2, f2⟩

/-- The occurrences in two lists of entries. -/
theorem reg_occurrences_append (a b : List ooo_model_instr) (it : Nat) :
    reg_occurrences (a ++ b) it = reg_occurrences a it + reg_occurrences b it := by
  unfold reg_occurrences
  rw [List.map_append, List.sum_append]

/-- Entries that contribute nothing. -/
theorem reg_occurrences_zero (l : List ooo_model_instr) (it : Nat)
    (h : ∀ a, a ∈ l → reg_weight it a = 0) : reg_occurrences l it = 0 := by
  unfold reg_occurrences
  induction l with
  | nil => rfl
  | cons a l ih =>
    simp only [List.map_cons, List.sum_cons]
    rw [h a (List.mem_cons_self _ _), ih (fun b hb => h b (List.mem_cons_of_mem _ hb))]

/-- Removing completed entries from the head of the ROB keeps the accounting. -/
theorem reg_accounting_drop (rob : List ooo_model_instr) (front k : Nat)
    (hdone : ∀ a, a ∈ rob.take k → a.executed = COMPLETED) (h : reg_accounting rob front) :
    reg_accounting (rob.drop k) (front + k) := by
  intro i d hd
  rw [List.getElem?_drop] at hd
  have e1 := h (k + i) d hd
  have e2 : reg_occurrences rob (front + (k + i))
      = reg_occurrences (rob.take k) (front + (k + i))
        + reg_occurrences (rob.drop k) (front + (k + i)) := by
    rw [← reg_occurrences_append, List.take_append_drop]
  have e3 : reg_occurrences (rob.take k) (front + (k + i)) = 0 :=
    reg_occurrences_zero _ _ (fun a ha => by
      unfold reg_weight
      rw [if_pos (hdone a ha)])
  rw [e1, e2, e3, Nat.zero_add, Nat.add_assoc]

/-- `retire_rob` keeps the accounting. -/
theorem retire_rob_acc {β : Type} (cfg : StageConfig) (room : Nat) (s t : Core β)
    (h : reg_accounting s.ROB s.ROB_front) (ht : retire_rob cfg room s = .ok t) :
    reg_accounting t.ROB t.ROB_front := by
  obtain ⟨k, _, hf, hfront, hdone, _⟩ := retire_loop_moves _ _ s t ht
  rw [hfront]
  exact reg_accounting_key _ _ _ (forall₂_mem_only_key _ _ hf)
    (reg_accounting_drop s.ROB s.ROB_front k hdone h)

/-- No list of dependents names a position behind the ROB. -/
theorem reg_occurrences_behind (rob : List ooo_model_instr) (front : Nat) (rte : List Nat)
    (hb : backend_ok rob front rte none) (it : Nat) (hit : front + rob.length ≤ it) :
    reg_occurrences rob it = 0 := by
  apply reg_occurrences_zero
  intro a ha
  obtain ⟨i, hi⟩ := List.mem_iff_getElem?.mp ha
  unfold reg_weight
  by_cases hx : a.executed = COMPLETED
  · rw [if_pos hx]
  · rw [if_neg hx, List.count_eq_zero]
    intro hmem
    obtain ⟨_, b, hbg, _⟩ := (hb.dependents i a hi).2 it hmem
    unfold rob_get at hbg
    by_cases hf : front ≤ it
    · rw [if_pos hf] at hbg
      have := (List.getElem?_eq_some_iff.mp hbg).1
      omega
    · rw [if_neg hf] at hbg
      exact absurd hbg (by simp)

/-- Fresh entries pushed behind the ROB keep the accounting. -/
theorem reg_accounting_append_fresh (rob l : List ooo_model_instr) (front : Nat)
    (rte : List Nat) (hb : backend_ok rob front rte none) (hl : ∀ a, a ∈ l → a.fresh)
    (h : reg_accounting rob front) : reg_accounting (rob ++ l) front := by
  have hz : ∀ it, reg_occurrences l it = 0 := by
    intro it
    apply reg_occurrences_zero
    intro a ha
    obtain ⟨_, _, _, h4⟩ := hl a ha
    unfold reg_weight
    rw [h4]
    by_cases hx : a.executed = COMPLETED
    · rw [if_pos hx]
    · rw [if_neg hx]; rfl
  intro i d hd
  rw [reg_occurrences_append, hz, Nat.add_zero]
  by_cases hi : i < rob.length
  · rw [List.getElem?_append_left hi] at hd
    exact h i d hd
  · rw [List.getElem?_append_right (by omega)] at hd
    have hmem : d ∈ l := List.mem_iff_getElem?.mpr ⟨_, hd⟩
    obtain ⟨_, _, h3, _⟩ := hl d hmem
    rw [h3, reg_occurrences_behind rob front rte hb (front + i) (by omega)]

/-- In every state of a run of the core the accounting of the register dependences
holds. -/
theorem runs_acc {β : Type} (cfg : StageConfig) (hooks : BranchHooks β) (s : Core β)
    (pushed written : List Nat) (h : Core.runs cfg hooks s pushed written) :
    reg_accounting s.ROB s.ROB_front := by
  induction h with
  | init s h1 h2 h3 h4 h5 h6 =>
    intro i d hd
    rw [h4] at hd
    simp at hd
  | init_instruction wc s t pushed written arch _ hfresh _ ht ih =>
    obtain ⟨_, _, _, hrob, hfront, _⟩ := core_init_instruction_spec cfg hooks wc s t arch ht
    rw [hrob, hfront]; exact ih
  | check_dib s pushed written _ ih =>
    have hf := check_dib_front cfg s
    rw [hf.rob, hf.front]; exact ih
  | translate_fetch s pushed written rq_index _ ih =>
    have hf := translate_fetch_front s rq_index
    rw [hf.rob, hf.front]; exact ih
  | fetch_instruction s pushed written rq_index _ ih =>
    have hf := fetch_instruction_front s rq_index
    rw [hf.rob, hf.front]; exact ih
  | handle_memory_return s pushed written _ ih =>
    have hf := handle_memory_return_instr_front cfg s
    rw [hf.rob, hf.front]; exact ih
  | promote_to_decode wc s pushed written _ ih =>
    have hf := promote_to_decode_front cfg wc s
    rw [hf.rob, hf.front]; exact ih
  | decode_instruction wc s t pushed written _ ht ih =>
    have hf := decode_instruction_front cfg wc s t ht
    rw [hf.rob, hf.front]; exact ih
  | dispatch_instruction s pushed written hr ih =>
    have hinv := runs_inv cfg hooks s pushed written hr
    obtain ⟨k, hrob, _, _, hframe⟩ := dispatch_instruction_moves cfg s
    have hfront : (dispatch_instruction cfg s).ROB_front = s.ROB_front := by rw [hframe]
    rw [hrob, hfront]
    refine reg_accounting_append_fresh s.ROB _ s.ROB_front s.ready_to_execute hinv.backend
      ?_ ih
    intro a ha
    apply hinv.queue_fresh
    unfold Core.queue
    rw [List.mem_map] at ha
    obtain ⟨e, he, hea⟩ := ha
    rw [List.mem_append, List.mem_append]
    exact Or.inl (Or.inl (List.mem_map.mpr ⟨e, List.mem_of_mem_take he, hea⟩))
  | schedule_instruction wc s t pushed written _ ht ih =>
    exact schedule_loop_acc cfg wc _ _ _ s t ih ht
  | execute_instruction wc s t pushed written hr ht ih =>
    exact execute_loop_acc cfg wc _ s t (runs_inv cfg hooks s pushed written hr).backend ih ht
  | complete_inflight_instruction s t pushed written hr ht ih =>
    have hinv := runs_inv cfg hooks s pushed written hr
    exact (complete_loop_acc cfg _ _ _ s hinv.backend hinv.rob_size ih).2 t ht
  | schedule_memory_instruction s t pushed written w _ ht ih =>
    obtain ⟨hk, hf⟩ := schedule_memory_loop_key cfg _ _ _ s t w ht
    rw [hf]
    exact reg_accounting_key _ _ _ hk ih
  | retire_rob room s t pushed written _ ht ih =>
    exact retire_rob_acc cfg room s t ih ht
  | lsq s t pushed written _ ht ih =>
    have hf : t.ROB_front = s.ROB_front := by rw [ht.1]
    rw [hf]
    exact reg_accounting_key _ _ _ (forall₂_mem_only_key _ _ ht.2) ih
  | itlb_answer s pushed written packet _ ih => exact ih
  | l1i_answer s pushed written packet _ ih => exact ih
  | read_budget s pushed written _ ih => exact ih
  | clock s pushed written _ ih => exact ih

/-- Equal keys are equal counts of producers. -/
theorem map_num_reg_dependent_of_key (rob rob2 : List ooo_model_instr)
    (h : rob2.map reg_key = rob.map reg_key) :
    rob2.map (fun a => a.num_reg_dependent) = rob.map (fun a => a.num_reg_dependent) := by
  have := congrArg (List.map (fun k : Bool × Nat × List Nat => k.2.1)) h
  rw [List.map_map, List.map_map] at this
  exact this

/-- Every count of producers is at most itself. -/
theorem count_le_self (l : List ooo_model_instr) :
    List.Forall₂ (fun a b : ooo_model_instr => a.num_reg_dependent ≤ b.num_reg_dependent) l l :=
  forall₂_self (fun a b : ooo_model_instr => a.num_reg_dependent ≤ b.num_reg_dependent)
    (fun a => Nat.le_refl a.num_reg_dependent) l

/-- Writing an entry whose count is not smaller takes nothing from a count. -/
theorem count_le_set (l : List ooo_model_instr) (i : Nat) (e e2 : ooo_model_instr)
    (hi : l[i]? = some e) (h : e.num_reg_dependent ≤ e2.num_reg_dependent) :
    List.Forall₂ (fun a b : ooo_model_instr => a.num_reg_dependent ≤ b.num_reg_dependent)
      l (l.set i e2) :=
  forall₂_set (fun a b : ooo_model_instr => a.num_reg_dependent ≤ b.num_reg_dependent)
    (fun a => Nat.le_refl a.num_reg_dependent) l i e e2 hi h

/-- Two steps that take nothing from a count take nothing together. -/
theorem count_le_comp (l1 l2 l3 : List ooo_model_instr)
    (h1 : List.Forall₂ (fun a b : ooo_model_instr => a.num_reg_dependent ≤ b.num_reg_dependent)
      l1 l2)
    (h2 : List.Forall₂ (fun a b : ooo_model_instr => a.num_reg_dependent ≤ b.num_reg_dependent)
      l2 l3) :
    List.Forall₂ (fun a b : ooo_model_instr => a.num_reg_dependent ≤ b.num_reg_dependent)
      l1 l3 :=
  forall₂_comp (fun a b : ooo_model_instr => a.num_reg_dependent ≤ b.num_reg_dependent)
    (fun _ _ _ hab hbc => Nat.le_trans hab hbc) l1 l2 l3 h1 h2

/-- The body of the loop of `do_scheduling` over the source registers takes nothing from a
count of producers. -/
theorem mark_register_dependency_le {β : Type} (i : Nat) (s : Core β) (src_reg : Nat) :
    List.Forall₂ (fun a b : ooo_model_instr => a.num_reg_dependent ≤ b.num_reg_dependent)
      s.ROB (mark_register_dependency i s src_reg).ROB := by
  unfold mark_register_dependency
  cases hf : find_prior s.ROB (instr_reg_will_produce src_reg) i with
  | none => exact count_le_self _
  | some j =>
    simp only
    obtain ⟨hji, prior, hj⟩ := find_prior_lt _ _ i j hf
    rw [hj]
    cases hi : s.ROB[i]? with
    | none => exact count_le_self _
    | some rob_it =>
      simp only
      by_cases hc : prior.registers_instrs_depend_on_me = []
          ∨ prior.registers_instrs_depend_on_me.getLast? ≠ some (s.ROB_front + i)
      · rw [if_pos hc]
        refine count_le_comp _
          (s.ROB.set j { prior with registers_instrs_depend_on_me := prior.registers_instrs_depend_on_me ++ [s.ROB_front + i] }) _
          (count_le_set _ j prior _ hj (Nat.le_refl _))
          (count_le_set _ i rob_it _ ?_ (Nat.le_succ _))
        rw [List.getElem?_set, if_neg (by omega)]
        exact hi
      · rw [if_neg hc]
        exact count_le_self _

/-- `do_scheduling` takes nothing from a count of producers. -/
theorem do_scheduling_le {β : Type} (cfg : StageConfig) (wc : Bool) (s : Core β) (i : Nat) :
    List.Forall₂ (fun a b : ooo_model_instr => a.num_reg_dependent ≤ b.num_reg_dependent)
      s.ROB (do_scheduling cfg wc s i).ROB := by
  have hfold : ∀ (regs : List Nat) (u : Core β),
      List.Forall₂ (fun a b : ooo_model_instr => a.num_reg_dependent ≤ b.num_reg_dependent)
        u.ROB (regs.foldl (mark_register_dependency i) u).ROB := by
    intro regs
    induction regs with
    | nil => intro u; exact count_le_self _
    | cons r rest ih =>
      intro u
      rw [List.foldl_cons]
      exact count_le_comp _ _ _ (mark_register_dependency_le i u r) (ih _)
  unfold do_scheduling
  cases hi : s.ROB[i]? with
  | none => exact count_le_self _
  | some rob_it =>
    simp only
    have h1 := hfold rob_it.source_registers s
    generalize rob_it.source_registers.foldl (mark_register_dependency i) s = s1 at h1 ⊢
    cases he : s1.ROB[i]? with
    | none => exact h1
    | some e =>
      simp only
      by_cases hm : e.is_memory ≠ 0
      · rw [if_pos hm]
        exact count_le_comp _ _ _ h1
          (count_le_set _ i e _ he (Nat.le_refl _))
      · rw [if_neg hm]
        exact count_le_comp _ _ _ h1
          (count_le_set _ i e _ he (Nat.le_refl _))

/-- `schedule_instruction` takes nothing from a count of producers. -/
theorem schedule_loop_le {β : Type} (cfg : StageConfig) (wc : Bool) :
    ∀ (n i bw : Nat) (s t : Core β), schedule_loop cfg wc n i bw s = .ok t →
      List.Forall₂ (fun a b : ooo_model_instr => a.num_reg_dependent ≤ b.num_reg_dependent)
        s.ROB t.ROB := by
  intro n
  induction n with
  | zero =>
    intro i bw s t ht
    simp only [schedule_loop, Except.ok.injEq] at ht
    rw [← ht]; exact count_le_self _
  | succ n ih =>
    intro i bw s t ht
    rw [schedule_loop] at ht
    by_cases hbw : bw = 0
    · rw [if_pos hbw] at ht
      simp only [Except.ok.injEq] at ht
      rw [← ht]; exact count_le_self _
    · rw [if_neg hbw] at ht
      cases hstep : schedule_step cfg wc s i with
      | error a => rw [hstep] at ht; exact absurd ht (by simp)
      | ok r =>
        rw [hstep] at ht
        have h2 := ih _ _ _ t ht
        have h1 : List.Forall₂
            (fun a b : ooo_model_instr => a.num_reg_dependent ≤ b.num_reg_dependent)
            s.ROB r.1.ROB := by
          unfold schedule_step at hstep
          cases hi : s.ROB[i]? with
          | none => rw [hi] at hstep; exact absurd hstep (by simp)
          | some rob_it =>
            rw [hi] at hstep
            simp only at hstep
            have hd := do_scheduling_le cfg wc s i
            by_cases hs : rob_it.scheduled = 0
            · rw [if_pos hs] at hstep
              generalize do_scheduling cfg wc s i = s1 at hd hstep
              cases he : s1.ROB[i]? with
              | none => rw [he] at hstep; exact absurd hstep (by simp)
              | some e =>
                rw [he] at hstep
                simp only at hstep
                by_cases hc : e.scheduled = COMPLETED ∧ e.num_reg_dependent = 0
                · rw [if_pos hc] at hstep
                  by_cases hl : s1.ready_to_execute.length < cfg.ROB_SIZE
                  · rw [if_pos hl] at hstep
                    simp only at hstep
                    rw [show ({ s1 with ready_to_execute := s1.ready_to_execute ++ [s1.ROB_front + i] } : Core β).ROB[i]? = some e from he] at hstep
                    simp only [Except.ok.injEq] at hstep
                    rw [← hstep]
                    exact hd
                  · rw [if_neg hl] at hstep
                    exact absurd hstep (by simp)
                · rw [if_neg hc] at hstep
                  simp only at hstep
                  rw [he] at hstep
                  simp only [Except.ok.injEq] at hstep
                  rw [← hstep]; exact hd
            · rw [if_neg hs] at hstep
              simp only at hstep
              rw [hi] at hstep
              simp only [Except.ok.injEq] at hstep
              rw [← hstep]; exact count_le_self _
        exact count_le_comp _ _ _ h1 h2

/-- `execute_instruction` keeps the counts of producers. -/
theorem execute_loop_num_reg_dependent {β : Type} (cfg : StageConfig) (wc : Bool) :
    ∀ (n : Nat) (s t : Core β), execute_loop cfg wc n s = .ok t →
      t.ROB.map (fun a => a.num_reg_dependent) = s.ROB.map (fun a => a.num_reg_dependent) := by
  intro n
  induction n with
  | zero =>
    intro s t ht
    simp only [execute_loop, Except.ok.injEq] at ht
    rw [← ht]
  | succ n ih =>
    intro s t ht
    rw [execute_loop] at ht
    have hcases : s.ready_to_execute = [] ∨ ∃ it rest, s.ready_to_execute = it :: rest := by
      cases s.ready_to_execute with
      | nil => exact Or.inl rfl
      | cons it rest => exact Or.inr ⟨it, rest, rfl⟩
    rcases hcases with hr | ⟨it, rest, hr⟩
    · rw [hr] at ht
      simp only [Except.ok.injEq] at ht
      rw [← ht]
    · rw [hr] at ht
      simp only at ht
      cases hd : do_execution cfg wc s it with
      | error a => rw [hd] at ht; exact absurd ht (by simp)
      | ok s1 =>
        rw [hd] at ht
        simp only at ht
        have h1 : s1.ROB.map (fun a => a.num_reg_dependent)
            = s.ROB.map (fun a => a.num_reg_dependent) := by
          unfold do_execution at hd
          cases ha : s.rob_at it with
          | none => rw [ha] at hd; exact absurd hd (by simp)
          | some a =>
            rw [ha] at hd
            simp only [Except.ok.injEq] at hd
            rw [← hd]
            unfold Core.rob_at at ha
            by_cases hf : s.ROB_front ≤ it
            · rw [if_pos hf] at ha
              exact map_set_same _ s.ROB _ a _ ha rfl
            · rw [if_neg hf] at ha
              exact absurd ha (by simp)
        have h2 := ih { s1 with ready_to_execute := rest } t ht
        rw [h2]
        exact h1

/-- What `instr_reg_will_produce` tests. -/
theorem instr_reg_will_produce_iff (r : Nat) (q : ooo_model_instr) :
    instr_reg_will_produce r q = true
      ↔ q.executed ≠ COMPLETED ∧ r ∈ q.destination_registers := by
  simp [instr_reg_will_produce]

/-- After the body of the loop of `do_scheduling` for a source register, the list of dependents
of the producer that `find_prior` chose ends with the scheduled entry. -/
theorem mark_register_dependency_tail {β : Type} (i : Nat) (s : Core β) (r j : Nat)
    (d : ooo_model_instr) (hf : find_prior s.ROB (instr_reg_will_produce r) i = some j)
    (hi : s.ROB[i]? = some d) :
    ∃ p, (mark_register_dependency i s r).ROB[j]? = some p
      ∧ p.registers_instrs_depend_on_me.getLast? = some (s.ROB_front + i) := by
  obtain ⟨hji, prior, hj⟩ := find_prior_lt _ _ i j hf
  unfold mark_register_dependency
  rw [hf]
  simp only
  rw [hj, hi]
  simp only
  by_cases hc : prior.registers_instrs_depend_on_me = []
      ∨ prior.registers_instrs_depend_on_me.getLast? ≠ some (s.ROB_front + i)
  · rw [if_pos hc]
    have hlen : j < s.ROB.length := by
      rcases Nat.lt_or_ge j s.ROB.length with h | h
      · exact h
      · rw [List.getElem?_eq_none h] at hj; exact absurd hj (by simp)
    refine ⟨{ prior with registers_instrs_depend_on_me := prior.registers_instrs_depend_on_me ++ [s.ROB_front + i] }, ?_, ?_⟩
    · simp only
      rw [List.getElem?_set, if_neg (by omega)]
      exact getElem?_set_of_lt _ j _ hlen
    · simp
  · rw [if_neg hc]
    refine ⟨prior, hj, ?_⟩
    by_contra hne
    exact hc (Or.inr hne)

/-- C29. Register dependence accounting, in every state `s` of a run of the core. With
`reg_occurrences rob it` the number of occurrences of the iterator `it` in the
`registers_instrs_depend_on_me` lists of the entries of `rob` whose `executed` is not
COMPLETED: (1) the `num_reg_dependent` of every ROB entry equals the number of occurrences of
its iterator; (2) the producer that `do_scheduling` chooses for a source register `r` of the
entry at index `i` (lines 485-486) is the nearest older ROB entry with
`executed != COMPLETED` that has `r` among its destinations: no entry between the two
qualifies, none of the older entries qualifies when no producer is chosen, and after the body
of the loop the list of the chosen producer ends with the scheduled entry (dedup by tail);
(3) the equality holds after `do_scheduling` of any ROB entry; (4) `do_complete_execution` of
an entry that is not completed returns, keeps the equality and takes from the count of every
entry exactly the number of its occurrences in the list of the completed entry; (5) the
assertion of line 853 (`num_reg_dependent > 0` before the decrement) never fails in
`complete_inflight_instruction`, so no count becomes negative; (6) the other stages take
nothing from a count: `schedule_instruction` only adds, `execute_instruction`,
`schedule_memory_instruction` and the load and store side keep every count,
`dispatch_instruction` appends entries and `retire_rob` removes entries from the head. -/
theorem register_dependence_accounting {β : Type} (cfg : StageConfig) (hooks : BranchHooks β)
    (s : Core β) (pushed written : List Nat) (h : Core.runs cfg hooks s pushed written) :
    (∀ i d, s.ROB[i]? = some d → d.num_reg_dependent = reg_occurrences s.ROB (s.ROB_front + i))
      ∧ (∀ i r j, find_prior s.ROB (instr_reg_will_produce r) i = some j →
          j < i ∧ (∃ p, s.ROB[j]? = some p ∧ p.executed ≠ COMPLETED
                      ∧ r ∈ p.destination_registers)
            ∧ (∀ k q, j < k → k < i → s.ROB[k]? = some q →
                ¬ (q.executed ≠ COMPLETED ∧ r ∈ q.destination_registers))
            ∧ (∀ d, s.ROB[i]? = some d → ∃ p, (mark_register_dependency i s r).ROB[j]? = some p
                ∧ p.registers_instrs_depend_on_me.getLast? = some (s.ROB_front + i)))
      ∧ (∀ i r, find_prior s.ROB (instr_reg_will_produce r) i = none →
          (∀ k q, k < i → s.ROB[k]? = some q →
              ¬ (q.executed ≠ COMPLETED ∧ r ∈ q.destination_registers))
            ∧ mark_register_dependency i s r = s)
      ∧ (∀ wc i, reg_accounting (do_scheduling cfg wc s i).ROB (do_scheduling cfg wc s i).ROB_front)
      ∧ (∀ i e, s.ROB[i]? = some e → e.executed ≠ COMPLETED →
          ∃ t, do_complete_execution cfg s i = .ok t
            ∧ reg_accounting t.ROB t.ROB_front
            ∧ ∀ i0 d0, s.ROB[i0]? = some d0 → ∃ d1, t.ROB[i0]? = some d1
                ∧ d1.num_reg_dependent
                    + e.registers_instrs_depend_on_me.count (s.ROB_front + i0)
                  = d0.num_reg_dependent)
      ∧ complete_inflight_instruction cfg s ≠ .error (Abort.assertion 853)
      ∧ (∀ t, complete_inflight_instruction cfg s = .ok t → reg_accounting t.ROB t.ROB_front)
      ∧ (∀ wc t, schedule_instruction cfg wc s = .ok t →
          List.Forall₂ (fun a b : ooo_model_instr => a.num_reg_dependent ≤ b.num_reg_dependent)
            s.ROB t.ROB)
      ∧ (∀ wc t, execute_instruction cfg wc s = .ok t →
          t.ROB.map (fun a => a.num_reg_dependent) = s.ROB.map (fun a => a.num_reg_dependent))
      ∧ (∀ t w, schedule_memory_instruction cfg s = .ok (t, w) →
          t.ROB.map (fun a => a.num_reg_dependent) = s.ROB.map (fun a => a.num_reg_dependent))
      ∧ (∀ t, s.lsq_step t →
          t.ROB.map (fun a => a.num_reg_dependent) = s.ROB.map (fun a => a.num_reg_dependent))
      ∧ (∃ l, (dispatch_instruction cfg s).ROB = s.ROB ++ l)
      ∧ (∀ room t, retire_rob cfg room s = .ok t →
          ∃ k, t.ROB.map (fun a => a.num_reg_dependent)
            = (s.ROB.drop k).map (fun a => a.num_reg_dependent)) := by
  have hacc := runs_acc cfg hooks s pushed written h
  have hinv := runs_inv cfg hooks s pushed written h
  refine ⟨hacc, ?_, ?_, ?_, ?_, ?_, ?_, ?_, ?_, ?_, ?_, ?_, ?_⟩
  · intro i r j hf
    obtain ⟨h1, ⟨p, hp, hpp⟩, h3⟩ := (find_prior_spec s.ROB (instr_reg_will_produce r) i).1 j hf
    refine ⟨h1, ⟨p, hp, ((instr_reg_will_produce_iff r p).1 hpp).1,
      ((instr_reg_will_produce_iff r p).1 hpp).2⟩, ?_, ?_⟩
    · intro k q hjk hki hq hc
      have := h3 k q hjk hki hq
      rw [(instr_reg_will_produce_iff r q).2 hc] at this
      exact absurd this (by simp)
    · intro d hd
      exact mark_register_dependency_tail i s r j d hf hd
  · intro i r hf
    refine ⟨?_, ?_⟩
    · intro k q hki hq hc
      have := (find_prior_spec s.ROB (instr_reg_will_produce r) i).2 hf k q hki hq
      rw [(instr_reg_will_produce_iff r q).2 hc] at this
      exact absurd this (by simp)
    · unfold mark_register_dependency
      rw [hf]
  · intro wc i
    have := do_scheduling_acc cfg wc s i hacc
    rw [this.2]
    exact this.1
  · intro i e hi hx
    obtain ⟨t, h1, h2, _, h4⟩ := do_complete_execution_acc cfg s i e hi hx hinv.backend hacc
    exact ⟨t, h1, h2, h4⟩
  · exact (complete_loop_acc cfg s.ROB.length 0 cfg.EXEC_WIDTH s hinv.backend hinv.rob_size
      hacc).1
  · exact (complete_loop_acc cfg s.ROB.length 0 cfg.EXEC_WIDTH s hinv.backend hinv.rob_size
      hacc).2
  · intro wc t ht
    exact schedule_loop_le cfg wc _ _ _ s t ht
  · intro wc t ht
    exact execute_loop_num_reg_dependent cfg wc _ s t ht
  · intro t w ht
    exact map_num_reg_dependent_of_key _ _
      (schedule_memory_loop_key cfg _ _ _ s t w ht).1
  · intro t ht
    exact map_num_reg_dependent_of_key _ _ (forall₂_mem_only_key _ _ ht.2)
  · obtain ⟨k, h1, _⟩ := dispatch_instruction_moves cfg s
    exact ⟨_, h1⟩
  · intro room t ht
    obtain ⟨k, _, h2, _⟩ := retire_loop_moves cfg.RETIRE_WIDTH room s t ht
    exact ⟨k, map_num_reg_dependent_of_key _ _ (forall₂_mem_only_key _ _ h2)⟩

/-- C29 at the run that has scheduled `instr_use` behind the store `instr_st` that produces its
source register: the count of `instr_use` is 1 and its iterator occurs once, in the list of
the store. -/
theorem register_dependence_accounting_witness :
    Core.runs cfg_stage (const_hooks 0 0 0) core_st8 [0] []
      ∧ core_st8.ROB.map (fun a => (a.num_reg_dependent, a.registers_instrs_depend_on_me))
          = [(0, [1]), (1, [])]
      ∧ reg_occurrences core_st8.ROB 1 = 1
      ∧ (∀ i d, core_st8.ROB[i]? = some d
          → d.num_reg_dependent = reg_occurrences core_st8.ROB (core_st8.ROB_front + i)) :=
  have h8 : Core.runs cfg_stage (const_hooks 0 0 0) core_st8 [0] [] :=
    Core.runs.schedule_instruction true core_st7 core_st8 [0] [] core_st7_runs
      (except_eq_ok_getD _ _ (by decide))
  ⟨h8, by decide, by decide,
    (register_dependence_accounting cfg_stage (const_hooks 0 0 0) core_st8 [0] [] h8).1⟩


/-! ## `init_instruction`: a branch that is not taken, and the warmup -/

/-- The target of an instruction that is no branch or is not taken is cleared. -/
theorem decoded_instr_target_cleared (cfg : CoreConfig) (id : Nat) (a : ooo_model_instr)
    (h : (decoded_instr cfg id a).is_branch ≠ 1 ∨ (decoded_instr cfg id a).branch_taken ≠ 1) :
    (decoded_instr cfg id a).branch_target = 0 := by
  have hd := decoded_instr_class cfg id a
  rw [hd.2.1, hd.2.2] at h
  unfold decoded_instr
  dsimp only
  rw [(fold_stack_pointer_fields cfg _ _).2.2.2.1]
  unfold clear_target
  rcases h with h | h
  · simp [h]
  · simp [h]

/-- The predicted target is 0 when the predictor answers "not taken" and the BTB does not
report the branch as always taken, whatever target the BTB returned. -/
theorem predicted_target_not_taken {β : Type} (hooks : BranchHooks β) (p : β)
    (a : ooo_model_instr)
    (hat : (hooks.impl_btb_prediction p a.ip a.branch_type).1.2 = 0)
    (hpred : (hooks.impl_predict_branch (hooks.impl_btb_prediction p a.ip a.branch_type).2 a.ip
      (hooks.impl_btb_prediction p a.ip a.branch_type).1.1
      (hooks.impl_btb_prediction p a.ip a.branch_type).1.2 a.branch_type).1 = 0) :
    (predicted_target hooks p a).1 = 0 := by
  unfold predicted_target
  dsimp only
  rw [hpred, hat]
  rfl

/-- C40. A branch that is not taken and is predicted not taken is no misprediction. Let `d`
be the instruction that `init_instruction` has built when it reaches the prediction block,
and let the instruction `x` that it appends to `IFETCH_BUFFER` be a branch with
`branch_taken != 1`. Then its `branch_target` is 0 (lines 123-127). When the BTB reports
`always_taken = 0` and the predictor returns 0 for it, whatever target the BTB returned,
`init_instruction` leaves `branch_mispredictions`, `branch_type_misses`,
`total_rob_occupancy_at_branch_mispredict` and `fetch_stall` as they were, `x` has the
`branch_mispredicted` of the trace instruction, and `instrs_to_read_this_cycle` is the
decrement of line 48 of its former value: it is not zeroed. -/
theorem not_taken_predicted_not_taken {β : Type} (cfg : CoreConfig) (hooks : BranchHooks β)
    (warmup_complete : Bool) (s : O3_CPU β) (arch_instr : ooo_model_instr)
    (hsta : s.STA.length + arch_instr.destination_memory.length
      ≤ cfg.ROB_SIZE * cfg.NUM_INSTR_DESTINATIONS_SPARC) :
    ∃ s' x, init_instruction cfg hooks warmup_complete s arch_instr = some s'
      ∧ s'.IFETCH_BUFFER = s.IFETCH_BUFFER ++ [x]
      ∧ (x.is_branch ≠ 0 → x.branch_taken ≠ 1 →
          x.branch_target = 0
            ∧ ((hooks.impl_btb_prediction s.plugin
                  (decoded_instr cfg s.instr_unique_id arch_instr).ip x.branch_type).1.2 = 0 →
               (hooks.impl_predict_branch
                  (hooks.impl_btb_prediction s.plugin
                    (decoded_instr cfg s.instr_unique_id arch_instr).ip x.branch_type).2
                  (decoded_instr cfg s.instr_unique_id arch_instr).ip
                  (hooks.impl_btb_prediction s.plugin
                    (decoded_instr cfg s.instr_unique_id arch_instr).ip x.branch_type).1.1
                  (hooks.impl_btb_prediction s.plugin
                    (decoded_instr cfg s.instr_unique_id arch_instr).ip x.branch_type).1.2
                  x.branch_type).1 = 0 →
               s'.branch_mispredictions = s.branch_mispredictions
                 ∧ s'.branch_type_misses = s.branch_type_misses
                 ∧ s'.total_rob_occupancy_at_branch_mispredict
                     = s.total_rob_occupancy_at_branch_mispredict
                 ∧ s'.fetch_stall = s.fetch_stall
                 ∧ x.branch_mispredicted = arch_instr.branch_mispredicted
                 ∧ s'.instrs_to_read_this_cycle = dec64 s.instrs_to_read_this_cycle)) := by
  have hpf := pushed_fields cfg hooks warmup_complete s arch_instr s.current_cycle
  refine ⟨_, _, init_instruction_eq cfg hooks warmup_complete s arch_instr hsta,
    push_instr_buffer cfg hooks warmup_complete s arch_instr, ?_⟩
  intro hb ht
  rw [hpf.1] at hb
  rw [hpf.2.1] at ht
  have h0 := decoded_instr_target_cleared cfg s.instr_unique_id arch_instr (Or.inr ht)
  refine ⟨by rw [hpf.2.2.2.1]; exact h0, ?_⟩
  rw [hpf.2.2.1]
  intro hat hpred
  have htc := tallied_core_frame cfg s arch_instr
  have hp : (predicted_target hooks (tallied_core cfg s arch_instr).plugin
      (decoded_instr cfg s.instr_unique_id arch_instr)).1
      = (decoded_instr cfg s.instr_unique_id arch_instr).branch_target := by
    rw [htc.2.2.2.2.2.2.2.2.2.1, h0]
    exact predicted_target_not_taken hooks s.plugin _ hat hpred
  have hm := handle_branch_prediction_hit hooks warmup_complete
    (tallied_core cfg s arch_instr) (decoded_instr cfg s.instr_unique_id arch_instr) hb hp
  have hpu := push_instr_frame warmup_complete
    (handle_branch_prediction hooks warmup_complete (tallied_core cfg s arch_instr)
      (decoded_instr cfg s.instr_unique_id arch_instr))
  refine ⟨?_, ?_, ?_, ?_, ?_, ?_⟩
  · rw [hpu.1, hm.1, htc.2.2.2.2.2.1]
  · rw [hpu.2.2.1, hm.2.2.1, htc.2.2.2.2.2.2.2.1]
  · rw [hpu.2.1, hm.2.1, htc.2.2.2.2.2.2.1]
  · rw [hpu.2.2.2.1, hm.2.2.2.1, htc.2.2.2.2.1]
  · rw [hpf.2.2.2.2, hm.2.2.2.2.1]
    exact decoded_instr_mispredicted cfg s.instr_unique_id arch_instr
  · rw [hpu.2.2.2.2.1, hm.2.2.2.2.2.2 ht, htc.2.2.2.2.2.2.2.2.1]

/-- C40 on a conditional branch that is not taken, the BTB answering the target `0x4000`
with `always_taken = 0` and the predictor 0. -/
theorem not_taken_predicted_not_taken_witness :
    ∃ s' x, init_instruction cfg0 (const_hooks 0x4000 0 0) true core0 cond_nt = some s'
      ∧ s'.IFETCH_BUFFER = [x] ∧ x.branch_target = 0
      ∧ s'.branch_mispredictions = 0 ∧ s'.fetch_stall = 0 ∧ x.branch_mispredicted = 0
      ∧ s'.instrs_to_read_this_cycle = 5 := by
  obtain ⟨s', x, h1, h2, h3⟩ :=
    not_taken_predicted_not_taken cfg0 (const_hooks 0x4000 0 0) true core0 cond_nt (by decide)
  have hc : (init_instruction cfg0 (const_hooks 0x4000 0 0) true core0 cond_nt).map
      (fun t => t.IFETCH_BUFFER.map (fun y => (y.is_branch, y.branch_taken)))
      = some [(1, 0)] := by decide
  rw [h1] at hc
  simp only [Option.map_some', h2, core0, List.nil_append, List.map_cons, List.map_nil,
    Option.some.injEq, List.cons.injEq, Prod.mk.injEq, and_true] at hc
  have h2' : s'.IFETCH_BUFFER = [x] := by rw [h2]; rfl
  have h3' := h3 (by rw [hc.1]; decide) (by rw [hc.2]; decide)
  have h4 := h3'.2 rfl rfl
  exact ⟨s', x, h1, h2', h3'.1, h4.1, h4.2.2.2.1, h4.2.2.2.2.1, h4.2.2.2.2.2⟩

/-- The instruction that the prediction block returns is the one it was given, up to
`branch_mispredicted`. -/
theorem handle_branch_prediction_instr_eq {β : Type} (hooks : BranchHooks β) (w : Bool)
    (s : O3_CPU β) (a : ooo_model_instr) :
    (handle_branch_prediction hooks w s a).2
      = { a with branch_mispredicted :=
            (handle_branch_prediction hooks w s a).2.branch_mispredicted } := by
  rcases handle_branch_prediction_instr hooks w s a with h | h <;> rw [h]

/-- The prediction block during the warmup and after it: the statistics, the plug-in state
and every member but `fetch_stall` and `instrs_to_read_this_cycle` come out the same. -/
theorem handle_branch_prediction_warmup {β : Type} (hooks : BranchHooks β) (s : O3_CPU β)
    (a : ooo_model_instr) :
    (handle_branch_prediction hooks false s a).1
      = { (handle_branch_prediction hooks true s a).1 with
          fetch_stall := (handle_branch_prediction hooks false s a).1.fetch_stall
          instrs_to_read_this_cycle :=
            (handle_branch_prediction hooks false s a).1.instrs_to_read_this_cycle } := by
  unfold handle_branch_prediction
  by_cases hb : a.is_branch != 0
  · rw [if_pos hb, if_pos hb]
    dsimp only
    by_cases hp : ((predicted_target hooks s.plugin a).1 != a.branch_target) = true
    · rw [if_pos hp, if_pos hp]
      rfl
    · rw [if_neg hp, if_neg hp]
  · rw [if_neg hb, if_neg hb]

/-- During the warmup the prediction block returns the instruction with the
`branch_mispredicted` it was given. -/
theorem misprediction_fields_warmup {β : Type} (hooks : BranchHooks β) (s : O3_CPU β)
    (a : ooo_model_instr) :
    (handle_branch_prediction hooks false s a).2.branch_mispredicted = a.branch_mispredicted := by
  unfold handle_branch_prediction
  by_cases hb : a.is_branch != 0
  · rw [if_pos hb]
    dsimp only
    by_cases hp : ((predicted_target hooks s.plugin a).1 != a.branch_target) = true
    · rw [if_pos hp]; rfl
    · rw [if_neg hp]
      by_cases ht : (a.branch_taken == 1) = true
      · rw [if_pos ht]
      · rw [if_neg ht]
  · rw [if_neg hb]

/-- The memory operand count and the count of producers of the instruction that
`init_instruction` builds. -/
theorem decoded_instr_ops (cfg : CoreConfig) (id : Nat) (a : ooo_model_instr) :
    (decoded_instr cfg id a).num_mem_ops = a.source_memory.length + a.destination_memory.length
      ∧ (decoded_instr cfg id a).num_reg_dependent = a.num_reg_dependent := by
  have hb := decoded_instr_backend cfg id a
  refine ⟨?_, ?_⟩
  · unfold decoded_instr
    dsimp only
    have h3 : ∀ (f : RegFlags) (b : ooo_model_instr),
        (fold_stack_pointer cfg f b).num_mem_ops = b.num_mem_ops := by
      intro f b
      unfold fold_stack_pointer
      split_ifs <;> rfl
    rw [h3, (clear_target_fields _).2.2.2.2.2.2, (classify_branch_fields _ _).2.2.2.2.2,
      (count_ops_fields _).2.2.2.2.2.2.2.2]
  · have := congrArg (fun k : Nat × Nat × Nat × Nat × List Nat => k.2.2.2.1) hb
    exact this

/-- The prediction block and the push leave `STA` as line 61 made it. -/
theorem handle_branch_prediction_sta {β : Type} (cfg : CoreConfig) (hooks : BranchHooks β)
    (w : Bool) (s : O3_CPU β) (a : ooo_model_instr) :
    (handle_branch_prediction hooks w (tallied_core cfg s a)
        (decoded_instr cfg s.instr_unique_id a)).1.STA
      = s.STA ++ List.replicate a.destination_memory.length s.instr_unique_id := by
  have h : ∀ (t : O3_CPU β) (b : ooo_model_instr),
      (handle_branch_prediction hooks w t b).1.STA = t.STA := by
    intro t b
    unfold handle_branch_prediction
    by_cases hb : b.is_branch != 0
    · rw [if_pos hb]
      dsimp only
      by_cases hp : ((predicted_target hooks t.plugin b).1 != b.branch_target) = true
      · rw [if_pos hp]
        cases w <;> rfl
      · rw [if_neg hp]
        by_cases ht : (b.branch_taken == 1) = true
        · rw [if_pos ht]
        · rw [if_neg ht]
    · rw [if_neg hb]
  rw [h]
  rfl

/-- `do_scheduling` of an entry that has no source register: nothing but the `scheduled`
stamp of the entry (and, for an instruction that is not a memory instruction, its
`event_cycle`) changes. -/
theorem do_scheduling_no_sources {β : Type} (cfg : StageConfig) (wc : Bool) (s : Core β)
    (i : Nat) (e : ooo_model_instr) (hi : s.ROB[i]? = some e) (hs : e.source_registers = []) :
    do_scheduling cfg wc s i
      = { s with ROB := (s.ROB.set i
          (if e.is_memory ≠ 0 then { e with scheduled := INFLIGHT }
           else { e with scheduled := COMPLETED, event_cycle := (s.current_cycle + (if wc then cfg.SCHEDULING_LATENCY else 0)) })) } := by
  unfold do_scheduling
  rw [hi]
  simp only [hs, List.foldl_nil, hi]
  by_cases hm : e.is_memory ≠ 0
  · rw [if_pos hm, if_pos hm]
  · rw [if_neg hm, if_neg hm]

/-- C31. The warmup of `init_instruction`. For a trace instruction, let `x` be the
instruction that `init_instruction` appends to `IFETCH_BUFFER` during the warmup
(`warmup_complete` false) and `y` the one that it appends after the warmup, from the same
core. Then `x` has no source and no destination register and `num_reg_ops = 0`; in every
other field but `branch_mispredicted`, which the warmup leaves as the trace gave it, `x` is
`y`: the branch classification (`is_branch`, `branch_type`, `branch_taken`, `branch_target`),
`num_mem_ops`, `is_memory` and the memory operands are the same; `STA` gets the same pushes,
one copy of the id per destination memory operand; and the two cores differ in
`IFETCH_BUFFER`, `fetch_stall` and `instrs_to_read_this_cycle` only, so that the statistics
and the state of the predictors are the same. `x` has the `num_reg_dependent` of the trace
instruction (0 as the trace reader builds it), and `do_scheduling` of a ROB entry without
source registers changes nothing but the `scheduled` stamp of the entry (and its
`event_cycle`): the entry keeps its `num_reg_dependent`, 0 for such an instruction, and no
other entry of the ROB changes. -/
theorem warmup_clears_registers {β : Type} (cfg : StageConfig) (hooks : BranchHooks β)
    (s : O3_CPU β) (arch_instr : ooo_model_instr)
    (hsta : s.STA.length + arch_instr.destination_memory.length
      ≤ cfg.ROB_SIZE * cfg.NUM_INSTR_DESTINATIONS_SPARC) :
    ∃ s' t' x y,
      init_instruction cfg.toCoreConfig hooks false s arch_instr = some s'
      ∧ init_instruction cfg.toCoreConfig hooks true s arch_instr = some t'
      ∧ s'.IFETCH_BUFFER = s.IFETCH_BUFFER ++ [x] ∧ t'.IFETCH_BUFFER = s.IFETCH_BUFFER ++ [y]
      ∧ x.source_registers = [] ∧ x.destination_registers = [] ∧ x.num_reg_ops = 0
      ∧ x = { y with source_registers := [], destination_registers := [], num_reg_ops := 0,
                     branch_mispredicted := arch_instr.branch_mispredicted }
      ∧ (x.is_branch = y.is_branch ∧ x.branch_type = y.branch_type
          ∧ x.branch_taken = y.branch_taken ∧ x.branch_target = y.branch_target
          ∧ x.num_mem_ops = y.num_mem_ops ∧ x.is_memory = y.is_memory
          ∧ x.source_memory = y.source_memory ∧ x.destination_memory = y.destination_memory)
      ∧ x.num_mem_ops = arch_instr.source_memory.length + arch_instr.destination_memory.length
      ∧ s'.STA = s.STA ++ List.replicate arch_instr.destination_memory.length s.instr_unique_id
      ∧ t'.STA = s'.STA
      ∧ s' = { t' with IFETCH_BUFFER := s'.IFETCH_BUFFER, fetch_stall := s'.fetch_stall,
                       instrs_to_read_this_cycle := s'.instrs_to_read_this_cycle }
      ∧ x.num_reg_dependent = arch_instr.num_reg_dependent
      ∧ (∀ (c : Core β) (wc : Bool) (i : Nat) (e : ooo_model_instr), c.ROB[i]? = some e →
          e.source_registers = [] →
          (∃ e2, (do_scheduling cfg wc c i).ROB[i]? = some e2
              ∧ e2.num_reg_dependent = e.num_reg_dependent)
            ∧ (∀ j, j ≠ i → (do_scheduling cfg wc c i).ROB[j]? = c.ROB[j]?)) := by
  have hx := handle_branch_prediction_instr_eq hooks false (tallied_core cfg.toCoreConfig s arch_instr)
    (decoded_instr cfg.toCoreConfig s.instr_unique_id arch_instr)
  have hy := handle_branch_prediction_instr_eq hooks true (tallied_core cfg.toCoreConfig s arch_instr)
    (decoded_instr cfg.toCoreConfig s.instr_unique_id arch_instr)
  have hw := handle_branch_prediction_warmup hooks (tallied_core cfg.toCoreConfig s arch_instr)
    (decoded_instr cfg.toCoreConfig s.instr_unique_id arch_instr)
  have hbm : (handle_branch_prediction hooks false (tallied_core cfg.toCoreConfig s arch_instr)
      (decoded_instr cfg.toCoreConfig s.instr_unique_id arch_instr)).2.branch_mispredicted
      = arch_instr.branch_mispredicted := by
    have h := (pushed_fields cfg.toCoreConfig hooks false s arch_instr 0).2.2.2.2
    have h2 := (misprediction_fields_warmup hooks (tallied_core cfg.toCoreConfig s arch_instr)
      (decoded_instr cfg.toCoreConfig s.instr_unique_id arch_instr))
    rw [h2]
    exact decoded_instr_mispredicted cfg.toCoreConfig s.instr_unique_id arch_instr
  generalize hX : (handle_branch_prediction hooks false (tallied_core cfg.toCoreConfig s arch_instr)
      (decoded_instr cfg.toCoreConfig s.instr_unique_id arch_instr)) = rF at hx hw hbm
  generalize hY : (handle_branch_prediction hooks true (tallied_core cfg.toCoreConfig s arch_instr)
      (decoded_instr cfg.toCoreConfig s.instr_unique_id arch_instr)) = rT at hy hw
  have hpbF := push_instr_buffer cfg.toCoreConfig hooks false s arch_instr
  have hpbT := push_instr_buffer cfg.toCoreConfig hooks true s arch_instr
  rw [hX] at hpbF
  rw [hY] at hpbT
  have hcur : rT.1.current_cycle = rF.1.current_cycle := by rw [hw]
  have hd := decoded_instr_ops cfg.toCoreConfig s.instr_unique_id arch_instr
  have hxs : ∀ b : ooo_model_instr, warmup_strip false b
      = { b with source_registers := [], destination_registers := [], num_reg_ops := 0 } := by
    intro b; rfl
  have hys : ∀ b : ooo_model_instr, warmup_strip true b = b := by
    intro b; rfl
  rw [hxs] at hpbF
  rw [hys] at hpbT
  refine ⟨push_instr false rF, push_instr true rT,
    { ({ rF.2 with event_cycle := s.current_cycle } : ooo_model_instr) with source_registers := [], destination_registers := [], num_reg_ops := 0 },
    { rT.2 with event_cycle := s.current_cycle },
    by rw [← hX]; exact init_instruction_eq cfg.toCoreConfig hooks false s arch_instr hsta,
    by rw [← hY]; exact init_instruction_eq cfg.toCoreConfig hooks true s arch_instr hsta,
    hpbF, hpbT, rfl, rfl, rfl, ?_, ?_, ?_, ?_, ?_, ?_, ?_, ?_⟩
  · rw [hx, hy, hbm]
  · rw [hx, hy]
    exact ⟨rfl, rfl, rfl, rfl, rfl, rfl, rfl, rfl⟩
  · rw [hx]
    exact hd.1
  · unfold push_instr
    dsimp only
    rw [← hX]
    exact handle_branch_prediction_sta cfg.toCoreConfig hooks false s arch_instr
  · unfold push_instr
    dsimp only
    rw [hw]
  · unfold push_instr
    dsimp only
    rw [hw]
  · rw [hx]
    exact hd.2
  · intro c wc i e hi hs
    rw [do_scheduling_no_sources cfg wc c i e hi hs]
    have hlt : i < c.ROB.length := by
      rcases Nat.lt_or_ge i c.ROB.length with h | h
      · exact h
      · rw [List.getElem?_eq_none h] at hi; exact absurd hi (by simp)
    refine ⟨?_, ?_⟩
    · by_cases hm : e.is_memory ≠ 0
      · rw [if_pos hm]
        exact ⟨_, getElem?_set_of_lt c.ROB i _ hlt, rfl⟩
      · rw [if_neg hm]
        exact ⟨_, getElem?_set_of_lt c.ROB i _ hlt, rfl⟩
    · intro j hj
      dsimp only
      rw [List.getElem?_set, if_neg (fun h => hj h.symm)]

/-- C31 on a store that reads two registers and writes one, fed to an idle core during the
warmup: the instruction appended has no register operand, one memory operation, and its id
is pushed to `STA`. -/
theorem warmup_clears_registers_witness :
    ∃ s' x, init_instruction cfg_stage.toCoreConfig (const_hooks 0 0 0) false core0 instr_wst
        = some s'
      ∧ s'.IFETCH_BUFFER = [x] ∧ x.source_registers = [] ∧ x.destination_registers = []
      ∧ x.num_reg_ops = 0 ∧ x.num_mem_ops = 1 ∧ x.num_reg_dependent = 0 ∧ s'.STA = [0] := by
  obtain ⟨s', t', x, y, h1, _, h3, _, h5, h6, h7, _, _, h10, h11, _, _, h14, _⟩ :=
    warmup_clears_registers cfg_stage (const_hooks 0 0 0) core0 instr_wst (by decide)
  exact ⟨s', x, h1, h3, h5, h6, h7, h10, h14, h11⟩

/-! ## Paging-structure caches: sets, fills and probes -/

/-- The halving recursion on a power of two that the fuel covers. -/
theorem lg2_aux_pow (fuel : Nat) : ∀ k, k ≤ fuel → lg2_aux fuel (2 ^ k) = k := by
  induction fuel with
  | zero => intro k hk; rw [Nat.le_zero.1 hk]; rfl
  | succ f ih =>
    intro k hk
    cases k with
    | zero => rfl
    | succ k =>
      have h2 : ¬ (2 ^ (k + 1) < 2) := by
        have : 1 ≤ 2 ^ k := Nat.one_le_two_pow
        rw [Nat.pow_succ]; omega
      have hd : 2 ^ (k + 1) / 2 = 2 ^ k := by
        rw [Nat.pow_succ]; exact Nat.mul_div_cancel _ (by decide)
      rw [lg2_aux, if_neg h2, hd, ih k (by omega)]
      omega

/-- The logarithm of a power of two. -/
theorem lg2_pow (k : Nat) (hk : k ≤ 64) : lg2 (2 ^ k) = k :=
  lg2_aux_pow 64 k hk

/-- The set of an index in a cache whose number of sets is a power of two. -/
theorem get_set_pow (c : PagingStructureCache) (k : Nat) (hk : k ≤ 32)
    (hset : c.NUM_SET = 2 ^ k) (index : Nat) :
    c.get_set index = (index >>> LOG2_PAGE_SIZE) &&& (c.NUM_SET - 1)
      ∧ c.get_set index = (index / 2 ^ 12) % c.NUM_SET
      ∧ c.get_set index < c.NUM_SET := by
  have hlt : (index >>> LOG2_PAGE_SIZE) % 2 ^ k < 2 ^ 32 :=
    Nat.lt_of_lt_of_le (Nat.mod_lt _ (Nat.two_pow_pos k))
      (Nat.pow_le_pow_right (by decide) hk)
  have h1 : c.get_set index = (index >>> LOG2_PAGE_SIZE) % 2 ^ k := by
    unfold PagingStructureCache.get_set bitmask
    rw [hset, lg2_pow k (by omega), Nat.and_pow_two_sub_one_eq_mod, Nat.mod_eq_of_lt hlt]
  refine ⟨?_, ?_, ?_⟩
  · rw [h1, hset, Nat.and_pow_two_sub_one_eq_mod]
  · rw [h1, hset, Nat.shiftRight_eq_div_pow]; rfl
  · rw [h1, hset]; exact Nat.mod_lt _ (Nat.two_pow_pos k)

/-- The index of the cache of level 5 has nine bits, and its set is the set 0. -/
theorem pscl5_index (c : PagingStructureCache) (h5 : c.cache_type = 5) (address : Nat) :
    c.get_index address < 2 ^ 9 ∧ c.get_set (c.get_index address) = 0 := by
  have h1 : c.get_index address < 2 ^ 9 := by
    unfold PagingStructureCache.get_index
    simp only [h5, if_true]
    rw [Nat.and_pow_two_sub_one_eq_mod, Nat.shiftRight_eq_div_pow]
    have : address % 2 ^ 57 < 2 ^ 57 := Nat.mod_lt _ (by decide)
    have h48 : (2 : Nat) ^ 57 = 2 ^ 9 * 2 ^ (12 + (9 + 9 + 9 + 9)) := by decide
    rw [h48] at this
    exact Nat.div_lt_of_lt_mul (by rw [Nat.mul_comm]; exact this)
  refine ⟨h1, ?_⟩
  unfold PagingStructureCache.get_set
  have h0 : c.get_index address >>> LOG2_PAGE_SIZE = 0 := by
    rw [Nat.shiftRight_eq_div_pow]
    exact Nat.div_eq_of_lt (Nat.lt_of_lt_of_le h1 (by decide))
  rw [h0]
  simp

/-- The victim of a set lies among the ways looked at. -/
theorem max_lru_way_lt (c : PagingStructureCache) (set : Nat) :
    ∀ n way best, best < way → c.max_lru_way set n way best < way + n := by
  intro n
  induction n with
  | zero => intro way best h; exact h
  | succ n ih =>
    intro way best h
    rw [PagingStructureCache.max_lru_way]
    split
    · have := ih (way + 1) way (Nat.lt_succ_self _); omega
    · have := ih (way + 1) best (by omega); omega

/-- The way that `fill_cache` takes is a way of the set. -/
theorem victim_lt (c : PagingStructureCache) (set : Nat) (hw : 1 ≤ c.NUM_WAY) :
    c.max_lru_way set (c.NUM_WAY - 1) 1 0 < c.NUM_WAY := by
  have := max_lru_way_lt c set (c.NUM_WAY - 1) 1 0 (by decide)
  omega

/-- The geometry of a cache after a fill. -/
theorem fill_cache_geometry (c : PagingStructureCache) (b : Nat) (p : PACKET) :
    (c.fill_cache b p).cache_type = c.cache_type ∧ (c.fill_cache b p).NUM_SET = c.NUM_SET
      ∧ (c.fill_cache b p).NUM_WAY = c.NUM_WAY
      ∧ (c.fill_cache b p).block.length = c.block.length := by
  refine ⟨rfl, rfl, rfl, ?_⟩
  unfold PagingStructureCache.fill_cache
  simp only [List.length_set, List.length_mapIdx]

/-- The blocks of a cache after a fill, position by position: the way taken holds the block of
the packet with `lru = 0`; the other ways of the set have their `lru` advanced when it was not
above that of the way taken; the blocks of the other sets are as they were. -/
theorem fill_cache_at (c : PagingStructureCache) (b : Nat) (p : PACKET) (i : Nat) :
    (c.fill_cache b p).at i
      = if i < c.block.length then
          (if i = c.get_set (c.get_index p.v_address) * c.NUM_WAY
                + c.max_lru_way (c.get_set (c.get_index p.v_address)) (c.NUM_WAY - 1) 1 0 then
            { BLOCK.of_packet { p with address := c.get_index p.v_address, data := b } with
              lru := 0 }
          else if c.get_set (c.get_index p.v_address) * c.NUM_WAY ≤ i
              ∧ i < c.get_set (c.get_index p.v_address) * c.NUM_WAY + c.NUM_WAY then
            (if (c.at i).lru ≤ (c.at (c.get_set (c.get_index p.v_address) * c.NUM_WAY
                + c.max_lru_way (c.get_set (c.get_index p.v_address)) (c.NUM_WAY - 1) 1 0)).lru
             then { c.at i with lru := ((c.at i).lru + 1) % 2 ^ 32 } else c.at i)
          else c.at i)
        else c.at i := by
  unfold PagingStructureCache.fill_cache PagingStructureCache.at
  dsimp only
  generalize c.get_set (c.get_index p.v_address) * c.NUM_WAY
    + c.max_lru_way (c.get_set (c.get_index p.v_address)) (c.NUM_WAY - 1) 1 0 = pos
  generalize c.get_set (c.get_index p.v_address) * c.NUM_WAY = lo
  simp only [List.getD_eq_getElem?_getD, List.getElem?_set, List.getElem?_mapIdx,
    List.length_mapIdx, List.length_set]
  by_cases hi : i < c.block.length
  · rw [if_pos hi]
    by_cases hp : i = pos
    · subst hp
      simp only [if_true, if_pos hi, Option.map_some', Option.getD_some]
      split_ifs <;> rfl
    · rw [if_neg hp, if_neg (fun h => hp h.symm), if_neg (fun h => hp h.symm)]
      have hsome : c.block[i]? = some (c.block[i]?.getD {}) := by
        rw [List.getElem?_eq_getElem hi]; rfl
      generalize c.block[i]?.getD {} = x at hsome
      rw [hsome]
      simp only [Option.map_some', Option.getD_some]
  · rw [if_neg hi]
    have hn : c.block[i]? = none := List.getElem?_eq_none (by omega)
    by_cases hp : pos = i
    · rw [if_pos hp, if_neg (by omega)]
      rw [hn]
    · rw [if_neg hp, if_neg hp, hn]
      rfl

/-- C35. The set of a paging-structure cache. `check_hit` always returns (the test of
line 417 never holds), with the result of the scan of the ways of the set `get_set(index)`,
and `fill_cache` on a cache with at least one way writes no block outside the ways of that
set: both use `get_set(get_index(address))`, which is at most `NUM_SET`. When `NUM_SET` is a
power of two (of 32 bits), that set is `(get_index(address) >> LOG2_PAGE_SIZE) & (NUM_SET - 1)`,
the index shifted right by a further 12 bits before the masking, and it is below `NUM_SET`.
For the cache of level 5 the index has nine bits, so that every address has the set 0. -/
theorem pscl_set_selection (c : PagingStructureCache) (address : Nat) :
    c.check_hit address
        = some (c.scan_ways (c.get_set (c.get_index address)) (c.get_index address)
            c.NUM_WAY 0)
      ∧ c.get_set (c.get_index address) ≤ c.NUM_SET
      ∧ (∀ (b : Nat) (packet : PACKET) (i : Nat), 1 ≤ c.NUM_WAY → packet.v_address = address →
          ¬ (c.get_set (c.get_index address) * c.NUM_WAY ≤ i
              ∧ i < c.get_set (c.get_index address) * c.NUM_WAY + c.NUM_WAY) →
          (c.fill_cache b packet).at i = c.at i)
      ∧ (∀ k, k ≤ 32 → c.NUM_SET = 2 ^ k →
          c.get_set (c.get_index address)
              = (c.get_index address >>> LOG2_PAGE_SIZE) &&& (c.NUM_SET - 1)
            ∧ c.get_set (c.get_index address) < c.NUM_SET)
      ∧ (c.cache_type = 5 →
          c.get_index address < 2 ^ 9 ∧ c.get_set (c.get_index address) = 0) := by
  refine ⟨check_hit_eq c address, get_set_le c _, ?_, ?_, ?_⟩
  · intro b packet i hw hv hout
    subst hv
    rw [fill_cache_at]
    have hway := victim_lt c (c.get_set (c.get_index packet.v_address)) hw
    by_cases hi : i < c.block.length
    · rw [if_pos hi, if_neg (by omega), if_neg hout]
    · rw [if_neg hi]
  · intro k hk hset
    have h := get_set_pow c k hk hset (c.get_index address)
    exact ⟨h.1, h.2.2⟩
  · intro h5
    exact pscl5_index c h5 address

/-- C35 on the cache of level 5 with 2 sets of 4 ways and on that of level 2 with 4 sets: the
address `0x1122334455678` has the set 0 in the first, and in the second its index
`0x89119A2` has the set `(0x89119A2 >> 12) & 3 = 1`. -/
theorem pscl_set_selection_witness :
    (PagingStructureCache.fresh 5 2 4).get_set
        ((PagingStructureCache.fresh 5 2 4).get_index 0x1122334455678) = 0
      ∧ (PagingStructureCache.fresh 2 4 4).get_index 0x1122334455678 = 0x89119A2
      ∧ (PagingStructureCache.fresh 2 4 4).get_set 0x89119A2 = 1
      ∧ (PagingStructureCache.fresh 2 4 4).get_set 0x89119A2
          = (0x89119A2 >>> LOG2_PAGE_SIZE) &&& ((PagingStructureCache.fresh 2 4 4).NUM_SET - 1)
      ∧ (PagingStructureCache.fresh 2 4 4).get_set 0x89119A2
          < (PagingStructureCache.fresh 2 4 4).NUM_SET :=
  ⟨((pscl_set_selection (PagingStructureCache.fresh 5 2 4) 0x1122334455678).2.2.2.2 rfl).2,
    by decide, by decide,
    ((pscl_set_selection (PagingStructureCache.fresh 2 4 4) 0x1122334455678).2.2.2.1 2
      (by decide) rfl).1,
    ((pscl_set_selection (PagingStructureCache.fresh 2 4 4) 0x1122334455678).2.2.2.1 2
      (by decide) rfl).2⟩

/-- Addresses with the same offsets at the levels above the depth `d` lead to the same page
of depth `d`. -/
theorem page_at_congr (s : PageTableWalker) (a b : Nat) :
    ∀ d, (∀ j, j < d → get_offset a (5 - j) = get_offset b (5 - j)) →
      s.page_at a d = s.page_at b d := by
  intro d
  induction d with
  | zero => intro _; rfl
  | succ d ih =>
    intro h
    rw [PageTableWalker.page_at, PageTableWalker.page_at,
      ih (fun j hj => h j (by omega)), h d (by omega)]

/-- The index of the cache of the level `L` and the offsets of the levels from `L` up. -/
theorem get_offset_of_index (c : PagingStructureCache) (L a : Nat) (h2 : 2 ≤ L) (h5 : L ≤ 5)
    (hc : c.cache_type = L) (i : Nat) (hi : L ≤ i) (hi5 : i ≤ 5) :
    get_offset a i = (c.get_index a >>> (9 * (i - L))) &&& 0x1ff := by
  unfold get_offset PagingStructureCache.get_index
  rw [hc]
  dsimp only
  rw [← Nat.shiftRight_add]
  have hL : L = 2 ∨ L = 3 ∨ L = 4 ∨ L = 5 := by omega
  have hI : i = 2 ∨ i = 3 ∨ i = 4 ∨ i = 5 := by omega
  rcases hL with rfl | rfl | rfl | rfl <;> rcases hI with rfl | rfl | rfl | rfl <;>
    first
      | (exfalso; omega)
      | rfl

/-- C34. The index of a paging-structure cache is sound for the walk. For the cache of the
level `L` in 2..5, `get_index(a)` is the low 57 bits of `a` shifted right by
`12 + 9 * (L - 1)`; when two addresses have the same index, `get_offset` gives the same
offset for both at every level `i` with `L <= i <= 5`, so that in every page table the two
addresses lead to the same page of every level from 5 down to `L` and to the same cell
`next_level_base_addr` at each of these levels: an entry filled for `a` and hit for `b`
stands for the same path down to the level `L`. -/
theorem pscl_index_sound (c : PagingStructureCache) (L a b : Nat) (h2 : 2 ≤ L) (h5 : L ≤ 5)
    (hc : c.cache_type = L) (h : c.get_index a = c.get_index b) :
    c.get_index a = (a % 2 ^ 57) / 2 ^ (12 + 9 * (L - 1))
      ∧ (∀ i, L ≤ i → i ≤ 5 → get_offset a i = get_offset b i)
      ∧ (∀ (s : PageTableWalker) (i : Nat), L ≤ i → i ≤ 5 →
          s.page_at a (5 - i) = s.page_at b (5 - i) ∧ s.cell a i = s.cell b i) := by
  have hoff : ∀ i, L ≤ i → i ≤ 5 → get_offset a i = get_offset b i := by
    intro i hi hi5
    rw [get_offset_of_index c L a h2 h5 hc i hi hi5,
      get_offset_of_index c L b h2 h5 hc i hi hi5, h]
  refine ⟨?_, hoff, ?_⟩
  · unfold PagingStructureCache.get_index
    rw [hc]
    dsimp only
    rw [Nat.and_pow_two_sub_one_eq_mod, Nat.shiftRight_eq_div_pow]
    have hL : L = 2 ∨ L = 3 ∨ L = 4 ∨ L = 5 := by omega
    rcases hL with rfl | rfl | rfl | rfl <;> rfl
  · intro s i hi hi5
    have hp : s.page_at a (5 - i) = s.page_at b (5 - i) :=
      page_at_congr s a b (5 - i) (fun j hj => hoff (5 - j) (by omega) (by omega))
    refine ⟨hp, ?_⟩
    unfold PageTableWalker.cell
    rw [hp, hoff i hi hi5]

/-- C34 on the cache of level 3 and two addresses of one 1 GB region: `0x1122334455678` and
`0x1122300000000` have the index `0x4488c` and so the same offsets at the levels 3, 4
and 5. -/
theorem pscl_index_sound_witness :
    (PagingStructureCache.fresh 3 2 4).get_index 0x1122334455678 = 0x4488c
      ∧ (PagingStructureCache.fresh 3 2 4).get_index 0x1122300000000 = 0x4488c
      ∧ ∀ i, 3 ≤ i → i ≤ 5 → get_offset 0x1122334455678 i = get_offset 0x1122300000000 i :=
  ⟨by decide, by decide,
    (pscl_index_sound (PagingStructureCache.fresh 3 2 4) 3 0x1122334455678 0x1122300000000
      (by decide) (by decide) rfl (by decide)).2.1⟩

/-- A fill changes the `valid` bit, the tag and the data of no block but the one it takes. -/
theorem fill_cache_at_fields (c : PagingStructureCache) (b : Nat) (p : PACKET) (i : Nat)
    (hne : i ≠ c.get_set (c.get_index p.v_address) * c.NUM_WAY
      + c.max_lru_way (c.get_set (c.get_index p.v_address)) (c.NUM_WAY - 1) 1 0) :
    ((c.fill_cache b p).at i).valid = (c.at i).valid
      ∧ ((c.fill_cache b p).at i).tag = (c.at i).tag
      ∧ ((c.fill_cache b p).at i).data = (c.at i).data := by
  rw [fill_cache_at, if_neg hne]
  split_ifs <;> exact ⟨rfl, rfl, rfl⟩

/-- The block that a fill takes holds the index of the packet and the base filled. -/
theorem fill_cache_at_pos (c : PagingStructureCache) (b : Nat) (p : PACKET)
    (hlt : c.get_set (c.get_index p.v_address) * c.NUM_WAY
      + c.max_lru_way (c.get_set (c.get_index p.v_address)) (c.NUM_WAY - 1) 1 0
        < c.block.length) :
    (c.fill_cache b p).at (c.get_set (c.get_index p.v_address) * c.NUM_WAY
        + c.max_lru_way (c.get_set (c.get_index p.v_address)) (c.NUM_WAY - 1) 1 0)
      = { BLOCK.of_packet { p with address := c.get_index p.v_address, data := b } with
          lru := 0 } := by
  rw [fill_cache_at, if_pos hlt, if_pos rfl]

/-- The scan of `check_hit` over ways all of whose valid blocks with the tag hold `b`, one of
them at least being there, yields `b`. -/
theorem scan_ways_hit (c : PagingStructureCache) (set address b : Nat) :
    ∀ n way,
      (∀ j, way ≤ j → j < way + n → (c.at (set * c.NUM_WAY + j)).valid ≠ 0 →
        (c.at (set * c.NUM_WAY + j)).tag = address → (c.at (set * c.NUM_WAY + j)).data = b) →
      (∃ j, way ≤ j ∧ j < way + n ∧ (c.at (set * c.NUM_WAY + j)).valid ≠ 0
        ∧ (c.at (set * c.NUM_WAY + j)).tag = address) →
      c.scan_ways set address n way = b := by
  intro n
  induction n with
  | zero => intro way _ ⟨j, h1, h2, _⟩; omega
  | succ n ih =>
    intro way hall ⟨j, h1, h2, h3, h4⟩
    rw [PagingStructureCache.scan_ways]
    by_cases hh : (c.at (set * c.NUM_WAY + way)).valid ≠ 0
        ∧ (c.at (set * c.NUM_WAY + way)).tag = address
    · rw [if_pos hh]
      exact hall way (Nat.le_refl _) (by omega) hh.1 hh.2
    · rw [if_neg hh]
      have hj : j ≠ way := by
        intro h; subst h; exact hh ⟨h3, h4⟩
      exact ih (way + 1) (fun j2 a1 a2 => hall j2 (by omega) (by omega))
        ⟨j, by omega, by omega, h3, h4⟩

/-- The scan of `check_hit` over ways none of which holds the tag validly is a miss. -/
theorem scan_ways_miss (c : PagingStructureCache) (set address : Nat) :
    ∀ n way,
      (∀ j, way ≤ j → j < way + n → ¬ ((c.at (set * c.NUM_WAY + j)).valid ≠ 0
        ∧ (c.at (set * c.NUM_WAY + j)).tag = address)) →
      c.scan_ways set address n way = UINT64_MAX := by
  intro n
  induction n with
  | zero => intro way _; rfl
  | succ n ih =>
    intro way hall
    rw [PagingStructureCache.scan_ways, if_neg (hall way (Nat.le_refl _) (by omega))]
    exact ih (way + 1) (fun j a1 a2 => hall j (by omega) (by omega))

/-- A probe after a fill, for an address with the index of the packet filled, in a cache as
constructed all of whose valid blocks with that index in its set hold the base filled. -/
theorem probe_fill_cache (c : PagingStructureCache) (b : Nat) (packet : PACKET) (k : Nat)
    (hk : k ≤ 32) (hset : c.NUM_SET = 2 ^ k) (hw : 1 ≤ c.NUM_WAY)
    (hlen : c.block.length = c.NUM_SET * c.NUM_WAY)
    (hcoh : ∀ way, way < c.NUM_WAY →
      (c.at (c.get_set (c.get_index packet.v_address) * c.NUM_WAY + way)).valid ≠ 0 →
      (c.at (c.get_set (c.get_index packet.v_address) * c.NUM_WAY + way)).tag
        = c.get_index packet.v_address →
      (c.at (c.get_set (c.get_index packet.v_address) * c.NUM_WAY + way)).data = b)
    (v : Nat) (hv : c.get_index v = c.get_index packet.v_address) :
    (c.fill_cache b packet).check_hit v = some b := by
  rw [check_hit_eq]
  have hg := fill_cache_geometry c b packet
  have hidx : (c.fill_cache b packet).get_index v = c.get_index packet.v_address := by
    rw [← hv]; rfl
  have hgs : ∀ x, (c.fill_cache b packet).get_set x = c.get_set x := fun x => rfl
  rw [hidx, hgs, hg.2.2.1]
  have hway := victim_lt c (c.get_set (c.get_index packet.v_address)) hw
  have hsetlt := (get_set_pow c k hk hset (c.get_index packet.v_address)).2.2
  have hpos : c.get_set (c.get_index packet.v_address) * c.NUM_WAY
      + c.max_lru_way (c.get_set (c.get_index packet.v_address)) (c.NUM_WAY - 1) 1 0
        < c.block.length := by
    rw [hlen]
    calc c.get_set (c.get_index packet.v_address) * c.NUM_WAY
          + c.max_lru_way (c.get_set (c.get_index packet.v_address)) (c.NUM_WAY - 1) 1 0
        < c.get_set (c.get_index packet.v_address) * c.NUM_WAY + c.NUM_WAY := by omega
      _ = (c.get_set (c.get_index packet.v_address) + 1) * c.NUM_WAY := by
          rw [Nat.add_mul, Nat.one_mul]
      _ ≤ c.NUM_SET * c.NUM_WAY := Nat.mul_le_mul_right _ hsetlt
  have hnw : (c.fill_cache b packet).NUM_WAY = c.NUM_WAY := rfl
  congr 1
  apply scan_ways_hit
  · intro j _ hj hvalid htag
    rw [hnw] at hvalid htag ⊢
    by_cases hjw : j = c.max_lru_way (c.get_set (c.get_index packet.v_address))
        (c.NUM_WAY - 1) 1 0
    · rw [hjw, fill_cache_at_pos c b packet hpos]
      rfl
    · have hne : c.get_set (c.get_index packet.v_address) * c.NUM_WAY + j
          ≠ c.get_set (c.get_index packet.v_address) * c.NUM_WAY
            + c.max_lru_way (c.get_set (c.get_index packet.v_address)) (c.NUM_WAY - 1) 1 0 := by
        omega
      have hf := fill_cache_at_fields c b packet _ hne
      rw [hf.1] at hvalid
      rw [hf.2.1] at htag
      rw [hf.2.2]
      exact hcoh j (by omega) hvalid htag
  · refine ⟨c.max_lru_way (c.get_set (c.get_index packet.v_address)) (c.NUM_WAY - 1) 1 0,
      Nat.zero_le _, by omega, ?_, ?_⟩
    · rw [hnw, fill_cache_at_pos c b packet hpos]
      exact Nat.one_ne_zero
    · rw [hnw, fill_cache_at_pos c b packet hpos]
      rfl

/-- Every block of a cache as constructed is the default block. -/
theorem fresh_at (cache_type num_set num_way i : Nat) :
    (PagingStructureCache.fresh cache_type num_set num_way).at i = {} := by
  unfold PagingStructureCache.at PagingStructureCache.fresh
  rw [List.getD_eq_getElem?_getD]
  by_cases h : i < num_set * num_way
  · rw [List.getElem?_eq_getElem (by rw [List.length_replicate]; exact h),
      List.getElem_replicate]
    rfl
  · rw [List.getElem?_eq_none (by rw [List.length_replicate]; omega)]
    rfl

/-- C32, amended. The round trip of a paging-structure cache of any level, with `NUM_SET` a
power of two (of 32 bits), `NUM_WAY >= 1` and the `NUM_SET * NUM_WAY` blocks of its
construction, when every valid block of the set of the packet that has the index of the
packet as its tag holds `b` (no other base is cached for that index): immediately after
`fill_cache(b, packet)`, `check_hit(v)` returns `b` for every `v` with
`get_index(v) = get_index(packet.v_address)`. The hypothesis on the blocks holds in a cache as
constructed. And `check_hit` returns `UINT64_MAX` for an address whose index is the tag of no
valid block of its set. -/
theorem pscl_round_trip (c : PagingStructureCache) (b : Nat) (packet : PACKET) (k : Nat)
    (hk : k ≤ 32) (hset : c.NUM_SET = 2 ^ k) (hw : 1 ≤ c.NUM_WAY)
    (hlen : c.block.length = c.NUM_SET * c.NUM_WAY)
    (hcoh : ∀ way, way < c.NUM_WAY →
      (c.at (c.get_set (c.get_index packet.v_address) * c.NUM_WAY + way)).valid ≠ 0 →
      (c.at (c.get_set (c.get_index packet.v_address) * c.NUM_WAY + way)).tag
        = c.get_index packet.v_address →
      (c.at (c.get_set (c.get_index packet.v_address) * c.NUM_WAY + way)).data = b) :
    (∀ v, c.get_index v = c.get_index packet.v_address →
        (c.fill_cache b packet).check_hit v = some b)
      ∧ (∀ address,
          (∀ way, way < c.NUM_WAY →
            ¬ ((c.at (c.get_set (c.get_index address) * c.NUM_WAY + way)).valid ≠ 0
              ∧ (c.at (c.get_set (c.get_index address) * c.NUM_WAY + way)).tag
                  = c.get_index address)) →
          c.check_hit address = some UINT64_MAX)
      ∧ (∀ (cache_type num_way v : Nat), 1 ≤ num_way →
          (PagingStructureCache.fresh cache_type (2 ^ k) num_way).get_index v
            = (PagingStructureCache.fresh cache_type (2 ^ k) num_way).get_index
                packet.v_address →
          ((PagingStructureCache.fresh cache_type (2 ^ k) num_way).fill_cache b
            packet).check_hit v = some b) := by
  refine ⟨probe_fill_cache c b packet k hk hset hw hlen hcoh, ?_, ?_⟩
  · intro address hmiss
    rw [check_hit_eq]
    congr 1
    exact scan_ways_miss c _ _ c.NUM_WAY 0
      (fun j _ hj => hmiss j (by omega))
  · intro cache_type num_way v hnw hv
    refine probe_fill_cache (PagingStructureCache.fresh cache_type (2 ^ k) num_way) b packet k
      hk rfl hnw ?_ ?_ v hv
    · unfold PagingStructureCache.fresh
      rw [List.length_replicate]
    · intro way _ hvalid
      rw [fresh_at] at hvalid
      exact absurd rfl hvalid

/-- C32, amended, on the cache of level 2 with two sets of four ways as constructed: after
the fill for `0x200000` with the base `0xA`, the addresses `0x200000` and `0x3FFFFF`, which
have the index 1, hit with `0xA`. -/
theorem pscl_round_trip_witness :
    (PagingStructureCache.fresh 2 2 4).get_index 0x3FFFFF
        = (PagingStructureCache.fresh 2 2 4).get_index pkt_r1.v_address
      ∧ pscl_filled_once.check_hit 0x200000 = some 0xA
      ∧ pscl_filled_once.check_hit 0x3FFFFF = some 0xA :=
  ⟨by decide,
    (pscl_round_trip (PagingStructureCache.fresh 2 2 4) 0xA pkt_r1 1 (by decide) rfl
      (by decide) (by decide)
      (fun way _ hvalid => absurd rfl (by rw [fresh_at] at hvalid; exact hvalid))).1
      0x200000 rfl,
    (pscl_round_trip (PagingStructureCache.fresh 2 2 4) 0xA pkt_r1 1 (by decide) rfl
      (by decide) (by decide)
      (fun way _ hvalid => absurd rfl (by rw [fresh_at] at hvalid; exact hvalid))).1
      0x3FFFFF (by decide)⟩

/-- C32 as stated fails. A cache of level 2 with one set (a power of two) of two ways, as
constructed, is filled three times for the address `0x200000`, with the bases `0xA`, `0xB`
and `0xC`: the second fill takes the way 0 again and the third the way 1, so that immediately
after `fill_cache(0xC, packet)` the way 0 still holds `0xB` under the same tag, and
`check_hit`, which returns the first way that matches, returns `0xB` and not `0xC`. -/
theorem pscl_round_trip_counterexample :
    (PagingStructureCache.fresh 2 1 2).NUM_SET = 2 ^ 0
      ∧ 1 ≤ (PagingStructureCache.fresh 2 1 2).NUM_WAY
      ∧ pscl_refilled
          = (((PagingStructureCache.fresh 2 1 2).fill_cache 0xA pkt_r1).fill_cache 0xB
              pkt_r1).fill_cache 0xC pkt_r1
      ∧ pscl_refilled.view = [(1, 1, 0xB, 1), (1, 1, 0xC, 0)]
      ∧ pscl_refilled.check_hit pkt_r1.v_address = some 0xB
      ∧ pscl_refilled.check_hit pkt_r1.v_address ≠ some 0xC := by
  refine ⟨by decide, by decide, rfl, by decide, by decide, by decide⟩

/-- C33. The replacement of a paging-structure cache as constructed: the code at the first
two fills of a set. The cache of level 2 with two sets of four ways has every block invalid
with `lru = UINT32_MAX`. The fill for `0x200000` (index 1, set 0) takes the way 0; the
increment of line 385 wraps the `lru` of every way of the set from `UINT32_MAX` to 0. The
fill for `0x400000` (index 2, set 0) then finds every `lru` equal and takes the way 0 again,
while the ways 1 to 3 are invalid: `check_hit` misses for `0x200000` and hits for `0x400000`
only. From then on the counters differ: a third fill, for `0x600000`, takes the way 1.
In the walker as constructed the same happens to the cache of level 2: after the walk of
`0x200000` it hits for `0x201000`, a walk of which would start at the level 1; after the walk
of `0x400000` it misses for `0x201000`, the way 0 holding the entry of `0x400000` and the
three other ways of the set being invalid, and the walk of `0x201000` starts at the level 2,
with one more request to the lower level. -/
theorem pscl_second_fill_evicts_first :
    (PagingStructureCache.fresh 2 2 4).view = List.replicate 8 (0, 0, 0, UINT32_MAX)
      ∧ ((PagingStructureCache.fresh 2 2 4).get_index 0x200000,
          (PagingStructureCache.fresh 2 2 4).get_index 0x400000,
          (PagingStructureCache.fresh 2 2 4).get_index 0x600000) = (1, 2, 3)
      ∧ ((PagingStructureCache.fresh 2 2 4).get_set 1, (PagingStructureCache.fresh 2 2 4).get_set 2,
          (PagingStructureCache.fresh 2 2 4).get_set 3) = (0, 0, 0)
      ∧ pscl_filled_once.view.take 4 = [(1, 1, 0xA, 0), (0, 0, 0, 0), (0, 0, 0, 0), (0, 0, 0, 0)]
      ∧ pscl_filled_once.check_hit 0x200000 = some 0xA
      ∧ pscl_filled_twice.view.take 4
          = [(1, 2, 0xB, 0), (0, 0, 0, 1), (0, 0, 0, 1), (0, 0, 0, 1)]
      ∧ pscl_filled_twice.check_hit 0x200000 = some UINT64_MAX
      ∧ pscl_filled_twice.check_hit 0x400000 = some 0xB
      ∧ pscl_filled_thrice.view.take 4
          = [(1, 2, 0xB, 1), (1, 3, 0xC, 0), (0, 0, 0, 2), (0, 0, 0, 2)]
      ∧ pscl_filled_thrice.check_hit 0x400000 = some 0xB
      ∧ pscl_filled_thrice.check_hit 0x600000 = some 0xC
      ∧ ptw_after_r1.map (fun t => t.PSCL2.view.take 4)
          = some [(1, 1, 0xF000000F00003, 0), (0, 0, 0, 0), (0, 0, 0, 0), (0, 0, 0, 0)]
      ∧ ptw_after_r1.map (fun t => t.PSCL2.check_hit 0x201000) = some (some 0xF000000F00003)
      ∧ (ptw_after_r1.bind (fun s => s.take_request req_r1b)).map
          (fun t => t.MSHR.map (fun m => (m.v_address, m.init_translation_level)))
          = some [(0x201000, 1)]
      ∧ ptw_after_r2.map (fun t => t.PSCL2.view.take 4)
          = some [(1, 2, 0xF000000F00004, 0), (0, 0, 0, 1), (0, 0, 0, 1), (0, 0, 0, 1)]
      ∧ ptw_after_r2.map (fun t => t.PSCL2.check_hit 0x201000) = some (some UINT64_MAX)
      ∧ ptw_after_r2.map (fun t => t.PSCL2.check_hit 0x400000) = some (some 0xF000000F00004)
      ∧ ptw_reading_r1b.map
          (fun t => t.MSHR.map (fun m => (m.v_address, m.init_translation_level)))
          = some [(0x201000, 2)] := by
  and_intros
  all_goals decide

/-! ## The ranges of `translate_fetch` and `fetch_instruction` -/

/-- The gate of lines 255 and 309, `end != buffer.end() || begin == buffer.begin()`, on a
buffer that is not empty: when it passes, `begin`, the result of the first `find_if`, is an
entry of the buffer that satisfies the predicate, and the range from `begin` to `end` is not
empty. -/
theorem gate_range (buffer : List ooo_model_instr) (p : ooo_model_instr → Bool)
    (key : ooo_model_instr → Nat) (hne : buffer ≠ [])
    (hgate : range_end buffer key (buffer.findIdx p) ≠ buffer.length
      ∨ buffer.findIdx p = 0) :
    buffer.findIdx p < buffer.length
      ∧ ∃ first, buffer[buffer.findIdx p]? = some first ∧ p first = true
        ∧ buffer.findIdx p < range_end buffer key (buffer.findIdx p)
        ∧ range_end buffer key (buffer.findIdx p) ≤ buffer.length := by
  have hlen : 0 < buffer.length := List.length_pos.2 hne
  have hle : buffer.findIdx p ≤ buffer.length := List.findIdx_le_length p
  have hlt : buffer.findIdx p < buffer.length := by
    rcases Nat.lt_or_ge (buffer.findIdx p) buffer.length with h | h
    · exact h
    · exfalso
      have hnone : buffer[buffer.findIdx p]? = none := List.getElem?_eq_none h
      rcases hgate with hg | hg
      · apply hg
        unfold range_end
        rw [hnone]
      · omega
  refine ⟨hlt, buffer[buffer.findIdx p], List.getElem?_eq_getElem hlt,
    List.findIdx_getElem, ?_⟩
  have := range_end_spec buffer key (buffer.findIdx p) _ (List.getElem?_eq_getElem hlt)
  exact ⟨this.1, this.2.1⟩

/-- When the first `find_if` finds no entry, the gate of lines 255 and 309 does not pass on a
buffer that is not empty. -/
theorem gate_closed (buffer : List ooo_model_instr) (p : ooo_model_instr → Bool)
    (key : ooo_model_instr → Nat) (hne : buffer ≠ [])
    (hb : ¬ buffer.findIdx p < buffer.length) :
    ¬ (range_end buffer key (buffer.findIdx p) ≠ buffer.length ∨ buffer.findIdx p = 0) := by
  intro hgate
  exact hb (gate_range buffer p key hne hgate).1

/-- C38. `translate_fetch` and `fetch_instruction` call `do_translate_fetch` and
`do_fetch_instruction` with a range that is not empty. Both functions are, as in the source,
"return when the buffer is empty; `begin` is the result of `find_if` over the buffer, `end`
that of `find_if` from `begin`; when `end != buffer.end() || begin == buffer.begin()`, call
the function on the range". Whenever that gate passes on an `IFETCH_BUFFER` that is not
empty, `begin` is the position of an entry of the buffer, that entry has
`translated == 0` (for `fetch_instruction`: `translated == COMPLETED` and `fetched == 0`),
and `begin < end <= buffer.end()`: the `ip` and `instr_id` that the called function reads
through `begin` are those of that entry, which is the first of the dependents of the
packet. -/
theorem fetch_ranges_nonempty {β : Type} (s : Core β) (rq_index : Int) :
    (translate_fetch s rq_index
        = if s.IFETCH_BUFFER = [] then s
          else if range_end s.IFETCH_BUFFER (fun x => x.ip >>> LOG2_PAGE_SIZE)
                (s.IFETCH_BUFFER.findIdx (fun x => x.translated == 0))
                  ≠ s.IFETCH_BUFFER.length
              ∨ s.IFETCH_BUFFER.findIdx (fun x => x.translated == 0) = 0 then
            do_translate_fetch s (s.IFETCH_BUFFER.findIdx (fun x => x.translated == 0))
              (range_end s.IFETCH_BUFFER (fun x => x.ip >>> LOG2_PAGE_SIZE)
                (s.IFETCH_BUFFER.findIdx (fun x => x.translated == 0))) rq_index
          else s)
      ∧ (s.IFETCH_BUFFER ≠ [] →
          (range_end s.IFETCH_BUFFER (fun x => x.ip >>> LOG2_PAGE_SIZE)
              (s.IFETCH_BUFFER.findIdx (fun x => x.translated == 0)) ≠ s.IFETCH_BUFFER.length
            ∨ s.IFETCH_BUFFER.findIdx (fun x => x.translated == 0) = 0) →
          ∃ first,
            s.IFETCH_BUFFER[s.IFETCH_BUFFER.findIdx (fun x => x.translated == 0)]? = some first
            ∧ first.translated = 0
            ∧ s.IFETCH_BUFFER.findIdx (fun x => x.translated == 0)
                < range_end s.IFETCH_BUFFER (fun x => x.ip >>> LOG2_PAGE_SIZE)
                    (s.IFETCH_BUFFER.findIdx (fun x => x.translated == 0))
            ∧ range_end s.IFETCH_BUFFER (fun x => x.ip >>> LOG2_PAGE_SIZE)
                (s.IFETCH_BUFFER.findIdx (fun x => x.translated == 0))
                ≤ s.IFETCH_BUFFER.length
            ∧ (rq_index ≠ -2 → ∃ packet deps,
                (translate_fetch s rq_index).ITLB_RQ = s.ITLB_RQ ++ [packet]
                ∧ packet.ip = first.ip ∧ packet.instr_id = first.instr_id
                ∧ packet.instr_depend_on_me
                    = (s.IFETCH_front
                        + s.IFETCH_BUFFER.findIdx (fun x => x.translated == 0)) :: deps))
      ∧ (fetch_instruction s rq_index
        = if s.IFETCH_BUFFER = [] then
            { s with toO3_CPU := resume_fetch s.toO3_CPU }
          else if range_end s.IFETCH_BUFFER (fun x => x.instruction_pa >>> LOG2_BLOCK_SIZE)
                (s.IFETCH_BUFFER.findIdx
                  (fun x => x.translated == COMPLETED && x.fetched == 0))
                  ≠ s.IFETCH_BUFFER.length
              ∨ s.IFETCH_BUFFER.findIdx
                  (fun x => x.translated == COMPLETED && x.fetched == 0) = 0 then
            do_fetch_instruction { s with toO3_CPU := resume_fetch s.toO3_CPU }
              (s.IFETCH_BUFFER.findIdx (fun x => x.translated == COMPLETED && x.fetched == 0))
              (range_end s.IFETCH_BUFFER (fun x => x.instruction_pa >>> LOG2_BLOCK_SIZE)
                (s.IFETCH_BUFFER.findIdx
                  (fun x => x.translated == COMPLETED && x.fetched == 0))) rq_index
          else { s with toO3_CPU := resume_fetch s.toO3_CPU })
      ∧ (s.IFETCH_BUFFER ≠ [] →
          (range_end s.IFETCH_BUFFER (fun x => x.instruction_pa >>> LOG2_BLOCK_SIZE)
              (s.IFETCH_BUFFER.findIdx
                (fun x => x.translated == COMPLETED && x.fetched == 0))
              ≠ s.IFETCH_BUFFER.length
            ∨ s.IFETCH_BUFFER.findIdx
                (fun x => x.translated == COMPLETED && x.fetched == 0) = 0) →
          ∃ first,
            s.IFETCH_BUFFER[s.IFETCH_BUFFER.findIdx
              (fun x => x.translated == COMPLETED && x.fetched == 0)]? = some first
            ∧ first.translated = COMPLETED ∧ first.fetched = 0
            ∧ s.IFETCH_BUFFER.findIdx (fun x => x.translated == COMPLETED && x.fetched == 0)
                < range_end s.IFETCH_BUFFER (fun x => x.instruction_pa >>> LOG2_BLOCK_SIZE)
                    (s.IFETCH_BUFFER.findIdx
                      (fun x => x.translated == COMPLETED && x.fetched == 0))
            ∧ range_end s.IFETCH_BUFFER (fun x => x.instruction_pa >>> LOG2_BLOCK_SIZE)
                (s.IFETCH_BUFFER.findIdx
                  (fun x => x.translated == COMPLETED && x.fetched == 0))
                ≤ s.IFETCH_BUFFER.length
            ∧ (rq_index ≠ -2 → ∃ packet deps,
                (fetch_instruction s rq_index).L1I_RQ = s.L1I_RQ ++ [packet]
                ∧ packet.ip = first.ip ∧ packet.instr_id = first.instr_id
                ∧ packet.address = first.instruction_pa
                ∧ packet.instr_depend_on_me
                    = (s.IFETCH_front + s.IFETCH_BUFFER.findIdx
                        (fun x => x.translated == COMPLETED && x.fetched == 0)) :: deps)) := by
  have hrange : ∀ b e : Nat, b < e → ∃ deps, (List.range' b (e - b)).map
      (fun i => s.IFETCH_front + i) = (s.IFETCH_front + b) :: deps := by
    intro b e hbe
    obtain ⟨n, hn⟩ : ∃ n, e - b = n + 1 := ⟨e - b - 1, by omega⟩
    rw [hn, List.range'_succ, List.map_cons]
    exact ⟨_, rfl⟩
  have h1 : translate_fetch s rq_index
        = if s.IFETCH_BUFFER = [] then s
          else if range_end s.IFETCH_BUFFER (fun x => x.ip >>> LOG2_PAGE_SIZE)
                (s.IFETCH_BUFFER.findIdx (fun x => x.translated == 0))
                  ≠ s.IFETCH_BUFFER.length
              ∨ s.IFETCH_BUFFER.findIdx (fun x => x.translated == 0) = 0 then
            do_translate_fetch s (s.IFETCH_BUFFER.findIdx (fun x => x.translated == 0))
              (range_end s.IFETCH_BUFFER (fun x => x.ip >>> LOG2_PAGE_SIZE)
                (s.IFETCH_BUFFER.findIdx (fun x => x.translated == 0))) rq_index
          else s := by
    unfold translate_fetch
    by_cases he : s.IFETCH_BUFFER = []
    · rw [if_pos he, if_pos he]
    · rw [if_neg he, if_neg he]
      dsimp only
      by_cases hb : s.IFETCH_BUFFER.findIdx (fun x => x.translated == 0)
          < s.IFETCH_BUFFER.length
      · rw [if_pos hb]
      · rw [if_neg hb, if_neg (gate_closed _ _ _ he hb)]
  have h3 : fetch_instruction s rq_index
        = if s.IFETCH_BUFFER = [] then
            { s with toO3_CPU := resume_fetch s.toO3_CPU }
          else if range_end s.IFETCH_BUFFER (fun x => x.instruction_pa >>> LOG2_BLOCK_SIZE)
                (s.IFETCH_BUFFER.findIdx
                  (fun x => x.translated == COMPLETED && x.fetched == 0))
                  ≠ s.IFETCH_BUFFER.length
              ∨ s.IFETCH_BUFFER.findIdx
                  (fun x => x.translated == COMPLETED && x.fetched == 0) = 0 then
            do_fetch_instruction { s with toO3_CPU := resume_fetch s.toO3_CPU }
              (s.IFETCH_BUFFER.findIdx (fun x => x.translated == COMPLETED && x.fetched == 0))
              (range_end s.IFETCH_BUFFER (fun x => x.instruction_pa >>> LOG2_BLOCK_SIZE)
                (s.IFETCH_BUFFER.findIdx
                  (fun x => x.translated == COMPLETED && x.fetched == 0))) rq_index
          else { s with toO3_CPU := resume_fetch s.toO3_CPU } := by
    have hbuf : (resume_fetch s.toO3_CPU).IFETCH_BUFFER = s.IFETCH_BUFFER := by
      unfold resume_fetch
      split <;> rfl
    unfold fetch_instruction
    dsimp only
    rw [hbuf]
    by_cases he : s.IFETCH_BUFFER = []
    · rw [if_pos he, if_pos he]
    · rw [if_neg he, if_neg he]
      by_cases hb : s.IFETCH_BUFFER.findIdx
          (fun x => x.translated == COMPLETED && x.fetched == 0) < s.IFETCH_BUFFER.length
      · rw [if_pos hb]
      · rw [if_neg hb, if_neg (gate_closed _ _ _ he hb)]
  refine ⟨h1, ?_, h3, ?_⟩
  · intro hne hgate
    obtain ⟨_, first, hf, hp, hlt, hle⟩ := gate_range _ _ _ hne hgate
    refine ⟨first, hf, by simpa using hp, hlt, hle, ?_⟩
    intro hrq
    rw [h1, if_neg hne, if_pos hgate]
    unfold do_translate_fetch
    rw [hf]
    dsimp only
    rw [if_pos hrq]
    obtain ⟨deps, hd⟩ := hrange _ _ hlt
    exact ⟨_, deps, rfl, rfl, rfl, hd⟩
  · intro hne hgate
    obtain ⟨_, first, hf, hp, hlt, hle⟩ := gate_range _ _ _ hne hgate
    have hp2 : first.translated = COMPLETED ∧ first.fetched = 0 := by simpa using hp
    refine ⟨first, hf, hp2.1, hp2.2, hlt, hle, ?_⟩
    intro hrq
    have hbuf : (resume_fetch s.toO3_CPU).IFETCH_BUFFER = s.IFETCH_BUFFER := by
      unfold resume_fetch
      split <;> rfl
    rw [h3, if_neg hne, if_pos hgate]
    unfold do_fetch_instruction
    dsimp only
    rw [hbuf, hf]
    dsimp only
    rw [if_pos hrq]
    obtain ⟨deps, hd⟩ := hrange _ _ hlt
    exact ⟨_, deps, rfl, rfl, rfl, rfl, hd⟩

/-- C38 on the core that holds `instr_a` and `instr_b`, both untranslated, in
`IFETCH_BUFFER`: `begin` is the head of the buffer, the gate passes and the range is not
empty. -/
theorem fetch_ranges_nonempty_witness :
    core_fed.IFETCH_BUFFER ≠ []
      ∧ core_fed.IFETCH_BUFFER.findIdx (fun x => x.translated == 0) = 0
      ∧ ∃ first,
          core_fed.IFETCH_BUFFER[core_fed.IFETCH_BUFFER.findIdx
            (fun x => x.translated == 0)]? = some first
          ∧ first.translated = 0
          ∧ core_fed.IFETCH_BUFFER.findIdx (fun x => x.translated == 0)
              < range_end core_fed.IFETCH_BUFFER (fun x => x.ip >>> LOG2_PAGE_SIZE)
                  (core_fed.IFETCH_BUFFER.findIdx (fun x => x.translated == 0)) := by
  obtain ⟨first, h1, h2, h3, _⟩ :=
    (fetch_ranges_nonempty core_fed (-1)).2.1 (by decide) (Or.inr (by decide))
  exact ⟨by decide, by decide, first, h1, h2, h3⟩

/-! ## The page table only grows -/

/-- A table has grown from itself. -/
theorem table_grows_refl (s : PageTableWalker) : s.table_grows s :=
  ⟨Nat.le_refl _, rfl, fun _ _ _ => ⟨fun _ => rfl, fun _ h => h⟩⟩

/-- Growth composes. -/
theorem table_grows_trans (s t u : PageTableWalker) (h1 : s.table_grows t)
    (h2 : t.table_grows u) : s.table_grows u := by
  refine ⟨Nat.le_trans h1.1 h2.1, h2.2.1.trans h1.2.1, ?_⟩
  intro p off hp
  have a := h1.2.2 p off hp
  have b := h2.2.2 p off (Nat.lt_of_lt_of_le hp h1.1)
  refine ⟨?_, ?_⟩
  · intro hne
    have e1 := a.1 hne
    rw [b.1 (by rw [e1]; exact hne), e1]
  · intro c hc
    exact b.2 c (a.2 c hc)

/-- A table with the same pages has grown. -/
theorem table_grows_of_eq (s t : PageTableWalker) (hp : t.pages = s.pages)
    (hn : t.num_pages = s.num_pages) (hl : t.L5 = s.L5) : s.table_grows t := by
  refine ⟨by rw [hn], hl, ?_⟩
  intro p off _
  rw [hp]
  exact ⟨fun _ => rfl, fun _ h => h⟩

/-- A page fault in a tree, entered at the page of depth `d` of a path mapped that far where
the cell of the address is missing, makes the page table grow. -/
theorem handle_page_fault_from_grows (vm : VirtualMemory) (v : Nat) :
    ∀ l d s pth page t, d + l = 4 → s.tree pth → s.page_at v d = some page →
      s.mapped_upto v d = true →
      (s.pages page).next_level_base_addr (get_offset v (l + 1)) = UINT64_MAX →
      PageTableWalker.handle_page_fault_from vm v (l + 1) s page = some t →
      s.table_grows t := by
  intro l
  induction l with
  | zero =>
    intro d s pth page t hd ht hpage hmap hmax hrun
    obtain ⟨hto, hnum, hent, hnl, hother⟩ := set_cell_fields s page (get_offset v 1)
      ((s.pages page).entry (get_offset v 1)) (s.map_data_page vm v)
    have hL5 := (table_only_fields _ _ hto).2.1
    have hrun2 : PageTableWalker.handle_page_fault_from vm v 1 s page = some t := hrun
    simp only [PageTableWalker.handle_page_fault_from, hmax, ne_eq, not_true, if_false,
      Option.some.injEq] at hrun2
    rw [← hrun2]
    refine ⟨by rw [hnum], hL5, ?_⟩
    intro p off hp
    by_cases hpp : p = page
    · subst hpp
      rw [hent, hnl, Function.update_eq_self]
      refine ⟨?_, fun _ h => h⟩
      intro hne
      by_cases ho : off = get_offset v 1
      · subst ho; exact absurd hmax hne
      · exact Function.update_noteq ho _ _
    · rw [hother p hpp]
      exact ⟨fun _ => rfl, fun _ h => h⟩
  | succ l ih =>
    intro d s pth page t hd ht hpage hmap hmax hrun
    obtain ⟨hlt, hpath⟩ := page_at_path s pth ht v d page hpage
    have hlen : (pth page).length = d := by rw [hpath, path_of_length]
    have hnone : (s.pages page).entry (get_offset v (l + 2)) = none :=
      (ht.paired page _ hlt (by omega)).mp hmax
    have htree2 := alloc_child_tree vm s pth page (get_offset v (l + 2)) d ht hlt hlen
      (by omega)
    obtain ⟨hto, hnum, hfresh, hent, ⟨base, hbase, hnl⟩, hother⟩ :=
      alloc_child_fields vm s page (get_offset v (l + 2)) hlt
    have hL5 := (table_only_fields _ _ hto).2.1
    have h5d : 5 - d = l + 2 := by omega
    have agree : ∀ p, p < s.num_pages → (pth p).length < d →
        (s.alloc_child vm page (get_offset v (l + 2))).pages p = s.pages p :=
      fun p hp hl => hother p (by intro h; subst h; omega) (by omega)
    have hpage2 : (s.alloc_child vm page (get_offset v (l + 2))).page_at v (d + 1)
        = some s.num_pages := by
      rw [PageTableWalker.page_at, page_at_agree s _ pth ht v d hL5 agree d (le_refl d), hpage]
      simp only
      rw [h5d, hent, Function.update_same]
    have hmap2 : (s.alloc_child vm page (get_offset v (l + 2))).mapped_upto v (d + 1)
        = true := by
      rw [mapped_upto_succ]
      refine ⟨?_, page, ?_, ?_⟩
      · rw [mapped_upto_agree s _ pth ht v d hL5 agree d (le_refl d)]; exact hmap
      · rw [page_at_agree s _ pth ht v d hL5 agree d (le_refl d)]; exact hpage
      · rw [h5d, hnl, Function.update_same]; exact hbase
    have hmax2 : ((s.alloc_child vm page (get_offset v (l + 2))).pages
        s.num_pages).next_level_base_addr (get_offset v (l + 1)) = UINT64_MAX := by
      rw [hfresh]; rfl
    have hrun2 : PageTableWalker.handle_page_fault_from vm v (l + 2) s page = some t := hrun
    simp only [PageTableWalker.handle_page_fault_from, hnone, ne_eq, not_true, if_false]
      at hrun2
    have hg2 := ih (d + 1) _ _ s.num_pages t (by omega) htree2 hpage2 hmap2 hmax2 hrun2
    refine table_grows_trans _ _ _ ?_ hg2
    refine ⟨by rw [hnum]; omega, hL5, ?_⟩
    intro p off hp
    by_cases hpp : p = page
    · subst hpp
      rw [hent, hnl]
      refine ⟨?_, ?_⟩
      · intro hne
        by_cases ho : off = get_offset v (l + 2)
        · subst ho; exact absurd hmax hne
        · exact Function.update_noteq ho _ _
      · intro c hc
        by_cases ho : off = get_offset v (l + 2)
        · subst ho; rw [hnone] at hc; exact absurd hc (by simp)
        · rw [Function.update_noteq ho]; exact hc
    · rw [hother p hpp (by omega)]
      exact ⟨fun _ => rfl, fun _ h => h⟩

/-- The walk of lines 105-118 in a tree makes the page table grow. -/
theorem walk_loop_grows (vm : VirtualMemory) (m : PACKET) :
    ∀ i d s pth nlba w, d + i = 5 → s.tree pth → s.mapped_upto m.v_address d = true →
      PageTableWalker.walk_loop vm i s m (s.page_at m.v_address d) nlba = some w →
      s.table_grows w.ptw := by
  intro i
  induction i with
  | zero =>
    intro d s pth nlba w _ _ _ hw
    simp only [PageTableWalker.walk_loop, Option.some.injEq] at hw
    rw [← hw]
    exact table_grows_refl s
  | succ i ih =>
    intro d s pth nlba w hd ht hmap hw
    by_cases hgt : i + 1 > m.translation_level
    · obtain ⟨page, hpage⟩ := page_at_of_mapped s pth ht m.v_address d (by omega) hmap
      have h5d : 5 - d = i + 1 := by omega
      rw [hpage] at hw
      by_cases hmax : (s.pages page).next_level_base_addr (get_offset m.v_address (i + 1))
          = UINT64_MAX
      · have hle : i + 1 ≤ 5 := by omega
        simp only [PageTableWalker.walk_loop, hgt, if_true, hmax,
          PageTableWalker.handle_page_fault, hle] at hw
        cases hrun : PageTableWalker.handle_page_fault_from vm m.v_address (i + 1) s page with
        | none => rw [hrun] at hw; exact absurd hw (by simp)
        | some t =>
          rw [hrun] at hw
          simp only [Option.some.injEq] at hw
          rw [← hw]
          exact handle_page_fault_from_grows vm m.v_address i d s pth page t (by omega) ht
            hpage hmap hmax hrun
      · have hnext : (s.pages page).entry (get_offset m.v_address (i + 1))
            = s.page_at m.v_address (d + 1) := by
          rw [PageTableWalker.page_at, hpage, h5d]
        have hmap2 : s.mapped_upto m.v_address (d + 1) = true := by
          rw [mapped_upto_succ]
          exact ⟨hmap, page, hpage, by rw [h5d]; exact hmax⟩
        simp only [PageTableWalker.walk_loop, hgt, if_true, hmax, if_false, hnext] at hw
        exact ih (d + 1) s pth _ w (by omega) ht hmap2 hw
    · simp only [PageTableWalker.walk_loop, hgt, if_false, Option.some.injEq] at hw
      rw [← hw]
      exact table_grows_refl s

/-- In a table that has grown from a tree, the pages on the paths of the tree are where they
were. -/
theorem page_at_grows (s t : PageTableWalker) (pth : Nat → List Nat) (ht : s.tree pth)
    (hg : s.table_grows t) (v : Nat) :
    ∀ d page, s.page_at v d = some page → t.page_at v d = some page := by
  intro d
  induction d with
  | zero =>
    intro page h
    simp only [PageTableWalker.page_at, Option.some.injEq] at h ⊢
    rw [hg.2.1]; exact h
  | succ d ih =>
    intro page h
    rw [PageTableWalker.page_at] at h ⊢
    cases hp : s.page_at v d with
    | none => rw [hp] at h; exact absurd h (by simp)
    | some q =>
      rw [hp] at h
      rw [ih q hp]
      simp only at h ⊢
      exact (hg.2.2 q _ (page_at_path s pth ht v d q hp).1).2 page h

/-- In a table that has grown from a tree, the cells that were set on the paths of the tree
are as they were. -/
theorem cell_grows (s t : PageTableWalker) (pth : Nat → List Nat) (ht : s.tree pth)
    (hg : s.table_grows t) (v i x : Nat) (hc : s.cell v i = some x) (hx : x ≠ UINT64_MAX) :
    t.cell v i = some x := by
  unfold PageTableWalker.cell at hc ⊢
  cases hp : s.page_at v (5 - i) with
  | none => rw [hp] at hc; exact absurd hc (by simp)
  | some q =>
    rw [hp] at hc
    rw [page_at_grows s t pth ht hg v _ q hp]
    simp only [Option.map_some', Option.some.injEq] at hc ⊢
    rw [← hc] at hx
    rw [(hg.2.2 q _ (page_at_path s pth ht v _ q hp).1).1 hx]
    exact hc

/-! ## A page fault in `handle_fill` -/

/-- A path mapped down to a depth is mapped down to every smaller depth. -/
theorem mapped_upto_below (s : PageTableWalker) (v : Nat) :
    ∀ d e, e ≤ d → s.mapped_upto v d = true → s.mapped_upto v e = true := by
  intro d
  induction d with
  | zero =>
    intro e he h
    have : e = 0 := by omega
    subst this; exact h
  | succ d ih =>
    intro e he h
    by_cases hed : e = d + 1
    · subst hed; exact h
    · exact ih e (by omega) ((mapped_upto_succ s v d).mp h).1

/-- The walk of lines 105-118 over a path whose first missing cell is at the level `i`
above the level of the entry: it reads the cells above `i`, calls `handle_page_fault` at the
level `i` on the page of that level and sets the level of the entry to 0. -/
theorem walk_loop_faults (vm : VirtualMemory) (m : PACKET) (s : PageTableWalker)
    (i page : Nat) (hi : m.translation_level < i)
    (hup : s.mapped_upto m.v_address (5 - i) = true)
    (hpage : s.page_at m.v_address (5 - i) = some page)
    (hmax : (s.pages page).next_level_base_addr (get_offset m.v_address i) = UINT64_MAX) :
    ∀ j d nlba, d + j = 5 → i ≤ j →
      PageTableWalker.walk_loop vm j s m (s.page_at m.v_address d) nlba
        = (s.handle_page_fault vm page m i).map (fun s1 =>
            { ptw := s1, mshr := { m with translation_level := 0 }, curr_page := some page,
              next_level_base_addr := UINT64_MAX, page_fault := true }) := by
  intro j
  induction j with
  | zero => intro d nlba _ hij; omega
  | succ j ih =>
    intro d nlba hd hij
    have hgt : j + 1 > m.translation_level := by omega
    by_cases hji : i = j + 1
    · subst hji
      have h5 : 5 - (j + 1) = d := by omega
      rw [h5] at hpage
      rw [hpage]
      simp only [PageTableWalker.walk_loop, hgt, if_true, hmax]
      cases s.handle_page_fault vm page m (j + 1) <;> rfl
    · have hlt : d + 1 ≤ 5 - i := by omega
      have hmap2 := mapped_upto_below s m.v_address (5 - i) (d + 1) hlt hup
      obtain ⟨-, q, hq, hn⟩ := (mapped_upto_succ s m.v_address d).mp hmap2
      have h5d : 5 - d = j + 1 := by omega
      rw [h5d] at hn
      have hnext : (s.pages q).entry (get_offset m.v_address (j + 1))
          = s.page_at m.v_address (d + 1) := by
        rw [PageTableWalker.page_at, hq, h5d]
      rw [hq]
      simp only [PageTableWalker.walk_loop, hgt, if_true, hn, if_false, hnext]
      exact ih (d + 1) _ (by omega) (by omega)

/-- C37. Let the page table be a tree, the front MSHR entry `m` an entry whose sinks are not
the walker itself, and `i` a level above `m.translation_level` (and at most 5) such that
the cells of the path of `m.v_address` above the level `i` are set while the cell of the
level `i`, in the page `page`, is `UINT64_MAX`. Then the iteration of `handle_fill` on `m`
returns, and in it: the walk of lines 105-118 calls `handle_page_fault` at the level `i` on
that page, the call returns a table `s1` and the walk ends with `page_fault` set and the
level of the entry 0; `s1` is again a tree, differs from the old walker in the page table
only, and holds the whole path of the address, every child pointer non-null (`p4 … p1`)
and every cell of the levels 5 to 1 different from `UINT64_MAX`, while the pages down to the
level `i` and all cells that were set are as before; the completion of lines 120-165 runs in
this same iteration on `s1` and returns, so its assertions (no `UINT64_MAX` cell, no null
page) hold; the entry leaves the MSHR, every sink gets the packet with level 0 and the leaf
cell as data, and nothing is sent to the read queue of the lower level. -/
theorem handle_fill_page_fault (vm : VirtualMemory) (warmup_complete : Bool)
    (s : PageTableWalker) (m : PACKET) (rest : List PACKET) (i page : Nat)
    (hok : s.table_ok) (hm : s.MSHR = m :: rest) (hcr3 : s.CR3_addr ≠ UINT64_MAX)
    (hret : ReturnSink.this_ptw ∉ m.to_return)
    (hi : m.translation_level < i) (hi5 : i ≤ 5)
    (hup : s.mapped_upto m.v_address (5 - i) = true)
    (hpage : s.page_at m.v_address (5 - i) = some page)
    (hmax : (s.pages page).next_level_base_addr (get_offset m.v_address i) = UINT64_MAX) :
    ∃ s1 t p4 p3 p2 p1,
      s.handle_page_fault vm page m i = some s1
      ∧ PageTableWalker.walk_loop vm 5 s m (some s.L5) UINT64_MAX
          = some { ptw := s1, mshr := { m with translation_level := 0 },
                   curr_page := some page, next_level_base_addr := UINT64_MAX,
                   page_fault := true }
      ∧ s1.table_ok ∧ s.table_only s1 ∧ s.table_grows s1
      ∧ (∀ d, d ≤ 5 - i → s1.page_at m.v_address d = s.page_at m.v_address d)
      ∧ (s1.pages s1.L5).entry (get_offset m.v_address 5) = some p4
      ∧ (s1.pages p4).entry (get_offset m.v_address 4) = some p3
      ∧ (s1.pages p3).entry (get_offset m.v_address 3) = some p2
      ∧ (s1.pages p2).entry (get_offset m.v_address 2) = some p1
      ∧ (s1.pages s1.L5).next_level_base_addr (get_offset m.v_address 5) ≠ UINT64_MAX
      ∧ (s1.pages p4).next_level_base_addr (get_offset m.v_address 4) ≠ UINT64_MAX
      ∧ (s1.pages p3).next_level_base_addr (get_offset m.v_address 3) ≠ UINT64_MAX
      ∧ (s1.pages p2).next_level_base_addr (get_offset m.v_address 2) ≠ UINT64_MAX
      ∧ (s1.pages p1).next_level_base_addr (get_offset m.v_address 1) ≠ UINT64_MAX
      ∧ s1.complete_translation warmup_complete { m with translation_level := 0 } rest
          = some t
      ∧ s.handle_fill_step vm warmup_complete = some t
      ∧ t.pages = s1.pages ∧ t.num_pages = s1.num_pages ∧ t.MSHR = rest
      ∧ t.lower_RQ = s.lower_RQ
      ∧ t.returned = s.returned ++ m.to_return.map (fun ret =>
          (ret, { m with translation_level := 0, address := m.v_address,
                         data := (s1.pages p1).next_level_base_addr
                           (get_offset m.v_address 1) })) := by
  obtain ⟨pth, ht⟩ := hok
  obtain ⟨l, hl⟩ : ∃ l, i = l + 1 := ⟨i - 1, by omega⟩
  subst hl
  obtain ⟨s1, pth1, hrun, ht1, hm1, hto, -⟩ := handle_page_fault_from_ok vm m.v_address l
    (5 - (l + 1)) s pth page (by omega) ht hpage hup hmax
  have hg := handle_page_fault_from_grows vm m.v_address l (5 - (l + 1)) s pth page s1
    (by omega) ht hpage hup hmax hrun
  have hpf : s.handle_page_fault vm page m (l + 1) = some s1 := by
    unfold PageTableWalker.handle_page_fault
    rw [if_pos hi5]; exact hrun
  have hwalk := walk_loop_faults vm m s (l + 1) page hi hup hpage hmax 5 0 UINT64_MAX
    rfl hi5
  rw [hpf] at hwalk
  have hwalk2 : PageTableWalker.walk_loop vm 5 s m (some s.L5) UINT64_MAX
      = some { ptw := s1, mshr := { m with translation_level := 0 },
               curr_page := some page, next_level_base_addr := UINT64_MAX,
               page_fault := true } := hwalk
  obtain ⟨t, p4, p3, p2, p1, hct, e4, e3, e2, e1, hp1, n1, hpages, hnum, hL5, hcpu, hlrq, -,
    hmshr, hrt, -⟩ :=
    complete_translation_mapped warmup_complete s1 { m with translation_level := 0 } rest hm1
      hret
  obtain ⟨q4, q3, q2, q1, f4, f3, f2, f1, n5, n4, n3, n2, -, -⟩ :=
    mapped_chain s1 m.v_address hm1
  have e4b : (s1.pages s1.L5).entry (get_offset m.v_address 5) = some p4 := e4
  have e3b : (s1.pages p4).entry (get_offset m.v_address 4) = some p3 := e3
  have e2b : (s1.pages p3).entry (get_offset m.v_address 3) = some p2 := e2
  have e1b : (s1.pages p2).entry (get_offset m.v_address 2) = some p1 := e1
  have h4 : q4 = p4 := Option.some.inj (f4.symm.trans e4b)
  subst h4
  have h3 : q3 = p3 := Option.some.inj (f3.symm.trans e3b)
  subst h3
  have h2 : q2 = p2 := Option.some.inj (f2.symm.trans e2b)
  subst h2
  have hf := table_only_fields s s1 hto
  have hstep : s.handle_fill_step vm warmup_complete = some t := by
    unfold PageTableWalker.handle_fill_step
    rw [hm]
    simp only [hcr3, if_false, hwalk2, if_true]
    exact hct
  refine ⟨s1, t, q4, q3, q2, p1, hpf, hwalk2, ⟨pth1, ht1⟩, hto, hg, ?_, e4b, e3b, e2b, e1b,
    n5, n4, n3, n2, n1, hct, hstep, hpages, hnum, hmshr, by rw [hlrq, hf.2.2.2.2.2.2.2.2.2.1],
    ?_⟩
  · intro d hd
    cases hq : s.page_at m.v_address d with
    | none =>
      exfalso
      obtain ⟨q, hq2⟩ := page_at_of_mapped s pth ht m.v_address d (by omega)
        (mapped_upto_below s m.v_address _ d hd hup)
      rw [hq] at hq2; exact absurd hq2 (by simp)
    | some q => exact page_at_grows s s1 pth ht hg m.v_address d q hq
  · rw [hrt, hf.2.2.1]

/-- Witness for C37: the cold-walk scenario at the step where the answer to the level-5
request has come back; the level-5 cell of the root is missing. -/
theorem handle_fill_page_fault_witness :
    ∃ s1 t p1,
      ptw_cold_answered.handle_page_fault vm0 ptw_cold_answered.L5 entry_cold 5 = some s1
      ∧ s1.mapped 0x1122334455678 = true
      ∧ s1.page_at 0x1122334455678 4 = some p1
      ∧ ptw_cold_answered.handle_fill_step vm0 true = some t
      ∧ t.MSHR = [] ∧ t.lower_RQ = []
      ∧ t.returned = [(ReturnSink.producer 0,
          { entry_cold with translation_level := 0, address := 0x1122334455678,
                            data := (s1.pages p1).next_level_base_addr
                              (get_offset 0x1122334455678 1) })] := by
  obtain ⟨s1, t, p4, p3, p2, p1, h1, -, -, -, -, -, e4, e3, e2, e1, n5, n4, n3, n2, n1, -, hs,
    -, -, hmshr, hlrq, hrt⟩ :=
    handle_fill_page_fault vm0 true ptw_cold_answered entry_cold [] 5 ptw_cold_answered.L5
      (by
        obtain ⟨pth, ht, -⟩ := table_coherent_of_init vm0 ptw_cold_answered 0x100
          0xf000000f00000000 2 4 rfl rfl rfl rfl
        exact ⟨pth, ht⟩)
      rfl (by decide) (by decide) (by decide) (by decide) rfl rfl (by decide)
  have hp4 : s1.page_at 0x1122334455678 4 = some p1 := by
    have a : entry_cold.v_address = 0x1122334455678 := rfl
    rw [a] at e4 e3 e2 e1
    simp only [PageTableWalker.page_at, e4, e3, e2, e1]
  refine ⟨s1, t, p1, h1, ?_, hp4, hs, hmshr, hlrq, hrt⟩
  have a : entry_cold.v_address = 0x1122334455678 := rfl
  rw [a] at e4 e3 e2 e1 n5 n4 n3 n2 n1
  unfold PageTableWalker.mapped
  simp only [PageTableWalker.mapped_upto, PageTableWalker.page_at, e4, e3, e2, e1,
    Bool.and_eq_true, bne_iff_ne, ne_eq, true_and]
  exact ⟨⟨⟨⟨n5, n4⟩, n3⟩, n2⟩, n1⟩

/-! ## The caches agree with the page table -/

/-- Two addresses with the same index in the cache of the level `L` have the same cell at
the level `L` in every page table. -/
theorem cell_of_index (c : PagingStructureCache) (L a b : Nat) (h2 : 2 ≤ L) (h5 : L ≤ 5)
    (hc : c.cache_type = L) (h : c.get_index a = c.get_index b) (s : PageTableWalker) :
    s.cell a L = s.cell b L := by
  have hoff : ∀ i, L ≤ i → i ≤ 5 → get_offset a i = get_offset b i := by
    intro i hi hi5
    rw [get_offset_of_index c L a h2 h5 hc i hi hi5,
      get_offset_of_index c L b h2 h5 hc i hi hi5, h]
  have hp : s.page_at a (5 - L) = s.page_at b (5 - L) :=
    page_at_congr s a b (5 - L) (fun j hj => hoff (5 - j) (by omega) (by omega))
  unfold PageTableWalker.cell
  rw [hp, hoff L (le_refl L) h5]

/-- A cache as constructed agrees with every page table: it has no valid block. -/
theorem pscl_holds_fresh (s : PageTableWalker) (L num_set num_way : Nat) :
    s.pscl_holds (PagingStructureCache.fresh L num_set num_way) L := by
  refine ⟨rfl, ?_⟩
  intro i v hv
  rw [fresh_at] at hv
  exact absurd rfl hv

/-- Agreement of a cache with the page table concerns the pages and the root only. -/
theorem pscl_holds_of_eq (s t : PageTableWalker) (hp : t.pages = s.pages) (hl : t.L5 = s.L5)
    (c : PagingStructureCache) (L : Nat) (h : s.pscl_holds c L) : t.pscl_holds c L := by
  refine ⟨h.1, ?_⟩
  intro i v hv hi
  rw [cell_of_eq s t hp hl]
  exact h.2 i v hv hi

/-- A cache that agrees with a tree agrees with every table grown from it. -/
theorem pscl_holds_grows (s t : PageTableWalker) (pth : Nat → List Nat) (ht : s.tree pth)
    (hg : s.table_grows t) (c : PagingStructureCache) (L : Nat) (h : s.pscl_holds c L) :
    t.pscl_holds c L := by
  refine ⟨h.1, ?_⟩
  intro i v hv hi
  obtain ⟨h1, h2⟩ := h.2 i v hv hi
  exact ⟨cell_grows s t pth ht hg v L _ h1 h2, h2⟩

/-- Filling a cache that agrees with the page table with the cell of the address of the
packet at the level of the cache leaves a cache that agrees with the page table. -/
theorem pscl_holds_fill (s : PageTableWalker) (c : PagingStructureCache) (L : Nat)
    (h2 : 2 ≤ L) (h5 : L ≤ 5) (h : s.pscl_holds c L) (b : Nat) (p : PACKET)
    (hb : s.cell p.v_address L = some b) (hne : b ≠ UINT64_MAX) :
    s.pscl_holds (c.fill_cache b p) L := by
  refine ⟨h.1, ?_⟩
  intro i v hv hi
  have hidx : (c.fill_cache b p).get_index v = c.get_index v := rfl
  rw [hidx] at hi
  by_cases hpos : i = c.get_set (c.get_index p.v_address) * c.NUM_WAY
      + c.max_lru_way (c.get_set (c.get_index p.v_address)) (c.NUM_WAY - 1) 1 0
  · by_cases hlt : i < c.block.length
    · have hat := fill_cache_at c b p i
      rw [if_pos hlt, if_pos hpos] at hat
      rw [hat] at hi ⊢
      have hi2 : c.get_index v = c.get_index p.v_address := hi
      rw [cell_of_index c L v p.v_address h2 h5 h.1 hi2 s]
      exact ⟨hb, hne⟩
    · have hat := fill_cache_at c b p i
      rw [if_neg hlt] at hat
      rw [hat] at hv hi ⊢
      exact h.2 i v hv hi
  · obtain ⟨e1, e2, e3⟩ := fill_cache_at_fields c b p i hpos
    rw [e1] at hv
    rw [e2] at hi
    rw [e3]
    exact h.2 i v hv hi

/-- A conditional fill of that kind as well. -/
theorem pscl_holds_fill_if (s : PageTableWalker) (c : PagingStructureCache) (L : Nat)
    (h2 : 2 ≤ L) (h5 : L ≤ 5) (h : s.pscl_holds c L) (b : Nat) (p : PACKET) (q : Prop)
    [Decidable q] (hb : s.cell p.v_address L = some b) (hne : b ≠ UINT64_MAX) :
    s.pscl_holds (if q then c.fill_cache b p else c) L := by
  by_cases hq : q
  · rw [if_pos hq]; exact pscl_holds_fill s c L h2 h5 h b p hb hne
  · rw [if_neg hq]; exact h

/-- A completion that returns has no sink that is the walker itself. -/
theorem complete_translation_ret (warmup_complete : Bool) (s t : PageTableWalker)
    (m : PACKET) (rest : List PACKET)
    (h : s.complete_translation warmup_complete m rest = some t) :
    ReturnSink.this_ptw ∉ m.to_return := by
  intro hret
  unfold PageTableWalker.complete_translation at h
  cases hl : PageTableWalker.fill_loop 4 s m (some s.L5) with
  | none => rw [hl] at h; simp at h
  | some r =>
    obtain ⟨s1, cp⟩ := r
    rw [hl] at h
    cases cp with
    | none => simp at h
    | some page => simp [hret] at h

/-- The completion of lines 120-165 on a mapped address, in a tree with which the caches
agree: the table is as it was and the caches agree with it again. -/
theorem complete_translation_keeps (warmup_complete : Bool) (s t : PageTableWalker)
    (pth : Nat → List Nat) (m : PACKET) (rest : List PACKET) (ht : s.tree pth)
    (hco : s.pscl_coherent) (hmap : s.mapped m.v_address = true)
    (h : s.complete_translation warmup_complete m rest = some t) :
    t.tree pth ∧ t.pscl_coherent ∧ t.pages = s.pages ∧ t.num_pages = s.num_pages
      ∧ t.L5 = s.L5 := by
  have hret := complete_translation_ret warmup_complete s t m rest h
  obtain ⟨t1, p4, p3, p2, p1, hct, e4, e3, e2, e1, hp1, n1, hpages, hnum, hL5, -, -, -, -, -,
    c5, c4, c3, c2⟩ := complete_translation_mapped warmup_complete s m rest hmap hret
  rw [h] at hct
  have htt : t = t1 := Option.some.inj hct
  subst htt
  obtain ⟨q4, q3, q2, q1, f4, f3, f2, f1, n5, n4, n3, n2, -, -⟩ :=
    mapped_chain s m.v_address hmap
  have h4 : q4 = p4 := Option.some.inj (f4.symm.trans e4)
  subst h4
  have h3 : q3 = p3 := Option.some.inj (f3.symm.trans e3)
  subst h3
  have h2 : q2 = p2 := Option.some.inj (f2.symm.trans e2)
  subst h2
  have k5 : s.cell m.v_address 5
      = some ((s.pages s.L5).next_level_base_addr (get_offset m.v_address 5)) := rfl
  have k4 : s.cell m.v_address 4
      = some ((s.pages q4).next_level_base_addr (get_offset m.v_address 4)) := by
    simp only [PageTableWalker.cell, PageTableWalker.page_at, e4, Option.map_some']
  have k3 : s.cell m.v_address 3
      = some ((s.pages q3).next_level_base_addr (get_offset m.v_address 3)) := by
    simp only [PageTableWalker.cell, PageTableWalker.page_at, e4, e3, Option.map_some']
  have k2 : s.cell m.v_address 2
      = some ((s.pages q2).next_level_base_addr (get_offset m.v_address 2)) := by
    simp only [PageTableWalker.cell, PageTableWalker.page_at, e4, e3, e2, Option.map_some']
  obtain ⟨o5, o4, o3, o2⟩ := hco
  refine ⟨tree_of_eq s t pth hpages hnum hL5 ht, ⟨?_, ?_, ?_, ?_⟩, hpages, hnum, hL5⟩
  · rw [c5]
    exact pscl_holds_of_eq s t hpages hL5 _ 5
      (pscl_holds_fill_if s s.PSCL5 5 (by decide) (by decide) o5 _ m _ k5 n5)
  · rw [c4]
    exact pscl_holds_of_eq s t hpages hL5 _ 4
      (pscl_holds_fill_if s s.PSCL4 4 (by decide) (by decide) o4 _ m _ k4 n4)
  · rw [c3]
    exact pscl_holds_of_eq s t hpages hL5 _ 3
      (pscl_holds_fill_if s s.PSCL3 3 (by decide) (by decide) o3 _ m _ k3 n3)
  · rw [c2]
    exact pscl_holds_of_eq s t hpages hL5 _ 2
      (pscl_holds_fill_if s s.PSCL2 2 (by decide) (by decide) o2 _ m _ k2 n2)

/-- A state with the same page table and the same caches: the tree and the agreement of the
caches carry over. -/
theorem pscl_inv_of_eq (s t : PageTableWalker) (hp : t.pages = s.pages)
    (hn : t.num_pages = s.num_pages) (hl : t.L5 = s.L5) (h5 : t.PSCL5 = s.PSCL5)
    (h4 : t.PSCL4 = s.PSCL4) (h3 : t.PSCL3 = s.PSCL3) (h2 : t.PSCL2 = s.PSCL2)
    (h : s.table_ok ∧ s.pscl_coherent) : t.table_ok ∧ t.pscl_coherent := by
  obtain ⟨⟨pth, ht⟩, o5, o4, o3, o2⟩ := h
  refine ⟨⟨pth, tree_of_eq s t pth hp hn hl ht⟩, ?_, ?_, ?_, ?_⟩
  · rw [h5]; exact pscl_holds_of_eq s t hp hl _ 5 o5
  · rw [h4]; exact pscl_holds_of_eq s t hp hl _ 4 o4
  · rw [h3]; exact pscl_holds_of_eq s t hp hl _ 3 o3
  · rw [h2]; exact pscl_holds_of_eq s t hp hl _ 2 o2

/-- An iteration of `handle_fill` in a tree with which the caches agree: the page table is
a tree again, the caches agree with it again, and it has grown. -/
theorem handle_fill_step_keeps (vm : VirtualMemory) (warmup_complete : Bool)
    (s t : PageTableWalker) (hinv : s.table_ok ∧ s.pscl_coherent)
    (h : s.handle_fill_step vm warmup_complete = some t) :
    (t.table_ok ∧ t.pscl_coherent) ∧ s.table_grows t := by
  have hcases : s.MSHR = [] ∨ ∃ m rest, s.MSHR = m :: rest := by
    cases s.MSHR with
    | nil => exact Or.inl rfl
    | cons m rest => exact Or.inr ⟨m, rest, rfl⟩
  rcases hcases with hm | ⟨m, rest, hm⟩
  · unfold PageTableWalker.handle_fill_step at h
    rw [hm] at h
    exact absurd h (by simp)
  by_cases hcr3 : s.CR3_addr = UINT64_MAX
  · unfold PageTableWalker.handle_fill_step at h
    rw [hm] at h
    simp [hcr3] at h
  obtain ⟨⟨pth, ht⟩, hco⟩ := hinv
  obtain ⟨w, hw, hres⟩ := walk_loop_ok vm m 5 0 s pth UINT64_MAX rfl ht rfl
  have hw2 : PageTableWalker.walk_loop vm 5 s m (some s.L5) UINT64_MAX = some w := hw
  have hg := walk_loop_grows vm m 5 0 s pth UINT64_MAX w rfl ht rfl hw
  by_cases h0 : w.mshr.translation_level = 0
  · have hstep : s.handle_fill_step vm warmup_complete
        = w.ptw.complete_translation warmup_complete w.mshr rest := by
      unfold PageTableWalker.handle_fill_step
      rw [hm]
      simp only [hcr3, if_false, hw2, h0, if_true]
    rw [hstep] at h
    have hto := (walk_loop_only vm m 5 s _ _ w hw2).1
    have hf := table_only_fields s w.ptw hto
    have hco1 : w.ptw.pscl_coherent := by
      obtain ⟨o5, o4, o3, o2⟩ := hco
      refine ⟨?_, ?_, ?_, ?_⟩
      · rw [hf.2.2.2.2.1]; exact pscl_holds_grows s w.ptw pth ht hg _ 5 o5
      · rw [hf.2.2.2.2.2.1]; exact pscl_holds_grows s w.ptw pth ht hg _ 4 o4
      · rw [hf.2.2.2.2.2.2.1]; exact pscl_holds_grows s w.ptw pth ht hg _ 3 o3
      · rw [hf.2.2.2.2.2.2.2.1]; exact pscl_holds_grows s w.ptw pth ht hg _ 2 o2
    have hkeep : ∀ pth1, w.ptw.tree pth1 → w.ptw.mapped w.mshr.v_address = true →
        (t.table_ok ∧ t.pscl_coherent) ∧ s.table_grows t := by
      intro pth1 ht1 hmap
      obtain ⟨a, b, c, d, e⟩ := complete_translation_keeps warmup_complete w.ptw t pth1
        w.mshr rest ht1 hco1 hmap h
      exact ⟨⟨⟨pth1, a⟩, b⟩, table_grows_trans s w.ptw t hg (table_grows_of_eq _ _ c d e)⟩
    rcases hres with ⟨-, r2, r3, r4⟩ | ⟨-, r3, pth1, htt, hmt, -, -⟩
    · rw [r3] at h0
      have hmap := r4 (by omega)
      rw [h0] at hmap
      refine hkeep pth (by rw [r2]; exact ht) ?_
      rw [r2, r3]; exact hmap
    · refine hkeep pth1 htt ?_
      rw [r3]; exact hmt
  · have hstep := handle_fill_step_pending vm warmup_complete s m rest w hm hcr3 hw2 h0
    rw [hstep] at h
    by_cases hroom : s.lower_RQ.length < s.lower_RQ_SIZE
    · rw [if_pos hroom] at h
      have ht2 := (Option.some.inj h).symm
      subst ht2
      exact ⟨pscl_inv_of_eq s _ rfl rfl rfl rfl rfl rfl rfl ⟨⟨pth, ht⟩, hco⟩,
        table_grows_of_eq _ _ rfl rfl rfl⟩
    · rw [if_neg hroom] at h
      have ht2 := (Option.some.inj h).symm
      subst ht2
      exact ⟨pscl_inv_of_eq s _ rfl rfl rfl rfl rfl rfl rfl ⟨⟨pth, ht⟩, hco⟩,
        table_grows_of_eq _ _ rfl rfl rfl⟩

/-- The loop of `handle_fill` in a tree with which the caches agree. -/
theorem handle_fill_loop_keeps (vm : VirtualMemory) (warmup_complete : Bool) :
    ∀ n (s t : PageTableWalker), s.table_ok ∧ s.pscl_coherent →
      PageTableWalker.handle_fill_loop vm warmup_complete n s = some t →
      (t.table_ok ∧ t.pscl_coherent) ∧ s.table_grows t := by
  intro n
  induction n with
  | zero =>
    intro s t hinv h
    simp only [PageTableWalker.handle_fill_loop, Option.some.injEq] at h
    subst h
    exact ⟨hinv, table_grows_refl s⟩
  | succ n ih =>
    intro s t hinv h
    simp only [PageTableWalker.handle_fill_loop] at h
    by_cases hg : s.handle_fill_guard = true
    · rw [if_pos hg] at h
      cases hs : s.handle_fill_step vm warmup_complete with
      | none => rw [hs] at h; exact absurd h (by simp)
      | some s1 =>
        rw [hs] at h
        obtain ⟨hi1, hg1⟩ := handle_fill_step_keeps vm warmup_complete s s1 hinv hs
        obtain ⟨hi2, hg2⟩ := ih s1 t hi1 h
        exact ⟨hi2, table_grows_trans s s1 t hg1 hg2⟩
    · rw [if_neg hg] at h
      simp only [Option.some.injEq] at h
      subst h
      exact ⟨hinv, table_grows_refl s⟩

/-- The loop of `handle_read` changes neither the page table nor the caches. -/
theorem handle_read_loop_same :
    ∀ n (s t : PageTableWalker), PageTableWalker.handle_read_loop n s = some t →
      t.pages = s.pages ∧ t.num_pages = s.num_pages ∧ t.L5 = s.L5 ∧ t.PSCL5 = s.PSCL5
        ∧ t.PSCL4 = s.PSCL4 ∧ t.PSCL3 = s.PSCL3 ∧ t.PSCL2 = s.PSCL2 := by
  refine handle_read_loop_rel (fun s t => t.pages = s.pages ∧ t.num_pages = s.num_pages
    ∧ t.L5 = s.L5 ∧ t.PSCL5 = s.PSCL5 ∧ t.PSCL4 = s.PSCL4 ∧ t.PSCL3 = s.PSCL3
    ∧ t.PSCL2 = s.PSCL2) (fun _ => ⟨rfl, rfl, rfl, rfl, rfl, rfl, rfl⟩) ?_ ?_
  · intro s t u h1 h2
    exact ⟨h2.1.trans h1.1, h2.2.1.trans h1.2.1, h2.2.2.1.trans h1.2.2.1,
      h2.2.2.2.1.trans h1.2.2.2.1, h2.2.2.2.2.1.trans h1.2.2.2.2.1,
      h2.2.2.2.2.2.1.trans h1.2.2.2.2.2.1, h2.2.2.2.2.2.2.trans h1.2.2.2.2.2.2⟩
  · intro s t _ h
    obtain ⟨e, rest, -, -, ht⟩ := handle_read_step_cases s t h
    rw [ht]
    exact ⟨rfl, rfl, rfl, rfl, rfl, rfl, rfl⟩

/-- Every state that the walker reaches has a page table that is a tree and caches that
agree with it. -/
theorem operates_inv (vm : VirtualMemory) (warmup_complete : Bool) (s : PageTableWalker)
    (h : PageTableWalker.operates vm warmup_complete s) : s.table_ok ∧ s.pscl_coherent := by
  induction h with
  | init cr3 cursor num_set num_way =>
    obtain ⟨pth, ht, -⟩ := init_table_coherent vm cr3 cursor num_set num_way
    exact ⟨⟨pth, ht⟩, pscl_holds_fresh _ 5 _ _, pscl_holds_fresh _ 4 _ _,
      pscl_holds_fresh _ 3 _ _, pscl_holds_fresh _ 2 _ _⟩
  | add_rq s t packet code _ hrun ih =>
    unfold PageTableWalker.add_rq at hrun
    split at hrun
    · exact absurd hrun (by simp)
    · split at hrun
      · exact absurd hrun (by simp)
      · split at hrun
        · simp only [Option.some.injEq, Prod.mk.injEq] at hrun
          obtain ⟨-, hrun⟩ := hrun
          subst hrun
          exact pscl_inv_of_eq s _ rfl rfl rfl rfl rfl rfl rfl ih
        · simp only [Option.some.injEq, Prod.mk.injEq] at hrun
          obtain ⟨-, hrun⟩ := hrun
          subst hrun
          exact pscl_inv_of_eq s _ rfl rfl rfl rfl rfl rfl rfl ih
  | handle_read s t _ hrun ih =>
    obtain ⟨a, b, c, d, e, f, g⟩ := handle_read_loop_same s.MAX_READ s t hrun
    exact pscl_inv_of_eq s t a b c d e f g ih
  | handle_fill s t _ hrun ih =>
    exact (handle_fill_loop_keeps vm warmup_complete s.MAX_FILL s t ih hrun).1
  | return_data s t packet _ hrun ih =>
    rw [return_data_eq s t packet hrun]
    exact pscl_inv_of_eq s _ rfl rfl rfl rfl rfl rfl rfl ih
  | clock s _ ih => exact pscl_inv_of_eq s _ rfl rfl rfl rfl rfl rfl rfl ih
  | lower_take s _ ih => exact pscl_inv_of_eq s _ rfl rfl rfl rfl rfl rfl rfl ih

/-- Binding a result that is there is applying to it. -/
theorem option_bind_getD {α β : Type} (x : Option α) (d : α) (f : α → Option β)
    (h : x.isSome = true) : x.bind f = f (x.getD d) := by
  cases x with
  | none => simp at h
  | some a => rfl

/-- The walker still operates after it has taken a request. -/
theorem operates_take_request (vm : VirtualMemory) (warmup_complete : Bool)
    (s t : PageTableWalker) (req : PACKET)
    (hs : PageTableWalker.operates vm warmup_complete s)
    (h : s.take_request req = some t) : PageTableWalker.operates vm warmup_complete t := by
  unfold PageTableWalker.take_request at h
  cases ha : s.add_rq req with
  | none => rw [ha] at h; exact absurd h (by simp)
  | some r =>
    obtain ⟨code, s1⟩ := r
    rw [ha] at h
    exact PageTableWalker.operates.handle_read s1 t
      (PageTableWalker.operates.add_rq s s1 req code hs ha) h

/-- The walker still operates after a round trip to the lower level. -/
theorem operates_round (vm : VirtualMemory) (warmup_complete : Bool)
    (s t : PageTableWalker) (hs : PageTableWalker.operates vm warmup_complete s)
    (h : s.round vm warmup_complete = some t) :
    PageTableWalker.operates vm warmup_complete t := by
  unfold PageTableWalker.round PageTableWalker.lower_answer at h
  cases hl : s.lower_RQ with
  | nil => rw [hl] at h; exact absurd h (by simp)
  | cons packet rest =>
    rw [hl] at h
    have htake := PageTableWalker.operates.lower_take s hs
    rw [hl] at htake
    cases hr : ({ s with lower_RQ := rest }).return_data packet with
    | none =>
      have h2 : (({ s with lower_RQ := rest }).return_data packet).bind
          (PageTableWalker.handle_fill vm warmup_complete) = some t := h
      rw [hr] at h2
      exact absurd h2 (by simp)
    | some s1 =>
      have h2 : (({ s with lower_RQ := rest }).return_data packet).bind
          (PageTableWalker.handle_fill vm warmup_complete) = some t := h
      rw [hr] at h2
      exact PageTableWalker.operates.handle_fill s1 t
        (PageTableWalker.operates.return_data _ s1 packet htake hr) h2

/-- C36. In every state that the walker reaches from its construction through `add_rq`,
`handle_read`, `handle_fill`, `return_data`, the clock and the lower level taking requests:
the cache `PSCL_L` of each level `L` in 2..5 has `cache_type = L`, and every valid block of
it, with tag `t`, holds as data exactly the cell `next_level_base_addr` that the walk of the
page table from `L5` along the offsets of `v` finds at the level `L`, for every address `v`
whose index in that cache is `t` (that cell exists and is not `UINT64_MAX`); the page table
is a tree; `handle_fill`, when it returns, leaves a table grown from the old one, in which
no page has gone and every cell that was set, and every cell on a path that was set, has
the value it had. And `handle_page_fault`, called on any tree as the walk calls it, at the
first missing cell of a path, returns a tree grown from the old one in the same sense. -/
theorem pscl_page_table_coherence (vm : VirtualMemory) (warmup_complete : Bool)
    (s : PageTableWalker) (h : PageTableWalker.operates vm warmup_complete s) :
    (∀ L c, (L, c) ∈ [(5, s.PSCL5), (4, s.PSCL4), (3, s.PSCL3), (2, s.PSCL2)] →
        c.cache_type = L
        ∧ ∀ i v, (c.at i).valid ≠ 0 → c.get_index v = (c.at i).tag →
            s.cell v L = some (c.at i).data ∧ (c.at i).data ≠ UINT64_MAX)
      ∧ s.table_ok
      ∧ (∀ t, s.handle_fill vm warmup_complete = some t →
          s.table_grows t ∧ t.table_ok
          ∧ ∀ v i x, s.cell v i = some x → x ≠ UINT64_MAX → t.cell v i = some x)
      ∧ (∀ (u : PageTableWalker) (m : PACKET) (i page : Nat), u.table_ok → 1 ≤ i → i ≤ 5 →
          u.mapped_upto m.v_address (5 - i) = true →
          u.page_at m.v_address (5 - i) = some page →
          (u.pages page).next_level_base_addr (get_offset m.v_address i) = UINT64_MAX →
          ∃ u1, u.handle_page_fault vm page m i = some u1 ∧ u.table_grows u1 ∧ u1.table_ok
            ∧ ∀ v j x, u.cell v j = some x → x ≠ UINT64_MAX → u1.cell v j = some x) := by
  obtain ⟨hok, o5, o4, o3, o2⟩ := operates_inv vm warmup_complete s h
  refine ⟨?_, hok, ?_, ?_⟩
  · intro L c hmem
    simp only [List.mem_cons, Prod.mk.injEq, List.mem_singleton, List.not_mem_nil,
      or_false] at hmem
    rcases hmem with ⟨rfl, rfl⟩ | ⟨rfl, rfl⟩ | ⟨rfl, rfl⟩ | ⟨rfl, rfl⟩
    · exact o5
    · exact o4
    · exact o3
    · exact o2
  · intro t ht
    obtain ⟨⟨hokt, -⟩, hg⟩ := handle_fill_loop_keeps vm warmup_complete s.MAX_FILL s t
      ⟨hok, o5, o4, o3, o2⟩ ht
    obtain ⟨pth, htree⟩ := hok
    exact ⟨hg, hokt, fun v i x hx hne => cell_grows s t pth htree hg v i x hx hne⟩
  · intro u m i page huok hi hi5 hup hpage hmax
    obtain ⟨pth, htree⟩ := huok
    obtain ⟨l, hl⟩ : ∃ l, i = l + 1 := ⟨i - 1, by omega⟩
    subst hl
    obtain ⟨u1, pth1, hrun, ht1, -, -, -⟩ := handle_page_fault_from_ok vm m.v_address l
      (5 - (l + 1)) u pth page (by omega) htree hpage hup hmax
    have hg := handle_page_fault_from_grows vm m.v_address l (5 - (l + 1)) u pth page u1
      (by omega) htree hpage hup hmax hrun
    refine ⟨u1, ?_, hg, ⟨pth1, ht1⟩,
      fun v j x hx hne => cell_grows u u1 pth htree hg v j x hx hne⟩
    unfold PageTableWalker.handle_page_fault
    rw [if_pos hi5]; exact hrun

/-- Witness for C36: the walker as constructed after the walk of `0x200000`. The way 0 of
the set 0 of its PSCL2 is valid with the tag 1, the index of the addresses of the 2 MB region
at `0x200000`; by the theorem the cell of the level 2 on the path of `0x201000`, an address
of that region, is the data of the block, `0xF000000F00003`. -/
theorem pscl_page_table_coherence_witness :
    ∃ s, ptw_after_r1 = some s
      ∧ PageTableWalker.operates vm0 true s
      ∧ ((s.PSCL2.at 0).valid, (s.PSCL2.at 0).tag, (s.PSCL2.at 0).data)
          = (1, 1, 0xF000000F00003)
      ∧ s.PSCL2.get_index 0x201000 = 1
      ∧ s.cell 0x201000 2 = some 0xF000000F00003 := by
  have h1 := option_eq_some_getD
    ((PageTableWalker.init 0x100 0xf000000f00000000 2 4).take_request req_r1)
    (PageTableWalker.init 0x100 0xf000000f00000000 2 4) (by decide)
  have h2 := option_eq_some_getD ptw_after_r1
    (PageTableWalker.init 0x100 0xf000000f00000000 2 4) (by decide)
  have h3 : (((PageTableWalker.init 0x100 0xf000000f00000000 2 4).take_request req_r1).getD
      (PageTableWalker.init 0x100 0xf000000f00000000 2 4)).round vm0 true
      = some (ptw_after_r1.getD (PageTableWalker.init 0x100 0xf000000f00000000 2 4)) := by
    have e : ptw_after_r1
        = (((PageTableWalker.init 0x100 0xf000000f00000000 2 4).take_request req_r1).getD
            (PageTableWalker.init 0x100 0xf000000f00000000 2 4)).round vm0 true :=
      option_bind_getD _ _ _ (by decide)
    rw [← e]
    exact h2
  have hop : PageTableWalker.operates vm0 true
      (ptw_after_r1.getD (PageTableWalker.init 0x100 0xf000000f00000000 2 4)) :=
    operates_round vm0 true _ _
      (operates_take_request vm0 true _ _ req_r1 (PageTableWalker.operates.init _ _ _ _) h1)
      h3
  have hblock : (((ptw_after_r1.getD
      (PageTableWalker.init 0x100 0xf000000f00000000 2 4)).PSCL2.at 0).valid,
      ((ptw_after_r1.getD (PageTableWalker.init 0x100 0xf000000f00000000 2 4)).PSCL2.at 0).tag,
      ((ptw_after_r1.getD (PageTableWalker.init 0x100 0xf000000f00000000 2 4)).PSCL2.at 0).data)
      = (1, 1, 0xF000000F00003) := by decide
  have hidx : (ptw_after_r1.getD
      (PageTableWalker.init 0x100 0xf000000f00000000 2 4)).PSCL2.get_index 0x201000 = 1 := by
    decide
  have hc := ((pscl_page_table_coherence vm0 true _ hop).1 2
    (ptw_after_r1.getD (PageTableWalker.init 0x100 0xf000000f00000000 2 4)).PSCL2
    (by simp)).2 0 0x201000 (by decide) (by decide)
  refine ⟨_, h2, hop, hblock, hidx, ?_⟩
  rw [hc.1]
  exact congrArg some (congrArg (fun x => x.2.2) hblock)

/-! ## The accounting of `STA`: lists -/

/-- The ids owed by two lists. -/
theorem sta_owed_append (l1 l2 : List ooo_model_instr) :
    sta_owed (l1 ++ l2) = sta_owed l1 ++ sta_owed l2 := by
  induction l1 with
  | nil => rfl
  | cons a l ih =>
    show List.replicate a.pending a.instr_id ++ sta_owed (l ++ l2)
      = (List.replicate a.pending a.instr_id ++ sta_owed l) ++ sta_owed l2
    rw [ih, List.append_assoc]

/-- The number of ids owed is the number of operands not added. -/
theorem sta_owed_length (l : List ooo_model_instr) :
    (sta_owed l).length = (l.map ooo_model_instr.pending).sum := by
  induction l with
  | nil => rfl
  | cons a l ih =>
    simp only [sta_owed, List.length_append, List.length_replicate, ih, List.map_cons,
      List.sum_cons]

/-- Every id owed is the id of an instruction of the list that has an operand not added. -/
theorem mem_sta_owed (l : List ooo_model_instr) (x : Nat) (h : x ∈ sta_owed l) :
    ∃ a, a ∈ l ∧ a.instr_id = x ∧ 0 < a.pending := by
  induction l with
  | nil => simp [sta_owed] at h
  | cons a l ih =>
    simp only [sta_owed, List.mem_append] at h
    rcases h with h | h
    · obtain ⟨h1, h2⟩ := List.mem_replicate.mp h
      exact ⟨a, List.mem_cons_self _ _, h2.symm, Nat.pos_of_ne_zero h1⟩
    · obtain ⟨b, hb, hx, hp⟩ := ih h
      exact ⟨b, List.mem_cons_of_mem _ hb, hx, hp⟩

/-- An id occurs among the ids owed as often as the instruction with that id, if the ids are
distinct, has operands not added. -/
theorem count_sta_owed (l : List ooo_model_instr)
    (hid : (l.map (fun a => a.instr_id)).Pairwise (fun a b => a < b)) (a : ooo_model_instr)
    (ha : a ∈ l) : (sta_owed l).count a.instr_id = a.pending := by
  induction l with
  | nil => simp at ha
  | cons b l ih =>
    simp only [List.map_cons, List.pairwise_cons] at hid
    simp only [sta_owed, List.count_append]
    rcases List.mem_cons.mp ha with hab | hal
    · subst hab
      have h0 : (sta_owed l).count a.instr_id = 0 := by
        apply List.count_eq_zero.mpr
        intro hmem
        obtain ⟨c, hc, hcx, -⟩ := mem_sta_owed l _ hmem
        have := hid.1 c.instr_id (List.mem_map_of_mem _ hc)
        omega
      rw [h0, List.count_replicate_self]
      rfl
    · have hne : b.instr_id ≠ a.instr_id := by
        have := hid.1 a.instr_id (List.mem_map_of_mem _ hal)
        omega
      rw [ih hid.2 hal, List.count_replicate, if_neg (by simpa using hne)]
      exact Nat.zero_add _

/-- The ids owed depend on the ids and the `added` flags only. -/
theorem sta_owed_same (l1 l2 : List ooo_model_instr)
    (h : List.Forall₂ ooo_model_instr.sta_same l1 l2) : sta_owed l2 = sta_owed l1 := by
  induction h with
  | nil => rfl
  | cons hab _ ih =>
    have hp : ∀ (x y : ooo_model_instr),
        y.destination_memory.map (fun d => d.added)
          = x.destination_memory.map (fun d => d.added) → y.pending = x.pending := by
      intro x y hxy
      have e : ∀ z : ooo_model_instr, z.pending
          = (z.destination_memory.map (fun d => d.added)).countP (fun b => !b) := by
        intro z
        unfold ooo_model_instr.pending
        rw [List.countP_map]
        rfl
      rw [e x, e y, hxy]
    simp only [sta_owed, ih, hab.1, hp _ _ hab.2.1]

/-- Nothing has changed: the instructions are the same for the accounting. -/
theorem sta_same_refl (a : ooo_model_instr) : a.sta_same a :=
  ⟨rfl, rfl, rfl, fun h => Or.inl h⟩

/-- Sameness for the accounting composes. -/
theorem sta_same_trans (a b c : ooo_model_instr) (h1 : a.sta_same b) (h2 : b.sta_same c) :
    a.sta_same c := by
  refine ⟨h2.1.trans h1.1, h2.2.1.trans h1.2.1, h2.2.2.1.trans h1.2.2.1, ?_⟩
  intro hc
  rcases h2.2.2.2 hc with h | h
  · exact h1.2.2.2 h
  · exact Or.inr (h1.2.2.1 ▸ h)

/-- Instructions with the same key are the same for the accounting. -/
theorem sta_same_of_key (a b : ooo_model_instr) (h : b.sta_key = a.sta_key) :
    a.sta_same b := by
  unfold ooo_model_instr.sta_key at h
  simp only [Prod.mk.injEq] at h
  exact ⟨h.1, h.2.1, h.2.2.1, fun hc => Or.inl (h.2.2.2 ▸ hc)⟩

/-- Lists with the same keys are the same for the accounting. -/
theorem forall₂_sta_same_of_key :
    ∀ (l1 l2 : List ooo_model_instr),
      l2.map ooo_model_instr.sta_key = l1.map ooo_model_instr.sta_key →
      List.Forall₂ ooo_model_instr.sta_same l1 l2 := by
  intro l1
  induction l1 with
  | nil =>
    intro l2 h
    cases l2 with
    | nil => exact List.Forall₂.nil
    | cons b l2 => simp at h
  | cons a l1 ih =>
    intro l2 h
    cases l2 with
    | nil => simp at h
    | cons b l2 =>
      simp only [List.map_cons, List.cons.injEq] at h
      exact List.Forall₂.cons (sta_same_of_key a b h.1) (ih l2 h.2)

/-- A write of the load and store queues keeps an instruction the same for the
accounting. -/
theorem sta_same_of_load_side (a b : ooo_model_instr) (h : a.load_side b) : a.sta_same b := by
  unfold ooo_model_instr.load_side at h
  refine ⟨by rw [h], by rw [h], by rw [h], ?_⟩
  intro hc
  left
  rw [h] at hc
  exact hc

/-- A write of the load and store queues is a write of the memory side. -/
theorem mem_only_of_load_side (a b : ooo_model_instr) (h : a.load_side b) : a.mem_only b := by
  unfold ooo_model_instr.load_side at h
  unfold ooo_model_instr.mem_only
  rw [h]

/-- A relation that holds entry by entry gives way to a weaker one. -/
theorem forall₂_weaken {α : Type} (R S : α → α → Prop) (h : ∀ a b, R a b → S a b) :
    ∀ (l1 l2 : List α), List.Forall₂ R l1 l2 → List.Forall₂ S l1 l2 := by
  intro l1 l2 h12
  induction h12 with
  | nil => exact List.Forall₂.nil
  | cons hab _ ih => exact List.Forall₂.cons (h _ _ hab) ih

/-- Entries related one by one: every entry of the second list has its partner in the
first. -/
theorem forall₂_mem_right {α : Type} (R : α → α → Prop) :
    ∀ (l1 l2 : List α), List.Forall₂ R l1 l2 → ∀ b, b ∈ l2 → ∃ a, a ∈ l1 ∧ R a b := by
  intro l1 l2 h12
  induction h12 with
  | nil => intro b hb; simp at hb
  | cons hab _ ih =>
    intro b hb
    rcases List.mem_cons.mp hb with h | h
    · subst h
      exact ⟨_, List.mem_cons_self _ _, hab⟩
    · obtain ⟨a, ha, hr⟩ := ih b h
      exact ⟨a, List.mem_cons_of_mem _ ha, hr⟩

/-- The ids of lists that are the same for the accounting. -/
theorem sta_same_ids (l1 l2 : List ooo_model_instr)
    (h : List.Forall₂ ooo_model_instr.sta_same l1 l2) :
    l2.map (fun a => a.instr_id) = l1.map (fun a => a.instr_id) := by
  induction h with
  | nil => rfl
  | cons hab _ ih => simp only [List.map_cons, ih, hab.1]

/-- The accounting of `STA` survives a step that keeps the instructions in flight the same
for the accounting and keeps `STA`. -/
theorem sta_inv_of_keeps {β : Type} (s t : Core β) (h : s.sta_inv) (hk : s.sta_keeps t) :
    t.sta_inv := by
  have hsame : ∀ b, b ∈ t.in_flight → ∃ a, a ∈ s.in_flight ∧ a.sta_same b :=
    forall₂_mem_right _ _ _ hk.instrs
  have hpend : ∀ (a b : ooo_model_instr), a.sta_same b → b.pending = a.pending := by
    intro a b hab
    have e : ∀ z : ooo_model_instr, z.pending
        = (z.destination_memory.map (fun d => d.added)).countP (fun b => !b) := by
      intro z
      unfold ooo_model_instr.pending
      rw [List.countP_map]
      rfl
    rw [e a, e b, hab.2.1]
  constructor
  · rw [sta_same_ids _ _ hk.instrs]; exact h.ids
  · rw [hk.sta, h.sta, sta_owed_same _ _ hk.instrs]
  · intro b hb hc
    obtain ⟨a, ha, hab⟩ := hsame b hb
    rw [hpend a b hab]
    rcases hab.2.2.2 hc with h1 | h1
    · exact h.done a ha h1
    · unfold ooo_model_instr.pending
      rw [h.plain a ha h1]
      rfl
  · intro b hb hm
    obtain ⟨a, ha, hab⟩ := hsame b hb
    have h1 := h.plain a ha (hab.2.2.1 ▸ hm)
    have h2 := hab.2.1
    rw [h1] at h2
    simpa using h2

/-- Nothing has changed. -/
theorem sta_keeps_refl {β : Type} (s : Core β) : s.sta_keeps s :=
  ⟨forall₂_self _ sta_same_refl _, rfl⟩

/-- Steps that keep the accounting compose. -/
theorem sta_keeps_trans {β : Type} (s t u : Core β) (h1 : s.sta_keeps t)
    (h2 : t.sta_keeps u) : s.sta_keeps u :=
  ⟨forall₂_comp _ sta_same_trans _ _ _ h1.instrs h2.instrs, h2.sta.trans h1.sta⟩

/-- A step that keeps the front end and `STA` and rewrites the ROB entry by entry. -/
theorem sta_keeps_of_rob {β : Type} (s t : Core β) (hq : t.queue = s.queue)
    (hsta : t.STA = s.STA) (hrob : List.Forall₂ ooo_model_instr.sta_same s.ROB t.ROB) :
    s.sta_keeps t := by
  refine ⟨?_, hsta⟩
  unfold Core.in_flight
  rw [hq]
  exact List.rel_append hrob (forall₂_self _ sta_same_refl _)

/-- A step that keeps the ROB and `STA` and the keys of the instructions of the front
end. -/
theorem sta_keeps_of_queue {β : Type} (s t : Core β) (hrob : t.ROB = s.ROB)
    (hsta : t.STA = s.STA)
    (hq : t.queue.map ooo_model_instr.sta_key = s.queue.map ooo_model_instr.sta_key) :
    s.sta_keeps t := by
  refine ⟨?_, hsta⟩
  unfold Core.in_flight
  rw [hrob]
  exact List.rel_append (forall₂_self _ sta_same_refl _) (forall₂_sta_same_of_key _ _ hq)

/-! ## The accounting of `STA`: the back end -/

/-- A ROB is the same as itself for the accounting. -/
theorem sta_rob_self (l : List ooo_model_instr) :
    List.Forall₂ ooo_model_instr.sta_same l l :=
  forall₂_self ooo_model_instr.sta_same sta_same_refl l

/-- Writing an entry that is the same for the accounting. -/
theorem sta_rob_set (l : List ooo_model_instr) (i : Nat) (e e2 : ooo_model_instr)
    (hi : l[i]? = some e) (h : e.sta_same e2) :
    List.Forall₂ ooo_model_instr.sta_same l (l.set i e2) :=
  forall₂_set ooo_model_instr.sta_same sta_same_refl l i e e2 hi h

/-- Two steps that keep the ROB the same for the accounting. -/
theorem sta_rob_comp (l1 l2 l3 : List ooo_model_instr)
    (h1 : List.Forall₂ ooo_model_instr.sta_same l1 l2)
    (h2 : List.Forall₂ ooo_model_instr.sta_same l2 l3) :
    List.Forall₂ ooo_model_instr.sta_same l1 l3 :=
  forall₂_comp ooo_model_instr.sta_same sta_same_trans l1 l2 l3 h1 h2

/-- The entry that a ROB iterator points to is at its index. -/
theorem rob_at_getElem? {β : Type} (s : Core β) (it : Nat) (a : ooo_model_instr)
    (h : s.rob_at it = some a) : s.ROB[it - s.ROB_front]? = some a := by
  unfold Core.rob_at at h
  by_cases hf : s.ROB_front ≤ it
  · rw [if_pos hf] at h; exact h
  · rw [if_neg hf] at h; exact absurd h (by simp)

/-- The body of the loop of `do_scheduling` over the source registers keeps the ROB the same
for the accounting. -/
theorem mark_register_dependency_sta {β : Type} (i : Nat) (s : Core β) (src_reg : Nat) :
    List.Forall₂ ooo_model_instr.sta_same s.ROB (mark_register_dependency i s src_reg).ROB := by
  unfold mark_register_dependency
  cases hf : find_prior s.ROB (instr_reg_will_produce src_reg) i with
  | none => exact sta_rob_self _
  | some j =>
    simp only
    obtain ⟨hji, prior, hj⟩ := find_prior_lt _ _ i j hf
    rw [hj]
    cases hi : s.ROB[i]? with
    | none => exact sta_rob_self _
    | some rob_it =>
      simp only
      by_cases hc : prior.registers_instrs_depend_on_me = []
          ∨ prior.registers_instrs_depend_on_me.getLast? ≠ some (s.ROB_front + i)
      · rw [if_pos hc]
        refine sta_rob_comp _
          (s.ROB.set j { prior with registers_instrs_depend_on_me := prior.registers_instrs_depend_on_me ++ [s.ROB_front + i] }) _
          (sta_rob_set _ j prior _ hj ⟨rfl, rfl, rfl, fun h => Or.inl h⟩)
          (sta_rob_set _ i rob_it _ ?_ ⟨rfl, rfl, rfl, fun h => Or.inl h⟩)
        rw [List.getElem?_set, if_neg (by omega)]
        exact hi
      · rw [if_neg hc]
        exact sta_rob_self _

/-- `do_scheduling` keeps the ROB the same for the accounting: it sets `scheduled` to
`COMPLETED` for an instruction that is no memory instruction only. -/
theorem do_scheduling_sta {β : Type} (cfg : StageConfig) (wc : Bool) (s : Core β) (i : Nat) :
    List.Forall₂ ooo_model_instr.sta_same s.ROB (do_scheduling cfg wc s i).ROB := by
  have hfold : ∀ (regs : List Nat) (u : Core β),
      List.Forall₂ ooo_model_instr.sta_same
        u.ROB (regs.foldl (mark_register_dependency i) u).ROB := by
    intro regs
    induction regs with
    | nil => intro u; exact sta_rob_self _
    | cons r rest ih =>
      intro u
      rw [List.foldl_cons]
      exact sta_rob_comp _ _ _ (mark_register_dependency_sta i u r) (ih _)
  unfold do_scheduling
  cases hi : s.ROB[i]? with
  | none => exact sta_rob_self _
  | some rob_it =>
    simp only
    have h1 := hfold rob_it.source_registers s
    generalize rob_it.source_registers.foldl (mark_register_dependency i) s = s1 at h1 ⊢
    cases he : s1.ROB[i]? with
    | none => exact h1
    | some e =>
      simp only
      by_cases hm : e.is_memory ≠ 0
      · rw [if_pos hm]
        refine sta_rob_comp _ _ _ h1 (sta_rob_set _ i e _ he ⟨rfl, rfl, rfl, ?_⟩)
        intro hc
        have hne : INFLIGHT ≠ COMPLETED := by decide
        exact absurd hc hne
      · rw [if_neg hm]
        refine sta_rob_comp _ _ _ h1 (sta_rob_set _ i e _ he ⟨rfl, rfl, rfl, ?_⟩)
        intro _
        exact Or.inr (not_not.mp hm)

/-- `schedule_instruction` keeps the ROB the same for the accounting. -/
theorem schedule_loop_sta {β : Type} (cfg : StageConfig) (wc : Bool) :
    ∀ (n i bw : Nat) (s t : Core β), schedule_loop cfg wc n i bw s = .ok t →
      List.Forall₂ ooo_model_instr.sta_same s.ROB t.ROB := by
  intro n
  induction n with
  | zero =>
    intro i bw s t ht
    simp only [schedule_loop, Except.ok.injEq] at ht
    rw [← ht]; exact sta_rob_self _
  | succ n ih =>
    intro i bw s t ht
    rw [schedule_loop] at ht
    by_cases hbw : bw = 0
    · rw [if_pos hbw] at ht
      simp only [Except.ok.injEq] at ht
      rw [← ht]; exact sta_rob_self _
    · rw [if_neg hbw] at ht
      cases hstep : schedule_step cfg wc s i with
      | error a => rw [hstep] at ht; exact absurd ht (by simp)
      | ok r =>
        rw [hstep] at ht
        have h2 := ih _ _ _ t ht
        have h1 : List.Forall₂ ooo_model_instr.sta_same s.ROB r.1.ROB := by
          unfold schedule_step at hstep
          cases hi : s.ROB[i]? with
          | none => rw [hi] at hstep; exact absurd hstep (by simp)
          | some rob_it =>
            rw [hi] at hstep
            simp only at hstep
            have hd := do_scheduling_sta cfg wc s i
            by_cases hs : rob_it.scheduled = 0
            · rw [if_pos hs] at hstep
              generalize do_scheduling cfg wc s i = s1 at hd hstep
              cases he : s1.ROB[i]? with
              | none => rw [he] at hstep; exact absurd hstep (by simp)
              | some e =>
                rw [he] at hstep
                simp only at hstep
                by_cases hc : e.scheduled = COMPLETED ∧ e.num_reg_dependent = 0
                · rw [if_pos hc] at hstep
                  by_cases hl : s1.ready_to_execute.length < cfg.ROB_SIZE
                  · rw [if_pos hl] at hstep
                    simp only at hstep
                    rw [show ({ s1 with ready_to_execute := s1.ready_to_execute ++ [s1.ROB_front + i] } : Core β).ROB[i]? = some e from he] at hstep
                    simp only [Except.ok.injEq] at hstep
                    rw [← hstep]
                    exact hd
                  · rw [if_neg hl] at hstep
                    exact absurd hstep (by simp)
                · rw [if_neg hc] at hstep
                  simp only at hstep
                  rw [he] at hstep
                  simp only [Except.ok.injEq] at hstep
                  rw [← hstep]; exact hd
            · rw [if_neg hs] at hstep
              simp only at hstep
              rw [hi] at hstep
              simp only [Except.ok.injEq] at hstep
              rw [← hstep]; exact sta_rob_self _
        exact sta_rob_comp _ _ _ h1 h2

/-- `execute_instruction` keeps the ROB the same for the accounting. -/
theorem execute_loop_sta {β : Type} (cfg : StageConfig) (wc : Bool) :
    ∀ (n : Nat) (s t : Core β), execute_loop cfg wc n s = .ok t →
      List.Forall₂ ooo_model_instr.sta_same s.ROB t.ROB := by
  intro n
  induction n with
  | zero =>
    intro s t ht
    simp only [execute_loop, Except.ok.injEq] at ht
    rw [← ht]; exact sta_rob_self _
  | succ n ih =>
    intro s t ht
    rw [execute_loop] at ht
    have hcases : s.ready_to_execute = [] ∨ ∃ it rest, s.ready_to_execute = it :: rest := by
      cases s.ready_to_execute with
      | nil => exact Or.inl rfl
      | cons it rest => exact Or.inr ⟨it, rest, rfl⟩
    rcases hcases with hr | ⟨it, rest, hr⟩
    · rw [hr] at ht
      simp only [Except.ok.injEq] at ht
      rw [← ht]; exact sta_rob_self _
    · rw [hr] at ht
      simp only at ht
      cases hd : do_execution cfg wc s it with
      | error a => rw [hd] at ht; exact absurd ht (by simp)
      | ok s1 =>
        rw [hd] at ht
        simp only at ht
        have h1 : List.Forall₂ ooo_model_instr.sta_same s.ROB s1.ROB := by
          unfold do_execution at hd
          cases ha : s.rob_at it with
          | none => rw [ha] at hd; exact absurd hd (by simp)
          | some a =>
            rw [ha] at hd
            simp only [Except.ok.injEq] at hd
            rw [← hd]
            exact sta_rob_set _ _ a _ (rob_at_getElem? s it a ha)
              ⟨rfl, rfl, rfl, fun h => Or.inl h⟩
        have h2 := ih { s1 with ready_to_execute := rest } t ht
        exact sta_rob_comp _ _ _ h1 h2

/-- A dependent that is released is the same for the accounting: its `scheduled` becomes
`COMPLETED` only when it is no memory instruction. -/
theorem released_sta (d : ooo_model_instr) : d.sta_same (released d) := by
  unfold released
  simp only
  split_ifs with h1 h2
  · have hne : INFLIGHT ≠ COMPLETED := by decide
    exact ⟨rfl, rfl, rfl, fun hc => absurd hc hne⟩
  · exact ⟨rfl, rfl, rfl, fun _ => Or.inr (not_not.mp h2)⟩
  · exact ⟨rfl, rfl, rfl, fun hc => Or.inl hc⟩

/-- The loop of `do_complete_execution` over the dependents keeps the ROB the same for the
accounting. -/
theorem release_dependents_sta {β : Type} :
    ∀ (l : List Nat) (s t : Core β), release_dependents l s = .ok t →
      List.Forall₂ ooo_model_instr.sta_same s.ROB t.ROB := by
  intro l
  induction l with
  | nil =>
    intro s t ht
    simp only [release_dependents, Except.ok.injEq] at ht
    rw [← ht]; exact sta_rob_self _
  | cons d rest ih =>
    intro s t ht
    rw [release_dependents] at ht
    cases h1 : release_dependent s d with
    | error a => rw [h1] at ht; exact absurd ht (by simp)
    | ok s1 =>
      rw [h1] at ht
      simp only at ht
      refine sta_rob_comp _ _ _ ?_ (ih s1 t ht)
      unfold release_dependent at h1
      cases hb : s.rob_at d with
      | none => rw [hb] at h1; exact absurd h1 (by simp)
      | some b =>
        rw [hb] at h1
        simp only at h1
        by_cases hz : b.num_reg_dependent = 0
        · rw [if_pos hz] at h1; exact absurd h1 (by simp)
        · rw [if_neg hz] at h1
          simp only [Except.ok.injEq] at h1
          rw [← h1]
          exact sta_rob_set _ _ b _ (rob_at_getElem? s d b hb) (released_sta b)

/-- `do_complete_execution` keeps the ROB the same for the accounting. -/
theorem do_complete_execution_sta {β : Type} (cfg : StageConfig) (s t : Core β) (i : Nat)
    (ht : do_complete_execution cfg s i = .ok t) :
    List.Forall₂ ooo_model_instr.sta_same s.ROB t.ROB := by
  unfold do_complete_execution at ht
  cases hi : s.ROB[i]? with
  | none => rw [hi] at ht; exact absurd ht (by simp)
  | some rob_it =>
    rw [hi] at ht
    simp only at ht
    cases h1 : release_dependents rob_it.registers_instrs_depend_on_me
        ({ s with ROB := s.ROB.set i { rob_it with executed := COMPLETED } } : Core β) with
    | error a => rw [h1] at ht; exact absurd ht (by simp)
    | ok s2 =>
      rw [h1] at ht
      simp only at ht
      have hrel := release_dependents_sta _ _ s2 h1
      have hset : List.Forall₂ ooo_model_instr.sta_same s.ROB
          (s.ROB.set i { rob_it with executed := COMPLETED }) :=
        sta_rob_set _ i rob_it _ hi ⟨rfl, rfl, rfl, fun h => Or.inl h⟩
      have h12 := sta_rob_comp _ _ _ hset hrel
      cases he : s2.ROB[i]? with
      | none => rw [he] at ht; exact absurd ht (by simp)
      | some e =>
        rw [he] at ht
        simp only at ht
        split_ifs at ht
        · simp only [Except.ok.injEq] at ht
          rw [← ht]; exact h12
        · simp only [Except.ok.injEq] at ht
          rw [← ht]; exact h12

/-- `complete_inflight_instruction` keeps the ROB the same for the accounting. -/
theorem complete_loop_sta {β : Type} (cfg : StageConfig) :
    ∀ (n i bw : Nat) (s t : Core β), complete_loop cfg n i bw s = .ok t →
      List.Forall₂ ooo_model_instr.sta_same s.ROB t.ROB := by
  intro n
  induction n with
  | zero =>
    intro i bw s t ht
    simp only [complete_loop, Except.ok.injEq] at ht
    rw [← ht]; exact sta_rob_self _
  | succ n ih =>
    intro i bw s t ht
    rw [complete_loop] at ht
    by_cases hbw : bw = 0
    · rw [if_pos hbw] at ht
      simp only [Except.ok.injEq] at ht
      rw [← ht]; exact sta_rob_self _
    · rw [if_neg hbw] at ht
      cases hstep : complete_step cfg s i with
      | error a => rw [hstep] at ht; exact absurd ht (by simp)
      | ok r =>
        rw [hstep] at ht
        have h2 := ih _ _ _ t ht
        refine sta_rob_comp _ _ _ ?_ h2
        unfold complete_step at hstep
        cases hi : s.ROB[i]? with
        | none => rw [hi] at hstep; exact absurd hstep (by simp)
        | some rob_it =>
          rw [hi] at hstep
          simp only at hstep
          by_cases hc : rob_it.executed = INFLIGHT ∧ rob_it.event_cycle ≤ s.current_cycle
              ∧ rob_it.num_mem_ops = 0
          · rw [if_pos hc] at hstep
            cases h1 : do_complete_execution cfg s i with
            | error a => rw [h1] at hstep; exact absurd hstep (by simp)
            | ok s1 =>
              rw [h1] at hstep
              simp only at hstep
              have hd := do_complete_execution_sta cfg s s1 i h1
              cases he : s1.ROB[i]? with
              | none => rw [he] at hstep; exact absurd hstep (by simp)
              | some e =>
                rw [he] at hstep
                simp only at hstep
                cases hw : wake_dependents cfg e.registers_instrs_depend_on_me s1 with
                | error a => rw [hw] at hstep; exact absurd hstep (by simp)
                | ok s2 =>
                  rw [hw] at hstep
                  simp only [Except.ok.injEq] at hstep
                  rw [← hstep]
                  rw [(wake_dependents_rob cfg _ s1 s2 hw).1]
                  exact hd
          · rw [if_neg hc] at hstep
            simp only [Except.ok.injEq] at hstep
            rw [← hstep]; exact sta_rob_self _

/-! ## The accounting of `STA`: the load and store queues -/

/-- Nothing is written. -/
theorem load_side_refl (a : ooo_model_instr) : a.load_side a := rfl

/-- Writes of the load and store queues compose. -/
theorem load_side_trans (a b c : ooo_model_instr) (h1 : a.load_side b) (h2 : b.load_side c) :
    a.load_side c := by
  unfold ooo_model_instr.load_side at *
  rw [h2, h1]

/-- A step that changes nothing is a step of the load and store queues. -/
theorem lsq_exact_refl {β : Type} (s : Core β) : s.lsq_exact s :=
  ⟨rfl, forall₂_self ooo_model_instr.load_side load_side_refl _⟩

/-- Steps of the load and store queues compose. -/
theorem lsq_exact_trans {β : Type} (s t u : Core β) (h1 : s.lsq_exact t)
    (h2 : t.lsq_exact u) : s.lsq_exact u := by
  obtain ⟨f1, r1⟩ := h1
  obtain ⟨f2, r2⟩ := h2
  refine ⟨?_, forall₂_comp ooo_model_instr.load_side load_side_trans _ _ _ r1 r2⟩
  rw [f2, f1]

/-- A step that writes one ROB entry on the side of the load and store queues. -/
theorem lsq_exact_set {β : Type} (s : Core β) (i : Nat) (a b : ooo_model_instr)
    (hi : s.ROB[i]? = some a) (hab : a.load_side b) :
    s.lsq_exact { s with ROB := s.ROB.set i b } :=
  ⟨rfl, forall₂_set ooo_model_instr.load_side load_side_refl _ i a b hi hab⟩

/-- A step of the load and store queues is a step of the memory side. -/
theorem lsq_step_of_exact {β : Type} (s t : Core β) (h : s.lsq_exact t) : s.lsq_step t :=
  ⟨h.1, forall₂_weaken _ _ mem_only_of_load_side _ _ h.2⟩

/-- A step of the load and store queues keeps the accounting of `STA`. -/
theorem sta_keeps_of_lsq_exact {β : Type} (s t : Core β) (h : s.lsq_exact t) :
    s.sta_keeps t := by
  obtain ⟨hf, hr⟩ := h
  refine sta_keeps_of_rob s t ?_ ?_ (forall₂_weaken _ _ sta_same_of_load_side _ _ hr)
  · rw [hf]; rfl
  · rw [hf]

/-- The loop of `execute_store` over the dependents is a step of the load and store
queues. -/
theorem forward_to_dependents_exact {β : Type} (virtual_address : Nat) :
    ∀ (l : List Nat) (s t : Core β), forward_to_dependents virtual_address l s = .ok t →
      s.lsq_exact t := by
  intro l
  induction l with
  | nil =>
    intro s t ht
    simp only [forward_to_dependents, Except.ok.injEq] at ht
    rw [← ht]; exact lsq_exact_refl s
  | cons d rest ih =>
    intro s t ht
    rw [forward_to_dependents] at ht
    cases h1 : forward_to_dependent virtual_address s d with
    | error a => rw [h1] at ht; exact absurd ht (by simp)
    | ok s1 =>
      rw [h1] at ht
      simp only at ht
      refine lsq_exact_trans _ _ _ ?_ (ih s1 t ht)
      unfold forward_to_dependent at h1
      cases hd : s.rob_at d with
      | none => rw [hd] at h1; exact absurd h1 (by simp)
      | some b =>
        rw [hd] at h1
        simp only at h1
        cases hk : b.source_memory[b.source_memory.findIdx
            (fun m => m.address == virtual_address)]? with
        | none =>
          rw [hk] at h1
          simp only [Except.ok.injEq] at h1
          rw [← h1]; exact lsq_exact_refl s
        | some dsm =>
          rw [hk] at h1
          simp only at h1
          by_cases hz : b.num_mem_ops = 0
          · rw [if_pos hz] at h1; exact absurd h1 (by simp)
          · rw [if_neg hz] at h1
            simp only [Except.ok.injEq] at h1
            rw [← h1]
            exact lsq_exact_set s _ b _ (rob_at_getElem? s d b hd) rfl

/-- `execute_store` is a step of the load and store queues. -/
theorem execute_store_exact {β : Type} (s t : Core β) (sq_it : Nat)
    (ht : execute_store s sq_it = .ok t) : s.lsq_exact t := by
  unfold execute_store at ht
  cases he : s.SQ[sq_it]? with
  | none => rw [he] at ht; exact absurd ht (by simp)
  | some e =>
    rw [he] at ht
    simp only at ht
    cases ho : s.rob_at e.rob_index with
    | none => rw [ho] at ht; exact absurd ht (by simp)
    | some owner =>
      rw [ho] at ht
      simp only at ht
      by_cases hz : owner.num_mem_ops = 0
      · rw [if_pos hz] at ht; exact absurd ht (by simp)
      · rw [if_neg hz] at ht
        refine lsq_exact_trans _ _ _ ?_ (forward_to_dependents_exact _ _ _ t ht)
        exact ⟨rfl, forall₂_set ooo_model_instr.load_side load_side_refl _ _ owner _
          (rob_at_getElem? s _ owner ho) rfl⟩

/-- The second loop of `operate_lsq` is a step of the load and store queues. -/
theorem execute_stores_exact {β : Type} :
    ∀ (bw : Nat) (s t : Core β), execute_stores bw s = .ok t → s.lsq_exact t := by
  intro bw
  induction bw with
  | zero =>
    intro s t ht
    simp only [execute_stores, Except.ok.injEq] at ht
    rw [← ht]; exact lsq_exact_refl s
  | succ bw ih =>
    intro s t ht
    rw [execute_stores] at ht
    cases hr : s.RTS1 with
    | nil =>
      rw [hr] at ht
      simp only [Except.ok.injEq] at ht
      rw [← ht]; exact lsq_exact_refl s
    | cons sq_it rest =>
      rw [hr] at ht
      simp only at ht
      cases h1 : execute_store s sq_it with
      | error a => rw [h1] at ht; exact absurd ht (by simp)
      | ok s1 =>
        rw [h1] at ht
        simp only at ht
        refine lsq_exact_trans _ _ _ (execute_store_exact s s1 sq_it h1)
          (lsq_exact_trans _ _ _ ?_ (ih _ t ht))
        exact ⟨rfl, forall₂_self _ load_side_refl _⟩

/-- The first loop of `operate_lsq` is a step of the load and store queues. -/
theorem translate_stores_exact {β : Type} :
    ∀ (bw : Nat) (dtlb : List Int) (s : Core β) (r : Core β × Nat × List Int),
      translate_stores bw dtlb s = .ok r → s.lsq_exact r.1 := by
  intro bw
  induction bw with
  | zero =>
    intro dtlb s r ht
    simp only [translate_stores, Except.ok.injEq] at ht
    rw [← ht]; exact lsq_exact_refl s
  | succ bw ih =>
    intro dtlb s r ht
    rw [translate_stores] at ht
    cases hr : s.RTS0 with
    | nil =>
      rw [hr] at ht
      simp only [Except.ok.injEq] at ht
      rw [← ht]; exact lsq_exact_refl s
    | cons sq_it rest =>
      rw [hr] at ht
      simp only at ht
      cases h1 : do_translate_store s sq_it (dtlb.headD (-2)) with
      | error a => rw [h1] at ht; exact absurd ht (by simp)
      | ok s1 =>
        rw [h1] at ht
        simp only at ht
        have hs1 : s.lsq_exact s1 := by
          unfold do_translate_store at h1
          cases he : s.SQ[sq_it]? with
          | none => rw [he] at h1; exact absurd h1 (by simp)
          | some e =>
            rw [he] at h1
            simp only at h1
            split_ifs at h1
            · simp only [Except.ok.injEq] at h1
              rw [← h1]
              exact ⟨rfl, forall₂_self _ load_side_refl _⟩
            · simp only [Except.ok.injEq] at h1
              rw [← h1]; exact lsq_exact_refl s
        split_ifs at ht
        · simp only [Except.ok.injEq] at ht
          rw [← ht]; exact hs1
        · refine lsq_exact_trans _ _ _ hs1
            (lsq_exact_trans _ _ _ ?_ (ih _ _ r ht))
          exact ⟨rfl, forall₂_self _ load_side_refl _⟩

/-- The third loop of `operate_lsq` is a step of the load and store queues. -/
theorem translate_loads_exact {β : Type} :
    ∀ (bw : Nat) (dtlb : List Int) (s : Core β) (r : Core β × Nat),
      translate_loads bw dtlb s = .ok r → s.lsq_exact r.1 := by
  intro bw
  induction bw with
  | zero =>
    intro dtlb s r ht
    simp only [translate_loads, Except.ok.injEq] at ht
    rw [← ht]; exact lsq_exact_refl s
  | succ bw ih =>
    intro dtlb s r ht
    rw [translate_loads] at ht
    cases hr : s.RTL0 with
    | nil =>
      rw [hr] at ht
      simp only [Except.ok.injEq] at ht
      rw [← ht]; exact lsq_exact_refl s
    | cons lq_it rest =>
      rw [hr] at ht
      simp only at ht
      cases h1 : do_translate_load s lq_it (dtlb.headD (-2)) with
      | error a => rw [h1] at ht; exact absurd ht (by simp)
      | ok s1 =>
        rw [h1] at ht
        simp only at ht
        have hs1 : s.lsq_exact s1 := by
          unfold do_translate_load at h1
          cases he : s.LQ[lq_it]? with
          | none => rw [he] at h1; exact absurd h1 (by simp)
          | some e =>
            rw [he] at h1
            simp only at h1
            split_ifs at h1
            · simp only [Except.ok.injEq] at h1
              rw [← h1]
              exact ⟨rfl, forall₂_self _ load_side_refl _⟩
            · simp only [Except.ok.injEq] at h1
              rw [← h1]; exact lsq_exact_refl s
        split_ifs at ht
        · simp only [Except.ok.injEq] at ht
          rw [← ht]; exact hs1
        · refine lsq_exact_trans _ _ _ hs1
            (lsq_exact_trans _ _ _ ?_ (ih _ _ r ht))
          exact ⟨rfl, forall₂_self _ load_side_refl _⟩

/-- The fourth loop of `operate_lsq` is a step of the load and store queues. -/
theorem execute_loads_exact {β : Type} :
    ∀ (bw : Nat) (l1d : List Int) (s t : Core β),
      execute_loads bw l1d s = .ok t → s.lsq_exact t := by
  intro bw
  induction bw with
  | zero =>
    intro l1d s t ht
    simp only [execute_loads, Except.ok.injEq] at ht
    rw [← ht]; exact lsq_exact_refl s
  | succ bw ih =>
    intro l1d s t ht
    rw [execute_loads] at ht
    cases hr : s.RTL1 with
    | nil =>
      rw [hr] at ht
      simp only [Except.ok.injEq] at ht
      rw [← ht]; exact lsq_exact_refl s
    | cons lq_it rest =>
      rw [hr] at ht
      simp only at ht
      cases h1 : execute_load s lq_it (l1d.headD (-2)) with
      | error a => rw [h1] at ht; exact absurd ht (by simp)
      | ok s1 =>
        rw [h1] at ht
        simp only at ht
        have hs1 : s.lsq_exact s1 := by
          unfold execute_load at h1
          cases he : s.LQ[lq_it]? with
          | none => rw [he] at h1; exact absurd h1 (by simp)
          | some e =>
            rw [he] at h1
            simp only at h1
            split_ifs at h1
            · simp only [Except.ok.injEq] at h1
              rw [← h1]
              exact ⟨rfl, forall₂_self _ load_side_refl _⟩
            · simp only [Except.ok.injEq] at h1
              rw [← h1]; exact lsq_exact_refl s
        split_ifs at ht
        · simp only [Except.ok.injEq] at ht
          rw [← ht]; exact hs1
        · refine lsq_exact_trans _ _ _ hs1
            (lsq_exact_trans _ _ _ ?_ (ih _ _ t ht))
          exact ⟨rfl, forall₂_self _ load_side_refl _⟩

/-- `operate_lsq` is a step of the load and store queues. -/
theorem operate_lsq_exact {β : Type} (SQ_WIDTH LQ_WIDTH : Nat) (dtlb l1d : List Int)
    (s t : Core β) (ht : operate_lsq SQ_WIDTH LQ_WIDTH dtlb l1d s = .ok t) :
    s.lsq_exact t := by
  unfold operate_lsq at ht
  cases h1 : translate_stores SQ_WIDTH dtlb s with
  | error a => rw [h1] at ht; exact absurd ht (by simp)
  | ok r1 =>
    rw [h1] at ht
    obtain ⟨s1, store_bw, dtlb1⟩ := r1
    simp only at ht
    cases h2 : execute_stores store_bw s1 with
    | error a => rw [h2] at ht; exact absurd ht (by simp)
    | ok s2 =>
      rw [h2] at ht
      simp only at ht
      cases h3 : translate_loads LQ_WIDTH dtlb1 s2 with
      | error a => rw [h3] at ht; exact absurd ht (by simp)
      | ok r3 =>
        rw [h3] at ht
        obtain ⟨s3, load_bw⟩ := r3
        simp only at ht
        exact lsq_exact_trans _ _ _ (translate_stores_exact _ _ s _ h1)
          (lsq_exact_trans _ _ _ (execute_stores_exact _ s1 s2 h2)
            (lsq_exact_trans _ _ _ (translate_loads_exact _ _ s2 _ h3)
              (execute_loads_exact _ _ s3 t ht)))

/-- The loop of `handle_memory_return` over the answers of the DTLB is a step of the load
and store queues. -/
theorem dtlb_return_exact {β : Type} :
    ∀ (to_read : Nat) (s t : Core β), dtlb_return to_read s = .ok t → s.lsq_exact t := by
  intro n
  induction n with
  | zero =>
    intro s t ht
    simp only [dtlb_return, Except.ok.injEq] at ht
    rw [← ht]; exact lsq_exact_refl s
  | succ n ih =>
    intro s t ht
    rw [dtlb_return] at ht
    cases hp : s.DTLB_PROCESSED with
    | nil =>
      rw [hp] at ht
      simp only [Except.ok.injEq] at ht
      rw [← ht]; exact lsq_exact_refl s
    | cons x processed =>
      rw [hp] at ht
      simp only at ht
      cases h1 : dtlb_return_stores x.data s.current_cycle x.sq_index_depend_on_me s.SQ
          s.RTS1 with
      | error a => rw [h1] at ht; exact absurd ht (by simp)
      | ok r1 =>
        rw [h1] at ht
        simp only at ht
        cases h2 : dtlb_return_loads x.data s.current_cycle x.lq_index_depend_on_me s.LQ
            s.RTL1 with
        | error a => rw [h2] at ht; exact absurd ht (by simp)
        | ok r2 =>
          rw [h2] at ht
          simp only at ht
          refine lsq_exact_trans _ _ _ ?_ (ih _ t ht)
          exact ⟨rfl, forall₂_self _ load_side_refl _⟩

/-- The loop of `handle_memory_return` over the load queue slots of an answer of the L1D is
a step of the load and store queues. -/
theorem l1d_return_loads_exact {β : Type} :
    ∀ (l : List Nat) (s t : Core β), l1d_return_loads l s = .ok t → s.lsq_exact t := by
  intro l
  induction l with
  | nil =>
    intro s t ht
    simp only [l1d_return_loads, Except.ok.injEq] at ht
    rw [← ht]; exact lsq_exact_refl s
  | cons merged rest ih =>
    intro s t ht
    rw [l1d_return_loads] at ht
    cases he : s.LQ[merged]? with
    | none => rw [he] at ht; exact absurd ht (by simp)
    | some e =>
      rw [he] at ht
      simp only at ht
      cases ho : s.rob_at e.rob_index with
      | none => rw [ho] at ht; exact absurd ht (by simp)
      | some owner =>
        rw [ho] at ht
        simp only at ht
        by_cases hz : owner.num_mem_ops = 0
        · rw [if_pos hz] at ht; exact absurd ht (by simp)
        · rw [if_neg hz] at ht
          refine lsq_exact_trans _ _ _ ?_ (ih _ t ht)
          exact ⟨rfl, forall₂_set ooo_model_instr.load_side load_side_refl _ _ owner _
            (rob_at_getElem? s _ owner ho) rfl⟩

/-- The loop of `handle_memory_return` over the answers of the L1D is a step of the load
and store queues. -/
theorem l1d_return_data_exact {β : Type} :
    ∀ (to_read : Nat) (s t : Core β), l1d_return_data to_read s = .ok t → s.lsq_exact t := by
  intro n
  induction n with
  | zero =>
    intro s t ht
    simp only [l1d_return_data, Except.ok.injEq] at ht
    rw [← ht]; exact lsq_exact_refl s
  | succ n ih =>
    intro s t ht
    rw [l1d_return_data] at ht
    cases hp : s.L1D_PROCESSED with
    | nil =>
      rw [hp] at ht
      simp only [Except.ok.injEq] at ht
      rw [← ht]; exact lsq_exact_refl s
    | cons x processed =>
      rw [hp] at ht
      simp only at ht
      cases h1 : l1d_return_loads x.lq_index_depend_on_me s with
      | error a => rw [h1] at ht; exact absurd ht (by simp)
      | ok s1 =>
        rw [h1] at ht
        simp only at ht
        refine lsq_exact_trans _ _ _ (l1d_return_loads_exact _ s s1 h1)
          (lsq_exact_trans _ _ _ ?_ (ih _ t ht))
        exact ⟨rfl, forall₂_self _ load_side_refl _⟩

/-! ## The accounting of `STA`: the front end -/

/-- A step that changes nothing keeps the keys of the front end. -/
theorem sta_front_refl {β : Type} (s : Core β) : s.sta_front s :=
  ⟨rfl, rfl, rfl⟩

/-- Steps that keep the keys of the front end compose. -/
theorem sta_front_trans {β : Type} (s t u : Core β) (h1 : s.sta_front t)
    (h2 : t.sta_front u) : s.sta_front u :=
  ⟨h2.rob.trans h1.rob, h2.sta.trans h1.sta, h2.queue.trans h1.queue⟩

/-- A step that keeps the ROB, `STA`, and the two delay queues and rewrites `IFETCH_BUFFER`
without touching the keys of its instructions. -/
theorem sta_front_of_buffer {β : Type} (s t : Core β) (hrob : t.ROB = s.ROB)
    (hsta : t.STA = s.STA)
    (hdis : t.DISPATCH_BUFFER = s.DISPATCH_BUFFER) (hdec : t.DECODE_BUFFER = s.DECODE_BUFFER)
    (hbuf : t.IFETCH_BUFFER.map ooo_model_instr.sta_key
      = s.IFETCH_BUFFER.map ooo_model_instr.sta_key) : s.sta_front t := by
  refine ⟨hrob, hsta, ?_⟩
  unfold Core.queue
  simp only [List.map_append, hdis, hdec, hbuf]

/-- A step of the front end of that kind keeps the accounting of `STA`. -/
theorem sta_keeps_of_front {β : Type} (s t : Core β) (h : s.sta_front t) : s.sta_keeps t :=
  sta_keeps_of_queue s t h.rob h.sta h.queue

/-- A loop that rewrites entries of a buffer in place, without touching their keys, keeps those of the buffer. -/
theorem foldl_mark_sta_key (g : ooo_model_instr → ooo_model_instr)
    (hg : ∀ x, (g x).sta_key = x.sta_key) :
    ∀ (l : List Nat) (buf : List ooo_model_instr),
      (l.foldl (fun buffer i =>
          match buffer[i]? with
          | none => buffer
          | some x => buffer.set i (g x)) buf).map ooo_model_instr.sta_key
        = buf.map ooo_model_instr.sta_key := by
  intro l
  induction l with
  | nil => intro buf; rfl
  | cons i rest ih =>
    intro buf
    rw [List.foldl_cons, ih]
    cases hi : buf[i]? with
    | none => rfl
    | some x => exact map_set_same _ buf i x (g x) hi (hg x)

/-- `do_check_dib` keeps the keys of the front end. -/
theorem do_check_dib_sta {β : Type} (cfg : StageConfig) (s : Core β) (i : Nat) :
    s.sta_front (do_check_dib cfg s i) := by
  unfold do_check_dib
  cases hi : s.IFETCH_BUFFER[i]? with
  | none => exact sta_front_refl s
  | some instr =>
    simp only
    cases hd : dib_find cfg s.DIB instr.ip with
    | none => exact sta_front_refl s
    | some way =>
      simp only
      exact sta_front_of_buffer _ _ rfl rfl rfl rfl
        (map_set_same _ s.IFETCH_BUFFER i instr _ hi rfl)

/-- A loop of steps that keep the keys of the front end keeps them. -/
theorem foldl_sta_front {β α : Type} (f : Core β → α → Core β)
    (hf : ∀ (s : Core β) (a : α), s.sta_front (f s a)) :
    ∀ (l : List α) (s : Core β), s.sta_front (l.foldl f s) := by
  intro l
  induction l with
  | nil => intro s; exact sta_front_refl s
  | cons a rest ih =>
    intro s
    rw [List.foldl_cons]
    exact sta_front_trans _ _ _ (hf s a) (ih (f s a))

/-- `check_dib` keeps the keys of the front end. -/
theorem check_dib_sta {β : Type} (cfg : StageConfig) (s : Core β) :
    s.sta_front (check_dib cfg s) :=
  foldl_sta_front _ (do_check_dib_sta cfg) _ s

/-- `do_translate_fetch` keeps the keys of the front end. -/
theorem do_translate_fetch_sta {β : Type} (s : Core β) (b e : Nat) (rq_index : Int) :
    s.sta_front (do_translate_fetch s b e rq_index) := by
  unfold do_translate_fetch
  cases hb : s.IFETCH_BUFFER[b]? with
  | none => exact sta_front_refl s
  | some first =>
    simp only
    by_cases hr : rq_index ≠ -2
    · rw [if_pos hr]
      exact sta_front_of_buffer _ _ rfl rfl rfl rfl
        (foldl_mark_sta_key (fun x => { x with translated := INFLIGHT }) (fun _ => rfl) _ _)
    · rw [if_neg hr]
      exact sta_front_refl s

/-- `translate_fetch` keeps the keys of the front end. -/
theorem translate_fetch_sta {β : Type} (s : Core β) (rq_index : Int) :
    s.sta_front (translate_fetch s rq_index) := by
  unfold translate_fetch
  simp only
  split_ifs
  · exact sta_front_refl s
  · exact do_translate_fetch_sta s _ _ rq_index
  · exact sta_front_refl s
  · exact sta_front_refl s

/-- `do_fetch_instruction` keeps the keys of the front end. -/
theorem do_fetch_instruction_sta {β : Type} (s : Core β) (b e : Nat) (rq_index : Int) :
    s.sta_front (do_fetch_instruction s b e rq_index) := by
  unfold do_fetch_instruction
  cases hb : s.IFETCH_BUFFER[b]? with
  | none => exact sta_front_refl s
  | some first =>
    simp only
    by_cases hr : rq_index ≠ -2
    · rw [if_pos hr]
      exact sta_front_of_buffer _ _ rfl rfl rfl rfl
        (foldl_mark_sta_key (fun x => { x with fetched := INFLIGHT }) (fun _ => rfl) _ _)
    · rw [if_neg hr]
      exact sta_front_refl s

/-- The resume test of `fetch_instruction` keeps the keys of the front end. -/
theorem resume_fetch_sta {β : Type} (s : Core β) :
    s.sta_front { s with toO3_CPU := resume_fetch s.toO3_CPU } := by
  unfold resume_fetch
  split_ifs
  · exact ⟨rfl, rfl, rfl⟩
  · exact ⟨rfl, rfl, rfl⟩

/-- `fetch_instruction` keeps the keys of the front end. -/
theorem fetch_instruction_sta {β : Type} (s : Core β) (rq_index : Int) :
    s.sta_front (fetch_instruction s rq_index) := by
  unfold fetch_instruction
  simp only
  have h := resume_fetch_sta s
  split_ifs
  · exact h
  · exact sta_front_trans _ _ _ h (do_fetch_instruction_sta _ _ _ rq_index)
  · exact h
  · exact h

/-- The inner loop of `handle_memory_return` over the dependents of an answer of the ITLB
keeps the keys of the instructions of the buffer. -/
theorem itlb_return_loop_sta_key (front : Nat) (itlb_entry : PACKET) :
    ∀ (l : List Nat) (buffer : List ooo_model_instr) (bw : Nat),
      (itlb_return_loop front itlb_entry l buffer bw).1.map ooo_model_instr.sta_key
        = buffer.map ooo_model_instr.sta_key := by
  intro l
  induction l with
  | nil => intro buffer bw; rfl
  | cons it rest ih =>
    intro buffer bw
    rw [itlb_return_loop]
    by_cases hbw : bw = 0
    · rw [if_pos hbw]
    · rw [if_neg hbw]
      cases hx : (if front ≤ it then buffer[it - front]? else none) with
      | none => exact ih buffer bw
      | some x =>
        simp only
        have hget : buffer[it - front]? = some x := by
          by_cases hle : front ≤ it
          · rw [if_pos hle] at hx; exact hx
          · rw [if_neg hle] at hx; exact absurd hx (by simp)
        split_ifs
        · rw [ih]
          exact map_set_same _ buffer _ x _ hget rfl
        · exact ih buffer bw

/-- The loop of `handle_memory_return` over the answers of the ITLB keeps the keys of the front
end. -/
theorem itlb_return_sta {β : Type} :
    ∀ (to_read bw : Nat) (s : Core β), s.sta_front (itlb_return to_read bw s).1 := by
  intro to_read
  induction to_read with
  | zero => intro bw s; exact sta_front_refl s
  | succ n ih =>
    intro bw s
    rw [itlb_return]
    by_cases hbw : bw = 0
    · rw [if_pos hbw]; exact sta_front_refl s
    · rw [if_neg hbw]
      have hcases : s.ITLB_PROCESSED = [] ∨ ∃ x rest, s.ITLB_PROCESSED = x :: rest := by
        cases s.ITLB_PROCESSED with
        | nil => exact Or.inl rfl
        | cons x rest => exact Or.inr ⟨x, rest, rfl⟩
      rcases hcases with hp | ⟨x, rest, hp⟩
      · rw [hp]; exact sta_front_refl s
      · rw [hp]
        simp only
        refine sta_front_trans _ _ _ ?_ (ih _ _)
        exact sta_front_of_buffer _ _ rfl rfl rfl rfl
          (itlb_return_loop_sta_key _ _ _ _ _)

/-- The inner loop of `handle_memory_return` over the dependents of an answer of the L1I
keeps the keys of the instructions of the buffer. -/
theorem l1i_return_loop_sta_key (front : Nat) (l1i_entry : PACKET) :
    ∀ (l : List Nat) (buffer : List ooo_model_instr) (bw : Nat),
      (l1i_return_loop front l1i_entry l buffer bw).1.map ooo_model_instr.sta_key
        = buffer.map ooo_model_instr.sta_key := by
  intro l
  induction l with
  | nil => intro buffer bw; rfl
  | cons it rest ih =>
    intro buffer bw
    rw [l1i_return_loop]
    by_cases hbw : bw = 0
    · rw [if_pos hbw]
    · rw [if_neg hbw]
      cases hx : (if front ≤ it then buffer[it - front]? else none) with
      | none => exact ih buffer bw
      | some x =>
        simp only
        have hget : buffer[it - front]? = some x := by
          by_cases hle : front ≤ it
          · rw [if_pos hle] at hx; exact hx
          · rw [if_neg hle] at hx; exact absurd hx (by simp)
        split_ifs
        · rw [ih]
          exact map_set_same _ buffer _ x _ hget rfl
        · exact ih buffer bw

/-- The loop of `handle_memory_return` over the answers of the L1I keeps the keys of the front
end. -/
theorem l1i_return_sta {β : Type} :
    ∀ (to_read bw : Nat) (s : Core β), s.sta_front (l1i_return to_read bw s).1 := by
  intro to_read
  induction to_read with
  | zero => intro bw s; exact sta_front_refl s
  | succ n ih =>
    intro bw s
    rw [l1i_return]
    by_cases hbw : bw = 0
    · rw [if_pos hbw]; exact sta_front_refl s
    · rw [if_neg hbw]
      have hcases : s.L1I_PROCESSED = [] ∨ ∃ x rest, s.L1I_PROCESSED = x :: rest := by
        cases s.L1I_PROCESSED with
        | nil => exact Or.inl rfl
        | cons x rest => exact Or.inr ⟨x, rest, rfl⟩
      rcases hcases with hp | ⟨x, rest, hp⟩
      · rw [hp]; exact sta_front_refl s
      · rw [hp]
        simp only
        refine sta_front_trans _ _ _ ?_ (ih _ _)
        exact sta_front_of_buffer _ _ rfl rfl rfl rfl
          (l1i_return_loop_sta_key _ _ _ _ _)

/-- The instruction side of `handle_memory_return` keeps the keys of the front end. -/
theorem handle_memory_return_instr_sta {β : Type} (cfg : StageConfig) (s : Core β) :
    s.sta_front (handle_memory_return_instr cfg s) :=
  sta_front_trans _ _ _ (itlb_return_sta _ _ s) (l1i_return_sta _ _ _)

/-- `promote_to_decode` keeps the keys of the front end. -/
theorem promote_to_decode_sta {β : Type} (cfg : StageConfig) (wc : Bool) (s : Core β) :
    s.sta_front (promote_to_decode cfg wc s) := by
  unfold promote_to_decode
  obtain ⟨k, h1, h2, h3⟩ := promote_loop_moves cfg wc cfg.FETCH_WIDTH s
  generalize promote_loop cfg wc cfg.FETCH_WIDTH s = t at h1 h2 h3
  have hq : t.queue = s.queue := by
    have hd : t.DISPATCH_BUFFER = s.DISPATCH_BUFFER := by rw [h3]
    unfold Core.queue
    rw [h1, h2, hd, List.append_assoc, List.append_assoc, List.append_assoc,
      List.take_append_drop]
  refine ⟨?_, ?_, by rw [hq]⟩ <;> rw [h3]

/-- An iteration of the loop of `decode_instruction` moves the front of `DECODE_BUFFER` to
the back of `DISPATCH_BUFFER`; the key of the instruction is kept. -/
theorem decode_step_sta {β : Type} (cfg : StageConfig) (wc : Bool) (s s1 : Core β)
    (h : decode_step cfg wc s = some (.ok s1)) :
    ∃ front rest x, s.DECODE_BUFFER = front :: rest
      ∧ x.item.sta_key = front.item.sta_key
      ∧ s1.DISPATCH_BUFFER = s.DISPATCH_BUFFER ++ [x]
      ∧ s1.DECODE_BUFFER = rest
      ∧ s1 = { s with DIB := s1.DIB, fetch_resume_cycle := s1.fetch_resume_cycle,
                      DISPATCH_BUFFER := s1.DISPATCH_BUFFER,
                      DECODE_BUFFER := s1.DECODE_BUFFER } := by
  unfold decode_step at h
  by_cases hc : has_ready s.DECODE_BUFFER = true
      ∧ s.DISPATCH_BUFFER.length ≠ cfg.DISPATCH_SIZE
  swap
  · rw [if_neg hc] at h
    exact absurd h (by simp)
  rw [if_pos hc] at h
  have hcases : s.DECODE_BUFFER = [] ∨ ∃ x rest, s.DECODE_BUFFER = x :: rest := by
    cases s.DECODE_BUFFER with
    | nil => exact Or.inl rfl
    | cons x rest => exact Or.inr ⟨x, rest, rfl⟩
  rcases hcases with hb | ⟨front, rest, hb⟩
  · rw [hb] at h
    exact absurd h (by simp)
  · rw [hb] at h
    simp only at h
    cases hd : do_dib_update cfg s.DIB front.item.ip with
    | none =>
      rw [hd] at h
      exact absurd h (by simp)
    | some dib =>
      rw [hd] at h
      simp only [Option.some.injEq, Except.ok.injEq] at h
      subst h
      refine ⟨front, rest, _, hb, ?_, rfl, rfl, rfl⟩
      simp only
      split_ifs <;> rfl

/-- The loop of `decode_instruction` moves entries from the front of `DECODE_BUFFER` to the
back of `DISPATCH_BUFFER`; the keys of the instructions are kept. -/
theorem decode_loop_sta {β : Type} (cfg : StageConfig) (wc : Bool) :
    ∀ (bw : Nat) (s t : Core β), decode_loop cfg wc bw s = .ok t →
      ∃ k, (t.DISPATCH_BUFFER.map (fun e => e.item)).map ooo_model_instr.sta_key
            = (s.DISPATCH_BUFFER.map (fun e => e.item)).map ooo_model_instr.sta_key
              ++ ((s.DECODE_BUFFER.take k).map (fun e => e.item)).map ooo_model_instr.sta_key
        ∧ t.DECODE_BUFFER = s.DECODE_BUFFER.drop k
        ∧ t = { s with DIB := t.DIB, fetch_resume_cycle := t.fetch_resume_cycle,
                       DISPATCH_BUFFER := t.DISPATCH_BUFFER,
                       DECODE_BUFFER := t.DECODE_BUFFER } := by
  intro bw
  induction bw with
  | zero =>
    intro s t ht
    simp only [decode_loop, Except.ok.injEq] at ht
    subst ht
    exact ⟨0, by simp, by simp, rfl⟩
  | succ bw ih =>
    intro s t ht
    rw [decode_loop] at ht
    cases hs : decode_step cfg wc s with
    | none =>
      rw [hs] at ht
      simp only [Except.ok.injEq] at ht
      subst ht
      exact ⟨0, by simp, by simp, rfl⟩
    | some r =>
      rw [hs] at ht
      cases r with
      | error a => exact absurd ht (by simp)
      | ok s1 =>
        simp only at ht
        obtain ⟨front, rest, x, hb, hx, hdis, hrest, hframe⟩ :=
          decode_step_sta cfg wc s s1 hs
        obtain ⟨k, h1, h2, h3⟩ := ih s1 t ht
        refine ⟨k + 1, ?_, ?_, ?_⟩
        · rw [h1, hdis, hrest, hb]
          simp [List.append_assoc, hx]
        · rw [h2, hrest, hb]
          simp
        · rw [h3, hframe]

/-- `decode_instruction` keeps the keys of the front end. -/
theorem decode_instruction_sta {β : Type} (cfg : StageConfig) (wc : Bool) (s t : Core β)
    (ht : decode_instruction cfg wc s = .ok t) : s.sta_front t := by
  unfold decode_instruction at ht
  cases hl : decode_loop cfg wc cfg.DECODE_WIDTH s with
  | error a => rw [hl] at ht; exact absurd ht (by simp)
  | ok s1 =>
    rw [hl] at ht
    simp only [Except.ok.injEq] at ht
    subst ht
    obtain ⟨k, h1, h2, h3⟩ := decode_loop_sta cfg wc _ s s1 hl
    have hif : s1.IFETCH_BUFFER = s.IFETCH_BUFFER := by rw [h3]
    refine ⟨?_, ?_, ?_⟩
    · show s1.ROB = s.ROB
      rw [h3]
    · show s1.STA = s.STA
      rw [h3]
    · show (s1.DISPATCH_BUFFER.map (fun e => e.item)
          ++ (delay_operate s1.DECODE_BUFFER).map (fun e => e.item)
          ++ s1.IFETCH_BUFFER).map ooo_model_instr.sta_key = _
      unfold Core.queue
      rw [delay_operate_items, hif, h2]
      simp only [List.map_append]
      rw [h1, List.append_assoc
        ((s.DISPATCH_BUFFER.map (fun e => e.item)).map ooo_model_instr.sta_key)]
      have e : ((s.DECODE_BUFFER.take k).map (fun e => e.item)).map ooo_model_instr.sta_key
          ++ ((s.DECODE_BUFFER.drop k).map (fun e => e.item)).map ooo_model_instr.sta_key
          = (s.DECODE_BUFFER.map (fun e => e.item)).map ooo_model_instr.sta_key := by
        rw [← List.map_append, ← List.map_append, List.take_append_drop]
      rw [e]

/-! ## The accounting of `STA`: memory scheduling -/

/-- A list with an entry at the index `i` is the entries before it, the entry and the entries
after it; writing the index replaces the entry. -/
theorem split_at_getElem? {α : Type} :
    ∀ (l : List α) (i : Nat) (e : α), l[i]? = some e →
      l = l.take i ++ e :: l.drop (i + 1)
        ∧ ∀ e2, l.set i e2 = l.take i ++ e2 :: l.drop (i + 1) := by
  intro l
  induction l with
  | nil => intro i e h; simp at h
  | cons a l ih =>
    intro i e h
    cases i with
    | zero =>
      simp only [List.getElem?_cons_zero, Option.some.injEq] at h
      subst h
      exact ⟨rfl, fun _ => rfl⟩
    | succ i =>
      simp only [List.getElem?_cons_succ] at h
      obtain ⟨h1, h2⟩ := ih i e h
      refine ⟨?_, ?_⟩
      · simp only [List.take_succ_cons, List.drop_succ_cons, List.cons_append]
        rw [← h1]
      · intro e2
        simp only [List.set_cons_succ, List.take_succ_cons, List.drop_succ_cons,
          List.cons_append]
        rw [h2 e2]

/-- Marking an operand that was not `added` takes one from the count of the operands not
added. -/
theorem pending_set_added :
    ∀ (l : List lsq_info) (k : Nat) (d : lsq_info) (q : Option Nat), l[k]? = some d →
      d.added = false →
      (l.set k { d with q_it := q, added := true }).countP (fun x => !x.added) + 1
        = l.countP (fun x => !x.added) := by
  intro l
  induction l with
  | nil => intro k d q h; simp at h
  | cons a l ih =>
    intro k d q h hd
    cases k with
    | zero =>
      simp only [List.getElem?_cons_zero, Option.some.injEq] at h
      subst h
      simp only [List.set_cons_zero, List.countP_cons, hd, Bool.not_true, Bool.not_false,
        if_true, Bool.false_eq_true, if_false, Nat.add_zero]
    | succ k =>
      simp only [List.getElem?_cons_succ] at h
      simp only [List.set_cons_succ, List.countP_cons]
      have := ih k d q h hd
      omega

/-- The front of `STA` is popped for the instruction that it names: when the ids are
increasing, `STA` holds the ids owed and its front is the id of the instruction `e`, the
instructions before `e` owe nothing, and the rest of `STA` is what is owed once `e` owes one
id less. -/
theorem sta_owed_pop (pre post : List ooo_model_instr) (e e2 : ooo_model_instr) (x : Nat)
    (rest : List Nat)
    (hid : ((pre ++ e :: post).map (fun a => a.instr_id)).Pairwise (fun a b => a < b))
    (hsta : x :: rest = sta_owed (pre ++ e :: post)) (hx : x = e.instr_id)
    (hid2 : e2.instr_id = e.instr_id) (hp : e2.pending + 1 = e.pending) :
    rest = sta_owed (pre ++ e2 :: post) := by
  have hpre : sta_owed pre = [] := by
    cases hq : sta_owed pre with
    | nil => rfl
    | cons y ys =>
      exfalso
      rw [sta_owed_append, hq] at hsta
      simp only [List.cons_append, List.cons.injEq] at hsta
      have hy : y ∈ sta_owed pre := by rw [hq]; exact List.mem_cons_self _ _
      obtain ⟨a, ha, hay, -⟩ := mem_sta_owed pre y hy
      rw [List.map_append, List.pairwise_append] at hid
      have := hid.2.2 a.instr_id (List.mem_map_of_mem _ ha) e.instr_id
        (by simp)
      omega
  rw [sta_owed_append, hpre] at hsta
  rw [sta_owed_append, hpre]
  simp only [List.nil_append, sta_owed] at hsta ⊢
  rw [← hp, List.replicate_succ, List.cons_append] at hsta
  rw [hid2]
  exact (List.cons.inj hsta).2

/-- An entry of a list that has had one index written is the entry written or an entry of the
list. -/
theorem mem_set_cases {α : Type} (l : List α) (i : Nat) (e a : α) (h : a ∈ l.set i e) :
    a = e ∨ a ∈ l := by
  rcases List.mem_or_eq_of_mem_set h with h1 | h1
  · exact Or.inr h1
  · exact Or.inl h1

/-- The body of the loop of `do_memory_scheduling` over the loads keeps the accounting of
`STA`: it writes the load queue and, in ROB entries, the fields of the loads. -/
theorem schedule_load_sta {β : Type} (cfg : StageConfig) (s t : Core β) (i k : Nat)
    (ht : schedule_load cfg s i k = .ok t) : s.sta_keeps t := by
  unfold schedule_load at ht
  cases hi : s.ROB[i]? with
  | none => rw [hi] at ht; exact absurd ht (by simp)
  | some rob_it =>
    rw [hi] at ht
    simp only at ht
    cases hk : rob_it.source_memory[k]? with
    | none => rw [hk] at ht; exact absurd ht (by simp)
    | some smem_info =>
      rw [hk] at ht
      simp only at ht
      by_cases h1 : (!smem_info.added && !smem_info.will_forward) = true
      · rw [if_pos h1] at ht
        by_cases h2 : s.SQ.any (sq_will_forward smem_info.address) = true
        · rw [if_pos h2] at ht
          by_cases h3 : rob_it.num_mem_ops = 0
          · rw [if_pos h3] at ht
            exact absurd ht (by simp)
          · rw [if_neg h3] at ht
            simp only [Except.ok.injEq] at ht
            subst ht
            exact sta_keeps_of_rob _ _ rfl rfl
              (sta_rob_set _ _ _ _ hi ⟨rfl, rfl, rfl, fun h => Or.inl h⟩)
        · rw [if_neg h2] at ht
          cases hf : find_prior s.ROB (instr_mem_will_produce smem_info.address) i with
          | some j =>
            rw [hf] at ht
            simp only at ht
            obtain ⟨hji, prior, hj⟩ := find_prior_lt _ _ i j hf
            rw [hj] at ht
            simp only [Except.ok.injEq] at ht
            subst ht
            refine sta_keeps_of_rob _ _ rfl rfl ?_
            refine sta_rob_comp _
              (s.ROB.set j { prior with memory_instrs_depend_on_me :=
                prior.memory_instrs_depend_on_me ++ [s.ROB_front + i] }) _
              (sta_rob_set _ j prior _ hj ⟨rfl, rfl, rfl, fun h => Or.inl h⟩)
              (sta_rob_set _ i rob_it _ ?_ ⟨rfl, rfl, rfl, fun h => Or.inl h⟩)
            rw [List.getElem?_set_ne (by omega)]
            exact hi
          | none =>
            rw [hf] at ht
            simp only at ht
            cases hl : find_invalid s.LQ with
            | some lq_it =>
              rw [hl] at ht
              simp only [Except.ok.injEq] at ht
              subst ht
              exact sta_keeps_of_rob _ _ rfl rfl
                (sta_rob_set _ _ _ _ hi ⟨rfl, rfl, rfl, fun h => Or.inl h⟩)
            | none =>
              rw [hl] at ht
              simp only [Except.ok.injEq] at ht
              subst ht
              exact sta_keeps_refl _
      · rw [if_neg h1] at ht
        simp only [Except.ok.injEq] at ht
        subst ht
        exact sta_keeps_refl _

/-- The loop of `do_memory_scheduling` over the loads keeps the accounting of `STA`. -/
theorem schedule_loads_sta {β : Type} (cfg : StageConfig) (i : Nat) :
    ∀ (n k : Nat) (s t : Core β), schedule_loads cfg i n k s = .ok t → s.sta_keeps t := by
  intro n
  induction n with
  | zero =>
    intro k s t ht
    simp only [schedule_loads, Except.ok.injEq] at ht
    subst ht
    exact sta_keeps_refl _
  | succ n ih =>
    intro k s t ht
    rw [schedule_loads] at ht
    cases h1 : schedule_load cfg s i k with
    | error a => rw [h1] at ht; exact absurd ht (by simp)
    | ok s1 =>
      rw [h1] at ht
      simp only at ht
      exact sta_keeps_trans s s1 t (schedule_load_sta cfg s s1 i k h1) (ih _ s1 t ht)

/-- In a core whose `STA` is accounted for, an operand that is not `added` of a ROB entry
has its id in `STA`: `STA` is not empty. -/
theorem sta_nonempty {β : Type} (s : Core β) (h : s.sta_inv) (i k : Nat)
    (rob_it : ooo_model_instr) (dmem : lsq_info) (hi : s.ROB[i]? = some rob_it)
    (hk : rob_it.destination_memory[k]? = some dmem) (hd : dmem.added = false) :
    rob_it.instr_id ∈ s.STA := by
  have hmem : rob_it ∈ s.in_flight := List.mem_append_left _ (List.getElem?_mem hi)
  have hpos : 0 < rob_it.pending := by
    unfold ooo_model_instr.pending
    apply List.countP_pos_iff.mpr
    exact ⟨dmem, List.getElem?_mem hk, by simp [hd]⟩
  have hc := count_sta_owed s.in_flight h.ids rob_it hmem
  rw [h.sta]
  exact List.count_pos_iff.mp (by omega)

/-- The accounting of `STA` survives `add_store_queue` called as `do_memory_scheduling` calls
it: for an operand that is not `added` of the ROB entry whose id is at the front of
`STA`. -/
theorem add_store_queue_inv {β : Type} (cfg : StageConfig) (s t : Core β)
    (i data_index : Nat) (rob_it : ooo_model_instr) (dmem : lsq_info) (x : Nat)
    (rest : List Nat) (h : s.sta_inv) (hi : s.ROB[i]? = some rob_it)
    (hk : rob_it.destination_memory[data_index]? = some dmem) (hd : dmem.added = false)
    (hsta : s.STA = x :: rest) (hx : x = rob_it.instr_id)
    (ht : add_store_queue cfg s i data_index = .ok t) : t.sta_inv := by
  unfold add_store_queue at ht
  rw [hi] at ht
  cases hsq : find_invalid s.SQ with
  | none => rw [hsq] at ht; exact absurd ht (by simp)
  | some sq_it =>
    rw [hsq] at ht
    simp only at ht
    cases hslot : s.SQ[sq_it]? with
    | none => rw [hslot] at ht; exact absurd ht (by simp)
    | some slot =>
      rw [hslot, hk] at ht
      simp only at ht
      by_cases hv : slot.virtual_address = 0
      swap
      · rw [if_neg hv] at ht; exact absurd ht (by simp)
      rw [if_pos hv] at ht
      simp only [Except.ok.injEq] at ht
      obtain ⟨e2, he2⟩ : ∃ e2 : ooo_model_instr, e2 = { rob_it with destination_memory := (rob_it.destination_memory.set data_index { dmem with q_it := some sq_it, added := true }) } := ⟨_, rfl⟩
      rw [← he2] at ht
      have hid2 : e2.instr_id = rob_it.instr_id := by rw [he2]
      have hm2 : e2.is_memory = rob_it.is_memory := by rw [he2]
      have hs2 : e2.scheduled = rob_it.scheduled := by rw [he2]
      have hp : e2.pending + 1 = rob_it.pending := by
        rw [he2]
        exact pending_set_added _ _ dmem (some sq_it) hk hd
      obtain ⟨hsplit, hset⟩ := split_at_getElem? s.ROB i rob_it hi
      have hin : s.in_flight = s.ROB.take i ++ rob_it :: (s.ROB.drop (i + 1) ++ s.queue) := by
        unfold Core.in_flight
        rw [← List.cons_append, ← List.append_assoc, ← hsplit]
      have hrobt : t.ROB = s.ROB.set i e2 := by rw [← ht]
      have hqt : t.queue = s.queue := by rw [← ht]; rfl
      have hstat : t.STA = s.STA.tail := by rw [← ht]
      have hint : t.in_flight = s.ROB.take i ++ e2 :: (s.ROB.drop (i + 1) ++ s.queue) := by
        unfold Core.in_flight
        rw [hrobt, hqt, hset e2, List.append_assoc, List.cons_append]
      have hids : t.in_flight.map (fun a => a.instr_id)
          = s.in_flight.map (fun a => a.instr_id) := by
        rw [hint, hin]
        simp only [List.map_append, List.map_cons, hid2]
      have hmemt : ∀ a, a ∈ t.in_flight → a = e2 ∨ a ∈ s.in_flight := by
        intro a ha
        rw [hint] at ha
        rw [hin]
        simp only [List.mem_append, List.mem_cons] at ha ⊢
        tauto
      have hrin : rob_it ∈ s.in_flight := List.mem_append_left _ (List.getElem?_mem hi)
      constructor
      · rw [hids]; exact h.ids
      · rw [hstat, hsta, hint]
        have hids0 := h.ids
        rw [hin] at hids0
        have hsta0 := h.sta
        rw [hsta, hin] at hsta0
        exact sta_owed_pop _ _ rob_it e2 x rest hids0 hsta0 hx hid2 hp
      · intro a ha hc
        rcases hmemt a ha with hae | hae
        · subst hae
          have := h.done rob_it hrin (hs2 ▸ hc)
          omega
        · exact h.done a hae hc
      · intro a ha hm
        rcases hmemt a ha with hae | hae
        · subst hae
          have := h.plain rob_it hrin (hm2 ▸ hm)
          rw [this] at hk
          exact absurd hk (by simp)
        · exact h.plain a hae hm

/-- The body of the loop of `do_memory_scheduling` over the stores keeps the accounting of
`STA`. -/
theorem schedule_store_inv {β : Type} (cfg : StageConfig) (s t : Core β) (i data_index : Nat)
    (w : List Nat) (h : s.sta_inv) (ht : schedule_store cfg s i data_index = .ok (t, w)) :
    t.sta_inv := by
  unfold schedule_store at ht
  cases hi : s.ROB[i]? with
  | none => rw [hi] at ht; exact absurd ht (by simp)
  | some rob_it =>
    rw [hi] at ht
    simp only at ht
    cases hk : rob_it.destination_memory[data_index]? with
    | none => rw [hk] at ht; exact absurd ht (by simp)
    | some dmem =>
      rw [hk] at ht
      simp only at ht
      by_cases hadd : (!dmem.added) = true
      · rw [if_pos hadd] at ht
        have hd : dmem.added = false := by simpa using hadd
        cases hsq : find_invalid s.SQ with
        | none =>
          rw [hsq] at ht
          simp only [Except.ok.injEq, Prod.mk.injEq] at ht
          rw [← ht.1]; exact h
        | some sq_it =>
          rw [hsq] at ht
          simp only at ht
          cases hsta : s.STA with
          | nil => rw [hsta] at ht; exact absurd ht (by simp)
          | cons x rest =>
            rw [hsta] at ht
            simp only at ht
            by_cases hx : x = rob_it.instr_id
            · rw [if_pos hx] at ht
              cases ha : add_store_queue cfg s i data_index with
              | error a => rw [ha] at ht; exact absurd ht (by simp)
              | ok s1 =>
                rw [ha] at ht
                simp only at ht
                have hinv := add_store_queue_inv cfg s s1 i data_index rob_it dmem x rest h hi
                  hk hd hsta hx ha
                cases hs : s1.SQ[sq_it]? with
                | none => rw [hs] at ht; exact absurd ht (by simp)
                | some slot =>
                  rw [hs] at ht
                  simp only [Except.ok.injEq, Prod.mk.injEq] at ht
                  rw [← ht.1]; exact hinv
            · rw [if_neg hx] at ht
              simp only [Except.ok.injEq, Prod.mk.injEq] at ht
              rw [← ht.1]; exact h
      · rw [if_neg hadd] at ht
        simp only [Except.ok.injEq, Prod.mk.injEq] at ht
        rw [← ht.1]; exact h

/-- The loop of `do_memory_scheduling` over the stores keeps the accounting of `STA`. -/
theorem schedule_stores_inv {β : Type} (cfg : StageConfig) (i : Nat) :
    ∀ (n data_index : Nat) (s t : Core β) (w : List Nat), s.sta_inv →
      schedule_stores cfg i n data_index s = .ok (t, w) → t.sta_inv := by
  intro n
  induction n with
  | zero =>
    intro k s t w h ht
    simp only [schedule_stores, Except.ok.injEq, Prod.mk.injEq] at ht
    rw [← ht.1]; exact h
  | succ n ih =>
    intro k s t w h ht
    rw [schedule_stores] at ht
    cases h1 : schedule_store cfg s i k with
    | error a => rw [h1] at ht; exact absurd ht (by simp)
    | ok r1 =>
      obtain ⟨s1, w1⟩ := r1
      rw [h1] at ht
      simp only at ht
      cases h2 : schedule_stores cfg i n (k + 1) s1 with
      | error a => rw [h2] at ht; exact absurd ht (by simp)
      | ok r2 =>
        obtain ⟨s2, w2⟩ := r2
        rw [h2] at ht
        simp only [Except.ok.injEq, Prod.mk.injEq] at ht
        rw [← ht.1]
        exact ih (k + 1) s1 s2 w2 (schedule_store_inv cfg s s1 i k w1 h h1) h2

/-- `do_memory_scheduling` keeps the accounting of `STA`: the entry becomes `COMPLETED`
only when every destination operand of it is `added`. -/
theorem do_memory_scheduling_inv {β : Type} (cfg : StageConfig) (s t : Core β) (i : Nat)
    (w : List Nat) (h : s.sta_inv) (ht : do_memory_scheduling cfg s i = .ok (t, w)) :
    t.sta_inv := by
  unfold do_memory_scheduling at ht
  cases hi : s.ROB[i]? with
  | none => rw [hi] at ht; exact absurd ht (by simp)
  | some rob_it =>
    rw [hi] at ht
    simp only at ht
    cases h1 : schedule_loads cfg i rob_it.source_memory.length 0 s with
    | error a => rw [h1] at ht; exact absurd ht (by simp)
    | ok s1 =>
      rw [h1] at ht
      simp only at ht
      have hinv1 := sta_inv_of_keeps s s1 h (schedule_loads_sta cfg i _ _ s s1 h1)
      cases h2 : schedule_stores cfg i rob_it.destination_memory.length 0 s1 with
      | error a => rw [h2] at ht; exact absurd ht (by simp)
      | ok r2 =>
        obtain ⟨s2, written⟩ := r2
        rw [h2] at ht
        simp only at ht
        have hinv2 := schedule_stores_inv cfg i _ _ s1 s2 written hinv1 h2
        cases he : s2.ROB[i]? with
        | none => rw [he] at ht; exact absurd ht (by simp)
        | some e =>
          rw [he] at ht
          simp only at ht
          by_cases hall : e.source_memory.all (fun x => x.added) = true
              ∧ e.destination_memory.all (fun x => x.added) = true
          · rw [if_pos hall] at ht
            simp only [Except.ok.injEq, Prod.mk.injEq] at ht
            rw [← ht.1]
            have hpe : e.pending = 0 := by
              unfold ooo_model_instr.pending
              apply List.countP_eq_zero.mpr
              intro d hdm
              have := List.all_eq_true.mp hall.2 d hdm
              simp [this]
            obtain ⟨e2, he2⟩ : ∃ e2 : ooo_model_instr, e2 = { e with scheduled := COMPLETED, executed := if e.executed = 0 then INFLIGHT else e.executed } := ⟨_, rfl⟩
            rw [← he2]
            have hpe2 : e2.pending = 0 := by rw [he2]; exact hpe
            obtain ⟨hsplit, hset⟩ := split_at_getElem? s2.ROB i e he
            have hin : s2.in_flight
                = s2.ROB.take i ++ e :: (s2.ROB.drop (i + 1) ++ s2.queue) := by
              unfold Core.in_flight
              rw [← List.cons_append, ← List.append_assoc, ← hsplit]
            have hint : ({ s2 with ROB := s2.ROB.set i e2 } : Core β).in_flight
                = s2.ROB.take i ++ e2 :: (s2.ROB.drop (i + 1) ++ s2.queue) := by
              show s2.ROB.set i e2 ++ s2.queue = _
              rw [hset e2, List.append_assoc, List.cons_append]
            have hmemt : ∀ a, a ∈ ({ s2 with ROB := s2.ROB.set i e2 } : Core β).in_flight →
                a = e2 ∨ a ∈ s2.in_flight := by
              intro a ha
              rw [hint] at ha
              rw [hin]
              simp only [List.mem_append, List.mem_cons] at ha ⊢
              tauto
            have hein : e ∈ s2.in_flight := List.mem_append_left _ (List.getElem?_mem he)
            constructor
            · rw [hint]
              have := hinv2.ids
              rw [hin] at this
              have e1 : e2.instr_id = e.instr_id := by rw [he2]
              simp only [List.map_append, List.map_cons, e1] at this ⊢
              exact this
            · show s2.STA = _
              rw [hint, hinv2.sta, hin]
              have e1 : e2.instr_id = e.instr_id := by rw [he2]
              simp only [sta_owed_append, sta_owed, hpe, hpe2, e1]
            · intro a ha hc
              rcases hmemt a ha with hae | hae
              · rw [hae]; exact hpe2
              · exact hinv2.done a hae hc
            · intro a ha hm
              rcases hmemt a ha with hae | hae
              · rw [hae] at hm ⊢
                have := hinv2.plain e hein (by rw [he2] at hm; exact hm)
                rw [he2]; exact this
              · exact hinv2.plain a hae hm
          · rw [if_neg hall] at ht
            simp only [Except.ok.injEq, Prod.mk.injEq] at ht
            rw [← ht.1]; exact hinv2

/-- The loop of `schedule_memory_instruction` keeps the accounting of `STA`. -/
theorem schedule_memory_loop_inv {β : Type} (cfg : StageConfig) :
    ∀ (n i bw : Nat) (s t : Core β) (w : List Nat), s.sta_inv →
      schedule_memory_loop cfg n i bw s = .ok (t, w) → t.sta_inv := by
  intro n
  induction n with
  | zero =>
    intro i bw s t w h ht
    simp only [schedule_memory_loop, Except.ok.injEq, Prod.mk.injEq] at ht
    rw [← ht.1]; exact h
  | succ n ih =>
    intro i bw s t w h ht
    rw [schedule_memory_loop] at ht
    by_cases hbw : bw = 0
    · rw [if_pos hbw] at ht
      simp only [Except.ok.injEq, Prod.mk.injEq] at ht
      rw [← ht.1]; exact h
    · rw [if_neg hbw] at ht
      cases hi : s.ROB[i]? with
      | none => rw [hi] at ht; exact absurd ht (by simp)
      | some rob_it =>
        rw [hi] at ht
        simp only at ht
        have hstep : ∀ (r : Core β × List Nat),
            (if rob_it.is_memory ≠ 0 ∧ rob_it.num_reg_dependent = 0
                ∧ rob_it.scheduled = INFLIGHT then
              do_memory_scheduling cfg s i
            else .ok (s, [])) = .ok r → r.1.sta_inv := by
          intro r hr
          split_ifs at hr
          · exact do_memory_scheduling_inv cfg s r.1 i r.2 h hr
          · simp only [Except.ok.injEq] at hr
            rw [← hr]; exact h
        cases hr : (if rob_it.is_memory ≠ 0 ∧ rob_it.num_reg_dependent = 0
              ∧ rob_it.scheduled = INFLIGHT then
            do_memory_scheduling cfg s i
          else (.ok (s, []) : Except Abort (Core β × List Nat))) with
        | error a => rw [hr] at ht; exact absurd ht (by simp)
        | ok r =>
          rw [hr] at ht
          obtain ⟨s1, w1⟩ := r
          simp only at ht
          have hinv1 := hstep (s1, w1) hr
          cases he : s1.ROB[i]? with
          | none => rw [he] at ht; exact absurd ht (by simp)
          | some e =>
            rw [he] at ht
            simp only at ht
            cases h2 : schedule_memory_loop cfg n (i + 1)
                (if e.executed = 0 then bw - 1 else bw) s1 with
            | error a => rw [h2] at ht; exact absurd ht (by simp)
            | ok r2 =>
              obtain ⟨s2, w2⟩ := r2
              rw [h2] at ht
              simp only [Except.ok.injEq, Prod.mk.injEq] at ht
              rw [← ht.1]
              exact ih _ _ s1 s2 w2 hinv1 h2

/-! ## The accounting of `STA`: retirement, dispatch and the trace -/

/-- Instructions that owe nothing add nothing to the ids owed. -/
theorem sta_owed_nil (l : List ooo_model_instr) (h : ∀ a, a ∈ l → a.pending = 0) :
    sta_owed l = [] := by
  induction l with
  | nil => rfl
  | cons a l ih =>
    simp only [sta_owed, h a (List.mem_cons_self _ _), List.replicate_zero, List.nil_append]
    exact ih (fun b hb => h b (List.mem_cons_of_mem _ hb))

/-- The loop of `retire_rob` over the destination operands keeps their `added` flags. -/
theorem retire_stores_added (cpu : Nat) :
    ∀ (dmems : List lsq_info) (sq : List LSQ_ENTRY) (room : Nat)
      (r : List lsq_info × List LSQ_ENTRY × Nat × Bool × List PACKET),
      retire_stores cpu dmems sq room = .ok r →
      r.1.map (fun d => d.added) = dmems.map (fun d => d.added) := by
  intro dmems
  induction dmems with
  | nil =>
    intro sq room r h
    simp only [retire_stores, Except.ok.injEq] at h
    rw [← h]
  | cons dmem rest ih =>
    intro sq room r h
    rw [retire_stores] at h
    by_cases ha : dmem.address ≠ 0
    · rw [if_pos ha] at h
      cases hq : dmem.q_it with
      | none => rw [hq] at h; exact absurd h (by simp)
      | some sq_it =>
        rw [hq] at h
        simp only at h
        cases he : sq[sq_it]? with
        | none => rw [he] at h; exact absurd h (by simp)
        | some e =>
          rw [he] at h
          simp only at h
          by_cases hr : room = 0
          · rw [if_pos hr] at h
            simp only [Except.ok.injEq] at h
            rw [← h]
          · rw [if_neg hr] at h
            cases h2 : retire_stores cpu rest (sq.set sq_it {}) (room - 1) with
            | error a => rw [h2] at h; exact absurd h (by simp)
            | ok r2 =>
              rw [h2] at h
              simp only [Except.ok.injEq] at h
              rw [← h]
              simp only [List.map_cons, ih _ _ r2 h2]
    · rw [if_neg ha] at h
      cases h2 : retire_stores cpu rest sq room with
      | error a => rw [h2] at h; exact absurd h (by simp)
      | ok r2 =>
        rw [h2] at h
        simp only [Except.ok.injEq] at h
        rw [← h]
        simp only [List.map_cons, ih _ _ r2 h2]

/-- The loop of `retire_rob` removes completed entries from the head of the ROB; what is
left is the same for the accounting of `STA`. -/
theorem retire_loop_sta {β : Type} :
    ∀ (bw room : Nat) (s t : Core β), retire_loop bw room s = .ok t →
      ∃ k, List.Forall₂ ooo_model_instr.sta_same (s.ROB.drop k) t.ROB
        ∧ (∀ a, a ∈ s.ROB.take k → a.executed = COMPLETED)
        ∧ t.queue = s.queue ∧ t.STA = s.STA := by
  intro bw
  induction bw with
  | zero =>
    intro room s t ht
    simp only [retire_loop, Except.ok.injEq] at ht
    subst ht
    exact ⟨0, sta_rob_self _, by simp, rfl, rfl⟩
  | succ bw ih =>
    intro room s t ht
    rw [retire_loop] at ht
    have hcases : s.ROB = [] ∨ ∃ x rest, s.ROB = x :: rest := by
      cases s.ROB with
      | nil => exact Or.inl rfl
      | cons x rest => exact Or.inr ⟨x, rest, rfl⟩
    rcases hcases with hrob | ⟨x, rest, hrob⟩
    · rw [hrob] at ht
      simp only [Except.ok.injEq] at ht
      subst ht
      exact ⟨0, sta_rob_self _, by simp, rfl, rfl⟩
    · rw [hrob] at ht
      simp only at ht
      by_cases hx : x.executed = COMPLETED
      · rw [if_pos hx] at ht
        cases hr : retire_stores s.cpu x.destination_memory s.SQ room with
        | error a => rw [hr] at ht; exact absurd ht (by simp)
        | ok r =>
          rw [hr] at ht
          simp only at ht
          by_cases hall : r.2.2.2.1 = true
          · rw [if_pos hall] at ht
            obtain ⟨k, hf, hdone, hq, hsta⟩ := ih _ _ t ht
            refine ⟨k + 1, ?_, ?_, hq, hsta⟩
            · rw [hrob, List.drop_succ_cons]
              exact hf
            · intro a ha
              rw [hrob, List.take_succ_cons, List.mem_cons] at ha
              rcases ha with ha | ha
              · rw [ha]; exact hx
              · exact hdone a ha
          · rw [if_neg hall] at ht
            simp only [Except.ok.injEq] at ht
            subst ht
            refine ⟨0, ?_, by simp, rfl, rfl⟩
            rw [List.drop_zero, hrob]
            refine List.Forall₂.cons ⟨rfl, ?_, rfl, fun h => Or.inl h⟩ (sta_rob_self _)
            exact retire_stores_added _ _ _ _ r hr
      · rw [if_neg hx] at ht
        simp only [Except.ok.injEq] at ht
        subst ht
        exact ⟨0, sta_rob_self _, by simp, rfl, rfl⟩

/-- The accounting of `STA` survives the removal of entries that owe nothing from the head
of the ROB. -/
theorem sta_inv_drop {β : Type} (s : Core β) (k : Nat) (h : s.sta_inv)
    (hdone : ∀ a, a ∈ s.ROB.take k → a.pending = 0) :
    ({ s with ROB := s.ROB.drop k } : Core β).sta_inv := by
  have hin : s.in_flight = s.ROB.take k ++ (s.ROB.drop k ++ s.queue) := by
    unfold Core.in_flight
    rw [← List.append_assoc, List.take_append_drop]
  have hint : ({ s with ROB := s.ROB.drop k } : Core β).in_flight = s.ROB.drop k ++ s.queue :=
    rfl
  have hsub : ∀ a, a ∈ s.ROB.drop k ++ s.queue → a ∈ s.in_flight := by
    intro a ha
    rw [hin]
    exact List.mem_append_right _ ha
  constructor
  · rw [hint]
    have := h.ids
    rw [hin, List.map_append, List.pairwise_append] at this
    exact this.2.1
  · show s.STA = _
    rw [hint, h.sta, hin, sta_owed_append, sta_owed_nil _ hdone, List.nil_append]
  · intro a ha hc
    exact h.done a (hsub a ha) hc
  · intro a ha hm
    exact h.plain a (hsub a ha) hm

/-- `retire_rob` keeps the accounting of `STA`: a completed entry is scheduled, and so owes
nothing. -/
theorem retire_rob_sta {β : Type} (cfg : StageConfig) (room : Nat) (s t : Core β)
    (pushed written : List Nat) (hinv : s.inv cfg pushed written) (h : s.sta_inv)
    (ht : retire_rob cfg room s = .ok t) : t.sta_inv := by
  obtain ⟨k, hf, hdone, hq, hsta⟩ := retire_loop_sta _ _ s t ht
  have hp : ∀ a, a ∈ s.ROB.take k → a.pending = 0 := by
    intro a ha
    have hmem : a ∈ s.ROB := List.mem_of_mem_take ha
    have hx : a.executed ≠ 0 := by
      rw [hdone a ha]; decide
    exact h.done a (List.mem_append_left _ hmem)
      (hinv.backend.executed_scheduled a hmem hx).1
  have h1 := sta_inv_drop s k h hp
  exact sta_inv_of_keeps _ t h1 (sta_keeps_of_rob _ t hq hsta hf)

/-- `dispatch_instruction` keeps the accounting of `STA`: it moves instructions from the
front end to the ROB. -/
theorem dispatch_instruction_sta {β : Type} (cfg : StageConfig) (s : Core β)
    (h : s.sta_inv) : (dispatch_instruction cfg s).sta_inv := by
  obtain ⟨k, h1, h2, -, h4⟩ := dispatch_instruction_moves cfg s
  generalize dispatch_instruction cfg s = t at h1 h2 h4
  have hsta : t.STA = s.STA := by rw [h4]
  have hdec : t.DECODE_BUFFER = s.DECODE_BUFFER := by rw [h4]
  have hif : t.IFETCH_BUFFER = s.IFETCH_BUFFER := by rw [h4]
  have hsplit : s.queue = (s.DISPATCH_BUFFER.take k).map (fun e => e.item) ++ t.queue := by
    have e : (s.DISPATCH_BUFFER.take k).map (fun e => e.item)
        ++ (s.DISPATCH_BUFFER.drop k).map (fun e => e.item)
        = s.DISPATCH_BUFFER.map (fun e => e.item) := by
      rw [← List.map_append, List.take_append_drop]
    unfold Core.queue
    rw [h2, hdec, hif, ← List.append_assoc, ← List.append_assoc, e]
  have hall : t.in_flight = s.in_flight := by
    unfold Core.in_flight
    rw [h1, hsplit, List.append_assoc]
  refine sta_inv_of_keeps s t h ⟨?_, hsta⟩
  rw [hall]
  exact sta_rob_self _

/-- The destination memory operands and `is_memory` of the instruction that
`init_instruction` appends to `IFETCH_BUFFER`: the operands are those of the trace
instruction, and `is_memory` is 0 only when there is none. -/
theorem pushed_store_fields {β : Type} (cfg : CoreConfig) (hooks : BranchHooks β) (w : Bool)
    (s : O3_CPU β) (id c : Nat) (a : ooo_model_instr) :
    (warmup_strip w { (handle_branch_prediction hooks w s (decoded_instr cfg id a)).2 with
        event_cycle := c }).destination_memory = a.destination_memory
      ∧ ((warmup_strip w { (handle_branch_prediction hooks w s (decoded_instr cfg id a)).2 with
            event_cycle := c }).is_memory = 0 → a.destination_memory = []) := by
  have h0 : ∀ b : ooo_model_instr, (count_ops b).destination_memory = b.destination_memory
      ∧ ((count_ops b).is_memory = 0 → b.destination_memory = []) := by
    intro b
    unfold count_ops
    simp only
    split_ifs with hgt
    · refine ⟨rfl, ?_⟩
      intro h
      exact absurd h (by decide)
    · refine ⟨rfl, ?_⟩
      intro _
      have : b.destination_memory.length = 0 := by omega
      exact List.length_eq_zero.mp this
  have h1 : ∀ (f : RegFlags) (b : ooo_model_instr),
      (classify_branch f b).destination_memory = b.destination_memory
        ∧ (classify_branch f b).is_memory = b.is_memory := by
    intro f b
    unfold classify_branch
    split_ifs <;> exact ⟨rfl, rfl⟩
  have h2 : ∀ b : ooo_model_instr, (clear_target b).destination_memory = b.destination_memory
      ∧ (clear_target b).is_memory = b.is_memory := by
    intro b
    unfold clear_target
    split_ifs <;> exact ⟨rfl, rfl⟩
  have h3 : ∀ (f : RegFlags) (b : ooo_model_instr),
      (fold_stack_pointer cfg f b).destination_memory = b.destination_memory
        ∧ (fold_stack_pointer cfg f b).is_memory = b.is_memory := by
    intro f b
    unfold fold_stack_pointer
    split_ifs <;> exact ⟨rfl, rfl⟩
  have h4 : ∀ b : ooo_model_instr, (warmup_strip w b).destination_memory = b.destination_memory
      ∧ (warmup_strip w b).is_memory = b.is_memory := by
    intro b
    unfold warmup_strip
    split_ifs <;> exact ⟨rfl, rfl⟩
  have hd : (decoded_instr cfg id a).destination_memory = a.destination_memory
      ∧ ((decoded_instr cfg id a).is_memory = 0 → a.destination_memory = []) := by
    unfold decoded_instr
    simp only
    rw [(h3 _ _).1, (h3 _ _).2, (h2 _).1, (h2 _).2, (h1 _ _).1, (h1 _ _).2]
    exact h0 { a with instr_id := id }
  rw [(h4 _).1, (h4 _).2]
  rcases handle_branch_prediction_instr hooks w s (decoded_instr cfg id a) with h | h <;>
    rw [h] <;> exact hd

/-- The instruction that `init_instruction` appends to `IFETCH_BUFFER`, for the accounting
of `STA`. -/
theorem core_init_instruction_store {β : Type} (cfg : StageConfig) (hooks : BranchHooks β)
    (wc : Bool) (s t : Core β) (arch : ooo_model_instr)
    (ht : s.init_instruction cfg hooks wc arch = some t) :
    ∃ x, t.IFETCH_BUFFER = s.IFETCH_BUFFER ++ [x]
      ∧ x.instr_id = s.instr_unique_id ∧ x.scheduled = arch.scheduled
      ∧ x.destination_memory = arch.destination_memory
      ∧ (x.is_memory = 0 → arch.destination_memory = []) := by
  unfold Core.init_instruction at ht
  unfold ChampSim.init_instruction at ht
  simp only at ht
  split_ifs at ht with hc
  swap
  · exact absurd ht (by simp)
  simp only [Option.map_some', Option.some.injEq] at ht
  subst ht
  have hb := pushed_backend cfg.toCoreConfig hooks wc
    (tallied_core cfg.toCoreConfig s.toO3_CPU arch) s.instr_unique_id s.current_cycle arch
  have hs := pushed_store_fields cfg.toCoreConfig hooks wc
    (tallied_core cfg.toCoreConfig s.toO3_CPU arch) s.instr_unique_id s.current_cycle arch
  unfold ooo_model_instr.backend at hb
  simp only [Prod.mk.injEq] at hb
  exact ⟨_, push_instr_buffer cfg.toCoreConfig hooks wc s.toO3_CPU arch, hb.1, hb.2.1, hs.1,
    hs.2⟩

/-- `init_instruction` on a trace instruction none of whose destination operands is `added`
keeps the accounting of `STA`: it pushes one id for each of them. -/
theorem init_instruction_sta {β : Type} (cfg : StageConfig) (hooks : BranchHooks β)
    (wc : Bool) (s t : Core β) (arch : ooo_model_instr) (pushed written : List Nat)
    (hinv : s.inv cfg pushed written) (h : s.sta_inv) (hfresh : arch.fresh)
    (hops : ∀ m, m ∈ arch.destination_memory → m.added = false)
    (ht : s.init_instruction cfg hooks wc arch = some t) : t.sta_inv := by
  obtain ⟨x, hbuf, hx1, hx2, hx3, hx4⟩ := core_init_instruction_store cfg hooks wc s t arch ht
  obtain ⟨-, -, hsta, hrob, -, -, hdec, hdis⟩ :=
    core_init_instruction_spec cfg hooks wc s t arch ht
  have hti := init_instruction_inv cfg hooks wc s t arch pushed written hinv hfresh ht
  have hq : t.queue = s.queue ++ [x] := by
    unfold Core.queue
    rw [hbuf, hdec, hdis, List.append_assoc, List.append_assoc, List.append_assoc]
  have hall : t.in_flight = s.in_flight ++ [x] := by
    unfold Core.in_flight
    rw [hrob, hq, List.append_assoc]
  have hpx : x.pending = arch.destination_memory.length := by
    unfold ooo_model_instr.pending
    rw [hx3]
    apply List.countP_eq_length.mpr
    intro d hd
    simp [hops d hd]
  constructor
  · exact hti.ids_sorted
  · rw [hall, sta_owed_append, hsta, h.sta]
    simp only [sta_owed, hpx, hx1, List.append_nil]
  · intro a ha hc
    rw [hall, List.mem_append, List.mem_singleton] at ha
    rcases ha with ha | ha
    · exact h.done a ha hc
    · rw [ha, hx2, hfresh.1] at hc
      exact absurd hc (by decide)
  · intro a ha hm
    rw [hall, List.mem_append, List.mem_singleton] at ha
    rcases ha with ha | ha
    · exact h.plain a ha hm
    · rw [ha] at hm ⊢
      rw [hx3]
      exact hx4 hm

/-! ## The accounting of `STA`: the cycles of the core -/

/-- The stages of `operate` that run before `schedule_memory_instruction` keep the invariant
of the runs and the accounting of `STA`. -/
theorem operate_front_half_inv {β : Type} (cfg : StageConfig) (wc : Bool) (env : CycleEnv)
    (s s1 s2 s3 s4 s5 s6 : Core β) (pushed written : List Nat)
    (hinv : s.inv cfg pushed written) (h : s.sta_inv)
    (h1 : retire_rob cfg env.wq_room
      { s with toO3_CPU := set_read_budget cfg.toCoreConfig s.toO3_CPU } = .ok s1)
    (h2 : complete_inflight_instruction cfg s1 = .ok s2)
    (h3 : execute_instruction cfg wc s2 = .ok s3)
    (h4 : schedule_instruction cfg wc s3 = .ok s4)
    (h5 : handle_memory_return cfg env.DTLB_MAX_READ env.L1D_MAX_READ s4 = .ok s5)
    (h6 : operate_lsq env.SQ_WIDTH env.LQ_WIDTH env.dtlb env.l1d s5 = .ok s6) :
    s6.inv cfg pushed written ∧ s6.sta_inv := by
  have i0 : ({ s with toO3_CPU := set_read_budget cfg.toCoreConfig s.toO3_CPU } : Core β).inv
      cfg pushed written :=
    inv_of_front_step cfg _ _ _ _ hinv ⟨rfl, rfl, rfl, rfl, rfl, rfl⟩
  have a0 : ({ s with toO3_CPU := set_read_budget cfg.toCoreConfig s.toO3_CPU }
      : Core β).sta_inv :=
    sta_inv_of_keeps _ _ h (sta_keeps_of_front _ _ ⟨rfl, rfl, rfl⟩)
  have i1 := retire_rob_inv cfg env.wq_room _ s1 pushed written i0 h1
  have a1 := retire_rob_sta cfg env.wq_room _ s1 pushed written i0 a0 h1
  obtain ⟨b2, e2, -, k2⟩ := (complete_loop_ok cfg _ _ _ s1 i1.backend i1.rob_size).2 s2 h2
  have i2 := inv_of_back_step_nil cfg s1 s2 pushed written i1 b2 e2 k2
  have a2 := sta_inv_of_keeps _ _ a1
    (sta_keeps_of_rob s1 s2 b2.queue e2 (complete_loop_sta cfg _ _ _ s1 s2 h2))
  obtain ⟨t3, ht3, b3, e3, k3⟩ := execute_loop_ok cfg wc cfg.EXEC_WIDTH s2 i2.backend
  have e : t3 = s3 := by
    unfold execute_instruction at h3
    rw [ht3] at h3
    exact Except.ok.inj h3
  subst e
  have i3 := inv_of_back_step_nil cfg s2 t3 pushed written i2 b3 e3 k3
  have a3 := sta_inv_of_keeps _ _ a2
    (sta_keeps_of_rob s2 t3 b3.queue e3 (execute_loop_sta cfg wc _ s2 t3 h3))
  obtain ⟨b4, e4, -, k4⟩ :=
    (schedule_loop_ok cfg wc _ _ _ t3 i3.backend i3.rob_size).2.1 s4 h4
  have i4 := inv_of_back_step_nil cfg t3 s4 pushed written i3 b4 e4 k4
  have a4 := sta_inv_of_keeps _ _ a3
    (sta_keeps_of_rob t3 s4 b4.queue e4 (schedule_loop_sta cfg wc _ _ _ t3 s4 h4))
  have i4b := inv_of_front_step cfg _ _ _ _ i4 (handle_memory_return_instr_front cfg s4)
  have a4b := sta_inv_of_keeps _ _ a4
    (sta_keeps_of_front _ _ (handle_memory_return_instr_sta cfg s4))
  unfold handle_memory_return at h5
  cases hd : dtlb_return env.DTLB_MAX_READ (handle_memory_return_instr cfg s4) with
  | error a => rw [hd] at h5; exact absurd h5 (by simp)
  | ok s4c =>
    rw [hd] at h5
    simp only at h5
    have x1 := dtlb_return_exact _ _ s4c hd
    have x2 := l1d_return_data_exact _ s4c s5 h5
    have x3 := operate_lsq_exact _ _ _ _ s5 s6 h6
    have i4c := lsq_step_inv cfg _ s4c pushed written i4b (lsq_step_of_exact _ _ x1)
    have i5 := lsq_step_inv cfg _ s5 pushed written i4c (lsq_step_of_exact _ _ x2)
    have i6 := lsq_step_inv cfg _ s6 pushed written i5 (lsq_step_of_exact _ _ x3)
    have a4c := sta_inv_of_keeps _ _ a4b (sta_keeps_of_lsq_exact _ _ x1)
    have a5 := sta_inv_of_keeps _ _ a4c (sta_keeps_of_lsq_exact _ _ x2)
    have a6 := sta_inv_of_keeps _ _ a5 (sta_keeps_of_lsq_exact _ _ x3)
    exact ⟨i6, a6⟩

/-- The stages of `operate` from `schedule_memory_instruction` on keep the invariant of the
runs and the accounting of `STA`. -/
theorem operate_back_half_inv {β : Type} (cfg : StageConfig) (wc : Bool) (env : CycleEnv)
    (s6 s7 s9 : Core β) (pushed written w : List Nat)
    (hinv : s6.inv cfg pushed written) (h : s6.sta_inv)
    (h7 : schedule_memory_instruction cfg s6 = .ok (s7, w))
    (h9 : decode_instruction cfg wc (dispatch_instruction cfg s7) = .ok s9) :
    (check_dib cfg (translate_fetch (fetch_instruction (promote_to_decode cfg wc s9)
        env.l1i_rq) env.itlb_rq)).inv cfg pushed (written ++ w)
      ∧ (check_dib cfg (translate_fetch (fetch_instruction (promote_to_decode cfg wc s9)
        env.l1i_rq) env.itlb_rq)).sta_inv := by
  obtain ⟨b7, e7, l7, k7⟩ := (schedule_memory_loop_ok cfg _ _ _ s6 hinv.backend).2 s7 w h7
  have i7 := inv_of_back_step cfg s6 s7 pushed written w hinv b7 e7 l7 k7
  have a7 := schedule_memory_loop_inv cfg _ _ _ s6 s7 w h h7
  have i8 := dispatch_instruction_inv cfg s7 pushed (written ++ w) i7
  have a8 := dispatch_instruction_sta cfg s7 a7
  have i9 := inv_of_front_step cfg _ _ _ _ i8 (decode_instruction_front cfg wc _ s9 h9)
  have a9 := sta_inv_of_keeps _ _ a8
    (sta_keeps_of_front _ _ (decode_instruction_sta cfg wc _ s9 h9))
  have i10 := inv_of_front_step cfg _ _ _ _ i9 (promote_to_decode_front cfg wc s9)
  have a10 := sta_inv_of_keeps _ _ a9 (sta_keeps_of_front _ _ (promote_to_decode_sta cfg wc s9))
  have i11 := inv_of_front_step cfg _ _ _ _ i10 (fetch_instruction_front _ env.l1i_rq)
  have a11 := sta_inv_of_keeps _ _ a10
    (sta_keeps_of_front _ _ (fetch_instruction_sta _ env.l1i_rq))
  have i12 := inv_of_front_step cfg _ _ _ _ i11 (translate_fetch_front _ env.itlb_rq)
  have a12 := sta_inv_of_keeps _ _ a11
    (sta_keeps_of_front _ _ (translate_fetch_sta _ env.itlb_rq))
  exact ⟨inv_of_front_step cfg _ _ _ _ i12 (check_dib_front cfg _),
    sta_inv_of_keeps _ _ a12 (sta_keeps_of_front _ _ (check_dib_sta cfg _))⟩

/-- A call of `operate` that returns keeps the invariant of the runs and the accounting of
`STA`. -/
theorem operate_sta_inv {β : Type} (cfg : StageConfig) (wc : Bool) (env : CycleEnv)
    (s t : Core β) (pushed written w : List Nat)
    (hinv : s.inv cfg pushed written) (h : s.sta_inv)
    (ht : Core.operate cfg wc env s = .ok (t, w)) :
    t.inv cfg pushed (written ++ w) ∧ t.sta_inv := by
  unfold Core.operate at ht
  simp only at ht
  cases h1 : retire_rob cfg env.wq_room
      { s with toO3_CPU := set_read_budget cfg.toCoreConfig s.toO3_CPU } with
  | error a => rw [h1] at ht; exact absurd ht (by simp)
  | ok s1 =>
    rw [h1] at ht
    simp only at ht
    cases h2 : complete_inflight_instruction cfg s1 with
    | error a => rw [h2] at ht; exact absurd ht (by simp)
    | ok s2 =>
      rw [h2] at ht
      simp only at ht
      cases h3 : execute_instruction cfg wc s2 with
      | error a => rw [h3] at ht; exact absurd ht (by simp)
      | ok s3 =>
        rw [h3] at ht
        simp only at ht
        cases h4 : schedule_instruction cfg wc s3 with
        | error a => rw [h4] at ht; exact absurd ht (by simp)
        | ok s4 =>
          rw [h4] at ht
          simp only at ht
          cases h5 : handle_memory_return cfg env.DTLB_MAX_READ env.L1D_MAX_READ s4 with
          | error a => rw [h5] at ht; exact absurd ht (by simp)
          | ok s5 =>
            rw [h5] at ht
            simp only at ht
            cases h6 : operate_lsq env.SQ_WIDTH env.LQ_WIDTH env.dtlb env.l1d s5 with
            | error a => rw [h6] at ht; exact absurd ht (by simp)
            | ok s6 =>
              rw [h6] at ht
              simp only at ht
              obtain ⟨i6, a6⟩ := operate_front_half_inv cfg wc env s s1 s2 s3 s4 s5 s6 pushed
                written hinv h h1 h2 h3 h4 h5 h6
              cases h7 : schedule_memory_instruction cfg s6 with
              | error a => rw [h7] at ht; exact absurd ht (by simp)
              | ok r7 =>
                obtain ⟨s7, w7⟩ := r7
                rw [h7] at ht
                simp only at ht
                cases h9 : decode_instruction cfg wc (dispatch_instruction cfg s7) with
                | error a => rw [h9] at ht; exact absurd ht (by simp)
                | ok s9 =>
                  rw [h9] at ht
                  simp only [Except.ok.injEq, Prod.mk.injEq] at ht
                  rw [← ht.1, ← ht.2]
                  exact operate_back_half_inv cfg wc env s6 s7 s9 pushed written w7 i6 a6 h7 h9

/-- In every state of the core that the simulation loop reaches, the invariant of the runs
and the accounting of `STA` hold. -/
theorem operates_sta_inv {β : Type} (cfg : StageConfig) (hooks : BranchHooks β) (s : Core β)
    (h : Core.operates cfg hooks s) :
    (∃ pushed written, s.inv cfg pushed written) ∧ s.sta_inv := by
  induction h with
  | idle s h1 h2 h3 h4 h5 h6 _ _ _ _ _ _ _ _ _ _ _ _ _ _ =>
    refine ⟨⟨[], [], runs_inv cfg hooks s [] [] (Core.runs.init s h1 h2 h3 h4 h5 h6)⟩, ?_⟩
    have hq : s.queue = [] := by
      unfold Core.queue
      rw [h1, h2, h3]
      rfl
    have hin : s.in_flight = [] := by
      unfold Core.in_flight
      rw [h4, hq]
      rfl
    constructor
    · rw [hin]; exact List.Pairwise.nil
    · rw [hin, h6]; rfl
    · intro a ha; rw [hin] at ha; exact absurd ha (List.not_mem_nil _)
    · intro a ha; rw [hin] at ha; exact absurd ha (List.not_mem_nil _)
  | cycle wc env s t written _ ht ih =>
    obtain ⟨⟨p, w, hinv⟩, hsta⟩ := ih
    obtain ⟨i1, a1⟩ := operate_sta_inv cfg wc env s t p w written hinv hsta ht
    exact ⟨⟨p, w ++ written, inv_of_front_step cfg _ _ _ _ i1 ⟨rfl, rfl, rfl, rfl, rfl, rfl⟩⟩,
      sta_inv_of_keeps _ _ a1 (sta_keeps_of_front _ _ ⟨rfl, rfl, rfl⟩)⟩
  | init_instruction wc s t arch _ hfresh _ hops _ _ ht ih =>
    obtain ⟨⟨p, w, hinv⟩, hsta⟩ := ih
    exact ⟨⟨_, w, init_instruction_inv cfg hooks wc s t arch p w hinv hfresh ht⟩,
      init_instruction_sta cfg hooks wc s t arch p w hinv hsta hfresh
        (fun m hm => (hops m (List.mem_append_right _ hm)).1) ht⟩
  | dtlb_answer s before after packet data _ _ ih =>
    obtain ⟨⟨p, w, hinv⟩, hsta⟩ := ih
    exact ⟨⟨p, w, lsq_step_inv cfg s _ p w hinv ⟨rfl, forall₂_self _ mem_only_refl _⟩⟩,
      sta_inv_of_keeps _ _ hsta (sta_keeps_of_front _ _ ⟨rfl, rfl, rfl⟩)⟩
  | l1d_answer s before after packet data _ _ ih =>
    obtain ⟨⟨p, w, hinv⟩, hsta⟩ := ih
    exact ⟨⟨p, w, lsq_step_inv cfg s _ p w hinv ⟨rfl, forall₂_self _ mem_only_refl _⟩⟩,
      sta_inv_of_keeps _ _ hsta (sta_keeps_of_front _ _ ⟨rfl, rfl, rfl⟩)⟩
  | itlb_answer s before after packet data _ _ ih =>
    obtain ⟨⟨p, w, hinv⟩, hsta⟩ := ih
    exact ⟨⟨p, w, inv_of_front_step cfg _ _ _ _ hinv ⟨rfl, rfl, rfl, rfl, rfl, rfl⟩⟩,
      sta_inv_of_keeps _ _ hsta (sta_keeps_of_front _ _ ⟨rfl, rfl, rfl⟩)⟩
  | l1i_answer s before after packet data _ _ ih =>
    obtain ⟨⟨p, w, hinv⟩, hsta⟩ := ih
    exact ⟨⟨p, w, inv_of_front_step cfg _ _ _ _ hinv ⟨rfl, rfl, rfl, rfl, rfl, rfl⟩⟩,
      sta_inv_of_keeps _ _ hsta (sta_keeps_of_front _ _ ⟨rfl, rfl, rfl⟩)⟩

/-- `add_store_queue` returns when the ROB entry and its operand exist and the store queue
has an invalid slot. -/
theorem add_store_queue_returns {β : Type} (cfg : StageConfig) (s : Core β)
    (i data_index : Nat) (rob_it : ooo_model_instr) (dmem : lsq_info) (sq_it : Nat)
    (hi : s.ROB[i]? = some rob_it)
    (hk : rob_it.destination_memory[data_index]? = some dmem)
    (hsq : find_invalid s.SQ = some sq_it) :
    ∃ t, add_store_queue cfg s i data_index = .ok t := by
  obtain ⟨slot, hslot, hv⟩ := find_invalid_some _ _ hsq
  unfold add_store_queue
  rw [hi, hsq]
  simp only
  rw [hslot, hk]
  simp only
  rw [if_pos hv]
  exact ⟨_, rfl⟩

/-- In a core whose `STA` is accounted for, the body of the loop of `do_memory_scheduling`
over the stores, on an operand that is not `added`, finds the id of its instruction in
`STA`, which is not empty, and does not stop on a dangling access. -/
theorem schedule_store_reads {β : Type} (cfg : StageConfig) (u : Core β) (h : u.sta_inv)
    (i k : Nat) (rob_it : ooo_model_instr) (dmem : lsq_info) (hi : u.ROB[i]? = some rob_it)
    (hk : rob_it.destination_memory[k]? = some dmem) (hd : dmem.added = false) :
    rob_it.instr_id ∈ u.STA ∧ u.STA ≠ []
      ∧ schedule_store cfg u i k ≠ .error Abort.dangling := by
  have hmem := sta_nonempty u h i k rob_it dmem hi hk hd
  have hne : u.STA ≠ [] := List.ne_nil_of_mem hmem
  refine ⟨hmem, hne, ?_⟩
  unfold schedule_store
  rw [hi]
  simp only
  rw [hk]
  simp only [hd, Bool.not_false, if_true]
  cases hsq : find_invalid u.SQ with
  | none => simp
  | some sq_it =>
    simp only
    cases hsta : u.STA with
    | nil => exact absurd hsta hne
    | cons x rest =>
      simp only
      by_cases hx : x = rob_it.instr_id
      · rw [if_pos hx]
        obtain ⟨t, ht⟩ := add_store_queue_returns cfg u i k rob_it dmem sq_it hi hk hsq
        rw [ht]
        simp only
        obtain ⟨⟨slot, hslot, -⟩, -⟩ := (add_store_queue_ok cfg u i k rob_it hi sq_it hsq).2 t ht
        rw [hslot]
        simp
      · rw [if_neg hx]
        simp

/-- C39. In every state of the core that the simulation loop reaches (whole calls of
`operate`, `init_instruction` on trace instructions whose memory operands are not `added`,
the answers of the caches), with the instructions in flight taken oldest first, those of the
ROB, then those of `DISPATCH_BUFFER`, `DECODE_BUFFER` and `IFETCH_BUFFER`: `STA` is the list
of their ids, each id once for every destination memory operand of its instruction with
`added == false`; so `STA.size()` is the total number of such operands, every id occurs in
`STA` as often as its instruction has such operands, and every id of `STA` is the id of an
instruction in flight that has one. The accounting (`sta_inv`) also holds in the state in
which `operate` calls `schedule_memory_instruction`, and every step of the loops of
`schedule_memory_instruction` and `do_memory_scheduling` keeps it; and in every core where it
holds, when the loop over the stores comes to an operand that is not `added`, the id of its
instruction is in `STA`, `STA` is not empty, and the read of `STA.front()` is no dangling
access. -/
theorem sta_accounting {β : Type} (cfg : StageConfig) (hooks : BranchHooks β) (s : Core β)
    (h : Core.operates cfg hooks s) :
    s.STA = sta_owed (s.ROB ++ (s.DISPATCH_BUFFER.map (fun e => e.item)
        ++ s.DECODE_BUFFER.map (fun e => e.item) ++ s.IFETCH_BUFFER))
      ∧ s.STA.length = ((s.ROB ++ (s.DISPATCH_BUFFER.map (fun e => e.item)
          ++ s.DECODE_BUFFER.map (fun e => e.item) ++ s.IFETCH_BUFFER)).map
            (fun a => a.destination_memory.countP (fun d => !d.added))).sum
      ∧ (∀ a, a ∈ s.ROB ++ (s.DISPATCH_BUFFER.map (fun e => e.item)
            ++ s.DECODE_BUFFER.map (fun e => e.item) ++ s.IFETCH_BUFFER) →
          s.STA.count a.instr_id = a.destination_memory.countP (fun d => !d.added))
      ∧ (∀ x, x ∈ s.STA → ∃ a, a ∈ s.ROB ++ (s.DISPATCH_BUFFER.map (fun e => e.item)
            ++ s.DECODE_BUFFER.map (fun e => e.item) ++ s.IFETCH_BUFFER)
          ∧ a.instr_id = x ∧ 0 < a.destination_memory.countP (fun d => !d.added))
      ∧ s.sta_inv
      ∧ (∀ (wc : Bool) (env : CycleEnv) (s1 s2 s3 s4 s5 s6 : Core β),
          retire_rob cfg env.wq_room
            { s with toO3_CPU := set_read_budget cfg.toCoreConfig s.toO3_CPU } = .ok s1 →
          complete_inflight_instruction cfg s1 = .ok s2 →
          execute_instruction cfg wc s2 = .ok s3 →
          schedule_instruction cfg wc s3 = .ok s4 →
          handle_memory_return cfg env.DTLB_MAX_READ env.L1D_MAX_READ s4 = .ok s5 →
          operate_lsq env.SQ_WIDTH env.LQ_WIDTH env.dtlb env.l1d s5 = .ok s6 → s6.sta_inv)
      ∧ (∀ u : Core β, u.sta_inv →
          (∀ n i bw t w, schedule_memory_loop cfg n i bw u = .ok (t, w) → t.sta_inv)
          ∧ (∀ i t w, do_memory_scheduling cfg u i = .ok (t, w) → t.sta_inv)
          ∧ (∀ i n k t, schedule_loads cfg i n k u = .ok t → t.sta_inv)
          ∧ (∀ i k t w, schedule_store cfg u i k = .ok (t, w) → t.sta_inv)
          ∧ (∀ i k rob_it dmem, u.ROB[i]? = some rob_it →
              rob_it.destination_memory[k]? = some dmem → dmem.added = false →
              rob_it.instr_id ∈ u.STA ∧ u.STA ≠ []
                ∧ schedule_store cfg u i k ≠ .error Abort.dangling)) := by
  obtain ⟨⟨p, w, hinv⟩, hsta⟩ := operates_sta_inv cfg hooks s h
  have e1 : s.STA = sta_owed s.in_flight := hsta.sta
  refine ⟨e1, ?_, ?_, ?_, hsta, ?_, ?_⟩
  · rw [e1]
    exact sta_owed_length s.in_flight
  · intro a ha
    rw [e1]
    exact count_sta_owed s.in_flight hsta.ids a ha
  · intro x hx
    rw [e1] at hx
    exact mem_sta_owed s.in_flight x hx
  · intro wc env s1 s2 s3 s4 s5 s6 h1 h2 h3 h4 h5 h6
    exact (operate_front_half_inv cfg wc env s s1 s2 s3 s4 s5 s6 p w hinv hsta h1 h2 h3 h4 h5
      h6).2
  · intro u hu
    refine ⟨?_, ?_, ?_, ?_, ?_⟩
    · intro n i bw t w ht
      exact schedule_memory_loop_inv cfg n i bw u t w hu ht
    · intro i t w ht
      exact do_memory_scheduling_inv cfg u t i w hu ht
    · intro i n k t ht
      exact sta_inv_of_keeps u t hu (schedule_loads_sta cfg i n k u t ht)
    · intro i k t w ht
      exact schedule_store_inv cfg u t i k w hu ht
    · intro i k rob_it dmem hi hk hd
      exact schedule_store_reads cfg u hu i k rob_it dmem hi hk hd

/-- The simulation loop reaches the core `core_w6`. -/
theorem core_w6_operates : Core.operates cfg_stage (const_hooks 0 0 0) core_w6 := by
  have h0 : Core.operates cfg_stage (const_hooks 0 0 0) core_one_slot :=
    Core.operates.idle core_one_slot rfl rfl rfl rfl rfl rfl rfl rfl rfl rfl rfl rfl rfl rfl
      rfl rfl rfl rfl (fun _ he => List.eq_of_mem_replicate he)
      (fun _ he => List.eq_of_mem_replicate he)
  have h1 : Core.operates cfg_stage (const_hooks 0 0 0) core_w0 :=
    Core.operates.init_instruction true core_one_slot _ instr_p h0 ⟨rfl, rfl, rfl, rfl⟩ rfl
      (by decide) (by decide) (by decide) (option_eq_some_getD _ core_one_slot (by decide))
  exact operates_run_cycles cfg_stage (const_hooks 0 0 0) env_lsq 6 core_w0 core_w6 h1
    (option_eq_some_getD _ _ (by decide))

/-- Witness for C39: a store to two addresses in a core whose store queue has one slot, six
cycles after `init_instruction` has taken it from the trace. The instruction is in the ROB,
its first operand is `added` and its second is not, and `STA` holds its id once. -/
theorem sta_accounting_witness :
    core_w6.ROB.map (fun a => (a.instr_id, a.destination_memory.map (fun d => d.added)))
        = [(0, [true, false])]
      ∧ (core_w6.DISPATCH_BUFFER, core_w6.DECODE_BUFFER, core_w6.IFETCH_BUFFER) = ([], [], [])
      ∧ core_w6.STA = [0]
      ∧ core_w6.STA = sta_owed (core_w6.ROB ++ (core_w6.DISPATCH_BUFFER.map (fun e => e.item)
          ++ core_w6.DECODE_BUFFER.map (fun e => e.item) ++ core_w6.IFETCH_BUFFER))
      ∧ core_w6.STA.length = ((core_w6.ROB ++ (core_w6.DISPATCH_BUFFER.map (fun e => e.item)
          ++ core_w6.DECODE_BUFFER.map (fun e => e.item) ++ core_w6.IFETCH_BUFFER)).map
            (fun a => a.destination_memory.countP (fun d => !d.added))).sum := by
  have h := sta_accounting cfg_stage (const_hooks 0 0 0) core_w6 core_w6_operates
  exact ⟨by decide, by decide, by decide, h.1, h.2.1⟩


end ChampSim
